import Mathlib

/-!
# Cogl sparse pipeline state graph

A shallow embedding of `cogl/cogl-pipeline.c`: the pipeline tree and the layer
tree live in a heap (a pointer is an index into a list of records), every
function of the source is a function on that heap, and a loop that follows
pointers takes a fuel argument that bounds the number of iterations.

A result of `none` stands for a run that does not return normally: a NULL or
dangling pointer is dereferenced, a `g_assert` fails, or the fuel runs out.
-/

set_option maxRecDepth 100000
set_option maxHeartbeats 1000000

namespace Cogl

/-! ## State groups -/

/-- Modelled from the spec: the enumeration `CoglPipelineStateIndex` is declared in
cogl-pipeline-private.h, which is not among the sources. The thirteen sparse groups
(`g_assert (COGL_PIPELINE_STATE_SPARSE_COUNT == 13)`) are followed by the one
non-sparse group. -/
def COGL_PIPELINE_STATE_COLOR_INDEX : Nat := 0
def COGL_PIPELINE_STATE_BLEND_ENABLE_INDEX : Nat := 1
def COGL_PIPELINE_STATE_LAYERS_INDEX : Nat := 2
def COGL_PIPELINE_STATE_LIGHTING_INDEX : Nat := 3
def COGL_PIPELINE_STATE_ALPHA_FUNC_INDEX : Nat := 4
def COGL_PIPELINE_STATE_ALPHA_FUNC_REFERENCE_INDEX : Nat := 5
def COGL_PIPELINE_STATE_BLEND_INDEX : Nat := 6
def COGL_PIPELINE_STATE_USER_SHADER_INDEX : Nat := 7
def COGL_PIPELINE_STATE_DEPTH_INDEX : Nat := 8
def COGL_PIPELINE_STATE_FOG_INDEX : Nat := 9
def COGL_PIPELINE_STATE_POINT_SIZE_INDEX : Nat := 10
def COGL_PIPELINE_STATE_LOGIC_OPS_INDEX : Nat := 11
def COGL_PIPELINE_STATE_CULL_FACE_INDEX : Nat := 12
def COGL_PIPELINE_STATE_REAL_BLEND_ENABLE_INDEX : Nat := 13
def COGL_PIPELINE_STATE_SPARSE_COUNT : Nat := 13

/-- Modelled from the spec: the masks `1L << index` of `CoglPipelineState`
(cogl-pipeline-private.h, not among the sources). -/
def COGL_PIPELINE_STATE_COLOR : Nat := 1
def COGL_PIPELINE_STATE_BLEND_ENABLE : Nat := 2
def COGL_PIPELINE_STATE_LAYERS : Nat := 4
def COGL_PIPELINE_STATE_LIGHTING : Nat := 8
def COGL_PIPELINE_STATE_ALPHA_FUNC : Nat := 16
def COGL_PIPELINE_STATE_ALPHA_FUNC_REFERENCE : Nat := 32
def COGL_PIPELINE_STATE_BLEND : Nat := 64
def COGL_PIPELINE_STATE_USER_SHADER : Nat := 128
def COGL_PIPELINE_STATE_DEPTH : Nat := 256
def COGL_PIPELINE_STATE_FOG : Nat := 512
def COGL_PIPELINE_STATE_POINT_SIZE : Nat := 1024
def COGL_PIPELINE_STATE_LOGIC_OPS : Nat := 2048
def COGL_PIPELINE_STATE_CULL_FACE : Nat := 4096
def COGL_PIPELINE_STATE_REAL_BLEND_ENABLE : Nat := 8192

/-- Modelled from the spec: the union of the thirteen sparse groups. -/
def COGL_PIPELINE_STATE_ALL_SPARSE : Nat := 8191

/-- Modelled from the spec: color, blend-enable, layers, lighting, blend and user
shader (section 4.2, blend-enable derivation). -/
def COGL_PIPELINE_STATE_AFFECTS_BLENDING : Nat := 1 ||| 2 ||| 4 ||| 8 ||| 64 ||| 128

/-- Modelled from the spec: the groups kept in the big-state record (section 3). -/
def COGL_PIPELINE_STATE_NEEDS_BIG_STATE : Nat :=
  8 ||| 16 ||| 32 ||| 64 ||| 128 ||| 256 ||| 512 ||| 1024 ||| 2048 ||| 4096

/-- Modelled from the spec: the groups made of more than one field (section 4.3,
step 6): layers, lighting, blend, depth, fog, logic-ops and cull-face. -/
def COGL_PIPELINE_STATE_MULTI_PROPERTY : Nat :=
  4 ||| 8 ||| 64 ||| 256 ||| 512 ||| 2048 ||| 4096

/-- Modelled from the spec: the enumeration `CoglPipelineLayerStateIndex`
(cogl-pipeline-private.h, not among the sources); nine sparse layer groups
(`g_assert (COGL_PIPELINE_LAYER_STATE_SPARSE_COUNT == 9)`). -/
def COGL_PIPELINE_LAYER_STATE_UNIT_INDEX : Nat := 0
def COGL_PIPELINE_LAYER_STATE_TEXTURE_TARGET_INDEX : Nat := 1
def COGL_PIPELINE_LAYER_STATE_TEXTURE_DATA_INDEX : Nat := 2
def COGL_PIPELINE_LAYER_STATE_FILTERS_INDEX : Nat := 3
def COGL_PIPELINE_LAYER_STATE_WRAP_MODES_INDEX : Nat := 4
def COGL_PIPELINE_LAYER_STATE_COMBINE_INDEX : Nat := 5
def COGL_PIPELINE_LAYER_STATE_COMBINE_CONSTANT_INDEX : Nat := 6
def COGL_PIPELINE_LAYER_STATE_USER_MATRIX_INDEX : Nat := 7
def COGL_PIPELINE_LAYER_STATE_POINT_SPRITE_COORDS_INDEX : Nat := 8
def COGL_PIPELINE_LAYER_STATE_SPARSE_COUNT : Nat := 9
def COGL_PIPELINE_LAYER_STATE_COUNT : Nat := 9

def COGL_PIPELINE_LAYER_STATE_UNIT : Nat := 1
def COGL_PIPELINE_LAYER_STATE_TEXTURE_TARGET : Nat := 2
def COGL_PIPELINE_LAYER_STATE_TEXTURE_DATA : Nat := 4
def COGL_PIPELINE_LAYER_STATE_FILTERS : Nat := 8
def COGL_PIPELINE_LAYER_STATE_WRAP_MODES : Nat := 16
def COGL_PIPELINE_LAYER_STATE_COMBINE : Nat := 32
def COGL_PIPELINE_LAYER_STATE_COMBINE_CONSTANT : Nat := 64
def COGL_PIPELINE_LAYER_STATE_USER_MATRIX : Nat := 128
def COGL_PIPELINE_LAYER_STATE_POINT_SPRITE_COORDS : Nat := 256
def COGL_PIPELINE_LAYER_STATE_ALL_SPARSE : Nat := 511

/-- Modelled from the spec: the layer groups kept in the layer big-state record. -/
def COGL_PIPELINE_LAYER_STATE_NEEDS_BIG_STATE : Nat := 32 ||| 64 ||| 128 ||| 256

/-- Modelled from the spec: filters, wrap modes and combine hold several fields. -/
def COGL_PIPELINE_LAYER_STATE_MULTI_PROPERTY : Nat := 8 ||| 16 ||| 32

/-- The C expression `a & ~b` on masks: the bits of `a` that are not in `b`. -/
def mask_clear (a b : Nat) : Nat := a ^^^ (a &&& b)

/-! ## Values -/

/-- A `float` is only ever stored, copied and compared here: it is kept as its
IEEE-754 bit pattern. -/
abbrev GFloat := Nat

/-- The `struct _CoglColor` of cogl-types.h (byte components; the padding is left out). -/
structure CoglColor where
  red : Nat
  green : Nat
  blue : Nat
  alpha : Nat
deriving DecidableEq, Repr

/-- The call `cogl_color_init_from_4ub`. -/
def cogl_color_init_from_4ub (red green blue alpha : Nat) : CoglColor :=
  { red := red, green := green, blue := blue, alpha := alpha }

/-- The accessor `cogl_color_get_alpha_byte`. -/
def cogl_color_get_alpha_byte (color : CoglColor) : Nat := color.alpha

/-- Modelled from the spec: `cogl_color_equal` (cogl-color.c, not among the sources)
is byte equality of the components (section 4.4: "color byte-equal"). -/
def cogl_color_equal (v1 v2 : CoglColor) : Bool := decide (v1 = v2)

inductive CoglPipelineBlendEnable where
  | COGL_PIPELINE_BLEND_ENABLE_ENABLED
  | COGL_PIPELINE_BLEND_ENABLE_DISABLED
  | COGL_PIPELINE_BLEND_ENABLE_AUTOMATIC
deriving DecidableEq, Repr

open CoglPipelineBlendEnable

/-- The GL enumerants used by the blend state. -/
def GL_FUNC_ADD : Nat := 0x8006
def GL_ONE : Nat := 1
def GL_ONE_MINUS_SRC_ALPHA : Nat := 0x0303
def GL_SRC_COLOR : Nat := 0x0300
def GL_ONE_MINUS_SRC_COLOR : Nat := 0x0301
def GL_SRC_ALPHA : Nat := 0x0302

structure CoglPipelineLightingState where
  ambient : List GFloat
  diffuse : List GFloat
  specular : List GFloat
  emission : List GFloat
  shininess : GFloat
deriving DecidableEq, Repr

structure CoglPipelineAlphaFuncState where
  alpha_func : Nat
  alpha_func_reference : GFloat
deriving DecidableEq, Repr

structure CoglPipelineBlendState where
  blend_equation_rgb : Nat
  blend_equation_alpha : Nat
  blend_src_factor_alpha : Nat
  blend_dst_factor_alpha : Nat
  blend_constant : CoglColor
  blend_src_factor_rgb : Nat
  blend_dst_factor_rgb : Nat
deriving DecidableEq, Repr

structure CoglDepthState where
  test_enabled : Bool
  test_function : Nat
  write_enabled : Bool
  range_near : GFloat
  range_far : GFloat
deriving DecidableEq, Repr

structure CoglPipelineFogState where
  enabled : Bool
  color : CoglColor
  mode : Nat
  density : GFloat
  z_near : GFloat
  z_far : GFloat
deriving DecidableEq, Repr

structure CoglPipelineLogicOpsState where
  color_mask : Nat
deriving DecidableEq, Repr

structure CoglPipelineCullFaceState where
  mode : Nat
  front_winding : Nat
deriving DecidableEq, Repr

/-- The record `CoglPipelineBigState`; `user_program` is a handle
(`COGL_INVALID_HANDLE` is `none`). -/
structure CoglPipelineBigState where
  lighting_state : CoglPipelineLightingState
  alpha_state : CoglPipelineAlphaFuncState
  blend_state : CoglPipelineBlendState
  user_program : Option Nat
  depth_state : CoglDepthState
  fog_state : CoglPipelineFogState
  point_size : GFloat
  logic_ops_state : CoglPipelineLogicOpsState
  cull_face_state : CoglPipelineCullFaceState
deriving DecidableEq, Repr

/-- Modelled from the spec: the back-end ids of cogl-pipeline-private.h (not among
the sources); a pipeline holds the id of its current back-end or `UNDEFINED`. -/
def COGL_PIPELINE_FRAGEND_FIXED : Nat := 2
def COGL_PIPELINE_FRAGEND_UNDEFINED : Nat := 3
def COGL_PIPELINE_VERTEND_FIXED : Nat := 1
def COGL_PIPELINE_VERTEND_UNDEFINED : Nat := 3

/-! ## Layers -/

/-- Modelled from the spec: the enumerants of `CoglPipelineCombineFunc`,
`CoglPipelineCombineSource` and `CoglPipelineCombineOp` are the GL values
(cogl-pipeline-private.h, not among the sources). -/
def COGL_PIPELINE_COMBINE_FUNC_ADD : Nat := 0x0104
def COGL_PIPELINE_COMBINE_FUNC_ADD_SIGNED : Nat := 0x8574
def COGL_PIPELINE_COMBINE_FUNC_SUBTRACT : Nat := 0x84E7
def COGL_PIPELINE_COMBINE_FUNC_INTERPOLATE : Nat := 0x8575
def COGL_PIPELINE_COMBINE_FUNC_REPLACE : Nat := 0x1E01
def COGL_PIPELINE_COMBINE_FUNC_MODULATE : Nat := 0x2100
def COGL_PIPELINE_COMBINE_FUNC_DOT3_RGB : Nat := 0x86AE
def COGL_PIPELINE_COMBINE_FUNC_DOT3_RGBA : Nat := 0x86AF
def COGL_PIPELINE_COMBINE_SOURCE_TEXTURE : Nat := 0x1702
def COGL_PIPELINE_COMBINE_SOURCE_CONSTANT : Nat := 0x8576
def COGL_PIPELINE_COMBINE_SOURCE_PRIMARY_COLOR : Nat := 0x8577
def COGL_PIPELINE_COMBINE_SOURCE_PREVIOUS : Nat := 0x8578
def COGL_PIPELINE_COMBINE_OP_SRC_COLOR : Nat := 0x0300
def COGL_PIPELINE_COMBINE_OP_ONE_MINUS_SRC_COLOR : Nat := 0x0301
def COGL_PIPELINE_COMBINE_OP_SRC_ALPHA : Nat := 0x0302
def COGL_PIPELINE_COMBINE_OP_ONE_MINUS_SRC_ALPHA : Nat := 0x0303
def COGL_PIPELINE_FILTER_LINEAR : Nat := 0x2601
def COGL_PIPELINE_WRAP_MODE_AUTOMATIC : Nat := 0x0207

/-- The record `CoglPipelineLayerBigState`; the arrays of three combine arguments
are lists, the matrix is kept as its sixteen floats. -/
structure CoglPipelineLayerBigState where
  texture_combine_rgb_func : Nat
  texture_combine_rgb_src : List Nat
  texture_combine_rgb_op : List Nat
  texture_combine_alpha_func : Nat
  texture_combine_alpha_src : List Nat
  texture_combine_alpha_op : List Nat
  texture_combine_constant : List GFloat
  matrix : List GFloat
  point_sprite_coords : Bool
deriving DecidableEq, Repr

/-- The record `CoglPipelineLayer`: the node part (`ref_count`, `parent`,
`has_parent_reference`, `children`) followed by the layer payload. A pointer to a
layer is its position in the layer heap. -/
structure CoglPipelineLayer where
  ref_count : Nat
  parent : Option Nat
  has_parent_reference : Bool
  children : List Nat
  owner : Option Nat
  index : Int
  differences : Nat
  unit_index : Nat
  texture : Option Nat
  target : Nat
  mag_filter : Nat
  min_filter : Nat
  wrap_mode_s : Nat
  wrap_mode_t : Nat
  wrap_mode_p : Nat
  has_big_state : Bool
  big_state : CoglPipelineLayerBigState
deriving DecidableEq, Repr

/-! ## Pipelines -/

/-- The record `CoglPipeline`: the node part (`ref_count`, `parent`,
`has_parent_reference`, `children`) followed by the pipeline payload. A pointer to a
pipeline is its position in the pipeline heap; `layers_cache` holds the slots below
`n_layers` of the C array (a NULL slot is `none`); a destroy callback is named by a
number. -/
structure CoglPipeline where
  ref_count : Nat
  parent : Option Nat
  has_parent_reference : Bool
  children : List Nat
  journal_ref_count : Nat
  destroy_callback : Nat
  destroy_data : Nat
  age : Nat
  differences : Nat
  color : CoglColor
  big_state : CoglPipelineBigState
  has_big_state : Bool
  layers_cache : List (Option Nat)
  layers_cache_dirty : Bool
  deprecated_get_layers_list : List Nat
  deprecated_get_layers_list_dirty : Bool
  n_layers : Nat
  layer_differences : List Nat
  fragend : Nat
  vertend : Nat
  is_weak : Bool
  blend_enable : CoglPipelineBlendEnable
  real_blend_enable : Bool
  has_static_breadcrumb : Bool
  static_breadcrumb : String
deriving DecidableEq, Repr

/-- A texture as far as the pipeline code looks at it: its pixel format
(`cogl_texture_get_format`) and its GL handle. -/
structure CoglTexture where
  format : Nat
  gl_texture : Nat
deriving DecidableEq, Repr

/-- The bit `COGL_A_BIT` of cogl-types.h. -/
def COGL_A_BIT : Nat := 1 <<< 4

inductive CoglDriver where
  | COGL_DRIVER_GL
  | COGL_DRIVER_GLES1
  | COGL_DRIVER_GLES2
deriving DecidableEq, Repr

/-- A call that leaves the pipeline code: the journal flush `cogl_flush ()`, the
destroy callback of a weak pipeline, and the change notifications given to the
back-ends. The calls are recorded in the order they are made. -/
inductive CoglEvent where
  | flush
  | destroy (callback : Nat) (pipeline : Nat) (data : Nat)
  | fragend_pre_change_notify (pipeline : Nat) (change : Nat)
  | vertend_pre_change_notify (pipeline : Nat) (change : Nat)
  | progend_pre_change_notify (pipeline : Nat) (change : Nat)
  | fragend_set_parent_notify (pipeline : Nat)
  | fragend_layer_pre_change_notify (owner : Nat) (layer : Nat) (change : Nat)
  | vertend_layer_pre_change_notify (owner : Nat) (layer : Nat) (change : Nat)
  | progend_layer_pre_change_notify (owner : Nat) (layer : Nat) (change : Nat)
deriving DecidableEq, Repr

/-- The entry `CoglTextureUnit` of the texture-unit cache, as far as the pipeline
code touches it. -/
structure CoglTextureUnit where
  layer : Option Nat
  layer_changes_since_flush : Nat
deriving DecidableEq, Repr

/-- The process-wide context `ctx` together with the two heaps.

`slice_pipeline`, `slice_layer`, `slice_big_state` and `slice_layer_big_state` are
the contents of the block that `g_slice_new` hands out: `g_slice_new` does not clear
memory, so a field that the code does not assign after the allocation keeps the
value found here. `events` records the calls that leave the pipeline code and
`freed` the pipelines given back by `_cogl_pipeline_free`. -/
structure CoglContext where
  pipelines : List CoglPipeline
  layers : List CoglPipelineLayer
  textures : List CoglTexture
  default_pipeline : Nat
  default_layer_0 : Nat
  default_layer_n : Nat
  dummy_layer_dependant : Nat
  driver : CoglDriver
  debug_disable_blending : Bool
  current_pipeline : Option Nat
  current_pipeline_changes_since_flush : Nat
  texture_units : List CoglTextureUnit
  events : List CoglEvent
  freed : List Nat
  slice_pipeline : CoglPipeline
  slice_layer : CoglPipelineLayer
  slice_big_state : CoglPipelineBigState
  slice_layer_big_state : CoglPipelineLayerBigState
deriving DecidableEq, Repr

/-- Dereference of a pipeline pointer. -/
def CoglContext.pipeline (ctx : CoglContext) (p : Nat) : Option CoglPipeline :=
  ctx.pipelines[p]?

/-- Store through a pipeline pointer. -/
def CoglContext.set_pipeline (ctx : CoglContext) (p : Nat) (v : CoglPipeline) :
    CoglContext :=
  { ctx with pipelines := ctx.pipelines.set p v }

/-- Dereference of a layer pointer. -/
def CoglContext.layer (ctx : CoglContext) (l : Nat) : Option CoglPipelineLayer :=
  ctx.layers[l]?

/-- Store through a layer pointer. -/
def CoglContext.set_layer (ctx : CoglContext) (l : Nat) (v : CoglPipelineLayer) :
    CoglContext :=
  { ctx with layers := ctx.layers.set l v }

/-- Record a call that leaves the pipeline code. -/
def CoglContext.emit (ctx : CoglContext) (e : CoglEvent) : CoglContext :=
  { ctx with events := ctx.events ++ [e] }

/-! ## Authority walks -/

/-- Modelled from the spec: `_cogl_pipeline_get_authority` is an inline function of
cogl-pipeline-private.h, which is not among the sources. Section 4.2: "walk parents
from `p` until the first node whose `differences` contains `g`; that node is the
authority". Written as the layer walk of cogl-pipeline.c is:
`while (!(authority->differences & difference)) authority = parent (authority);`. -/
def _cogl_pipeline_get_authority (ctx : CoglContext) :
    Nat → Nat → Nat → Option Nat
  | 0, _, _ => none
  | fuel + 1, pipeline, difference =>
    match ctx.pipeline pipeline with
    | none => none
    | some authority =>
      if authority.differences &&& difference ≠ 0 then some pipeline
      else
        match authority.parent with
        | none => none
        | some parent => _cogl_pipeline_get_authority ctx fuel parent difference

/-- The walk `_cogl_pipeline_layer_get_authority`:
`while (!(authority->differences & difference)) authority = parent (authority);`. -/
def _cogl_pipeline_layer_get_authority (ctx : CoglContext) :
    Nat → Nat → Nat → Option Nat
  | 0, _, _ => none
  | fuel + 1, layer, difference =>
    match ctx.layer layer with
    | none => none
    | some authority =>
      if authority.differences &&& difference ≠ 0 then some layer
      else
        match authority.parent with
        | none => none
        | some parent => _cogl_pipeline_layer_get_authority ctx fuel parent difference

/-- The getter `_cogl_pipeline_layer_get_unit_index`. -/
def _cogl_pipeline_layer_get_unit_index (ctx : CoglContext) (fuel : Nat) (layer : Nat) :
    Option Nat :=
  match _cogl_pipeline_layer_get_authority ctx fuel layer
      COGL_PIPELINE_LAYER_STATE_UNIT with
  | none => none
  | some authority => (ctx.layer authority).map (fun a => a.unit_index)

/-! ## Reference counts and tree links -/

/-- Modelled from the spec: `cogl_object_ref` (cogl-object.c, not among the sources)
adds one reference (section 5: "each pipeline and each layer carries a reference
count"). -/
def cogl_object_ref (ctx : CoglContext) (pipeline : Nat) : Option CoglContext :=
  match ctx.pipeline pipeline with
  | none => none
  | some node => some (ctx.set_pipeline pipeline { node with ref_count := node.ref_count + 1 })

/-- Modelled from the spec: `cogl_object_unref` (cogl-object.c, not among the sources)
drops one reference. The disposal of an object whose count reaches zero is the
separate step `_cogl_pipeline_free`; it is not run from here. -/
def cogl_object_unref (ctx : CoglContext) (pipeline : Nat) : Option CoglContext :=
  match ctx.pipeline pipeline with
  | none => none
  | some node => some (ctx.set_pipeline pipeline { node with ref_count := node.ref_count - 1 })

/-- The call `cogl_object_ref` on a layer. -/
def cogl_object_ref_layer (ctx : CoglContext) (layer : Nat) : Option CoglContext :=
  match ctx.layer layer with
  | none => none
  | some node => some (ctx.set_layer layer { node with ref_count := node.ref_count + 1 })

/-- The call `cogl_object_unref` on a layer (see `cogl_object_unref`). -/
def cogl_object_unref_layer (ctx : CoglContext) (layer : Nat) : Option CoglContext :=
  match ctx.layer layer with
  | none => none
  | some node => some (ctx.set_layer layer { node with ref_count := node.ref_count - 1 })

/-- The accessor `_cogl_pipeline_get_parent`. -/
def _cogl_pipeline_get_parent (ctx : CoglContext) (pipeline : Nat) : Option (Option Nat) :=
  (ctx.pipeline pipeline).map (fun node => node.parent)

/-- The accessor `_cogl_pipeline_layer_get_parent`. -/
def _cogl_pipeline_layer_get_parent (ctx : CoglContext) (layer : Nat) : Option (Option Nat) :=
  (ctx.layer layer).map (fun node => node.parent)

/-- The function `_cogl_pipeline_node_unparent_real` on a pipeline node.
`COGL_LIST_REMOVE` takes the node out of the child list of its parent. -/
def _cogl_pipeline_node_unparent_real (ctx : CoglContext) (node : Nat) : Option CoglContext :=
  match ctx.pipeline node with
  | none => none
  | some n =>
    match n.parent with
    | none => some ctx
    | some parent =>
      match ctx.pipeline parent with
      | none => none
      | some pn =>
        if pn.children = [] then some ctx
        else
          let ctx1 := ctx.set_pipeline parent { pn with children := pn.children.erase node }
          match (if n.has_parent_reference then cogl_object_unref ctx1 parent else some ctx1) with
          | none => none
          | some ctx2 =>
            match ctx2.pipeline node with
            | none => none
            | some n2 => some (ctx2.set_pipeline node { n2 with parent := none })

/-- The function `_cogl_pipeline_unparent` ("chain up"). -/
def _cogl_pipeline_unparent (ctx : CoglContext) (pipeline : Nat) : Option CoglContext :=
  _cogl_pipeline_node_unparent_real ctx pipeline

/-- The function `_cogl_pipeline_node_set_parent_real` on a pipeline node, with
`_cogl_pipeline_unparent` as its `unparent` argument. -/
def _cogl_pipeline_node_set_parent_real (ctx : CoglContext) (node parent : Nat)
    (take_strong_reference : Bool) : Option CoglContext :=
  match cogl_object_ref ctx parent with
  | none => none
  | some ctx1 =>
    match ctx1.pipeline node with
    | none => none
    | some n =>
      match (if n.parent.isSome then _cogl_pipeline_unparent ctx1 node else some ctx1) with
      | none => none
      | some ctx2 =>
        match ctx2.pipeline parent with
        | none => none
        | some pn =>
          let ctx3 := ctx2.set_pipeline parent { pn with children := node :: pn.children }
          match ctx3.pipeline node with
          | none => none
          | some n3 =>
            let ctx4 := ctx3.set_pipeline node
              { n3 with parent := some parent, has_parent_reference := take_strong_reference }
            if !take_strong_reference then cogl_object_unref ctx4 parent else some ctx4

/-- The function `_cogl_pipeline_node_unparent_real` on a layer node. -/
def _cogl_pipeline_layer_unparent (ctx : CoglContext) (layer : Nat) : Option CoglContext :=
  match ctx.layer layer with
  | none => none
  | some n =>
    match n.parent with
    | none => some ctx
    | some parent =>
      match ctx.layer parent with
      | none => none
      | some pn =>
        if pn.children = [] then some ctx
        else
          let ctx1 := ctx.set_layer parent { pn with children := pn.children.erase layer }
          match (if n.has_parent_reference then cogl_object_unref_layer ctx1 parent
                 else some ctx1) with
          | none => none
          | some ctx2 =>
            match ctx2.layer layer with
            | none => none
            | some n2 => some (ctx2.set_layer layer { n2 with parent := none })

/-- The function `_cogl_pipeline_layer_set_parent`: `_cogl_pipeline_node_set_parent_real`
on a layer node with `_cogl_pipeline_layer_unparent` and a strong reference. -/
def _cogl_pipeline_layer_set_parent (ctx : CoglContext) (layer parent : Nat) :
    Option CoglContext :=
  match cogl_object_ref_layer ctx parent with
  | none => none
  | some ctx1 =>
    match ctx1.layer layer with
    | none => none
    | some n =>
      match (if n.parent.isSome then _cogl_pipeline_layer_unparent ctx1 layer else some ctx1) with
      | none => none
      | some ctx2 =>
        match ctx2.layer parent with
        | none => none
        | some pn =>
          let ctx3 := ctx2.set_layer parent { pn with children := layer :: pn.children }
          match ctx3.layer layer with
          | none => none
          | some n3 =>
            some (ctx3.set_layer layer
              { n3 with parent := some parent, has_parent_reference := true })

/-- The function `_cogl_pipeline_node_foreach_child`: `COGL_LIST_FOREACH_SAFE` reads
the next child before it runs the callback, so the callback may take the current
child out of the list; the value returned by the callback is not looked at. The
state `α` is what the callback changes (the context, the `user_data`, or both). -/
def _cogl_pipeline_node_foreach_child {α : Type} (ctx : CoglContext) (node : Nat)
    (callback : α → Nat → Option α) (state : α) : Option α :=
  match ctx.pipeline node with
  | none => none
  | some n => n.children.foldlM callback state

/-- The function `recursively_free_layer_caches` with its callback
`recursively_free_layer_caches_cb`. The release of a separately allocated cache
array leaves the stale pointer in place. -/
def recursively_free_layer_caches : Nat → CoglContext → Nat → Option CoglContext
  | 0, _, _ => none
  | fuel + 1, ctx, pipeline =>
    match ctx.pipeline pipeline with
    | none => none
    | some node =>
      if node.layers_cache_dirty then some ctx
      else
        let ctx1 := ctx.set_pipeline pipeline { node with layers_cache_dirty := true }
        _cogl_pipeline_node_foreach_child ctx1 pipeline
          (fun c child => recursively_free_layer_caches fuel c child) ctx1

/-- The function `_cogl_pipeline_set_parent`. The `pipeline_set_parent_notify` hook
of the fragment back-end is recorded as an event. -/
def _cogl_pipeline_set_parent (fuel : Nat) (ctx : CoglContext) (pipeline parent : Nat)
    (take_strong_reference : Bool) : Option CoglContext :=
  match _cogl_pipeline_node_set_parent_real ctx pipeline parent take_strong_reference with
  | none => none
  | some ctx1 =>
    match ctx1.pipeline pipeline with
    | none => none
    | some node =>
      match (if node.differences &&& COGL_PIPELINE_STATE_LAYERS ≠ 0
             then recursively_free_layer_caches fuel ctx1 pipeline else some ctx1) with
      | none => none
      | some ctx2 =>
        if node.fragend ≠ COGL_PIPELINE_FRAGEND_UNDEFINED
        then some (ctx2.emit (CoglEvent.fragend_set_parent_notify pipeline))
        else some ctx2

/-- The loop of `_cogl_pipeline_promote_weak_ancestors`:
`for (n = parent; n->is_weak; n = n->parent) cogl_object_ref (n->parent);`. -/
def promote_weak_ancestors_loop : Nat → CoglContext → Nat → Option CoglContext
  | 0, _, _ => none
  | fuel + 1, ctx, n =>
    match ctx.pipeline n with
    | none => none
    | some node =>
      if node.is_weak then
        match node.parent with
        | none => none
        | some parent =>
          match cogl_object_ref ctx parent with
          | none => none
          | some ctx1 => promote_weak_ancestors_loop fuel ctx1 parent
      else some ctx

/-- The function `_cogl_pipeline_promote_weak_ancestors`. -/
def _cogl_pipeline_promote_weak_ancestors (fuel : Nat) (ctx : CoglContext) (strong : Nat) :
    Option CoglContext :=
  match ctx.pipeline strong with
  | none => none
  | some node =>
    if node.is_weak then some ctx
    else
      match node.parent with
      | none => some ctx
      | some parent => promote_weak_ancestors_loop fuel ctx parent

/-- The loop of `_cogl_pipeline_revert_weak_ancestors`:
`for (n = parent; n->is_weak; n = n->parent) cogl_object_unref (n->parent);`. -/
def revert_weak_ancestors_loop : Nat → CoglContext → Nat → Option CoglContext
  | 0, _, _ => none
  | fuel + 1, ctx, n =>
    match ctx.pipeline n with
    | none => none
    | some node =>
      if node.is_weak then
        match node.parent with
        | none => none
        | some parent =>
          match cogl_object_unref ctx parent with
          | none => none
          | some ctx1 => revert_weak_ancestors_loop fuel ctx1 parent
      else some ctx

/-- The function `_cogl_pipeline_revert_weak_ancestors`. -/
def _cogl_pipeline_revert_weak_ancestors (fuel : Nat) (ctx : CoglContext) (strong : Nat) :
    Option CoglContext :=
  match ctx.pipeline strong with
  | none => none
  | some node =>
    if node.is_weak then some ctx
    else
      match node.parent with
      | none => some ctx
      | some parent => revert_weak_ancestors_loop fuel ctx parent

/-- The setter `_cogl_pipeline_set_static_breadcrumb`. -/
def _cogl_pipeline_set_static_breadcrumb (ctx : CoglContext) (pipeline : Nat)
    (breadcrumb : String) : Option CoglContext :=
  match ctx.pipeline pipeline with
  | none => none
  | some node =>
    some (ctx.set_pipeline pipeline
      { node with has_static_breadcrumb := true, static_breadcrumb := breadcrumb })

/-- The function `_cogl_pipeline_copy`. The new pipeline is the block handed out by
`g_slice_new` (`ctx.slice_pipeline`) with the fields the function assigns; its
address is the next free slot of the heap. `_cogl_pipeline_object_new` gives it its
first reference. Returns the context and the copy. -/
def _cogl_pipeline_copy (fuel : Nat) (ctx : CoglContext) (src : Nat) (is_weak : Bool) :
    Option (CoglContext × Nat) :=
  match ctx.pipeline src with
  | none => none
  | some srcnode =>
    let pipeline := ctx.pipelines.length
    let node : CoglPipeline :=
      { ctx.slice_pipeline with
        parent := none
        children := []
        is_weak := is_weak
        journal_ref_count := 0
        differences := 0
        has_big_state := false
        real_blend_enable := srcnode.real_blend_enable
        layers_cache_dirty := true
        deprecated_get_layers_list := []
        deprecated_get_layers_list_dirty := true
        fragend := srcnode.fragend
        vertend := srcnode.vertend
        has_static_breadcrumb := false
        age := 0 }
    let ctx1 := { ctx with pipelines := ctx.pipelines ++ [node] }
    match _cogl_pipeline_set_parent fuel ctx1 pipeline src (!is_weak) with
    | none => none
    | some ctx2 =>
      match (if !is_weak then _cogl_pipeline_promote_weak_ancestors fuel ctx2 pipeline
             else some ctx2) with
      | none => none
      | some ctx3 =>
        match ctx3.pipeline pipeline with
        | none => none
        | some created =>
          some (ctx3.set_pipeline pipeline { created with ref_count := 1 }, pipeline)

/-- The function `cogl_pipeline_copy`. -/
def cogl_pipeline_copy (fuel : Nat) (ctx : CoglContext) (src : Nat) :
    Option (CoglContext × Nat) :=
  _cogl_pipeline_copy fuel ctx src false

/-- The function `_cogl_pipeline_weak_copy`. -/
def _cogl_pipeline_weak_copy (fuel : Nat) (ctx : CoglContext) (pipeline : Nat)
    (callback : Nat) (user_data : Nat) : Option (CoglContext × Nat) :=
  match _cogl_pipeline_copy fuel ctx pipeline true with
  | none => none
  | some (ctx1, copy) =>
    match ctx1.pipeline copy with
    | none => none
    | some node =>
      some (ctx1.set_pipeline copy
        { node with destroy_callback := callback, destroy_data := user_data }, copy)

/-- The function `cogl_pipeline_new`. -/
def cogl_pipeline_new (fuel : Nat) (ctx : CoglContext) : Option (CoglContext × Nat) :=
  match cogl_pipeline_copy fuel ctx ctx.default_pipeline with
  | none => none
  | some (ctx1, new) =>
    match _cogl_pipeline_set_static_breadcrumb ctx1 new "new" with
    | none => none
    | some ctx2 => some (ctx2, new)

/-! ## The default pipeline -/

/-- The block handed out by `g_slice_new0 (CoglPipeline)`: every field zero. -/
def zeroed_big_state : CoglPipelineBigState :=
  { lighting_state :=
      { ambient := [0, 0, 0, 0], diffuse := [0, 0, 0, 0], specular := [0, 0, 0, 0],
        emission := [0, 0, 0, 0], shininess := 0 }
    alpha_state := { alpha_func := 0, alpha_func_reference := 0 }
    blend_state :=
      { blend_equation_rgb := 0, blend_equation_alpha := 0, blend_src_factor_alpha := 0,
        blend_dst_factor_alpha := 0, blend_constant := cogl_color_init_from_4ub 0 0 0 0,
        blend_src_factor_rgb := 0, blend_dst_factor_rgb := 0 }
    user_program := none
    depth_state :=
      { test_enabled := false, test_function := 0, write_enabled := false, range_near := 0,
        range_far := 0 }
    fog_state :=
      { enabled := false, color := cogl_color_init_from_4ub 0 0 0 0, mode := 0, density := 0,
        z_near := 0, z_far := 0 }
    point_size := 0
    logic_ops_state := { color_mask := 0 }
    cull_face_state := { mode := 0, front_winding := 0 } }

/-- The block handed out by `g_slice_new0 (CoglPipeline)`: every field zero. -/
def zeroed_pipeline : CoglPipeline :=
  { ref_count := 0, parent := none, has_parent_reference := false, children := [],
    journal_ref_count := 0, destroy_callback := 0, destroy_data := 0, age := 0,
    differences := 0, color := cogl_color_init_from_4ub 0 0 0 0, big_state := zeroed_big_state,
    has_big_state := false, layers_cache := [], layers_cache_dirty := false,
    deprecated_get_layers_list := [], deprecated_get_layers_list_dirty := false,
    n_layers := 0, layer_differences := [], fragend := 0, vertend := 0, is_weak := false,
    blend_enable := COGL_PIPELINE_BLEND_ENABLE_ENABLED, real_blend_enable := false,
    has_static_breadcrumb := false, static_breadcrumb := "" }

/-- The bit patterns of the `float` constants 0.2, 0.8 and 1.0. -/
def FLOAT_0_2 : GFloat := 0x3E4CCCCD
def FLOAT_0_8 : GFloat := 0x3F4CCCCD
def FLOAT_1_0 : GFloat := 0x3F800000

/-- Modelled from the spec: enumerants of headers that are not among the sources
(`COGL_PIPELINE_ALPHA_FUNC_ALWAYS`, `COGL_DEPTH_TEST_FUNCTION_LESS`,
`COGL_COLOR_MASK_ALL`, `COGL_PIPELINE_CULL_FACE_MODE_NONE`,
`COGL_WINDING_COUNTER_CLOCKWISE`). -/
def COGL_PIPELINE_ALPHA_FUNC_ALWAYS : Nat := 0x0207
def COGL_DEPTH_TEST_FUNCTION_LESS : Nat := 0x0201
def COGL_COLOR_MASK_ALL : Nat := 15
def COGL_PIPELINE_CULL_FACE_MODE_NONE : Nat := 0
def COGL_WINDING_COUNTER_CLOCKWISE : Nat := 1

/-- The function `_cogl_pipeline_init_default_pipeline` (built with `HAVE_COGL_GL`):
the root of the pipeline tree, with every sparse bit set. -/
def _cogl_pipeline_init_default_pipeline (ctx : CoglContext) : CoglContext :=
  let big_state : CoglPipelineBigState :=
    { zeroed_big_state with
      lighting_state :=
        { ambient := [FLOAT_0_2, FLOAT_0_2, FLOAT_0_2, FLOAT_1_0]
          diffuse := [FLOAT_0_8, FLOAT_0_8, FLOAT_0_8, FLOAT_1_0]
          specular := [0, 0, 0, FLOAT_1_0]
          emission := [0, 0, 0, FLOAT_1_0]
          shininess := 0 }
      alpha_state :=
        { alpha_func := COGL_PIPELINE_ALPHA_FUNC_ALWAYS, alpha_func_reference := 0 }
      blend_state :=
        { blend_equation_rgb := GL_FUNC_ADD
          blend_equation_alpha := GL_FUNC_ADD
          blend_src_factor_alpha := GL_ONE
          blend_dst_factor_alpha := GL_ONE_MINUS_SRC_ALPHA
          blend_constant := cogl_color_init_from_4ub 0x00 0x00 0x00 0x00
          blend_src_factor_rgb := GL_ONE
          blend_dst_factor_rgb := GL_ONE_MINUS_SRC_ALPHA }
      user_program := none
      depth_state :=
        { test_enabled := false
          test_function := COGL_DEPTH_TEST_FUNCTION_LESS
          write_enabled := true
          range_near := 0
          range_far := FLOAT_1_0 }
      point_size := FLOAT_1_0
      logic_ops_state := { color_mask := COGL_COLOR_MASK_ALL }
      cull_face_state :=
        { mode := COGL_PIPELINE_CULL_FACE_MODE_NONE
          front_winding := COGL_WINDING_COUNTER_CLOCKWISE } }
  let pipeline : CoglPipeline :=
    { zeroed_pipeline with
      parent := none
      children := []
      is_weak := false
      journal_ref_count := 0
      fragend := COGL_PIPELINE_FRAGEND_UNDEFINED
      vertend := COGL_PIPELINE_VERTEND_UNDEFINED
      differences := COGL_PIPELINE_STATE_ALL_SPARSE
      real_blend_enable := false
      blend_enable := COGL_PIPELINE_BLEND_ENABLE_AUTOMATIC
      layer_differences := []
      n_layers := 0
      big_state := big_state
      has_big_state := true
      static_breadcrumb := "default pipeline"
      has_static_breadcrumb := true
      age := 0
      color := cogl_color_init_from_4ub 0xff 0xff 0xff 0xff
      ref_count := 1 }
  { ctx with pipelines := ctx.pipelines ++ [pipeline], default_pipeline := ctx.pipelines.length }

/-! ## Weak children -/

mutual

/-- The function `has_strong_children` with its callback `check_if_strong_cb`. -/
def has_strong_children (ctx : CoglContext) : Nat → Nat → Option Bool
  | 0, _ => none
  | fuel + 1, pipeline =>
    _cogl_pipeline_node_foreach_child ctx pipeline
      (fun has_strong_child node =>
        match _cogl_pipeline_is_weak ctx fuel node with
        | none => none
        | some weak => if !weak then some true else some has_strong_child)
      false

/-- The function `_cogl_pipeline_is_weak`:
`pipeline->is_weak && !has_strong_children (pipeline)`. -/
def _cogl_pipeline_is_weak (ctx : CoglContext) : Nat → Nat → Option Bool
  | 0, _ => none
  | fuel + 1, pipeline =>
    match ctx.pipeline pipeline with
    | none => none
    | some node =>
      if node.is_weak then
        match has_strong_children ctx fuel pipeline with
        | none => none
        | some strong => some (!strong)
      else some false

end

/-- The callback `destroy_weak_children_cb`. The call of the destroy callback is
recorded as an event. -/
def destroy_weak_children_cb : Nat → CoglContext → Nat → Option CoglContext
  | 0, _, _ => none
  | fuel + 1, ctx, node =>
    match _cogl_pipeline_is_weak ctx fuel node with
    | none => none
    | some false => some ctx
    | some true =>
      match _cogl_pipeline_node_foreach_child ctx node
          (fun c child => destroy_weak_children_cb fuel c child) ctx with
      | none => none
      | some ctx1 =>
        match ctx1.pipeline node with
        | none => none
        | some pipeline =>
          _cogl_pipeline_unparent
            (ctx1.emit (CoglEvent.destroy pipeline.destroy_callback node pipeline.destroy_data))
            node

/-- The function `_cogl_pipeline_free`. The release of the user program handle and
of the big state have no effect on the two heaps; the pipeline is entered in
`freed`. -/
def _cogl_pipeline_free (fuel : Nat) (ctx : CoglContext) (pipeline : Nat) :
    Option CoglContext :=
  match ctx.pipeline pipeline with
  | none => none
  | some node =>
    match (if !node.is_weak then _cogl_pipeline_revert_weak_ancestors fuel ctx pipeline
           else some ctx) with
    | none => none
    | some ctx1 =>
      match _cogl_pipeline_node_foreach_child ctx1 pipeline
          (fun c child => destroy_weak_children_cb fuel c child) ctx1 with
      | none => none
      | some ctx2 =>
        match ctx2.pipeline pipeline with
        | none => none
        | some node2 =>
          if node2.children ≠ [] then none
          else
            match _cogl_pipeline_unparent ctx2 pipeline with
            | none => none
            | some ctx3 =>
              match (if node2.differences &&& COGL_PIPELINE_STATE_LAYERS ≠ 0
                     then node2.layer_differences.foldlM cogl_object_unref_layer ctx3
                     else some ctx3) with
              | none => none
              | some ctx4 =>
                match recursively_free_layer_caches fuel ctx4 pipeline with
                | none => none
                | some ctx5 => some { ctx5 with freed := pipeline :: ctx5.freed }

/-! ## Layers of a pipeline -/

/-- Read-modify-write of one pipeline record. -/
def CoglContext.modify_pipeline (ctx : CoglContext) (p : Nat) (f : CoglPipeline → CoglPipeline) :
    Option CoglContext :=
  match ctx.pipeline p with
  | none => none
  | some node => some (ctx.set_pipeline p (f node))

/-- Read-modify-write of one layer record. -/
def CoglContext.modify_layer (ctx : CoglContext) (l : Nat)
    (f : CoglPipelineLayer → CoglPipelineLayer) : Option CoglContext :=
  match ctx.layer l with
  | none => none
  | some node => some (ctx.set_layer l (f node))

/-- The function `_cogl_pipeline_layer_copy`. The new layer is the block handed out
by `g_slice_new` (`ctx.slice_layer`) with the fields the function assigns.
Returns the context and the new layer. -/
def _cogl_pipeline_layer_copy (ctx : CoglContext) (src : Nat) : Option (CoglContext × Nat) :=
  match ctx.layer src with
  | none => none
  | some srcnode =>
    let layer := ctx.layers.length
    let node : CoglPipelineLayer :=
      { ctx.slice_layer with
        parent := none
        children := []
        owner := none
        index := srcnode.index
        differences := 0
        has_big_state := false }
    let ctx1 := { ctx with layers := ctx.layers ++ [node] }
    match _cogl_pipeline_layer_set_parent ctx1 layer src with
    | none => none
    | some ctx2 =>
      match ctx2.modify_layer layer (fun created => { created with ref_count := 1 }) with
      | none => none
      | some ctx3 => some (ctx3, layer)

/-- The inner loop of `_cogl_pipeline_update_layers_cache` over one
`layer_differences` list. Returns the cache, `layers_found` and whether the
function has returned (`layers_found == n_layers`). -/
def update_layers_cache_scan (ctx : CoglContext) (fuel : Nat) (n_layers : Nat) :
    List Nat → List (Option Nat) → Nat → Option (List (Option Nat) × Nat × Bool)
  | [], cache, layers_found => some (cache, layers_found, false)
  | layer :: rest, cache, layers_found =>
    match _cogl_pipeline_layer_get_unit_index ctx fuel layer with
    | none => none
    | some unit_index =>
      if unit_index < n_layers ∧ cache[unit_index]? = some none then
        if layers_found + 1 = n_layers then
          some (cache.set unit_index (some layer), layers_found + 1, true)
        else
          update_layers_cache_scan ctx fuel n_layers rest (cache.set unit_index (some layer))
            (layers_found + 1)
      else update_layers_cache_scan ctx fuel n_layers rest cache layers_found

/-- The outer loop of `_cogl_pipeline_update_layers_cache`:
`for (current = pipeline; parent (current); current = parent (current))`.
Leaving the loop at the root is the `g_warn_if_reached ()` exit. -/
def update_layers_cache_walk (ctx : CoglContext) (n_layers : Nat) :
    Nat → Nat → List (Option Nat) → Nat → Option (List (Option Nat))
  | 0, _, _, _ => none
  | fuel + 1, current, cache, layers_found =>
    match ctx.pipeline current with
    | none => none
    | some node =>
      match node.parent with
      | none => some cache
      | some parent =>
        if node.differences &&& COGL_PIPELINE_STATE_LAYERS = 0 then
          update_layers_cache_walk ctx n_layers fuel parent cache layers_found
        else
          match update_layers_cache_scan ctx fuel n_layers node.layer_differences cache
              layers_found with
          | none => none
          | some (cache1, _, true) => some cache1
          | some (cache1, found1, false) =>
            update_layers_cache_walk ctx n_layers fuel parent cache1 found1

/-- The function `_cogl_pipeline_update_layers_cache`. Both branches of the source
hand out an array cleared to NULL; the slots below `n_layers` are kept. -/
def _cogl_pipeline_update_layers_cache (fuel : Nat) (ctx : CoglContext) (pipeline : Nat) :
    Option CoglContext :=
  match ctx.pipeline pipeline with
  | none => none
  | some node =>
    if !node.layers_cache_dirty ∨ node.n_layers = 0 then some ctx
    else
      match update_layers_cache_walk ctx node.n_layers fuel pipeline
          (List.replicate node.n_layers none) 0 with
      | none => none
      | some cache =>
        some (ctx.set_pipeline pipeline
          { node with layers_cache_dirty := false, layers_cache := cache })

/-- The loop of `_cogl_pipeline_foreach_layer_internal`:
`for (i = 0, cont = TRUE; i < n_layers && cont == TRUE; i++)`; `remaining` is
`n_layers - i`. -/
def foreach_layer_internal_loop {α : Type} (authority : Nat)
    (callback : CoglContext → α → Nat → Option (CoglContext × α × Bool)) :
    Nat → Nat → CoglContext → α → Option (CoglContext × α)
  | 0, _, ctx, state => some (ctx, state)
  | remaining + 1, i, ctx, state =>
    match ctx.pipeline authority with
    | none => none
    | some node =>
      if node.layers_cache_dirty then some (ctx, state)
      else
        match node.layers_cache[i]? with
        | some (some layer) =>
          match callback ctx state layer with
          | none => none
          | some (ctx1, state1, true) =>
            foreach_layer_internal_loop authority callback remaining (i + 1) ctx1 state1
          | some (ctx1, state1, false) => some (ctx1, state1)
        | _ => none

/-- The function `_cogl_pipeline_foreach_layer_internal`. The callback gets the
context and its `user_data` and returns them with the flag that continues the
iteration. -/
def _cogl_pipeline_foreach_layer_internal {α : Type} (fuel : Nat) (ctx : CoglContext)
    (pipeline : Nat) (callback : CoglContext → α → Nat → Option (CoglContext × α × Bool))
    (user_data : α) : Option (CoglContext × α) :=
  match _cogl_pipeline_get_authority ctx fuel pipeline COGL_PIPELINE_STATE_LAYERS with
  | none => none
  | some authority =>
    match ctx.pipeline authority with
    | none => none
    | some node =>
      if node.n_layers = 0 then some (ctx, user_data)
      else
        match _cogl_pipeline_update_layers_cache fuel ctx authority with
        | none => none
        | some ctx1 =>
          foreach_layer_internal_loop authority callback node.n_layers 0 ctx1 user_data

/-- Modelled from the spec: `cogl_texture_get_format` (cogl-texture.c, not among the
sources) gives the pixel format of a texture. -/
def cogl_texture_get_format (ctx : CoglContext) (texture : Nat) : Option Nat :=
  ctx.textures[texture]?.map (fun t => t.format)

/-- The callback `layer_has_alpha_cb`: the new value of `has_alpha` and the flag
that continues the iteration. -/
def layer_has_alpha_cb (fuel : Nat) (ctx : CoglContext) (layer : Nat) : Option (Bool × Bool) :=
  match _cogl_pipeline_layer_get_authority ctx fuel layer COGL_PIPELINE_LAYER_STATE_COMBINE with
  | none => none
  | some combine_authority =>
    match ctx.layer combine_authority with
    | none => none
    | some ca =>
      let big_state := ca.big_state
      if big_state.texture_combine_alpha_func ≠ COGL_PIPELINE_COMBINE_FUNC_MODULATE ∨
          big_state.texture_combine_alpha_src.getD 0 0 ≠ COGL_PIPELINE_COMBINE_SOURCE_PREVIOUS ∨
          big_state.texture_combine_alpha_op.getD 0 0 ≠ COGL_PIPELINE_COMBINE_OP_SRC_ALPHA ∨
          big_state.texture_combine_alpha_src.getD 1 0 ≠ COGL_PIPELINE_COMBINE_SOURCE_TEXTURE ∨
          big_state.texture_combine_alpha_op.getD 1 0 ≠ COGL_PIPELINE_COMBINE_OP_SRC_ALPHA
      then some (true, false)
      else
        match _cogl_pipeline_layer_get_authority ctx fuel layer
            COGL_PIPELINE_LAYER_STATE_TEXTURE_DATA with
        | none => none
        | some tex_authority =>
          match ctx.layer tex_authority with
          | none => none
          | some ta =>
            match ta.texture with
            | none => some (false, true)
            | some texture =>
              match cogl_texture_get_format ctx texture with
              | none => none
              | some format =>
                if format &&& COGL_A_BIT ≠ 0 then some (true, false) else some (false, true)

/-! ## Getters -/

/-- Modelled from the spec: `cogl_pipeline_get_color` (cogl-pipeline-state.c, not
among the sources) resolves the COLOR authority and reads its color (section 4.2:
getters "resolve the authority and read from it"). -/
def cogl_pipeline_get_color (fuel : Nat) (ctx : CoglContext) (pipeline : Nat) :
    Option CoglColor :=
  match _cogl_pipeline_get_authority ctx fuel pipeline COGL_PIPELINE_STATE_COLOR with
  | none => none
  | some authority => (ctx.pipeline authority).map (fun a => a.color)

/-- Modelled from the spec: `_cogl_pipeline_get_user_program` (cogl-pipeline-state.c,
not among the sources) resolves the USER_SHADER authority and reads its program. -/
def _cogl_pipeline_get_user_program (fuel : Nat) (ctx : CoglContext) (pipeline : Nat) :
    Option (Option Nat) :=
  match _cogl_pipeline_get_authority ctx fuel pipeline COGL_PIPELINE_STATE_USER_SHADER with
  | none => none
  | some authority => (ctx.pipeline authority).map (fun a => a.big_state.user_program)

/-- The getter `cogl_pipeline_get_n_layers`. -/
def cogl_pipeline_get_n_layers (fuel : Nat) (ctx : CoglContext) (pipeline : Nat) : Option Nat :=
  match _cogl_pipeline_get_authority ctx fuel pipeline COGL_PIPELINE_STATE_LAYERS with
  | none => none
  | some authority => (ctx.pipeline authority).map (fun a => a.n_layers)

/-- The getter `_cogl_pipeline_get_real_blend_enabled`. -/
def _cogl_pipeline_get_real_blend_enabled (ctx : CoglContext) (pipeline : Nat) : Option Bool :=
  (ctx.pipeline pipeline).map (fun node => node.real_blend_enable)

/-! ## Blend-enable derivation -/

/-- The function `_cogl_pipeline_needs_blending_enabled` (built with `HAVE_COGL_GL`).
The walk over the layers refreshes the layers cache, so the context is returned
with the answer. -/
def _cogl_pipeline_needs_blending_enabled :
    Nat → CoglContext → Nat → Nat → Option CoglColor → Option (CoglContext × Bool)
  | 0, _, _, _, _ => none
  | fuel + 1, ctx, pipeline, changes, override_color =>
    if ctx.debug_disable_blending then some (ctx, false)
    else do
      let enable_authority ←
        _cogl_pipeline_get_authority ctx fuel pipeline COGL_PIPELINE_STATE_BLEND_ENABLE
      let ea ← ctx.pipeline enable_authority
      let enabled := ea.blend_enable
      if enabled ≠ COGL_PIPELINE_BLEND_ENABLE_AUTOMATIC then
        pure (ctx, decide (enabled = COGL_PIPELINE_BLEND_ENABLE_ENABLED))
      else
        let blend_authority ←
          _cogl_pipeline_get_authority ctx fuel pipeline COGL_PIPELINE_STATE_BLEND
        let ba ← ctx.pipeline blend_authority
        let blend_state := ba.big_state.blend_state
        if ctx.driver ≠ CoglDriver.COGL_DRIVER_GLES1 ∧
            (blend_state.blend_equation_rgb ≠ GL_FUNC_ADD ∨
             blend_state.blend_equation_alpha ≠ GL_FUNC_ADD) then pure (ctx, true)
        else if ctx.driver ≠ CoglDriver.COGL_DRIVER_GLES1 ∧
            (blend_state.blend_src_factor_alpha ≠ GL_ONE ∨
             blend_state.blend_dst_factor_alpha ≠ GL_ONE_MINUS_SRC_ALPHA) then pure (ctx, true)
        else if blend_state.blend_src_factor_rgb ≠ GL_ONE ∨
            blend_state.blend_dst_factor_rgb ≠ GL_ONE_MINUS_SRC_ALPHA then pure (ctx, true)
        else
          let changes :=
            if changes &&& COGL_PIPELINE_STATE_LAYERS ≠ 0
            then COGL_PIPELINE_STATE_AFFECTS_BLENDING else changes
          if (override_color.map cogl_color_get_alpha_byte).getD 0xff ≠ 0xff then pure (ctx, true)
          else
            let color_alpha ←
              if changes &&& COGL_PIPELINE_STATE_COLOR ≠ 0
              then (cogl_pipeline_get_color fuel ctx pipeline).map cogl_color_get_alpha_byte
              else some 0xff
            if color_alpha ≠ 0xff then pure (ctx, true)
            else
              let user_program ←
                if changes &&& COGL_PIPELINE_STATE_USER_SHADER ≠ 0
                then _cogl_pipeline_get_user_program fuel ctx pipeline
                else some none
              if user_program ≠ none then pure (ctx, true)
              else
                let (ctx1, has_alpha) ←
                  (if changes &&& COGL_PIPELINE_STATE_LAYERS ≠ 0
                   then _cogl_pipeline_foreach_layer_internal fuel ctx pipeline
                     (fun c _ layer =>
                       (layer_has_alpha_cb fuel c layer).map (fun r => (c, r.1, r.2)))
                     false
                   else some (ctx, false))
                if has_alpha then pure (ctx1, true)
                else
                  let node ← ctx1.pipeline pipeline
                  if node.real_blend_enable then
                    let other_state := mask_clear COGL_PIPELINE_STATE_AFFECTS_BLENDING changes
                    if other_state ≠ 0 then
                      let (ctx2, needed) ←
                        _cogl_pipeline_needs_blending_enabled fuel ctx1 pipeline other_state none
                      if needed then pure (ctx2, true) else pure (ctx2, false)
                    else pure (ctx1, false)
                  else pure (ctx1, false)

/-! ## Copy-on-write -/

/-- The function `_cogl_pipeline_init_multi_property_sparse_state`. The `switch`
has a case for each single group; any other value of `change` falls through it. -/
def _cogl_pipeline_init_multi_property_sparse_state (fuel : Nat) (ctx : CoglContext)
    (pipeline : Nat) (change : Nat) : Option CoglContext :=
  if change &&& COGL_PIPELINE_STATE_ALL_SPARSE = 0 then some ctx
  else if change &&& COGL_PIPELINE_STATE_MULTI_PROPERTY = 0 then some ctx
  else
    match _cogl_pipeline_get_authority ctx fuel pipeline change with
    | none => none
    | some authority =>
      match ctx.pipeline authority with
      | none => none
      | some a =>
        if change = COGL_PIPELINE_STATE_LAYERS then
          ctx.modify_pipeline pipeline
            (fun node => { node with n_layers := a.n_layers, layer_differences := [] })
        else if change = COGL_PIPELINE_STATE_LIGHTING then
          ctx.modify_pipeline pipeline (fun node =>
            { node with big_state :=
                { node.big_state with lighting_state := a.big_state.lighting_state } })
        else if change = COGL_PIPELINE_STATE_BLEND then
          ctx.modify_pipeline pipeline (fun node =>
            { node with big_state :=
                { node.big_state with blend_state := a.big_state.blend_state } })
        else if change = COGL_PIPELINE_STATE_DEPTH then
          ctx.modify_pipeline pipeline (fun node =>
            { node with big_state :=
                { node.big_state with depth_state := a.big_state.depth_state } })
        else if change = COGL_PIPELINE_STATE_FOG then
          ctx.modify_pipeline pipeline (fun node =>
            { node with big_state := { node.big_state with fog_state := a.big_state.fog_state } })
        else if change = COGL_PIPELINE_STATE_LOGIC_OPS then
          ctx.modify_pipeline pipeline (fun node =>
            { node with big_state :=
                { node.big_state with logic_ops_state := a.big_state.logic_ops_state } })
        else if change = COGL_PIPELINE_STATE_CULL_FACE then
          ctx.modify_pipeline pipeline (fun node =>
            { node with big_state :=
                { node.big_state with cull_face_state := a.big_state.cull_face_state } })
        else some ctx

/-- The part of `_cogl_pipeline_copy_differences` that copies the groups held in the
big state, from the test of `COGL_PIPELINE_STATE_NEEDS_BIG_STATE` to the label
`check_for_blending_change`. The block for a missing big state is the one handed
out by `g_slice_new`. -/
def copy_big_state_differences (ctx : CoglContext) (dest src : Nat) (differences : Nat) :
    Option CoglContext :=
  if differences &&& COGL_PIPELINE_STATE_NEEDS_BIG_STATE = 0 then some ctx
  else
    match ctx.pipeline src with
    | none => none
    | some s =>
      ctx.modify_pipeline dest (fun d =>
        let big0 := if !d.has_big_state then ctx.slice_big_state else d.big_state
        let big1 :=
          if differences &&& COGL_PIPELINE_STATE_LIGHTING ≠ 0
          then { big0 with lighting_state := s.big_state.lighting_state } else big0
        let big2 :=
          if differences &&& COGL_PIPELINE_STATE_ALPHA_FUNC ≠ 0
          then { big1 with alpha_state :=
                  { big1.alpha_state with alpha_func := s.big_state.alpha_state.alpha_func } }
          else big1
        let big3 :=
          if differences &&& COGL_PIPELINE_STATE_ALPHA_FUNC_REFERENCE ≠ 0
          then { big2 with alpha_state :=
                  { big2.alpha_state with
                    alpha_func_reference := s.big_state.alpha_state.alpha_func_reference } }
          else big2
        let big4 :=
          if differences &&& COGL_PIPELINE_STATE_BLEND ≠ 0
          then { big3 with blend_state := s.big_state.blend_state } else big3
        let big5 :=
          if differences &&& COGL_PIPELINE_STATE_USER_SHADER ≠ 0
          then { big4 with user_program := s.big_state.user_program } else big4
        let big6 :=
          if differences &&& COGL_PIPELINE_STATE_DEPTH ≠ 0
          then { big5 with depth_state := s.big_state.depth_state } else big5
        let big7 :=
          if differences &&& COGL_PIPELINE_STATE_FOG ≠ 0
          then { big6 with fog_state := s.big_state.fog_state } else big6
        let big8 :=
          if differences &&& COGL_PIPELINE_STATE_POINT_SIZE ≠ 0
          then { big7 with point_size := s.big_state.point_size } else big7
        let big9 :=
          if differences &&& COGL_PIPELINE_STATE_LOGIC_OPS ≠ 0
          then { big8 with logic_ops_state := s.big_state.logic_ops_state } else big8
        let big10 :=
          if differences &&& COGL_PIPELINE_STATE_CULL_FACE ≠ 0
          then { big9 with cull_face_state := s.big_state.cull_face_state } else big9
        { d with big_state := big10, has_big_state := true })

/-- The type of `_cogl_pipeline_pre_change_notify`. -/
abbrev PreChangeNotify :=
  CoglContext → Nat → Nat → Option CoglColor → Bool → Option CoglContext

/-- The function `_cogl_pipeline_add_layer_difference`; its call of
`_cogl_pipeline_pre_change_notify` goes through `notify`. -/
def add_layer_difference_with (notify : PreChangeNotify) (ctx : CoglContext)
    (pipeline layer : Nat) (inc_n_layers : Bool) : Option CoglContext := do
  let l ← ctx.layer layer
  if l.owner ≠ none then pure ctx
  else
    let c1 := ctx.set_layer layer { l with owner := some pipeline }
    let c2 ← cogl_object_ref_layer c1 layer
    let c3 ← notify c2 pipeline COGL_PIPELINE_STATE_LAYERS none (!inc_n_layers)
    c3.modify_pipeline pipeline (fun n =>
      { n with
        differences := n.differences ||| COGL_PIPELINE_STATE_LAYERS
        layer_differences := layer :: n.layer_differences
        n_layers := if inc_n_layers then n.n_layers + 1 else n.n_layers })

/-- The function `_cogl_pipeline_update_blend_enable`; its call of
`_cogl_pipeline_pre_change_notify` goes through `notify`. -/
def update_blend_enable_with (notify : PreChangeNotify) (fuel : Nat) (ctx : CoglContext)
    (pipeline : Nat) (change : Nat) : Option CoglContext := do
  let (c1, blend_enable) ← _cogl_pipeline_needs_blending_enabled fuel ctx pipeline change none
  let node ← c1.pipeline pipeline
  if blend_enable ≠ node.real_blend_enable then
    let c2 ← notify c1 pipeline COGL_PIPELINE_STATE_REAL_BLEND_ENABLE none false
    c2.modify_pipeline pipeline (fun n => { n with real_blend_enable := blend_enable })
  else pure c1

/-- The function `_cogl_pipeline_copy_differences`; the calls of
`_cogl_pipeline_pre_change_notify` made below it go through `notify`. The list of a
destination that already asserts LAYERS is released but its pointer is left in
place; the reference taken on a user program has no effect on the two heaps. -/
def copy_differences_with (notify : PreChangeNotify) (fuel : Nat) (ctx : CoglContext)
    (dest src : Nat) (differences : Nat) : Option CoglContext := do
  let s ← ctx.pipeline src
  let ctx ←
    (if differences &&& COGL_PIPELINE_STATE_COLOR ≠ 0
     then ctx.modify_pipeline dest (fun d => { d with color := s.color }) else some ctx)
  let ctx ←
    (if differences &&& COGL_PIPELINE_STATE_BLEND_ENABLE ≠ 0
     then ctx.modify_pipeline dest (fun d => { d with blend_enable := s.blend_enable })
     else some ctx)
  let ctx ←
    (if differences &&& COGL_PIPELINE_STATE_LAYERS ≠ 0 then do
      let d ← ctx.pipeline dest
      let c1 ←
        (if d.differences &&& COGL_PIPELINE_STATE_LAYERS ≠ 0 ∧ d.layer_differences ≠ []
         then d.layer_differences.foldlM cogl_object_unref_layer ctx else some ctx)
      let s1 ← c1.pipeline src
      let c2 ← s1.layer_differences.foldlM
        (fun c l => do
          let (ca, copy) ← _cogl_pipeline_layer_copy c l
          let cb ← add_layer_difference_with notify ca dest copy false
          cogl_object_unref_layer cb copy) c1
      let s2 ← c2.pipeline src
      c2.modify_pipeline dest (fun d => { d with n_layers := s2.n_layers })
     else some ctx)
  let ctx ← copy_big_state_differences ctx dest src differences
  let ctx ←
    (if differences &&& COGL_PIPELINE_STATE_AFFECTS_BLENDING ≠ 0
     then update_blend_enable_with notify fuel ctx dest differences else some ctx)
  ctx.modify_pipeline dest (fun d => { d with differences := d.differences ||| differences })

/-- The callback `reparent_children_cb`. -/
def reparent_children_cb (fuel : Nat) (parent : Nat) (ctx : CoglContext) (node : Nat) :
    Option CoglContext :=
  _cogl_pipeline_set_parent fuel ctx node parent true

/-- The journal test at the head of `_cogl_pipeline_pre_change_notify`: the flush
is skipped for a change of color that leaves the need for blending as it is. -/
def pre_change_notify_journal (fuel : Nat) (ctx : CoglContext) (pipeline : Nat)
    (change : Nat) (new_color : Option CoglColor) : Option CoglContext :=
  match ctx.pipeline pipeline with
  | none => none
  | some node =>
    if node.journal_ref_count ≠ 0 then
      if change = COGL_PIPELINE_STATE_COLOR then
        match _cogl_pipeline_needs_blending_enabled fuel ctx pipeline change new_color with
        | none => none
        | some (ctx1, will_need_blending) =>
          if will_need_blending = node.real_blend_enable then some ctx1
          else some (ctx1.emit CoglEvent.flush)
      else some (ctx.emit CoglEvent.flush)
    else some ctx

/-- The back-end part of `_cogl_pipeline_pre_change_notify`: a fixed back-end is
reset to `UNDEFINED`, and a change that does not come from a layer is notified to
the fragment, vertex and program back-ends. -/
def pre_change_notify_backends (ctx : CoglContext) (pipeline : Nat) (change : Nat)
    (from_layer_change : Bool) : Option CoglContext := do
  let ctx ← ctx.modify_pipeline pipeline (fun n =>
    if n.fragend = COGL_PIPELINE_FRAGEND_FIXED
    then { n with fragend := COGL_PIPELINE_FRAGEND_UNDEFINED } else n)
  let ctx ← ctx.modify_pipeline pipeline (fun n =>
    if n.vertend = COGL_PIPELINE_VERTEND_FIXED
    then { n with vertend := COGL_PIPELINE_VERTEND_UNDEFINED } else n)
  let node ← ctx.pipeline pipeline
  if !from_layer_change then
    let c1 :=
      if node.fragend ≠ COGL_PIPELINE_FRAGEND_UNDEFINED
      then ctx.emit (CoglEvent.fragend_pre_change_notify pipeline change) else ctx
    let c2 :=
      if node.vertend ≠ COGL_PIPELINE_VERTEND_UNDEFINED
      then c1.emit (CoglEvent.vertend_pre_change_notify pipeline change) else c1
    pure (c2.emit (CoglEvent.progend_pre_change_notify pipeline change))
  else pure ctx

/-- The copy-on-write block of `_cogl_pipeline_pre_change_notify`, entered when
children remain after the weak ones are destroyed. Returns the context and the
new authority. -/
def pre_change_notify_copy_on_write (notify : PreChangeNotify) (fuel : Nat) (ctx : CoglContext)
    (pipeline : Nat) : Option (CoglContext × Nat) := do
  let node ← ctx.pipeline pipeline
  let parent ← node.parent
  let (c1, new_authority) ← cogl_pipeline_copy fuel ctx parent
  let c2 ← _cogl_pipeline_set_static_breadcrumb c1 new_authority "pre_change_notify:copy-on-write"
  let n2 ← c2.pipeline pipeline
  let c3 ← copy_differences_with notify fuel c2 new_authority pipeline n2.differences
  let c4 ← _cogl_pipeline_node_foreach_child c3 pipeline (reparent_children_cb fuel new_authority) c3
  let c5 ← cogl_object_unref c4 new_authority
  pure (c5, new_authority)

/-- The tail of `_cogl_pipeline_pre_change_notify`, from `pipeline->age++` on: the
lazy big state, the takeover of the group, the release of the layer caches and the
record of the change on the current pipeline. -/
def pre_change_notify_takeover (fuel : Nat) (ctx : CoglContext) (pipeline : Nat) (change : Nat) :
    Option CoglContext := do
  let ctx ← ctx.modify_pipeline pipeline (fun n => { n with age := n.age + 1 })
  let ctx ← ctx.modify_pipeline pipeline (fun n =>
    if change &&& COGL_PIPELINE_STATE_NEEDS_BIG_STATE ≠ 0 ∧ !n.has_big_state
    then { n with big_state := ctx.slice_big_state, has_big_state := true } else n)
  let node ← ctx.pipeline pipeline
  let ctx ←
    (if change &&& COGL_PIPELINE_STATE_ALL_SPARSE ≠ 0 ∧ node.differences &&& change = 0 then do
      let c1 ← _cogl_pipeline_init_multi_property_sparse_state fuel ctx pipeline change
      c1.modify_pipeline pipeline (fun n => { n with differences := n.differences ||| change })
     else some ctx)
  let ctx ←
    (if change = COGL_PIPELINE_STATE_LAYERS then recursively_free_layer_caches fuel ctx pipeline
     else some ctx)
  pure
    (if ctx.current_pipeline = some pipeline
     then { ctx with current_pipeline_changes_since_flush :=
              ctx.current_pipeline_changes_since_flush ||| change }
     else ctx)

/-- The body of `_cogl_pipeline_pre_change_notify` (built with the fixed back-ends
and one program back-end); the calls of itself made below
`_cogl_pipeline_copy_differences` go through `notify`. -/
def pre_change_notify_with (notify : PreChangeNotify) (fuel : Nat) (ctx : CoglContext)
    (pipeline : Nat) (change : Nat) (new_color : Option CoglColor) (from_layer_change : Bool) :
    Option CoglContext := do
  let ctx ← pre_change_notify_journal fuel ctx pipeline change new_color
  let ctx ← pre_change_notify_backends ctx pipeline change from_layer_change
  let ctx ← _cogl_pipeline_node_foreach_child ctx pipeline (destroy_weak_children_cb fuel) ctx
  let node ← ctx.pipeline pipeline
  let ctx ←
    (if node.children ≠ [] then
      (pre_change_notify_copy_on_write notify fuel ctx pipeline).map (fun r => r.1)
     else some ctx)
  pre_change_notify_takeover fuel ctx pipeline change

/-- The function `_cogl_pipeline_pre_change_notify`. One unit of fuel is spent on
each nested call of the function. -/
def _cogl_pipeline_pre_change_notify : Nat → PreChangeNotify
  | 0 => fun _ _ _ _ _ => none
  | fuel + 1 => pre_change_notify_with (_cogl_pipeline_pre_change_notify fuel) fuel

/-- The function `_cogl_pipeline_add_layer_difference`. -/
def _cogl_pipeline_add_layer_difference (fuel : Nat) (ctx : CoglContext) (pipeline layer : Nat)
    (inc_n_layers : Bool) : Option CoglContext :=
  add_layer_difference_with (_cogl_pipeline_pre_change_notify fuel) ctx pipeline layer
    inc_n_layers

/-- The function `_cogl_pipeline_update_blend_enable`. -/
def _cogl_pipeline_update_blend_enable (fuel : Nat) (ctx : CoglContext) (pipeline : Nat)
    (change : Nat) : Option CoglContext :=
  update_blend_enable_with (_cogl_pipeline_pre_change_notify fuel) fuel ctx pipeline change

/-- The function `_cogl_pipeline_copy_differences`. -/
def _cogl_pipeline_copy_differences (fuel : Nat) (ctx : CoglContext) (dest src : Nat)
    (differences : Nat) : Option CoglContext :=
  copy_differences_with (_cogl_pipeline_pre_change_notify fuel) fuel ctx dest src differences

/-! ## Layer changes -/

/-- The function `_cogl_pipeline_remove_layer_difference`. -/
def _cogl_pipeline_remove_layer_difference (fuel : Nat) (ctx : CoglContext)
    (pipeline layer : Nat) (dec_n_layers : Bool) : Option CoglContext := do
  let l ← ctx.layer layer
  if l.owner ≠ some pipeline then pure ctx
  else
    let c1 ← _cogl_pipeline_pre_change_notify fuel ctx pipeline COGL_PIPELINE_STATE_LAYERS none
      (!dec_n_layers)
    let c2 ← c1.modify_layer layer (fun n => { n with owner := none })
    let c3 ← cogl_object_unref_layer c2 layer
    c3.modify_pipeline pipeline (fun n =>
      { n with
        differences := n.differences ||| COGL_PIPELINE_STATE_LAYERS
        layer_differences := n.layer_differences.erase layer
        n_layers := if dec_n_layers then n.n_layers - 1 else n.n_layers })

/-- The function `_cogl_get_n_args_for_combine_func`. -/
def _cogl_get_n_args_for_combine_func (func : Nat) : Nat :=
  if func = COGL_PIPELINE_COMBINE_FUNC_REPLACE then 1
  else if func = COGL_PIPELINE_COMBINE_FUNC_MODULATE ∨ func = COGL_PIPELINE_COMBINE_FUNC_ADD ∨
      func = COGL_PIPELINE_COMBINE_FUNC_ADD_SIGNED ∨ func = COGL_PIPELINE_COMBINE_FUNC_SUBTRACT ∨
      func = COGL_PIPELINE_COMBINE_FUNC_DOT3_RGB ∨ func = COGL_PIPELINE_COMBINE_FUNC_DOT3_RGBA
  then 2
  else if func = COGL_PIPELINE_COMBINE_FUNC_INTERPOLATE then 3
  else 0

/-- The loop `for (i = 0; i < n_args; i++) dest[i] = src[i];` on an array kept as a
list. -/
def copy_combine_args (n_args : Nat) (dest src : List Nat) : List Nat :=
  (List.range n_args).foldl (fun acc i => acc.set i (src.getD i 0)) dest

/-- The function `_cogl_pipeline_layer_init_multi_property_sparse_state`. -/
def _cogl_pipeline_layer_init_multi_property_sparse_state (fuel : Nat) (ctx : CoglContext)
    (layer : Nat) (change : Nat) : Option CoglContext :=
  if change &&& COGL_PIPELINE_LAYER_STATE_MULTI_PROPERTY = 0 then some ctx
  else
    match _cogl_pipeline_layer_get_authority ctx fuel layer change with
    | none => none
    | some authority =>
      match ctx.layer authority with
      | none => none
      | some a =>
        if change = COGL_PIPELINE_LAYER_STATE_FILTERS then
          ctx.modify_layer layer (fun n =>
            { n with min_filter := a.min_filter, mag_filter := a.mag_filter })
        else if change = COGL_PIPELINE_LAYER_STATE_WRAP_MODES then
          ctx.modify_layer layer (fun n =>
            { n with wrap_mode_s := a.wrap_mode_s, wrap_mode_t := a.wrap_mode_t,
                     wrap_mode_p := a.wrap_mode_p })
        else if change = COGL_PIPELINE_LAYER_STATE_COMBINE then
          ctx.modify_layer layer (fun n =>
            let src := a.big_state
            let rgb_args := _cogl_get_n_args_for_combine_func src.texture_combine_rgb_func
            let alpha_args := _cogl_get_n_args_for_combine_func src.texture_combine_alpha_func
            { n with big_state :=
                { n.big_state with
                  texture_combine_rgb_func := src.texture_combine_rgb_func
                  texture_combine_rgb_src :=
                    copy_combine_args rgb_args n.big_state.texture_combine_rgb_src
                      src.texture_combine_rgb_src
                  texture_combine_rgb_op :=
                    copy_combine_args rgb_args n.big_state.texture_combine_rgb_op
                      src.texture_combine_rgb_op
                  texture_combine_alpha_func := src.texture_combine_alpha_func
                  texture_combine_alpha_src :=
                    copy_combine_args alpha_args n.big_state.texture_combine_alpha_src
                      src.texture_combine_alpha_src
                  texture_combine_alpha_op :=
                    copy_combine_args alpha_args n.big_state.texture_combine_alpha_op
                      src.texture_combine_alpha_op } })
        else some ctx

/-- The three functions `_cogl_pipeline_fragend_layer_change_notify`,
`_cogl_pipeline_vertend_layer_change_notify` and
`_cogl_pipeline_progend_layer_change_notify`, recorded as events. -/
def layer_change_notify_backends (ctx : CoglContext) (owner layer : Nat) (change : Nat) :
    Option CoglContext :=
  match ctx.pipeline owner with
  | none => none
  | some o =>
    let c1 :=
      if o.fragend ≠ COGL_PIPELINE_FRAGEND_UNDEFINED
      then ctx.emit (CoglEvent.fragend_layer_pre_change_notify owner layer change) else ctx
    let c2 :=
      if o.vertend ≠ COGL_PIPELINE_VERTEND_UNDEFINED
      then c1.emit (CoglEvent.vertend_layer_pre_change_notify owner layer change) else c1
    some (c2.emit (CoglEvent.progend_layer_pre_change_notify owner layer change))

/-- The tail of `_cogl_pipeline_layer_pre_change_notify` from the label
`init_layer_state`. -/
def layer_pre_change_notify_init_layer_state (fuel : Nat) (ctx : CoglContext)
    (required_owner : Option Nat) (layer : Nat) (change : Nat) : Option (CoglContext × Nat) := do
  let ctx ←
    (match required_owner with
     | some owner => ctx.modify_pipeline owner (fun n => { n with age := n.age + 1 })
     | none => some ctx)
  let ctx ← ctx.modify_layer layer (fun n =>
    if change &&& COGL_PIPELINE_LAYER_STATE_NEEDS_BIG_STATE ≠ 0 ∧ !n.has_big_state
    then { n with big_state := ctx.slice_layer_big_state, has_big_state := true } else n)
  let l ← ctx.layer layer
  let ctx ←
    (if change &&& COGL_PIPELINE_LAYER_STATE_ALL_SPARSE ≠ 0 ∧ l.differences &&& change = 0
     then do
       let c1 ← _cogl_pipeline_layer_init_multi_property_sparse_state fuel ctx layer change
       c1.modify_layer layer (fun n => { n with differences := n.differences ||| change })
     else some ctx)
  pure (ctx, layer)

/-- The function `_cogl_pipeline_layer_pre_change_notify`. A texture unit that was
never set up holds no layer. Returns the context and the layer to write to. -/
def _cogl_pipeline_layer_pre_change_notify (fuel : Nat) (ctx : CoglContext)
    (required_owner : Option Nat) (layer : Nat) (change : Nat) : Option (CoglContext × Nat) := do
  let l ← ctx.layer layer
  if l.children = [] ∧ l.owner = none then
    layer_pre_change_notify_init_layer_state fuel ctx required_owner layer change
  else
    match required_owner with
    | none => pure (ctx, layer)
    | some owner =>
      let c1 ← _cogl_pipeline_pre_change_notify fuel ctx owner COGL_PIPELINE_STATE_LAYERS none true
      let l1 ← c1.layer layer
      if l1.children ≠ [] ∨ l1.owner ≠ some owner then
        let (c2, new) ← _cogl_pipeline_layer_copy c1 layer
        let l2 ← c2.layer layer
        let c3 ←
          (if l2.owner = some owner
           then _cogl_pipeline_remove_layer_difference fuel c2 owner layer false else some c2)
        let c4 ← _cogl_pipeline_add_layer_difference fuel c3 owner new false
        let c5 ← cogl_object_unref_layer c4 new
        layer_pre_change_notify_init_layer_state fuel c5 required_owner new change
      else
        let c2 ← layer_change_notify_backends c1 owner layer change
        let unit_index ← _cogl_pipeline_layer_get_unit_index c2 fuel layer
        let c3 :=
          match c2.texture_units[unit_index]? with
          | some unit =>
            if unit.layer = some layer then
              let changed : CoglTextureUnit :=
                { unit with
                  layer_changes_since_flush := unit.layer_changes_since_flush ||| change }
              { c2 with texture_units := c2.texture_units.set unit_index changed }
            else c2
          | none => c2
        layer_pre_change_notify_init_layer_state fuel c3 required_owner layer change

/-- The loop of `_cogl_pipeline_layer_prune_redundant_ancestry`: walk up past the
ancestors whose differences are contained in those of the layer. -/
def layer_prune_redundant_ancestry_loop (ctx : CoglContext) (differences : Nat) :
    Nat → Nat → Option Nat
  | 0, _ => none
  | fuel + 1, new_parent =>
    match ctx.layer new_parent with
    | none => none
    | some np =>
      match np.parent with
      | none => some new_parent
      | some grandparent =>
        if np.differences ||| differences = differences then
          layer_prune_redundant_ancestry_loop ctx differences fuel grandparent
        else some new_parent

/-- The function `_cogl_pipeline_layer_prune_redundant_ancestry`. -/
def _cogl_pipeline_layer_prune_redundant_ancestry (fuel : Nat) (ctx : CoglContext) (layer : Nat) :
    Option CoglContext := do
  let l ← ctx.layer layer
  let parent ← l.parent
  let new_parent ← layer_prune_redundant_ancestry_loop ctx l.differences fuel parent
  _cogl_pipeline_layer_set_parent ctx layer new_parent

/-- Modelled from the spec: `_cogl_pipeline_set_layer_unit` is defined in
cogl-pipeline-layer-state.c, which is not among the sources. It follows the layer
setter protocol of section 4.6: nothing changes when the UNIT authority already
holds `unit_index`; otherwise the layer goes through the layer pre-change notify,
the unit index is written, and authority over UNIT is reverted to the parent or
taken with a pruning of the redundant ancestry. Returns the layer written to. -/
def _cogl_pipeline_set_layer_unit (fuel : Nat) (ctx : CoglContext) (required_owner : Option Nat)
    (layer : Nat) (unit_index : Nat) : Option (CoglContext × Nat) := do
  let change := COGL_PIPELINE_LAYER_STATE_UNIT
  let authority ← _cogl_pipeline_layer_get_authority ctx fuel layer change
  let a ← ctx.layer authority
  if a.unit_index = unit_index then pure (ctx, layer)
  else
    let (c1, new) ← _cogl_pipeline_layer_pre_change_notify fuel ctx required_owner layer change
    let reverted ←
      (if new = layer ∧ layer = authority then
        match a.parent with
        | none => some false
        | some parent => do
          let old_authority ← _cogl_pipeline_layer_get_authority c1 fuel parent change
          let oa ← c1.layer old_authority
          pure (decide (oa.unit_index = unit_index))
       else some false)
    if reverted then
      let c2 ← c1.modify_layer new (fun n =>
        { n with differences := mask_clear n.differences change })
      pure (c2, new)
    else
      let c2 ← c1.modify_layer new (fun n => { n with unit_index := unit_index })
      if new ≠ authority then
        let c3 ← c2.modify_layer new (fun n => { n with differences := n.differences ||| change })
        let c4 ← _cogl_pipeline_layer_prune_redundant_ancestry fuel c3 new
        pure (c4, new)
      else pure (c2, new)

/-- The block handed out by `g_slice_new0 (CoglPipelineLayerBigState)`. -/
def zeroed_layer_big_state : CoglPipelineLayerBigState :=
  { texture_combine_rgb_func := 0, texture_combine_rgb_src := [0, 0, 0],
    texture_combine_rgb_op := [0, 0, 0], texture_combine_alpha_func := 0,
    texture_combine_alpha_src := [0, 0, 0], texture_combine_alpha_op := [0, 0, 0],
    texture_combine_constant := [0, 0, 0, 0], matrix := List.replicate 16 0,
    point_sprite_coords := false }

/-- The block handed out by `g_slice_new0 (CoglPipelineLayer)`. -/
def zeroed_layer : CoglPipelineLayer :=
  { ref_count := 0, parent := none, has_parent_reference := false, children := [],
    owner := none, index := 0, differences := 0, unit_index := 0, texture := none, target := 0,
    mag_filter := 0, min_filter := 0, wrap_mode_s := 0, wrap_mode_t := 0, wrap_mode_p := 0,
    has_big_state := false, big_state := zeroed_layer_big_state }

/-- The matrix written by `cogl_matrix_init_identity`. -/
def identity_matrix : List GFloat :=
  [FLOAT_1_0, 0, 0, 0, 0, FLOAT_1_0, 0, 0, 0, 0, FLOAT_1_0, 0, 0, 0, 0, FLOAT_1_0]

/-- The function `_cogl_pipeline_init_default_layers`: default layer 0, default
layer n derived from it with unit index 1, and the dummy dependant of layer n. -/
def _cogl_pipeline_init_default_layers (fuel : Nat) (ctx : CoglContext) : Option CoglContext := do
  let big_state : CoglPipelineLayerBigState :=
    { zeroed_layer_big_state with
      texture_combine_rgb_func := COGL_PIPELINE_COMBINE_FUNC_MODULATE
      texture_combine_rgb_src :=
        [COGL_PIPELINE_COMBINE_SOURCE_PREVIOUS, COGL_PIPELINE_COMBINE_SOURCE_TEXTURE, 0]
      texture_combine_rgb_op :=
        [COGL_PIPELINE_COMBINE_OP_SRC_COLOR, COGL_PIPELINE_COMBINE_OP_SRC_COLOR, 0]
      texture_combine_alpha_func := COGL_PIPELINE_COMBINE_FUNC_MODULATE
      texture_combine_alpha_src :=
        [COGL_PIPELINE_COMBINE_SOURCE_PREVIOUS, COGL_PIPELINE_COMBINE_SOURCE_TEXTURE, 0]
      texture_combine_alpha_op :=
        [COGL_PIPELINE_COMBINE_OP_SRC_ALPHA, COGL_PIPELINE_COMBINE_OP_SRC_ALPHA, 0]
      point_sprite_coords := false
      matrix := identity_matrix }
  let layer : CoglPipelineLayer :=
    { zeroed_layer with
      parent := none
      children := []
      index := 0
      differences := COGL_PIPELINE_LAYER_STATE_ALL_SPARSE
      unit_index := 0
      texture := none
      target := 0
      mag_filter := COGL_PIPELINE_FILTER_LINEAR
      min_filter := COGL_PIPELINE_FILTER_LINEAR
      wrap_mode_s := COGL_PIPELINE_WRAP_MODE_AUTOMATIC
      wrap_mode_t := COGL_PIPELINE_WRAP_MODE_AUTOMATIC
      wrap_mode_p := COGL_PIPELINE_WRAP_MODE_AUTOMATIC
      big_state := big_state
      has_big_state := true
      ref_count := 1 }
  let default_layer_0 := ctx.layers.length
  let c1 := { ctx with layers := ctx.layers ++ [layer], default_layer_0 := default_layer_0 }
  let (c2, default_layer_n) ← _cogl_pipeline_layer_copy c1 default_layer_0
  let c3 := { c2 with default_layer_n := default_layer_n }
  let (c4, new) ← _cogl_pipeline_set_layer_unit fuel c3 none default_layer_n 1
  if new ≠ default_layer_n then none
  else
    let (c5, dummy) ← _cogl_pipeline_layer_copy c4 default_layer_n
    pure { c5 with dummy_layer_dependant := dummy }

/-! ## Layers by index -/

/-- The record `CoglPipelineLayerInfo`; the array `layers_to_shift` with its count
`n_layers_to_shift` is a list. -/
structure CoglPipelineLayerInfo where
  layer_index : Int
  layer : Option Nat
  insert_after : Int
  layers_to_shift : List Nat
  ignore_shift_layers_if_found : Bool
deriving DecidableEq, Repr

/-- The function `update_layer_info`: returns the record and whether "there is
nothing more to update". -/
def update_layer_info (ctx : CoglContext) (fuel : Nat) (layer : Nat)
    (layer_info : CoglPipelineLayerInfo) : Option (CoglPipelineLayerInfo × Bool) :=
  match ctx.layer layer with
  | none => none
  | some l =>
    if l.index = layer_info.layer_index then
      some ({ layer_info with layer := some layer }, layer_info.ignore_shift_layers_if_found)
    else if l.index < layer_info.layer_index then
      match _cogl_pipeline_layer_get_unit_index ctx fuel layer with
      | none => none
      | some unit_index => some ({ layer_info with insert_after := unit_index }, false)
    else
      some ({ layer_info with layers_to_shift := layer_info.layers_to_shift ++ [layer] }, false)

/-- The loop `for (i = 0; i < n_layers; i++)` of `_cogl_pipeline_get_layer_info`
over the layers cache; `remaining` is `n_layers - i`. -/
def get_layer_info_loop (ctx : CoglContext) (fuel : Nat) (cache : List (Option Nat)) :
    Nat → Nat → CoglPipelineLayerInfo → Option CoglPipelineLayerInfo
  | 0, _, layer_info => some layer_info
  | remaining + 1, i, layer_info =>
    match cache[i]? with
    | some (some layer) =>
      match update_layer_info ctx fuel layer layer_info with
      | none => none
      | some (info1, true) => some info1
      | some (info1, false) => get_layer_info_loop ctx fuel cache remaining (i + 1) info1
    | _ => none

/-- The function `_cogl_pipeline_get_layer_info`. -/
def _cogl_pipeline_get_layer_info (fuel : Nat) (ctx : CoglContext) (pipeline : Nat)
    (layer_info : CoglPipelineLayerInfo) : Option (CoglContext × CoglPipelineLayerInfo) :=
  match ctx.pipeline pipeline with
  | none => none
  | some node =>
    if layer_info.ignore_shift_layers_if_found ∧ node.layers_cache_dirty then
      _cogl_pipeline_foreach_layer_internal fuel ctx pipeline
        (fun c info layer =>
          (update_layer_info c fuel layer info).map (fun r => (c, r.1, !r.2)))
        layer_info
    else
      match _cogl_pipeline_update_layers_cache fuel ctx pipeline with
      | none => none
      | some c1 =>
        match c1.pipeline pipeline with
        | none => none
        | some node1 =>
          (get_layer_info_loop c1 fuel node1.layers_cache node.n_layers 0 layer_info).map
            (fun info => (c1, info))

/-- The function `_cogl_pipeline_get_layer`. Returns the context and the layer. -/
def _cogl_pipeline_get_layer (fuel : Nat) (ctx : CoglContext) (pipeline : Nat)
    (layer_index : Int) : Option (CoglContext × Nat) := do
  let authority ← _cogl_pipeline_get_authority ctx fuel pipeline COGL_PIPELINE_STATE_LAYERS
  let (c1, layer_info) ← _cogl_pipeline_get_layer_info fuel ctx authority
    { layer_index := layer_index, layer := none, insert_after := -1, layers_to_shift := [],
      ignore_shift_layers_if_found := true }
  match layer_info.layer with
  | some found => pure (c1, found)
  | none =>
    let unit_index := layer_info.insert_after + 1
    let (c2, layer) ←
      (if unit_index = 0 then _cogl_pipeline_layer_copy c1 c1.default_layer_0
       else do
         let (ca, layer) ← _cogl_pipeline_layer_copy c1 c1.default_layer_n
         let (cb, new) ← _cogl_pipeline_set_layer_unit fuel ca none layer unit_index.toNat
         if new ≠ layer then none else pure (cb, layer))
    let c3 ← c2.modify_layer layer (fun l => { l with index := layer_index })
    let c4 ← layer_info.layers_to_shift.foldlM
      (fun c shift_layer => do
        let shift_unit ← _cogl_pipeline_layer_get_unit_index c fuel shift_layer
        let (cs, _) ← _cogl_pipeline_set_layer_unit fuel c (some pipeline) shift_layer
          (shift_unit + 1)
        pure cs) c3
    let c5 ← _cogl_pipeline_add_layer_difference fuel c4 pipeline layer true
    let c6 ← cogl_object_unref_layer c5 layer
    pure (c6, layer)

/-- The record `CoglPipelinePruneLayersInfo`; `first_index_to_prune` is not
initialised by `_cogl_pipeline_prune_to_n_layers` and is `none` until the callback
writes it. -/
structure CoglPipelinePruneLayersInfo where
  keep_n : Nat
  current_pos : Nat
  first_index_to_prune : Option Int
deriving DecidableEq, Repr

/-- The callback `update_prune_layers_info_cb`. -/
def update_prune_layers_info_cb (ctx : CoglContext) (state : CoglPipelinePruneLayersInfo)
    (layer : Nat) : Option (CoglContext × CoglPipelinePruneLayersInfo × Bool) :=
  match ctx.layer layer with
  | none => none
  | some l =>
    if state.current_pos = state.keep_n then
      some (ctx, { state with first_index_to_prune := some l.index }, false)
    else some (ctx, { state with current_pos := state.current_pos + 1 }, true)

/-- The function `_cogl_pipeline_prune_to_n_layers`. The loop walks the list of
layer differences as it was on entry (`next` is read before a layer is removed); a
read of `first_index_to_prune` that was never written does not return. -/
def _cogl_pipeline_prune_to_n_layers (fuel : Nat) (ctx : CoglContext) (pipeline : Nat) (n : Nat) :
    Option CoglContext := do
  let authority ← _cogl_pipeline_get_authority ctx fuel pipeline COGL_PIPELINE_STATE_LAYERS
  let a ← ctx.pipeline authority
  if a.n_layers ≤ n then pure ctx
  else
    let c1 ← _cogl_pipeline_pre_change_notify fuel ctx pipeline COGL_PIPELINE_STATE_LAYERS none
      false
    let (c2, state) ← _cogl_pipeline_foreach_layer_internal fuel c1 pipeline
      update_prune_layers_info_cb
      { keep_n := n, current_pos := 0, first_index_to_prune := none }
    let c3 ← c2.modify_pipeline pipeline (fun node =>
      { node with differences := node.differences ||| COGL_PIPELINE_STATE_LAYERS, n_layers := n })
    let node ← c3.pipeline pipeline
    let c4 ← node.layer_differences.foldlM
      (fun c layer => do
        let l ← c.layer layer
        let first ← state.first_index_to_prune
        if l.index > first then _cogl_pipeline_remove_layer_difference fuel c pipeline layer false
        else pure c) c3
    c4.modify_pipeline pipeline (fun node =>
      { node with differences := node.differences ||| COGL_PIPELINE_STATE_LAYERS })

/-- The function `_cogl_pipeline_get_layers` with its callback
`prepend_layer_to_list_cb`: the layers of the pipeline in the order of their
texture units. Returns the context and the list. -/
def _cogl_pipeline_get_layers (fuel : Nat) (ctx : CoglContext) (pipeline : Nat) :
    Option (CoglContext × List Nat) := do
  let c1 ← ctx.modify_pipeline pipeline (fun node => { node with deprecated_get_layers_list := [] })
  let (c2, layers) ← _cogl_pipeline_foreach_layer_internal fuel c1 pipeline
    (fun c list layer => some (c, layer :: list, true)) []
  let c3 ← c2.modify_pipeline pipeline (fun node =>
    { node with deprecated_get_layers_list := layers.reverse,
                deprecated_get_layers_list_dirty := false })
  pure (c3, layers.reverse)

/-- The function `_cogl_pipeline_try_reverting_layers_authority`. -/
def _cogl_pipeline_try_reverting_layers_authority (fuel : Nat) (ctx : CoglContext)
    (authority : Nat) (old_authority : Option Nat) : Option CoglContext := do
  let a ← ctx.pipeline authority
  match a.layer_differences, a.parent with
  | [], some parent =>
    let old ←
      (match old_authority with
       | some given => some given
       | none => _cogl_pipeline_get_authority ctx fuel parent COGL_PIPELINE_STATE_LAYERS)
    let oa ← ctx.pipeline old
    if oa.n_layers = a.n_layers then
      ctx.modify_pipeline authority (fun n =>
        { n with differences := mask_clear n.differences COGL_PIPELINE_STATE_LAYERS })
    else pure ctx
  | _, _ => pure ctx

/-- The function `cogl_pipeline_remove_layer`. The field `insert_after` of the
record is not initialised here and is not read. A unit index is an `int` in the
source and a natural number here: the shift of a layer that sits on unit 0 does not
return. -/
def cogl_pipeline_remove_layer (fuel : Nat) (ctx : CoglContext) (pipeline : Nat)
    (layer_index : Int) : Option CoglContext := do
  let authority ← _cogl_pipeline_get_authority ctx fuel pipeline COGL_PIPELINE_STATE_LAYERS
  let (c1, layer_info) ← _cogl_pipeline_get_layer_info fuel ctx authority
    { layer_index := layer_index, layer := none, insert_after := -1, layers_to_shift := [],
      ignore_shift_layers_if_found := false }
  match layer_info.layer with
  | none => pure c1
  | some found =>
    let c2 ← layer_info.layers_to_shift.foldlM
      (fun c shift_layer => do
        let unit_index ← _cogl_pipeline_layer_get_unit_index c fuel shift_layer
        if unit_index = 0 then none
        else
          let (cs, _) ← _cogl_pipeline_set_layer_unit fuel c (some pipeline) shift_layer
            (unit_index - 1)
          pure cs) c1
    let c3 ← _cogl_pipeline_remove_layer_difference fuel c2 pipeline found true
    let c4 ← _cogl_pipeline_try_reverting_layers_authority fuel c3 pipeline none
    _cogl_pipeline_update_blend_enable fuel c4 pipeline COGL_PIPELINE_STATE_LAYERS

/-- The callback `append_layer_index_cb`: `state->indices[state->i++] =
layer->index`; the array written so far is the list. -/
def append_layer_index_cb (ctx : CoglContext) (indices : List Int) (layer : Nat) :
    Option (CoglContext × List Int × Bool) :=
  (ctx.layer layer).map (fun l => (ctx, indices ++ [l.index], true))

/-- The type of a `CoglPipelineLayerCallback`: it gets the context and its
`user_data` with the pipeline and the layer index, and returns them with the flag
that continues the iteration. -/
abbrev CoglPipelineLayerCallback (α : Type) :=
  CoglContext → α → Nat → Int → Option (CoglContext × α × Bool)

/-- The loop of `cogl_pipeline_foreach_layer`:
`for (i = 0, cont = TRUE; i < authority->n_layers && cont; i++)`. The bound is read
from the authority on every round; a read of `state.indices[i]` past the entries
written by `append_layer_index_cb` does not return. -/
def foreach_layer_loop {α : Type} (authority pipeline : Nat) (indices : List Int)
    (callback : CoglPipelineLayerCallback α) :
    Nat → Nat → CoglContext → α → Option (CoglContext × α)
  | 0, _, _, _ => none
  | fuel + 1, i, ctx, user_data =>
    match ctx.pipeline authority with
    | none => none
    | some a =>
      if i < a.n_layers then
        match indices[i]? with
        | none => none
        | some layer_index =>
          match callback ctx user_data pipeline layer_index with
          | none => none
          | some (c1, data1, true) =>
            foreach_layer_loop authority pipeline indices callback fuel (i + 1) c1 data1
          | some (c1, data1, false) => some (c1, data1)
      else some (ctx, user_data)

/-- The function `cogl_pipeline_foreach_layer`. -/
def cogl_pipeline_foreach_layer {α : Type} (fuel : Nat) (ctx : CoglContext) (pipeline : Nat)
    (callback : CoglPipelineLayerCallback α) (user_data : α) : Option (CoglContext × α) := do
  let authority ← _cogl_pipeline_get_authority ctx fuel pipeline COGL_PIPELINE_STATE_LAYERS
  let (c1, indices) ← _cogl_pipeline_foreach_layer_internal fuel ctx pipeline
    append_layer_index_cb []
  foreach_layer_loop authority pipeline indices callback fuel 0 c1 user_data

/-! ## Ancestry -/

/-- What a walk up a tree reads of a node: its `differences` mask and its parent
pointer. The pipeline tree and the layer tree are both read through this view. -/
structure NodeView where
  differences : Nat
  parent : Option Nat
deriving DecidableEq, Repr

/-- The view of the pipeline heap. -/
def pipeline_view (ctx : CoglContext) (p : Nat) : Option NodeView :=
  (ctx.pipeline p).map (fun node => { differences := node.differences, parent := node.parent })

/-- The view of the layer heap. -/
def layer_view (ctx : CoglContext) (l : Nat) : Option NodeView :=
  (ctx.layer l).map (fun node => { differences := node.differences, parent := node.parent })

/-- The list `path` is the chain `n, parent (n), ..., root` of a tree. -/
def node_path (view : Nat → Option NodeView) : Nat → List Nat → Prop
  | _, [] => False
  | n, [r] => r = n ∧ (view n).map (fun v => v.parent) = some none
  | n, a :: b :: rest =>
    a = n ∧ (view n).map (fun v => v.parent) = some (some b) ∧ node_path view b (b :: rest)

instance node_path_decidable (view : Nat → Option NodeView) :
    (n : Nat) → (path : List Nat) → Decidable (node_path view n path)
  | _, [] => isFalse (fun h => h)
  | n, [r] => by unfold node_path; exact inferInstance
  | n, a :: b :: rest =>
    have := node_path_decidable view b (b :: rest)
    by unfold node_path; exact inferInstance

/-- The list `path` is the chain `p, parent (p), ..., root` of the pipeline tree. -/
def pipeline_path (ctx : CoglContext) (p : Nat) (path : List Nat) : Prop :=
  node_path (pipeline_view ctx) p path

instance (ctx : CoglContext) (p : Nat) (path : List Nat) :
    Decidable (pipeline_path ctx p path) := node_path_decidable _ p path

/-- The list `path` is the chain `l, parent (l), ..., root` of the layer tree. -/
def layer_path (ctx : CoglContext) (l : Nat) (path : List Nat) : Prop :=
  node_path (layer_view ctx) l path

instance (ctx : CoglContext) (l : Nat) (path : List Nat) :
    Decidable (layer_path ctx l path) := node_path_decidable _ l path

/-- The node `n` asserts the state group `g`: `n->differences & g` is not zero. -/
def node_asserts (view : Nat → Option NodeView) (g : Nat) (n : Nat) : Prop :=
  (view n).map (fun v => decide (v.differences &&& g ≠ 0)) = some true

instance (view : Nat → Option NodeView) (g n : Nat) : Decidable (node_asserts view g n) := by
  unfold node_asserts; exact inferInstance

/-- The pipeline `p` asserts the state group `g`. -/
def pipeline_asserts (ctx : CoglContext) (g : Nat) (p : Nat) : Prop :=
  node_asserts (pipeline_view ctx) g p

instance (ctx : CoglContext) (g p : Nat) : Decidable (pipeline_asserts ctx g p) := by
  unfold pipeline_asserts; exact inferInstance

/-- The layer `l` asserts the layer state group `g`. -/
def layer_asserts (ctx : CoglContext) (g : Nat) (l : Nat) : Prop :=
  node_asserts (layer_view ctx) g l

instance (ctx : CoglContext) (g l : Nat) : Decidable (layer_asserts ctx g l) := by
  unfold layer_asserts; exact inferInstance

/-- The authority walk read through a view; the two walks of the source are this
walk on the pipeline heap and on the layer heap. -/
def node_get_authority (view : Nat → Option NodeView) : Nat → Nat → Nat → Option Nat
  | 0, _, _ => none
  | fuel + 1, n, difference =>
    match view n with
    | none => none
    | some v =>
      if v.differences &&& difference ≠ 0 then some n
      else
        match v.parent with
        | none => none
        | some parent => node_get_authority view fuel parent difference

/-- The nearest node of `path` that asserts `g` is `a`. -/
def nearest_asserting (view : Nat → Option NodeView) (g : Nat) (path : List Nat) (a : Nat) :
    Prop :=
  ∃ pre post, path = pre ++ a :: post ∧ (∀ n ∈ pre, ¬ node_asserts view g n) ∧
    node_asserts view g a

/-- The node `n` asserts every group of `mask`. -/
def node_asserts_all (view : Nat → Option NodeView) (mask : Nat) (n : Nat) : Prop :=
  (view n).map (fun v => decide (v.differences &&& mask = mask)) = some true

instance (view : Nat → Option NodeView) (mask n : Nat) :
    Decidable (node_asserts_all view mask n) := by
  unfold node_asserts_all; exact inferInstance

/-! ## Reverting authority and pruning -/

/-- The loop of `_cogl_pipeline_prune_redundant_ancestry`: walk up past the
ancestors whose differences are contained in those of the pipeline. -/
def prune_redundant_ancestry_loop (ctx : CoglContext) (differences : Nat) :
    Nat → Nat → Option Nat
  | 0, _ => none
  | fuel + 1, new_parent =>
    match ctx.pipeline new_parent with
    | none => none
    | some np =>
      match np.parent with
      | none => some new_parent
      | some grandparent =>
        if np.differences ||| differences = differences then
          prune_redundant_ancestry_loop ctx differences fuel grandparent
        else some new_parent

/-- The function `_cogl_pipeline_prune_redundant_ancestry`. -/
def _cogl_pipeline_prune_redundant_ancestry (fuel : Nat) (ctx : CoglContext) (pipeline : Nat) :
    Option CoglContext := do
  let node ← ctx.pipeline pipeline
  if node.differences &&& COGL_PIPELINE_STATE_LAYERS ≠ 0 ∧
      node.n_layers ≠ node.layer_differences.length then pure ctx
  else
    let parent ← node.parent
    let new_parent ← prune_redundant_ancestry_loop ctx node.differences fuel parent
    if new_parent ≠ parent then
      let is_weak ← _cogl_pipeline_is_weak ctx fuel pipeline
      _cogl_pipeline_set_parent fuel ctx pipeline new_parent (!is_weak)
    else pure ctx

/-- The function `_cogl_pipeline_update_authority`; the comparator reads the two
authority records. -/
def _cogl_pipeline_update_authority (fuel : Nat) (ctx : CoglContext) (pipeline authority : Nat)
    (state : Nat) (comparitor : CoglPipeline → CoglPipeline → Bool) : Option CoglContext := do
  let a ← ctx.pipeline authority
  if pipeline = authority ∧ a.parent ≠ none then
    let parent ← a.parent
    let old_authority ← _cogl_pipeline_get_authority ctx fuel parent state
    let oa ← ctx.pipeline old_authority
    if comparitor a oa then
      ctx.modify_pipeline pipeline (fun n => { n with differences := mask_clear n.differences state })
    else pure ctx
  else if pipeline ≠ authority then
    let c1 ← ctx.modify_pipeline pipeline (fun n => { n with differences := n.differences ||| state })
    _cogl_pipeline_prune_redundant_ancestry fuel c1 pipeline
  else pure ctx

/-- Modelled from the spec: `cogl_pipeline_set_color` is defined in
cogl-pipeline-state.c, which is not among the sources. It follows the mutation
protocol of section 4.3: nothing is done when the authority already holds the
color; otherwise the pre-change notify runs, the color is written, the blend
enable is derived again and authority is reverted or taken. -/
def cogl_pipeline_set_color (fuel : Nat) (ctx : CoglContext) (pipeline : Nat)
    (color : CoglColor) : Option CoglContext := do
  let state := COGL_PIPELINE_STATE_COLOR
  let authority ← _cogl_pipeline_get_authority ctx fuel pipeline state
  let a ← ctx.pipeline authority
  if cogl_color_equal color a.color then pure ctx
  else
    let c1 ← _cogl_pipeline_pre_change_notify fuel ctx pipeline state (some color) false
    let c2 ← c1.modify_pipeline pipeline (fun n => { n with color := color })
    let c3 ← _cogl_pipeline_update_blend_enable fuel c2 pipeline state
    _cogl_pipeline_update_authority fuel c3 pipeline authority state
      (fun p0 p1 => cogl_color_equal p0.color p1.color)

/-! ## Structural comparison -/

/-- The loop `for (node = n; node; node = parent (node)) g_array_append_vals (...)`
of the two `compare_differences` functions: the ancestors of `n`, leaf first. -/
def node_ancestors (view : Nat → Option NodeView) : Nat → Nat → Option (List Nat)
  | 0, _ => none
  | fuel + 1, n =>
    match view n with
    | none => none
    | some v =>
      match v.parent with
      | none => some [n]
      | some parent => (node_ancestors view fuel parent).map (fun rest => n :: rest)

/-- The second loop of the two `compare_differences` functions. At step `i` it reads
the entries `len0 - 2 - i` and `len1 - 2 - i` of the two arrays, for `i` below
`MIN (len0, len1) - 1`: the list walked here is the two arrays reversed, without
their first entries, paired up. Returns `common_ancestor` (NULL is `none`) and the
last value of `node0`. -/
def common_ancestor_scan (view : Nat → Option NodeView) :
    List (Nat × Nat) → Option Nat → Option (Option Nat × Option Nat)
  | [], node0 => some (none, node0)
  | (n0, n1) :: rest, _ =>
    if n0 ≠ n1 then (view n0).map (fun v => (v.parent, some n0))
    else common_ancestor_scan view rest (some n0)

/-- The third and fourth loop of the two `compare_differences` functions:
`for (i = 0; i < len - 1; i++) { if (node == common_ancestor) break;
difference |= node->differences; }`, over the array without its last entry. -/
def or_differences_until (view : Nat → Option NodeView) (common_ancestor : Option Nat) :
    List Nat → Nat → Option Nat
  | [], difference => some difference
  | node :: rest, difference =>
    if some node = common_ancestor then some difference
    else
      match view node with
      | none => none
      | some v => or_differences_until view common_ancestor rest (difference ||| v.differences)

/-- The text shared by `_cogl_pipeline_compare_differences` and
`_cogl_pipeline_layer_compare_differences`, which differ in the type of the nodes
only. -/
def node_compare_differences (view : Nat → Option NodeView) (fuel : Nat) (n0 n1 : Nat) :
    Option Nat :=
  match node_ancestors view fuel n0, node_ancestors view fuel n1 with
  | some nodes0, some nodes1 =>
    match common_ancestor_scan view ((nodes0.reverse.drop 1).zip (nodes1.reverse.drop 1))
        none with
    | none => none
    | some (found, node0) =>
      let common_ancestor := if found = none then node0 else found
      match or_differences_until view common_ancestor nodes0.dropLast 0 with
      | none => none
      | some difference => or_differences_until view common_ancestor nodes1.dropLast difference
  | _, _ => none

/-- The function `_cogl_pipeline_compare_differences`. -/
def _cogl_pipeline_compare_differences (ctx : CoglContext) (fuel : Nat)
    (pipeline0 pipeline1 : Nat) : Option Nat :=
  node_compare_differences (pipeline_view ctx) fuel pipeline0 pipeline1

/-- The function `_cogl_pipeline_layer_compare_differences`. -/
def _cogl_pipeline_layer_compare_differences (ctx : CoglContext) (fuel : Nat)
    (layer0 layer1 : Nat) : Option Nat :=
  node_compare_differences (layer_view ctx) fuel layer0 layer1

/-- The union of the `differences` of the nodes of a list. -/
def union_of_differences (view : Nat → Option NodeView) (nodes : List Nat) : Nat :=
  nodes.foldl (fun acc n => acc ||| ((view n).map (fun v => v.differences)).getD 0) 0

/-! ## Equality and hashing -/

/-- The record `CoglPipelineHashState`. -/
structure CoglPipelineHashState where
  hash : Nat
  layer_differences : Nat
  flags : Nat
deriving DecidableEq, Repr

/-- The group comparators and group hash functions. They are defined in
cogl-pipeline-state.c and cogl-pipeline-layer-state.c, and
`_cogl_util_one_at_a_time_hash` in cogl-util.h, none of them among the sources:
they are taken as parameters. A pipeline comparator reads the two authority
records; a pipeline hash function reads the authority record and updates the hash
state; the layer functions read layer authority records, the texture comparators
also the textures and the flags, the layer hash functions also the array of all
the layer authorities. `blend_enable_equal` is the comparator that
`_cogl_pipeline_equal` names under `#if 0`. -/
structure CoglPipelineStateFuncs where
  one_at_a_time_hash : Nat → Nat → Nat → Nat
  lighting_state_equal : CoglPipeline → CoglPipeline → Bool
  alpha_func_state_equal : CoglPipeline → CoglPipeline → Bool
  alpha_func_reference_state_equal : CoglPipeline → CoglPipeline → Bool
  blend_state_equal : CoglPipeline → CoglPipeline → Bool
  blend_enable_equal : CoglPipeline → CoglPipeline → Bool
  depth_state_equal : CoglPipeline → CoglPipeline → Bool
  fog_state_equal : CoglPipeline → CoglPipeline → Bool
  cull_face_state_equal : CoglPipeline → CoglPipeline → Bool
  point_size_equal : CoglPipeline → CoglPipeline → Bool
  logic_ops_state_equal : CoglPipeline → CoglPipeline → Bool
  user_shader_equal : CoglPipeline → CoglPipeline → Bool
  layer_texture_target_equal :
    List CoglTexture → CoglPipelineLayer → CoglPipelineLayer → Nat → Bool
  layer_texture_data_equal :
    List CoglTexture → CoglPipelineLayer → CoglPipelineLayer → Nat → Bool
  layer_combine_state_equal : CoglPipelineLayer → CoglPipelineLayer → Bool
  layer_combine_constant_equal : CoglPipelineLayer → CoglPipelineLayer → Bool
  layer_filters_equal : CoglPipelineLayer → CoglPipelineLayer → Bool
  layer_wrap_modes_equal : CoglPipelineLayer → CoglPipelineLayer → Bool
  layer_user_matrix_equal : CoglPipelineLayer → CoglPipelineLayer → Bool
  layer_point_sprite_coords_equal : CoglPipelineLayer → CoglPipelineLayer → Bool
  hash_color_state : CoglPipeline → CoglPipelineHashState → CoglPipelineHashState
  hash_blend_enable_state : CoglPipeline → CoglPipelineHashState → CoglPipelineHashState
  hash_lighting_state : CoglPipeline → CoglPipelineHashState → CoglPipelineHashState
  hash_alpha_func_state : CoglPipeline → CoglPipelineHashState → CoglPipelineHashState
  hash_alpha_func_reference_state :
    CoglPipeline → CoglPipelineHashState → CoglPipelineHashState
  hash_blend_state : CoglPipeline → CoglPipelineHashState → CoglPipelineHashState
  hash_user_shader_state : CoglPipeline → CoglPipelineHashState → CoglPipelineHashState
  hash_depth_state : CoglPipeline → CoglPipelineHashState → CoglPipelineHashState
  hash_fog_state : CoglPipeline → CoglPipelineHashState → CoglPipelineHashState
  hash_cull_face_state : CoglPipeline → CoglPipelineHashState → CoglPipelineHashState
  hash_point_size_state : CoglPipeline → CoglPipelineHashState → CoglPipelineHashState
  hash_logic_ops_state : CoglPipeline → CoglPipelineHashState → CoglPipelineHashState
  layer_hash : Nat → List CoglTexture → CoglPipelineLayer → List (Option CoglPipelineLayer) →
    CoglPipelineHashState → CoglPipelineHashState

/-- The inner loop of the two `resolve_authorities` functions:
`for (i = 0; TRUE; i++) { state = 1L << i; if (state & found) authorities[i] =
authority; else if (state > found) break; }`. A store past the end of the array
does not return. The loop leaves at the first clear bit above `found`, so `found + 1`
steps of fuel are enough. -/
def resolve_authorities_store (found authority : Nat) :
    Nat → Nat → List (Option Nat) → Option (List (Option Nat))
  | 0, _, _ => none
  | fuel + 1, i, authorities =>
    if (1 <<< i) &&& found ≠ 0 then
      if i < authorities.length then
        resolve_authorities_store found authority fuel (i + 1) (authorities.set i (some authority))
      else none
    else if 1 <<< i > found then some authorities
    else resolve_authorities_store found authority fuel (i + 1) authorities

/-- The text shared by `_cogl_pipeline_resolve_authorities` and
`_cogl_pipeline_layer_resolve_authorities`: the `do ... while` walk with the
`remaining` mask, ended by `g_assert (remaining == 0)`. -/
def node_resolve_authorities (view : Nat → Option NodeView) :
    Nat → Nat → Nat → List (Option Nat) → Option (List (Option Nat))
  | 0, _, _, _ => none
  | fuel + 1, authority, remaining, authorities =>
    match view authority with
    | none => none
    | some v =>
      let found := v.differences &&& remaining
      if found = 0 then
        match v.parent with
        | none => if remaining = 0 then some authorities else none
        | some parent => node_resolve_authorities view fuel parent remaining authorities
      else
        match resolve_authorities_store found authority (found + 1) 0 authorities with
        | none => none
        | some stored =>
          if mask_clear remaining found = 0 then some stored
          else
            match v.parent with
            | none => none
            | some parent =>
              node_resolve_authorities view fuel parent (mask_clear remaining found) stored

/-- The function `_cogl_pipeline_resolve_authorities`; the array `authorities` has
`COGL_PIPELINE_STATE_SPARSE_COUNT` entries. -/
def _cogl_pipeline_resolve_authorities (ctx : CoglContext) (fuel : Nat) (pipeline : Nat)
    (differences : Nat) (authorities : List (Option Nat)) : Option (List (Option Nat)) :=
  node_resolve_authorities (pipeline_view ctx) fuel pipeline differences authorities

/-- The function `_cogl_pipeline_layer_resolve_authorities`. -/
def _cogl_pipeline_layer_resolve_authorities (ctx : CoglContext) (fuel : Nat) (layer : Nat)
    (differences : Nat) (authorities : List (Option Nat)) : Option (List (Option Nat)) :=
  node_resolve_authorities (layer_view ctx) fuel layer differences authorities

/-- The read `authorities[state_index]` followed by the dereference of the pointer
found there. -/
def authority_record (ctx : CoglContext) (authorities : List (Option Nat)) (state_index : Nat) :
    Option CoglPipeline :=
  match authorities[state_index]? with
  | some (some authority) => ctx.pipeline authority
  | _ => none

/-- The read `authorities[state_index]` of a layer array followed by the
dereference of the pointer found there. -/
def layer_authority_record (ctx : CoglContext) (authorities : List (Option Nat))
    (state_index : Nat) : Option CoglPipelineLayer :=
  match authorities[state_index]? with
  | some (some authority) => ctx.layer authority
  | _ => none

/-- The function `simple_property_equal`. -/
def simple_property_equal (ctx : CoglContext) (authorities0 authorities1 : List (Option Nat))
    (pipelines_difference : Nat) (state_index : Nat)
    (comparitor : CoglPipeline → CoglPipeline → Bool) : Option Bool :=
  if pipelines_difference &&& (1 <<< state_index) ≠ 0 then
    match authority_record ctx authorities0 state_index,
        authority_record ctx authorities1 state_index with
    | some a0, some a1 => some (comparitor a0 a1)
    | _, _ => none
  else some true

/-- The function `layer_state_equal` behind its mask test in
`_cogl_pipeline_layer_equal`. -/
def layer_state_equal (ctx : CoglContext) (authorities0 authorities1 : List (Option Nat))
    (layers_difference : Nat) (state : Nat) (state_index : Nat)
    (comparitor : CoglPipelineLayer → CoglPipelineLayer → Bool) : Option Bool :=
  if layers_difference &&& state ≠ 0 then
    match layer_authority_record ctx authorities0 state_index,
        layer_authority_record ctx authorities1 state_index with
    | some a0, some a1 => some (comparitor a0 a1)
    | _, _ => none
  else some true

/-- The function `_cogl_pipeline_layer_equal`. The stack arrays of authorities
start out with no entry written. -/
def _cogl_pipeline_layer_equal (fns : CoglPipelineStateFuncs) (ctx : CoglContext) (fuel : Nat)
    (layer0 layer1 : Nat) (differences_mask : Nat) (flags : Nat) : Option Bool :=
  if layer0 = layer1 then some true
  else do
    let compared ← _cogl_pipeline_layer_compare_differences ctx fuel layer0 layer1
    let layers_difference := compared &&& differences_mask
    let empty := List.replicate COGL_PIPELINE_LAYER_STATE_SPARSE_COUNT none
    let authorities0 ← _cogl_pipeline_layer_resolve_authorities ctx fuel layer0 layers_difference
      empty
    let authorities1 ← _cogl_pipeline_layer_resolve_authorities ctx fuel layer1 layers_difference
      empty
    let target ← layer_state_equal ctx authorities0 authorities1 layers_difference
      COGL_PIPELINE_LAYER_STATE_TEXTURE_TARGET COGL_PIPELINE_LAYER_STATE_TEXTURE_TARGET_INDEX
      (fun a0 a1 => fns.layer_texture_target_equal ctx.textures a0 a1 flags)
    if !target then pure false
    else
      let data ← layer_state_equal ctx authorities0 authorities1 layers_difference
        COGL_PIPELINE_LAYER_STATE_TEXTURE_DATA COGL_PIPELINE_LAYER_STATE_TEXTURE_DATA_INDEX
        (fun a0 a1 => fns.layer_texture_data_equal ctx.textures a0 a1 flags)
      if !data then pure false
      else
        let combine ← layer_state_equal ctx authorities0 authorities1 layers_difference
          COGL_PIPELINE_LAYER_STATE_COMBINE COGL_PIPELINE_LAYER_STATE_COMBINE_INDEX
          fns.layer_combine_state_equal
        if !combine then pure false
        else
          let constant ← layer_state_equal ctx authorities0 authorities1 layers_difference
            COGL_PIPELINE_LAYER_STATE_COMBINE_CONSTANT
            COGL_PIPELINE_LAYER_STATE_COMBINE_CONSTANT_INDEX fns.layer_combine_constant_equal
          if !constant then pure false
          else
            let filters ← layer_state_equal ctx authorities0 authorities1 layers_difference
              COGL_PIPELINE_LAYER_STATE_FILTERS COGL_PIPELINE_LAYER_STATE_FILTERS_INDEX
              fns.layer_filters_equal
            if !filters then pure false
            else
              let wrap ← layer_state_equal ctx authorities0 authorities1 layers_difference
                COGL_PIPELINE_LAYER_STATE_WRAP_MODES COGL_PIPELINE_LAYER_STATE_WRAP_MODES_INDEX
                fns.layer_wrap_modes_equal
              if !wrap then pure false
              else
                let matrix ← layer_state_equal ctx authorities0 authorities1 layers_difference
                  COGL_PIPELINE_LAYER_STATE_USER_MATRIX
                  COGL_PIPELINE_LAYER_STATE_USER_MATRIX_INDEX fns.layer_user_matrix_equal
                if !matrix then pure false
                else
                  layer_state_equal ctx authorities0 authorities1 layers_difference
                    COGL_PIPELINE_LAYER_STATE_POINT_SPRITE_COORDS
                    COGL_PIPELINE_LAYER_STATE_POINT_SPRITE_COORDS_INDEX
                    fns.layer_point_sprite_coords_equal

/-- The loop of `_cogl_pipeline_layers_equal` over the two layers caches. -/
def layers_equal_loop (fns : CoglPipelineStateFuncs) (ctx : CoglContext) (fuel : Nat)
    (differences : Nat) (flags : Nat) :
    List (Option Nat) → List (Option Nat) → Nat → Option Bool
  | _, _, 0 => some true
  | some l0 :: rest0, some l1 :: rest1, n + 1 =>
    match _cogl_pipeline_layer_equal fns ctx fuel l0 l1 differences flags with
    | none => none
    | some false => some false
    | some true => layers_equal_loop fns ctx fuel differences flags rest0 rest1 n
  | _, _, _ + 1 => none

/-- The function `_cogl_pipeline_layers_equal`. The two caches are refreshed, so
the context is returned with the answer. -/
def _cogl_pipeline_layers_equal (fns : CoglPipelineStateFuncs) (ctx : CoglContext) (fuel : Nat)
    (authority0 authority1 : Nat) (differences : Nat) (flags : Nat) :
    Option (CoglContext × Bool) := do
  let a0 ← ctx.pipeline authority0
  let a1 ← ctx.pipeline authority1
  if a0.n_layers ≠ a1.n_layers then pure (ctx, false)
  else
    let c1 ← _cogl_pipeline_update_layers_cache fuel ctx authority0
    let c2 ← _cogl_pipeline_update_layers_cache fuel c1 authority1
    let b0 ← c2.pipeline authority0
    let b1 ← c2.pipeline authority1
    let result ← layers_equal_loop fns c2 fuel differences flags b0.layers_cache b1.layers_cache
      b0.n_layers
    pure (c2, result)

/-- The jump `goto done` with `ret = FALSE` after a comparison that failed: the
rest of `_cogl_pipeline_equal` runs only after a comparison that held. -/
def unless_done {β : Type} (check : Option Bool) (done : β) (rest : Option β) : Option β :=
  match check with
  | none => none
  | some false => some done
  | some true => rest

/-- The comparisons of `_cogl_pipeline_equal` that follow the resolution of the
authorities, from the colour down to the layers. The comparison of the colour is
written through `simple_property_equal`, whose mask test `1L << COLOR_INDEX` is the
one of the source; the comparison of `BLEND_ENABLE`, under `#if 0` in the source,
is absent; `real_blend_enable0` is `pipeline0->real_blend_enable`. -/
def pipeline_equal_groups (fns : CoglPipelineStateFuncs) (ctx : CoglContext) (fuel : Nat)
    (real_blend_enable0 : Bool) (pipelines_difference : Nat)
    (authorities0 authorities1 : List (Option Nat)) (layer_differences : Nat) (flags : Nat) :
    Option (CoglContext × Bool) :=
  let simple := simple_property_equal ctx authorities0 authorities1 pipelines_difference
  unless_done (simple COGL_PIPELINE_STATE_COLOR_INDEX
      (fun a0 a1 => cogl_color_equal a0.color a1.color)) (ctx, false) <|
  unless_done (simple COGL_PIPELINE_STATE_LIGHTING_INDEX fns.lighting_state_equal)
    (ctx, false) <|
  unless_done (simple COGL_PIPELINE_STATE_ALPHA_FUNC_INDEX fns.alpha_func_state_equal)
    (ctx, false) <|
  unless_done (simple COGL_PIPELINE_STATE_ALPHA_FUNC_REFERENCE_INDEX
      fns.alpha_func_reference_state_equal) (ctx, false) <|
  unless_done (if real_blend_enable0 then
      simple COGL_PIPELINE_STATE_BLEND_INDEX fns.blend_state_equal else some true)
    (ctx, false) <|
  unless_done (simple COGL_PIPELINE_STATE_DEPTH_INDEX fns.depth_state_equal) (ctx, false) <|
  unless_done (simple COGL_PIPELINE_STATE_FOG_INDEX fns.fog_state_equal) (ctx, false) <|
  unless_done (simple COGL_PIPELINE_STATE_CULL_FACE_INDEX fns.cull_face_state_equal)
    (ctx, false) <|
  unless_done (simple COGL_PIPELINE_STATE_POINT_SIZE_INDEX fns.point_size_equal)
    (ctx, false) <|
  unless_done (simple COGL_PIPELINE_STATE_LOGIC_OPS_INDEX fns.logic_ops_state_equal)
    (ctx, false) <|
  unless_done (simple COGL_PIPELINE_STATE_USER_SHADER_INDEX fns.user_shader_equal)
    (ctx, false) <|
  if pipelines_difference &&& COGL_PIPELINE_STATE_LAYERS ≠ 0 then
    match authorities0[COGL_PIPELINE_STATE_LAYERS_INDEX]?,
        authorities1[COGL_PIPELINE_STATE_LAYERS_INDEX]? with
    | some (some authority0), some (some authority1) =>
      _cogl_pipeline_layers_equal fns ctx fuel authority0 authority1 layer_differences flags
    | _, _ => none
  else some (ctx, true)

/-- The function `_cogl_pipeline_equal`: the test of the pointers, the comparison
of `real_blend_enable`, the resolution of the authorities of the groups in which the
two pipelines may differ, and the comparisons of `pipeline_equal_groups`. The stack
arrays of authorities start out with no entry written. The layers caches are
refreshed, so the context is returned with the answer. -/
def _cogl_pipeline_equal (fns : CoglPipelineStateFuncs) (ctx : CoglContext) (fuel : Nat)
    (pipeline0 pipeline1 : Nat) (differences layer_differences : Nat) (flags : Nat) :
    Option (CoglContext × Bool) :=
  if pipeline0 = pipeline1 then some (ctx, true)
  else
    match ctx.pipeline pipeline0, ctx.pipeline pipeline1 with
    | some p0, some p1 =>
      if differences &&& COGL_PIPELINE_STATE_REAL_BLEND_ENABLE ≠ 0 ∧
          p0.real_blend_enable ≠ p1.real_blend_enable then some (ctx, false)
      else
        match _cogl_pipeline_compare_differences ctx fuel pipeline0 pipeline1 with
        | none => none
        | some compared =>
          let pipelines_difference := compared &&& differences
          let empty := List.replicate COGL_PIPELINE_STATE_SPARSE_COUNT none
          match _cogl_pipeline_resolve_authorities ctx fuel pipeline0 pipelines_difference empty,
              _cogl_pipeline_resolve_authorities ctx fuel pipeline1 pipelines_difference
                empty with
          | some authorities0, some authorities1 =>
            pipeline_equal_groups fns ctx fuel p0.real_blend_enable pipelines_difference
              authorities0 authorities1 layer_differences flags
          | _, _ => none
    | _, _ => none

/-- The function `_cogl_util_one_at_a_time_mix` of cogl-util.c on a 32 bit
`unsigned int`. -/
def _cogl_util_one_at_a_time_mix (hash : Nat) : Nat :=
  let hash1 := (hash + (hash <<< 3)) % 2 ^ 32
  let hash2 := hash1 ^^^ (hash1 >>> 11)
  (hash2 + (hash2 <<< 15)) % 2 ^ 32

/-- The loop of `_cogl_pipeline_hash_layer_cb` over the layer state groups;
`remaining` is `COGL_PIPELINE_LAYER_STATE_COUNT - i`. -/
def hash_layer_loop (fns : CoglPipelineStateFuncs) (ctx : CoglContext)
    (authorities : List (Option Nat)) (differences : Nat) :
    Nat → Nat → CoglPipelineHashState → Option CoglPipelineHashState
  | 0, _, state => some state
  | remaining + 1, i, state =>
    let hashed :=
      if differences &&& (1 <<< i) ≠ 0 then
        match layer_authority_record ctx authorities i with
        | none => none
        | some authority =>
          some (fns.layer_hash i ctx.textures authority
            (authorities.map (fun pointer => pointer.bind ctx.layer)) state)
      else some state
    match hashed with
    | none => none
    | some state1 =>
      if 1 <<< i > differences then some state1
      else hash_layer_loop fns ctx authorities differences remaining (i + 1) state1

/-- The function `_cogl_pipeline_hash_layer_cb`. -/
def _cogl_pipeline_hash_layer_cb (fns : CoglPipelineStateFuncs) (fuel : Nat) (ctx : CoglContext)
    (state : CoglPipelineHashState) (layer : Nat) :
    Option (CoglContext × CoglPipelineHashState × Bool) :=
  match _cogl_pipeline_layer_resolve_authorities ctx fuel layer
      COGL_PIPELINE_LAYER_STATE_ALL_SPARSE
      (List.replicate COGL_PIPELINE_LAYER_STATE_COUNT none) with
  | none => none
  | some authorities =>
    match hash_layer_loop fns ctx authorities state.layer_differences
        COGL_PIPELINE_LAYER_STATE_COUNT 0 state with
    | none => none
    | some state1 => some (ctx, state1, true)

/-- The function `_cogl_pipeline_hash_layers_state`; `n_layers` is an `int` of four
bytes. -/
def _cogl_pipeline_hash_layers_state (fns : CoglPipelineStateFuncs) (fuel : Nat)
    (ctx : CoglContext) (authority : Nat) (state : CoglPipelineHashState) :
    Option (CoglContext × CoglPipelineHashState) :=
  match ctx.pipeline authority with
  | none => none
  | some node =>
    _cogl_pipeline_foreach_layer_internal fuel ctx authority
      (_cogl_pipeline_hash_layer_cb fns fuel)
      { state with hash := fns.one_at_a_time_hash state.hash node.n_layers 4 }

/-- The table `state_hash_functions` as filled by
`_cogl_pipeline_init_state_hash_functions`, without the entry of the layers. -/
def state_hash_functions (fns : CoglPipelineStateFuncs) (i : Nat) :
    Option (CoglPipeline → CoglPipelineHashState → CoglPipelineHashState) :=
  if i = COGL_PIPELINE_STATE_COLOR_INDEX then some fns.hash_color_state
  else if i = COGL_PIPELINE_STATE_BLEND_ENABLE_INDEX then some fns.hash_blend_enable_state
  else if i = COGL_PIPELINE_STATE_LIGHTING_INDEX then some fns.hash_lighting_state
  else if i = COGL_PIPELINE_STATE_ALPHA_FUNC_INDEX then some fns.hash_alpha_func_state
  else if i = COGL_PIPELINE_STATE_ALPHA_FUNC_REFERENCE_INDEX then
    some fns.hash_alpha_func_reference_state
  else if i = COGL_PIPELINE_STATE_BLEND_INDEX then some fns.hash_blend_state
  else if i = COGL_PIPELINE_STATE_USER_SHADER_INDEX then some fns.hash_user_shader_state
  else if i = COGL_PIPELINE_STATE_DEPTH_INDEX then some fns.hash_depth_state
  else if i = COGL_PIPELINE_STATE_FOG_INDEX then some fns.hash_fog_state
  else if i = COGL_PIPELINE_STATE_CULL_FACE_INDEX then some fns.hash_cull_face_state
  else if i = COGL_PIPELINE_STATE_POINT_SIZE_INDEX then some fns.hash_point_size_state
  else if i = COGL_PIPELINE_STATE_LOGIC_OPS_INDEX then some fns.hash_logic_ops_state
  else none

/-- The call `state_hash_functions[i] (authority, &state)`. -/
def state_hash_call (fns : CoglPipelineStateFuncs) (fuel : Nat) (i : Nat) (ctx : CoglContext)
    (authority : Nat) (state : CoglPipelineHashState) :
    Option (CoglContext × CoglPipelineHashState) :=
  if i = COGL_PIPELINE_STATE_LAYERS_INDEX then
    _cogl_pipeline_hash_layers_state fns fuel ctx authority state
  else
    match state_hash_functions fns i, ctx.pipeline authority with
    | some hash_function, some node => some (ctx, hash_function node state)
    | _, _ => none

/-- The loop of `_cogl_pipeline_hash` over the sparse state groups; `remaining` is
`COGL_PIPELINE_STATE_SPARSE_COUNT - i`, `state.hash` is an `unsigned int` of four
bytes. Returns the context and `final_hash`. -/
def hash_loop (fns : CoglPipelineStateFuncs) (fuel : Nat) (authorities : List (Option Nat))
    (differences : Nat) :
    Nat → Nat → CoglContext → CoglPipelineHashState → Nat → Option (CoglContext × Nat)
  | 0, _, ctx, _, final_hash => some (ctx, final_hash)
  | remaining + 1, i, ctx, state, final_hash =>
    let hashed : Option (CoglContext × CoglPipelineHashState × Nat) :=
      if differences &&& (1 <<< i) ≠ 0 then
        match authorities[i]? with
        | some (some authority) =>
          match state_hash_call fns fuel i ctx authority state with
          | none => none
          | some (ctx1, state1) =>
            some (ctx1, state1, fns.one_at_a_time_hash final_hash state1.hash 4)
        | _ => none
      else some (ctx, state, final_hash)
    match hashed with
    | none => none
    | some (ctx1, state1, final1) =>
      if 1 <<< i > differences then some (ctx1, final1)
      else hash_loop fns fuel authorities differences remaining (i + 1) ctx1 state1 final1

/-- The function `_cogl_pipeline_hash`; `enable` is a `gboolean` of four bytes. The
layers cache may be refreshed, so the context is returned with the hash. -/
def _cogl_pipeline_hash (fns : CoglPipelineStateFuncs) (fuel : Nat) (ctx : CoglContext)
    (pipeline : Nat) (differences layer_differences : Nat) (flags : Nat) :
    Option (CoglContext × Nat) :=
  match ctx.pipeline pipeline with
  | none => none
  | some node =>
    let state0 : CoglPipelineHashState :=
      { hash := 0, layer_differences := layer_differences, flags := flags }
    let state1 : CoglPipelineHashState :=
      if differences &&& COGL_PIPELINE_STATE_REAL_BLEND_ENABLE ≠ 0 then
        { state0 with
          hash := fns.one_at_a_time_hash state0.hash (if node.real_blend_enable then 1 else 0) 4 }
      else state0
    match _cogl_pipeline_resolve_authorities ctx fuel pipeline
        (differences &&& COGL_PIPELINE_STATE_ALL_SPARSE)
        (List.replicate COGL_PIPELINE_STATE_SPARSE_COUNT none) with
    | none => none
    | some authorities =>
      match hash_loop fns fuel authorities differences COGL_PIPELINE_STATE_SPARSE_COUNT 0 ctx
          state1 0 with
      | none => none
      | some (ctx1, final_hash) => some (ctx1, _cogl_util_one_at_a_time_mix final_hash)

/-- The comparator that `_cogl_pipeline_equal` names for the state group of index
`i`: for the colour `cogl_color_equal` on the two colours, for `BLEND_ENABLE` the
comparator under `#if 0`. The layers are compared by `_cogl_pipeline_layers_equal`
and have no entry. -/
def state_comparitor (fns : CoglPipelineStateFuncs) (i : Nat) :
    Option (CoglPipeline → CoglPipeline → Bool) :=
  if i = COGL_PIPELINE_STATE_COLOR_INDEX then
    some (fun a0 a1 => cogl_color_equal a0.color a1.color)
  else if i = COGL_PIPELINE_STATE_BLEND_ENABLE_INDEX then some fns.blend_enable_equal
  else if i = COGL_PIPELINE_STATE_LIGHTING_INDEX then some fns.lighting_state_equal
  else if i = COGL_PIPELINE_STATE_ALPHA_FUNC_INDEX then some fns.alpha_func_state_equal
  else if i = COGL_PIPELINE_STATE_ALPHA_FUNC_REFERENCE_INDEX then
    some fns.alpha_func_reference_state_equal
  else if i = COGL_PIPELINE_STATE_BLEND_INDEX then some fns.blend_state_equal
  else if i = COGL_PIPELINE_STATE_USER_SHADER_INDEX then some fns.user_shader_equal
  else if i = COGL_PIPELINE_STATE_DEPTH_INDEX then some fns.depth_state_equal
  else if i = COGL_PIPELINE_STATE_FOG_INDEX then some fns.fog_state_equal
  else if i = COGL_PIPELINE_STATE_POINT_SIZE_INDEX then some fns.point_size_equal
  else if i = COGL_PIPELINE_STATE_LOGIC_OPS_INDEX then some fns.logic_ops_state_equal
  else if i = COGL_PIPELINE_STATE_CULL_FACE_INDEX then some fns.cull_face_state_equal
  else none

/-- The group comparator of the state group of index `i` accepts the authority of
that group on `pipeline0` and the authority of that group on `pipeline1`. -/
def comparator_holds (fns : CoglPipelineStateFuncs) (ctx : CoglContext) (fuel : Nat)
    (pipeline0 pipeline1 : Nat) (i : Nat) : Bool :=
  match _cogl_pipeline_get_authority ctx fuel pipeline0 (1 <<< i),
      _cogl_pipeline_get_authority ctx fuel pipeline1 (1 <<< i), state_comparitor fns i with
  | some authority0, some authority1, some comparitor =>
    match ctx.pipeline authority0, ctx.pipeline authority1 with
    | some a0, some a1 => comparitor a0 a1
    | _, _ => false
  | _, _, _ => false

/-- The layers of `pipeline0` and of `pipeline1` compare equal under `layer_mask`:
the two authorities of `LAYERS` are one pipeline, or `_cogl_pipeline_layers_equal`
accepts them (equal `n_layers` and the layers caches equal entry by entry under
`layer_mask`). -/
def layers_comparator_holds (fns : CoglPipelineStateFuncs) (ctx : CoglContext) (fuel : Nat)
    (pipeline0 pipeline1 : Nat) (layer_mask : Nat) (flags : Nat) : Bool :=
  match _cogl_pipeline_get_authority ctx fuel pipeline0 COGL_PIPELINE_STATE_LAYERS,
      _cogl_pipeline_get_authority ctx fuel pipeline1 COGL_PIPELINE_STATE_LAYERS with
  | some authority0, some authority1 =>
    if authority0 = authority1 then true
    else
      match _cogl_pipeline_layers_equal fns ctx fuel authority0 authority1 layer_mask flags with
      | some (_, result) => result
      | none => false
  | _, _ => false

/-! ## State setters and the reference comparators -/

/-- Modelled from the spec: `_cogl_util_one_at_a_time_hash` (cogl-util.h, not among
the sources) is the accumulating step of the one-at-a-time hash whose terminal
avalanche is `_cogl_util_one_at_a_time_mix`; the key of `bytes` bytes is read least
significant byte first, on a 32 bit `unsigned int`. -/
def _cogl_util_one_at_a_time_hash : Nat → Nat → Nat → Nat
  | hash, _, 0 => hash
  | hash, key, bytes + 1 =>
    let hash1 := (hash + key % 256) % 2 ^ 32
    let hash2 := (hash1 + (hash1 <<< 10)) % 2 ^ 32
    _cogl_util_one_at_a_time_hash (hash2 ^^^ (hash2 >>> 6)) (key / 256) bytes

/-- Feed a list of four-byte words to the running hash of a hash state. -/
def hash_words (words : List Nat) (state : CoglPipelineHashState) : CoglPipelineHashState :=
  { state with hash := words.foldl (fun h w => _cogl_util_one_at_a_time_hash h w 4) state.hash }

/-- The number a hash function reads for a blend-enable value. -/
def CoglPipelineBlendEnable.toNat : CoglPipelineBlendEnable → Nat
  | COGL_PIPELINE_BLEND_ENABLE_ENABLED => 0
  | COGL_PIPELINE_BLEND_ENABLE_DISABLED => 1
  | COGL_PIPELINE_BLEND_ENABLE_AUTOMATIC => 2

/-- The words a hash function reads for a colour. -/
def CoglColor.words (c : CoglColor) : List Nat := [c.red, c.green, c.blue, c.alpha]

/-- Modelled from the spec: the wrap mode a comparator sees; section 4.4 treats the
automatic wrap mode as clamp-to-edge (`0x812F`). -/
def effective_wrap_mode (mode : Nat) : Nat :=
  if mode = COGL_PIPELINE_WRAP_MODE_AUTOMATIC then 0x812F else mode

/-- Modelled from the spec: the GPU handle behind the texture of a layer, which is
what the comparison of texture data reads (section 4.4). -/
def layer_gl_texture (textures : List CoglTexture) (layer : CoglPipelineLayer) : Option Nat :=
  layer.texture.bind (fun t => (textures[t]?).map (fun texture => texture.gl_texture))

/-- Modelled from the spec: the hash of one layer state group
(cogl-pipeline-layer-state.c is not among the sources). Each group feeds its own
fields to the running hash. -/
def reference_layer_hash (i : Nat) (textures : List CoglTexture) (authority : CoglPipelineLayer)
    (_authorities : List (Option CoglPipelineLayer)) (state : CoglPipelineHashState) :
    CoglPipelineHashState :=
  if i = COGL_PIPELINE_LAYER_STATE_UNIT_INDEX then hash_words [authority.unit_index] state
  else if i = COGL_PIPELINE_LAYER_STATE_TEXTURE_TARGET_INDEX then
    hash_words [authority.target] state
  else if i = COGL_PIPELINE_LAYER_STATE_TEXTURE_DATA_INDEX then
    hash_words [(layer_gl_texture textures authority).getD 0] state
  else if i = COGL_PIPELINE_LAYER_STATE_FILTERS_INDEX then
    hash_words [authority.mag_filter, authority.min_filter] state
  else if i = COGL_PIPELINE_LAYER_STATE_WRAP_MODES_INDEX then
    hash_words [effective_wrap_mode authority.wrap_mode_s,
      effective_wrap_mode authority.wrap_mode_t, effective_wrap_mode authority.wrap_mode_p] state
  else if i = COGL_PIPELINE_LAYER_STATE_COMBINE_INDEX then
    hash_words ([authority.big_state.texture_combine_rgb_func] ++
      authority.big_state.texture_combine_rgb_src ++ authority.big_state.texture_combine_rgb_op ++
      [authority.big_state.texture_combine_alpha_func] ++
      authority.big_state.texture_combine_alpha_src ++
      authority.big_state.texture_combine_alpha_op) state
  else if i = COGL_PIPELINE_LAYER_STATE_COMBINE_CONSTANT_INDEX then
    hash_words authority.big_state.texture_combine_constant state
  else if i = COGL_PIPELINE_LAYER_STATE_USER_MATRIX_INDEX then
    hash_words authority.big_state.matrix state
  else hash_words [if authority.big_state.point_sprite_coords then 1 else 0] state

/-- Modelled from the spec: the comparators and hash functions of
cogl-pipeline-state.c and cogl-pipeline-layer-state.c (not among the sources). A
comparator holds when the fields of its group are equal (section 4.4: "blend
field-equal"), texture data by the GPU handle and wrap modes with automatic read as
clamp-to-edge; a hash function feeds the fields of its group to the running
hash. -/
def reference_funcs : CoglPipelineStateFuncs :=
  { one_at_a_time_hash := _cogl_util_one_at_a_time_hash
    lighting_state_equal := fun a0 a1 =>
      decide (a0.big_state.lighting_state = a1.big_state.lighting_state)
    alpha_func_state_equal := fun a0 a1 =>
      decide (a0.big_state.alpha_state.alpha_func = a1.big_state.alpha_state.alpha_func)
    alpha_func_reference_state_equal := fun a0 a1 =>
      decide (a0.big_state.alpha_state.alpha_func_reference =
        a1.big_state.alpha_state.alpha_func_reference)
    blend_state_equal := fun a0 a1 => decide (a0.big_state.blend_state = a1.big_state.blend_state)
    blend_enable_equal := fun a0 a1 => decide (a0.blend_enable = a1.blend_enable)
    depth_state_equal := fun a0 a1 => decide (a0.big_state.depth_state = a1.big_state.depth_state)
    fog_state_equal := fun a0 a1 => decide (a0.big_state.fog_state = a1.big_state.fog_state)
    cull_face_state_equal := fun a0 a1 =>
      decide (a0.big_state.cull_face_state = a1.big_state.cull_face_state)
    point_size_equal := fun a0 a1 => decide (a0.big_state.point_size = a1.big_state.point_size)
    logic_ops_state_equal := fun a0 a1 =>
      decide (a0.big_state.logic_ops_state = a1.big_state.logic_ops_state)
    user_shader_equal := fun a0 a1 =>
      decide (a0.big_state.user_program = a1.big_state.user_program)
    layer_texture_target_equal := fun _ a0 a1 _ => decide (a0.target = a1.target)
    layer_texture_data_equal := fun textures a0 a1 _ =>
      decide (layer_gl_texture textures a0 = layer_gl_texture textures a1)
    layer_combine_state_equal := fun a0 a1 =>
      decide (a0.big_state.texture_combine_rgb_func = a1.big_state.texture_combine_rgb_func ∧
        a0.big_state.texture_combine_rgb_src = a1.big_state.texture_combine_rgb_src ∧
        a0.big_state.texture_combine_rgb_op = a1.big_state.texture_combine_rgb_op ∧
        a0.big_state.texture_combine_alpha_func = a1.big_state.texture_combine_alpha_func ∧
        a0.big_state.texture_combine_alpha_src = a1.big_state.texture_combine_alpha_src ∧
        a0.big_state.texture_combine_alpha_op = a1.big_state.texture_combine_alpha_op)
    layer_combine_constant_equal := fun a0 a1 =>
      decide (a0.big_state.texture_combine_constant = a1.big_state.texture_combine_constant)
    layer_filters_equal := fun a0 a1 =>
      decide (a0.mag_filter = a1.mag_filter ∧ a0.min_filter = a1.min_filter)
    layer_wrap_modes_equal := fun a0 a1 =>
      decide (effective_wrap_mode a0.wrap_mode_s = effective_wrap_mode a1.wrap_mode_s ∧
        effective_wrap_mode a0.wrap_mode_t = effective_wrap_mode a1.wrap_mode_t ∧
        effective_wrap_mode a0.wrap_mode_p = effective_wrap_mode a1.wrap_mode_p)
    layer_user_matrix_equal := fun a0 a1 => decide (a0.big_state.matrix = a1.big_state.matrix)
    layer_point_sprite_coords_equal := fun a0 a1 =>
      decide (a0.big_state.point_sprite_coords = a1.big_state.point_sprite_coords)
    hash_color_state := fun a => hash_words a.color.words
    hash_blend_enable_state := fun a => hash_words [a.blend_enable.toNat]
    hash_lighting_state := fun a =>
      hash_words (a.big_state.lighting_state.ambient ++ a.big_state.lighting_state.diffuse ++
        a.big_state.lighting_state.specular ++ a.big_state.lighting_state.emission ++
        [a.big_state.lighting_state.shininess])
    hash_alpha_func_state := fun a => hash_words [a.big_state.alpha_state.alpha_func]
    hash_alpha_func_reference_state := fun a =>
      hash_words [a.big_state.alpha_state.alpha_func_reference]
    hash_blend_state := fun a =>
      hash_words ([a.big_state.blend_state.blend_equation_rgb,
        a.big_state.blend_state.blend_equation_alpha,
        a.big_state.blend_state.blend_src_factor_alpha,
        a.big_state.blend_state.blend_dst_factor_alpha] ++
        a.big_state.blend_state.blend_constant.words ++
        [a.big_state.blend_state.blend_src_factor_rgb,
          a.big_state.blend_state.blend_dst_factor_rgb])
    hash_user_shader_state := fun a => hash_words [a.big_state.user_program.getD 0]
    hash_depth_state := fun a =>
      hash_words [if a.big_state.depth_state.test_enabled then 1 else 0,
        a.big_state.depth_state.test_function,
        if a.big_state.depth_state.write_enabled then 1 else 0,
        a.big_state.depth_state.range_near, a.big_state.depth_state.range_far]
    hash_fog_state := fun a =>
      hash_words ([if a.big_state.fog_state.enabled then 1 else 0] ++
        a.big_state.fog_state.color.words ++
        [a.big_state.fog_state.mode, a.big_state.fog_state.density,
          a.big_state.fog_state.z_near, a.big_state.fog_state.z_far])
    hash_cull_face_state := fun a =>
      hash_words [a.big_state.cull_face_state.mode, a.big_state.cull_face_state.front_winding]
    hash_point_size_state := fun a => hash_words [a.big_state.point_size]
    hash_logic_ops_state := fun a => hash_words [a.big_state.logic_ops_state.color_mask]
    layer_hash := reference_layer_hash }

/-- Modelled from the spec: `cogl_pipeline_set_point_size` is defined in
cogl-pipeline-state.c, which is not among the sources. It follows the mutation
protocol of section 4.3 with the comparator of the point size. -/
def cogl_pipeline_set_point_size (fuel : Nat) (ctx : CoglContext) (pipeline : Nat)
    (point_size : GFloat) : Option CoglContext := do
  let state := COGL_PIPELINE_STATE_POINT_SIZE
  let authority ← _cogl_pipeline_get_authority ctx fuel pipeline state
  let a ← ctx.pipeline authority
  if a.big_state.point_size = point_size then pure ctx
  else
    let c1 ← _cogl_pipeline_pre_change_notify fuel ctx pipeline state none false
    let node ← c1.pipeline pipeline
    if !node.has_big_state then none
    else
      let c2 := c1.set_pipeline pipeline
        { node with big_state := { node.big_state with point_size := point_size } }
      _cogl_pipeline_update_authority fuel c2 pipeline authority state
        reference_funcs.point_size_equal

/-- Modelled from the spec: `_cogl_pipeline_set_blend_enabled` is defined in
cogl-pipeline-state.c, which is not among the sources. It follows the mutation
protocol of section 4.3 and derives the blend enable again. -/
def _cogl_pipeline_set_blend_enabled (fuel : Nat) (ctx : CoglContext) (pipeline : Nat)
    (enable : CoglPipelineBlendEnable) : Option CoglContext := do
  let state := COGL_PIPELINE_STATE_BLEND_ENABLE
  let authority ← _cogl_pipeline_get_authority ctx fuel pipeline state
  let a ← ctx.pipeline authority
  if a.blend_enable = enable then pure ctx
  else
    let c1 ← _cogl_pipeline_pre_change_notify fuel ctx pipeline state none false
    let c2 ← c1.modify_pipeline pipeline (fun n => { n with blend_enable := enable })
    let c3 ← _cogl_pipeline_update_authority fuel c2 pipeline authority state
      reference_funcs.blend_enable_equal
    _cogl_pipeline_update_blend_enable fuel c3 pipeline state

/-- Modelled from the spec: `cogl_pipeline_set_blend_constant` is defined in
cogl-pipeline-state.c, which is not among the sources. It follows the mutation
protocol of section 4.3 on the multi-property group `BLEND` and derives the blend
enable again. -/
def cogl_pipeline_set_blend_constant (fuel : Nat) (ctx : CoglContext) (pipeline : Nat)
    (constant_color : CoglColor) : Option CoglContext := do
  let state := COGL_PIPELINE_STATE_BLEND
  let authority ← _cogl_pipeline_get_authority ctx fuel pipeline state
  let a ← ctx.pipeline authority
  if cogl_color_equal constant_color a.big_state.blend_state.blend_constant then pure ctx
  else
    let c1 ← _cogl_pipeline_pre_change_notify fuel ctx pipeline state none false
    let node ← c1.pipeline pipeline
    if !node.has_big_state then none
    else
      let blend_state : CoglPipelineBlendState :=
        { node.big_state.blend_state with blend_constant := constant_color }
      let c2 := c1.set_pipeline pipeline
        { node with big_state := { node.big_state with blend_state := blend_state } }
      let c3 ← _cogl_pipeline_update_authority fuel c2 pipeline authority state
        reference_funcs.blend_state_equal
      _cogl_pipeline_update_blend_enable fuel c3 pipeline state

/-! ## The blend-enable predicate of the specification -/

/-- The layers held in an array of slots, when none of the slots is NULL. -/
def all_layers : List (Option Nat) → Option (List Nat)
  | [] => some []
  | none :: _ => none
  | some layer :: rest => (all_layers rest).map (fun layers => layer :: layers)

/-- The effective layer array of a pipeline (section 4.4): the `n_layers` slots of
the layers cache of its `LAYERS` authority, brought up to date, in the order of
their units. -/
def effective_layers (fuel : Nat) (ctx : CoglContext) (pipeline : Nat) : Option (List Nat) := do
  let authority ← _cogl_pipeline_get_authority ctx fuel pipeline COGL_PIPELINE_STATE_LAYERS
  let a ← ctx.pipeline authority
  if a.n_layers = 0 then pure []
  else
    let c1 ← _cogl_pipeline_update_layers_cache fuel ctx authority
    let a1 ← c1.pipeline authority
    if a1.layers_cache_dirty ∨ (a1.layers_cache.take a.n_layers).length ≠ a.n_layers then none
    else all_layers (a1.layers_cache.take a.n_layers)

/-- The part of the blend-enable predicate that looks at one layer, in the words of
section 4.2: the layer "uses any non-default combine, or its authoritative texture
has an alpha channel"; the default combine is modulate-previous-by-texture. -/
def layer_may_have_alpha (fuel : Nat) (ctx : CoglContext) (layer : Nat) : Option Bool := do
  let combine_authority ←
    _cogl_pipeline_layer_get_authority ctx fuel layer COGL_PIPELINE_LAYER_STATE_COMBINE
  let ca ← ctx.layer combine_authority
  let tex_authority ←
    _cogl_pipeline_layer_get_authority ctx fuel layer COGL_PIPELINE_LAYER_STATE_TEXTURE_DATA
  let ta ← ctx.layer tex_authority
  let texture_has_alpha ←
    (match ta.texture with
     | none => some false
     | some texture =>
       (cogl_texture_get_format ctx texture).map (fun format => decide (format &&& COGL_A_BIT ≠ 0)))
  let default_combine : Bool :=
    decide (ca.big_state.texture_combine_alpha_func = COGL_PIPELINE_COMBINE_FUNC_MODULATE ∧
      ca.big_state.texture_combine_alpha_src.getD 0 0 = COGL_PIPELINE_COMBINE_SOURCE_PREVIOUS ∧
      ca.big_state.texture_combine_alpha_op.getD 0 0 = COGL_PIPELINE_COMBINE_OP_SRC_ALPHA ∧
      ca.big_state.texture_combine_alpha_src.getD 1 0 = COGL_PIPELINE_COMBINE_SOURCE_TEXTURE ∧
      ca.big_state.texture_combine_alpha_op.getD 1 0 = COGL_PIPELINE_COMBINE_OP_SRC_ALPHA)
  pure (!default_combine || texture_has_alpha)

/-- The blend-enable predicate in the words of section 4.2: an explicit `ENABLED`
or `DISABLED` of the `BLEND_ENABLE` authority is the answer; under `AUTOMATIC`
blending is needed when the blend equations are not both ADD, or the blend factors
are not (ONE, ONE_MINUS_SRC_ALPHA) for RGB and for alpha, or the resolved color is
not opaque, or a user program is attached, or some effective layer may give
alpha. -/
def blend_enable_predicate (fuel : Nat) (ctx : CoglContext) (pipeline : Nat) : Option Bool := do
  let enable_authority ←
    _cogl_pipeline_get_authority ctx fuel pipeline COGL_PIPELINE_STATE_BLEND_ENABLE
  let ea ← ctx.pipeline enable_authority
  match ea.blend_enable with
  | COGL_PIPELINE_BLEND_ENABLE_ENABLED => pure true
  | COGL_PIPELINE_BLEND_ENABLE_DISABLED => pure false
  | COGL_PIPELINE_BLEND_ENABLE_AUTOMATIC =>
    let blend_authority ←
      _cogl_pipeline_get_authority ctx fuel pipeline COGL_PIPELINE_STATE_BLEND
    let ba ← ctx.pipeline blend_authority
    let blend_state := ba.big_state.blend_state
    let color ← cogl_pipeline_get_color fuel ctx pipeline
    let user_program ← _cogl_pipeline_get_user_program fuel ctx pipeline
    let layers ← effective_layers fuel ctx pipeline
    let alphas ← layers.mapM (layer_may_have_alpha fuel ctx)
    let equations_add : Bool :=
      decide (blend_state.blend_equation_rgb = GL_FUNC_ADD ∧
        blend_state.blend_equation_alpha = GL_FUNC_ADD)
    let factors_plain : Bool :=
      decide (blend_state.blend_src_factor_rgb = GL_ONE ∧
        blend_state.blend_dst_factor_rgb = GL_ONE_MINUS_SRC_ALPHA ∧
        blend_state.blend_src_factor_alpha = GL_ONE ∧
        blend_state.blend_dst_factor_alpha = GL_ONE_MINUS_SRC_ALPHA)
    pure (!equations_add || !factors_plain ||
      decide (cogl_color_get_alpha_byte color ≠ 0xff) || decide (user_program ≠ none) ||
      alphas.any id)

/-- The layers that the walk of `_cogl_pipeline_update_layers_cache` meets along the
chain `path`: the lists `layer_differences` of the nodes that assert `LAYERS`,
nearest node first. The root, the last of the chain, is not looked at. -/
def layers_on_path (ctx : CoglContext) : List Nat → List Nat
  | [] => []
  | [_] => []
  | c :: b :: rest =>
    (match ctx.pipeline c with
     | some cn =>
       if cn.differences &&& COGL_PIPELINE_STATE_LAYERS ≠ 0 then cn.layer_differences else []
     | none => []) ++ layers_on_path ctx (b :: rest)

/-- The unit index of a layer, 0 when it does not resolve with `fuel`. -/
def unit_of (ctx : CoglContext) (fuel : Nat) (layer : Nat) : Nat :=
  (_cogl_pipeline_layer_get_unit_index ctx fuel layer).getD 0

/-! ## Scenarios -/

/-- Stale contents of a block handed out by `g_slice_new (CoglPipelineBigState)`. -/
def stale_big_state : CoglPipelineBigState :=
  { zeroed_big_state with point_size := 0x40A00000, user_program := some 7 }

/-- Stale contents of a block handed out by `g_slice_new (CoglPipeline)`: what a
pipeline freed earlier left behind. -/
def stale_pipeline : CoglPipeline :=
  { zeroed_pipeline with
    ref_count := 0, parent := some 0, children := [9], differences := 5,
    color := cogl_color_init_from_4ub 1 2 3 4, big_state := stale_big_state,
    has_big_state := true, n_layers := 1, layer_differences := [3], age := 12 }

/-- Stale contents of a block handed out by `g_slice_new (CoglPipelineLayer)`. -/
def stale_layer : CoglPipelineLayer :=
  { zeroed_layer with ref_count := 0, unit_index := 6, index := 40, differences := 1 }

/-- A context before the default pipeline and the default layers are made, on a
GL driver. -/
def context_new (slice_pipeline : CoglPipeline) (slice_layer : CoglPipelineLayer)
    (slice_big_state : CoglPipelineBigState)
    (slice_layer_big_state : CoglPipelineLayerBigState) : CoglContext :=
  { pipelines := [], layers := [], textures := [], default_pipeline := 0, default_layer_0 := 0,
    default_layer_n := 0, dummy_layer_dependant := 0, driver := CoglDriver.COGL_DRIVER_GL,
    debug_disable_blending := false, current_pipeline := none,
    current_pipeline_changes_since_flush := 0, texture_units := [], events := [], freed := [],
    slice_pipeline := slice_pipeline, slice_layer := slice_layer,
    slice_big_state := slice_big_state, slice_layer_big_state := slice_layer_big_state }

/-- The context after `_cogl_pipeline_init_default_pipeline` and
`_cogl_pipeline_init_default_layers`. -/
def scenario_init : CoglContext :=
  (_cogl_pipeline_init_default_layers 8
    (_cogl_pipeline_init_default_pipeline
      (context_new stale_pipeline stale_layer stale_big_state zeroed_layer_big_state))).getD
    (context_new stale_pipeline stale_layer stale_big_state zeroed_layer_big_state)

/-- The context after `p = cogl_pipeline_new ()`: `p` is pipeline 1. -/
def scenario_new : CoglContext :=
  ((cogl_pipeline_new 8 scenario_init).map (fun r => r.1)).getD scenario_init

/-- The context after `c = cogl_pipeline_copy (p)`: `c` is pipeline 2. -/
def scenario_copy : CoglContext :=
  ((cogl_pipeline_copy 8 scenario_new 1).map (fun r => r.1)).getD scenario_new

/-- The context after `cogl_pipeline_set_color (p, red)` on `scenario_copy`: the
copy-on-write snapshot is pipeline 3. -/
def scenario_red : CoglContext :=
  (cogl_pipeline_set_color 8 scenario_copy 1 (cogl_color_init_from_4ub 0xff 0 0 0xff)).getD
    scenario_copy

/-- The context after `q = cogl_pipeline_new ()` on `scenario_new`: `q` is
pipeline 2. -/
def scenario_pair : CoglContext :=
  ((cogl_pipeline_new 8 scenario_new).map (fun r => r.1)).getD scenario_new

/-- The context after `cogl_pipeline_set_point_size (q, 2.0)` on `scenario_pair`:
`p` and `q` differ in the point size only. -/
def scenario_point_size : CoglContext :=
  (cogl_pipeline_set_point_size 8 scenario_pair 2 0x40000000).getD scenario_pair

/-- The context after `cogl_pipeline_set_blend_constant (q, red)` on
`scenario_pair`. -/
def scenario_blend_constant : CoglContext :=
  (cogl_pipeline_set_blend_constant 8 scenario_pair 2
    (cogl_color_init_from_4ub 0xff 0 0 0xff)).getD scenario_pair

/-- The context after `_cogl_pipeline_set_blend_enabled (q, DISABLED)` on
`scenario_blend_constant`: `p` resolves the blend enable `AUTOMATIC` and the default
blend constant, `q` holds `DISABLED` and a red blend constant, and neither
blends. -/
def scenario_blend_disabled : CoglContext :=
  (_cogl_pipeline_set_blend_enabled 8 scenario_blend_constant 2
    COGL_PIPELINE_BLEND_ENABLE_DISABLED).getD scenario_blend_constant

/-- Stale contents of a block handed out by `g_slice_new (CoglPipeline)` whose
`layer_differences` field still points at a list holding default layer 0. -/
def stale_pipeline_with_layer : CoglPipeline :=
  { stale_pipeline with layer_differences := [0] }

/-- The context after the default pipeline and layers are made, `a =
cogl_pipeline_new ()` (pipeline 1), and the layers of index 5 and 7 are made on `a`
by `_cogl_pipeline_get_layer` (layers 3 and 4, texture units 0 and 1). -/
def scenario_two_layers : CoglContext :=
  let base := context_new stale_pipeline_with_layer stale_layer stale_big_state
    zeroed_layer_big_state
  ((do
    let c0 ← _cogl_pipeline_init_default_layers 8 (_cogl_pipeline_init_default_pipeline base)
    let (c1, a) ← cogl_pipeline_new 8 c0
    let (c2, _) ← _cogl_pipeline_get_layer 8 c1 a 5
    let (c3, _) ← _cogl_pipeline_get_layer 8 c2 a 7
    pure c3) : Option CoglContext).getD base

/-- The context after `p = cogl_pipeline_copy (a)` (pipeline 2),
`_cogl_pipeline_prune_to_n_layers (p, 1)` and `c = cogl_pipeline_copy (p)`
(pipeline 3) on `scenario_two_layers`: `p` asserts `LAYERS` with one layer and owns
no layer. -/
def scenario_pruned : CoglContext :=
  ((do
    let (c1, p) ← cogl_pipeline_copy 8 scenario_two_layers 1
    let c2 ← _cogl_pipeline_prune_to_n_layers 8 c1 p 1
    let (c3, _) ← cogl_pipeline_copy 8 c2 p
    pure c3) : Option CoglContext).getD scenario_two_layers

/-- The context after `_cogl_pipeline_pre_change_notify (p, COLOR, red, FALSE)` and
the write of the colour red to `p` on `scenario_pruned`: the copy-on-write snapshot
is pipeline 4. -/
def scenario_pruned_red : CoglContext :=
  ((do
    let red := cogl_color_init_from_4ub 0xff 0 0 0xff
    let c1 ← _cogl_pipeline_pre_change_notify 8 scenario_pruned 2 COGL_PIPELINE_STATE_COLOR
      (some red) false
    c1.modify_pipeline 2 (fun node => { node with color := red })) :
    Option CoglContext).getD scenario_pruned

/-- The effective layers of a pipeline in the order `_cogl_pipeline_get_layers`
lists them, each as its layer index and its unit index. -/
def layer_indices_and_units (fuel : Nat) (ctx : CoglContext) (pipeline : Nat) :
    Option (List (Int × Nat)) := do
  let (c, layers) ← _cogl_pipeline_get_layers fuel ctx pipeline
  layers.mapM (fun layer => do
    let l ← c.layer layer
    let unit_index ← _cogl_pipeline_layer_get_unit_index c fuel layer
    pure (l.index, unit_index))

/-- The layers listed in `pipeline->layer_differences`, each as its layer index and
its unit index. -/
def owned_indices_and_units (fuel : Nat) (ctx : CoglContext) (pipeline : Nat) :
    Option (List (Int × Nat)) := do
  let node ← ctx.pipeline pipeline
  node.layer_differences.mapM (fun layer => do
    let l ← ctx.layer layer
    let unit_index ← _cogl_pipeline_layer_get_unit_index ctx fuel layer
    pure (l.index, unit_index))

/-- The context after `p = cogl_pipeline_copy (a)` on `scenario_two_layers`: `p` is
pipeline 2 and inherits the layers of index 5 and 7 from `a`. -/
def scenario_inherited : CoglContext :=
  ((cogl_pipeline_copy 8 scenario_two_layers 1).map (fun r => r.1)).getD scenario_two_layers

/-- A layer callback that notes the index it is given and goes on. -/
def noting_callback : CoglPipelineLayerCallback (List Int) :=
  fun c calls _ layer_index => some (c, calls ++ [layer_index], true)

/-- A layer callback that notes the index it is given, removes the layer of index
`victim` from the pipeline with `cogl_pipeline_remove_layer` and goes on. -/
def removing_callback (victim : Int) : CoglPipelineLayerCallback (List Int) :=
  fun c calls pipeline layer_index =>
    (cogl_pipeline_remove_layer 8 c pipeline victim).map
      (fun c1 => (c1, calls ++ [layer_index], true))

/-- A layer callback that notes the index it is given, makes sure the pipeline has
a layer of index `added` with `_cogl_pipeline_get_layer` and goes on. -/
def adding_callback (added : Int) : CoglPipelineLayerCallback (List Int) :=
  fun c calls pipeline layer_index =>
    (_cogl_pipeline_get_layer 8 c pipeline added).map
      (fun r => (r.1, calls ++ [layer_index], true))

/-- The context after `cogl_pipeline_set_color (p, half-transparent white)` and
`_cogl_pipeline_set_blend_enabled (p, DISABLED)` on `scenario_new`: `p` (pipeline 1)
holds a color of alpha 0x80 and does not blend. -/
def scenario_translucent_disabled : CoglContext :=
  ((do
    let c1 ← cogl_pipeline_set_color 8 scenario_new 1 (cogl_color_init_from_4ub 0xff 0xff 0xff 0x80)
    _cogl_pipeline_set_blend_enabled 8 c1 1 COGL_PIPELINE_BLEND_ENABLE_DISABLED) :
    Option CoglContext).getD scenario_new

/-- The change of `blend_enable` to `AUTOMATIC` on `scenario_translucent_disabled`:
`_cogl_pipeline_pre_change_notify (p, BLEND_ENABLE, NULL, FALSE)`, the write of the
field and `_cogl_pipeline_update_blend_enable (p, BLEND_ENABLE)`. -/
def scenario_translucent_automatic : Option CoglContext := do
  let c1 ← _cogl_pipeline_pre_change_notify 8 scenario_translucent_disabled 1
    COGL_PIPELINE_STATE_BLEND_ENABLE none false
  let c2 ← c1.modify_pipeline 1 (fun node =>
    { node with blend_enable := COGL_PIPELINE_BLEND_ENABLE_AUTOMATIC })
  _cogl_pipeline_update_blend_enable 8 c2 1 COGL_PIPELINE_STATE_BLEND_ENABLE

/-- The record of the pipeline `a` (1) of `scenario_two_layers`. -/
def scenario_two_layers_a : CoglPipeline :=
  (scenario_two_layers.pipeline 1).getD zeroed_pipeline

/-- The context after `_cogl_pipeline_pre_change_notify (p, COLOR, color, FALSE)` and
the write of a half-transparent white to the color of `p` (pipeline 1) on
`scenario_new`; `_cogl_pipeline_update_blend_enable` has not run yet. -/
def scenario_translucent_written : CoglContext :=
  ((do
    let color := cogl_color_init_from_4ub 0xff 0xff 0xff 0x80
    let c1 ← _cogl_pipeline_pre_change_notify 8 scenario_new 1 COGL_PIPELINE_STATE_COLOR
      (some color) false
    c1.modify_pipeline 1 (fun node => { node with color := color })) :
    Option CoglContext).getD scenario_new

/-- The steps of the example of section 8 on a new pipeline `p` (1): the color is
set to alpha 0x80, a default layer of index 0 is added and the blend enable derived
again, and the color is set back to alpha 0xff. The value of `real_blend_enable`
is noted at the start and after each step. -/
def scenario_alpha_steps : Option (List Bool) := do
  let b0 ← _cogl_pipeline_get_real_blend_enabled scenario_new 1
  let c1 ← cogl_pipeline_set_color 8 scenario_new 1 (cogl_color_init_from_4ub 0xff 0xff 0xff 0x80)
  let b1 ← _cogl_pipeline_get_real_blend_enabled c1 1
  let (c2, _) ← _cogl_pipeline_get_layer 8 c1 1 0
  let c3 ← _cogl_pipeline_update_blend_enable 8 c2 1 COGL_PIPELINE_STATE_LAYERS
  let b2 ← _cogl_pipeline_get_real_blend_enabled c3 1
  let c4 ← cogl_pipeline_set_color 8 c3 1 (cogl_color_init_from_4ub 0xff 0xff 0xff 0xff)
  let b3 ← _cogl_pipeline_get_real_blend_enabled c4 1
  pure [b0, b1, b2, b3]

/-- The context after `wc = _cogl_pipeline_weak_copy (p, 77, 88)` on `scenario_copy`:
the pipeline `p` (1) has the strong child `c` (2) and the weak child `wc` (3). -/
def scenario_weak_copy : CoglContext :=
  ((_cogl_pipeline_weak_copy 8 scenario_copy 1 77 88).map (fun r => r.1)).getD scenario_copy

/-- The context after `_cogl_pipeline_pre_change_notify (p, COLOR, NULL, FALSE)` on
`scenario_weak_copy`. -/
def scenario_weak_copy_changed : CoglContext :=
  (_cogl_pipeline_pre_change_notify 8 scenario_weak_copy 1 COGL_PIPELINE_STATE_COLOR none
    false).getD scenario_weak_copy

/-- The context after `wc = _cogl_pipeline_weak_copy (p, 77, 88)` and
`wd = _cogl_pipeline_weak_copy (wc, 78, 89)` on `scenario_new`: the pipeline `p` (1)
has the weak child `wc` (2), which has the weak child `wd` (3). -/
def scenario_weak_chain : CoglContext :=
  ((do
    let (c1, wc) ← _cogl_pipeline_weak_copy 8 scenario_new 1 77 88
    let (c2, _) ← _cogl_pipeline_weak_copy 8 c1 wc 78 89
    pure c2) : Option CoglContext).getD scenario_new

/-- The context after `_cogl_pipeline_pre_change_notify (p, COLOR, NULL, FALSE)` on
`scenario_weak_chain`. -/
def scenario_weak_chain_changed : CoglContext :=
  (_cogl_pipeline_pre_change_notify 8 scenario_weak_chain 1 COGL_PIPELINE_STATE_COLOR none
    false).getD scenario_weak_chain

/-- The context after `_cogl_pipeline_free (p)` on `scenario_weak_chain`. -/
def scenario_weak_chain_freed : CoglContext :=
  (_cogl_pipeline_free 8 scenario_weak_chain 1).getD scenario_weak_chain

/-! ## Frames -/

/-- A pipeline record without its reference count and its child list. -/
def CoglPipeline.strip (node : CoglPipeline) : CoglPipeline :=
  { node with ref_count := 0, children := [] }

/-- The pipelines of `ctx2` are those of `ctx1` up to reference counts and child
lists. -/
def same_payload (ctx1 ctx2 : CoglContext) : Prop :=
  ∀ q, (ctx2.pipeline q).map CoglPipeline.strip = (ctx1.pipeline q).map CoglPipeline.strip

/-- The context outside the pipeline heap and the event record. -/
def CoglContext.outside_pipelines (ctx : CoglContext) : CoglContext :=
  { ctx with pipelines := [], events := [] }

/-- The default pipeline is the root that `_cogl_pipeline_init_default_pipeline`
made: no parent, not weak, every sparse group asserted, white, no layers, blending
off. -/
def default_pipeline_pristine (ctx : CoglContext) : Prop :=
  ∃ d, ctx.pipeline ctx.default_pipeline = some d ∧ d.parent = none ∧ d.is_weak = false ∧
    d.differences = COGL_PIPELINE_STATE_ALL_SPARSE ∧
    d.color = cogl_color_init_from_4ub 0xff 0xff 0xff 0xff ∧ d.n_layers = 0 ∧
    d.real_blend_enable = false

instance (ctx : CoglContext) : Decidable (default_pipeline_pristine ctx) :=
  decidable_of_iff
    ((ctx.pipeline ctx.default_pipeline).map (fun d => decide (d.parent = none ∧
      d.is_weak = false ∧ d.differences = COGL_PIPELINE_STATE_ALL_SPARSE ∧
      d.color = cogl_color_init_from_4ub 0xff 0xff 0xff 0xff ∧ d.n_layers = 0 ∧
      d.real_blend_enable = false)) = some true)
    (by
      unfold default_pipeline_pristine
      cases ctx.pipeline ctx.default_pipeline <;> simp)

/-- The node `n` is not a weak pipeline (`is_weak` is clear). -/
def pipeline_not_weak (ctx : CoglContext) (n : Nat) : Prop :=
  (ctx.pipeline n).map (fun node => node.is_weak) = some false

instance (ctx : CoglContext) (n : Nat) : Decidable (pipeline_not_weak ctx n) := by
  unfold pipeline_not_weak; exact inferInstance

/-- The part of a pipeline record that ties it into the tree and names its destroy
callback. -/
structure PipelineLinks where
  parent : Option Nat
  children : List Nat
  has_parent_reference : Bool
  is_weak : Bool
  destroy_callback : Nat
  destroy_data : Nat
deriving DecidableEq, Repr

/-- The links of a pipeline record. -/
def CoglPipeline.links (node : CoglPipeline) : PipelineLinks :=
  { parent := node.parent, children := node.children,
    has_parent_reference := node.has_parent_reference, is_weak := node.is_weak,
    destroy_callback := node.destroy_callback, destroy_data := node.destroy_data }

/-- The links of the pipeline at `q`. -/
def CoglContext.links (ctx : CoglContext) (q : Nat) : Option PipelineLinks :=
  (ctx.pipeline q).map CoglPipeline.links

/-- The event is a call of a destroy callback. -/
def CoglEvent.is_destroy : CoglEvent → Bool
  | CoglEvent.destroy _ _ _ => true
  | _ => false

/-- The calls of destroy callbacks made so far, in order. -/
def CoglContext.destroyed (ctx : CoglContext) : List CoglEvent :=
  ctx.events.filter CoglEvent.is_destroy

/-- The two contexts have the same pipeline tree and the same record of destroy
callbacks. -/
def same_skeleton (ctx1 ctx2 : CoglContext) : Prop :=
  (∀ q, ctx2.links q = ctx1.links q) ∧ ctx2.destroyed = ctx1.destroyed

/-- The subtrees of the pipelines of a child list, one after the other; `below`
gives the subtree of one child. -/
def subtree_post_list (below : Nat → Option (List Nat)) : List Nat → Option (List Nat)
  | [] => some []
  | child :: rest =>
    match below child, subtree_post_list below rest with
    | some first, some others => some (first ++ others)
    | _, _ => none

/-- The pipelines below and including `x`, children first (the order in which
`destroy_weak_children_cb` reaches the end of its work on them), read off the child
lists. -/
def subtree_post (ctx : CoglContext) : Nat → Nat → Option (List Nat)
  | 0, _ => none
  | fuel + 1, x =>
    match ctx.pipeline x with
    | none => none
    | some node =>
      (subtree_post_list (subtree_post ctx fuel) node.children).map (fun below => below ++ [x])

/-- The call of the destroy callback of the pipeline `y`. -/
def destroy_event (ctx : CoglContext) (y : Nat) : CoglEvent :=
  match ctx.pipeline y with
  | some node => CoglEvent.destroy node.destroy_callback y node.destroy_data
  | none => CoglEvent.flush

/-- Every child named in the child list of a pipeline of `ids` points back to that
pipeline as its parent. -/
def children_consistent (ctx : CoglContext) (ids : List Nat) : Bool :=
  ids.all (fun y =>
    match ctx.links y with
    | none => true
    | some l => l.children.all (fun c => decide ((ctx.links c).map (fun k => k.parent) =
        some (some y))))

/-- The subtrees of the pipelines of a child list that `_cogl_pipeline_is_weak`
accepts, one after the other. -/
def weak_subtrees (ctx : CoglContext) (weak_fuel tree_fuel : Nat) : List Nat → List Nat
  | [] => []
  | child :: rest =>
    (if _cogl_pipeline_is_weak ctx weak_fuel child = some true
     then (subtree_post ctx tree_fuel child).getD [] else []) ++
      weak_subtrees ctx weak_fuel tree_fuel rest

/-- The pipelines of a child list that `_cogl_pipeline_is_weak` accepts. -/
def weak_children (ctx : CoglContext) (weak_fuel : Nat) (children : List Nat) : List Nat :=
  children.filter (fun child => decide (_cogl_pipeline_is_weak ctx weak_fuel child = some true))

/-- The links of a pipeline that was taken out of the tree with all that hung below
it. -/
def PipelineLinks.cut (l : PipelineLinks) : PipelineLinks :=
  { l with parent := none, children := [] }

/-- A pipeline record without its layers cache. -/
def CoglPipeline.uncached (node : CoglPipeline) : CoglPipeline :=
  { node with layers_cache := [], layers_cache_dirty := false }

/-- The context `ctx2` is `ctx1` up to the layers caches of the pipelines. -/
def same_but_caches (ctx1 ctx2 : CoglContext) : Prop :=
  (∀ q, (ctx2.pipeline q).map CoglPipeline.uncached =
    (ctx1.pipeline q).map CoglPipeline.uncached) ∧
  { ctx2 with pipelines := [] } = { ctx1 with pipelines := [] }

/-- Every context that the computation `x` returns is `ctx` up to layers caches. -/
def returns_same_but_caches (ctx : CoglContext) {β : Type} (x : Option (CoglContext × β)) :
    Prop :=
  ∀ c1 b, x = some (c1, b) → same_but_caches ctx c1

/-- The computation `x` returns, and what it returns satisfies `post`. -/
def returns {α : Type} (x : Option α) (post : α → Prop) : Prop :=
  ∃ a, x = some a ∧ post a

/-- Whatever the computation `x` returns satisfies `post`. -/
def returned {α : Type} (x : Option α) (post : α → Prop) : Prop :=
  ∀ a, x = some a → post a

/-- Every child named in the child list of a pipeline of `ids` points back to that
pipeline as its parent (`children_consistent` as a proposition). -/
def links_consistent (ctx : CoglContext) (ids : List Nat) : Prop :=
  ∀ y ∈ ids, ∀ l, ctx.links y = some l → ∀ c ∈ l.children,
    (ctx.links c).map (fun k => k.parent) = some (some y)

/-- The context `ctx2` is `ctx` after the subtree `ids` of the child `x` of `q` was
destroyed: its pipelines are cut loose, `x` is gone from the child list of `q`, the
destroy callbacks were called in the order of `ids`, and no other link changed. -/
def dismantled (ctx ctx2 : CoglContext) (ids : List Nat) (q x : Nat) : Prop :=
  (∀ y ∈ ids, ctx2.links y = (ctx.links y).map PipelineLinks.cut) ∧
  ctx2.links q = (ctx.links q).map (fun l => { l with children := l.children.erase x }) ∧
  (∀ z, z ∉ ids → z ≠ q → ctx2.links z = ctx.links z) ∧
  ctx2.destroyed = ctx.destroyed ++ ids.map (destroy_event ctx) ∧
  ctx2.pipelines.length = ctx.pipelines.length

/-- The context `ctx2` is `ctx` after `_cogl_pipeline_set_parent (c, np)`: `c` hangs
below `np`, at the head of its child list, and is gone from the child list of the
parent it had; no other link changed and no destroy callback was called. -/
def reparented (ctx ctx2 : CoglContext) (c np : Nat) (strong : Bool) : Prop :=
  ctx2.links c = (ctx.links c).map
    (fun l => { l with parent := some np, has_parent_reference := strong }) ∧
  ctx2.links np = (ctx.links np).map (fun l => { l with children := c :: l.children }) ∧
  (∀ q, (ctx.links c).map (fun l => l.parent) = some (some q) →
    ctx2.links q = (ctx.links q).map (fun l => { l with children := l.children.erase c })) ∧
  (∀ z, z ≠ c → z ≠ np → (ctx.links c).map (fun l => l.parent) ≠ some (some z) →
    ctx2.links z = ctx.links z) ∧
  ctx2.destroyed = ctx.destroyed

/-- The pipelines of a child list that are left when the weak ones are destroyed. -/
def strong_children (ctx : CoglContext) (weak_fuel : Nat) (children : List Nat) : List Nat :=
  children.filter (fun c => decide (c ∉ weak_children ctx weak_fuel children))

/-- The links of the pipeline `p` (1) of `scenario_weak_copy`. -/
def scenario_weak_copy_links : PipelineLinks :=
  (scenario_weak_copy.links 1).getD
    { parent := none, children := [], has_parent_reference := false, is_weak := false,
      destroy_callback := 0, destroy_data := 0 }

/-- The links of the pipeline `p` (1) of `scenario_weak_chain`. -/
def scenario_weak_chain_links : PipelineLinks :=
  (scenario_weak_chain.links 1).getD
    { parent := none, children := [], has_parent_reference := false, is_weak := false,
      destroy_callback := 0, destroy_data := 0 }

/-- The links of the weak copy `wc` (2) of `scenario_weak_chain`. -/
def scenario_weak_chain_copy_links : PipelineLinks :=
  (scenario_weak_chain.links 2).getD
    { parent := none, children := [], has_parent_reference := false, is_weak := false,
      destroy_callback := 0, destroy_data := 0 }

/-- The context `ctx2` is `ctx` after the destruction of the child `wc` of `p`: the
call `e` of its destroy callback was made once, right after the calls for the
pipelines `dsc` below it; `wc` has no parent and is not in the child list of `p`. -/
def destroyed_after_descendants (ctx ctx2 : CoglContext) (p wc : Nat) (dsc : List Nat)
    (e : CoglEvent) : Prop :=
  (∃ pre post, ctx2.destroyed =
      ctx.destroyed ++ (pre ++ (dsc.map (destroy_event ctx) ++ [e]) ++ post) ∧
    e ∉ pre ∧ e ∉ dsc.map (destroy_event ctx) ∧ e ∉ post) ∧
  (ctx2.links wc).map (fun l => l.parent) = some none ∧
  (ctx2.links p).map (fun l => decide (wc ∈ l.children)) = some false

/-- The part of a pipeline record that the layers of the pipeline are read from. -/
def CoglPipeline.layer_state (node : CoglPipeline) : Nat × List Nat × Nat :=
  (node.differences, node.layer_differences, node.n_layers)

/-- A layer record without its reference count, its child list and its owner. -/
def CoglPipelineLayer.core (l : CoglPipelineLayer) : CoglPipelineLayer :=
  { l with ref_count := 0, children := [], owner := none }

/-- From `ctx` to `c` no pipeline and no layer is lost, every pipeline of `ctx` other
than `d` keeps its layer state, and every layer of `ctx` is the same up to its
reference count, its child list and its owner. -/
def layers_kept_but (d : Nat) (ctx c : CoglContext) : Prop :=
  ctx.pipelines.length ≤ c.pipelines.length ∧ ctx.layers.length ≤ c.layers.length ∧
  (∀ q, q < ctx.pipelines.length → q ≠ d →
    (c.pipeline q).map CoglPipeline.layer_state =
      (ctx.pipeline q).map CoglPipeline.layer_state) ∧
  (∀ L, L < ctx.layers.length →
    (c.layer L).map CoglPipelineLayer.core = (ctx.layer L).map CoglPipelineLayer.core)

/-- From `ctx` to `c` the pipelines only had their layers caches marked stale: each
record is the same up to `layers_cache_dirty`, and a cache that was stale still
is. -/
def only_dirtied (ctx c : CoglContext) : Prop :=
  ∀ q, (c.pipeline q).map (fun n => { n with layers_cache_dirty := true }) =
      (ctx.pipeline q).map (fun n => { n with layers_cache_dirty := true }) ∧
    ∀ n, ctx.pipeline q = some n → n.layers_cache_dirty = true →
      (c.pipeline q).map (fun m => m.layers_cache_dirty) = some true

/-! ## Utilities and the combine state -/

/-- The value a 32 bit `int` holds after an operation whose mathematical result is
`x`: the low 32 bits, read as a two's complement number. -/
def int32_wrap (x : Int) : Int := (x + 2 ^ 31) % 2 ^ 32 - 2 ^ 31

/-- The loop `while (rval < a) rval <<= 1;` of `_cogl_util_next_p2`; one unit of
fuel is spent on each test of the loop condition. -/
def next_p2_loop : Nat → Int → Int → Option Int
  | 0, _, _ => none
  | fuel + 1, rval, a =>
    if rval < a then next_p2_loop fuel (int32_wrap (rval * 2)) a else some rval

/-- The function `_cogl_util_next_p2` of cogl-util.c. -/
def _cogl_util_next_p2 (fuel : Nat) (a : Int) : Option Int :=
  next_p2_loop fuel 1 a

/-- The loop of `_cogl_pipeline_need_texture_combine_separate` from the argument
`i` on, with `n` arguments left to look at. -/
def need_texture_combine_separate_loop (big_state : CoglPipelineLayerBigState) :
    Nat → Nat → Bool
  | 0, _ => false
  | n + 1, i =>
    if big_state.texture_combine_rgb_src.getD i 0 ≠ big_state.texture_combine_alpha_src.getD i 0
    then true
    else if big_state.texture_combine_alpha_op.getD i 0 = GL_SRC_ALPHA then
      if big_state.texture_combine_rgb_op.getD i 0 = GL_SRC_COLOR ∨
          big_state.texture_combine_rgb_op.getD i 0 = GL_SRC_ALPHA
      then need_texture_combine_separate_loop big_state n (i + 1)
      else false
    else if big_state.texture_combine_alpha_op.getD i 0 = GL_ONE_MINUS_SRC_ALPHA then
      if big_state.texture_combine_rgb_op.getD i 0 = GL_ONE_MINUS_SRC_COLOR ∨
          big_state.texture_combine_rgb_op.getD i 0 = GL_ONE_MINUS_SRC_ALPHA
      then need_texture_combine_separate_loop big_state n (i + 1)
      else false
    else false

/-- The function `_cogl_pipeline_need_texture_combine_separate`. -/
def _cogl_pipeline_need_texture_combine_separate (ctx : CoglContext) (combine_authority : Nat) :
    Option Bool :=
  match ctx.layer combine_authority with
  | none => none
  | some ca =>
    let big_state := ca.big_state
    if big_state.texture_combine_rgb_func ≠ big_state.texture_combine_alpha_func then some true
    else
      some (need_texture_combine_separate_loop big_state
        (_cogl_get_n_args_for_combine_func big_state.texture_combine_rgb_func) 0)

/-- The answer the comment above `_cogl_pipeline_need_texture_combine_separate`
describes: no separation is needed when the RGB and the alpha combine use the same
function and, for each argument of the function, the same source with an operand
pair that can be merged. -/
def combine_is_shared (big_state : CoglPipelineLayerBigState) : Bool :=
  decide (big_state.texture_combine_rgb_func = big_state.texture_combine_alpha_func) &&
  (List.range (_cogl_get_n_args_for_combine_func big_state.texture_combine_rgb_func)).all
    (fun i =>
      decide (big_state.texture_combine_rgb_src.getD i 0 =
        big_state.texture_combine_alpha_src.getD i 0) &&
      ((decide (big_state.texture_combine_alpha_op.getD i 0 = GL_SRC_ALPHA) &&
          (decide (big_state.texture_combine_rgb_op.getD i 0 = GL_SRC_COLOR) ||
           decide (big_state.texture_combine_rgb_op.getD i 0 = GL_SRC_ALPHA))) ||
       (decide (big_state.texture_combine_alpha_op.getD i 0 = GL_ONE_MINUS_SRC_ALPHA) &&
          (decide (big_state.texture_combine_rgb_op.getD i 0 = GL_ONE_MINUS_SRC_COLOR) ||
           decide (big_state.texture_combine_rgb_op.getD i 0 = GL_ONE_MINUS_SRC_ALPHA)))))

/-- A layer big state with the combine `RGB = REPLACE (1 - TEXTURE)` and
`A = REPLACE (TEXTURE[A])`: the same function and source, an RGB operand
`ONE_MINUS_SRC_COLOR` and an alpha operand `SRC_ALPHA`. -/
def scenario_replace_inverted : CoglPipelineLayerBigState :=
  { texture_combine_rgb_func := COGL_PIPELINE_COMBINE_FUNC_REPLACE
    texture_combine_rgb_src := [COGL_PIPELINE_COMBINE_SOURCE_TEXTURE, 0, 0]
    texture_combine_rgb_op := [COGL_PIPELINE_COMBINE_OP_ONE_MINUS_SRC_COLOR, 0, 0]
    texture_combine_alpha_func := COGL_PIPELINE_COMBINE_FUNC_REPLACE
    texture_combine_alpha_src := [COGL_PIPELINE_COMBINE_SOURCE_TEXTURE, 0, 0]
    texture_combine_alpha_op := [COGL_PIPELINE_COMBINE_OP_SRC_ALPHA, 0, 0]
    texture_combine_constant := [], matrix := [], point_sprite_coords := false }

/-- A layer big state with the combine `RGB = MODULATE (1 - PREVIOUS, TEXTURE)` and
`A = MODULATE (PREVIOUS[A], CONSTANT[A])`: the first arguments have an operand pair
that cannot be merged and the second arguments have different sources. -/
def scenario_modulate_mixed : CoglPipelineLayerBigState :=
  { texture_combine_rgb_func := COGL_PIPELINE_COMBINE_FUNC_MODULATE
    texture_combine_rgb_src :=
      [COGL_PIPELINE_COMBINE_SOURCE_PREVIOUS, COGL_PIPELINE_COMBINE_SOURCE_TEXTURE, 0]
    texture_combine_rgb_op :=
      [COGL_PIPELINE_COMBINE_OP_ONE_MINUS_SRC_COLOR, COGL_PIPELINE_COMBINE_OP_SRC_COLOR, 0]
    texture_combine_alpha_func := COGL_PIPELINE_COMBINE_FUNC_MODULATE
    texture_combine_alpha_src :=
      [COGL_PIPELINE_COMBINE_SOURCE_PREVIOUS, COGL_PIPELINE_COMBINE_SOURCE_CONSTANT, 0]
    texture_combine_alpha_op :=
      [COGL_PIPELINE_COMBINE_OP_SRC_ALPHA, COGL_PIPELINE_COMBINE_OP_SRC_ALPHA, 0]
    texture_combine_constant := [], matrix := [], point_sprite_coords := false }

/-- The layer heap of `scenario_init` with the combine state of layer 0 replaced. -/
def scenario_combine (big_state : CoglPipelineLayerBigState) : CoglContext :=
  match scenario_init.layer 0 with
  | none => scenario_init
  | some l => scenario_init.set_layer 0 { l with big_state := big_state, has_big_state := true }

/-- The context after `_cogl_pipeline_update_blend_enable (p, COLOR)` on
`scenario_translucent_written` and `c = cogl_pipeline_copy (p)`: the pipeline `p`
(1) stores a color of alpha 0x80 below the default pipeline, whose color is opaque,
it blends, and it has the strong child `c` (2). -/
def scenario_translucent_parent : CoglContext :=
  ((do
    let c1 ← _cogl_pipeline_update_blend_enable 8 scenario_translucent_written 1
      COGL_PIPELINE_STATE_COLOR
    let (c2, _) ← cogl_pipeline_copy 8 c1 1
    pure c2) : Option CoglContext).getD scenario_new

/-- The context after `_cogl_pipeline_pre_change_notify (p, POINT_SIZE, NULL, FALSE)`
on `scenario_translucent_parent`: the copy-on-write snapshot of `p` is pipeline 3. -/
def scenario_translucent_snapshot : CoglContext :=
  (_cogl_pipeline_pre_change_notify 8 scenario_translucent_parent 1
    COGL_PIPELINE_STATE_POINT_SIZE none false).getD scenario_new

/-- The two steps of the copy-on-write block on `scenario_translucent_parent` by
themselves: `np = cogl_pipeline_copy (parent (p))` and
`_cogl_pipeline_copy_differences (np, p, p->differences)`. Gives the value of
`real_blend_enable` of `np` after the first and after the second step. -/
def scenario_translucent_copy_differences : Option (Bool × Bool) := do
  let p ← scenario_translucent_parent.pipeline 1
  let parent ← p.parent
  let (c1, np) ← cogl_pipeline_copy 8 scenario_translucent_parent parent
  let b1 ← _cogl_pipeline_get_real_blend_enabled c1 np
  let c2 ← _cogl_pipeline_copy_differences 8 c1 np 1 p.differences
  let b2 ← _cogl_pipeline_get_real_blend_enabled c2 np
  pure (b1, b2)

/-- The function `_cogl_pipeline_journal_ref`. -/
def _cogl_pipeline_journal_ref (ctx : CoglContext) (pipeline : Nat) : Option CoglContext := do
  let c1 ← ctx.modify_pipeline pipeline (fun n =>
    { n with journal_ref_count := n.journal_ref_count + 1 })
  cogl_object_ref c1 pipeline

/-- The function `_cogl_pipeline_journal_unref`. -/
def _cogl_pipeline_journal_unref (ctx : CoglContext) (pipeline : Nat) : Option CoglContext := do
  let c1 ← ctx.modify_pipeline pipeline (fun n =>
    { n with journal_ref_count := n.journal_ref_count - 1 })
  cogl_object_unref c1 pipeline

/-- The context after `_cogl_pipeline_update_blend_enable (p, COLOR)` on
`scenario_translucent_written` and `_cogl_pipeline_journal_ref (p)`: the pipeline
`p` (1) has a color of alpha 0x80, it blends, and the journal refers to it. -/
def scenario_journal_translucent : CoglContext :=
  ((do
    let c1 ← _cogl_pipeline_update_blend_enable 8 scenario_translucent_written 1
      COGL_PIPELINE_STATE_COLOR
    _cogl_pipeline_journal_ref c1 1) : Option CoglContext).getD scenario_new

/-- The context after `_cogl_pipeline_journal_ref (p)` on `scenario_new`: the
pipeline `p` (1) has the opaque default color, it does not blend, and the journal
refers to it. -/
def scenario_journal_opaque : CoglContext :=
  (_cogl_pipeline_journal_ref scenario_new 1).getD scenario_new

/-- The change of the color of a pipeline in three steps:
`_cogl_pipeline_pre_change_notify (p, COLOR, color, FALSE)`, the write of the color
and `_cogl_pipeline_update_blend_enable (p, COLOR)`. Gives whether `cogl_flush` was
called by the first step, and `real_blend_enable` before and after the change. -/
def color_change_flushes (ctx : CoglContext) (pipeline : Nat) (color : CoglColor) :
    Option (Bool × Bool × Bool) := do
  let before ← _cogl_pipeline_get_real_blend_enabled ctx pipeline
  let c1 ← _cogl_pipeline_pre_change_notify 8 ctx pipeline COGL_PIPELINE_STATE_COLOR
    (some color) false
  let flushed := decide (CoglEvent.flush ∈ c1.events.drop ctx.events.length)
  let c2 ← c1.modify_pipeline pipeline (fun n => { n with color := color })
  let c3 ← _cogl_pipeline_update_blend_enable 8 c2 pipeline COGL_PIPELINE_STATE_COLOR
  let after ← _cogl_pipeline_get_real_blend_enabled c3 pipeline
  pure (flushed, before, after)

/-- The comparator `_cogl_pipeline_point_size_equal` handed to
`_cogl_pipeline_update_authority`: the two authorities hold the same point size. -/
def point_size_equal (authority0 authority1 : CoglPipeline) : Bool :=
  decide (authority0.big_state.point_size = authority1.big_state.point_size)

/-- The change of the point size of a pipeline in three steps:
`_cogl_pipeline_pre_change_notify (p, POINT_SIZE, NULL, FALSE)`, the write of the
point size and `_cogl_pipeline_update_authority (p, authority, POINT_SIZE,
_cogl_pipeline_point_size_equal)`, with the authority found before the change. -/
def point_size_change (ctx : CoglContext) (pipeline : Nat) (point_size : GFloat) :
    Option CoglContext := do
  let authority ← _cogl_pipeline_get_authority ctx 8 pipeline COGL_PIPELINE_STATE_POINT_SIZE
  let c1 ← _cogl_pipeline_pre_change_notify 8 ctx pipeline COGL_PIPELINE_STATE_POINT_SIZE none
    false
  let c2 ← c1.modify_pipeline pipeline (fun n =>
    { n with big_state := { n.big_state with point_size := point_size } })
  _cogl_pipeline_update_authority 8 c2 pipeline authority COGL_PIPELINE_STATE_POINT_SIZE
    point_size_equal

/-- What the big-state claim reads of a pipeline: `differences &
COGL_PIPELINE_STATE_NEEDS_BIG_STATE` and `has_big_state`. -/
def big_state_status (ctx : CoglContext) (pipeline : Nat) : Option (Nat × Bool) :=
  (ctx.pipeline pipeline).map (fun n =>
    (n.differences &&& COGL_PIPELINE_STATE_NEEDS_BIG_STATE, n.has_big_state))

/-- The context after `_cogl_pipeline_layer_pre_change_notify (p, layer, FILTERS)`
for the layer of index 7 and `_cogl_pipeline_prune_to_n_layers (p, 1)` on
`scenario_inherited`: the pipeline `p` (2), a copy of `a` (1), asserts `LAYERS` with
`n_layers` 1, it owns one layer, the one derived from the layer of index 7 on unit
1, and its one effective layer is the layer of index 5 that `a` owns. -/
def scenario_own_second_layer : CoglContext :=
  ((do
    let (c1, _) ← _cogl_pipeline_layer_pre_change_notify 8 scenario_inherited (some 2) 4
      COGL_PIPELINE_LAYER_STATE_FILTERS
    _cogl_pipeline_prune_to_n_layers 8 c1 2 1) : Option CoglContext).getD scenario_inherited

/-- The slots of the layers cache of a pipeline after
`_cogl_pipeline_update_layers_cache`, each layer as its layer index. -/
def layers_cache_indices (fuel : Nat) (ctx : CoglContext) (pipeline : Nat) :
    Option (List (Option Int)) := do
  let c1 ← _cogl_pipeline_update_layers_cache fuel ctx pipeline
  let node ← c1.pipeline pipeline
  pure ((node.layers_cache.take node.n_layers).map
    (fun slot => slot.bind (fun layer => (c1.layer layer).map (fun l => l.index))))

/-- The state `scenario_pruned` when the block that `g_slice_new (CoglPipeline)`
hands out next still holds, in `layer_differences`, a pointer to a list with the
layer of index 5 (layer 3), which `a` (1) owns and lists. -/
def scenario_pruned_recycled : CoglContext :=
  { scenario_pruned with
    slice_pipeline := { scenario_pruned.slice_pipeline with layer_differences := [3] } }

/-- The pipelines that assert `LAYERS` and list the layer in `layer_differences`. -/
def pipelines_listing (ctx : CoglContext) (layer : Nat) : List Nat :=
  (List.range ctx.pipelines.length).filter (fun p =>
    match ctx.pipeline p with
    | some node =>
      decide (node.differences &&& COGL_PIPELINE_STATE_LAYERS ≠ 0) &&
        decide (layer ∈ node.layer_differences)
    | none => false)

/-- The context after `_cogl_pipeline_pre_change_notify (p, COLOR, NULL, FALSE)` on
`scenario_pruned_recycled`: the copy-on-write snapshot of `p` (2) is pipeline 4. -/
def scenario_pruned_recycled_changed : CoglContext :=
  (_cogl_pipeline_pre_change_notify 8 scenario_pruned_recycled 2 COGL_PIPELINE_STATE_COLOR none
    false).getD scenario_pruned_recycled

/-- The pipelines that the loop of `_cogl_pipeline_promote_weak_ancestors` takes a
reference on when it starts at the head of the chain `path`: the parent of each
node of the longest run of weak (`is_weak`) pipelines at the head of the chain. -/
def weak_chain_parents (ctx : CoglContext) : List Nat → List Nat
  | [] => []
  | [_] => []
  | n :: b :: rest =>
    if (ctx.pipeline n).map (fun node => node.is_weak) = some true
    then b :: weak_chain_parents ctx (b :: rest) else []

/-- A pipeline record with `k` references more. -/
def CoglPipeline.add_refs (node : CoglPipeline) (k : Nat) : CoglPipeline :=
  { node with ref_count := node.ref_count + k }

/-- A pipeline record with `k` references less. -/
def CoglPipeline.drop_refs (node : CoglPipeline) (k : Nat) : CoglPipeline :=
  { node with ref_count := node.ref_count - k }

/-- The record of the copy `c` (2) of `scenario_copy`. -/
def scenario_copy_c : CoglPipeline :=
  (scenario_copy.pipeline 2).getD zeroed_pipeline

/-- The record of the default pipeline (0) of `scenario_copy`. -/
def scenario_copy_default : CoglPipeline :=
  (scenario_copy.pipeline 0).getD zeroed_pipeline

/-- The step from `ctx` to `c` left the layer heap as it was. -/
def same_layers (ctx c : CoglContext) : Prop :=
  c.layers = ctx.layers

/-- From `ctx` to `c` no layer is lost, and every layer of `ctx` below `n` keeps its
owner and every child it has. -/
def owners_kept (n : Nat) (ctx c : CoglContext) : Prop :=
  ctx.layers.length ≤ c.layers.length ∧
  ∀ L l, L < n → ctx.layer L = some l →
    ∃ l2, c.layer L = some l2 ∧ l2.owner = l.owner ∧ ∀ x ∈ l.children, x ∈ l2.children

/-- From `ctx` to `c` every layer keeps its state (its record up to the reference
count, the child list and the owner) and every child it has, and every layer for
which `free` does not hold keeps its owner. -/
def layers_held_but (free : Nat → Prop) (ctx c : CoglContext) : Prop :=
  ∀ K k, ctx.layer K = some k →
    ∃ k2, c.layer K = some k2 ∧ k2.core = k.core ∧ (¬ free K → k2.owner = k.owner) ∧
      ∀ x ∈ k.children, x ∈ k2.children

/-- The pipeline `p` of `c` has no children and asserts `LAYERS`. -/
def layers_leaf (c : CoglContext) (p : Nat) : Prop :=
  ∃ n, c.pipeline p = some n ∧ n.children = [] ∧
    n.differences &&& COGL_PIPELINE_STATE_LAYERS ≠ 0

/-- The layer of index 5 of `scenario_inherited` (layer 3): it is owned by `a`
(pipeline 1) and has no children. -/
def scenario_inherited_layer : CoglPipelineLayer :=
  (scenario_inherited.layer 3).getD stale_layer

/-- The pipeline `p` (2) of `scenario_inherited`. -/
def scenario_inherited_p : CoglPipeline :=
  (scenario_inherited.pipeline 2).getD stale_pipeline

/-- The context after `_cogl_pipeline_layer_copy (default_layer_0)` on
`scenario_two_layers`: the new layer is layer 5; it has no owner and no children. -/
def scenario_fresh_layer : CoglContext :=
  ((_cogl_pipeline_layer_copy scenario_two_layers 0).map (fun r => r.1)).getD
    scenario_two_layers

/-- The state of the loop of `_cogl_pipeline_prune_to_n_layers` that unlinks layers,
seen from the context `c0` in which the loop starts: the tree and the layers are
kept, the pipeline `p` has no children, asserts `LAYERS` and holds `n` layers, its
list is `listed` with some layers erased, each of an index above `first`, and its
layers cache is stale or still `cache`. -/
def prune_invariant (c0 c : CoglContext) (p n : Nat) (first : Int) (cache : List (Option Nat))
    (listed : List Nat) : Prop :=
  same_skeleton c0 c ∧ layers_kept_but p c0 c ∧
  ∃ node, c.pipeline p = some node ∧ node.children = [] ∧
    node.differences &&& COGL_PIPELINE_STATE_LAYERS ≠ 0 ∧ node.n_layers = n ∧
    (∃ gone : List Nat, (∀ x ∈ gone, ∀ l, c0.layer x = some l → first < l.index) ∧
      node.layer_differences = gone.foldl List.erase listed) ∧
    (node.layers_cache_dirty = true ∨
      (node.layers_cache_dirty = false ∧ node.layers_cache = cache))

/-- The layers that the pipeline `q` gives to the walk of
`_cogl_pipeline_update_layers_cache`: its `layer_differences` when it asserts
`LAYERS`. -/
def listed_layers (ctx : CoglContext) (q : Nat) : List Nat :=
  match ctx.pipeline q with
  | some cn =>
    if cn.differences &&& COGL_PIPELINE_STATE_LAYERS ≠ 0 then cn.layer_differences else []
  | none => []

/-- The pipeline `a` (1) of `scenario_inherited`, the `LAYERS` authority of `p`. -/
def scenario_inherited_a : CoglPipeline :=
  (scenario_inherited.pipeline 1).getD stale_pipeline

/-- The fields of a pipeline record that hold its sparse state groups: the mask of
the groups it asserts, the color, the blend-enable mode, the big state with its
flag, and the list and the count of its layers. -/
def CoglPipeline.group_state (node : CoglPipeline) :
    Nat × CoglColor × CoglPipelineBlendEnable × CoglPipelineBigState × Bool × List Nat × Nat :=
  (node.differences, node.color, node.blend_enable, node.big_state, node.has_big_state,
    node.layer_differences, node.n_layers)

/-- From `ctx` to `c` no pipeline and no layer is lost, every pipeline of `ctx` other
than `d` keeps the state of its sparse groups, and every layer of `ctx` is the same up
to its reference count, its child list and its owner. -/
def groups_kept_but (d : Nat) (ctx c : CoglContext) : Prop :=
  ctx.pipelines.length ≤ c.pipelines.length ∧ ctx.layers.length ≤ c.layers.length ∧
  (∀ q, q < ctx.pipelines.length → q ≠ d →
    (c.pipeline q).map CoglPipeline.group_state =
      (ctx.pipeline q).map CoglPipeline.group_state) ∧
  (∀ L, L < ctx.layers.length →
    (c.layer L).map CoglPipelineLayer.core = (ctx.layer L).map CoglPipelineLayer.core)

/-- The fields of the big state that hold the state group `change`, as
`_cogl_pipeline_copy_differences` copies them group by group; the other fields are
blanked. -/
def CoglPipelineBigState.stored_group (big : CoglPipelineBigState) (change : Nat) :
    CoglPipelineBigState :=
  if change = COGL_PIPELINE_STATE_LIGHTING then
    { zeroed_big_state with lighting_state := big.lighting_state }
  else if change = COGL_PIPELINE_STATE_ALPHA_FUNC then
    { zeroed_big_state with
      alpha_state := { zeroed_big_state.alpha_state with
                       alpha_func := big.alpha_state.alpha_func } }
  else if change = COGL_PIPELINE_STATE_ALPHA_FUNC_REFERENCE then
    { zeroed_big_state with
      alpha_state := { zeroed_big_state.alpha_state with
                       alpha_func_reference := big.alpha_state.alpha_func_reference } }
  else if change = COGL_PIPELINE_STATE_BLEND then
    { zeroed_big_state with blend_state := big.blend_state }
  else if change = COGL_PIPELINE_STATE_USER_SHADER then
    { zeroed_big_state with user_program := big.user_program }
  else if change = COGL_PIPELINE_STATE_DEPTH then
    { zeroed_big_state with depth_state := big.depth_state }
  else if change = COGL_PIPELINE_STATE_FOG then
    { zeroed_big_state with fog_state := big.fog_state }
  else if change = COGL_PIPELINE_STATE_POINT_SIZE then
    { zeroed_big_state with point_size := big.point_size }
  else if change = COGL_PIPELINE_STATE_LOGIC_OPS then
    { zeroed_big_state with logic_ops_state := big.logic_ops_state }
  else if change = COGL_PIPELINE_STATE_CULL_FACE then
    { zeroed_big_state with cull_face_state := big.cull_face_state }
  else zeroed_big_state

/-- The fields of a pipeline record that hold the state group `change`: the color,
the blend-enable mode, the count and the list of the layers, or the part of the big
state that `change` names; the rest of the record is blanked. -/
def CoglPipeline.stored_group (node : CoglPipeline) (change : Nat) : CoglPipeline :=
  if change = COGL_PIPELINE_STATE_COLOR then { zeroed_pipeline with color := node.color }
  else if change = COGL_PIPELINE_STATE_BLEND_ENABLE then
    { zeroed_pipeline with blend_enable := node.blend_enable }
  else if change = COGL_PIPELINE_STATE_LAYERS then
    { zeroed_pipeline with n_layers := node.n_layers,
                           layer_differences := node.layer_differences }
  else { zeroed_pipeline with big_state := node.big_state.stored_group change }

/-- The thirteen sparse state groups, one bit each. -/
def sparse_state_groups : List Nat :=
  (List.range COGL_PIPELINE_STATE_SPARSE_COUNT).map (fun i => 1 <<< i)

/-- The default pipeline (0) of `scenario_inherited`. -/
def scenario_inherited_root : CoglPipeline :=
  (scenario_inherited.pipeline 0).getD stale_pipeline

/-- The pipeline `p` (1) of `scenario_copy`. -/
def scenario_copy_p : CoglPipeline :=
  (scenario_copy.pipeline 1).getD stale_pipeline

/-- The context after `cogl_pipeline_set_color (p, red)` on `scenario_new`. -/
def scenario_new_red : CoglContext :=
  (cogl_pipeline_set_color 8 scenario_new 1 (cogl_color_init_from_4ub 0xff 0 0 0xff)).getD
    scenario_new

/-- The context after `cogl_pipeline_set_color (p, white)` on `scenario_new_red`,
when the call returns. -/
def scenario_new_red_white : Option CoglContext :=
  cogl_pipeline_set_color 8 scenario_new_red 1 (cogl_color_init_from_4ub 0xff 0xff 0xff 0xff)

/-- The context inside `cogl_pipeline_set_color (p, white)` on `scenario_new_red`, at
the call of `_cogl_pipeline_update_authority`: the color white is written to `p`,
which still asserts `COLOR`. -/
def scenario_new_white_written : CoglContext :=
  ((do
    let white := cogl_color_init_from_4ub 0xff 0xff 0xff 0xff
    let c1 ← _cogl_pipeline_pre_change_notify 8 scenario_new_red 1 COGL_PIPELINE_STATE_COLOR
      (some white) false
    let c2 ← c1.modify_pipeline 1 (fun n => { n with color := white })
    _cogl_pipeline_update_blend_enable 8 c2 1 COGL_PIPELINE_STATE_COLOR) :
    Option CoglContext).getD scenario_new_red

/-- The record of `p` (1) in `scenario_new_white_written`. -/
def scenario_new_white_written_p : CoglPipeline :=
  (scenario_new_white_written.pipeline 1).getD stale_pipeline

/-- The record of the default pipeline (0) in `scenario_new_white_written`. -/
def scenario_new_white_written_root : CoglPipeline :=
  (scenario_new_white_written.pipeline 0).getD stale_pipeline

/-- The context after `_cogl_pipeline_pre_change_notify (p, LAYERS, NULL, FALSE)` on
`scenario_inherited`: `p` (2), the child of `a` (1), asserts `LAYERS` with the two
layers of `a`, and its layers cache is stale. -/
def scenario_layers_taken : CoglContext :=
  (_cogl_pipeline_pre_change_notify 8 scenario_inherited 2 COGL_PIPELINE_STATE_LAYERS none
    false).getD scenario_inherited

/-- The context after `_cogl_pipeline_update_layers_cache (p)` on
`scenario_layers_taken`. -/
def scenario_cache_filled : CoglContext :=
  (_cogl_pipeline_update_layers_cache 8 scenario_layers_taken 2).getD scenario_layers_taken

/-- For each pipeline of the context: its parent, its child list, whether it asserts
`LAYERS`, its `n_layers` and its `layers_cache_dirty` flag. -/
def layers_cache_flags (ctx : CoglContext) :
    List (Option Nat × List Nat × Bool × Nat × Bool) :=
  ctx.pipelines.map (fun n =>
    (n.parent, n.children, decide (n.differences &&& COGL_PIPELINE_STATE_LAYERS ≠ 0),
      n.n_layers, n.layers_cache_dirty))

/-- The context after a new blend function is written to `q` (2) on `scenario_pair`
by the steps of a setter of the group `BLEND`
(`_cogl_pipeline_pre_change_notify (q, BLEND)`, the write of the source factor
`GL_SRC_ALPHA`, `_cogl_pipeline_update_authority`,
`_cogl_pipeline_update_blend_enable`), the blend enable of `q` is set to `DISABLED`
and the color of `p` (1) is set to a half-transparent white: `p` blends and resolves
the default blend state, `q` does not blend and holds another blend function. -/
def scenario_blend_asymmetric : CoglContext :=
  ((do
    let c1 ← _cogl_pipeline_pre_change_notify 8 scenario_pair 2 COGL_PIPELINE_STATE_BLEND none
      false
    let node ← c1.pipeline 2
    let blend_state : CoglPipelineBlendState :=
      { node.big_state.blend_state with blend_src_factor_rgb := GL_SRC_ALPHA }
    let c2 := c1.set_pipeline 2
      { node with big_state := { node.big_state with blend_state := blend_state } }
    let c3 ← _cogl_pipeline_update_authority 8 c2 2 0 COGL_PIPELINE_STATE_BLEND
      (fun a0 a1 => decide (a0.big_state.blend_state = a1.big_state.blend_state))
    let c4 ← _cogl_pipeline_update_blend_enable 8 c3 2 COGL_PIPELINE_STATE_BLEND
    let c5 ← _cogl_pipeline_set_blend_enabled 8 c4 2
      CoglPipelineBlendEnable.COGL_PIPELINE_BLEND_ENABLE_DISABLED
    cogl_pipeline_set_color 8 c5 1 (cogl_color_init_from_4ub 0xff 0xff 0xff 0x80)) :
    Option CoglContext).getD scenario_pair

/-- The record of the default pipeline (0) in `scenario_blend_asymmetric`: the
`BLEND` authority of `p`. -/
def scenario_blend_asymmetric_root : CoglPipeline :=
  (scenario_blend_asymmetric.pipeline 0).getD stale_pipeline

/-- The record of `q` (2) in `scenario_blend_asymmetric`, its own `BLEND`
authority. -/
def scenario_blend_asymmetric_q : CoglPipeline :=
  (scenario_blend_asymmetric.pipeline 2).getD stale_pipeline

/-- The record of `p` (1) in `scenario_blend_asymmetric`. -/
def scenario_blend_asymmetric_p : CoglPipeline :=
  (scenario_blend_asymmetric.pipeline 1).getD stale_pipeline

/-! ## Bitmasks (cogl-bitmask.c) -/

/-- The number of bits of an `unsigned int`, `sizeof (unsigned int) * 8`. -/
def UINT_BITS : Nat := 32

/-- The `unsigned int` value `~(unsigned int) 0`. -/
def UINT_MAX : Nat := 2 ^ 32 - 1

/-- A `CoglBitmask`: the pointer-sized value is either used directly, read with
`GPOINTER_TO_UINT` as an `unsigned int` whose lowest bit is the tag, or it points to
a `GArray` of `unsigned int` words. -/
inductive CoglBitmask where
  | direct (value : Nat)
  | array (words : List Nat)
deriving DecidableEq, Repr

/-- Modelled from the spec: the macro `_cogl_bitmask_has_array` of cogl-bitmask.h,
which is not among the sources (the specification leaves the bitmask utilities out).
The convention is the one cogl-bitmask.c relies on: a value used directly has its
lowest bit set (`GPOINTER_TO_UINT (*bitmask) >> 1` drops it, `| 1` restores it), a
pointer to an array has it clear. -/
def _cogl_bitmask_has_array : CoglBitmask → Bool
  | CoglBitmask.direct value => decide (value &&& 1 = 0)
  | CoglBitmask.array _ => true

/-- The bitmask is well formed: a direct value is an `unsigned int` with the tag bit
set; an array holds `unsigned int` words and has at least the word that
`_cogl_bitmask_convert_to_array` gives it. -/
def CoglBitmask.valid : CoglBitmask → Prop
  | CoglBitmask.direct value => value < 2 ^ 32 ∧ value &&& 1 = 1
  | CoglBitmask.array words => words ≠ [] ∧ ∀ w ∈ words, w < 2 ^ 32

instance (bitmask : CoglBitmask) : Decidable bitmask.valid := by
  cases bitmask <;> unfold CoglBitmask.valid <;> exact inferInstance

/-- The glib function `g_array_set_size` on an array made with `clear_` set: new
words are zero. -/
def g_array_set_size (array : List Nat) (length : Nat) : List Nat :=
  if length ≤ array.length then array.take length
  else array ++ List.replicate (length - array.length) 0

/-- The function `_cogl_bitmask_get_from_array`. The cast `(GArray *) *bitmask` of a
value that is used directly does not return. -/
def _cogl_bitmask_get_from_array (bitmask : CoglBitmask) (bit_num : Nat) : Option Bool :=
  match bitmask with
  | CoglBitmask.direct _ => none
  | CoglBitmask.array array =>
    if bit_num ≥ UINT_BITS * array.length then some false
    else
      (array[bit_num / UINT_BITS]?).map
        (fun word => decide (word &&& (1 <<< (bit_num % UINT_BITS)) ≠ 0))

/-- Modelled from the spec: the inline function `_cogl_bitmask_get` of
cogl-bitmask.h, which is not among the sources: `_cogl_bitmask_get_from_array` for an
array; for a direct value the bits above `COGL_BITMASK_MAX_DIRECT_BITS`
(`sizeof (unsigned int) * 8 - 1`) are clear and bit `bit_num` is held next to the
tag, at `1 << (bit_num + 1)`, as `_cogl_bitmask_convert_to_array` reads them. -/
def _cogl_bitmask_get (bitmask : CoglBitmask) (bit_num : Nat) : Option Bool :=
  if _cogl_bitmask_has_array bitmask then _cogl_bitmask_get_from_array bitmask bit_num
  else
    match bitmask with
    | CoglBitmask.direct value =>
      if bit_num ≥ UINT_BITS - 1 then some false
      else some (decide (value &&& (1 <<< (bit_num + 1)) ≠ 0))
    | CoglBitmask.array _ => none

/-- The function `_cogl_bitmask_convert_to_array`, called on a value that is used
directly. -/
def _cogl_bitmask_convert_to_array : CoglBitmask → Option CoglBitmask
  | CoglBitmask.direct value => some (CoglBitmask.array [value >>> 1])
  | CoglBitmask.array _ => none

/-- The head of the three functions that write to the array: `if
(!_cogl_bitmask_has_array (bitmask)) _cogl_bitmask_convert_to_array (bitmask); array
= (GArray *) *bitmask;`. -/
def bitmask_array (bitmask : CoglBitmask) : Option (List Nat) := do
  let converted ←
    (if !_cogl_bitmask_has_array bitmask then _cogl_bitmask_convert_to_array bitmask
     else some bitmask)
  match converted with
  | CoglBitmask.direct _ => none
  | CoglBitmask.array array => some array

/-- The function `_cogl_bitmask_set_in_array`; `~new_value_mask` is the complement
of an `unsigned int`. -/
def _cogl_bitmask_set_in_array (bitmask : CoglBitmask) (bit_num : Nat) (value : Bool) :
    Option CoglBitmask := do
  let array ← bitmask_array bitmask
  let array_index := bit_num / UINT_BITS
  let array :=
    if array_index ≥ array.length then g_array_set_size array (array_index + 1) else array
  let new_value_mask := 1 <<< (bit_num % UINT_BITS)
  let word ← array[array_index]?
  if value then pure (CoglBitmask.array (array.set array_index (word ||| new_value_mask)))
  else
    pure (CoglBitmask.array (array.set array_index (word &&& (UINT_MAX ^^^ new_value_mask))))

/-- The loop `for (i = 0; i < src_array->len; i++) g_array_index (dst_array, i) op=
g_array_index (src_array, i);` of `_cogl_bitmask_set_bits` and
`_cogl_bitmask_xor_bits`. -/
def bitmask_combine_loop (op : Nat → Nat → Nat) (src_array : List Nat)
    (dst_array : List Nat) : Option (List Nat) :=
  (List.range src_array.length).foldlM
    (fun dst i => do
      let d ← dst[i]?
      let s ← src_array[i]?
      pure (dst.set i (op d s))) dst_array

/-- The text shared by `_cogl_bitmask_set_bits` (`|=`) and `_cogl_bitmask_xor_bits`
(`^=`) for a source or a destination that is an array; `direct` is what the last
branch, for two direct values, stores. -/
def bitmask_combine (op : Nat → Nat → Nat) (direct : Nat → Nat → Nat)
    (dst src : CoglBitmask) : Option CoglBitmask :=
  if _cogl_bitmask_has_array src then
    match src with
    | CoglBitmask.direct _ => none
    | CoglBitmask.array src_array => do
      let dst_array ← bitmask_array dst
      let dst_array :=
        if dst_array.length < src_array.length
        then g_array_set_size dst_array src_array.length else dst_array
      let combined ← bitmask_combine_loop op src_array dst_array
      pure (CoglBitmask.array combined)
  else if _cogl_bitmask_has_array dst then
    match dst, src with
    | CoglBitmask.array dst_array, CoglBitmask.direct src_value => do
      let word ← dst_array[0]?
      pure (CoglBitmask.array (dst_array.set 0 (op word (src_value >>> 1))))
    | _, _ => none
  else
    match dst, src with
    | CoglBitmask.direct dst_value, CoglBitmask.direct src_value =>
      some (CoglBitmask.direct (direct dst_value src_value))
    | _, _ => none

/-- The function `_cogl_bitmask_set_bits`: `|=` on the words, and
`GPOINTER_TO_UINT (*dst) | GPOINTER_TO_UINT (*src)` for two direct values. -/
def _cogl_bitmask_set_bits (dst src : CoglBitmask) : Option CoglBitmask :=
  bitmask_combine (fun d s => d ||| s) (fun d s => d ||| s) dst src

/-- The function `_cogl_bitmask_xor_bits`: `^=` on the words, and
`(GPOINTER_TO_UINT (*dst) ^ GPOINTER_TO_UINT (*src)) | 1` for two direct values. -/
def _cogl_bitmask_xor_bits (dst src : CoglBitmask) : Option CoglBitmask :=
  bitmask_combine (fun d s => d ^^^ s) (fun d s => (d ^^^ s) ||| 1) dst src

/-- The function `_cogl_bitmask_set_range_in_array`. The two `memset` calls write
the words below `array_index`; `~(unsigned int) 0 >> n` and `~(unsigned int) 1 <<
n` are `unsigned int` values. -/
def _cogl_bitmask_set_range_in_array (bitmask : CoglBitmask) (n_bits : Nat) (value : Bool) :
    Option CoglBitmask :=
  if n_bits = 0 then some bitmask
  else do
    let array ← bitmask_array bitmask
    let array_index := (n_bits - 1) / UINT_BITS
    let bit_index := (n_bits - 1) % UINT_BITS
    let array :=
      if array_index ≥ array.length then g_array_set_size array (array_index + 1) else array
    let word ← array[array_index]?
    if value then
      let array := array.set array_index (word ||| (UINT_MAX >>> (UINT_BITS - 1 - bit_index)))
      pure (CoglBitmask.array (List.replicate array_index UINT_MAX ++ array.drop array_index))
    else
      let array :=
        array.set array_index (word &&& (((UINT_MAX ^^^ 1) <<< bit_index) % 2 ^ 32))
      pure (CoglBitmask.array (List.replicate array_index 0 ++ array.drop array_index))

/-- Bit `bit_num` of an array of `unsigned int` words; a word past the end is
zero. -/
def bitmask_word_bit (array : List Nat) (bit_num : Nat) : Bool :=
  (array.getD (bit_num / UINT_BITS) 0).testBit (bit_num % UINT_BITS)

/-- From `ctx` to `c` no layer is lost and every layer keeps its parent. -/
def parents_held (ctx c : CoglContext) : Prop :=
  ∀ K k, ctx.layer K = some k → ∃ k2, c.layer K = some k2 ∧ k2.parent = k.parent

/-- The default layers are as `_cogl_pipeline_init_default_layers` leaves them:
default layer 0 is a root that asserts every sparse layer group and holds unit index
0, default layer n is a child of default layer 0 whose unit index resolves to 1
(with `fuel` steps of the authority walk), and the dummy dependant is a child of
default layer n. -/
def default_layers_ready (fuel : Nat) (c : CoglContext) : Prop :=
  (c.layer c.default_layer_0).map (fun l0 => (l0.parent, l0.differences, l0.unit_index)) =
    some (none, COGL_PIPELINE_LAYER_STATE_ALL_SPARSE, 0) ∧
  (c.layer c.default_layer_0).map (fun l0 => decide (c.default_layer_n ∈ l0.children)) =
    some true ∧
  (c.layer c.default_layer_n).map (fun ln => ln.parent) = some (some c.default_layer_0) ∧
  _cogl_pipeline_layer_get_unit_index c fuel c.default_layer_n = some 1 ∧
  (c.layer c.default_layer_n).map (fun ln => decide (c.dummy_layer_dependant ∈ ln.children)) =
    some true

instance (fuel : Nat) (c : CoglContext) : Decidable (default_layers_ready fuel c) := by
  unfold default_layers_ready
  exact inferInstance

/-- The layer `X` of `c` hangs below default layer `d0`: `d0` is a root, the parent
of `dn` is `d0`, and the parent of `X` is `d0` or `dn`. -/
def under_defaults (c : CoglContext) (d0 dn X : Nat) : Prop :=
  ∃ rn l0 ln, c.layer X = some rn ∧ c.layer d0 = some l0 ∧ l0.parent = none ∧
    c.layer dn = some ln ∧ ln.parent = some d0 ∧
    (rn.parent = some d0 ∨ rn.parent = some dn)

/-- The context after `_cogl_pipeline_get_layer (p, 5)` on `scenario_new`: the layer
made is layer 3, a child of default layer 0. -/
def scenario_one_layer : CoglContext :=
  ((_cogl_pipeline_get_layer 8 scenario_new 1 5).map (fun r => r.1)).getD scenario_new

/-- The context `scenario_pair` of a program run with the debug option
`COGL_DEBUG_DISABLE_BLENDING`, after an explicit `ENABLED` is written to `q` (2) by
the steps of a setter of the group `BLEND_ENABLE`
(`_cogl_pipeline_pre_change_notify (q, BLEND_ENABLE)`, the write,
`_cogl_pipeline_update_authority`, `_cogl_pipeline_update_blend_enable`): `q` is the
`BLEND_ENABLE` authority of itself and holds `ENABLED`. -/
def scenario_debug_enabled : CoglContext :=
  ((do
    let c0 : CoglContext := { scenario_pair with debug_disable_blending := true }
    let c1 ← _cogl_pipeline_pre_change_notify 8 c0 2 COGL_PIPELINE_STATE_BLEND_ENABLE none false
    let c2 ← c1.modify_pipeline 2 (fun n =>
      { n with blend_enable := CoglPipelineBlendEnable.COGL_PIPELINE_BLEND_ENABLE_ENABLED })
    let c3 ← _cogl_pipeline_update_authority 8 c2 2 0 COGL_PIPELINE_STATE_BLEND_ENABLE
      (fun a0 a1 => decide (a0.blend_enable = a1.blend_enable))
    _cogl_pipeline_update_blend_enable 8 c3 2 COGL_PIPELINE_STATE_BLEND_ENABLE) :
    Option CoglContext).getD scenario_pair

/-- The context `scenario_pair` on the driver `COGL_DRIVER_GLES1`, after a blend
function with the alpha source factor `GL_SRC_ALPHA` is written to `q` (2) by the
steps of a setter of the group `BLEND`
(`_cogl_pipeline_pre_change_notify (q, BLEND)`, the write,
`_cogl_pipeline_update_authority`, `_cogl_pipeline_update_blend_enable`): `q` resolves
`AUTOMATIC`, an opaque color, no user program and no layers. -/
def scenario_gles1_alpha_factor : CoglContext :=
  ((do
    let c0 : CoglContext := { scenario_pair with driver := CoglDriver.COGL_DRIVER_GLES1 }
    let c1 ← _cogl_pipeline_pre_change_notify 8 c0 2 COGL_PIPELINE_STATE_BLEND none false
    let node ← c1.pipeline 2
    let blend_state : CoglPipelineBlendState :=
      { node.big_state.blend_state with blend_src_factor_alpha := GL_SRC_ALPHA }
    let c2 := c1.set_pipeline 2
      { node with big_state := { node.big_state with blend_state := blend_state } }
    let c3 ← _cogl_pipeline_update_authority 8 c2 2 0 COGL_PIPELINE_STATE_BLEND
      (fun a0 a1 => decide (a0.big_state.blend_state = a1.big_state.blend_state))
    _cogl_pipeline_update_blend_enable 8 c3 2 COGL_PIPELINE_STATE_BLEND) :
    Option CoglContext).getD scenario_pair

/-- A change of color in a program run with the debug option
`COGL_DEBUG_DISABLE_BLENDING`: on a new pipeline `p` (1),
`_cogl_pipeline_pre_change_notify (p, COLOR, color, FALSE)`, the write of a white of
alpha 0x80 and `_cogl_pipeline_update_blend_enable (p, COLOR)`. Gives the `COLOR`
authority of `p` afterwards, the alpha byte of its color, and `real_blend_enable` of
`p` before the change and after it. -/
def scenario_alpha_steps_debug : Option (Nat × Nat × List Bool) := do
  let c0 : CoglContext := { scenario_new with debug_disable_blending := true }
  let b0 ← _cogl_pipeline_get_real_blend_enabled c0 1
  let color := cogl_color_init_from_4ub 0xff 0xff 0xff 0x80
  let c1 ← _cogl_pipeline_pre_change_notify 8 c0 1 COGL_PIPELINE_STATE_COLOR (some color) false
  let c2 ← c1.modify_pipeline 1 (fun node => { node with color := color })
  let c3 ← _cogl_pipeline_update_blend_enable 8 c2 1 COGL_PIPELINE_STATE_COLOR
  let b1 ← _cogl_pipeline_get_real_blend_enabled c3 1
  let authority ← _cogl_pipeline_get_authority c3 8 1 COGL_PIPELINE_STATE_COLOR
  let a ← c3.pipeline authority
  pure (authority, cogl_color_get_alpha_byte a.color, [b0, b1])

/-- The context after `_cogl_pipeline_prune_redundant_ancestry (p)` on
`scenario_own_second_layer`: `p` (2) asserts `LAYERS` with `n_layers` 1, lists one
layer, on unit 1, and is a child of the default pipeline. -/
def scenario_reparented_past_layers : CoglContext :=
  (_cogl_pipeline_prune_redundant_ancestry 8 scenario_own_second_layer 2).getD
    scenario_own_second_layer

/-- The context after the owner of `p` drops its reference, `cogl_object_unref (p)`
on `scenario_copy`: `p` (1) has the reference count 1 and is kept alive by its
strong child `c` (2) alone. -/
def scenario_held_by_child : CoglContext :=
  (cogl_object_unref scenario_copy 1).getD scenario_copy

/-- The list `path` is the chain from `x` to the root `root`, the root asserts every
sparse group, and every pipeline of the chain that asserts `LAYERS` has no layers. -/
def rooted_layerless (c : CoglContext) (x : Nat) (path : List Nat) (root : Nat) : Prop :=
  pipeline_path c x path ∧ path.getLast? = some root ∧
  node_asserts_all (pipeline_view c) COGL_PIPELINE_STATE_ALL_SPARSE root ∧
  ∀ m ∈ path, (c.pipeline m).map (fun n => decide (n.differences &&&
    COGL_PIPELINE_STATE_LAYERS ≠ 0 → n.n_layers = 0)) = some true

/-- The context `c2` is `c` up to the record of `dest`, which keeps its differences,
its parent and its child list. -/
def dest_touched (dest : Nat) (d : CoglPipeline) (c c2 : CoglContext) : Prop :=
  (∃ d2, c2.pipeline dest = some d2 ∧ d2.differences = d.differences ∧ d2.parent = d.parent ∧
    d2.children = d.children) ∧
  ∀ q, q ≠ dest → c2.pipeline q = c.pipeline q

/-- The comparator that `_cogl_pipeline_layer_equal` names for the layer state group
of index `i`; the texture comparators get the textures and the flags. The unit has no
comparator. -/
def layer_state_comparitor (fns : CoglPipelineStateFuncs) (textures : List CoglTexture)
    (flags : Nat) (i : Nat) : Option (CoglPipelineLayer → CoglPipelineLayer → Bool) :=
  if i = COGL_PIPELINE_LAYER_STATE_TEXTURE_TARGET_INDEX then
    some (fun a0 a1 => fns.layer_texture_target_equal textures a0 a1 flags)
  else if i = COGL_PIPELINE_LAYER_STATE_TEXTURE_DATA_INDEX then
    some (fun a0 a1 => fns.layer_texture_data_equal textures a0 a1 flags)
  else if i = COGL_PIPELINE_LAYER_STATE_COMBINE_INDEX then some fns.layer_combine_state_equal
  else if i = COGL_PIPELINE_LAYER_STATE_COMBINE_CONSTANT_INDEX then
    some fns.layer_combine_constant_equal
  else if i = COGL_PIPELINE_LAYER_STATE_FILTERS_INDEX then some fns.layer_filters_equal
  else if i = COGL_PIPELINE_LAYER_STATE_WRAP_MODES_INDEX then some fns.layer_wrap_modes_equal
  else if i = COGL_PIPELINE_LAYER_STATE_USER_MATRIX_INDEX then some fns.layer_user_matrix_equal
  else if i = COGL_PIPELINE_LAYER_STATE_POINT_SPRITE_COORDS_INDEX then
    some fns.layer_point_sprite_coords_equal
  else none

/-- Two arrays of layer authority records that a comparison of layers under
`layer_mask` does not tell apart: for every group of the mask the two entries are one
record, or the group is the unit and the two unit indices are the same, or the
comparator of the group accepts the two entries. -/
def layer_authorities_alike (fns : CoglPipelineStateFuncs) (textures : List CoglTexture)
    (layer_mask flags : Nat) (records0 records1 : List (Option CoglPipelineLayer)) : Prop :=
  ∀ j, j < COGL_PIPELINE_LAYER_STATE_COUNT → layer_mask &&& (1 <<< j) ≠ 0 →
    ∃ x y, records0[j]? = some (some x) ∧ records1[j]? = some (some y) ∧
      (x = y ∨ (j = COGL_PIPELINE_LAYER_STATE_UNIT_INDEX ∧ x.unit_index = y.unit_index) ∨
        ∃ cmp, layer_state_comparitor fns textures flags j = some cmp ∧ cmp x y = true)

/-- The layer `layer` has a chain to the layer `lroot` that is walked within the
fuel. -/
def layer_rooted (ctx : CoglContext) (fuel layer lroot : Nat) : Prop :=
  ∃ path, layer_path ctx layer path ∧ path.getLast? = some lroot ∧ path.length ≤ fuel

/-- The layers of the pipeline `a` are in order. When the layers cache of `a` is
stale, the chain from `a` to the root lists a layer for every unit below `n_layers`
and every layer it lists resolves its unit index; when the cache is valid, its slot
`u` holds a layer of unit index `u`, for every unit below `n_layers`. Each of these
layers has a chain to the layer `lroot`. -/
def layers_in_order (ctx : CoglContext) (fuel f0 a lroot : Nat) : Prop :=
  ∃ node path, ctx.pipeline a = some node ∧ pipeline_path ctx a path ∧
    path.length + f0 ≤ fuel ∧
    (node.layers_cache_dirty = true →
      (∀ L ∈ layers_on_path ctx path,
        (_cogl_pipeline_layer_get_unit_index ctx f0 L).isSome = true ∧
          layer_rooted ctx fuel L lroot) ∧
      ∀ u, u < node.n_layers → ∃ L ∈ layers_on_path ctx path, unit_of ctx f0 L = u) ∧
    (node.layers_cache_dirty = false →
      ∀ u, u < node.n_layers → ∃ L, node.layers_cache[u]? = some (some L) ∧
        _cogl_pipeline_layer_get_unit_index ctx f0 L = some u ∧ layer_rooted ctx fuel L lroot)

/-- The context after the default pipeline and layers are made, `a =
cogl_pipeline_new ()` (pipeline 1), `b = cogl_pipeline_new ()` (pipeline 2), and the
layer of index 0 is made on `a` and on `b` by `_cogl_pipeline_get_layer` (layers 3 and
4, both of texture unit 0). -/
def scenario_layer_pair : CoglContext :=
  let base := context_new stale_pipeline_with_layer stale_layer stale_big_state
    zeroed_layer_big_state
  ((do
    let c0 ← _cogl_pipeline_init_default_layers 8 (_cogl_pipeline_init_default_pipeline base)
    let (c1, a) ← cogl_pipeline_new 8 c0
    let (c2, b) ← cogl_pipeline_new 8 c1
    let (c3, _) ← _cogl_pipeline_get_layer 8 c2 a 0
    let (c4, _) ← _cogl_pipeline_get_layer 8 c3 b 0
    pure c4) : Option CoglContext).getD base

/-! # Properties -/

/-! ## Authority resolution -/

theorem pipeline_get_authority_eq (ctx : CoglContext) (fuel p g : Nat) :
    _cogl_pipeline_get_authority ctx fuel p g = node_get_authority (pipeline_view ctx) fuel p g := by
  induction fuel generalizing p with
  | zero => rfl
  | succ k ih =>
    simp only [_cogl_pipeline_get_authority, node_get_authority, pipeline_view]
    cases h : ctx.pipeline p with
    | none => simp
    | some node =>
      simp only [Option.map_some']
      split
      · rfl
      · cases hp : node.parent with
        | none => simp
        | some q => simp [ih]

theorem layer_get_authority_eq (ctx : CoglContext) (fuel l g : Nat) :
    _cogl_pipeline_layer_get_authority ctx fuel l g =
      node_get_authority (layer_view ctx) fuel l g := by
  induction fuel generalizing l with
  | zero => rfl
  | succ k ih =>
    simp only [_cogl_pipeline_layer_get_authority, node_get_authority, layer_view]
    cases h : ctx.layer l with
    | none => simp
    | some node =>
      simp only [Option.map_some']
      split
      · rfl
      · cases hp : node.parent with
        | none => simp
        | some q => simp [ih]

theorem node_path_head {view : Nat → Option NodeView} {n : Nat} {path : List Nat}
    (h : node_path view n path) : ∃ rest, path = n :: rest := by
  match path, h with
  | [r], h => exact ⟨[], by rw [h.1]⟩
  | a :: b :: rest, h => exact ⟨b :: rest, by rw [h.1]⟩

theorem node_get_authority_nearest (view : Nat → Option NodeView) (g : Nat) :
    ∀ (path : List Nat) (n fuel : Nat), node_path view n path →
      (∃ a ∈ path, node_asserts view g a) → path.length ≤ fuel →
      ∃ a, node_get_authority view fuel n g = some a ∧ nearest_asserting view g path a := by
  intro path
  induction path with
  | nil => intro n fuel h; exact absurd h (by simp [node_path])
  | cons x rest ih =>
    intro n fuel hpath hex hfuel
    obtain ⟨k, rfl⟩ : ∃ k, fuel = k + 1 := ⟨fuel - 1, by simp at hfuel; omega⟩
    have hx : x = n := by
      obtain ⟨r, hr⟩ := node_path_head hpath
      exact (List.cons.inj hr).1
    subst hx
    by_cases hass : node_asserts view g x
    · refine ⟨x, ?_, [], rest, rfl, by simp, hass⟩
      unfold node_asserts at hass
      cases hv : view x with
      | none => simp [hv] at hass
      | some v =>
        simp [hv] at hass
        simp [node_get_authority, hv, hass]
    · cases rest with
      | nil =>
        obtain ⟨a, ha, hasa⟩ := hex
        simp at ha
        subst ha
        exact absurd hasa hass
      | cons b rest2 =>
        simp only [node_path] at hpath
        obtain ⟨-, hpar, htail⟩ := hpath
        have hex2 : ∃ a ∈ b :: rest2, node_asserts view g a := by
          obtain ⟨a, ha, hasa⟩ := hex
          rcases List.mem_cons.mp ha with h | h
          · subst h; exact absurd hasa hass
          · exact ⟨a, h, hasa⟩
        obtain ⟨a, hget, pre, post, hsplit, hpre, ha⟩ :=
          ih b k htail hex2 (by simp at hfuel ⊢; omega)
        refine ⟨a, ?_, x :: pre, post, by rw [hsplit]; rfl, ?_, ha⟩
        · cases hv : view x with
          | none => simp [hv] at hpar
          | some v =>
            simp [hv] at hpar
            have hno : ¬ (v.differences &&& g ≠ 0) := by
              intro hne
              apply hass
              simp [node_asserts, hv, hne]
            simp only [node_get_authority, hv]
            rw [if_neg hno, hpar]
            exact hget
        · intro m hm
          rcases List.mem_cons.mp hm with h | h
          · subst h; exact hass
          · exact hpre m h

theorem node_asserts_of_all {view : Nat → Option NodeView} {mask g n : Nat}
    (hall : node_asserts_all view mask n) (hg : g ≠ 0) (hsub : g &&& mask = g) :
    node_asserts view g n := by
  unfold node_asserts_all at hall
  unfold node_asserts
  cases hv : view n with
  | none => simp [hv] at hall
  | some v =>
    simp [hv] at hall
    simp only [Option.map_some', Option.some.injEq, decide_eq_true_eq]
    intro hzero
    apply hg
    calc g = g &&& mask := hsub.symm
      _ = g &&& (v.differences &&& mask) := by rw [hall]
      _ = (v.differences &&& g) &&& mask := by
          rw [← Nat.land_assoc, Nat.land_comm g v.differences]
      _ = 0 := by rw [hzero]; simp

theorem node_authority_of_rooted (view : Nat → Option NodeView) (mask g n root fuel : Nat)
    (path : List Nat) (hpath : node_path view n path) (hlast : path.getLast? = some root)
    (hroot : node_asserts_all view mask root) (hg : g ≠ 0) (hsub : g &&& mask = g)
    (hfuel : path.length ≤ fuel) :
    ∃ a, node_get_authority view fuel n g = some a ∧ nearest_asserting view g path a ∧
      ((∀ m ∈ path.dropLast, ¬ node_asserts view g m) → a = root) := by
  have hrootin : root ∈ path := List.mem_of_getLast?_eq_some hlast
  have hra := node_asserts_of_all hroot hg hsub
  obtain ⟨a, hget, hnear⟩ :=
    node_get_authority_nearest view g path n fuel hpath ⟨root, hrootin, hra⟩ hfuel
  refine ⟨a, hget, hnear, ?_⟩
  intro hnone
  obtain ⟨pre, post, hsplit, hpre, ha⟩ := hnear
  cases post with
  | nil =>
    rw [hsplit, List.getLast?_append] at hlast
    simpa using hlast
  | cons b post2 =>
    exfalso
    apply hnone a _ ha
    rw [hsplit, List.dropLast_append_cons]
    simp

/-- C1: in a tree whose root asserts every sparse group, the authority walk from a
node returns, for every sparse group `g` and any fuel not below the length of the
path to the root, the nearest node on the path `p, parent (p), ..., root` whose
`differences` contains `g`, and that is the root when no nearer node asserts `g`.
This holds for the pipeline walk, for `_cogl_pipeline_layer_get_authority` on the
layer tree, and `_cogl_pipeline_layer_get_unit_index` returns the `unit_index`
stored on the nearest authority of the UNIT group. -/
theorem authority_walk_returns_nearest (ctx : CoglContext) (fuel : Nat)
    (p g proot : Nat) (ppath : List Nat) (l lg lroot : Nat) (lpath : List Nat)
    (hppath : pipeline_path ctx p ppath) (hplast : ppath.getLast? = some proot)
    (hproot : node_asserts_all (pipeline_view ctx) COGL_PIPELINE_STATE_ALL_SPARSE proot)
    (hg : g ≠ 0) (hgsparse : g &&& COGL_PIPELINE_STATE_ALL_SPARSE = g)
    (hlpath : layer_path ctx l lpath) (hllast : lpath.getLast? = some lroot)
    (hlroot : node_asserts_all (layer_view ctx) COGL_PIPELINE_LAYER_STATE_ALL_SPARSE lroot)
    (hlg : lg ≠ 0) (hlgsparse : lg &&& COGL_PIPELINE_LAYER_STATE_ALL_SPARSE = lg)
    (hpfuel : ppath.length ≤ fuel) (hlfuel : lpath.length ≤ fuel) :
    (∃ a, _cogl_pipeline_get_authority ctx fuel p g = some a ∧
        nearest_asserting (pipeline_view ctx) g ppath a ∧
        ((∀ m ∈ ppath.dropLast, ¬ pipeline_asserts ctx g m) → a = proot)) ∧
    (∃ a, _cogl_pipeline_layer_get_authority ctx fuel l lg = some a ∧
        nearest_asserting (layer_view ctx) lg lpath a ∧
        ((∀ m ∈ lpath.dropLast, ¬ layer_asserts ctx lg m) → a = lroot)) ∧
    (∃ a node, nearest_asserting (layer_view ctx) COGL_PIPELINE_LAYER_STATE_UNIT lpath a ∧
        ctx.layer a = some node ∧
        _cogl_pipeline_layer_get_unit_index ctx fuel l = some node.unit_index) := by
  refine ⟨?_, ?_, ?_⟩
  · rw [pipeline_get_authority_eq]
    exact node_authority_of_rooted _ _ g p proot fuel ppath hppath hplast hproot hg hgsparse hpfuel
  · rw [layer_get_authority_eq]
    exact node_authority_of_rooted _ _ lg l lroot fuel lpath hlpath hllast hlroot hlg hlgsparse
      hlfuel
  · obtain ⟨a, hget, hnear, -⟩ :=
      node_authority_of_rooted (layer_view ctx) _ COGL_PIPELINE_LAYER_STATE_UNIT l lroot fuel
        lpath hlpath hllast hlroot (by decide) (by decide) hlfuel
    have hnear2 := hnear
    obtain ⟨pre, post, -, -, ha⟩ := hnear
    unfold node_asserts layer_view at ha
    cases hnode : ctx.layer a with
    | none => simp [hnode] at ha
    | some node =>
      refine ⟨a, node, hnear2, hnode, ?_⟩
      unfold _cogl_pipeline_layer_get_unit_index
      rw [layer_get_authority_eq, hget]
      simp [hnode]

theorem authority_walk_returns_nearest_witness :
    (∃ a, _cogl_pipeline_get_authority scenario_new 4 1 COGL_PIPELINE_STATE_COLOR = some a ∧
        nearest_asserting (pipeline_view scenario_new) COGL_PIPELINE_STATE_COLOR [1, 0] a ∧
        ((∀ m ∈ [1, 0].dropLast, ¬ pipeline_asserts scenario_new COGL_PIPELINE_STATE_COLOR m) →
          a = 0)) ∧
    (∃ a, _cogl_pipeline_layer_get_authority scenario_new 4 2
          COGL_PIPELINE_LAYER_STATE_FILTERS = some a ∧
        nearest_asserting (layer_view scenario_new) COGL_PIPELINE_LAYER_STATE_FILTERS
          [2, 1, 0] a ∧
        ((∀ m ∈ [2, 1, 0].dropLast,
            ¬ layer_asserts scenario_new COGL_PIPELINE_LAYER_STATE_FILTERS m) → a = 0)) ∧
    (∃ a node, nearest_asserting (layer_view scenario_new) COGL_PIPELINE_LAYER_STATE_UNIT
          [2, 1, 0] a ∧
        scenario_new.layer a = some node ∧
        _cogl_pipeline_layer_get_unit_index scenario_new 4 2 = some node.unit_index) :=
  authority_walk_returns_nearest scenario_new 4 1 COGL_PIPELINE_STATE_COLOR 0 [1, 0]
    2 COGL_PIPELINE_LAYER_STATE_FILTERS 0 [2, 1, 0]
    (by decide!) (by decide) (by decide!) (by decide) (by decide)
    (by decide!) (by decide) (by decide!) (by decide) (by decide) (by decide) (by decide)

/-! ## Heap lemmas -/

theorem pipeline_set_pipeline (ctx : CoglContext) (p q : Nat) (v : CoglPipeline) :
    (ctx.set_pipeline p v).pipeline q =
      if p = q then (if p < ctx.pipelines.length then some v else none) else ctx.pipeline q := by
  simp only [CoglContext.set_pipeline, CoglContext.pipeline, List.getElem?_set]

theorem pipeline_set_pipeline_self {ctx : CoglContext} {p : Nat} {old : CoglPipeline}
    (h : ctx.pipeline p = some old) (v : CoglPipeline) :
    (ctx.set_pipeline p v).pipeline p = some v := by
  have hlt : p < ctx.pipelines.length := by
    simp only [CoglContext.pipeline] at h
    exact (List.getElem?_eq_some.mp h).1
  rw [pipeline_set_pipeline]; simp [hlt]

theorem pipeline_set_pipeline_ne (ctx : CoglContext) {p q : Nat} (h : p ≠ q) (v : CoglPipeline) :
    (ctx.set_pipeline p v).pipeline q = ctx.pipeline q := by
  rw [pipeline_set_pipeline]; simp [h]

theorem pipeline_lt_length {ctx : CoglContext} {p : Nat} {node : CoglPipeline}
    (h : ctx.pipeline p = some node) : p < ctx.pipelines.length := by
  simp only [CoglContext.pipeline] at h
  exact (List.getElem?_eq_some.mp h).1

theorem same_payload_refl (ctx : CoglContext) : same_payload ctx ctx := fun _ => rfl

theorem same_payload_trans {a b c : CoglContext} (h1 : same_payload a b)
    (h2 : same_payload b c) : same_payload a c := fun q => (h2 q).trans (h1 q)

theorem same_payload_set {ctx : CoglContext} {p : Nat} {old v : CoglPipeline}
    (h : ctx.pipeline p = some old) (hv : v.strip = old.strip) :
    same_payload ctx (ctx.set_pipeline p v) := by
  intro q
  by_cases hq : p = q
  · subst hq
    rw [pipeline_set_pipeline_self h, h]
    simp [hv]
  · rw [pipeline_set_pipeline_ne ctx hq]

theorem same_payload_view {a b : CoglContext} (h : same_payload a b) :
    pipeline_view b = pipeline_view a := by
  funext q
  have := h q
  unfold pipeline_view
  cases hb : b.pipeline q <;> cases ha : a.pipeline q <;> simp [ha, hb] at this ⊢
  have h1 := congrArg CoglPipeline.differences this
  have h2 := congrArg CoglPipeline.parent this
  simp [CoglPipeline.strip] at h1 h2
  simp [h1, h2]

theorem same_payload_not_weak {a b : CoglContext} (h : same_payload a b) (n : Nat) :
    pipeline_not_weak b n ↔ pipeline_not_weak a n := by
  have := h n
  unfold pipeline_not_weak
  cases hb : b.pipeline n <;> cases ha : a.pipeline n <;> simp [ha, hb] at this ⊢
  have h1 := congrArg CoglPipeline.is_weak this
  simp [CoglPipeline.strip] at h1
  simp [h1]

theorem cogl_object_ref_spec {ctx : CoglContext} {p : Nat} {node : CoglPipeline}
    (h : ctx.pipeline p = some node) :
    cogl_object_ref ctx p =
      some (ctx.set_pipeline p { node with ref_count := node.ref_count + 1 }) := by
  simp [cogl_object_ref, h]

theorem outside_set_pipeline (ctx : CoglContext) (p : Nat) (v : CoglPipeline) :
    (ctx.set_pipeline p v).outside_pipelines = ctx.outside_pipelines := rfl

theorem node_path_congr {view1 view2 : Nat → Option NodeView} :
    ∀ (path : List Nat) (n : Nat), (∀ m ∈ path, view2 m = view1 m) →
      node_path view1 n path → node_path view2 n path := by
  intro path
  induction path with
  | nil => intro n _ h; exact h
  | cons x rest ih =>
    intro n hv h
    cases rest with
    | nil =>
      simp only [node_path] at h ⊢
      obtain ⟨rfl, h2⟩ := h
      exact ⟨rfl, by rw [hv x (by simp)]; exact h2⟩
    | cons b rest2 =>
      simp only [node_path] at h ⊢
      obtain ⟨rfl, h2, h3⟩ := h
      exact ⟨rfl, by rw [hv x (by simp)]; exact h2,
        ih b (fun m hm => hv m (List.mem_cons_of_mem _ hm)) h3⟩

theorem node_get_authority_congr {view1 view2 : Nat → Option NodeView} (g : Nat) :
    ∀ (path : List Nat) (n fuel : Nat), (∀ m ∈ path, view2 m = view1 m) →
      node_path view1 n path →
      node_get_authority view2 fuel n g = node_get_authority view1 fuel n g := by
  intro path
  induction path with
  | nil => intro n fuel _ h; exact absurd h (by simp [node_path])
  | cons x rest ih =>
    intro n fuel hv h
    obtain ⟨r, hr⟩ := node_path_head h
    obtain rfl := (List.cons.inj hr).1
    cases fuel with
    | zero => rfl
    | succ k =>
      simp only [node_get_authority]
      rw [hv x (by simp)]
      cases hx : view1 x with
      | none => rfl
      | some v =>
        simp only
        split
        · rfl
        · cases rest with
          | nil =>
            simp only [node_path, hx] at h
            simp at h
            simp [h]
          | cons b rest2 =>
            simp only [node_path, hx] at h
            obtain ⟨-, h2, h3⟩ := h
            simp at h2
            simp only [h2]
            exact ih b k (fun m hm => hv m (List.mem_cons_of_mem _ hm)) h3

theorem node_path_valid {view : Nat → Option NodeView} :
    ∀ (path : List Nat) (n : Nat), node_path view n path → ∀ m ∈ path, (view m).isSome := by
  intro path
  induction path with
  | nil => intro n h; exact absurd h (by simp [node_path])
  | cons x rest ih =>
    intro n h m hm
    cases rest with
    | nil =>
      simp only [node_path] at h
      obtain ⟨hxn, h2⟩ := h
      simp at hm
      rw [hm, hxn]
      cases hv : view n <;> simp [hv] at h2 ⊢
    | cons b rest2 =>
      simp only [node_path] at h
      obtain ⟨hxn, h2, h3⟩ := h
      rcases List.mem_cons.mp hm with hmx | hm2
      · rw [hmx, hxn]
        cases hv : view n <;> simp [hv] at h2 ⊢
      · exact ih b h3 m hm2

theorem promote_weak_ancestors_loop_spec :
    ∀ (path : List Nat) (n root fuel : Nat) (ctx : CoglContext),
      pipeline_path ctx n path → path.getLast? = some root → pipeline_not_weak ctx root →
      path.length ≤ fuel →
      ∃ ctx2, promote_weak_ancestors_loop fuel ctx n = some ctx2 ∧ same_payload ctx ctx2 ∧
        ctx2.outside_pipelines = ctx.outside_pipelines ∧ ctx2.events = ctx.events ∧
        ctx2.pipelines.length = ctx.pipelines.length ∧
        (∀ q node, ctx.pipeline q = some node →
          ∃ rc, ctx2.pipeline q = some { node with ref_count := rc }) := by
  intro path
  induction path with
  | nil => intro n root fuel ctx h; exact absurd h (by simp [pipeline_path, node_path])
  | cons x rest ih =>
    intro n root fuel ctx hpath hlast hroot hfuel
    obtain ⟨r, hr⟩ := node_path_head hpath
    obtain rfl := (List.cons.inj hr).1
    obtain ⟨k, rfl⟩ : ∃ k, fuel = k + 1 := ⟨fuel - 1, by simp at hfuel; omega⟩
    have hvalid := node_path_valid _ _ hpath x (by simp)
    simp only [pipeline_view, Option.isSome_map'] at hvalid
    obtain ⟨node, hnode⟩ := Option.isSome_iff_exists.mp hvalid
    simp only [promote_weak_ancestors_loop, hnode]
    by_cases hw : node.is_weak = true
    · simp only [hw, if_true]
      cases rest with
      | nil =>
        simp at hlast
        subst hlast
        simp [pipeline_not_weak, hnode, hw] at hroot
      | cons b rest2 =>
        simp only [pipeline_path, node_path, pipeline_view, hnode, Option.map_some'] at hpath
        obtain ⟨-, h2, h3⟩ := hpath
        simp at h2
        simp only [h2]
        have hbvalid := node_path_valid _ _ h3 b (by simp)
        simp only [pipeline_view, Option.isSome_map'] at hbvalid
        obtain ⟨bnode, hbnode⟩ := Option.isSome_iff_exists.mp hbvalid
        rw [cogl_object_ref_spec hbnode]
        simp only
        have hE : same_payload ctx
            (ctx.set_pipeline b { bnode with ref_count := bnode.ref_count + 1 }) :=
          same_payload_set hbnode rfl
        have hpath1 : pipeline_path
            (ctx.set_pipeline b { bnode with ref_count := bnode.ref_count + 1 }) b
            (b :: rest2) := by
          unfold pipeline_path
          rw [same_payload_view hE]
          exact h3
        have hlast1 : (b :: rest2).getLast? = some root := by
          rw [← hlast]; simp [List.getLast?_cons_cons]
        obtain ⟨ctx2, hrun, hE2, hout, hev, hlen, hrc⟩ :=
          ih b root k _ hpath1 hlast1 ((same_payload_not_weak hE root).mpr hroot)
            (by simp at hfuel ⊢; omega)
        refine ⟨ctx2, hrun, same_payload_trans hE hE2, ?_, ?_, ?_, ?_⟩
        · rw [hout]; rfl
        · rw [hev]; rfl
        · rw [hlen]; simp [CoglContext.set_pipeline]
        · intro q qnode hq
          by_cases hqb : b = q
          · subst hqb
            rw [hbnode] at hq
            obtain rfl := Option.some.inj hq
            obtain ⟨rc, h⟩ := hrc b _ (pipeline_set_pipeline_self hbnode _)
            exact ⟨rc, h⟩
          · obtain ⟨rc, h⟩ := hrc q qnode (by rw [pipeline_set_pipeline_ne _ hqb]; exact hq)
            exact ⟨rc, h⟩
    · simp only [hw]
      refine ⟨ctx, rfl, same_payload_refl ctx, rfl, rfl, rfl, ?_⟩
      intro q qnode hq
      exact ⟨qnode.ref_count, hq⟩

theorem set_pipeline_set_pipeline (ctx : CoglContext) (p : Nat) (v w : CoglPipeline) :
    (ctx.set_pipeline p v).set_pipeline p w = ctx.set_pipeline p w := by
  simp [CoglContext.set_pipeline, List.set_set]

theorem set_parent_real_orphan {ctx : CoglContext} {node parent : Nat} {n pn : CoglPipeline}
    (hn : ctx.pipeline node = some n) (hnp : n.parent = none)
    (hp : ctx.pipeline parent = some pn) (hne : parent ≠ node) (strong : Bool) :
    _cogl_pipeline_node_set_parent_real ctx node parent strong =
      some ((ctx.set_pipeline parent
          { pn with ref_count := if strong then pn.ref_count + 1 else pn.ref_count,
                    children := node :: pn.children }).set_pipeline node
          { n with parent := some parent, has_parent_reference := strong }) := by
  unfold _cogl_pipeline_node_set_parent_real
  rw [cogl_object_ref_spec hp]
  simp only [pipeline_set_pipeline_ne _ hne, hn, hnp, Option.isSome_none, Bool.false_eq_true,
    if_false, pipeline_set_pipeline_self hp, set_pipeline_set_pipeline]
  have hn' : (ctx.set_pipeline parent
      { pn with ref_count := pn.ref_count + 1, children := node :: pn.children }).pipeline node
      = some n := by rw [pipeline_set_pipeline_ne _ hne]; exact hn
  have hp' : (ctx.set_pipeline parent
      { pn with ref_count := pn.ref_count + 1, children := node :: pn.children }).pipeline parent
      = some { pn with ref_count := pn.ref_count + 1, children := node :: pn.children } :=
    pipeline_set_pipeline_self hp _
  cases strong with
  | true => simp
  | false =>
    simp only [Bool.not_false, if_true, cogl_object_unref]
    have hne2 : node ≠ parent := fun h => hne h.symm
    rw [pipeline_set_pipeline_ne _ hne2, hp']
    simp only [Bool.false_eq_true, if_false]
    congr 1
    simp only [CoglContext.set_pipeline]
    congr 1
    rw [List.set_comm _ _ _ hne, List.set_set, List.set_comm _ _ _ hne2]
    simp

theorem pipeline_emit (ctx : CoglContext) (e : CoglEvent) (q : Nat) :
    (ctx.emit e).pipeline q = ctx.pipeline q := rfl

theorem pipeline_append_old {ctx : CoglContext} {q : Nat} (node : CoglPipeline)
    (hq : q < ctx.pipelines.length) :
    ({ ctx with pipelines := ctx.pipelines ++ [node] } : CoglContext).pipeline q =
      ctx.pipeline q := by
  simp only [CoglContext.pipeline]
  exact List.getElem?_append_left hq

theorem pipeline_append_new (ctx : CoglContext) (node : CoglPipeline) :
    ({ ctx with pipelines := ctx.pipelines ++ [node] } : CoglContext).pipeline
      ctx.pipelines.length = some node := by
  simp only [CoglContext.pipeline]
  exact List.getElem?_concat_length _ _

theorem pipeline_append_beyond {ctx : CoglContext} {q : Nat} (node : CoglPipeline)
    (hq : ctx.pipelines.length < q) :
    ({ ctx with pipelines := ctx.pipelines ++ [node] } : CoglContext).pipeline q = none := by
  simp only [CoglContext.pipeline]
  rw [List.getElem?_eq_none_iff]
  simp; omega

theorem pipeline_none_of_length_le {ctx : CoglContext} {q : Nat}
    (h : ctx.pipelines.length ≤ q) : ctx.pipeline q = none := by
  simp only [CoglContext.pipeline]
  exact List.getElem?_eq_none_iff.mpr h

/-- What `cogl_pipeline_copy` returns on a pipeline with a path to a root that is not
weak. -/
theorem cogl_pipeline_copy_spec (ctx : CoglContext) (src root fuel : Nat) (path : List Nat)
    (s : CoglPipeline) (hs : ctx.pipeline src = some s)
    (hpath : pipeline_path ctx src path) (hlast : path.getLast? = some root)
    (hroot : pipeline_not_weak ctx root) (hfuel : path.length ≤ fuel) :
    ∃ ctx2 node, cogl_pipeline_copy fuel ctx src = some (ctx2, ctx.pipelines.length) ∧
      ctx2.pipeline ctx.pipelines.length = some node ∧
      node.parent = some src ∧ node.differences = 0 ∧
      node.real_blend_enable = s.real_blend_enable ∧ node.is_weak = false ∧
      node.has_parent_reference = true ∧ node.children = [] ∧ node.ref_count = 1 ∧
      (∀ q old, ctx.pipeline q = some old →
        ∃ rc ch, ctx2.pipeline q = some { old with ref_count := rc, children := ch }) ∧
      (∀ q, ctx.pipelines.length < q → ctx2.pipeline q = none) ∧
      ctx2.outside_pipelines = ctx.outside_pipelines := by
  have hsrc_lt := pipeline_lt_length hs
  have hne : src ≠ ctx.pipelines.length := Nat.ne_of_lt hsrc_lt
  unfold cogl_pipeline_copy _cogl_pipeline_copy
  simp only [hs, Bool.not_false, if_true]
  generalize hnode0 : ({ ctx.slice_pipeline with
        parent := none
        children := []
        is_weak := false
        journal_ref_count := 0
        differences := 0
        has_big_state := false
        real_blend_enable := s.real_blend_enable
        layers_cache_dirty := true
        deprecated_get_layers_list := []
        deprecated_get_layers_list_dirty := true
        fragend := s.fragend
        vertend := s.vertend
        has_static_breadcrumb := false
        age := 0 } : CoglPipeline) = node0
  have hn0p : node0.parent = none := by rw [← hnode0]
  have hn0d : node0.differences = 0 := by rw [← hnode0]
  have hn0w : node0.is_weak = false := by rw [← hnode0]
  have hn0r : node0.real_blend_enable = s.real_blend_enable := by rw [← hnode0]
  generalize hctx1 : ({ ctx with pipelines := ctx.pipelines ++ [node0] } : CoglContext) = ctx1
  have h1new : ctx1.pipeline ctx.pipelines.length = some node0 := by
    rw [← hctx1]; exact pipeline_append_new ctx node0
  have h1old : ∀ q, q < ctx.pipelines.length → ctx1.pipeline q = ctx.pipeline q := by
    intro q hq; rw [← hctx1]; exact pipeline_append_old node0 hq
  have h1beyond : ∀ q, ctx.pipelines.length < q → ctx1.pipeline q = none := by
    intro q hq; rw [← hctx1]; exact pipeline_append_beyond node0 hq
  have h1out : ctx1.outside_pipelines = ctx.outside_pipelines := by rw [← hctx1]; rfl
  have h1src : ctx1.pipeline src = some s := by rw [h1old src hsrc_lt]; exact hs
  unfold _cogl_pipeline_set_parent
  rw [set_parent_real_orphan h1new hn0p h1src hne true]
  simp only [if_true]
  generalize hsrc2 : ({ s with ref_count := s.ref_count + 1, children := ctx.pipelines.length :: s.children } : CoglPipeline) = s2
  generalize hnode1 : ({ node0 with parent := some src, has_parent_reference := true } : CoglPipeline) = node1
  have hn1 : node1.parent = some src ∧ node1.differences = 0 ∧ node1.is_weak = false ∧
      node1.real_blend_enable = s.real_blend_enable ∧ node1.has_parent_reference = true ∧
      node1.children = [] ∧ node1.fragend = s.fragend := by
    rw [← hnode1, ← hnode0]; simp
  generalize hctx4 : (ctx1.set_pipeline src s2).set_pipeline ctx.pipelines.length node1 = ctx4
  have h4new : ctx4.pipeline ctx.pipelines.length = some node1 := by
    rw [← hctx4]
    exact pipeline_set_pipeline_self
      (by rw [pipeline_set_pipeline_ne _ hne]; exact h1new) _
  have h4src : ctx4.pipeline src = some s2 := by
    rw [← hctx4, pipeline_set_pipeline_ne _ (Ne.symm hne)]
    exact pipeline_set_pipeline_self h1src _
  have h4old : ∀ q, q ≠ src → q ≠ ctx.pipelines.length → ctx4.pipeline q = ctx1.pipeline q := by
    intro q h1 h2
    rw [← hctx4, pipeline_set_pipeline_ne _ (Ne.symm h2), pipeline_set_pipeline_ne _ (Ne.symm h1)]
  have h4out : ctx4.outside_pipelines = ctx.outside_pipelines := by
    rw [← hctx4, outside_set_pipeline, outside_set_pipeline]; exact h1out
  simp only [h4new, hn1.2.1]
  simp only [show ¬ (0 &&& COGL_PIPELINE_STATE_LAYERS ≠ 0) by decide, if_false]
  -- the event of the fragment back-end leaves the pipelines alone
  generalize hctx5 : (if node1.fragend ≠ COGL_PIPELINE_FRAGEND_UNDEFINED
      then some (ctx4.emit (CoglEvent.fragend_set_parent_notify ctx.pipelines.length))
      else some ctx4) = r5
  obtain ⟨ctx5, hr5, h5p, h5out⟩ : ∃ ctx5, r5 = some ctx5 ∧
      (∀ q, ctx5.pipeline q = ctx4.pipeline q) ∧
      ctx5.outside_pipelines = ctx4.outside_pipelines := by
    rw [← hctx5]
    split
    · exact ⟨_, rfl, fun q => rfl, rfl⟩
    · exact ⟨_, rfl, fun q => rfl, rfl⟩
  rw [hr5]
  simp only
  unfold _cogl_pipeline_promote_weak_ancestors
  simp only [h5p, h4new, hn1.2.2.1, hn1.1, Bool.false_eq_true, if_false]
  -- the path of `src` is still there
  have hview : ∀ m ∈ path, pipeline_view ctx5 m = pipeline_view ctx m := by
    intro m hm
    have hv := node_path_valid _ _ hpath m hm
    simp only [pipeline_view, Option.isSome_map'] at hv
    obtain ⟨mn, hmn⟩ := Option.isSome_iff_exists.mp hv
    have hmlt := pipeline_lt_length hmn
    unfold pipeline_view
    rw [h5p]
    by_cases hms : m = src
    · subst hms
      rw [h4src, hs, ← hsrc2]
      rfl
    · rw [h4old m hms (Nat.ne_of_lt hmlt), h1old m hmlt]
  have hpath5 : pipeline_path ctx5 src path := node_path_congr path src hview hpath
  have hrootin : root ∈ path := List.mem_of_getLast?_eq_some hlast
  have hroot5 : pipeline_not_weak ctx5 root := by
    have hv := node_path_valid _ _ hpath root hrootin
    simp only [pipeline_view, Option.isSome_map'] at hv
    obtain ⟨rn, hrn⟩ := Option.isSome_iff_exists.mp hv
    have hrlt := pipeline_lt_length hrn
    unfold pipeline_not_weak at hroot ⊢
    rw [h5p]
    by_cases hrs : root = src
    · subst hrs
      rw [h4src, ← hsrc2]
      rw [hs] at hroot
      exact hroot
    · rw [h4old root hrs (Nat.ne_of_lt hrlt), h1old root hrlt]
      exact hroot
  obtain ⟨ctx6, hrun, hE6, hout6, -, hlen6, hrc6⟩ :=
    promote_weak_ancestors_loop_spec path src root fuel ctx5 hpath5 hlast hroot5 hfuel
  rw [hrun]
  simp only
  obtain ⟨rcN, h6new⟩ := hrc6 _ _ (by rw [h5p]; exact h4new)
  rw [h6new]
  simp only
  refine ⟨_, _, rfl, pipeline_set_pipeline_self h6new _, hn1.1, hn1.2.1, hn1.2.2.2.1,
    hn1.2.2.1, hn1.2.2.2.2.1, hn1.2.2.2.2.2.1, rfl, ?_, ?_, ?_⟩
  · intro q old hq
    have hqlt := pipeline_lt_length hq
    rw [pipeline_set_pipeline_ne _ (Ne.symm (Nat.ne_of_lt hqlt))]
    by_cases hqs : q = src
    · subst hqs
      obtain ⟨rc, h⟩ := hrc6 q s2 (by rw [h5p]; exact h4src)
      rw [hs] at hq
      obtain rfl := Option.some.inj hq
      exact ⟨rc, _, by rw [h, ← hsrc2]⟩
    · obtain ⟨rc, h⟩ := hrc6 q old
        (by rw [h5p, h4old q hqs (Nat.ne_of_lt hqlt), h1old q hqlt]; exact hq)
      exact ⟨rc, old.children, h⟩
  · intro q hq
    rw [pipeline_set_pipeline_ne _ (Nat.ne_of_lt hq)]
    apply pipeline_none_of_length_le
    rw [hlen6]
    have : ctx5.pipelines.length = ctx.pipelines.length + 1 := by
      have h5none := h5p (ctx.pipelines.length + 1)
      have h5some := h5p ctx.pipelines.length
      rw [h4new] at h5some
      rw [h4old _ (by omega) (by omega), h1beyond _ (by omega)] at h5none
      have := pipeline_lt_length h5some
      simp only [CoglContext.pipeline, List.getElem?_eq_none_iff] at h5none
      omega
    omega
  · rw [outside_set_pipeline, hout6, h5out, h4out]

theorem node_get_authority_zero_differences {view : Nat → Option NodeView} {n parent : Nat}
    (h : view n = some { differences := 0, parent := some parent }) (g f : Nat) :
    node_get_authority view (f + 1) n g = node_get_authority view f parent g := by
  simp [node_get_authority, h]

theorem authority_of_fresh_child {ctx : CoglContext} {n par g : Nat} {node d : CoglPipeline}
    (hn : ctx.pipeline n = some node) (hp : node.parent = some par)
    (hd0 : node.differences = 0) (hpar : ctx.pipeline par = some d)
    (hg : d.differences &&& g ≠ 0) (k : Nat) :
    _cogl_pipeline_get_authority ctx (k + 2) n g = some par := by
  simp [_cogl_pipeline_get_authority, hn, hp, hd0, hpar, hg]

/-- C2: on a pipeline `src` with a path to a root that is not weak,
`cogl_pipeline_copy` returns a new pipeline whose parent is `src`, whose
`differences` is empty and whose `real_blend_enable` is that of `src`; every state
group resolves on the copy to the authority it resolves to on `src`, and on `src`
to the authority it resolved to before; every pipeline that was there keeps its
record but for its reference count and child list, and the layers are untouched.
`cogl_pipeline_new` is the copy of the default pipeline: on a pristine default
pipeline it reports the color 0xff,0xff,0xff,0xff, no layers and blending off. -/
theorem pipeline_copy_inherits (ctx : CoglContext) (src root fuel : Nat) (path : List Nat)
    (hpath : pipeline_path ctx src path) (hlast : path.getLast? = some root)
    (hroot : pipeline_not_weak ctx root) (hfuel : path.length ≤ fuel)
    (hdefault : default_pipeline_pristine ctx) :
    (∃ ctx2 copy node s, cogl_pipeline_copy fuel ctx src = some (ctx2, copy) ∧
        ctx.pipeline copy = none ∧ ctx.pipeline src = some s ∧
        ctx2.pipeline copy = some node ∧ node.parent = some src ∧ node.differences = 0 ∧
        node.real_blend_enable = s.real_blend_enable ∧
        (∀ g f, _cogl_pipeline_get_authority ctx2 (f + 1) copy g =
          _cogl_pipeline_get_authority ctx f src g) ∧
        (∀ g f, _cogl_pipeline_get_authority ctx2 f src g =
          _cogl_pipeline_get_authority ctx f src g) ∧
        (∀ q old, ctx.pipeline q = some old →
          ∃ rc ch, ctx2.pipeline q = some { old with ref_count := rc, children := ch }) ∧
        ctx2.layers = ctx.layers) ∧
    (∃ ctx3 new node, cogl_pipeline_new fuel ctx = some (ctx3, new) ∧
        ctx3.pipeline new = some node ∧ node.parent = some ctx.default_pipeline ∧
        node.differences = 0 ∧
        (∀ f, 2 ≤ f → cogl_pipeline_get_color f ctx3 new =
          some (cogl_color_init_from_4ub 0xff 0xff 0xff 0xff)) ∧
        (∀ f, 2 ≤ f → cogl_pipeline_get_n_layers f ctx3 new = some 0) ∧
        _cogl_pipeline_get_real_blend_enabled ctx3 new = some false) := by
  constructor
  · have hv := node_path_valid _ _ hpath src (by
      obtain ⟨r, hr⟩ := node_path_head hpath; rw [hr]; simp)
    simp only [pipeline_view, Option.isSome_map'] at hv
    obtain ⟨s, hs⟩ := Option.isSome_iff_exists.mp hv
    obtain ⟨ctx2, node, hrun, hnew, hpar, hdiff, hrbe, -, -, -, -, hold, -, hout⟩ :=
      cogl_pipeline_copy_spec ctx src root fuel path s hs hpath hlast hroot hfuel
    have hviews : ∀ m ∈ path, pipeline_view ctx2 m = pipeline_view ctx m := by
      intro m hm
      have hvm := node_path_valid _ _ hpath m hm
      simp only [pipeline_view, Option.isSome_map'] at hvm
      obtain ⟨mn, hmn⟩ := Option.isSome_iff_exists.mp hvm
      obtain ⟨rc, ch, h2⟩ := hold m mn hmn
      unfold pipeline_view
      rw [h2, hmn]
      rfl
    have hsame : ∀ g f, _cogl_pipeline_get_authority ctx2 f src g =
        _cogl_pipeline_get_authority ctx f src g := by
      intro g f
      rw [pipeline_get_authority_eq, pipeline_get_authority_eq]
      exact node_get_authority_congr g path src f hviews hpath
    refine ⟨ctx2, _, node, s, hrun, pipeline_none_of_length_le (Nat.le_refl _), hs, hnew, hpar,
      hdiff, hrbe, ?_, hsame, hold, ?_⟩
    · intro g f
      rw [← hsame g f, pipeline_get_authority_eq, pipeline_get_authority_eq]
      apply node_get_authority_zero_differences
      unfold pipeline_view
      rw [hnew]
      simp [hpar, hdiff]
    · have := congrArg CoglContext.layers hout
      simpa [CoglContext.outside_pipelines] using this
  · obtain ⟨d, hd, hdp, hdw, hdd, hdc, hdn, hdr⟩ := hdefault
    have hpathd : pipeline_path ctx ctx.default_pipeline [ctx.default_pipeline] := by
      simp [pipeline_path, node_path, pipeline_view, hd, hdp]
    have hfuel1 : 1 ≤ fuel := by
      obtain ⟨r, hr⟩ := node_path_head hpath
      rw [hr] at hfuel
      simp at hfuel
      omega
    obtain ⟨ctx2, node, hrun, hnew, hpar, hdiff, hrbe, -, -, -, -, hold, -, -⟩ :=
      cogl_pipeline_copy_spec ctx ctx.default_pipeline ctx.default_pipeline fuel
        [ctx.default_pipeline] d hd hpathd rfl (by simp [pipeline_not_weak, hd, hdw])
        (by simpa using hfuel1)
    obtain ⟨rc, ch, hd2⟩ := hold _ d hd
    have hne : ctx.pipelines.length ≠ ctx.default_pipeline :=
      Ne.symm (Nat.ne_of_lt (pipeline_lt_length hd))
    unfold cogl_pipeline_new
    rw [hrun]
    simp only [_cogl_pipeline_set_static_breadcrumb, hnew]
    have hnew3 := pipeline_set_pipeline_self hnew
      { node with has_static_breadcrumb := true, static_breadcrumb := "new" }
    have hd3 : (ctx2.set_pipeline ctx.pipelines.length
        { node with has_static_breadcrumb := true, static_breadcrumb := "new" }).pipeline
        ctx.default_pipeline = some { d with ref_count := rc, children := ch } := by
      rw [pipeline_set_pipeline_ne _ hne]; exact hd2
    have hauth : ∀ g k, d.differences &&& g ≠ 0 →
        _cogl_pipeline_get_authority (ctx2.set_pipeline ctx.pipelines.length
          { node with has_static_breadcrumb := true, static_breadcrumb := "new" }) (k + 2)
          ctx.pipelines.length g = some ctx.default_pipeline :=
      fun g k hg => authority_of_fresh_child hnew3 hpar hdiff hd3 hg k
    refine ⟨_, _, _, rfl, hnew3, hpar, hdiff, ?_, ?_, ?_⟩
    · intro f hf
      obtain ⟨k, rfl⟩ : ∃ k, f = k + 2 := ⟨f - 2, by omega⟩
      unfold cogl_pipeline_get_color
      rw [hauth _ k (by rw [hdd]; decide)]
      dsimp only
      rw [hd3]
      simp [hdc]
    · intro f hf
      obtain ⟨k, rfl⟩ : ∃ k, f = k + 2 := ⟨f - 2, by omega⟩
      unfold cogl_pipeline_get_n_layers
      rw [hauth _ k (by rw [hdd]; decide)]
      dsimp only
      rw [hd3]
      simp [hdn]
    · unfold _cogl_pipeline_get_real_blend_enabled
      rw [hnew3]
      simp [hrbe, hdr]

theorem pipeline_copy_inherits_witness :
    (pipeline_path scenario_new 1 [1, 0] ∧ [1, 0].getLast? = some 0 ∧
      pipeline_not_weak scenario_new 0 ∧ [1, 0].length ≤ 4 ∧
      default_pipeline_pristine scenario_new) ∧
    (∃ ctx2 copy node s, cogl_pipeline_copy 4 scenario_new 1 = some (ctx2, copy) ∧
        scenario_new.pipeline copy = none ∧ scenario_new.pipeline 1 = some s ∧
        ctx2.pipeline copy = some node ∧ node.parent = some 1 ∧ node.differences = 0 ∧
        node.real_blend_enable = s.real_blend_enable ∧
        (∀ g f, _cogl_pipeline_get_authority ctx2 (f + 1) copy g =
          _cogl_pipeline_get_authority scenario_new f 1 g) ∧
        (∀ g f, _cogl_pipeline_get_authority ctx2 f 1 g =
          _cogl_pipeline_get_authority scenario_new f 1 g) ∧
        (∀ q old, scenario_new.pipeline q = some old →
          ∃ rc ch, ctx2.pipeline q = some { old with ref_count := rc, children := ch }) ∧
        ctx2.layers = scenario_new.layers) ∧
    (∃ ctx3 new node, cogl_pipeline_new 4 scenario_new = some (ctx3, new) ∧
        ctx3.pipeline new = some node ∧ node.parent = some scenario_new.default_pipeline ∧
        node.differences = 0 ∧
        (∀ f, 2 ≤ f → cogl_pipeline_get_color f ctx3 new =
          some (cogl_color_init_from_4ub 0xff 0xff 0xff 0xff)) ∧
        (∀ f, 2 ≤ f → cogl_pipeline_get_n_layers f ctx3 new = some 0) ∧
        _cogl_pipeline_get_real_blend_enabled ctx3 new = some false) :=
  have hdefault : default_pipeline_pristine scenario_new := by decide!
  ⟨⟨by decide!, by decide, by decide!, by decide, hdefault⟩,
    pipeline_copy_inherits scenario_new 1 0 4 [1, 0] (by decide!) (by decide) (by decide!)
      (by decide) hdefault⟩

/-! ## Structural comparison -/

theorem node_path_unique {view : Nat → Option NodeView} :
    ∀ (p1 p2 : List Nat) (n : Nat), node_path view n p1 → node_path view n p2 → p1 = p2 := by
  intro p1
  induction p1 with
  | nil => intro p2 n h; exact absurd h (by simp [node_path])
  | cons x rest ih =>
    intro p2 n h1 h2
    obtain ⟨r2, rfl⟩ := node_path_head h2
    obtain ⟨r1, hr1⟩ := node_path_head h1
    obtain ⟨rfl, rfl⟩ := List.cons.inj hr1
    congr 1
    cases rest with
    | nil =>
      cases r2 with
      | nil => rfl
      | cons b r =>
        simp only [node_path] at h1 h2
        rw [h1.2] at h2
        simp at h2
    | cons a r =>
      cases r2 with
      | nil =>
        simp only [node_path] at h1 h2
        rw [h1.2.1] at h2
        simp at h2
      | cons b r' =>
        simp only [node_path] at h1 h2
        have hab : a = b := by
          have := h1.2.1.symm.trans h2.2.1
          simpa using this
        subst hab
        exact ih _ a h1.2.2 h2.2.2

theorem node_path_suffix {view : Nat → Option NodeView} :
    ∀ (u : List Nat) (n m : Nat) (r : List Nat), node_path view n (u ++ m :: r) →
      node_path view m (m :: r) := by
  intro u
  induction u with
  | nil =>
    intro n m r h
    obtain ⟨r1, hr1⟩ := node_path_head h
    obtain ⟨rfl, -⟩ := List.cons.inj hr1
    exact h
  | cons x u ih =>
    intro n m r h
    cases u with
    | nil =>
      simp only [List.cons_append, List.nil_append, node_path] at h
      exact h.2.2
    | cons y u2 =>
      simp only [List.cons_append, node_path] at h
      exact ih y m r h.2.2

theorem node_path_no_repeat {view : Nat → Option NodeView} {n c : Nat} {xs rest : List Nat}
    (h : node_path view n (xs ++ c :: rest)) : c ∉ xs := by
  intro hc
  obtain ⟨u, w, rfl⟩ := List.append_of_mem hc
  have h1 : node_path view c (c :: (w ++ c :: rest)) := by
    have := node_path_suffix u n c (w ++ c :: rest) (by simpa using h)
    exact this
  have h2 : node_path view c (c :: rest) := by
    have := node_path_suffix (u ++ c :: w) n c rest (by simpa using h)
    exact this
  have := node_path_unique _ _ c h1 h2
  have hlen := congrArg List.length this
  simp at hlen
  omega

theorem node_ancestors_of_path {view : Nat → Option NodeView} :
    ∀ (path : List Nat) (n fuel : Nat), node_path view n path → path.length ≤ fuel →
      node_ancestors view fuel n = some path := by
  intro path
  induction path with
  | nil => intro n fuel h; exact absurd h (by simp [node_path])
  | cons x rest ih =>
    intro n fuel h hfuel
    obtain ⟨k, rfl⟩ : ∃ k, fuel = k + 1 := ⟨fuel - 1, by simp at hfuel; omega⟩
    obtain ⟨r1, hr1⟩ := node_path_head h
    obtain ⟨rfl, -⟩ := List.cons.inj hr1
    cases rest with
    | nil =>
      simp only [node_path] at h
      cases hv : view x with
      | none => simp [hv] at h
      | some v =>
        simp [hv] at h
        simp [node_ancestors, hv, h]
    | cons b r =>
      simp only [node_path] at h
      cases hv : view x with
      | none => simp [hv] at h
      | some v =>
        simp [hv] at h
        have := ih b k h.2 (by simp at hfuel ⊢; omega)
        simp [node_ancestors, hv, h.1, this]

theorem common_ancestor_scan_equal (view : Nat → Option NodeView) (rest : List (Nat × Nat)) :
    ∀ (cr : List Nat) (node0 : Option Nat),
      common_ancestor_scan view (cr.zip cr ++ rest) node0 =
        common_ancestor_scan view rest (match cr.getLast? with
          | some c => some c
          | none => node0) := by
  intro cr
  induction cr with
  | nil => intro node0; rfl
  | cons c cr ih =>
    intro node0
    have hstep : common_ancestor_scan view ((c :: cr).zip (c :: cr) ++ rest) node0 =
        common_ancestor_scan view (cr.zip cr ++ rest) (some c) := by
      rw [List.zip_cons_cons, List.cons_append, common_ancestor_scan, if_neg (by simp)]
    rw [hstep, ih]
    cases cr with
    | nil => rfl
    | cons d cr2 =>
      simp only [List.getLast?_cons_cons]
      cases h : (d :: cr2).getLast? with
      | none => simp at h
      | some e => rfl

theorem or_differences_until_append (view : Nat → Option NodeView) (ca : Option Nat)
    (tail : List Nat) :
    ∀ (xs : List Nat) (acc : Nat), (∀ n ∈ xs, some n ≠ ca ∧ (view n).isSome) →
      or_differences_until view ca (xs ++ tail) acc =
        or_differences_until view ca tail
          (xs.foldl (fun acc n => acc ||| ((view n).map (fun v => v.differences)).getD 0) acc) := by
  intro xs
  induction xs with
  | nil => intro acc _; rfl
  | cons x xs ih =>
    intro acc h
    have hx := h x (by simp)
    obtain ⟨v, hv⟩ := Option.isSome_iff_exists.mp hx.2
    simp only [List.cons_append, or_differences_until, hx.1, if_false, hv, List.foldl_cons,
      Option.map_some', Option.getD_some]
    exact ih _ (fun n hn => h n (List.mem_cons_of_mem _ hn))

theorem foldl_or_differences_acc (view : Nat → Option NodeView) :
    ∀ (ys : List Nat) (acc : Nat),
      ys.foldl (fun acc n => acc ||| ((view n).map (fun v => v.differences)).getD 0) acc =
        acc ||| union_of_differences view ys := by
  intro ys
  unfold union_of_differences
  induction ys with
  | nil => intro acc; simp
  | cons y ys ih =>
    intro acc
    simp only [List.foldl_cons]
    rw [ih, ih (0 ||| _)]
    simp [Nat.lor_assoc]

theorem union_of_differences_append (view : Nat → Option NodeView) (xs ys : List Nat) :
    union_of_differences view (xs ++ ys) =
      union_of_differences view xs ||| union_of_differences view ys := by
  conv_lhs => unfold union_of_differences
  rw [List.foldl_append, foldl_or_differences_acc]
  rfl

theorem or_differences_until_stop (view : Nat → Option NodeView) (c : Nat) (rest : List Nat)
    (acc : Nat) : or_differences_until view (some c) (c :: rest) acc = some acc := by
  simp [or_differences_until]

theorem node_path_last_parent {view : Nat → Option NodeView} :
    ∀ (xs : List Nat) (n x c : Nat) (ct : List Nat), node_path view n (xs ++ c :: ct) →
      xs.getLast? = some x → (view x).map (fun v => v.parent) = some (some c) := by
  intro xs n x c ct h hx
  obtain ⟨u, rfl⟩ : ∃ u, xs = u ++ [x] := by
    have := List.getLast?_eq_some_iff.mp hx
    obtain ⟨u, hu⟩ := this
    exact ⟨u, hu⟩
  have := node_path_suffix u n x (c :: ct) (by simpa using h)
  simp only [node_path] at this
  exact this.2.1

/-- The two `compare_differences` functions on two paths that share the suffix
`c :: ct` and differ just below it. -/
theorem node_compare_differences_spec (view : Nat → Option NodeView) (a b fuel c : Nat)
    (xs ys ct : List Nat) (hpa : node_path view a (xs ++ c :: ct))
    (hpb : node_path view b (ys ++ c :: ct))
    (hmax : ∀ x y, xs.getLast? = some x → ys.getLast? = some y → x ≠ y)
    (hfa : (xs ++ c :: ct).length ≤ fuel) (hfb : (ys ++ c :: ct).length ≤ fuel) :
    node_compare_differences view fuel a b = some (union_of_differences view (xs ++ ys)) := by
  unfold node_compare_differences
  rw [node_ancestors_of_path _ a fuel hpa hfa, node_ancestors_of_path _ b fuel hpb hfb]
  simp only
  -- the reversed arrays without the root
  obtain ⟨D, hD, hDlast⟩ : ∃ D, (c :: ct).reverse.drop 1 = D ∧
      D.getLast? = if ct = [] then none else some c := by
    refine ⟨_, rfl, ?_⟩
    cases ct with
    | nil => simp
    | cons d ct2 =>
      have : (c :: d :: ct2).reverse = (d :: ct2).reverse ++ [c] := by simp
      rw [this, List.drop_append_of_le_length (by simp)]
      simp
  have hrev : ∀ zs : List Nat, (zs ++ c :: ct).reverse.drop 1 = D ++ zs.reverse := by
    intro zs
    rw [List.reverse_append, List.drop_append_of_le_length (by simp), hD]
  rw [hrev xs, hrev ys, List.zip_append rfl, common_ancestor_scan_equal]
  have hdl : ∀ zs : List Nat, (zs ++ c :: ct).dropLast = zs ++ (c :: ct).dropLast := by
    intro zs
    exact List.dropLast_append_of_ne_nil _ (by simp)
  rw [hdl xs, hdl ys]
  have hcx : c ∉ xs := node_path_no_repeat hpa
  have hcy : c ∉ ys := node_path_no_repeat hpb
  have hvx : ∀ n ∈ xs, (view n).isSome :=
    fun n hn => node_path_valid _ _ hpa n (List.mem_append_left _ hn)
  have hvy : ∀ n ∈ ys, (view n).isSome :=
    fun n hn => node_path_valid _ _ hpb n (List.mem_append_left _ hn)
  have hfinish : ∀ (found node0 : Option Nat),
      common_ancestor_scan view (xs.reverse.zip ys.reverse)
        (match D.getLast? with
          | some c => some c
          | none => none) = some (found, node0) →
      ((if found = none then node0 else found) = some c ∨
        ((if found = none then node0 else found) = none ∧ ct = [])) →
      (match
          common_ancestor_scan view (xs.reverse.zip ys.reverse)
            (match D.getLast? with
              | some c => some c
              | none => none) with
        | none => none
        | some (found, node0) =>
          match or_differences_until view (if found = none then node0 else found)
              (xs ++ (c :: ct).dropLast) 0 with
          | none => none
          | some difference =>
            or_differences_until view (if found = none then node0 else found)
              (ys ++ (c :: ct).dropLast) difference) =
        some (union_of_differences view (xs ++ ys)) := by
    intro found node0 hs hca
    rw [hs]
    simp only
    generalize (if found = none then node0 else found) = ca at hca ⊢
    have hnex : ∀ n ∈ xs, some n ≠ ca ∧ (view n).isSome := by
      intro n hn
      refine ⟨?_, hvx n hn⟩
      rcases hca with h | ⟨h, -⟩
      · rw [h]; intro heq; exact hcx (by rw [← Option.some.inj heq]; exact hn)
      · rw [h]; simp
    have hney : ∀ n ∈ ys, some n ≠ ca ∧ (view n).isSome := by
      intro n hn
      refine ⟨?_, hvy n hn⟩
      rcases hca with h | ⟨h, -⟩
      · rw [h]; intro heq; exact hcy (by rw [← Option.some.inj heq]; exact hn)
      · rw [h]; simp
    have htail : ∀ acc, or_differences_until view ca (c :: ct).dropLast acc = some acc := by
      intro acc
      rcases hca with h | ⟨-, hct⟩
      · cases ct with
        | nil => simp [or_differences_until]
        | cons d ct2 =>
          rw [h]
          simp [List.dropLast, or_differences_until]
      · subst hct
        simp [or_differences_until]
    rw [or_differences_until_append view ca _ xs 0 hnex, htail]
    simp only
    rw [or_differences_until_append view ca _ ys _ hney, htail, foldl_or_differences_acc,
      union_of_differences_append]
    rfl
  rcases List.eq_nil_or_concat xs with hxs | ⟨xs', x, hxs⟩
  · by_cases hct : ct = []
    · exact hfinish none none (by rw [hDlast]; simp [hxs, hct, common_ancestor_scan])
        (Or.inr ⟨by simp, hct⟩)
    · exact hfinish none (some c) (by rw [hDlast]; simp [hxs, hct, common_ancestor_scan])
        (Or.inl (by simp))
  · rcases List.eq_nil_or_concat ys with hys | ⟨ys', y, hys⟩
    · by_cases hct : ct = []
      · exact hfinish none none (by rw [hDlast]; simp [hys, hct, common_ancestor_scan])
          (Or.inr ⟨by simp, hct⟩)
      · exact hfinish none (some c) (by rw [hDlast]; simp [hys, hct, common_ancestor_scan])
          (Or.inl (by simp))
    · have hxy : x ≠ y := hmax x y (by simp [hxs]) (by simp [hys])
      have hpar := node_path_last_parent _ a x c ct hpa (by simp [hxs])
      cases hv : view x with
      | none => simp [hv] at hpar
      | some v =>
        simp [hv] at hpar
        exact hfinish (some c) (some x)
          (by simp [hxs, hys, common_ancestor_scan, hxy, hv, hpar]) (Or.inl (by simp))

theorem union_of_differences_nil (view : Nat → Option NodeView) :
    union_of_differences view [] = 0 := rfl

theorem same_node_no_branch {view : Nat → Option NodeView} {a c : Nat} {xs ys ct : List Nat}
    (hpa : node_path view a (xs ++ c :: ct)) (hpb : node_path view a (ys ++ c :: ct))
    (hmax : ∀ x y, xs.getLast? = some x → ys.getLast? = some y → x ≠ y) :
    xs = [] ∧ ys = [] := by
  have heq := node_path_unique _ _ a hpa hpb
  have hxy : xs = ys := List.append_cancel_right heq
  subst hxy
  rcases List.eq_nil_or_concat xs with h | ⟨u, x, h⟩
  · exact ⟨h, h⟩
  · exact absurd rfl (hmax x x (by simp [h]) (by simp [h]))

/-- C10: for two pipelines whose paths to the root are `xs ++ c :: ct` and
`ys ++ c :: ct`, where `c` is their lowest common ancestor (the last nodes of `xs`
and `ys`, when both exist, differ), `_cogl_pipeline_compare_differences` returns
the union of the `differences` of the nodes of `xs` and of `ys`, that is of every
node from each pipeline up to but excluding `c`. This covers a pipeline that is an
ancestor of the other (`xs` or `ys` empty) and the root (`ct` empty), and for
`a = b` the result is 0. `_cogl_pipeline_layer_compare_differences` satisfies the
same equation on the layer tree. -/
theorem compare_differences_is_union_below_common_ancestor (ctx : CoglContext) (fuel : Nat)
    (a b c : Nat) (xs ys ct : List Nat) (la lb lc : Nat) (lxs lys lct : List Nat)
    (hpa : pipeline_path ctx a (xs ++ c :: ct)) (hpb : pipeline_path ctx b (ys ++ c :: ct))
    (hmax : ∀ x y, xs.getLast? = some x → ys.getLast? = some y → x ≠ y)
    (hfa : (xs ++ c :: ct).length ≤ fuel) (hfb : (ys ++ c :: ct).length ≤ fuel)
    (hla : layer_path ctx la (lxs ++ lc :: lct)) (hlb : layer_path ctx lb (lys ++ lc :: lct))
    (hlmax : ∀ x y, lxs.getLast? = some x → lys.getLast? = some y → x ≠ y)
    (hlfa : (lxs ++ lc :: lct).length ≤ fuel) (hlfb : (lys ++ lc :: lct).length ≤ fuel) :
    _cogl_pipeline_compare_differences ctx fuel a b =
        some (union_of_differences (pipeline_view ctx) (xs ++ ys)) ∧
      (a = b → _cogl_pipeline_compare_differences ctx fuel a b = some 0) ∧
      _cogl_pipeline_layer_compare_differences ctx fuel la lb =
        some (union_of_differences (layer_view ctx) (lxs ++ lys)) ∧
      (la = lb → _cogl_pipeline_layer_compare_differences ctx fuel la lb = some 0) := by
  have h1 := node_compare_differences_spec (pipeline_view ctx) a b fuel c xs ys ct hpa hpb hmax
    hfa hfb
  have h2 := node_compare_differences_spec (layer_view ctx) la lb fuel lc lxs lys lct hla hlb
    hlmax hlfa hlfb
  refine ⟨h1, ?_, h2, ?_⟩
  · intro hab
    subst hab
    obtain ⟨rfl, rfl⟩ := same_node_no_branch hpa hpb hmax
    exact h1
  · intro hab
    subst hab
    obtain ⟨rfl, rfl⟩ := same_node_no_branch hla hlb hlmax
    exact h2

theorem compare_differences_is_union_below_common_ancestor_witness :
    (pipeline_path scenario_red 1 ([1] ++ 0 :: []) ∧
      pipeline_path scenario_red 2 ([2, 3] ++ 0 :: []) ∧
      layer_path scenario_red 2 ([2, 1] ++ 0 :: []) ∧
      layer_path scenario_red 0 ([] ++ 0 :: [])) ∧
    (_cogl_pipeline_compare_differences scenario_red 3 1 2 =
        some (union_of_differences (pipeline_view scenario_red) ([1] ++ [2, 3])) ∧
      (1 = 2 → _cogl_pipeline_compare_differences scenario_red 3 1 2 = some 0) ∧
      _cogl_pipeline_layer_compare_differences scenario_red 3 2 0 =
        some (union_of_differences (layer_view scenario_red) ([2, 1] ++ [])) ∧
      (2 = 0 → _cogl_pipeline_layer_compare_differences scenario_red 3 2 0 = some 0)) :=
  ⟨⟨by decide!, by decide!, by decide!, by decide!⟩,
    compare_differences_is_union_below_common_ancestor scenario_red 3 1 2 0 [1] [2, 3] []
      2 0 0 [2, 1] [] [] (by decide!) (by decide!)
      (by intro x y hx hy; simp at hx hy; omega) (by decide) (by decide)
      (by decide!) (by decide!) (by intro x y hx hy; simp at hy) (by decide) (by decide)⟩

/-! ## Resolution of several authorities -/

theorem and_bit_ne_zero (x i : Nat) : x &&& (1 <<< i) ≠ 0 ↔ x.testBit i = true := by
  rw [Nat.one_shiftLeft, Nat.and_two_pow]
  cases x.testBit i <;> simp

theorem bit_and_ne_zero (x i : Nat) : (1 <<< i) &&& x ≠ 0 ↔ x.testBit i = true := by
  rw [Nat.and_comm]; exact and_bit_ne_zero x i

theorem testBit_mask_clear (a b i : Nat) :
    (mask_clear a b).testBit i = (a.testBit i && !b.testBit i) := by
  unfold mask_clear
  rw [Nat.testBit_xor, Nat.testBit_and]
  cases a.testBit i <;> cases b.testBit i <;> rfl

theorem resolve_authorities_store_spec (found authority : Nat) :
    ∀ (fuel i : Nat) (authorities out : List (Option Nat)),
      resolve_authorities_store found authority fuel i authorities = some out →
      out.length = authorities.length ∧
        ∀ j, out[j]? = if i ≤ j ∧ found.testBit j = true then some (some authority)
          else authorities[j]? := by
  intro fuel
  induction fuel with
  | zero => intro i authorities out h; simp [resolve_authorities_store] at h
  | succ k ih =>
    intro i authorities out h
    rw [resolve_authorities_store] at h
    by_cases hbit : found.testBit i = true
    · rw [if_pos ((bit_and_ne_zero found i).2 hbit)] at h
      by_cases hlen : i < authorities.length
      · rw [if_pos hlen] at h
        obtain ⟨hl, hj⟩ := ih _ _ _ h
        refine ⟨by rw [hl, List.length_set], fun j => ?_⟩
        rw [hj j]
        by_cases hij : i = j
        · subst hij
          simp [hbit, hlen]
        · have : (i + 1 ≤ j ∧ found.testBit j = true) ↔ (i ≤ j ∧ found.testBit j = true) := by
            constructor
            · rintro ⟨h1, h2⟩; exact ⟨by omega, h2⟩
            · rintro ⟨h1, h2⟩; exact ⟨by omega, h2⟩
          simp only [this]
          split
          · rfl
          · rw [List.getElem?_set_ne hij]
      · rw [if_neg hlen] at h; exact absurd h (by simp)
    · have hz : ¬ ((1 <<< i) &&& found ≠ 0) := fun hc => hbit ((bit_and_ne_zero found i).1 hc)
      rw [if_neg hz] at h
      by_cases hgt : 1 <<< i > found
      · rw [if_pos hgt] at h
        cases h
        refine ⟨rfl, fun j => ?_⟩
        split
        · rename_i hc
          exfalso
          have hlt : found < 2 ^ j := by
            rw [Nat.one_shiftLeft] at hgt
            exact Nat.lt_of_lt_of_le hgt (Nat.pow_le_pow_right (by decide) hc.1)
          rw [Nat.testBit_lt_two_pow hlt] at hc
          exact absurd hc.2 (by simp)
        · rfl
      · rw [if_neg hgt] at h
        obtain ⟨hl, hj⟩ := ih _ _ _ h
        refine ⟨hl, fun j => ?_⟩
        rw [hj j]
        by_cases hij : i = j
        · subst hij
          simp [hbit]
        · have : (i + 1 ≤ j ∧ found.testBit j = true) ↔ (i ≤ j ∧ found.testBit j = true) := by
            constructor
            · rintro ⟨h1, h2⟩; exact ⟨by omega, h2⟩
            · rintro ⟨h1, h2⟩; exact ⟨by omega, h2⟩
          simp only [this]

theorem node_get_authority_step {view : Nat → Option NodeView} {n : Nat} {v : NodeView}
    (hv : view n = some v) (fuel g : Nat) :
    node_get_authority view (fuel + 1) n g =
      if v.differences &&& g ≠ 0 then some n
      else match v.parent with
        | none => none
        | some parent => node_get_authority view fuel parent g := by
  rw [node_get_authority, hv]

theorem node_resolve_authorities_spec (view : Nat → Option NodeView) :
    ∀ (fuel n remaining : Nat) (authorities out : List (Option Nat)),
      node_resolve_authorities view fuel n remaining authorities = some out →
      out.length = authorities.length ∧
        ∀ j, (remaining.testBit j = true →
            ∃ a, out[j]? = some (some a) ∧ node_get_authority view fuel n (1 <<< j) = some a) ∧
          (remaining.testBit j = false → out[j]? = authorities[j]?) := by
  intro fuel
  induction fuel with
  | zero => intro n remaining authorities out h; simp [node_resolve_authorities] at h
  | succ k ih =>
    intro n remaining authorities out h
    rw [node_resolve_authorities] at h
    cases hv : view n with
    | none => rw [hv] at h; exact absurd h (by simp)
    | some v =>
      rw [hv] at h
      dsimp only at h
      have hfound : ∀ j, (v.differences &&& remaining).testBit j =
          (v.differences.testBit j && remaining.testBit j) := fun j => Nat.testBit_and _ _ j
      by_cases hz : v.differences &&& remaining = 0
      · rw [if_pos hz] at h
        have hnone : ∀ j, remaining.testBit j = true → v.differences.testBit j = false := by
          intro j hr
          have := hfound j
          rw [hz, hr] at this
          simpa using this.symm
        cases hp : v.parent with
        | none =>
          rw [hp] at h
          dsimp only at h
          by_cases hr0 : remaining = 0
          · rw [if_pos hr0] at h
            cases h
            subst hr0
            exact ⟨rfl, fun j => ⟨fun hc => by simp at hc, fun _ => rfl⟩⟩
          · rw [if_neg hr0] at h; exact absurd h (by simp)
        | some parent =>
          rw [hp] at h
          dsimp only at h
          obtain ⟨hl, hj⟩ := ih _ _ _ _ h
          refine ⟨hl, fun j => ⟨fun hr => ?_, (hj j).2⟩⟩
          obtain ⟨a, ha1, ha2⟩ := (hj j).1 hr
          refine ⟨a, ha1, ?_⟩
          rw [node_get_authority_step hv, if_neg, hp]
          · exact ha2
          · intro hc
            have := (and_bit_ne_zero _ _).1 hc
            rw [hnone j hr] at this
            exact absurd this (by simp)
      · rw [if_neg hz] at h
        cases hs : resolve_authorities_store (v.differences &&& remaining) n
            ((v.differences &&& remaining) + 1) 0 authorities with
        | none => rw [hs] at h; exact absurd h (by simp)
        | some stored =>
          rw [hs] at h
          dsimp only at h
          obtain ⟨hsl, hsj⟩ := resolve_authorities_store_spec _ _ _ _ _ _ hs
          have hself : ∀ j, v.differences.testBit j = true →
              node_get_authority view (k + 1) n (1 <<< j) = some n := by
            intro j hd
            rw [node_get_authority_step hv, if_pos ((and_bit_ne_zero _ _).2 hd)]
          by_cases hc0 : mask_clear remaining (v.differences &&& remaining) = 0
          · rw [if_pos hc0] at h
            cases h
            refine ⟨hsl, fun j => ⟨fun hr => ?_, fun hr => ?_⟩⟩
            · have hcj := testBit_mask_clear remaining (v.differences &&& remaining) j
              rw [hc0, hfound, hr] at hcj
              have hd : v.differences.testBit j = true := by
                cases hd : v.differences.testBit j
                · rw [hd] at hcj; simp at hcj
                · rfl
              refine ⟨n, ?_, hself j hd⟩
              rw [hsj j, hfound, hd, hr]
              simp
            · rw [hsj j, hfound, hr]
              simp
          · rw [if_neg hc0] at h
            cases hp : v.parent with
            | none => rw [hp] at h; exact absurd h (by simp)
            | some parent =>
              rw [hp] at h
              dsimp only at h
              obtain ⟨hl, hj⟩ := ih _ _ _ _ h
              refine ⟨by rw [hl, hsl], fun j => ⟨fun hr => ?_, fun hr => ?_⟩⟩
              · cases hd : v.differences.testBit j
                · have hcj : (mask_clear remaining (v.differences &&& remaining)).testBit j =
                      true := by
                    rw [testBit_mask_clear, hfound, hr, hd]; rfl
                  obtain ⟨a, ha1, ha2⟩ := (hj j).1 hcj
                  refine ⟨a, ha1, ?_⟩
                  rw [node_get_authority_step hv, if_neg, hp]
                  · exact ha2
                  · intro hc
                    have := (and_bit_ne_zero _ _).1 hc
                    rw [hd] at this
                    exact absurd this (by simp)
                · have hcj : (mask_clear remaining (v.differences &&& remaining)).testBit j =
                      false := by
                    rw [testBit_mask_clear, hfound, hr, hd]; rfl
                  refine ⟨n, ?_, hself j hd⟩
                  rw [(hj j).2 hcj, hsj j, hfound, hd, hr]
                  simp
              · have hcj : (mask_clear remaining (v.differences &&& remaining)).testBit j =
                    false := by
                  rw [testBit_mask_clear, hr]; rfl
                rw [(hj j).2 hcj, hsj j, hfound, hr]
                simp

theorem node_get_authority_find (view : Nat → Option NodeView) (g : Nat) :
    ∀ (path : List Nat) (n fuel : Nat), node_path view n path → path.length ≤ fuel →
      node_get_authority view fuel n g =
        path.find? (fun m => decide (node_asserts view g m)) := by
  intro path
  induction path with
  | nil => intro n fuel h; exact absurd h (by simp [node_path])
  | cons x rest ih =>
    intro n fuel hpath hfuel
    obtain ⟨k, rfl⟩ : ∃ k, fuel = k + 1 := ⟨fuel - 1, by simp at hfuel; omega⟩
    have hx : x = n := by
      obtain ⟨r, hr⟩ := node_path_head hpath
      exact (List.cons.inj hr).1
    subst hx
    obtain ⟨v, hv⟩ : ∃ v, view x = some v := by
      have := node_path_valid _ _ hpath x (by simp)
      exact Option.isSome_iff_exists.mp this
    rw [node_get_authority_step hv, List.find?_cons]
    by_cases hass : v.differences &&& g ≠ 0
    · have : node_asserts view g x := by simp [node_asserts, hv, hass]
      simp [hass, this]
    · have hnot : ¬ node_asserts view g x := by simp [node_asserts, hv, hass]
      rw [if_neg hass]
      simp only [hnot, decide_False]
      cases rest with
      | nil =>
        simp only [node_path, hv, Option.map_some', true_and] at hpath
        rw [Option.some.inj hpath]
        rfl
      | cons b rest2 =>
        simp only [node_path, hv, Option.map_some', true_and] at hpath
        rw [Option.some.inj hpath.1]
        exact ih b k hpath.2 (by simp at hfuel ⊢; omega)

theorem testBit_union_of_differences (view : Nat → Option NodeView) (i : Nat) :
    ∀ (nodes : List Nat), (union_of_differences view nodes).testBit i =
      nodes.any (fun m => decide (node_asserts view (1 <<< i) m)) := by
  intro nodes
  induction nodes with
  | nil => simp [union_of_differences]
  | cons x rest ih =>
    have hsplit : union_of_differences view (x :: rest) =
        union_of_differences view [x] ||| union_of_differences view rest :=
      union_of_differences_append view [x] rest
    rw [hsplit, Nat.testBit_or, ih, List.any_cons]
    congr 1
    cases hv : view x with
    | none => simp [union_of_differences, node_asserts, hv]
    | some v =>
      simp only [union_of_differences, List.foldl, hv, Option.map_some', Option.getD_some,
        Nat.zero_or, node_asserts]
      by_cases hb : v.differences.testBit i = true
      · rw [hb]
        have := (and_bit_ne_zero v.differences i).2 hb
        simp [this]
      · have hb2 : v.differences.testBit i = false := by simpa using hb
        rw [hb2]
        have : ¬ (v.differences &&& (1 <<< i) ≠ 0) := fun hc => hb ((and_bit_ne_zero _ _).1 hc)
        simp only [ne_eq, Decidable.not_not] at this
        simp [this]

theorem unless_done_true {β : Type} {check : Option Bool} {done : β × Bool}
    {out : β} {tail : Option (β × Bool)} (hdone : done.2 = false)
    (h : unless_done check done tail = some (out, true)) :
    check = some true ∧ tail = some (out, true) := by
  unfold unless_done at h
  cases check with
  | none => exact absurd h (by simp)
  | some b =>
    cases b with
    | false =>
      simp only [Option.some.injEq] at h
      rw [h] at hdone
      exact absurd hdone (by simp)
    | true => exact ⟨rfl, h⟩
theorem state_comparitor_some (fns : CoglPipelineStateFuncs) (i : Nat) (hi : i < 13)
    (h2 : i ≠ COGL_PIPELINE_STATE_LAYERS_INDEX) : ∃ cmp, state_comparitor fns i = some cmp := by
  interval_cases i <;> first | exact absurd rfl h2 | exact ⟨_, rfl⟩

theorem pipeline_equal_groups_true {fns : CoglPipelineStateFuncs} {ctx out : CoglContext}
    {fuel : Nat} {rbe0 : Bool} {pd : Nat} {A0 A1 : List (Option Nat)} {lm flags : Nat}
    (h : pipeline_equal_groups fns ctx fuel rbe0 pd A0 A1 lm flags = some (out, true)) :
    (∀ i, i < 13 → i ≠ COGL_PIPELINE_STATE_BLEND_ENABLE_INDEX →
        i ≠ COGL_PIPELINE_STATE_LAYERS_INDEX →
        (i = COGL_PIPELINE_STATE_BLEND_INDEX → rbe0 = true) →
        ∃ cmp, state_comparitor fns i = some cmp ∧
          simple_property_equal ctx A0 A1 pd i cmp = some true) ∧
      (if pd &&& COGL_PIPELINE_STATE_LAYERS ≠ 0 then
        ∃ a0 a1, A0[COGL_PIPELINE_STATE_LAYERS_INDEX]? = some (some a0) ∧
          A1[COGL_PIPELINE_STATE_LAYERS_INDEX]? = some (some a1) ∧
          _cogl_pipeline_layers_equal fns ctx fuel a0 a1 lm flags = some (out, true)
      else out = ctx) := by
  unfold pipeline_equal_groups at h
  dsimp only at h
  obtain ⟨h0, h⟩ := unless_done_true rfl h
  obtain ⟨h3, h⟩ := unless_done_true rfl h
  obtain ⟨h4, h⟩ := unless_done_true rfl h
  obtain ⟨h5, h⟩ := unless_done_true rfl h
  obtain ⟨h6, h⟩ := unless_done_true rfl h
  obtain ⟨h8, h⟩ := unless_done_true rfl h
  obtain ⟨h9, h⟩ := unless_done_true rfl h
  obtain ⟨h12, h⟩ := unless_done_true rfl h
  obtain ⟨h10, h⟩ := unless_done_true rfl h
  obtain ⟨h11, h⟩ := unless_done_true rfl h
  obtain ⟨h7, h⟩ := unless_done_true rfl h
  refine ⟨fun i hi h1 h2 hb => ?_, ?_⟩
  · interval_cases i
    · exact ⟨_, rfl, h0⟩
    · exact absurd rfl h1
    · exact absurd rfl h2
    · exact ⟨_, rfl, h3⟩
    · exact ⟨_, rfl, h4⟩
    · exact ⟨_, rfl, h5⟩
    · rw [hb rfl] at h6
      exact ⟨_, rfl, h6⟩
    · exact ⟨_, rfl, h7⟩
    · exact ⟨_, rfl, h8⟩
    · exact ⟨_, rfl, h9⟩
    · exact ⟨_, rfl, h10⟩
    · exact ⟨_, rfl, h11⟩
    · exact ⟨_, rfl, h12⟩
  · split
    · rename_i hl
      rw [if_pos hl] at h
      split at h
      · rename_i a0 a1 e0 e1
        exact ⟨a0, a1, e0, e1, h⟩
      · exact absurd h (by simp)
    · rename_i hl
      rw [if_neg hl] at h
      simp only [Option.some.injEq, Prod.mk.injEq, and_true] at h
      exact h.symm

theorem pipeline_equal_groups_of_checks {fns : CoglPipelineStateFuncs} {ctx : CoglContext}
    {fuel : Nat} {rbe0 : Bool} {pd : Nat} {A0 A1 : List (Option Nat)} {lm flags : Nat}
    (hsimple : ∀ i, i < 13 → i ≠ COGL_PIPELINE_STATE_BLEND_ENABLE_INDEX →
        i ≠ COGL_PIPELINE_STATE_LAYERS_INDEX →
        ∀ cmp, state_comparitor fns i = some cmp →
          simple_property_equal ctx A0 A1 pd i cmp = some true)
    (hlayers : pd &&& COGL_PIPELINE_STATE_LAYERS ≠ 0 →
        ∃ a0 a1 out, A0[COGL_PIPELINE_STATE_LAYERS_INDEX]? = some (some a0) ∧
          A1[COGL_PIPELINE_STATE_LAYERS_INDEX]? = some (some a1) ∧
          _cogl_pipeline_layers_equal fns ctx fuel a0 a1 lm flags = some (out, true)) :
    ∃ out, pipeline_equal_groups fns ctx fuel rbe0 pd A0 A1 lm flags = some (out, true) := by
  unfold pipeline_equal_groups
  dsimp only
  have e0 : simple_property_equal ctx A0 A1 pd COGL_PIPELINE_STATE_COLOR_INDEX
      (fun a0 a1 => cogl_color_equal a0.color a1.color) = some true :=
    hsimple 0 (by decide) (by decide) (by decide) _ rfl
  have e3 : simple_property_equal ctx A0 A1 pd COGL_PIPELINE_STATE_LIGHTING_INDEX
      fns.lighting_state_equal = some true :=
    hsimple 3 (by decide) (by decide) (by decide) _ rfl
  have e4 : simple_property_equal ctx A0 A1 pd COGL_PIPELINE_STATE_ALPHA_FUNC_INDEX
      fns.alpha_func_state_equal = some true :=
    hsimple 4 (by decide) (by decide) (by decide) _ rfl
  have e5 : simple_property_equal ctx A0 A1 pd COGL_PIPELINE_STATE_ALPHA_FUNC_REFERENCE_INDEX
      fns.alpha_func_reference_state_equal = some true :=
    hsimple 5 (by decide) (by decide) (by decide) _ rfl
  have e6 : simple_property_equal ctx A0 A1 pd COGL_PIPELINE_STATE_BLEND_INDEX
      fns.blend_state_equal = some true :=
    hsimple 6 (by decide) (by decide) (by decide) _ rfl
  have e7 : simple_property_equal ctx A0 A1 pd COGL_PIPELINE_STATE_USER_SHADER_INDEX
      fns.user_shader_equal = some true :=
    hsimple 7 (by decide) (by decide) (by decide) _ rfl
  have e8 : simple_property_equal ctx A0 A1 pd COGL_PIPELINE_STATE_DEPTH_INDEX
      fns.depth_state_equal = some true :=
    hsimple 8 (by decide) (by decide) (by decide) _ rfl
  have e9 : simple_property_equal ctx A0 A1 pd COGL_PIPELINE_STATE_FOG_INDEX
      fns.fog_state_equal = some true :=
    hsimple 9 (by decide) (by decide) (by decide) _ rfl
  have e10 : simple_property_equal ctx A0 A1 pd COGL_PIPELINE_STATE_POINT_SIZE_INDEX
      fns.point_size_equal = some true :=
    hsimple 10 (by decide) (by decide) (by decide) _ rfl
  have e11 : simple_property_equal ctx A0 A1 pd COGL_PIPELINE_STATE_LOGIC_OPS_INDEX
      fns.logic_ops_state_equal = some true :=
    hsimple 11 (by decide) (by decide) (by decide) _ rfl
  have e12 : simple_property_equal ctx A0 A1 pd COGL_PIPELINE_STATE_CULL_FACE_INDEX
      fns.cull_face_state_equal = some true :=
    hsimple 12 (by decide) (by decide) (by decide) _ rfl
  rw [e0, e3, e4, e5, e6, e7, e8, e9, e10, e11, e12]
  simp only [unless_done, ite_self]
  by_cases hl : pd &&& COGL_PIPELINE_STATE_LAYERS ≠ 0
  · obtain ⟨a0, a1, out, e0, e1, he⟩ := hlayers hl
    rw [if_pos hl, e0, e1]
    exact ⟨out, he⟩
  · rw [if_neg hl]
    exact ⟨ctx, rfl⟩

theorem sparse_bit_and (i : Nat) (hi : i < 13) :
    (1 <<< i) ≠ 0 ∧ (1 <<< i) &&& COGL_PIPELINE_STATE_ALL_SPARSE = 1 <<< i := by
  interval_cases i <;> decide

theorem authority_above_common {view : Nat → Option NodeView} {p c : Nat} {xs ct : List Nat}
    {g fuel : Nat} (hp : node_path view p (xs ++ c :: ct))
    (hxs : ∀ m ∈ xs, ¬ node_asserts view g m) (hfuel : (xs ++ c :: ct).length ≤ fuel) :
    node_get_authority view fuel p g =
      (c :: ct).find? (fun m => decide (node_asserts view g m)) := by
  rw [node_get_authority_find view g _ _ _ hp hfuel, List.find?_append]
  have : xs.find? (fun m => decide (node_asserts view g m)) = none := by
    rw [List.find?_eq_none]
    intro m hm
    simpa using hxs m hm
  rw [this]
  rfl

theorem rooted_find_some {view : Nat → Option NodeView} {root mask g : Nat} {path : List Nat}
    (hlast : path.getLast? = some root) (hroot : node_asserts_all view mask root)
    (hg : g ≠ 0) (hsub : g &&& mask = g) :
    ∃ a, path.find? (fun m => decide (node_asserts view g m)) = some a ∧ a ∈ path := by
  have hmem : root ∈ path := List.mem_of_getLast?_eq_some hlast
  have hass := node_asserts_of_all hroot hg hsub
  cases hf : path.find? (fun m => decide (node_asserts view g m)) with
  | none =>
    rw [List.find?_eq_none] at hf
    exact absurd hass (by simpa using hf root hmem)
  | some a => exact ⟨a, rfl, List.mem_of_find?_eq_some hf⟩

theorem comparator_holds_of_simple {fns : CoglPipelineStateFuncs} {ctx : CoglContext}
    {fuel p0 p1 pd i a0 a1 : Nat} {A0 A1 : List (Option Nat)}
    {cmp : CoglPipeline → CoglPipeline → Bool}
    (hpd : pd &&& (1 <<< i) ≠ 0) (hcmp : state_comparitor fns i = some cmp)
    (hA0 : A0[i]? = some (some a0)) (hA1 : A1[i]? = some (some a1))
    (hg0 : _cogl_pipeline_get_authority ctx fuel p0 (1 <<< i) = some a0)
    (hg1 : _cogl_pipeline_get_authority ctx fuel p1 (1 <<< i) = some a1)
    (hs : simple_property_equal ctx A0 A1 pd i cmp = some true) :
    comparator_holds fns ctx fuel p0 p1 i = true := by
  simp only [simple_property_equal, if_pos hpd, authority_record, hA0, hA1] at hs
  simp only [comparator_holds, hg0, hg1, hcmp]
  cases h0 : ctx.pipeline a0 with
  | none => rw [h0] at hs; exact absurd hs (by simp)
  | some r0 =>
    cases h1 : ctx.pipeline a1 with
    | none => rw [h0, h1] at hs; exact absurd hs (by simp)
    | some r1 =>
      rw [h0, h1] at hs
      simpa using hs

theorem simple_of_comparator_holds {fns : CoglPipelineStateFuncs} {ctx : CoglContext}
    {fuel p0 p1 pd i a0 a1 : Nat} {A0 A1 : List (Option Nat)}
    {cmp : CoglPipeline → CoglPipeline → Bool}
    (hcmp : state_comparitor fns i = some cmp)
    (hA0 : A0[i]? = some (some a0)) (hA1 : A1[i]? = some (some a1))
    (hg0 : _cogl_pipeline_get_authority ctx fuel p0 (1 <<< i) = some a0)
    (hg1 : _cogl_pipeline_get_authority ctx fuel p1 (1 <<< i) = some a1)
    (hc : comparator_holds fns ctx fuel p0 p1 i = true) :
    simple_property_equal ctx A0 A1 pd i cmp = some true := by
  simp only [comparator_holds, hg0, hg1, hcmp] at hc
  simp only [simple_property_equal, authority_record, hA0, hA1]
  split
  · cases h0 : ctx.pipeline a0 with
    | none => rw [h0] at hc; exact absurd hc (by simp)
    | some r0 =>
      cases h1 : ctx.pipeline a1 with
      | none => rw [h0, h1] at hc; exact absurd hc (by simp)
      | some r1 =>
        rw [h0, h1] at hc
        simpa using hc
  · rfl

theorem pipeline_of_mem_path {ctx : CoglContext} {p a : Nat} {path : List Nat}
    (hp : pipeline_path ctx p path) (ha : a ∈ path) : ∃ r, ctx.pipeline a = some r := by
  have := node_path_valid _ _ hp a ha
  unfold pipeline_view at this
  cases h : ctx.pipeline a with
  | none => rw [h] at this; exact absurd this (by simp)
  | some r => exact ⟨r, rfl⟩

/-- Two pipelines below a common ancestor, neither of whose branches asserts the
group `g`, resolve `g` on the same pipeline, which is a node of the shared chain. -/
theorem same_authority_above_common {ctx : CoglContext} {p0 p1 c root : Nat}
    {xs ys ct : List Nat} {g fuel : Nat}
    (hp0 : pipeline_path ctx p0 (xs ++ c :: ct)) (hp1 : pipeline_path ctx p1 (ys ++ c :: ct))
    (hf0 : (xs ++ c :: ct).length ≤ fuel) (hf1 : (ys ++ c :: ct).length ≤ fuel)
    (hlast : (c :: ct).getLast? = some root)
    (hroot : node_asserts_all (pipeline_view ctx) COGL_PIPELINE_STATE_ALL_SPARSE root)
    (hg : g ≠ 0) (hsub : g &&& COGL_PIPELINE_STATE_ALL_SPARSE = g)
    (hno : ∀ m ∈ xs ++ ys, ¬ node_asserts (pipeline_view ctx) g m) :
    ∃ a r, _cogl_pipeline_get_authority ctx fuel p0 g = some a ∧
      _cogl_pipeline_get_authority ctx fuel p1 g = some a ∧ ctx.pipeline a = some r := by
  obtain ⟨a, hfind, hmem⟩ := rooted_find_some hlast hroot hg hsub
  have h0 := authority_above_common hp0 (fun m hm => hno m (List.mem_append_left _ hm)) hf0
  have h1 := authority_above_common hp1 (fun m hm => hno m (List.mem_append_right _ hm)) hf1
  obtain ⟨r, hr⟩ := pipeline_of_mem_path hp0 (List.mem_append_right _ hmem)
  refine ⟨a, r, ?_, ?_, hr⟩
  · rw [pipeline_get_authority_eq, h0, hfind]
  · rw [pipeline_get_authority_eq, h1, hfind]

/-! ## Equality under a mask -/

theorem equal_unfold {fns : CoglPipelineStateFuncs} {ctx : CoglContext}
    {fuel p0 p1 mask lm flags d : Nat} {n0 n1 : CoglPipeline} (hne : p0 ≠ p1)
    (hn0 : ctx.pipeline p0 = some n0) (hn1 : ctx.pipeline p1 = some n1)
    (hd : _cogl_pipeline_compare_differences ctx fuel p0 p1 = some d) :
    _cogl_pipeline_equal fns ctx fuel p0 p1 mask lm flags =
      if mask &&& COGL_PIPELINE_STATE_REAL_BLEND_ENABLE ≠ 0 ∧
          n0.real_blend_enable ≠ n1.real_blend_enable then some (ctx, false)
      else
        match node_resolve_authorities (pipeline_view ctx) fuel p0 (d &&& mask)
            (List.replicate 13 none),
          node_resolve_authorities (pipeline_view ctx) fuel p1 (d &&& mask)
            (List.replicate 13 none) with
        | some A0, some A1 =>
          pipeline_equal_groups fns ctx fuel n0.real_blend_enable (d &&& mask) A0 A1 lm flags
        | _, _ => none := by
  unfold _cogl_pipeline_equal
  rw [if_neg hne, hn0, hn1]
  dsimp only
  rw [hd]
  rfl

theorem equal_true_parts {fns : CoglPipelineStateFuncs} {ctx out : CoglContext}
    {fuel p0 p1 mask lm flags d : Nat} {n0 n1 : CoglPipeline} (hne : p0 ≠ p1)
    (hn0 : ctx.pipeline p0 = some n0) (hn1 : ctx.pipeline p1 = some n1)
    (hd : _cogl_pipeline_compare_differences ctx fuel p0 p1 = some d)
    (heq : _cogl_pipeline_equal fns ctx fuel p0 p1 mask lm flags = some (out, true)) :
    (mask &&& COGL_PIPELINE_STATE_REAL_BLEND_ENABLE ≠ 0 →
        n0.real_blend_enable = n1.real_blend_enable) ∧
      ∃ A0 A1,
        node_resolve_authorities (pipeline_view ctx) fuel p0 (d &&& mask)
          (List.replicate 13 none) = some A0 ∧
        node_resolve_authorities (pipeline_view ctx) fuel p1 (d &&& mask)
          (List.replicate 13 none) = some A1 ∧
        pipeline_equal_groups fns ctx fuel n0.real_blend_enable (d &&& mask) A0 A1 lm flags =
          some (out, true) := by
  rw [equal_unfold hne hn0 hn1 hd] at heq
  split at heq
  · simp at heq
  · rename_i hrbe
    refine ⟨fun hm => ?_, ?_⟩
    · by_contra hc
      exact hrbe ⟨hm, hc⟩
    · split at heq
      · rename_i A0 A1 e0 e1
        exact ⟨A0, A1, e0, e1, heq⟩
      · exact absurd heq (by simp)

theorem not_asserts_of_union_bit {view : Nat → Option NodeView} {nodes : List Nat} {i : Nat}
    (h : (union_of_differences view nodes).testBit i = false) :
    ∀ m ∈ nodes, ¬ node_asserts view (1 <<< i) m := by
  rw [testBit_union_of_differences] at h
  intro m hm hass
  have : nodes.any (fun m => decide (node_asserts view (1 <<< i) m)) = true :=
    List.any_eq_true.mpr ⟨m, hm, by simpa using hass⟩
  rw [h] at this
  exact absurd this (by simp)

/-- The groups that `_cogl_pipeline_equal` leaves uncompared because no node below
the common ancestor asserts them, and the groups it compares, as the conclusion of a
comparison that returned true. -/
theorem equal_true_group {fns : CoglPipelineStateFuncs} {ctx out : CoglContext}
    {fuel p0 p1 c root : Nat} {xs ys ct : List Nat} {mask lm flags : Nat}
    {n0 : CoglPipeline} {A0 A1 : List (Option Nat)}
    (hp0 : pipeline_path ctx p0 (xs ++ c :: ct)) (hp1 : pipeline_path ctx p1 (ys ++ c :: ct))
    (hf0 : (xs ++ c :: ct).length ≤ fuel) (hf1 : (ys ++ c :: ct).length ≤ fuel)
    (hlast : (c :: ct).getLast? = some root)
    (hroot : node_asserts_all (pipeline_view ctx) COGL_PIPELINE_STATE_ALL_SPARSE root)
    (hrefl : ∀ i cmp r, state_comparitor fns i = some cmp → cmp r r = true)
    (hA0 : node_resolve_authorities (pipeline_view ctx) fuel p0
      (union_of_differences (pipeline_view ctx) (xs ++ ys) &&& mask)
      (List.replicate 13 none) = some A0)
    (hA1 : node_resolve_authorities (pipeline_view ctx) fuel p1
      (union_of_differences (pipeline_view ctx) (xs ++ ys) &&& mask)
      (List.replicate 13 none) = some A1)
    (hgroups : pipeline_equal_groups fns ctx fuel n0.real_blend_enable
      (union_of_differences (pipeline_view ctx) (xs ++ ys) &&& mask) A0 A1 lm flags =
        some (out, true))
    (i : Nat) (hi : i < 13) (hm : mask &&& (1 <<< i) ≠ 0)
    (h1 : i ≠ COGL_PIPELINE_STATE_BLEND_ENABLE_INDEX) (h2 : i ≠ COGL_PIPELINE_STATE_LAYERS_INDEX)
    (hb : i = COGL_PIPELINE_STATE_BLEND_INDEX → n0.real_blend_enable = true) :
    comparator_holds fns ctx fuel p0 p1 i = true := by
  obtain ⟨hg, hsub⟩ := sparse_bit_and i hi
  have hmbit := (and_bit_ne_zero mask i).1 hm
  by_cases hd : (union_of_differences (pipeline_view ctx) (xs ++ ys)).testBit i = true
  · have hpd : (union_of_differences (pipeline_view ctx) (xs ++ ys) &&& mask).testBit i =
        true := by rw [Nat.testBit_and, hd, hmbit]; rfl
    obtain ⟨cmp, hcmp, hs⟩ := (pipeline_equal_groups_true hgroups).1 i hi h1 h2 hb
    obtain ⟨a0, e0, g0⟩ := ((node_resolve_authorities_spec _ _ _ _ _ _ hA0).2 i).1 hpd
    obtain ⟨a1, e1, g1⟩ := ((node_resolve_authorities_spec _ _ _ _ _ _ hA1).2 i).1 hpd
    rw [← pipeline_get_authority_eq] at g0 g1
    exact comparator_holds_of_simple ((and_bit_ne_zero _ i).2 hpd) hcmp e0 e1 g0 g1 hs
  · have hd2 : (union_of_differences (pipeline_view ctx) (xs ++ ys)).testBit i = false := by
      simpa using hd
    obtain ⟨a, r, g0, g1, hr⟩ := same_authority_above_common hp0 hp1 hf0 hf1 hlast hroot hg hsub
      (not_asserts_of_union_bit hd2)
    obtain ⟨cmp, hcmp⟩ := state_comparitor_some fns i hi h2
    simp only [comparator_holds, g0, g1, hcmp, hr]
    exact hrefl i cmp r hcmp

theorem equal_true_layers {fns : CoglPipelineStateFuncs} {ctx out : CoglContext}
    {fuel p0 p1 c root : Nat} {xs ys ct : List Nat} {mask lm flags : Nat}
    {rbe0 : Bool} {A0 A1 : List (Option Nat)}
    (hp0 : pipeline_path ctx p0 (xs ++ c :: ct)) (hp1 : pipeline_path ctx p1 (ys ++ c :: ct))
    (hf0 : (xs ++ c :: ct).length ≤ fuel) (hf1 : (ys ++ c :: ct).length ≤ fuel)
    (hlast : (c :: ct).getLast? = some root)
    (hroot : node_asserts_all (pipeline_view ctx) COGL_PIPELINE_STATE_ALL_SPARSE root)
    (hA0 : node_resolve_authorities (pipeline_view ctx) fuel p0
      (union_of_differences (pipeline_view ctx) (xs ++ ys) &&& mask)
      (List.replicate 13 none) = some A0)
    (hA1 : node_resolve_authorities (pipeline_view ctx) fuel p1
      (union_of_differences (pipeline_view ctx) (xs ++ ys) &&& mask)
      (List.replicate 13 none) = some A1)
    (hgroups : pipeline_equal_groups fns ctx fuel rbe0
      (union_of_differences (pipeline_view ctx) (xs ++ ys) &&& mask) A0 A1 lm flags =
        some (out, true))
    (hm : mask &&& COGL_PIPELINE_STATE_LAYERS ≠ 0) :
    layers_comparator_holds fns ctx fuel p0 p1 lm flags = true := by
  have hL : COGL_PIPELINE_STATE_LAYERS = 1 <<< 2 := by decide
  obtain ⟨hg, hsub⟩ := sparse_bit_and 2 (by decide)
  rw [hL] at hm
  have hmbit := (and_bit_ne_zero mask 2).1 hm
  by_cases hd : (union_of_differences (pipeline_view ctx) (xs ++ ys)).testBit 2 = true
  · have hpd : (union_of_differences (pipeline_view ctx) (xs ++ ys) &&& mask).testBit 2 =
        true := by rw [Nat.testBit_and, hd, hmbit]; rfl
    have hl := (pipeline_equal_groups_true hgroups).2
    rw [hL, if_pos ((and_bit_ne_zero _ 2).2 hpd)] at hl
    obtain ⟨a0, a1, e0, e1, hle⟩ := hl
    obtain ⟨b0, f0, g0⟩ := ((node_resolve_authorities_spec _ _ _ _ _ _ hA0).2 2).1 hpd
    obtain ⟨b1, f1, g1⟩ := ((node_resolve_authorities_spec _ _ _ _ _ _ hA1).2 2).1 hpd
    have hi2 : COGL_PIPELINE_STATE_LAYERS_INDEX = 2 := rfl
    rw [hi2] at e0 e1
    rw [e0] at f0
    rw [e1] at f1
    simp only [Option.some.injEq] at f0 f1
    subst f0 f1
    rw [← pipeline_get_authority_eq] at g0 g1
    simp only [layers_comparator_holds, hL, g0, g1, hle]
    split <;> rfl
  · have hd2 : (union_of_differences (pipeline_view ctx) (xs ++ ys)).testBit 2 = false := by
      simpa using hd
    obtain ⟨a, r, g0, g1, hr⟩ := same_authority_above_common hp0 hp1 hf0 hf1 hlast hroot hg hsub
      (not_asserts_of_union_bit hd2)
    simp only [layers_comparator_holds, hL, g0, g1, if_true]

theorem option_pair_of_snd {α β : Type} {x : Option (α × β)} {d : α} {b : β}
    (h : x.map Prod.snd = some b) : x = some ((x.map Prod.fst).getD d, b) := by
  cases x with
  | none => exact absurd h (by simp)
  | some v =>
    obtain ⟨v1, v2⟩ := v
    simp only [Option.map_some', Option.some.injEq] at h
    subst h
    rfl

theorem state_comparitor_none (fns : CoglPipelineStateFuncs) (i : Nat) (hi : 13 ≤ i) :
    state_comparitor fns i = none := by
  unfold state_comparitor COGL_PIPELINE_STATE_COLOR_INDEX COGL_PIPELINE_STATE_BLEND_ENABLE_INDEX
    COGL_PIPELINE_STATE_LIGHTING_INDEX COGL_PIPELINE_STATE_ALPHA_FUNC_INDEX
    COGL_PIPELINE_STATE_ALPHA_FUNC_REFERENCE_INDEX COGL_PIPELINE_STATE_BLEND_INDEX
    COGL_PIPELINE_STATE_USER_SHADER_INDEX COGL_PIPELINE_STATE_DEPTH_INDEX
    COGL_PIPELINE_STATE_FOG_INDEX COGL_PIPELINE_STATE_POINT_SIZE_INDEX
    COGL_PIPELINE_STATE_LOGIC_OPS_INDEX COGL_PIPELINE_STATE_CULL_FACE_INDEX
  iterate 12 rw [if_neg (show ¬ i = _ by omega)]

theorem reference_funcs_reflexive (i : Nat) (cmp : CoglPipeline → CoglPipeline → Bool)
    (r : CoglPipeline) (h : state_comparitor reference_funcs i = some cmp) : cmp r r = true := by
  by_cases hi : i < 13
  · interval_cases i <;>
      first
      | (injection h with h; subst h; exact decide_eq_true rfl)
      | cases h
  · rw [state_comparitor_none reference_funcs i (by omega)] at h
    cases h

theorem resolve_authorities_store_total (found authority : Nat) :
    ∀ (fuel i : Nat) (authorities : List (Option Nat)), found < 2 ^ (i + fuel) →
      (∀ j, found.testBit j = true → j < authorities.length) →
      ∃ out, resolve_authorities_store found authority (fuel + 1) i authorities = some out := by
  intro fuel
  induction fuel with
  | zero =>
    intro i authorities hlt hlen
    rw [resolve_authorities_store]
    have hbit : found.testBit i = false := Nat.testBit_lt_two_pow (by simpa using hlt)
    have hz : ¬ ((1 <<< i) &&& found ≠ 0) := fun hc => by
      rw [(bit_and_ne_zero found i).1 hc] at hbit
      exact absurd hbit (by simp)
    rw [if_neg hz, if_pos (by rw [Nat.one_shiftLeft]; simpa using hlt)]
    exact ⟨_, rfl⟩
  | succ k ih =>
    intro i authorities hlt hlen
    rw [resolve_authorities_store]
    have hlt2 : found < 2 ^ (i + 1 + k) := by
      have : i + (k + 1) = i + 1 + k := by omega
      rw [← this]; exact hlt
    by_cases hbit : (1 <<< i) &&& found ≠ 0
    · rw [if_pos hbit, if_pos (hlen i ((bit_and_ne_zero found i).1 hbit))]
      exact ih (i + 1) _ hlt2 (by simpa using hlen)
    · rw [if_neg hbit]
      split
      · exact ⟨_, rfl⟩
      · exact ih (i + 1) _ hlt2 hlen

theorem resolve_authorities_store_some (found authority : Nat) (authorities : List (Option Nat))
    (hlen : ∀ j, found.testBit j = true → j < authorities.length) :
    ∃ out, resolve_authorities_store found authority (found + 1) 0 authorities =
      some out := by
  apply resolve_authorities_store_total found authority found 0 authorities _ hlen
  rw [Nat.zero_add]
  exact Nat.lt_two_pow found

theorem node_resolve_authorities_total (view : Nat → Option NodeView) :
    ∀ (path : List Nat) (n fuel remaining : Nat) (authorities : List (Option Nat)),
      node_path view n path → path.length ≤ fuel →
      (∀ j, remaining.testBit j = true →
        j < authorities.length ∧ ∃ m ∈ path, node_asserts view (1 <<< j) m) →
      ∃ out, node_resolve_authorities view fuel n remaining authorities = some out := by
  intro path
  induction path with
  | nil => intro n fuel remaining authorities h; exact absurd h (by simp [node_path])
  | cons x rest ih =>
    intro n fuel remaining authorities hpath hfuel hbits
    obtain ⟨k, rfl⟩ : ∃ k, fuel = k + 1 := ⟨fuel - 1, by simp at hfuel; omega⟩
    have hx : x = n := by
      obtain ⟨r, hr⟩ := node_path_head hpath
      exact (List.cons.inj hr).1
    subst hx
    obtain ⟨v, hv⟩ : ∃ v, view x = some v := by
      have := node_path_valid _ _ hpath x (by simp)
      exact Option.isSome_iff_exists.mp this
    have hassx : ∀ j, node_asserts view (1 <<< j) x ↔ v.differences.testBit j = true := by
      intro j
      simp only [node_asserts, hv, Option.map_some', Option.some.injEq, decide_eq_true_eq]
      exact and_bit_ne_zero _ _
    have hfound : ∀ j, (v.differences &&& remaining).testBit j =
        (v.differences.testBit j && remaining.testBit j) := fun j => Nat.testBit_and _ _ j
    rw [node_resolve_authorities, hv]
    dsimp only
    -- the bits still looked for above this node
    have hrest : ∀ j, remaining.testBit j = true → v.differences.testBit j = false →
        ∃ m ∈ rest, node_asserts view (1 <<< j) m := by
      intro j hr hd
      obtain ⟨m, hm, hass⟩ := (hbits j hr).2
      rcases List.mem_cons.mp hm with h | h
      · subst h
        rw [(hassx j).1 hass] at hd
        exact absurd hd (by simp)
      · exact ⟨m, h, hass⟩
    by_cases hz : v.differences &&& remaining = 0
    · rw [if_pos hz]
      have hnone : ∀ j, remaining.testBit j = true → v.differences.testBit j = false := by
        intro j hr
        have := hfound j
        rw [hz, hr] at this
        simpa using this.symm
      cases rest with
      | nil =>
        simp only [node_path, hv, Option.map_some', true_and] at hpath
        rw [Option.some.inj hpath]
        dsimp only
        by_cases hr0 : remaining = 0
        · rw [if_pos hr0]; exact ⟨_, rfl⟩
        · obtain ⟨j, hj⟩ := Nat.ne_zero_implies_bit_true hr0
          obtain ⟨m, hm, -⟩ := hrest j hj (hnone j hj)
          exact absurd hm (by simp)
      | cons b rest2 =>
        simp only [node_path, hv, Option.map_some', true_and] at hpath
        rw [Option.some.inj hpath.1]
        dsimp only
        exact ih b k remaining authorities hpath.2 (by simp at hfuel ⊢; omega)
          (fun j hj => ⟨(hbits j hj).1, hrest j hj (hnone j hj)⟩)
    · rw [if_neg hz]
      obtain ⟨stored, hs⟩ := resolve_authorities_store_some (v.differences &&& remaining) x
        authorities (fun j hj => by
          rw [hfound] at hj
          exact (hbits j (by simp at hj; exact hj.2)).1)
      rw [hs]
      dsimp only
      have hsl := (resolve_authorities_store_spec _ _ _ _ _ _ hs).1
      split
      · exact ⟨_, rfl⟩
      · rename_i hc0
        have hclear : ∀ j, (mask_clear remaining (v.differences &&& remaining)).testBit j =
            true → remaining.testBit j = true ∧ v.differences.testBit j = false := by
          intro j hj
          rw [testBit_mask_clear, hfound] at hj
          cases hr : remaining.testBit j <;> cases hd : v.differences.testBit j <;>
            simp [hr, hd] at hj ⊢
        cases rest with
        | nil =>
          obtain ⟨j, hj⟩ := Nat.ne_zero_implies_bit_true hc0
          obtain ⟨m, hm, -⟩ := hrest j (hclear j hj).1 (hclear j hj).2
          exact absurd hm (by simp)
        | cons b rest2 =>
          simp only [node_path, hv, Option.map_some', true_and] at hpath
          rw [Option.some.inj hpath.1]
          dsimp only
          exact ih b k _ stored hpath.2 (by simp at hfuel ⊢; omega)
            (fun j hj => ⟨by rw [hsl]; exact (hbits j (hclear j hj).1).1,
              hrest j (hclear j hj).1 (hclear j hj).2⟩)

theorem node_path_nodup {view : Nat → Option NodeView} :
    ∀ (path : List Nat) (n : Nat), node_path view n path → path.Nodup := by
  intro path
  induction path with
  | nil => intro n h; exact absurd h (by simp [node_path])
  | cons x rest ih =>
    intro n hpath
    rw [List.nodup_cons]
    constructor
    · intro hmem
      obtain ⟨l1, l2, hsplit⟩ := List.append_of_mem hmem
      have hp2 : node_path view n ((x :: l1) ++ x :: l2) := by
        rw [List.cons_append, ← hsplit]; exact hpath
      exact node_path_no_repeat hp2 (List.mem_cons_self _ _)
    · cases rest with
      | nil => exact List.nodup_nil
      | cons b rest2 =>
        have := node_path_suffix [x] n b rest2 hpath
        exact ih b this

theorem authorities_differ {view : Nat → Option NodeView} {p0 p1 c : Nat}
    {xs ys ct : List Nat} {g fuel a0 a1 : Nat}
    (hp0 : node_path view p0 (xs ++ c :: ct)) (hp1 : node_path view p1 (ys ++ c :: ct))
    (hmax : ∀ x y, xs.getLast? = some x → ys.getLast? = some y → x ≠ y)
    (hf0 : (xs ++ c :: ct).length ≤ fuel) (hf1 : (ys ++ c :: ct).length ≤ fuel)
    (hsome : ∃ m ∈ xs ++ ys, node_asserts view g m)
    (h0 : node_get_authority view fuel p0 g = some a0)
    (h1 : node_get_authority view fuel p1 g = some a1) : a0 ≠ a1 := by
  rw [node_get_authority_find view g _ _ _ hp0 hf0, List.find?_append] at h0
  rw [node_get_authority_find view g _ _ _ hp1 hf1, List.find?_append] at h1
  -- a node that lies in both branches contradicts the maximality of the shared chain
  have hboth : ∀ a, a ∈ xs → a ∈ ys → False := by
    intro a hx hy
    obtain ⟨x1, x2, hxs⟩ := List.append_of_mem hx
    obtain ⟨y1, y2, hys⟩ := List.append_of_mem hy
    have q0 : node_path view a ((a :: x2) ++ c :: ct) := by
      apply node_path_suffix x1 p0 a (x2 ++ c :: ct)
      have : x1 ++ a :: (x2 ++ c :: ct) = xs ++ c :: ct := by rw [hxs]; simp
      rw [this]; exact hp0
    have q1 : node_path view a ((a :: y2) ++ c :: ct) := by
      apply node_path_suffix y1 p1 a (y2 ++ c :: ct)
      have : y1 ++ a :: (y2 ++ c :: ct) = ys ++ c :: ct := by rw [hys]; simp
      rw [this]; exact hp1
    have hmax2 : ∀ x y, (a :: x2).getLast? = some x → (a :: y2).getLast? = some y → x ≠ y := by
      intro x y ex ey
      apply hmax x y
      · rw [hxs, List.getLast?_append, ex]; rfl
      · rw [hys, List.getLast?_append, ey]; rfl
    have := (same_node_no_branch q0 q1 hmax2).1
    exact absurd this (by simp)
  have hnd0 := node_path_nodup _ _ hp0
  have hnd1 := node_path_nodup _ _ hp1
  have hdis0 : ∀ a, a ∈ xs → a ∈ c :: ct → False := fun a hx hc =>
    (List.nodup_append.mp hnd0).2.2 hx hc
  have hdis1 : ∀ a, a ∈ ys → a ∈ c :: ct → False := fun a hy hc =>
    (List.nodup_append.mp hnd1).2.2 hy hc
  intro heq
  subst heq
  obtain ⟨m, hm, hass⟩ := hsome
  have hfindmem : ∀ (l : List Nat) (a : Nat),
      l.find? (fun m => decide (node_asserts view g m)) = some a → a ∈ l :=
    fun l a h => List.mem_of_find?_eq_some h
  have hfindsome : ∀ (l : List Nat), m ∈ l →
      ∃ a, l.find? (fun m => decide (node_asserts view g m)) = some a := by
    intro l hl
    cases hf : l.find? (fun m => decide (node_asserts view g m)) with
    | none =>
      rw [List.find?_eq_none] at hf
      exact absurd hass (by simpa using hf m hl)
    | some a => exact ⟨a, rfl⟩
  have hmem1 : a0 ∈ ys ∨ a0 ∈ c :: ct := by
    cases hy : ys.find? (fun m => decide (node_asserts view g m)) with
    | none => rw [hy] at h1; exact Or.inr (hfindmem _ _ h1)
    | some b =>
      rw [hy] at h1
      have hb : b = a0 := Option.some.inj h1
      rw [hb] at hy
      exact Or.inl (hfindmem _ _ hy)
  have hmem0 : a0 ∈ xs ∨ a0 ∈ c :: ct := by
    cases hx : xs.find? (fun m => decide (node_asserts view g m)) with
    | none => rw [hx] at h0; exact Or.inr (hfindmem _ _ h0)
    | some b =>
      rw [hx] at h0
      have hb : b = a0 := Option.some.inj h0
      rw [hb] at hx
      exact Or.inl (hfindmem _ _ hx)
  rcases List.mem_append.mp hm with hmx | hmy
  · obtain ⟨b, hb⟩ := hfindsome xs hmx
    rw [hb] at h0
    have hba : b = a0 := Option.some.inj h0
    rw [hba] at hb
    have hbx := hfindmem _ _ hb
    rcases hmem1 with h | h
    · exact hboth _ hbx h
    · exact hdis0 _ hbx h
  · obtain ⟨b, hb⟩ := hfindsome ys hmy
    rw [hb] at h1
    have hba : b = a0 := Option.some.inj h1
    rw [hba] at hb
    have hby := hfindmem _ _ hb
    rcases hmem0 with h | h
    · exact hboth _ h hby
    · exact hdis1 _ hby h

theorem resolve_some_of_rooted {ctx : CoglContext} {p c root : Nat} {xs ct : List Nat}
    {pd fuel : Nat} (hp : pipeline_path ctx p (xs ++ c :: ct))
    (hf : (xs ++ c :: ct).length ≤ fuel) (hlast : (c :: ct).getLast? = some root)
    (hroot : node_asserts_all (pipeline_view ctx) COGL_PIPELINE_STATE_ALL_SPARSE root)
    (hsparse : pd ≤ COGL_PIPELINE_STATE_ALL_SPARSE) :
    ∃ A, node_resolve_authorities (pipeline_view ctx) fuel p pd (List.replicate 13 none) =
      some A := by
  apply node_resolve_authorities_total (pipeline_view ctx) _ _ _ _ _ hp hf
  intro j hj
  have hj13 : j < 13 := by
    by_contra hge
    have hlt : pd < 2 ^ j :=
      Nat.lt_of_lt_of_le (Nat.lt_of_le_of_lt hsparse (by norm_num [COGL_PIPELINE_STATE_ALL_SPARSE] :
        COGL_PIPELINE_STATE_ALL_SPARSE < 2 ^ 13))
        (Nat.pow_le_pow_right (by decide) (by omega))
    rw [Nat.testBit_lt_two_pow hlt] at hj
    exact absurd hj (by simp)
  refine ⟨by simpa using hj13, root, ?_, ?_⟩
  · exact List.mem_append_right _ (List.mem_of_getLast?_eq_some hlast)
  · obtain ⟨hg, hsub⟩ := sparse_bit_and j hj13
    exact node_asserts_of_all hroot hg hsub

/-- C9: for pipelines `p0` and `p1` under one root that asserts every sparse
group, if the comparator of every sparse group of `mask` accepts the authority of
the group on `p0` and the one on `p1`, the layers compare equal under `layer_mask`
when `LAYERS` is in `mask`, and `real_blend_enable` agrees when
`REAL_BLEND_ENABLE` is in `mask`, then `_cogl_pipeline_equal (p0, p1, mask, ...)`
returns true, whatever the groups outside `mask` hold; and two new pipelines that
differ in the point size only compare equal under `ALL_SPARSE & ~POINT_SIZE` and
unequal under `ALL_SPARSE`. -/
theorem equal_holds_modulo_mask (fns : CoglPipelineStateFuncs) (ctx : CoglContext)
    (fuel p0 p1 c root : Nat) (xs ys ct : List Nat) (mask layer_mask flags : Nat)
    (hp0 : pipeline_path ctx p0 (xs ++ c :: ct)) (hp1 : pipeline_path ctx p1 (ys ++ c :: ct))
    (hmax : ∀ x y, xs.getLast? = some x → ys.getLast? = some y → x ≠ y)
    (hf0 : (xs ++ c :: ct).length ≤ fuel) (hf1 : (ys ++ c :: ct).length ≤ fuel)
    (hlast : (c :: ct).getLast? = some root)
    (hroot : node_asserts_all (pipeline_view ctx) COGL_PIPELINE_STATE_ALL_SPARSE root)
    (hsparse : union_of_differences (pipeline_view ctx) (xs ++ ys) &&& mask ≤
      COGL_PIPELINE_STATE_ALL_SPARSE)
    (hrbe : mask &&& COGL_PIPELINE_STATE_REAL_BLEND_ENABLE ≠ 0 →
      (ctx.pipeline p0).map (fun n => n.real_blend_enable) =
        (ctx.pipeline p1).map (fun n => n.real_blend_enable))
    (hgroups : ∀ i, i < COGL_PIPELINE_STATE_SPARSE_COUNT → mask &&& (1 <<< i) ≠ 0 →
      i ≠ COGL_PIPELINE_STATE_LAYERS_INDEX → comparator_holds fns ctx fuel p0 p1 i = true)
    (hlayers : mask &&& COGL_PIPELINE_STATE_LAYERS ≠ 0 →
      layers_comparator_holds fns ctx fuel p0 p1 layer_mask flags = true) :
    (∃ out, _cogl_pipeline_equal fns ctx fuel p0 p1 mask layer_mask flags = some (out, true)) ∧
      ((_cogl_pipeline_equal reference_funcs scenario_point_size 8 1 2
          (mask_clear COGL_PIPELINE_STATE_ALL_SPARSE COGL_PIPELINE_STATE_POINT_SIZE)
          COGL_PIPELINE_LAYER_STATE_ALL_SPARSE 0).map Prod.snd = some true ∧
        (_cogl_pipeline_equal reference_funcs scenario_point_size 8 1 2
          COGL_PIPELINE_STATE_ALL_SPARSE COGL_PIPELINE_LAYER_STATE_ALL_SPARSE 0).map Prod.snd =
            some false) := by
  refine ⟨?_, by decide!⟩
  by_cases hne : p0 = p1
  · exact ⟨ctx, by rw [_cogl_pipeline_equal, if_pos hne]⟩
  obtain ⟨n0, hn0⟩ : ∃ n0, ctx.pipeline p0 = some n0 := by
    obtain ⟨r, hr⟩ := node_path_head hp0
    exact pipeline_of_mem_path hp0 (by rw [hr]; exact List.mem_cons_self _ _)
  obtain ⟨n1, hn1⟩ : ∃ n1, ctx.pipeline p1 = some n1 := by
    obtain ⟨r, hr⟩ := node_path_head hp1
    exact pipeline_of_mem_path hp1 (by rw [hr]; exact List.mem_cons_self _ _)
  have hd := node_compare_differences_spec (pipeline_view ctx) p0 p1 fuel c xs ys ct hp0 hp1 hmax
    hf0 hf1
  rw [equal_unfold hne hn0 hn1 hd]
  have hnot : ¬ (mask &&& COGL_PIPELINE_STATE_REAL_BLEND_ENABLE ≠ 0 ∧
      n0.real_blend_enable ≠ n1.real_blend_enable) := by
    rintro ⟨hm, hdiff⟩
    have := hrbe hm
    rw [hn0, hn1] at this
    exact hdiff (Option.some.inj this)
  rw [if_neg hnot]
  obtain ⟨A0, hA0⟩ := resolve_some_of_rooted hp0 hf0 hlast hroot hsparse
  obtain ⟨A1, hA1⟩ := resolve_some_of_rooted hp1 hf1 hlast hroot hsparse
  rw [hA0, hA1]
  dsimp only
  have hspec0 := (node_resolve_authorities_spec _ _ _ _ _ _ hA0).2
  have hspec1 := (node_resolve_authorities_spec _ _ _ _ _ _ hA1).2
  apply pipeline_equal_groups_of_checks
  · intro i hi h1 h2 cmp hcmp
    by_cases hpd : (union_of_differences (pipeline_view ctx) (xs ++ ys) &&& mask) &&&
        (1 <<< i) ≠ 0
    · have hbit := (and_bit_ne_zero _ i).1 hpd
      obtain ⟨a0, e0, g0⟩ := (hspec0 i).1 hbit
      obtain ⟨a1, e1, g1⟩ := (hspec1 i).1 hbit
      rw [← pipeline_get_authority_eq] at g0 g1
      have hm : mask &&& (1 <<< i) ≠ 0 := by
        rw [and_bit_ne_zero]
        rw [Nat.testBit_and] at hbit
        simp only [Bool.and_eq_true] at hbit
        exact hbit.2
      exact simple_of_comparator_holds hcmp e0 e1 g0 g1 (hgroups i hi hm h2)
    · simp only [simple_property_equal, if_neg hpd]
  · intro hl
    have hL : COGL_PIPELINE_STATE_LAYERS = 1 <<< 2 := by decide
    rw [hL] at hl
    have hbit := (and_bit_ne_zero _ 2).1 hl
    obtain ⟨a0, e0, g0⟩ := (hspec0 2).1 hbit
    obtain ⟨a1, e1, g1⟩ := (hspec1 2).1 hbit
    have hbit2 := hbit
    rw [Nat.testBit_and] at hbit2
    simp only [Bool.and_eq_true] at hbit2
    have hm : mask &&& COGL_PIPELINE_STATE_LAYERS ≠ 0 := by
      rw [hL, and_bit_ne_zero]; exact hbit2.2
    have hsome : ∃ m ∈ xs ++ ys, node_asserts (pipeline_view ctx) (1 <<< 2) m := by
      have := hbit2.1
      rw [testBit_union_of_differences, List.any_eq_true] at this
      obtain ⟨m, hm, hass⟩ := this
      exact ⟨m, hm, by simpa using hass⟩
    have hdiff := authorities_differ hp0 hp1 hmax hf0 hf1 hsome g0 g1
    have hlc := hlayers hm
    rw [← pipeline_get_authority_eq] at g0 g1
    simp only [layers_comparator_holds, hL, g0, g1, if_neg hdiff] at hlc
    cases hle : _cogl_pipeline_layers_equal fns ctx fuel a0 a1 layer_mask flags with
    | none => rw [hle] at hlc; exact absurd hlc (by simp)
    | some r =>
      rw [hle] at hlc
      obtain ⟨out, b⟩ := r
      simp only at hlc
      subst hlc
      exact ⟨a0, a1, out, e0, e1, hle⟩

theorem equal_holds_modulo_mask_witness :
    (pipeline_path scenario_point_size 1 ([1] ++ 0 :: []) ∧
      pipeline_path scenario_point_size 2 ([2] ++ 0 :: []) ∧
      node_asserts_all (pipeline_view scenario_point_size) COGL_PIPELINE_STATE_ALL_SPARSE 0 ∧
      (∀ i, i < COGL_PIPELINE_STATE_SPARSE_COUNT → 7167 &&& (1 <<< i) ≠ 0 →
        i ≠ COGL_PIPELINE_STATE_LAYERS_INDEX →
        comparator_holds reference_funcs scenario_point_size 8 1 2 i = true) ∧
      layers_comparator_holds reference_funcs scenario_point_size 8 1 2 511 0 = true) ∧
    ((∃ out, _cogl_pipeline_equal reference_funcs scenario_point_size 8 1 2 7167 511 0 =
        some (out, true)) ∧
      ((_cogl_pipeline_equal reference_funcs scenario_point_size 8 1 2
          (mask_clear COGL_PIPELINE_STATE_ALL_SPARSE COGL_PIPELINE_STATE_POINT_SIZE)
          COGL_PIPELINE_LAYER_STATE_ALL_SPARSE 0).map Prod.snd = some true ∧
        (_cogl_pipeline_equal reference_funcs scenario_point_size 8 1 2
          COGL_PIPELINE_STATE_ALL_SPARSE COGL_PIPELINE_LAYER_STATE_ALL_SPARSE 0).map Prod.snd =
            some false)) :=
  have hp0 : pipeline_path scenario_point_size 1 ([1] ++ 0 :: []) := by decide!
  have hp1 : pipeline_path scenario_point_size 2 ([2] ++ 0 :: []) := by decide!
  have hroot : node_asserts_all (pipeline_view scenario_point_size)
      COGL_PIPELINE_STATE_ALL_SPARSE 0 := by decide!
  have hgroups : ∀ i, i < COGL_PIPELINE_STATE_SPARSE_COUNT → 7167 &&& (1 <<< i) ≠ 0 →
      i ≠ COGL_PIPELINE_STATE_LAYERS_INDEX →
      comparator_holds reference_funcs scenario_point_size 8 1 2 i = true := by
    intro i hi hm h2
    have hi13 : i < 13 := hi
    interval_cases i
    · decide!
    · decide!
    · exact absurd rfl h2
    · decide!
    · decide!
    · decide!
    · decide!
    · decide!
    · decide!
    · decide!
    · exact absurd rfl hm
    · decide!
    · decide!
  have hlayers : layers_comparator_holds reference_funcs scenario_point_size 8 1 2 511 0 =
      true := by decide!
  ⟨⟨hp0, hp1, hroot, hgroups, hlayers⟩,
    equal_holds_modulo_mask reference_funcs scenario_point_size 8 1 2 0 0 [1] [2] [] 7167 511 0
      hp0 hp1 (by intro x y hx hy; simp at hx hy; omega) (by decide) (by decide) (by decide)
      hroot (Nat.le_of_ble_eq_true (by decide!)) (by intro _; decide!) hgroups
      (fun _ => hlayers)⟩

/-! ## Copy-on-write and the list of layer differences -/

/-- C5 (failing input): `a` has two layers, `p = cogl_pipeline_copy (a)` is pruned
to one layer, so that `p` asserts `LAYERS` with `n_layers` 1 and an empty
`layer_differences`, and `c = cogl_pipeline_copy (p)`. The copy-on-write snapshot
made by `_cogl_pipeline_pre_change_notify (p, COLOR, ...)` is pipeline 4: it takes the
place of `p` above `c` with the differences and `n_layers` of `p`, but its
`layer_differences` is the list that `g_slice_new` left in the block, not the empty
list of `p`. -/
theorem snapshot_layer_differences_uninitialised :
    (scenario_pruned.pipeline 2).map
        (fun p => (p.parent, p.children, p.differences, p.n_layers, p.layer_differences)) =
      some (some 1, [3], COGL_PIPELINE_STATE_LAYERS, 1, []) ∧
    scenario_pruned.pipelines.length = 4 ∧
    scenario_pruned.slice_pipeline.layer_differences = [0] ∧
    (scenario_pruned_red.pipeline 4).map
        (fun np => (np.parent, np.children, np.differences, np.n_layers, np.layer_differences)) =
      some (some 1, [3], COGL_PIPELINE_STATE_LAYERS, 1, [0]) ∧
    (scenario_pruned_red.pipeline 3).map (fun c => c.parent) = some (some 4) := by
  decide!

/-- C3 (failing input): in the same state, `_cogl_pipeline_get_layers (c)` returns
the layer of index 5 made on `a` before `p` is changed, and default layer 0 (of
index 0) after `_cogl_pipeline_pre_change_notify (p, COLOR, ...)` and the write of the
colour: the layers of the strong child `c` are not what they were. -/
theorem copy_on_write_changes_layers_of_child :
    (scenario_pruned.pipeline 3).map (fun c => c.parent) = some (some 2) ∧
    (_cogl_pipeline_get_layers 8 scenario_pruned 3).map Prod.snd = some [3] ∧
    (_cogl_pipeline_get_layers 8 scenario_pruned_red 3).map Prod.snd = some [0] ∧
    (scenario_pruned_red.layer 3).map (fun l => l.index) = some 5 ∧
    (scenario_pruned_red.layer 0).map (fun l => l.index) = some 0 ∧
    (cogl_pipeline_get_color 8 scenario_pruned_red 2) =
      some (cogl_color_init_from_4ub 0xff 0 0 0xff) ∧
    (cogl_pipeline_get_color 8 scenario_pruned_red 3) =
      some (cogl_color_init_from_4ub 0xff 0xff 0xff 0xff) := by
  decide!

/-! ## The pipeline tree under a change -/

theorem links_set_pipeline_self {ctx : CoglContext} {p : Nat} {old : CoglPipeline}
    (h : ctx.pipeline p = some old) (v : CoglPipeline) :
    (ctx.set_pipeline p v).links p = some v.links := by
  simp only [CoglContext.links, pipeline_set_pipeline_self h, Option.map_some']

theorem links_set_pipeline_ne (ctx : CoglContext) {p q : Nat} (h : p ≠ q) (v : CoglPipeline) :
    (ctx.set_pipeline p v).links q = ctx.links q := by
  simp only [CoglContext.links, pipeline_set_pipeline_ne ctx h]

theorem links_set_pipeline_same {ctx : CoglContext} {p : Nat} {old v : CoglPipeline}
    (h : ctx.pipeline p = some old) (hv : v.links = old.links) (q : Nat) :
    (ctx.set_pipeline p v).links q = ctx.links q := by
  by_cases hpq : p = q
  · subst hpq
    rw [links_set_pipeline_self h, hv]
    simp only [CoglContext.links, h, Option.map_some']
  · exact links_set_pipeline_ne ctx hpq v

theorem same_skeleton_refl (ctx : CoglContext) : same_skeleton ctx ctx := ⟨fun _ => rfl, rfl⟩

theorem same_skeleton_trans {a b c : CoglContext} (h1 : same_skeleton a b)
    (h2 : same_skeleton b c) : same_skeleton a c :=
  ⟨fun q => (h2.1 q).trans (h1.1 q), h2.2.trans h1.2⟩

theorem same_skeleton_set {ctx : CoglContext} {p : Nat} {old v : CoglPipeline}
    (h : ctx.pipeline p = some old) (hv : v.links = old.links) :
    same_skeleton ctx (ctx.set_pipeline p v) :=
  ⟨links_set_pipeline_same h hv, rfl⟩

theorem same_skeleton_modify {ctx ctx2 : CoglContext} {p : Nat} {f : CoglPipeline → CoglPipeline}
    (hf : ∀ n, (f n).links = n.links) (h : ctx.modify_pipeline p f = some ctx2) :
    same_skeleton ctx ctx2 := by
  unfold CoglContext.modify_pipeline at h
  cases hp : ctx.pipeline p with
  | none => rw [hp] at h; exact absurd h (by simp)
  | some node =>
    rw [hp] at h
    simp only [Option.some.injEq] at h
    subst h
    exact same_skeleton_set hp (hf node)

theorem same_skeleton_emit (ctx : CoglContext) {e : CoglEvent} (he : e.is_destroy = false) :
    same_skeleton ctx (ctx.emit e) := by
  refine ⟨fun _ => rfl, ?_⟩
  simp [CoglContext.destroyed, CoglContext.emit, List.filter_append, he]

theorem same_skeleton_of_eq {ctx ctx2 : CoglContext} (hp : ctx2.pipelines = ctx.pipelines)
    (he : ctx2.events = ctx.events) : same_skeleton ctx ctx2 := by
  refine ⟨fun q => ?_, ?_⟩
  · simp only [CoglContext.links, CoglContext.pipeline, hp]
  · simp only [CoglContext.destroyed, he]

theorem same_skeleton_length {a b : CoglContext} (h : same_skeleton a b) :
    b.pipelines.length = a.pipelines.length := by
  have key : ∀ (x y : CoglContext), (∀ q, y.links q = x.links q) →
      x.pipelines.length ≤ y.pipelines.length := by
    intro x y hxy
    by_contra hlt
    have hq := hxy y.pipelines.length
    simp only [CoglContext.links, CoglContext.pipeline] at hq
    rw [List.getElem?_eq_none_iff.mpr (Nat.le_refl _)] at hq
    have : y.pipelines.length < x.pipelines.length := by omega
    rw [List.getElem?_eq_getElem this] at hq
    exact absurd hq (by simp)
  exact Nat.le_antisymm (key b a (fun q => (h.1 q).symm)) (key a b h.1)

theorem foldlM_some_congr {α β : Type} {f g : β → α → Option β} :
    ∀ (l : List α) (s r : β), (∀ s a r, a ∈ l → f s a = some r → g s a = some r) →
      l.foldlM f s = some r → l.foldlM g s = some r := by
  intro l
  induction l with
  | nil => intro s r _ h; exact h
  | cons a rest ih =>
    intro s r hfg h
    simp only [List.foldlM_cons, Option.bind_eq_bind, Option.bind_eq_some] at h ⊢
    obtain ⟨s1, h1, h2⟩ := h
    exact ⟨s1, hfg s a s1 (List.mem_cons_self _ _) h1,
      ih s1 r (fun s a r ha => hfg s a r (List.mem_cons_of_mem _ ha)) h2⟩

theorem is_weak_mono (ctx : CoglContext) :
    ∀ (g x : Nat),
      (∀ b, has_strong_children ctx g x = some b → has_strong_children ctx (g + 1) x = some b) ∧
      (∀ b, _cogl_pipeline_is_weak ctx g x = some b →
        _cogl_pipeline_is_weak ctx (g + 1) x = some b) := by
  intro g
  induction g with
  | zero =>
    intro x
    constructor
    · intro b h; simp [has_strong_children] at h
    · intro b h; simp [_cogl_pipeline_is_weak] at h
  | succ k ih =>
    intro x
    have hs : ∀ b, has_strong_children ctx (k + 1) x = some b →
        has_strong_children ctx (k + 1 + 1) x = some b := by
      intro b h
      rw [has_strong_children] at h ⊢
      unfold _cogl_pipeline_node_foreach_child at h ⊢
      cases hx : ctx.pipeline x with
      | none => rw [hx] at h; exact absurd h (by simp)
      | some node =>
        rw [hx] at h
        simp only at h ⊢
        refine foldlM_some_congr _ _ _ ?_ h
        intro s a r _ ha
        cases hw : _cogl_pipeline_is_weak ctx k a with
        | none => rw [hw] at ha; exact absurd ha (by simp)
        | some w =>
          rw [hw] at ha
          rw [(ih a).2 w hw]
          exact ha
    refine ⟨hs, ?_⟩
    intro b h
    rw [_cogl_pipeline_is_weak] at h ⊢
    cases hx : ctx.pipeline x with
    | none => rw [hx] at h; exact absurd h (by simp)
    | some node =>
      rw [hx] at h
      simp only at h ⊢
      split
      · rename_i hweak
        rw [if_pos hweak] at h
        cases hh : has_strong_children ctx k x with
        | none => rw [hh] at h; exact absurd h (by simp)
        | some st =>
          rw [hh] at h
          rw [(ih x).1 st hh]
          exact h
      · rename_i hweak
        rw [if_neg hweak] at h
        exact h

theorem foldlM_congr_mem {α β : Type} {f g : β → α → Option β} :
    ∀ (l : List α) (s : β), (∀ s a, a ∈ l → f s a = g s a) →
      l.foldlM f s = l.foldlM g s := by
  intro l
  induction l with
  | nil => intro s _; rfl
  | cons a rest ih =>
    intro s hfg
    simp only [List.foldlM_cons]
    rw [hfg s a (List.mem_cons_self _ _)]
    cases g s a with
    | none => rfl
    | some s1 => exact ih s1 (fun s a ha => hfg s a (List.mem_cons_of_mem _ ha))

theorem links_eq_some {ctx : CoglContext} {q : Nat} {l : PipelineLinks}
    (h : ctx.links q = some l) : ∃ node, ctx.pipeline q = some node ∧ node.links = l := by
  unfold CoglContext.links at h
  cases hq : ctx.pipeline q with
  | none => rw [hq] at h; exact absurd h (by simp)
  | some node =>
    rw [hq] at h
    exact ⟨node, rfl, Option.some.inj h⟩

theorem links_of_pipeline {ctx : CoglContext} {q : Nat} {node : CoglPipeline}
    (h : ctx.pipeline q = some node) : ctx.links q = some node.links := by
  simp only [CoglContext.links, h, Option.map_some']

/-- What `subtree_post_list` returns: the subtrees of the children, in order. -/
theorem subtree_post_list_spec {below : Nat → Option (List Nat)} :
    ∀ (cs : List Nat) (ids : List Nat), subtree_post_list below cs = some ids →
      ∃ parts : List (List Nat), parts.length = cs.length ∧ ids = parts.flatten ∧
        ∀ i (hi : i < cs.length) (hp : i < parts.length),
          below (cs.get ⟨i, hi⟩) = some (parts.get ⟨i, hp⟩) := by
  intro cs
  induction cs with
  | nil =>
    intro ids h
    simp only [subtree_post_list, Option.some.injEq] at h
    exact ⟨[], rfl, by simp [← h], fun i hi => absurd hi (by simp)⟩
  | cons c rest ih =>
    intro ids h
    rw [subtree_post_list] at h
    cases hc : below c with
    | none => rw [hc] at h; exact absurd h (by simp)
    | some first =>
      cases hr : subtree_post_list below rest with
      | none => rw [hc, hr] at h; exact absurd h (by simp)
      | some others =>
        rw [hc, hr] at h
        simp only [Option.some.injEq] at h
        obtain ⟨parts, hlen, hflat, hall⟩ := ih others hr
        refine ⟨first :: parts, by simp [hlen], by rw [← h, hflat]; simp, ?_⟩
        intro i hi hp
        cases i with
        | zero => exact hc
        | succ j => exact hall j (by simpa using hi) (by simpa using hp)

theorem subtree_post_step {ctx : CoglContext} {f x : Nat} {ids : List Nat}
    (h : subtree_post ctx (f + 1) x = some ids) :
    ∃ node below, ctx.pipeline x = some node ∧
      subtree_post_list (subtree_post ctx f) node.children = some below ∧
      ids = below ++ [x] := by
  rw [subtree_post] at h
  cases hx : ctx.pipeline x with
  | none => rw [hx] at h; exact absurd h (by simp)
  | some node =>
    rw [hx] at h
    simp only [Option.map_eq_some'] at h
    obtain ⟨below, hb, he⟩ := h
    exact ⟨node, below, rfl, hb, he.symm⟩

theorem subtree_post_list_congr {b1 b2 : Nat → Option (List Nat)} :
    ∀ (cs ids : List Nat), subtree_post_list b1 cs = some ids →
      (∀ c ∈ cs, ∀ part, b1 c = some part → (∀ y ∈ part, y ∈ ids) → b2 c = some part) →
      subtree_post_list b2 cs = some ids := by
  intro cs
  induction cs with
  | nil => intro ids h _; exact h
  | cons c rest ih =>
    intro ids h hb
    rw [subtree_post_list] at h ⊢
    cases hc : b1 c with
    | none => rw [hc] at h; exact absurd h (by simp)
    | some first =>
      cases hr : subtree_post_list b1 rest with
      | none => rw [hc, hr] at h; exact absurd h (by simp)
      | some others =>
        rw [hc, hr] at h
        simp only [Option.some.injEq] at h
        subst h
        rw [hb c (List.mem_cons_self _ _) first hc (fun y hy => List.mem_append_left _ hy),
          ih others hr (fun c' hc' part hp hsub =>
            hb c' (List.mem_cons_of_mem _ hc') part hp
              (fun y hy => List.mem_append_right _ (hsub y hy)))]

theorem subtree_post_congr {ctx ctx2 : CoglContext} :
    ∀ (f x : Nat) (ids : List Nat), subtree_post ctx f x = some ids →
      (∀ y ∈ ids, ctx2.links y = ctx.links y) → subtree_post ctx2 f x = some ids := by
  intro f
  induction f with
  | zero => intro x ids h; simp [subtree_post] at h
  | succ k ih =>
    intro x ids h hl
    obtain ⟨node, below, hx, hb, he⟩ := subtree_post_step h
    have hxl := hl x (by rw [he]; simp)
    rw [links_of_pipeline hx] at hxl
    obtain ⟨node2, hx2, hn2⟩ := links_eq_some hxl
    have hch : node2.children = node.children := by
      have := congrArg PipelineLinks.children hn2
      exact this
    rw [subtree_post, hx2]
    simp only [hch]
    rw [subtree_post_list_congr node.children below hb
      (fun c _ part hp hsub => ih c part hp
        (fun y hy => hl y (by rw [he]; exact List.mem_append_left _ (hsub y hy))))]
    simp [he]

theorem subtree_post_list_mem {below : Nat → Option (List Nat)} :
    ∀ (cs ids : List Nat), subtree_post_list below cs = some ids →
      ∀ c ∈ cs, ∃ part, below c = some part ∧ ∀ y ∈ part, y ∈ ids := by
  intro cs
  induction cs with
  | nil => intro ids _ c hc; exact absurd hc (by simp)
  | cons a rest ih =>
    intro ids h c hc
    rw [subtree_post_list] at h
    cases ha : below a with
    | none => rw [ha] at h; exact absurd h (by simp)
    | some first =>
      cases hr : subtree_post_list below rest with
      | none => rw [ha, hr] at h; exact absurd h (by simp)
      | some others =>
        rw [ha, hr] at h
        simp only [Option.some.injEq] at h
        subst h
        rcases List.mem_cons.mp hc with hca | hcr
        · subst hca
          exact ⟨first, ha, fun y hy => List.mem_append_left _ hy⟩
        · obtain ⟨part, hp, hsub⟩ := ih others hr c hcr
          exact ⟨part, hp, fun y hy => List.mem_append_right _ (hsub y hy)⟩

theorem is_weak_congr {ctx ctx2 : CoglContext} :
    ∀ (f x : Nat) (ids : List Nat), subtree_post ctx f x = some ids →
      (∀ y ∈ ids, ctx2.links y = ctx.links y) →
      ∀ g, has_strong_children ctx2 g x = has_strong_children ctx g x ∧
        _cogl_pipeline_is_weak ctx2 g x = _cogl_pipeline_is_weak ctx g x := by
  intro f
  induction f with
  | zero => intro x ids h; simp [subtree_post] at h
  | succ k ih =>
    intro x ids h hl g
    obtain ⟨node, below, hx, hb, he⟩ := subtree_post_step h
    have hxl := hl x (by rw [he]; simp)
    rw [links_of_pipeline hx] at hxl
    obtain ⟨node2, hx2, hn2⟩ := links_eq_some hxl
    have hch : node2.children = node.children := congrArg PipelineLinks.children hn2
    have hwk : node2.is_weak = node.is_weak := congrArg PipelineLinks.is_weak hn2
    have hchild : ∀ c ∈ node.children, ∀ g,
        _cogl_pipeline_is_weak ctx2 g c = _cogl_pipeline_is_weak ctx g c := by
      intro c hc g
      obtain ⟨part, hp, hsub⟩ := subtree_post_list_mem _ _ hb c hc
      exact (ih c part hp
        (fun y hy => hl y (by rw [he]; exact List.mem_append_left _ (hsub y hy))) g).2
    have hstrong : ∀ g, has_strong_children ctx2 g x = has_strong_children ctx g x := by
      intro g
      cases g with
      | zero => simp [has_strong_children]
      | succ j =>
        rw [has_strong_children, has_strong_children]
        unfold _cogl_pipeline_node_foreach_child
        rw [hx, hx2]
        simp only [hch]
        exact foldlM_congr_mem _ _ (fun s a ha => by rw [hchild a ha j])
    refine ⟨hstrong g, ?_⟩
    cases g with
    | zero => simp [_cogl_pipeline_is_weak]
    | succ j =>
      rw [_cogl_pipeline_is_weak, _cogl_pipeline_is_weak, hx, hx2]
      simp only [hwk, hstrong j]

theorem children_consistent_iff (ctx : CoglContext) (ids : List Nat) :
    children_consistent ctx ids = true ↔
      ∀ y ∈ ids, ∀ l, ctx.links y = some l → ∀ c ∈ l.children,
        (ctx.links c).map (fun k => k.parent) = some (some y) := by
  unfold children_consistent
  rw [List.all_eq_true]
  constructor
  · intro h y hy l hl c hc
    have := h y hy
    rw [hl] at this
    simp only [List.all_eq_true, decide_eq_true_eq] at this
    exact this c hc
  · intro h y hy
    cases hl : ctx.links y with
    | none => rfl
    | some l =>
      simp only [List.all_eq_true, decide_eq_true_eq]
      exact fun c hc => h y hy l hl c hc

/-- What `_cogl_pipeline_node_unparent_real` does to the tree when the node has a
parent with a child list that is not empty. -/
theorem unparent_links {ctx : CoglContext} {x q : Nat} {xn qn : CoglPipeline}
    (hx : ctx.pipeline x = some xn) (hp : xn.parent = some q) (hq : ctx.pipeline q = some qn)
    (hne : x ≠ q) (hch : qn.children ≠ []) :
    ∃ ctx2, _cogl_pipeline_node_unparent_real ctx x = some ctx2 ∧
      ctx2.links x = some { xn.links with parent := none } ∧
      ctx2.links q = some { qn.links with children := qn.children.erase x } ∧
      (∀ z, z ≠ x → z ≠ q → ctx2.links z = ctx.links z) ∧ ctx2.events = ctx.events := by
  unfold _cogl_pipeline_node_unparent_real
  rw [hx]
  simp only [hp, hq, if_neg hch]
  have hq1 : (ctx.set_pipeline q { qn with children := qn.children.erase x }).pipeline q =
      some { qn with children := qn.children.erase x } := pipeline_set_pipeline_self hq _
  have hx1 : (ctx.set_pipeline q { qn with children := qn.children.erase x }).pipeline x =
      some xn := by rw [pipeline_set_pipeline_ne ctx (Ne.symm hne), hx]
  by_cases href : xn.has_parent_reference = true
  · rw [if_pos href]
    simp only [cogl_object_unref, hq1]
    have hx2 : ((ctx.set_pipeline q { qn with children := qn.children.erase x }).set_pipeline q
        { qn with children := qn.children.erase x,
                  ref_count := qn.ref_count - 1 }).pipeline x = some xn := by
      rw [pipeline_set_pipeline_ne _ (Ne.symm hne), hx1]
    rw [hx2]
    refine ⟨_, rfl, links_set_pipeline_self hx2 _, ?_, ?_, rfl⟩
    · rw [links_set_pipeline_ne _ hne, links_set_pipeline_self hq1]
      rfl
    · intro z hzx hzq
      rw [links_set_pipeline_ne _ (Ne.symm hzx), links_set_pipeline_ne _ (Ne.symm hzq),
        links_set_pipeline_ne _ (Ne.symm hzq)]
  · rw [if_neg href]
    simp only [hx1]
    refine ⟨_, rfl, links_set_pipeline_self hx1 _, ?_, ?_, rfl⟩
    · rw [links_set_pipeline_ne _ hne, links_set_pipeline_self hq]
      rfl
    · intro z hzx hzq
      rw [links_set_pipeline_ne _ (Ne.symm hzx), links_set_pipeline_ne _ (Ne.symm hzq)]

/-- A pipeline of a subtree is its top or a child of a pipeline of the subtree. -/
theorem subtree_post_member {ctx : CoglContext} :
    ∀ (f x : Nat) (ids : List Nat), subtree_post ctx f x = some ids →
      x ∈ ids ∧ ∀ y ∈ ids, y = x ∨ ∃ z ∈ ids, ∃ lz, ctx.links z = some lz ∧ y ∈ lz.children := by
  intro f
  induction f with
  | zero => intro x ids h; simp [subtree_post] at h
  | succ k ih =>
    intro x ids h
    obtain ⟨node, below, hx, hb, he⟩ := subtree_post_step h
    refine ⟨by rw [he]; simp, ?_⟩
    intro y hy
    rw [he] at hy
    rcases List.mem_append.mp hy with hyb | hyx
    · right
      -- y lies in the subtree of one child
      have hfind : ∀ (cs bl : List Nat), subtree_post_list (subtree_post ctx k) cs = some bl →
          y ∈ bl → ∃ c ∈ cs, ∃ part, subtree_post ctx k c = some part ∧ y ∈ part ∧
            ∀ w ∈ part, w ∈ bl := by
        intro cs
        induction cs with
        | nil =>
          intro bl hbl hyb
          simp only [subtree_post_list, Option.some.injEq] at hbl
          rw [← hbl] at hyb
          exact absurd hyb (by simp)
        | cons a rest ihl =>
          intro bl hbl hyb
          rw [subtree_post_list] at hbl
          cases ha : subtree_post ctx k a with
          | none => rw [ha] at hbl; exact absurd hbl (by simp)
          | some first =>
            cases hr : subtree_post_list (subtree_post ctx k) rest with
            | none => rw [ha, hr] at hbl; exact absurd hbl (by simp)
            | some others =>
              rw [ha, hr] at hbl
              simp only [Option.some.injEq] at hbl
              subst hbl
              rcases List.mem_append.mp hyb with h1 | h2
              · exact ⟨a, List.mem_cons_self _ _, first, ha, h1,
                  fun w hw => List.mem_append_left _ hw⟩
              · obtain ⟨c, hc, part, hp, hyp, hsub⟩ := ihl others hr h2
                exact ⟨c, List.mem_cons_of_mem _ hc, part, hp, hyp,
                  fun w hw => List.mem_append_right _ (hsub w hw)⟩
      obtain ⟨c, hc, part, hp, hyp, hsub⟩ := hfind node.children below hb hyb
      rcases (ih c part hp).2 y hyp with hyc | ⟨z, hz, lz, hlz, hyz⟩
      · subst hyc
        exact ⟨x, by rw [he]; simp, node.links, links_of_pipeline hx, hc⟩
      · exact ⟨z, by rw [he]; exact List.mem_append_left _ (hsub z hz), lz, hlz, hyz⟩
    · left
      simpa using hyx

theorem has_strong_children_false {ctx : CoglContext} {m x : Nat} {node : CoglPipeline}
    (hx : ctx.pipeline x = some node)
    (h : has_strong_children ctx (m + 1) x = some false) :
    ∀ c ∈ node.children, _cogl_pipeline_is_weak ctx m c = some true := by
  rw [has_strong_children] at h
  unfold _cogl_pipeline_node_foreach_child at h
  rw [hx] at h
  simp only at h
  have key : ∀ (cs : List Nat) (s : Bool),
      cs.foldlM (fun has_strong_child node =>
        match _cogl_pipeline_is_weak ctx m node with
        | none => none
        | some weak => if (!weak) = true then some true else some has_strong_child) s =
        some false →
      s = false ∧ ∀ c ∈ cs, _cogl_pipeline_is_weak ctx m c = some true := by
    intro cs
    induction cs with
    | nil =>
      intro s hs
      simp only [List.foldlM_nil] at hs
      exact ⟨Option.some.inj hs, fun c hc => absurd hc (by simp)⟩
    | cons a rest ihl =>
      intro s hs
      simp only [List.foldlM_cons, Option.bind_eq_bind, Option.bind_eq_some] at hs
      obtain ⟨s1, h1, h2⟩ := hs
      obtain ⟨hs1, hrest⟩ := ihl s1 h2
      subst hs1
      cases hw : _cogl_pipeline_is_weak ctx m a with
      | none => rw [hw] at h1; exact absurd h1 (by simp)
      | some w =>
        rw [hw] at h1
        cases w with
        | false => simp at h1
        | true =>
          simp only [Bool.not_true, Bool.false_eq_true, if_false, Option.some.injEq] at h1
          refine ⟨h1, fun c hc => ?_⟩
          rcases List.mem_cons.mp hc with hca | hcr
          · subst hca; exact hw
          · exact hrest c hcr
  exact (key node.children false h).2

theorem is_weak_true_children {ctx : CoglContext} {n x : Nat} {node : CoglPipeline}
    (hx : ctx.pipeline x = some node) (h : _cogl_pipeline_is_weak ctx n x = some true) :
    ∀ c ∈ node.children, _cogl_pipeline_is_weak ctx (n - 1) c = some true := by
  cases n with
  | zero => simp [_cogl_pipeline_is_weak] at h
  | succ m =>
    rw [_cogl_pipeline_is_weak, hx] at h
    simp only at h
    split at h
    · cases hh : has_strong_children ctx m x with
      | none => rw [hh] at h; exact absurd h (by simp)
      | some st =>
        rw [hh] at h
        simp only [Option.some.injEq, Bool.not_eq_true'] at h
        subst h
        cases m with
        | zero => simp [has_strong_children] at hh
        | succ j =>
          intro c hc
          exact (is_weak_mono ctx j c).2 true (has_strong_children_false hx hh c hc)
    · exact absurd h (by simp)

/-! ## Layers removed, pruned and walked -/

/-- C13: `cogl_pipeline_remove_layer` on a pipeline that inherits the layer from an
ancestor. The pipeline `p` (2) inherits the layers of index 5 and 7 on units 0 and 1;
after `cogl_pipeline_remove_layer (p, 5)` the count `cogl_pipeline_get_n_layers (p)`
is still 2 and the effective layers are two layers of index 7, on units 0 and 1:
the later layer was shifted down, but `_cogl_pipeline_remove_layer_difference`
returned at `g_return_if_fail (layer->owner == pipeline)`. -/
theorem remove_inherited_layer_keeps_count :
    cogl_pipeline_get_n_layers 8 scenario_inherited 2 = some 2 ∧
    layer_indices_and_units 8 scenario_inherited 2 = some [(5, 0), (7, 1)] ∧
    (cogl_pipeline_remove_layer 8 scenario_inherited 2 5).bind
      (fun c => cogl_pipeline_get_n_layers 8 c 2) = some 2 ∧
    (cogl_pipeline_remove_layer 8 scenario_inherited 2 5).bind
      (fun c => layer_indices_and_units 8 c 2) = some [(7, 0), (7, 1)] := by
  decide!

/-- C16: `_cogl_pipeline_prune_to_n_layers (a, 1)` on the pipeline `a` (1) that owns
the layers of index 5 and 7 on units 0 and 1. Afterwards `a->n_layers` is 1 and the
one effective layer has index 5, but `a->layer_differences` still lists the layer
of index 7 on unit 1: the loop drops the layers with
`layer->index > state.first_index_to_prune`, and `first_index_to_prune` is 7. -/
theorem prune_keeps_first_index_to_prune :
    owned_indices_and_units 8 scenario_two_layers 1 = some [(7, 1), (5, 0)] ∧
    (_cogl_pipeline_prune_to_n_layers 8 scenario_two_layers 1 1).bind
      (fun c => cogl_pipeline_get_n_layers 8 c 1) = some 1 ∧
    (_cogl_pipeline_prune_to_n_layers 8 scenario_two_layers 1 1).bind
      (fun c => layer_indices_and_units 8 c 1) = some [(5, 0)] ∧
    (_cogl_pipeline_prune_to_n_layers 8 scenario_two_layers 1 1).bind
      (fun c => owned_indices_and_units 8 c 1) = some [(7, 1), (5, 0)] := by
  decide!

/-- C17: `cogl_pipeline_foreach_layer` on the pipeline `a` (1) with the layers of
index 5 and 7. A callback that only notes its argument is called with 5 and 7. A
callback that removes the layer of index 7 is called once, with 5, although it
returns TRUE: the bound `authority->n_layers` of the loop is read again on every
round. A callback that adds a layer of index 9 makes the loop read
`state.indices[2]`, which is past the two entries of the snapshot. -/
theorem foreach_layer_bound_follows_changes :
    (cogl_pipeline_foreach_layer 8 scenario_two_layers 1 noting_callback []).map Prod.snd =
      some [5, 7] ∧
    (cogl_pipeline_foreach_layer 8 scenario_two_layers 1 (removing_callback 7) []).map Prod.snd =
      some [5] ∧
    (cogl_pipeline_foreach_layer 8 scenario_two_layers 1 (adding_callback 9) []).map Prod.snd =
      none := by
  decide!

/-- C19: a change of `blend_enable` from `DISABLED` to `AUTOMATIC`. Before the change
`p` (1) holds a color of alpha 0x80 and `DISABLED`; its `real_blend_enable` is false
and so is `_cogl_pipeline_needs_blending_enabled (p, AFFECTS_BLENDING, NULL)`. After
the change and `_cogl_pipeline_update_blend_enable (p, BLEND_ENABLE)` the stored
`real_blend_enable` is still false, while the full check on the new state gives
true: with `real_blend_enable` false the groups outside `changes` are not
looked at. -/
theorem update_blend_enable_misses_other_groups :
    _cogl_pipeline_get_real_blend_enabled scenario_translucent_disabled 1 = some false ∧
    (_cogl_pipeline_needs_blending_enabled 9 scenario_translucent_disabled 1
      COGL_PIPELINE_STATE_AFFECTS_BLENDING none).map Prod.snd = some false ∧
    scenario_translucent_automatic.bind
      (fun c => _cogl_pipeline_get_real_blend_enabled c 1) = some false ∧
    scenario_translucent_automatic.bind
      (fun c => (_cogl_pipeline_needs_blending_enabled 9 c 1
        COGL_PIPELINE_STATE_AFFECTS_BLENDING none).map Prod.snd) = some true ∧
    scenario_translucent_automatic.bind
      (fun c => (c.pipeline 1).map (fun node => (node.blend_enable, node.color.alpha))) =
      some (COGL_PIPELINE_BLEND_ENABLE_AUTOMATIC, 0x80) := by
  decide!

/-! ## The need for blending -/

theorem all_layers_eq_some {slots : List (Option Nat)} {layers : List Nat}
    (h : all_layers slots = some layers) : slots = layers.map some := by
  induction slots generalizing layers with
  | nil =>
    simp only [all_layers, Option.some.injEq] at h
    subst h
    rfl
  | cons s rest ih =>
    cases s with
    | none => simp [all_layers] at h
    | some l =>
      simp only [all_layers, Option.map_eq_some'] at h
      obtain ⟨ls, hls, he⟩ := h
      subst he
      rw [ih hls]
      rfl

theorem layer_get_authority_layers {ctx ctx2 : CoglContext} (h : ctx2.layers = ctx.layers)
    (fuel l g : Nat) :
    _cogl_pipeline_layer_get_authority ctx2 fuel l g =
      _cogl_pipeline_layer_get_authority ctx fuel l g := by
  induction fuel generalizing l with
  | zero => rfl
  | succ k ih =>
    simp only [_cogl_pipeline_layer_get_authority, CoglContext.layer, h, ih]

theorem layer_has_alpha_cb_layers {ctx ctx2 : CoglContext} (h : ctx2.layers = ctx.layers)
    (ht : ctx2.textures = ctx.textures) (fuel l : Nat) :
    layer_has_alpha_cb fuel ctx2 l = layer_has_alpha_cb fuel ctx l := by
  simp only [layer_has_alpha_cb, layer_get_authority_layers h, CoglContext.layer, h,
    cogl_texture_get_format, ht]

/-- The callback `layer_has_alpha_cb` answers what the predicate says of the layer
and goes on exactly when the layer gives no alpha. -/
theorem layer_has_alpha_cb_of_predicate {ctx : CoglContext} {fuel l : Nat} {a : Bool}
    (h : layer_may_have_alpha fuel ctx l = some a) :
    layer_has_alpha_cb fuel ctx l = some (a, !a) := by
  unfold layer_may_have_alpha at h
  simp only [Option.bind_eq_bind, Option.bind_eq_some, Option.pure_def, Option.some.injEq] at h
  obtain ⟨ca_id, hca, ca, hcar, ta_id, hta, ta, htar, tex, htex, ha⟩ := h
  unfold layer_has_alpha_cb
  simp only [hca, hcar, hta, htar]
  by_cases hd : ca.big_state.texture_combine_alpha_func = COGL_PIPELINE_COMBINE_FUNC_MODULATE ∧
      ca.big_state.texture_combine_alpha_src.getD 0 0 = COGL_PIPELINE_COMBINE_SOURCE_PREVIOUS ∧
      ca.big_state.texture_combine_alpha_op.getD 0 0 = COGL_PIPELINE_COMBINE_OP_SRC_ALPHA ∧
      ca.big_state.texture_combine_alpha_src.getD 1 0 = COGL_PIPELINE_COMBINE_SOURCE_TEXTURE ∧
      ca.big_state.texture_combine_alpha_op.getD 1 0 = COGL_PIPELINE_COMBINE_OP_SRC_ALPHA
  · have hn : ¬ (ca.big_state.texture_combine_alpha_func ≠ COGL_PIPELINE_COMBINE_FUNC_MODULATE ∨
        ca.big_state.texture_combine_alpha_src.getD 0 0 ≠ COGL_PIPELINE_COMBINE_SOURCE_PREVIOUS ∨
        ca.big_state.texture_combine_alpha_op.getD 0 0 ≠ COGL_PIPELINE_COMBINE_OP_SRC_ALPHA ∨
        ca.big_state.texture_combine_alpha_src.getD 1 0 ≠ COGL_PIPELINE_COMBINE_SOURCE_TEXTURE ∨
        ca.big_state.texture_combine_alpha_op.getD 1 0 ≠ COGL_PIPELINE_COMBINE_OP_SRC_ALPHA) := by
      tauto
    rw [if_neg hn]
    rw [decide_eq_true hd] at ha
    simp only [Bool.not_true, Bool.false_or] at ha
    subst ha
    cases htx : ta.texture with
    | none =>
      rw [htx] at htex
      simp only [Option.some.injEq] at htex
      subst htex
      rfl
    | some texture =>
      rw [htx] at htex
      simp only [Option.map_eq_some'] at htex
      obtain ⟨format, hf, hfe⟩ := htex
      simp only [hf]
      subst hfe
      by_cases hb : format &&& COGL_A_BIT ≠ 0
      · rw [if_pos hb, decide_eq_true hb]
        rfl
      · rw [if_neg hb, decide_eq_false hb]
        rfl
  · have hn : (ca.big_state.texture_combine_alpha_func ≠ COGL_PIPELINE_COMBINE_FUNC_MODULATE ∨
        ca.big_state.texture_combine_alpha_src.getD 0 0 ≠ COGL_PIPELINE_COMBINE_SOURCE_PREVIOUS ∨
        ca.big_state.texture_combine_alpha_op.getD 0 0 ≠ COGL_PIPELINE_COMBINE_OP_SRC_ALPHA ∨
        ca.big_state.texture_combine_alpha_src.getD 1 0 ≠ COGL_PIPELINE_COMBINE_SOURCE_TEXTURE ∨
        ca.big_state.texture_combine_alpha_op.getD 1 0 ≠ COGL_PIPELINE_COMBINE_OP_SRC_ALPHA) := by
      tauto
    rw [if_pos hn]
    rw [decide_eq_false hd] at ha
    simp only [Bool.not_false, Bool.true_or] at ha
    subst ha
    rfl

theorem layer_may_have_alpha_layers {ctx ctx2 : CoglContext} (h : ctx2.layers = ctx.layers)
    (ht : ctx2.textures = ctx.textures) (fuel l : Nat) :
    layer_may_have_alpha fuel ctx2 l = layer_may_have_alpha fuel ctx l := by
  simp only [layer_may_have_alpha, layer_get_authority_layers h, CoglContext.layer, h,
    cogl_texture_get_format, ht]

theorem update_layers_cache_frame {ctx ctx1 : CoglContext} {fuel p : Nat}
    (h : _cogl_pipeline_update_layers_cache fuel ctx p = some ctx1) :
    ctx1.layers = ctx.layers ∧ ctx1.textures = ctx.textures ∧
      ctx1.pipelines.length = ctx.pipelines.length := by
  unfold _cogl_pipeline_update_layers_cache at h
  cases hp : ctx.pipeline p with
  | none => rw [hp] at h; exact absurd h (by simp)
  | some node =>
    rw [hp] at h
    simp only at h
    split at h
    · simp only [Option.some.injEq] at h
      subst h
      exact ⟨rfl, rfl, rfl⟩
    · split at h
      · exact absurd h (by simp)
      · simp only [Option.some.injEq] at h
        subst h
        exact ⟨rfl, rfl, by simp [CoglContext.set_pipeline]⟩

/-- The walk of `layer_has_alpha_cb` over cached layers ends with the disjunction of
what the predicate says of each of them. -/
theorem has_alpha_loop {ctx : CoglContext} {fuel A : Nat} {node : CoglPipeline}
    (hA : ctx.pipeline A = some node) (hd : node.layers_cache_dirty = false) :
    ∀ (layers : List Nat) (alphas : List Bool) (i : Nat) (s : Bool),
      layers.mapM (layer_may_have_alpha fuel ctx) = some alphas →
      (∀ k l, layers[k]? = some l → node.layers_cache[i + k]? = some (some l)) →
      foreach_layer_internal_loop A
        (fun c (_ : Bool) layer => (layer_has_alpha_cb fuel c layer).map (fun r => (c, r.1, r.2)))
        layers.length i ctx s = some (ctx, if layers = [] then s else alphas.any id) := by
  intro layers
  induction layers with
  | nil =>
    intro alphas i s _ _
    simp [foreach_layer_internal_loop]
  | cons l rest ih =>
    intro alphas i s hm hc
    simp only [List.mapM_cons, Option.bind_eq_bind, Option.bind_eq_some, Option.pure_def,
      Option.some.injEq] at hm
    obtain ⟨a, ha, as, has, he⟩ := hm
    subst he
    have h0 := hc 0 l (by simp)
    simp only [Nat.add_zero] at h0
    simp only [List.length_cons, foreach_layer_internal_loop, hA, hd, h0,
      layer_has_alpha_cb_of_predicate ha, Option.map_some', Bool.false_eq_true, if_false]
    cases a with
    | true => simp
    | false =>
      simp only [Bool.not_false]
      rw [ih as (i + 1) false has (fun k l2 hk => by
        have := hc (k + 1) l2 (by simpa using hk)
        rw [← this]
        congr 1
        omega)]
      cases rest with
      | nil =>
        simp only [List.mapM_nil, Option.pure_def, Option.some.injEq] at has
        subst has
        simp
      | cons r rs => simp

theorem effective_layers_loop {ctx : CoglContext} {fuel p : Nat} {layers : List Nat}
    {alphas : List Bool} (hl : effective_layers fuel ctx p = some layers)
    (ha : layers.mapM (layer_may_have_alpha fuel ctx) = some alphas) :
    ∃ ctx1, _cogl_pipeline_foreach_layer_internal fuel ctx p
        (fun c (_ : Bool) layer => (layer_has_alpha_cb fuel c layer).map (fun r => (c, r.1, r.2)))
        false = some (ctx1, alphas.any id) ∧
      ctx1.pipelines.length = ctx.pipelines.length := by
  unfold effective_layers at hl
  simp only [Option.bind_eq_bind, Option.bind_eq_some, Option.pure_def] at hl
  obtain ⟨A, hauth, a, hA, hrest⟩ := hl
  unfold _cogl_pipeline_foreach_layer_internal
  simp only [hauth, hA]
  by_cases hn : a.n_layers = 0
  · rw [if_pos hn] at hrest
    simp only [Option.some.injEq] at hrest
    subst hrest
    simp only [List.mapM_nil, Option.pure_def, Option.some.injEq] at ha
    subst ha
    rw [if_pos hn]
    exact ⟨ctx, rfl, rfl⟩
  · rw [if_neg hn] at hrest
    rw [if_neg hn]
    simp only [Option.bind_eq_some] at hrest
    obtain ⟨c1, hc1, a1, hA1, hrest⟩ := hrest
    split at hrest
    · exact absurd hrest (by simp)
    · rename_i hcond
      simp only [not_or, Bool.not_eq_true, ne_eq, not_not] at hcond
      obtain ⟨hdirty, hlen⟩ := hcond
      have hslots := all_layers_eq_some hrest
      obtain ⟨hlay, htex, hplen⟩ := update_layers_cache_frame hc1
      have hlayers_len : layers.length = a.n_layers := by
        have := congrArg List.length hslots
        rw [List.length_map] at this
        omega
      have hcache : ∀ k l, layers[k]? = some l → a1.layers_cache[0 + k]? = some (some l) := by
        intro k l hk
        have hklt : k < a.n_layers := by
          rw [← hlayers_len]
          exact (List.getElem?_eq_some.mp hk).1
        have h1 : (a1.layers_cache.take a.n_layers)[k]? = a1.layers_cache[k]? := by
          rw [List.getElem?_take, if_pos hklt]
        rw [Nat.zero_add, ← h1, hslots, List.getElem?_map, hk]
        rfl
      have ha1 : layers.mapM (layer_may_have_alpha fuel c1) = some alphas := by
        rw [← ha]
        congr 1
        funext l
        exact layer_may_have_alpha_layers hlay htex fuel l
      have hloop := @has_alpha_loop c1 fuel A a1 hA1 hdirty layers alphas 0 false ha1 hcache
      rw [hlayers_len] at hloop
      simp only [hc1]
      refine ⟨c1, ?_, hplen⟩
      rw [hloop]
      cases layers with
      | nil =>
        simp only [List.mapM_nil, Option.pure_def, Option.some.injEq] at ha
        subst ha
        simp
      | cons r rs => simp

theorem pipeline_of_authority {ctx : CoglContext} {fuel p g a : Nat}
    (h : _cogl_pipeline_get_authority ctx fuel p g = some a) :
    ∃ node, ctx.pipeline p = some node := by
  cases fuel with
  | zero => simp [_cogl_pipeline_get_authority] at h
  | succ k =>
    rw [_cogl_pipeline_get_authority] at h
    cases hp : ctx.pipeline p with
    | none => rw [hp] at h; exact absurd h (by simp)
    | some node => exact ⟨node, rfl⟩

theorem pipeline_of_same_length {ctx ctx1 : CoglContext} {p : Nat} {node : CoglPipeline}
    (hlen : ctx1.pipelines.length = ctx.pipelines.length) (h : ctx.pipeline p = some node) :
    ∃ node1, ctx1.pipeline p = some node1 := by
  have hlt : p < ctx1.pipelines.length := by
    rw [hlen]
    exact pipeline_lt_length h
  exact ⟨ctx1.pipelines[p], by simp [CoglContext.pipeline, hlt]⟩

/-- C18: `_cogl_pipeline_needs_blending_enabled (p, AFFECTS_BLENDING, NULL)` is the
blend-enable predicate of section 4.2. With the debug switch that disables blending
off and a driver other than GLES 1, whenever the predicate has the value `b` on `p`
(its authorities and effective layers resolve), the function returns `b`: an
explicit `ENABLED` or `DISABLED` as such, and under `AUTOMATIC` true exactly when
the equations are not both ADD, or the factors are not (ONE, ONE_MINUS_SRC_ALPHA)
for RGB and alpha, or the resolved color has alpha other than 0xff, or a user
program is attached, or some effective layer has a non-default alpha combine or an
authoritative texture with the alpha bit. -/
theorem needs_blending_enabled_is_predicate (fuel : Nat) (ctx : CoglContext) (pipeline : Nat)
    (b : Bool) (hdebug : ctx.debug_disable_blending = false)
    (hdriver : ctx.driver ≠ CoglDriver.COGL_DRIVER_GLES1)
    (hpred : blend_enable_predicate fuel ctx pipeline = some b) :
    (_cogl_pipeline_needs_blending_enabled (fuel + 1) ctx pipeline
      COGL_PIPELINE_STATE_AFFECTS_BLENDING none).map Prod.snd = some b := by
  unfold blend_enable_predicate at hpred
  simp only [Option.bind_eq_bind, Option.bind_eq_some] at hpred
  obtain ⟨eauth, hea, ea, hear, hrest⟩ := hpred
  rw [_cogl_pipeline_needs_blending_enabled]
  simp only [hdebug, Bool.false_eq_true, if_false, Option.bind_eq_bind, hea, hear,
    Option.some_bind]
  cases he : ea.blend_enable with
  | COGL_PIPELINE_BLEND_ENABLE_ENABLED =>
    rw [he] at hrest
    simp only [Option.pure_def, Option.some.injEq] at hrest
    subst hrest
    simp
  | COGL_PIPELINE_BLEND_ENABLE_DISABLED =>
    rw [he] at hrest
    simp only [Option.pure_def, Option.some.injEq] at hrest
    subst hrest
    simp
  | COGL_PIPELINE_BLEND_ENABLE_AUTOMATIC =>
    rw [he] at hrest
    simp only [Option.bind_eq_some, Option.pure_def, Option.some.injEq] at hrest
    obtain ⟨bauth, hba, ba, hbar, color, hcolor, prog, hprog, layers, hlayers, alphas, halphas,
      hb⟩ := hrest
    obtain ⟨ctx1, hloop, hlen⟩ := effective_layers_loop hlayers halphas
    obtain ⟨pn, hpn⟩ := pipeline_of_authority hea
    obtain ⟨pn1, hpn1⟩ := pipeline_of_same_length hlen hpn
    have hL : COGL_PIPELINE_STATE_AFFECTS_BLENDING &&& COGL_PIPELINE_STATE_LAYERS ≠ 0 := by
      decide
    have hC : COGL_PIPELINE_STATE_AFFECTS_BLENDING &&& COGL_PIPELINE_STATE_COLOR ≠ 0 := by
      decide
    have hU : COGL_PIPELINE_STATE_AFFECTS_BLENDING &&& COGL_PIPELINE_STATE_USER_SHADER ≠ 0 := by
      decide
    have hM : mask_clear COGL_PIPELINE_STATE_AFFECTS_BLENDING
        COGL_PIPELINE_STATE_AFFECTS_BLENDING = 0 := by decide
    simp only [ne_eq, not_true_eq_false, if_false, hba, hbar, Option.some_bind, hL,
      not_false_eq_true, if_true, hC, hU, hcolor, hprog, Option.map_some', hloop, hpn1, hM,
      Option.map_none', Option.getD_none, hdriver, true_and]
    subst hb
    by_cases h1 : ba.big_state.blend_state.blend_equation_rgb = GL_FUNC_ADD
    · by_cases h2 : ba.big_state.blend_state.blend_equation_alpha = GL_FUNC_ADD
      · by_cases h3 : ba.big_state.blend_state.blend_src_factor_alpha = GL_ONE
        · by_cases h4 : ba.big_state.blend_state.blend_dst_factor_alpha = GL_ONE_MINUS_SRC_ALPHA
          · by_cases h5 : ba.big_state.blend_state.blend_src_factor_rgb = GL_ONE
            · by_cases h6 : ba.big_state.blend_state.blend_dst_factor_rgb =
                  GL_ONE_MINUS_SRC_ALPHA
              · by_cases h7 : cogl_color_get_alpha_byte color = 255
                · by_cases h8 : prog = none
                  · cases h9 : alphas.any id <;> simp [h1, h2, h3, h4, h5, h6, h7, h8]
                  · simp [h1, h2, h3, h4, h5, h6, h7, h8]
                · simp [h1, h2, h3, h4, h5, h6, h7]
              · simp [h1, h2, h3, h4, h5, h6]
            · simp [h1, h2, h3, h4, h5]
          · simp [h1, h2, h3, h4]
        · simp [h1, h2, h3]
      · simp [h1, h2]
    · simp [h1]

theorem needs_blending_enabled_is_predicate_witness :
    scenario_two_layers.debug_disable_blending = false ∧
    scenario_two_layers.driver ≠ CoglDriver.COGL_DRIVER_GLES1 ∧
    blend_enable_predicate 8 scenario_two_layers 1 = some false ∧
    (_cogl_pipeline_needs_blending_enabled 9 scenario_two_layers 1
      COGL_PIPELINE_STATE_AFFECTS_BLENDING none).map Prod.snd = some false :=
  ⟨by decide!, by decide!, by decide!,
    needs_blending_enabled_is_predicate 8 scenario_two_layers 1 false (by decide!) (by decide!)
      (by decide!)⟩

/-! ## The layers cache -/

theorem layer_get_authority_mono (ctx : CoglContext) (g : Nat) :
    ∀ (f l a : Nat), _cogl_pipeline_layer_get_authority ctx f l g = some a →
      ∀ f2, f ≤ f2 → _cogl_pipeline_layer_get_authority ctx f2 l g = some a := by
  intro f
  induction f with
  | zero => intro l a h; simp [_cogl_pipeline_layer_get_authority] at h
  | succ k ih =>
    intro l a h f2 hle
    obtain ⟨j, rfl⟩ : ∃ j, f2 = j + 1 := ⟨f2 - 1, by omega⟩
    rw [_cogl_pipeline_layer_get_authority] at h ⊢
    cases hl : ctx.layer l with
    | none => rw [hl] at h; exact absurd h (by simp)
    | some node =>
      rw [hl] at h
      simp only at h ⊢
      split
      · rename_i hd
        rw [if_pos hd] at h
        exact h
      · rename_i hd
        rw [if_neg hd] at h
        cases hp : node.parent with
        | none => rw [hp] at h; exact absurd h (by simp)
        | some q =>
          rw [hp] at h
          exact ih q a h j (by omega)

theorem layer_get_unit_index_mono {ctx : CoglContext} {f f2 l u : Nat}
    (h : _cogl_pipeline_layer_get_unit_index ctx f l = some u) (hle : f ≤ f2) :
    _cogl_pipeline_layer_get_unit_index ctx f2 l = some u := by
  unfold _cogl_pipeline_layer_get_unit_index at h ⊢
  cases ha : _cogl_pipeline_layer_get_authority ctx f l COGL_PIPELINE_LAYER_STATE_UNIT with
  | none => rw [ha] at h; exact absurd h (by simp)
  | some a =>
    rw [ha] at h
    rw [layer_get_authority_mono ctx _ f l a ha f2 hle]
    exact h

theorem countP_set_none (l : List (Option Nat)) (u L : Nat) (h : l[u]? = some none) :
    (l.set u (some L)).countP Option.isSome = l.countP Option.isSome + 1 := by
  induction l generalizing u with
  | nil => simp at h
  | cons x xs ih =>
    cases u with
    | zero =>
      simp only [List.getElem?_cons_zero, Option.some.injEq] at h
      subst h
      simp [List.countP_cons]
    | succ j =>
      simp only [List.getElem?_cons_succ] at h
      simp only [List.set_cons_succ, List.countP_cons, ih j h]
      omega

/-- What the two loops of `_cogl_pipeline_update_layers_cache` keep true: the cache
has `N` slots, `found` counts the filled ones, and slot `u` holds the first of the
layers met so far that sits on unit `u`. -/
theorem scan_spec {ctx : CoglContext} {f N : Nat} (U : Nat → Nat) :
    ∀ (ls : List Nat) (cache : List (Option Nat)) (found : Nat) (seen : List Nat),
      (∀ L ∈ ls, _cogl_pipeline_layer_get_unit_index ctx f L = some (U L)) →
      cache.length = N → found = cache.countP Option.isSome → found < N →
      (∀ u, u < N → cache[u]? = some (seen.find? (fun L => decide (U L = u)))) →
      ∃ cache2 found2 done,
        update_layers_cache_scan ctx f N ls cache found = some (cache2, found2, done) ∧
        cache2.length = N ∧
        ((done = false ∧ found2 = cache2.countP Option.isSome ∧ found2 < N ∧
            ∀ u, u < N → cache2[u]? = some ((seen ++ ls).find? (fun L => decide (U L = u)))) ∨
         (done = true ∧ ∀ more u, u < N → (cache2[u]?).join.isSome = true ∧
            cache2[u]? = some ((seen ++ ls ++ more).find? (fun L => decide (U L = u))))) := by
  intro ls
  induction ls with
  | nil =>
    intro cache found seen _ hlen hcount hlt hslots
    exact ⟨cache, found, false, rfl, hlen, Or.inl ⟨rfl, hcount, hlt, by simpa using hslots⟩⟩
  | cons L rest ih =>
    intro cache found seen hunits hlen hcount hlt hslots
    have hL := hunits L (List.mem_cons_self _ _)
    have hrest : ∀ L2 ∈ rest, _cogl_pipeline_layer_get_unit_index ctx f L2 = some (U L2) :=
      fun L2 h2 => hunits L2 (List.mem_cons_of_mem _ h2)
    rw [update_layers_cache_scan]
    simp only [hL]
    by_cases hc : U L < N ∧ cache[U L]? = some none
    · rw [if_pos hc]
      obtain ⟨huN, hnone⟩ := hc
      have hlen2 : (cache.set (U L) (some L)).length = N := by simp [hlen]
      have hcount2 : found + 1 = (cache.set (U L) (some L)).countP Option.isSome := by
        rw [countP_set_none cache (U L) L hnone, hcount]
      have hno : seen.find? (fun L2 => decide (U L2 = U L)) = none := by
        have := hslots (U L) huN
        rw [hnone] at this
        exact (Option.some.inj this).symm
      have hslots2 : ∀ u, u < N → (cache.set (U L) (some L))[u]? =
          some ((seen ++ [L]).find? (fun L2 => decide (U L2 = u))) := by
        intro u hu
        by_cases hue : U L = u
        · subst hue
          rw [List.getElem?_set_self (by rw [hlen]; exact huN), List.find?_append, hno]
          simp
        · rw [List.getElem?_set_ne hue, hslots u hu, List.find?_append]
          simp [hue]
      by_cases hdone : found + 1 = N
      · rw [if_pos hdone]
        refine ⟨_, _, true, rfl, hlen2, Or.inr ⟨rfl, ?_⟩⟩
        intro more u hu
        have hall : ∀ x ∈ cache.set (U L) (some L), Option.isSome x = true := by
          apply List.countP_eq_length.mp
          rw [← hcount2, hlen2, hdone]
        have hsome : ((cache.set (U L) (some L))[u]?).join.isSome = true := by
          have hult : u < (cache.set (U L) (some L)).length := by rw [hlen2]; exact hu
          rw [List.getElem?_eq_getElem hult]
          exact hall _ (List.getElem_mem _)
        refine ⟨hsome, ?_⟩
        have h1 := hslots2 u hu
        rw [h1] at hsome ⊢
        simp only [Option.join] at hsome
        have : seen ++ L :: rest ++ more = (seen ++ [L]) ++ (rest ++ more) := by simp
        cases hfind : (seen ++ [L]).find? (fun L2 => decide (U L2 = u)) with
        | none => rw [hfind] at hsome; exact absurd hsome (by simp)
        | some v =>
          rw [this, List.find?_append, hfind]
          rfl
      · rw [if_neg hdone]
        obtain ⟨cache2, found2, done, hscan, hl2, hcases⟩ :=
          ih (cache.set (U L) (some L)) (found + 1) (seen ++ [L]) hrest hlen2 hcount2
            (by omega) hslots2
        refine ⟨cache2, found2, done, hscan, hl2, ?_⟩
        have happ : seen ++ [L] ++ rest = seen ++ L :: rest := by simp
        rw [happ] at hcases
        exact hcases
    · rw [if_neg hc]
      have hslots2 : ∀ u, u < N → cache[u]? =
          some ((seen ++ [L]).find? (fun L2 => decide (U L2 = u))) := by
        intro u hu
        rw [hslots u hu, List.find?_append]
        by_cases hue : U L = u
        · subst hue
          have hcu := hslots (U L) hu
          cases hf : seen.find? (fun L2 => decide (U L2 = U L)) with
          | none =>
            rw [hf] at hcu
            exact absurd ⟨hu, hcu⟩ hc
          | some v => simp
        · simp [hue]
      obtain ⟨cache2, found2, done, hscan, hl2, hcases⟩ :=
        ih cache found (seen ++ [L]) hrest hlen hcount hlt hslots2
      refine ⟨cache2, found2, done, hscan, hl2, ?_⟩
      have happ : seen ++ [L] ++ rest = seen ++ L :: rest := by simp
      rw [happ] at hcases
      exact hcases

theorem pipeline_view_parent {ctx : CoglContext} {p : Nat} {q : Option Nat}
    (h : (pipeline_view ctx p).map (fun v => v.parent) = some q) :
    ∃ node, ctx.pipeline p = some node ∧ node.parent = q := by
  unfold pipeline_view at h
  cases hp : ctx.pipeline p with
  | none => rw [hp] at h; exact absurd h (by simp)
  | some node =>
    rw [hp] at h
    simp only [Option.map_some', Option.some.injEq] at h
    exact ⟨node, rfl, h⟩

theorem walk_spec {ctx : CoglContext} {f0 N : Nat} (U : Nat → Nat) :
    ∀ (path : List Nat) (current fuel : Nat) (cache : List (Option Nat)) (found : Nat)
      (seen : List Nat),
      pipeline_path ctx current path → path.length + f0 ≤ fuel →
      (∀ L ∈ layers_on_path ctx path,
        _cogl_pipeline_layer_get_unit_index ctx f0 L = some (U L)) →
      cache.length = N → found = cache.countP Option.isSome → found < N →
      (∀ u, u < N → cache[u]? = some (seen.find? (fun L => decide (U L = u)))) →
      ∃ cache2, update_layers_cache_walk ctx N fuel current cache found = some cache2 ∧
        cache2.length = N ∧
        ∀ u, u < N → cache2[u]? =
          some ((seen ++ layers_on_path ctx path).find? (fun L => decide (U L = u))) := by
  intro path
  induction path with
  | nil => intro current fuel cache found seen h; exact absurd h (by simp [pipeline_path, node_path])
  | cons a rest ih =>
    intro current fuel cache found seen hpath hfuel hunits hlen hcount hlt hslots
    obtain ⟨k, rfl⟩ : ∃ k, fuel = k + 1 := ⟨fuel - 1, by simp at hfuel; omega⟩
    cases rest with
    | nil =>
      simp only [pipeline_path, node_path] at hpath
      obtain ⟨node, hnode, hparent⟩ := pipeline_view_parent hpath.2
      rw [update_layers_cache_walk]
      simp only [hnode, hparent]
      exact ⟨cache, rfl, hlen, by simpa [layers_on_path] using hslots⟩
    | cons b rest2 =>
      simp only [pipeline_path, node_path] at hpath
      obtain ⟨hac, hpar, hrestpath⟩ := hpath
      subst hac
      obtain ⟨node, hnode, hparent⟩ := pipeline_view_parent hpar
      rw [update_layers_cache_walk]
      simp only [hnode, hparent]
      have hkf : (b :: rest2).length + f0 ≤ k := by
        simp only [List.length_cons] at hfuel ⊢
        omega
      by_cases hd : node.differences &&& COGL_PIPELINE_STATE_LAYERS = 0
      · rw [if_pos hd]
        have hlp : layers_on_path ctx (a :: b :: rest2) = layers_on_path ctx (b :: rest2) := by
          simp [layers_on_path, hnode, hd]
        rw [hlp] at hunits ⊢
        exact ih b k cache found seen hrestpath hkf hunits hlen hcount hlt hslots
      · rw [if_neg hd]
        have hlp : layers_on_path ctx (a :: b :: rest2) =
            node.layer_differences ++ layers_on_path ctx (b :: rest2) := by
          simp [layers_on_path, hnode, hd]
        rw [hlp] at hunits ⊢
        have hunits1 : ∀ L ∈ node.layer_differences,
            _cogl_pipeline_layer_get_unit_index ctx k L = some (U L) := fun L hL =>
          layer_get_unit_index_mono (hunits L (List.mem_append_left _ hL)) (by omega)
        obtain ⟨cache1, found1, done, hscan, hlen1, hcases⟩ :=
          scan_spec U node.layer_differences cache found seen hunits1 hlen hcount hlt hslots
        rw [hscan]
        rcases hcases with ⟨hdone, hcount1, hlt1, hslots1⟩ | ⟨hdone, hfin⟩
        · subst hdone
          simp only
          obtain ⟨cache2, hwalk, hlen2, hslots2⟩ :=
            ih b k cache1 found1 (seen ++ node.layer_differences) hrestpath hkf
              (fun L hL => hunits L (List.mem_append_right _ hL)) hlen1 hcount1 hlt1 hslots1
          refine ⟨cache2, hwalk, hlen2, ?_⟩
          intro u hu
          rw [hslots2 u hu, List.append_assoc]
        · subst hdone
          simp only
          refine ⟨cache1, rfl, hlen1, ?_⟩
          intro u hu
          rw [(hfin (layers_on_path ctx (b :: rest2)) u hu).2, List.append_assoc]

theorem find_on_path {ctx : CoglContext} (pr : Nat → Bool) :
    ∀ (path : List Nat) (L : Nat), (layers_on_path ctx path).find? pr = some L →
      ∃ pre c post cn, path = pre ++ c :: post ∧ post ≠ [] ∧ ctx.pipeline c = some cn ∧
        cn.differences &&& COGL_PIPELINE_STATE_LAYERS ≠ 0 ∧
        cn.layer_differences.find? pr = some L ∧
        ∀ c2 ∈ pre, ∀ cn2, ctx.pipeline c2 = some cn2 →
          cn2.differences &&& COGL_PIPELINE_STATE_LAYERS ≠ 0 →
          ∀ L2 ∈ cn2.layer_differences, pr L2 = false := by
  intro path
  induction path with
  | nil => intro L h; simp [layers_on_path] at h
  | cons c rest ih =>
    intro L h
    cases rest with
    | nil => simp [layers_on_path] at h
    | cons b rest2 =>
      rw [layers_on_path, List.find?_append] at h
      cases hc : ctx.pipeline c with
      | none =>
        rw [hc] at h
        simp only [List.find?_nil, Option.none_or] at h
        obtain ⟨pre, c1, post, cn, hp, hpost, hcn, hl, hf, hpre⟩ := ih L h
        refine ⟨c :: pre, c1, post, cn, by rw [hp]; rfl, hpost, hcn, hl, hf, ?_⟩
        intro c2 hc2 cn2 hcn2 hl2 L2 hL2
        rcases List.mem_cons.mp hc2 with he | hin
        · subst he
          rw [hc] at hcn2
          exact absurd hcn2 (by simp)
        · exact hpre c2 hin cn2 hcn2 hl2 L2 hL2
      | some cnode =>
        rw [hc] at h
        simp only at h
        by_cases hd : cnode.differences &&& COGL_PIPELINE_STATE_LAYERS ≠ 0
        · rw [if_pos hd] at h
          cases hf : cnode.layer_differences.find? pr with
          | some L1 =>
            rw [hf] at h
            have h := Option.some.inj h
            subst h
            exact ⟨[], c, b :: rest2, cnode, rfl, by simp, hc, hd, hf,
              fun c2 hc2 => absurd hc2 (by simp)⟩
          | none =>
            rw [hf] at h
            simp only [Option.none_or] at h
            obtain ⟨pre, c1, post, cn, hp, hpost, hcn, hl, hf1, hpre⟩ := ih L h
            refine ⟨c :: pre, c1, post, cn, by rw [hp]; rfl, hpost, hcn, hl, hf1, ?_⟩
            intro c2 hc2 cn2 hcn2 hl2 L2 hL2
            rcases List.mem_cons.mp hc2 with he | hin
            · subst he
              rw [hc] at hcn2
              simp only [Option.some.injEq] at hcn2
              subst hcn2
              have := List.find?_eq_none.mp hf L2 hL2
              simpa using this
            · exact hpre c2 hin cn2 hcn2 hl2 L2 hL2
        · rw [if_neg hd] at h
          simp only [List.find?_nil, Option.none_or] at h
          obtain ⟨pre, c1, post, cn, hp, hpost, hcn, hl, hf1, hpre⟩ := ih L h
          refine ⟨c :: pre, c1, post, cn, by rw [hp]; rfl, hpost, hcn, hl, hf1, ?_⟩
          intro c2 hc2 cn2 hcn2 hl2 L2 hL2
          rcases List.mem_cons.mp hc2 with he | hin
          · subst he
            rw [hc] at hcn2
            simp only [Option.some.injEq] at hcn2
            subst hcn2
            exact absurd hl2 hd
          · exact hpre c2 hin cn2 hcn2 hl2 L2 hL2

/-- The layers cache of a covered pipeline: `_cogl_pipeline_update_layers_cache` on
a pipeline `A` with a stale cache and `N = A->n_layers > 0`. Let `path` be the chain
from `A` to the root, let every layer listed by a node of the chain that asserts
`LAYERS` resolve its unit index, and let every unit below `N` be listed by such a
node (the root is not looked at).
Then the function returns, the cache has `N` slots, none of them NULL, and slot `u`
holds a layer `L` of unit index `u` that is listed by the nearest node `c` of the
chain that asserts `LAYERS` and lists a layer of unit `u`: no node of the chain
before `c` that asserts `LAYERS` lists a layer of unit `u`. -/
theorem layers_cache_holds_nearest_layers (ctx : CoglContext) (fuel f0 A : Nat)
    (node : CoglPipeline) (path : List Nat)
    (hA : ctx.pipeline A = some node) (hdirty : node.layers_cache_dirty = true)
    (hN : 0 < node.n_layers) (hpath : pipeline_path ctx A path)
    (hfuel : path.length + f0 ≤ fuel)
    (hunits : ∀ L ∈ layers_on_path ctx path,
      (_cogl_pipeline_layer_get_unit_index ctx f0 L).isSome = true)
    (hcover : ∀ u, u < node.n_layers → ∃ L ∈ layers_on_path ctx path, unit_of ctx f0 L = u) :
    ∃ cache, _cogl_pipeline_update_layers_cache fuel ctx A =
        some (ctx.set_pipeline A
          { node with layers_cache_dirty := false, layers_cache := cache }) ∧
      cache.length = node.n_layers ∧
      ∀ u, u < node.n_layers → ∃ L, cache[u]? = some (some L) ∧
        _cogl_pipeline_layer_get_unit_index ctx f0 L = some u ∧
        ∃ pre c post cn, path = pre ++ c :: post ∧ post ≠ [] ∧ ctx.pipeline c = some cn ∧
          cn.differences &&& COGL_PIPELINE_STATE_LAYERS ≠ 0 ∧ L ∈ cn.layer_differences ∧
          ∀ c2 ∈ pre, ∀ cn2, ctx.pipeline c2 = some cn2 →
            cn2.differences &&& COGL_PIPELINE_STATE_LAYERS ≠ 0 →
            ∀ L2 ∈ cn2.layer_differences,
              _cogl_pipeline_layer_get_unit_index ctx f0 L2 ≠ some u := by
  have hU : ∀ L ∈ layers_on_path ctx path,
      _cogl_pipeline_layer_get_unit_index ctx f0 L = some (unit_of ctx f0 L) := by
    intro L hL
    have := hunits L hL
    unfold unit_of
    cases hx : _cogl_pipeline_layer_get_unit_index ctx f0 L with
    | none => rw [hx] at this; exact absurd this (by simp)
    | some v => rfl
  obtain ⟨cache, hwalk, hlen, hslots⟩ :=
    walk_spec (unit_of ctx f0) path A fuel (List.replicate node.n_layers none) 0 [] hpath hfuel
      hU (by simp)
      (List.countP_eq_zero.mpr (fun x hx => by rw [List.eq_of_mem_replicate hx]; simp)).symm
      hN (by
        intro u hu
        simp [hu])
  refine ⟨cache, ?_, hlen, ?_⟩
  · unfold _cogl_pipeline_update_layers_cache
    simp only [hA, hdirty, Bool.not_true, Bool.false_eq_true, false_or,
      if_neg (Nat.pos_iff_ne_zero.mp hN), hwalk]
  · intro u hu
    obtain ⟨L0, hL0, hu0⟩ := hcover u hu
    have hs := hslots u hu
    simp only [List.nil_append] at hs
    cases hfind : (layers_on_path ctx path).find? (fun L => decide (unit_of ctx f0 L = u)) with
    | none =>
      exact absurd (decide_eq_true hu0) (List.find?_eq_none.mp hfind L0 hL0)
    | some L =>
      rw [hfind] at hs
      have hLu : unit_of ctx f0 L = u := by
        have := List.find?_some hfind
        simpa using this
      have hLmem : L ∈ layers_on_path ctx path := List.mem_of_find?_eq_some hfind
      obtain ⟨pre, c, post, cn, hp, hpost, hcn, hl, hf, hpre⟩ := find_on_path _ path L hfind
      refine ⟨L, hs, by rw [hU L hLmem, hLu], pre, c, post, cn, hp, hpost, hcn, hl,
        List.mem_of_find?_eq_some hf, ?_⟩
      intro c2 hc2 cn2 hcn2 hl2 L2 hL2 hcontra
      have := hpre c2 hc2 cn2 hcn2 hl2 L2 hL2
      simp only [decide_eq_false_iff_not] at this
      exact this (by simp [unit_of, hcontra])

theorem layers_cache_holds_nearest_layers_witness :
    (scenario_two_layers.pipeline 1 = some scenario_two_layers_a ∧
      scenario_two_layers_a.layers_cache_dirty = true ∧ scenario_two_layers_a.n_layers = 2 ∧
      pipeline_path scenario_two_layers 1 [1, 0]) ∧
    ∃ cache, _cogl_pipeline_update_layers_cache 8 scenario_two_layers 1 =
        some (scenario_two_layers.set_pipeline 1
          { scenario_two_layers_a with layers_cache_dirty := false, layers_cache := cache }) ∧
      cache.length = scenario_two_layers_a.n_layers ∧
      ∀ u, u < scenario_two_layers_a.n_layers → ∃ L, cache[u]? = some (some L) ∧
        _cogl_pipeline_layer_get_unit_index scenario_two_layers 4 L = some u ∧
        ∃ pre c post cn, [1, 0] = pre ++ c :: post ∧ post ≠ [] ∧
          scenario_two_layers.pipeline c = some cn ∧
          cn.differences &&& COGL_PIPELINE_STATE_LAYERS ≠ 0 ∧ L ∈ cn.layer_differences ∧
          ∀ c2 ∈ pre, ∀ cn2, scenario_two_layers.pipeline c2 = some cn2 →
            cn2.differences &&& COGL_PIPELINE_STATE_LAYERS ≠ 0 →
            ∀ L2 ∈ cn2.layer_differences,
              _cogl_pipeline_layer_get_unit_index scenario_two_layers 4 L2 ≠ some u :=
  ⟨⟨by decide!, by decide!, by decide!, by decide!⟩,
    layers_cache_holds_nearest_layers scenario_two_layers 8 4 1 scenario_two_layers_a [1, 0]
      (by decide!) (by decide!) (by decide!) (by decide!) (by decide) (by decide!)
      (by decide!)⟩

/-! ## The color and the need for blending -/

theorem pipeline_get_authority_mono (ctx : CoglContext) (g : Nat) :
    ∀ (f p a : Nat), _cogl_pipeline_get_authority ctx f p g = some a →
      ∀ f2, f ≤ f2 → _cogl_pipeline_get_authority ctx f2 p g = some a := by
  intro f
  induction f with
  | zero => intro p a h; simp [_cogl_pipeline_get_authority] at h
  | succ k ih =>
    intro p a h f2 hle
    obtain ⟨j, rfl⟩ : ∃ j, f2 = j + 1 := ⟨f2 - 1, by omega⟩
    rw [_cogl_pipeline_get_authority] at h ⊢
    cases hl : ctx.pipeline p with
    | none => rw [hl] at h; exact absurd h (by simp)
    | some node =>
      rw [hl] at h
      simp only at h ⊢
      split
      · rename_i hd
        rw [if_pos hd] at h
        exact h
      · rename_i hd
        rw [if_neg hd] at h
        cases hp : node.parent with
        | none => rw [hp] at h; exact absurd h (by simp)
        | some q =>
          rw [hp] at h
          exact ih q a h j (by omega)

theorem get_color_mono {ctx : CoglContext} {f f2 p : Nat} {color : CoglColor}
    (h : cogl_pipeline_get_color f ctx p = some color) (hle : f ≤ f2) :
    cogl_pipeline_get_color f2 ctx p = some color := by
  unfold cogl_pipeline_get_color at h ⊢
  cases ha : _cogl_pipeline_get_authority ctx f p COGL_PIPELINE_STATE_COLOR with
  | none => rw [ha] at h; exact absurd h (by simp)
  | some a =>
    rw [ha] at h
    rw [pipeline_get_authority_mono ctx _ f p a ha f2 hle]
    exact h

theorem update_layers_cache_other {ctx ctx1 : CoglContext} {fuel A : Nat}
    (h : _cogl_pipeline_update_layers_cache fuel ctx A = some ctx1) (p : Nat) :
    (ctx1.pipeline p).map (fun n => n.real_blend_enable) =
      (ctx.pipeline p).map (fun n => n.real_blend_enable) := by
  unfold _cogl_pipeline_update_layers_cache at h
  cases hp : ctx.pipeline A with
  | none => rw [hp] at h; exact absurd h (by simp)
  | some node =>
    rw [hp] at h
    simp only at h
    split at h
    · simp only [Option.some.injEq] at h
      subst h
      rfl
    · split at h
      · exact absurd h (by simp)
      · simp only [Option.some.injEq] at h
        subst h
        by_cases hpa : A = p
        · subst hpa
          rw [pipeline_set_pipeline_self hp, hp]
          rfl
        · rw [pipeline_set_pipeline_ne ctx hpa]

theorem foreach_layer_internal_blend {α : Type} {ctx ctx1 : CoglContext} {fuel p : Nat}
    {cb : CoglContext → α → Nat → Option (CoglContext × α × Bool)} {s s1 : α}
    (hcb : ∀ c st l r, cb c st l = some r → r.1 = c)
    (h : _cogl_pipeline_foreach_layer_internal fuel ctx p cb s = some (ctx1, s1)) (q : Nat) :
    (ctx1.pipeline q).map (fun n => n.real_blend_enable) =
      (ctx.pipeline q).map (fun n => n.real_blend_enable) := by
  unfold _cogl_pipeline_foreach_layer_internal at h
  cases ha : _cogl_pipeline_get_authority ctx fuel p COGL_PIPELINE_STATE_LAYERS with
  | none => rw [ha] at h; exact absurd h (by simp)
  | some A =>
    rw [ha] at h
    simp only at h
    cases hA : ctx.pipeline A with
    | none => rw [hA] at h; exact absurd h (by simp)
    | some node =>
      rw [hA] at h
      simp only at h
      split at h
      · simp only [Option.some.injEq, Prod.mk.injEq] at h
        rw [← h.1]
      · cases hu : _cogl_pipeline_update_layers_cache fuel ctx A with
        | none => rw [hu] at h; exact absurd h (by simp)
        | some c1 =>
          rw [hu] at h
          simp only at h
          rw [← update_layers_cache_other hu q]
          have key : ∀ (n i : Nat) (c : CoglContext) (st : α),
              foreach_layer_internal_loop A cb n i c st = some (ctx1, s1) → ctx1 = c := by
            intro n
            induction n with
            | zero =>
              intro i c st hl
              simp only [foreach_layer_internal_loop, Option.some.injEq, Prod.mk.injEq] at hl
              exact hl.1.symm
            | succ m ihm =>
              intro i c st hl
              rw [foreach_layer_internal_loop] at hl
              cases hcA : c.pipeline A with
              | none => rw [hcA] at hl; exact absurd hl (by simp)
              | some cn =>
                rw [hcA] at hl
                simp only at hl
                split at hl
                · simp only [Option.some.injEq, Prod.mk.injEq] at hl
                  exact hl.1.symm
                · split at hl
                  · rename_i layer hlay
                    cases hr : cb c st layer with
                    | none => rw [hr] at hl; exact absurd hl (by simp)
                    | some r =>
                      obtain ⟨rc, rs, rb⟩ := r
                      have hrc : rc = c := hcb c st layer _ hr
                      subst hrc
                      rw [hr] at hl
                      cases rb with
                      | true => exact ihm (i + 1) rc rs hl
                      | false =>
                        simp only [Option.some.injEq, Prod.mk.injEq] at hl
                        exact hl.1.symm
                  · exact absurd hl (by simp)
          rw [key _ _ _ _ h]

theorem mapM_all_false {ctx : CoglContext} {fuel : Nat} :
    ∀ (layers : List Nat), (∀ l ∈ layers, layer_may_have_alpha fuel ctx l = some false) →
      ∃ alphas, layers.mapM (layer_may_have_alpha fuel ctx) = some alphas ∧
        alphas.any id = false := by
  intro layers
  induction layers with
  | nil => intro _; exact ⟨[], rfl, rfl⟩
  | cons l rest ih =>
    intro h
    obtain ⟨alphas, hm, ha⟩ := ih (fun x hx => h x (List.mem_cons_of_mem _ hx))
    refine ⟨false :: alphas, ?_, by simpa using ha⟩
    simp only [List.mapM_cons, h l (List.mem_cons_self _ _), hm, Option.bind_eq_bind,
      Option.some_bind, Option.pure_def]

/-- The value of `_cogl_pipeline_needs_blending_enabled (p, COLOR, NULL)` on a
pipeline under `AUTOMATIC` with the default blend state, no user program and
layers that give no alpha: whether the resolved color is not opaque. -/
theorem needs_blending_enabled_color {F : Nat} {ctx : CoglContext} {p eauth bauth : Nat}
    {ea ba : CoglPipeline} {color : CoglColor} {layers : List Nat}
    (hdebug : ctx.debug_disable_blending = false)
    (hea : _cogl_pipeline_get_authority ctx F p COGL_PIPELINE_STATE_BLEND_ENABLE = some eauth)
    (hear : ctx.pipeline eauth = some ea)
    (hauto : ea.blend_enable = COGL_PIPELINE_BLEND_ENABLE_AUTOMATIC)
    (hba : _cogl_pipeline_get_authority ctx F p COGL_PIPELINE_STATE_BLEND = some bauth)
    (hbar : ctx.pipeline bauth = some ba)
    (heq : ba.big_state.blend_state.blend_equation_rgb = GL_FUNC_ADD ∧
      ba.big_state.blend_state.blend_equation_alpha = GL_FUNC_ADD)
    (hfac : ba.big_state.blend_state.blend_src_factor_rgb = GL_ONE ∧
      ba.big_state.blend_state.blend_dst_factor_rgb = GL_ONE_MINUS_SRC_ALPHA ∧
      ba.big_state.blend_state.blend_src_factor_alpha = GL_ONE ∧
      ba.big_state.blend_state.blend_dst_factor_alpha = GL_ONE_MINUS_SRC_ALPHA)
    (hcolor : cogl_pipeline_get_color F ctx p = some color)
    (hprog : _cogl_pipeline_get_user_program F ctx p = some none)
    (hlayers : effective_layers F ctx p = some layers)
    (hplain : ∀ l ∈ layers, layer_may_have_alpha F ctx l = some false) :
    ∃ c1, _cogl_pipeline_needs_blending_enabled (F + 2) ctx p COGL_PIPELINE_STATE_COLOR none =
        some (c1, decide (cogl_color_get_alpha_byte color ≠ 0xff)) ∧
      (∀ q, (c1.pipeline q).map (fun n => n.real_blend_enable) =
        (ctx.pipeline q).map (fun n => n.real_blend_enable)) := by
  obtain ⟨alphas, halphas, hany⟩ := mapM_all_false layers hplain
  obtain ⟨ctx1, hloop, hlen⟩ := effective_layers_loop hlayers halphas
  obtain ⟨pn, hpn⟩ := pipeline_of_authority hea
  have hrbe1 := foreach_layer_internal_blend
    (fun c st l r hr => by
      cases hx : layer_has_alpha_cb F c l with
      | none => rw [hx] at hr; exact absurd hr (by simp)
      | some v =>
        rw [hx] at hr
        simp only [Option.map_some', Option.some.injEq] at hr
        rw [← hr]) hloop
  have hpn1 : (ctx1.pipeline p).map (fun n => n.real_blend_enable) =
      some pn.real_blend_enable := by rw [hrbe1 p, hpn]; rfl
  obtain ⟨pn1, hpn1r, hpn1e⟩ : ∃ pn1, ctx1.pipeline p = some pn1 ∧
      pn1.real_blend_enable = pn.real_blend_enable := by
    cases hx : ctx1.pipeline p with
    | none => rw [hx] at hpn1; exact absurd hpn1 (by simp)
    | some v =>
      rw [hx] at hpn1
      exact ⟨v, rfl, by simpa using hpn1⟩
  have hea1 := pipeline_get_authority_mono ctx _ F p eauth hea (F + 1) (by omega)
  have hba1 := pipeline_get_authority_mono ctx _ F p bauth hba (F + 1) (by omega)
  have hcolor1 := get_color_mono hcolor (show F ≤ F + 1 by omega)
  have hCL : ¬ (COGL_PIPELINE_STATE_COLOR &&& COGL_PIPELINE_STATE_LAYERS ≠ 0) := by decide
  have hCC : COGL_PIPELINE_STATE_COLOR &&& COGL_PIPELINE_STATE_COLOR ≠ 0 := by decide
  have hCU : ¬ (COGL_PIPELINE_STATE_COLOR &&& COGL_PIPELINE_STATE_USER_SHADER ≠ 0) := by decide
  have hO : mask_clear COGL_PIPELINE_STATE_AFFECTS_BLENDING COGL_PIPELINE_STATE_COLOR = 206 := by
    decide
  have hOL : (206 : Nat) &&& COGL_PIPELINE_STATE_LAYERS ≠ 0 := by decide
  have hL : COGL_PIPELINE_STATE_AFFECTS_BLENDING &&& COGL_PIPELINE_STATE_LAYERS ≠ 0 := by
    decide
  have hC : COGL_PIPELINE_STATE_AFFECTS_BLENDING &&& COGL_PIPELINE_STATE_COLOR ≠ 0 := by
    decide
  have hU : COGL_PIPELINE_STATE_AFFECTS_BLENDING &&& COGL_PIPELINE_STATE_USER_SHADER ≠ 0 := by
    decide
  have hM : mask_clear COGL_PIPELINE_STATE_AFFECTS_BLENDING
      COGL_PIPELINE_STATE_AFFECTS_BLENDING = 0 := by decide
  have hinner : cogl_color_get_alpha_byte color = 0xff →
      _cogl_pipeline_needs_blending_enabled (F + 1) ctx p 206 none = some (ctx1, false) := by
    intro halpha
    rw [_cogl_pipeline_needs_blending_enabled]
    simp only [hdebug, Bool.false_eq_true, if_false, Option.bind_eq_bind, hea, hear,
      Option.some_bind, hauto, ne_eq, not_true_eq_false, hba, hbar, heq.1, heq.2, hfac.1,
      hfac.2.1, hfac.2.2.1, hfac.2.2.2, or_self, and_false, hOL, not_false_eq_true, if_true,
      hC, hU, hL, hcolor, hprog, Option.map_some', hloop, hpn1r, hM, Option.map_none',
      Option.getD_none, halpha, hany, Option.pure_def, ite_self]
  rw [_cogl_pipeline_needs_blending_enabled]
  simp only [hdebug, Bool.false_eq_true, if_false, Option.bind_eq_bind, hea1, hear,
    Option.some_bind, hauto, ne_eq, not_true_eq_false, hba1, hbar, heq.1, heq.2, hfac.1,
    hfac.2.1, hfac.2.2.1, hfac.2.2.2, or_self, and_false, hCL, hCC, not_false_eq_true, if_true,
    hCU, hcolor1, Option.map_some', hpn, hO, Option.map_none', Option.getD_none,
    Option.pure_def]
  by_cases halpha : cogl_color_get_alpha_byte color = 0xff
  · simp only [halpha, not_true_eq_false, if_false, decide_False]
    cases hr : pn.real_blend_enable with
    | false =>
      simp only [Bool.false_eq_true, if_false]
      exact ⟨ctx, rfl, fun q => rfl⟩
    | true =>
      simp only [if_true, hinner halpha, Option.some_bind, Bool.false_eq_true, if_false,
        OfNat.ofNat_ne_zero, not_false_eq_true]
      exact ⟨ctx1, rfl, hrbe1⟩
  · simp only [halpha, not_false_eq_true, if_true, decide_True]
    exact ⟨ctx, rfl, fun q => rfl⟩

theorem same_but_caches_refl (ctx : CoglContext) : same_but_caches ctx ctx :=
  ⟨fun _ => rfl, rfl⟩

theorem same_but_caches_trans {a b c : CoglContext} (h1 : same_but_caches a b)
    (h2 : same_but_caches b c) : same_but_caches a c :=
  ⟨fun q => (h2.1 q).trans (h1.1 q), h2.2.trans h1.2⟩

theorem same_but_caches_pipeline {a b : CoglContext} (h : same_but_caches a b) {q : Nat}
    {node : CoglPipeline} (hq : a.pipeline q = some node) :
    ∃ node2, b.pipeline q = some node2 ∧ node2.uncached = node.uncached := by
  have := h.1 q
  rw [hq] at this
  cases hb : b.pipeline q with
  | none => rw [hb] at this; exact absurd this (by simp)
  | some node2 =>
    rw [hb] at this
    exact ⟨node2, rfl, by simpa using this⟩

theorem update_layers_cache_caches {ctx ctx1 : CoglContext} {fuel A : Nat}
    (h : _cogl_pipeline_update_layers_cache fuel ctx A = some ctx1) :
    same_but_caches ctx ctx1 := by
  unfold _cogl_pipeline_update_layers_cache at h
  cases hp : ctx.pipeline A with
  | none => rw [hp] at h; exact absurd h (by simp)
  | some node =>
    rw [hp] at h
    simp only at h
    split at h
    · simp only [Option.some.injEq] at h
      subst h
      exact same_but_caches_refl ctx
    · split at h
      · exact absurd h (by simp)
      · simp only [Option.some.injEq] at h
        subst h
        refine ⟨fun q => ?_, rfl⟩
        by_cases hpa : A = q
        · subst hpa
          rw [pipeline_set_pipeline_self hp, hp]
          rfl
        · rw [pipeline_set_pipeline_ne ctx hpa]

theorem foreach_layer_internal_caches {α : Type} {ctx ctx1 : CoglContext} {fuel p : Nat}
    {cb : CoglContext → α → Nat → Option (CoglContext × α × Bool)} {s s1 : α}
    (hcb : ∀ c st l r, cb c st l = some r → r.1 = c)
    (h : _cogl_pipeline_foreach_layer_internal fuel ctx p cb s = some (ctx1, s1)) :
    same_but_caches ctx ctx1 := by
  unfold _cogl_pipeline_foreach_layer_internal at h
  cases ha : _cogl_pipeline_get_authority ctx fuel p COGL_PIPELINE_STATE_LAYERS with
  | none => rw [ha] at h; exact absurd h (by simp)
  | some A =>
    rw [ha] at h
    simp only at h
    cases hA : ctx.pipeline A with
    | none => rw [hA] at h; exact absurd h (by simp)
    | some node =>
      rw [hA] at h
      simp only at h
      split at h
      · simp only [Option.some.injEq, Prod.mk.injEq] at h
        rw [← h.1]
        exact same_but_caches_refl ctx
      · cases hu : _cogl_pipeline_update_layers_cache fuel ctx A with
        | none => rw [hu] at h; exact absurd h (by simp)
        | some c1 =>
          rw [hu] at h
          simp only at h
          have key : ∀ (n i : Nat) (c : CoglContext) (st : α),
              foreach_layer_internal_loop A cb n i c st = some (ctx1, s1) → ctx1 = c := by
            intro n
            induction n with
            | zero =>
              intro i c st hl
              simp only [foreach_layer_internal_loop, Option.some.injEq, Prod.mk.injEq] at hl
              exact hl.1.symm
            | succ m ihm =>
              intro i c st hl
              rw [foreach_layer_internal_loop] at hl
              cases hcA : c.pipeline A with
              | none => rw [hcA] at hl; exact absurd hl (by simp)
              | some cn =>
                rw [hcA] at hl
                simp only at hl
                split at hl
                · simp only [Option.some.injEq, Prod.mk.injEq] at hl
                  exact hl.1.symm
                · split at hl
                  · rename_i layer hlay
                    cases hr : cb c st layer with
                    | none => rw [hr] at hl; exact absurd hl (by simp)
                    | some r =>
                      obtain ⟨rc, rs, rb⟩ := r
                      have hrc : rc = c := hcb c st layer _ hr
                      subst hrc
                      rw [hr] at hl
                      cases rb with
                      | true => exact ihm (i + 1) rc rs hl
                      | false =>
                        simp only [Option.some.injEq, Prod.mk.injEq] at hl
                        exact hl.1.symm
                  · exact absurd hl (by simp)
          rw [key _ _ _ _ h]
          exact update_layers_cache_caches hu

theorem returns_caches_some {ctx c : CoglContext} {β : Type} {v : β}
    (h : same_but_caches ctx c) : returns_same_but_caches ctx (some (c, v)) := by
  intro c1 b he
  simp only [Option.some.injEq, Prod.mk.injEq] at he
  rw [← he.1]
  exact h

theorem returns_caches_ite {ctx : CoglContext} {β : Type} {cond : Prop} [Decidable cond]
    {x y : Option (CoglContext × β)} (hx : returns_same_but_caches ctx x)
    (hy : returns_same_but_caches ctx y) :
    returns_same_but_caches ctx (if cond then x else y) := by
  by_cases hc : cond
  · rw [if_pos hc]; exact hx
  · rw [if_neg hc]; exact hy

theorem returns_caches_bind {ctx : CoglContext} {β γ : Type} {o : Option γ}
    {f : γ → Option (CoglContext × β)}
    (h : ∀ y, o = some y → returns_same_but_caches ctx (f y)) :
    returns_same_but_caches ctx (o.bind f) := by
  intro c1 b he
  cases ho : o with
  | none => rw [ho] at he; exact absurd he (by simp)
  | some y =>
    rw [ho] at he
    exact h y ho c1 b he

/-- The function `_cogl_pipeline_needs_blending_enabled` changes nothing but layers
caches. -/
theorem needs_blending_enabled_caches :
    ∀ (fuel : Nat) (ctx : CoglContext) (p changes : Nat) (oc : Option CoglColor),
      returns_same_but_caches ctx (_cogl_pipeline_needs_blending_enabled fuel ctx p changes oc) := by
  intro fuel
  induction fuel with
  | zero =>
    intro ctx p changes oc c1 b h
    simp [_cogl_pipeline_needs_blending_enabled] at h
  | succ k ih =>
    intro ctx p changes oc
    rw [_cogl_pipeline_needs_blending_enabled]
    have hpure : ∀ v : Bool, returns_same_but_caches ctx (pure (ctx, v)) :=
      fun v => returns_caches_some (same_but_caches_refl ctx)
    have htail : ∀ (d : CoglContext × Bool) (m : Nat), same_but_caches ctx d.1 →
        returns_same_but_caches ctx
          (if d.2 = true then pure (d.1, true)
           else (d.1.pipeline p).bind fun node =>
             if node.real_blend_enable = true then
               if mask_clear COGL_PIPELINE_STATE_AFFECTS_BLENDING m ≠ 0 then
                 (_cogl_pipeline_needs_blending_enabled k d.1 p
                   (mask_clear COGL_PIPELINE_STATE_AFFECTS_BLENDING m) none).bind
                   fun r => if r.2 = true then pure (r.1, true) else pure (r.1, false)
               else pure (d.1, false)
             else pure (d.1, false)) := by
      intro d m hd
      refine returns_caches_ite (returns_caches_some hd) (returns_caches_bind fun node _ => ?_)
      refine returns_caches_ite (returns_caches_ite ?_ (returns_caches_some hd))
        (returns_caches_some hd)
      refine returns_caches_bind fun r hr => ?_
      have h2 := same_but_caches_trans hd (ih d.1 p _ none r.1 r.2 hr)
      exact returns_caches_ite (returns_caches_some h2) (returns_caches_some h2)
    have hlayers : ∀ (m : Nat), returns_same_but_caches ctx
        ((if m &&& COGL_PIPELINE_STATE_LAYERS ≠ 0 then
            _cogl_pipeline_foreach_layer_internal k ctx p
              (fun c (_ : Bool) layer =>
                (layer_has_alpha_cb k c layer).map (fun r => (c, r.1, r.2))) false
          else some (ctx, false)).bind fun d =>
          if d.2 = true then pure (d.1, true)
           else (d.1.pipeline p).bind fun node =>
             if node.real_blend_enable = true then
               if mask_clear COGL_PIPELINE_STATE_AFFECTS_BLENDING m ≠ 0 then
                 (_cogl_pipeline_needs_blending_enabled k d.1 p
                   (mask_clear COGL_PIPELINE_STATE_AFFECTS_BLENDING m) none).bind
                   fun r => if r.2 = true then pure (r.1, true) else pure (r.1, false)
               else pure (d.1, false)
             else pure (d.1, false)) := by
      intro m
      refine returns_caches_bind fun d hd => htail d m ?_
      by_cases hm : m &&& COGL_PIPELINE_STATE_LAYERS ≠ 0
      · rw [if_pos hm] at hd
        exact foreach_layer_internal_caches
          (fun c st l r hr => by
            cases hx : layer_has_alpha_cb k c l with
            | none => rw [hx] at hr; exact absurd hr (by simp)
            | some v =>
              rw [hx] at hr
              simp only [Option.map_some', Option.some.injEq] at hr
              rw [← hr]) hd
      · rw [if_neg hm] at hd
        simp only [Option.some.injEq] at hd
        rw [← hd]
        exact same_but_caches_refl ctx
    refine returns_caches_ite (returns_caches_some (same_but_caches_refl ctx)) ?_
    simp only [Option.bind_eq_bind]
    refine returns_caches_bind fun eauth _ => returns_caches_bind fun ea _ => ?_
    refine returns_caches_ite (hpure _) ?_
    refine returns_caches_bind fun bauth _ => returns_caches_bind fun ba _ => ?_
    refine returns_caches_ite (hpure _) (returns_caches_ite (hpure _)
      (returns_caches_ite (hpure _) (returns_caches_ite (hpure _) ?_)))
    repeat' first
      | exact hpure _
      | exact hlayers _
      | apply returns_caches_ite
      | (apply returns_caches_bind; intro _ _)

theorem modify_pipeline_some {ctx : CoglContext} {p : Nat} {n : CoglPipeline}
    (h : ctx.pipeline p = some n) (f : CoglPipeline → CoglPipeline) :
    ctx.modify_pipeline p f = some (ctx.set_pipeline p (f n)) := by
  simp only [CoglContext.modify_pipeline, h]

theorem same_skeleton_pipeline {a b : CoglContext} (h : same_skeleton a b) {q : Nat}
    {node : CoglPipeline} (hq : a.pipeline q = some node) :
    ∃ node2, b.pipeline q = some node2 ∧ node2.links = node.links := by
  have := h.1 q
  simp only [CoglContext.links, hq, Option.map_some'] at this
  cases hb : b.pipeline q with
  | none => rw [hb] at this; exact absurd this (by simp)
  | some node2 =>
    rw [hb] at this
    exact ⟨node2, rfl, by simpa using this⟩

/-- The journal test of `_cogl_pipeline_pre_change_notify` returns for a change
other than a change of color, and leaves the pipelines as they are. -/
theorem pre_change_notify_journal_total {ctx : CoglContext} {p change : Nat} {n : CoglPipeline}
    (f : Nat) (oc : Option CoglColor) (hp : ctx.pipeline p = some n)
    (hc : change ≠ COGL_PIPELINE_STATE_COLOR) :
    ∃ c1, pre_change_notify_journal f ctx p change oc = some c1 ∧
      c1.pipelines = ctx.pipelines ∧ same_skeleton ctx c1 := by
  unfold pre_change_notify_journal
  simp only [hp, if_neg hc]
  by_cases hj : n.journal_ref_count ≠ 0
  · rw [if_pos hj]
    exact ⟨_, rfl, rfl, same_skeleton_emit ctx rfl⟩
  · rw [if_neg hj]
    exact ⟨_, rfl, rfl, same_skeleton_refl ctx⟩

theorem emit_set_pipeline (ctx : CoglContext) (e : CoglEvent) (p : Nat) (v : CoglPipeline) :
    (ctx.emit e).set_pipeline p v = (ctx.set_pipeline p v).emit e := rfl

theorem emit_modify_pipeline (ctx : CoglContext) (e : CoglEvent) (p : Nat)
    (f : CoglPipeline → CoglPipeline) :
    (ctx.emit e).modify_pipeline p f = (ctx.modify_pipeline p f).map (fun c => c.emit e) := by
  unfold CoglContext.modify_pipeline
  rw [pipeline_emit]
  cases ctx.pipeline p <;> rfl

theorem same_skeleton_ite_emit (c : CoglContext) (cond : Prop) [Decidable cond] (e : CoglEvent)
    (he : e.is_destroy = false) : same_skeleton c (if cond then c.emit e else c) := by
  split
  · exact same_skeleton_emit c he
  · exact same_skeleton_refl c

/-- The back-end part of `_cogl_pipeline_pre_change_notify` returns and leaves the
tree as it is. -/
theorem pre_change_notify_backends_total {ctx : CoglContext} {p : Nat} {n : CoglPipeline}
    (change : Nat) (flc : Bool) (hp : ctx.pipeline p = some n) :
    ∃ c1, pre_change_notify_backends ctx p change flc = some c1 ∧ same_skeleton ctx c1 := by
  have hf1 : ∀ m : CoglPipeline, (if m.fragend = COGL_PIPELINE_FRAGEND_FIXED
      then { m with fragend := COGL_PIPELINE_FRAGEND_UNDEFINED } else m).links = m.links := by
    intro m; split <;> rfl
  have hf2 : ∀ m : CoglPipeline, (if m.vertend = COGL_PIPELINE_VERTEND_FIXED
      then { m with vertend := COGL_PIPELINE_VERTEND_UNDEFINED } else m).links = m.links := by
    intro m; split <;> rfl
  unfold pre_change_notify_backends
  simp only [Option.bind_eq_bind, modify_pipeline_some hp, Option.some_bind,
    fun v f => modify_pipeline_some (pipeline_set_pipeline_self hp v) f,
    set_pipeline_set_pipeline, pipeline_set_pipeline_self hp]
  have s2 := same_skeleton_set hp ((hf2 _).trans (hf1 n))
  cases flc with
  | true => exact ⟨_, rfl, s2⟩
  | false =>
    simp only [Bool.not_false, if_true, Option.pure_def]
    exact ⟨_, rfl, same_skeleton_trans s2 (same_skeleton_trans
      (same_skeleton_ite_emit _ _ _ (by rfl)) (same_skeleton_trans
        (same_skeleton_ite_emit _ _ _ (by rfl)) (same_skeleton_emit _ (by rfl))))⟩

theorem returns_some {α : Type} {a : α} {post : α → Prop} (h : post a) :
    returns (some a) post := ⟨a, rfl, h⟩

theorem returns_bind {α β : Type} {x : Option α} {f : α → Option β} {mid : α → Prop}
    {post : β → Prop} (hx : returns x mid) (hf : ∀ a, mid a → returns (f a) post) :
    returns (x.bind f) post := by
  obtain ⟨a, ha, hm⟩ := hx
  rw [ha]
  exact hf a hm

theorem returns_ite {α : Type} {cond : Prop} [Decidable cond] {x y : Option α}
    {post : α → Prop} (hx : cond → returns x post) (hy : ¬ cond → returns y post) :
    returns (if cond then x else y) post := by
  by_cases hc : cond
  · rw [if_pos hc]; exact hx hc
  · rw [if_neg hc]; exact hy hc

theorem returns_mono {α : Type} {x : Option α} {mid post : α → Prop} (hx : returns x mid)
    (h : ∀ a, mid a → post a) : returns x post := by
  obtain ⟨a, ha, hm⟩ := hx
  exact ⟨a, ha, h a hm⟩

theorem returned_of_returns {α : Type} {x : Option α} {post : α → Prop}
    (h : returns x post) : returned x post := by
  obtain ⟨a, ha, hp⟩ := h
  intro b hb
  rw [ha] at hb
  rw [← Option.some.inj hb]
  exact hp

theorem returned_some {α : Type} {a : α} {post : α → Prop} (h : post a) :
    returned (some a) post := by
  intro b hb
  rw [← Option.some.inj hb]
  exact h

theorem returned_none {α : Type} {post : α → Prop} : returned (none : Option α) post := by
  intro b hb
  exact absurd hb (by simp)

theorem returned_bind {α β : Type} {x : Option α} {f : α → Option β} {mid : α → Prop}
    {post : β → Prop} (hx : returned x mid) (hf : ∀ a, mid a → returned (f a) post) :
    returned (x.bind f) post := by
  intro b hb
  cases hxa : x with
  | none => rw [hxa] at hb; exact absurd hb (by simp)
  | some a =>
    rw [hxa] at hb
    exact hf a (hx a hxa) b hb

theorem returned_ite {α : Type} {cond : Prop} [Decidable cond] {x y : Option α}
    {post : α → Prop} (hx : cond → returned x post) (hy : ¬ cond → returned y post) :
    returned (if cond then x else y) post := by
  by_cases hc : cond
  · rw [if_pos hc]; exact hx hc
  · rw [if_neg hc]; exact hy hc

theorem returned_mono {α : Type} {x : Option α} {mid post : α → Prop} (hx : returned x mid)
    (h : ∀ a, mid a → post a) : returned x post :=
  fun a ha => h a (hx a ha)

/-- A store to a pipeline that keeps its links keeps the tree. -/
theorem returns_modify_skeleton {c0 ctx : CoglContext} {p : Nat} {n : CoglPipeline}
    {f : CoglPipeline → CoglPipeline} (hs : same_skeleton c0 ctx) (hp : ctx.pipeline p = some n)
    (hf : ∀ m, (f m).links = m.links) :
    returns (ctx.modify_pipeline p f) (fun c => same_skeleton c0 c) :=
  ⟨_, modify_pipeline_some hp f, same_skeleton_trans hs (same_skeleton_set hp (hf n))⟩

theorem returns_pipeline_skeleton {c0 ctx : CoglContext} {p : Nat} {n : CoglPipeline}
    (hs : same_skeleton c0 ctx) (hp : c0.pipeline p = some n) :
    returns (ctx.pipeline p) (fun m => m.links = n.links) := by
  obtain ⟨m, hm, hl⟩ := same_skeleton_pipeline hs hp
  exact ⟨m, hm, hl⟩

/-- The tail of `_cogl_pipeline_pre_change_notify` returns for a change outside the
sparse groups and leaves the tree as it is. -/
theorem pre_change_notify_takeover_nonsparse {ctx : CoglContext} {p change : Nat}
    {n : CoglPipeline} (f : Nat) (hp : ctx.pipeline p = some n)
    (hns : change &&& COGL_PIPELINE_STATE_ALL_SPARSE = 0) :
    returns (pre_change_notify_takeover f ctx p change) (fun c => same_skeleton ctx c) := by
  have hnl : change ≠ COGL_PIPELINE_STATE_LAYERS := by
    intro h
    rw [h] at hns
    exact absurd hns (by decide)
  unfold pre_change_notify_takeover
  simp only [Option.bind_eq_bind]
  refine returns_bind (returns_modify_skeleton (same_skeleton_refl ctx) hp (fun _ => rfl)) ?_
  intro c1 s1
  obtain ⟨n1, hp1, -⟩ := same_skeleton_pipeline s1 hp
  refine returns_bind (returns_modify_skeleton s1 hp1 (fun m => by split <;> rfl)) ?_
  intro c2 s2
  refine returns_bind (returns_pipeline_skeleton s2 hp) ?_
  intro n2 _
  simp only [hns, ne_eq, not_true_eq_false, false_and, if_false, if_neg hnl, Option.some_bind,
    Option.pure_def]
  refine returns_some ?_
  split
  · exact same_skeleton_trans s2 (same_skeleton_of_eq rfl rfl)
  · exact s2

/-- The function `_cogl_pipeline_pre_change_notify` on a pipeline without children,
for a change outside the sparse groups: it returns and leaves the tree as it is. -/
theorem pre_change_notify_leaf_nonsparse {ctx : CoglContext} {p change : Nat}
    {n : CoglPipeline} (notify : PreChangeNotify) (f : Nat) (oc : Option CoglColor) (flc : Bool)
    (hp : ctx.pipeline p = some n) (hch : n.children = [])
    (hns : change &&& COGL_PIPELINE_STATE_ALL_SPARSE = 0) :
    returns (pre_change_notify_with notify f ctx p change oc flc)
      (fun c => same_skeleton ctx c) := by
  have hcc : change ≠ COGL_PIPELINE_STATE_COLOR := by
    intro h
    rw [h] at hns
    exact absurd hns (by decide)
  obtain ⟨c1, h1, -, s1⟩ := pre_change_notify_journal_total f oc hp hcc
  obtain ⟨n1, hp1, hl1⟩ := same_skeleton_pipeline s1 hp
  obtain ⟨c2, h2, s2⟩ := pre_change_notify_backends_total change flc hp1
  obtain ⟨n2, hp2, hl2⟩ := same_skeleton_pipeline s2 hp1
  have hch2 : n2.children = [] := by
    have : n2.links.children = n.links.children := by rw [hl2, hl1]
    exact this.trans hch
  obtain ⟨c3, h3, s3⟩ := pre_change_notify_takeover_nonsparse f hp2 hns
  refine ⟨c3, ?_, same_skeleton_trans s1 (same_skeleton_trans s2 s3)⟩
  unfold pre_change_notify_with
  simp only [Option.bind_eq_bind, h1, Option.some_bind, h2, _cogl_pipeline_node_foreach_child,
    hp2, hch2, List.foldlM_nil, Option.pure_def, ne_eq, not_true_eq_false, if_false, h3]

/-- C20: the color alone decides `real_blend_enable` on a plain pipeline. Let the
debug option `COGL_DEBUG_DISABLE_BLENDING` be off, let `p` resolve `AUTOMATIC`, the
default blend equations and factors and no user program, let its effective layers
give no alpha (default combine, no texture with the alpha bit), and let `color` be
its resolved color after the change of color. Then
whatever `_cogl_pipeline_update_blend_enable (p, COLOR)` returns has
`real_blend_enable` true exactly when the alpha byte of `color` is not 0xff; and on
a pipeline without children the function does return. -/
theorem color_alpha_decides_real_blend_enable (F : Nat) (ctx : CoglContext)
    (p eauth bauth : Nat) (color : CoglColor) (layers : List Nat)
    (hdebug : ctx.debug_disable_blending = false)
    (hea : _cogl_pipeline_get_authority ctx F p COGL_PIPELINE_STATE_BLEND_ENABLE = some eauth)
    (hauto : (ctx.pipeline eauth).map (fun a => a.blend_enable) =
      some COGL_PIPELINE_BLEND_ENABLE_AUTOMATIC)
    (hba : _cogl_pipeline_get_authority ctx F p COGL_PIPELINE_STATE_BLEND = some bauth)
    (hblend : (ctx.pipeline bauth).map (fun a =>
        (a.big_state.blend_state.blend_equation_rgb,
         a.big_state.blend_state.blend_equation_alpha,
         a.big_state.blend_state.blend_src_factor_rgb,
         a.big_state.blend_state.blend_dst_factor_rgb,
         a.big_state.blend_state.blend_src_factor_alpha,
         a.big_state.blend_state.blend_dst_factor_alpha)) =
      some (GL_FUNC_ADD, GL_FUNC_ADD, GL_ONE, GL_ONE_MINUS_SRC_ALPHA, GL_ONE,
        GL_ONE_MINUS_SRC_ALPHA))
    (hcolor : cogl_pipeline_get_color F ctx p = some color)
    (hprog : _cogl_pipeline_get_user_program F ctx p = some none)
    (hlayers : effective_layers F ctx p = some layers)
    (hplain : ∀ l ∈ layers, layer_may_have_alpha F ctx l = some false) :
    returned (_cogl_pipeline_update_blend_enable (F + 2) ctx p COGL_PIPELINE_STATE_COLOR)
      (fun c => _cogl_pipeline_get_real_blend_enabled c p =
        some (decide (cogl_color_get_alpha_byte color ≠ 0xff))) ∧
    ((ctx.pipeline p).map (fun n => n.children) = some [] →
      returns (_cogl_pipeline_update_blend_enable (F + 2) ctx p COGL_PIPELINE_STATE_COLOR)
        (fun c => _cogl_pipeline_get_real_blend_enabled c p =
          some (decide (cogl_color_get_alpha_byte color ≠ 0xff)))) := by
  obtain ⟨ea, hear, hauto2⟩ : ∃ ea, ctx.pipeline eauth = some ea ∧
      ea.blend_enable = COGL_PIPELINE_BLEND_ENABLE_AUTOMATIC := by
    cases hx : ctx.pipeline eauth with
    | none => rw [hx] at hauto; exact absurd hauto (by simp)
    | some ea => rw [hx] at hauto; exact ⟨ea, rfl, by simpa using hauto⟩
  obtain ⟨ba, hbar, hb⟩ : ∃ ba, ctx.pipeline bauth = some ba ∧
      (ba.big_state.blend_state.blend_equation_rgb,
       ba.big_state.blend_state.blend_equation_alpha,
       ba.big_state.blend_state.blend_src_factor_rgb,
       ba.big_state.blend_state.blend_dst_factor_rgb,
       ba.big_state.blend_state.blend_src_factor_alpha,
       ba.big_state.blend_state.blend_dst_factor_alpha) =
      (GL_FUNC_ADD, GL_FUNC_ADD, GL_ONE, GL_ONE_MINUS_SRC_ALPHA, GL_ONE,
        GL_ONE_MINUS_SRC_ALPHA) := by
    cases hx : ctx.pipeline bauth with
    | none => rw [hx] at hblend; exact absurd hblend (by simp)
    | some ba => rw [hx] at hblend; exact ⟨ba, rfl, by simpa using hblend⟩
  simp only [Prod.mk.injEq] at hb
  obtain ⟨c1, hneeds, -⟩ := needs_blending_enabled_color hdebug hea hear hauto2 hba hbar
    ⟨hb.1, hb.2.1⟩ ⟨hb.2.2.1, hb.2.2.2.1, hb.2.2.2.2.1, hb.2.2.2.2.2⟩ hcolor hprog hlayers
    hplain
  have hcaches := needs_blending_enabled_caches _ _ _ _ _ c1 _ hneeds
  obtain ⟨pn, hpn⟩ := pipeline_of_authority hea
  obtain ⟨pn1, hpn1, hun⟩ := same_but_caches_pipeline hcaches hpn
  have hstore : ∀ (c2 : CoglContext) (b : Bool),
      returned (c2.modify_pipeline p (fun n => { n with real_blend_enable := b }))
        (fun c => _cogl_pipeline_get_real_blend_enabled c p = some b) := by
    intro c2 b c hc
    unfold CoglContext.modify_pipeline at hc
    cases hx : c2.pipeline p with
    | none => rw [hx] at hc; exact absurd hc (by simp)
    | some m =>
      rw [hx] at hc
      simp only [Option.some.injEq] at hc
      subst hc
      simp only [_cogl_pipeline_get_real_blend_enabled, pipeline_set_pipeline_self hx,
        Option.map_some']
  unfold _cogl_pipeline_update_blend_enable update_blend_enable_with
  simp only [Option.bind_eq_bind, hneeds, Option.some_bind, hpn1]
  by_cases hne : decide (cogl_color_get_alpha_byte color ≠ 0xff) ≠ pn1.real_blend_enable
  · rw [if_pos hne]
    constructor
    · exact @returned_bind _ _ _ _ (fun _ => True) _ (fun _ _ => trivial) (fun c2 _ => hstore c2 _)
    · intro hch
      have hch1 : pn1.children = [] := by
        have h1 : pn1.uncached.children = pn.uncached.children := by rw [hun]
        rw [hpn] at hch
        exact h1.trans (by simpa using hch)
      rw [_cogl_pipeline_pre_change_notify]
      refine returns_bind (pre_change_notify_leaf_nonsparse _ _ none false hpn1 hch1
        (by decide)) ?_
      intro c2 s2
      obtain ⟨m, hm, -⟩ := same_skeleton_pipeline s2 hpn1
      exact ⟨_, modify_pipeline_some hm _, by
        simp only [_cogl_pipeline_get_real_blend_enabled, pipeline_set_pipeline_self hm,
          Option.map_some']⟩
  · rw [if_neg hne]
    have hrbe : _cogl_pipeline_get_real_blend_enabled c1 p =
        some (decide (cogl_color_get_alpha_byte color ≠ 0xff)) := by
      simp only [_cogl_pipeline_get_real_blend_enabled, hpn1, Option.map_some']
      rw [not_not.mp hne]
    exact ⟨returned_some hrbe, fun _ => returns_some hrbe⟩

theorem color_alpha_decides_real_blend_enable_witness :
    (scenario_translucent_written.debug_disable_blending = false ∧
      cogl_pipeline_get_color 3 scenario_translucent_written 1 =
        some (cogl_color_init_from_4ub 0xff 0xff 0xff 0x80) ∧
      (scenario_translucent_written.pipeline 1).map (fun n => n.children) = some []) ∧
    returns (_cogl_pipeline_update_blend_enable 5 scenario_translucent_written 1
        COGL_PIPELINE_STATE_COLOR)
      (fun c => _cogl_pipeline_get_real_blend_enabled c 1 =
        some (decide (cogl_color_get_alpha_byte (cogl_color_init_from_4ub 0xff 0xff 0xff 0x80)
          ≠ 0xff))) ∧
    scenario_alpha_steps = some [false, true, true, false] :=
  ⟨⟨by decide!, by decide!, by decide!⟩,
    (color_alpha_decides_real_blend_enable 3 scenario_translucent_written 1 0 0
      (cogl_color_init_from_4ub 0xff 0xff 0xff 0x80) [] (by decide!) (by decide!) (by decide!)
      (by decide!) (by decide!) (by decide!) (by decide!) (by decide!)
      (fun l hl => absurd hl (by simp))).2 (by decide!),
    by decide!⟩

/-! ## Equal pipelines and their hashes -/

theorem state_hash_functions_some (fns : CoglPipelineStateFuncs) (i : Nat) (hi : i < 13)
    (h2 : i ≠ COGL_PIPELINE_STATE_LAYERS_INDEX) :
    ∃ hf, state_hash_functions fns i = some hf := by
  interval_cases i <;> first | exact absurd rfl h2 | exact ⟨_, rfl⟩

theorem authority_record_of_holds {fns : CoglPipelineStateFuncs} {ctx : CoglContext}
    {fuel p0 p1 i : Nat} (h : comparator_holds fns ctx fuel p0 p1 i = true) :
    ∃ a0 a1 r0 r1 cmp, _cogl_pipeline_get_authority ctx fuel p0 (1 <<< i) = some a0 ∧
      _cogl_pipeline_get_authority ctx fuel p1 (1 <<< i) = some a1 ∧
      ctx.pipeline a0 = some r0 ∧ ctx.pipeline a1 = some r1 ∧
      state_comparitor fns i = some cmp ∧ cmp r0 r1 = true := by
  unfold comparator_holds at h
  split at h
  · rename_i a0 a1 cmp e0 e1 ec
    split at h
    · rename_i r0 r1 x0 x1
      exact ⟨a0, a1, r0, r1, cmp, e0, e1, x0, x1, ec, h⟩
    · exact absurd h (by simp)
  · exact absurd h (by simp)

theorem reference_funcs_compatible (i : Nat) (cmp : CoglPipeline → CoglPipeline → Bool)
    (hf : CoglPipeline → CoglPipelineHashState → CoglPipelineHashState)
    (hc : state_comparitor reference_funcs i = some cmp)
    (hh : state_hash_functions reference_funcs i = some hf) (a b : CoglPipeline)
    (s : CoglPipelineHashState) (h : cmp a b = true) : hf a s = hf b s := by
  by_cases hi : i < 13
  · interval_cases i <;> cases hc <;> cases hh <;>
      (simp only [reference_funcs, cogl_color_equal, decide_eq_true_eq] at h ⊢
       rw [h])
  · rw [state_comparitor_none reference_funcs i (by omega)] at hc
    cases hc

/-- C7 (counterexample): `p` and `q` are two new pipelines, `q` with a red blend
constant and the blend enable `DISABLED`. Under the mask of every sparse group and
`REAL_BLEND_ENABLE`, `_cogl_pipeline_equal` returns true for them, and
`_cogl_pipeline_hash` returns two different values: the hash runs over the groups
`BLEND_ENABLE` and `BLEND`, which the comparison skips. -/
theorem equal_pipelines_hash_apart :
    (_cogl_pipeline_equal reference_funcs scenario_blend_disabled 8 1 2
      (COGL_PIPELINE_STATE_ALL_SPARSE ||| COGL_PIPELINE_STATE_REAL_BLEND_ENABLE)
      COGL_PIPELINE_LAYER_STATE_ALL_SPARSE 0).map Prod.snd = some true ∧
    (_cogl_pipeline_hash reference_funcs 8 scenario_blend_disabled 1
      (COGL_PIPELINE_STATE_ALL_SPARSE ||| COGL_PIPELINE_STATE_REAL_BLEND_ENABLE)
      COGL_PIPELINE_LAYER_STATE_ALL_SPARSE 0).map Prod.snd = some 3532417941 ∧
    (_cogl_pipeline_hash reference_funcs 8 scenario_blend_disabled 2
      (COGL_PIPELINE_STATE_ALL_SPARSE ||| COGL_PIPELINE_STATE_REAL_BLEND_ENABLE)
      COGL_PIPELINE_LAYER_STATE_ALL_SPARSE 0).map Prod.snd = some 1952557403 := by
  decide!

/-! ## The destruction of weak children -/

theorem destroy_event_of_links {ctx : CoglContext} {y : Nat} {l : PipelineLinks}
    (h : ctx.links y = some l) :
    destroy_event ctx y = CoglEvent.destroy l.destroy_callback y l.destroy_data := by
  obtain ⟨node, hn, hl⟩ := links_eq_some h
  unfold destroy_event
  rw [hn, ← hl]
  rfl

theorem destroy_event_congr {ctx ctx2 : CoglContext} {y : Nat}
    (h : (ctx2.links y).map (fun l => (l.destroy_callback, l.destroy_data)) =
      (ctx.links y).map (fun l => (l.destroy_callback, l.destroy_data))) :
    destroy_event ctx2 y = destroy_event ctx y := by
  unfold destroy_event
  unfold CoglContext.links at h
  cases h2 : ctx2.pipeline y with
  | none =>
    cases h1 : ctx.pipeline y with
    | none => rfl
    | some n1 => rw [h1, h2] at h; exact absurd h (by simp)
  | some n2 =>
    cases h1 : ctx.pipeline y with
    | none => rw [h1, h2] at h; exact absurd h (by simp)
    | some n1 =>
      rw [h1, h2] at h
      simp only [Option.map_some', Option.some.injEq, CoglPipeline.links, Prod.mk.injEq] at h
      simp only [h.1, h.2]

theorem links_consistent_of_bool {ctx : CoglContext} {ids : List Nat}
    (h : children_consistent ctx ids = true) : links_consistent ctx ids :=
  (children_consistent_iff ctx ids).1 h

theorem links_consistent_subset {ctx : CoglContext} {ids sub : List Nat}
    (h : links_consistent ctx ids) (hs : ∀ y ∈ sub, y ∈ ids) : links_consistent ctx sub :=
  fun y hy => h y (hs y hy)

/-- The tops of disjoint subtrees are distinct. -/
theorem subtree_tops_nodup {ctx : CoglContext} {f : Nat} :
    ∀ (cs below : List Nat), subtree_post_list (subtree_post ctx f) cs = some below →
      below.Nodup → cs.Nodup := by
  intro cs
  induction cs with
  | nil => intro _ _ _; exact List.nodup_nil
  | cons c rest ih =>
    intro below h hn
    rw [subtree_post_list] at h
    cases hc : subtree_post ctx f c with
    | none => rw [hc] at h; exact absurd h (by simp)
    | some first =>
      cases hr : subtree_post_list (subtree_post ctx f) rest with
      | none => rw [hc, hr] at h; exact absurd h (by simp)
      | some others =>
        rw [hc, hr] at h
        simp only [Option.some.injEq] at h
        subst h
        rw [List.nodup_append] at hn
        obtain ⟨_, hno, hdis⟩ := hn
        refine List.nodup_cons.mpr ⟨?_, ih others hr hno⟩
        intro hmem
        obtain ⟨part, hp, hsub⟩ := subtree_post_list_mem rest others hr c hmem
        rw [hc] at hp
        have hcf : c ∈ first := (subtree_post_member f c first hc).1
        have hco : c ∈ others := by
          rw [← Option.some.inj hp] at hsub
          exact hsub c hcf
        exact hdis hcf hco

/-- When every child is weak, the weak subtrees are all the subtrees. -/
theorem weak_subtrees_all {ctx : CoglContext} {w f : Nat} :
    ∀ (cs below : List Nat), subtree_post_list (subtree_post ctx f) cs = some below →
      (∀ c ∈ cs, _cogl_pipeline_is_weak ctx w c = some true) →
      weak_subtrees ctx w f cs = below ∧ weak_children ctx w cs = cs := by
  intro cs
  induction cs with
  | nil =>
    intro below h _
    simp only [subtree_post_list, Option.some.injEq] at h
    subst h
    exact ⟨rfl, rfl⟩
  | cons c rest ih =>
    intro below h hw
    rw [subtree_post_list] at h
    cases hc : subtree_post ctx f c with
    | none => rw [hc] at h; exact absurd h (by simp)
    | some first =>
      cases hr : subtree_post_list (subtree_post ctx f) rest with
      | none => rw [hc, hr] at h; exact absurd h (by simp)
      | some others =>
        rw [hc, hr] at h
        simp only [Option.some.injEq] at h
        subst h
        obtain ⟨h1, h2⟩ := ih others hr (fun x hx => hw x (List.mem_cons_of_mem _ hx))
        have hwc := hw c (List.mem_cons_self _ _)
        constructor
        · simp only [weak_subtrees, hwc, if_true, hc, Option.getD_some, h1]
        · unfold weak_children at h2 ⊢
          simp only [List.filter_cons, hwc, decide_True, if_true, h2]

/-- The weak subtrees and the weak children of a child list depend on the links of
the subtrees only. -/
theorem weak_subtrees_congr {ctx ctx2 : CoglContext} {w f : Nat} :
    ∀ (cs below : List Nat), subtree_post_list (subtree_post ctx f) cs = some below →
      (∀ y ∈ below, ctx2.links y = ctx.links y) →
      weak_subtrees ctx2 w f cs = weak_subtrees ctx w f cs ∧
        weak_children ctx2 w cs = weak_children ctx w cs ∧
        subtree_post_list (subtree_post ctx2 f) cs = some below := by
  intro cs
  induction cs with
  | nil =>
    intro below h _
    exact ⟨rfl, rfl, h⟩
  | cons c rest ih =>
    intro below h hl
    rw [subtree_post_list] at h
    cases hc : subtree_post ctx f c with
    | none => rw [hc] at h; exact absurd h (by simp)
    | some first =>
      cases hr : subtree_post_list (subtree_post ctx f) rest with
      | none => rw [hc, hr] at h; exact absurd h (by simp)
      | some others =>
        rw [hc, hr] at h
        simp only [Option.some.injEq] at h
        subst h
        obtain ⟨h1, h2, h3⟩ := ih others hr (fun y hy => hl y (List.mem_append_right _ hy))
        have hlf : ∀ y ∈ first, ctx2.links y = ctx.links y :=
          fun y hy => hl y (List.mem_append_left _ hy)
        have hw := (is_weak_congr f c first hc hlf w).2
        have hs := subtree_post_congr f c first hc hlf
        refine ⟨?_, ?_, ?_⟩
        · simp only [weak_subtrees, hw, hs, hc, h1]
        · unfold weak_children at h2 ⊢
          simp only [List.filter_cons, hw, h2]
        · rw [subtree_post_list, hs, h3]

theorem subtree_post_list_cons {ctx : CoglContext} {f c : Nat} {rest below : List Nat}
    (h : subtree_post_list (subtree_post ctx f) (c :: rest) = some below) :
    ∃ first others, subtree_post ctx f c = some first ∧
      subtree_post_list (subtree_post ctx f) rest = some others ∧ below = first ++ others := by
  rw [subtree_post_list] at h
  cases hc : subtree_post ctx f c with
  | none => rw [hc] at h; exact absurd h (by simp)
  | some first =>
    cases hr : subtree_post_list (subtree_post ctx f) rest with
    | none => rw [hc, hr] at h; exact absurd h (by simp)
    | some others =>
      rw [hc, hr] at h
      simp only [Option.some.injEq] at h
      exact ⟨first, others, rfl, rfl, h.symm⟩

theorem subtree_top_mem {ctx : CoglContext} {f : Nat} {cs below : List Nat}
    (h : subtree_post_list (subtree_post ctx f) cs = some below) {c : Nat} (hc : c ∈ cs) :
    c ∈ below := by
  obtain ⟨part, hp, hsub⟩ := subtree_post_list_mem cs below h c hc
  exact hsub c (subtree_post_member f c part hp).1

theorem weak_subtrees_cons_true {ctx : CoglContext} {w f c : Nat} {rest first : List Nat}
    (hw : _cogl_pipeline_is_weak ctx w c = some true) (hs : subtree_post ctx f c = some first) :
    weak_subtrees ctx w f (c :: rest) = first ++ weak_subtrees ctx w f rest ∧
      weak_children ctx w (c :: rest) = c :: weak_children ctx w rest := by
  constructor
  · simp only [weak_subtrees, hw, if_true, hs, Option.getD_some]
  · unfold weak_children
    simp only [List.filter_cons, hw, decide_True, if_true]

theorem weak_subtrees_cons_false {ctx : CoglContext} {w f c : Nat} {rest : List Nat}
    (hw : _cogl_pipeline_is_weak ctx w c = some false) :
    weak_subtrees ctx w f (c :: rest) = weak_subtrees ctx w f rest ∧
      weak_children ctx w (c :: rest) = weak_children ctx w rest := by
  constructor
  · simp only [weak_subtrees, hw, Option.some.injEq, Bool.false_eq_true, if_false,
      List.nil_append]
  · unfold weak_children
    simp only [List.filter_cons, hw, Option.some.injEq, Bool.false_eq_true, decide_False,
      if_false]

theorem erase_filter_not_mem {l : List Nat} (hl : l.Nodup) (c : Nat) (E : List Nat) :
    (l.erase c).filter (fun z => decide (z ∉ E)) = l.filter (fun z => decide (z ∉ c :: E)) := by
  rw [List.Nodup.erase_eq_filter hl, List.filter_filter]
  congr 1
  funext z
  by_cases hz : z = c
  · simp [hz]
  · by_cases he : z ∈ E <;> simp [hz, he]

/-- The walk of `destroy_weak_children_cb` over the child list of `x`, given what one
call does (`hD`): the subtrees of the weak children are cut loose in order, the
weak children leave the child list of `x`, and nothing else changes. -/
theorem destroy_children_fold {n f x : Nat}
    (hD : ∀ (ctx ctx2 : CoglContext) (c q : Nat) (ids : List Nat),
      subtree_post ctx f c = some ids → ids.Nodup → links_consistent ctx ids →
      (ctx.links c).map (fun k => k.parent) = some (some q) → q ∉ ids →
      (∃ lq, ctx.links q = some lq ∧ c ∈ lq.children) →
      destroy_weak_children_cb n ctx c = some ctx2 →
      ∃ b, _cogl_pipeline_is_weak ctx (n - 1) c = some b ∧ (b = false → ctx2 = ctx) ∧
        (b = true → dismantled ctx ctx2 ids q c)) :
    ∀ (cs below : List Nat) (ctx ctx2 : CoglContext) (lx : PipelineLinks),
      subtree_post_list (subtree_post ctx f) cs = some below → below.Nodup → x ∉ below →
      links_consistent ctx below → ctx.links x = some lx → lx.children.Nodup →
      (∀ c ∈ cs, c ∈ lx.children ∧ (ctx.links c).map (fun k => k.parent) = some (some x)) →
      cs.foldlM (destroy_weak_children_cb n) ctx = some ctx2 →
      (∀ y ∈ weak_subtrees ctx (n - 1) f cs,
        ctx2.links y = (ctx.links y).map PipelineLinks.cut) ∧
      ctx2.links x = some { lx with
        children := (lx.children.filter (fun c => decide (c ∉ weak_children ctx (n - 1) cs))) } ∧
      (∀ z, z ∉ weak_subtrees ctx (n - 1) f cs → z ≠ x → ctx2.links z = ctx.links z) ∧
      ctx2.destroyed =
        ctx.destroyed ++ (weak_subtrees ctx (n - 1) f cs).map (destroy_event ctx) ∧
      ctx2.pipelines.length = ctx.pipelines.length ∧
      (∀ y ∈ weak_subtrees ctx (n - 1) f cs, y ∈ below) ∧
      (∀ c ∈ cs, ∃ b, _cogl_pipeline_is_weak ctx (n - 1) c = some b) := by
  intro cs
  induction cs with
  | nil =>
    intro below ctx ctx2 lx _ _ _ _ hlx _ _ hfold
    simp only [List.foldlM_nil, Option.pure_def, Option.some.injEq] at hfold
    subst hfold
    refine ⟨fun y hy => absurd hy (by simp [weak_subtrees]), ?_, fun _ _ _ => rfl, ?_, rfl,
      fun y hy => absurd hy (by simp [weak_subtrees]), fun c hc => absurd hc (by simp)⟩
    · rw [hlx]
      simp [weak_children]
    · simp [weak_subtrees]
  | cons c rest ih =>
    intro below ctx ctx2 lx hsub hnodup hxb hcons hlx hlxn hcs hfold
    obtain ⟨first, others, hfirst, hothers, hbelow⟩ := subtree_post_list_cons hsub
    subst hbelow
    have hcsn := subtree_tops_nodup (c :: rest) (first ++ others) hsub hnodup
    rw [List.nodup_append] at hnodup
    obtain ⟨hnf, hno, hdisj⟩ := hnodup
    have hxf : x ∉ first := fun h => hxb (List.mem_append_left _ h)
    have hxo : x ∉ others := fun h => hxb (List.mem_append_right _ h)
    simp only [List.foldlM_cons, Option.bind_eq_bind, Option.bind_eq_some] at hfold
    obtain ⟨ctx1, hstep, hrest⟩ := hfold
    obtain ⟨hcl, hcp⟩ := hcs c (List.mem_cons_self _ _)
    obtain ⟨b, hb, hbf, hbt⟩ := hD ctx ctx1 c x first hfirst hnf
      (links_consistent_subset hcons (fun y hy => List.mem_append_left _ hy)) hcp hxf
      ⟨lx, hlx, hcl⟩ hstep
    cases b with
    | false =>
      have he := hbf rfl
      subst he
      obtain ⟨r1, r2, r3, r4, r5, r6, r7⟩ := ih others ctx1 ctx2 lx hothers hno hxo
        (links_consistent_subset hcons (fun y hy => List.mem_append_right _ hy)) hlx hlxn
        (fun c2 h2 => hcs c2 (List.mem_cons_of_mem _ h2)) hrest
      obtain ⟨e1, e2⟩ := @weak_subtrees_cons_false ctx1 (n - 1) f c rest hb
      rw [e1, e2]
      refine ⟨r1, r2, r3, r4, r5, fun y hy => List.mem_append_right _ (r6 y hy), ?_⟩
      intro c2 h2
      rcases List.mem_cons.mp h2 with h | h
      · subst h; exact ⟨false, hb⟩
      · exact r7 c2 h
    | true =>
      obtain ⟨d1, d2, d3, d4, d5⟩ := hbt rfl
      have hsame : ∀ y ∈ others, ctx1.links y = ctx.links y := fun y hy =>
        d3 y (fun hf => hdisj hf hy) (fun hx => hxo (hx ▸ hy))
      obtain ⟨w1, w2, w3⟩ := @weak_subtrees_congr ctx ctx1 (n - 1) f rest others hothers hsame
      have hlx1 : ctx1.links x =
          some { lx with children := lx.children.erase c } := by
        rw [d2, hlx]
        rfl
      have hxpar : (ctx1.links x).map (fun k => k.parent) =
          (ctx.links x).map (fun k => k.parent) := by
        rw [hlx1, hlx]
        rfl
      have hcons1 : links_consistent ctx1 others := by
        intro y hy l hl c2 hc2
        rw [hsame y hy] at hl
        have hpar := hcons y (List.mem_append_right _ hy) l hl c2 hc2
        have hc2f : c2 ∉ first := by
          intro hin
          rcases (subtree_post_member f c first hfirst).2 c2 hin with he | ⟨z, hz, lz, hlz, hcz⟩
          · rw [he, hcp] at hpar
            simp only [Option.some.injEq] at hpar
            exact hxo (hpar ▸ hy)
          · have := hcons z (List.mem_append_left _ hz) lz hlz c2 hcz
            rw [this] at hpar
            simp only [Option.some.injEq] at hpar
            exact hdisj hz (hpar ▸ hy)
        by_cases hc2x : c2 = x
        · rw [hc2x, hxpar, ← hc2x]
          exact hpar
        · rw [d3 c2 hc2f hc2x]
          exact hpar
      have hcs1 : ∀ c2 ∈ rest, c2 ∈ (lx.children.erase c) ∧
          (ctx1.links c2).map (fun k => k.parent) = some (some x) := by
        intro c2 h2
        obtain ⟨m1, m2⟩ := hcs c2 (List.mem_cons_of_mem _ h2)
        have hne : c2 ≠ c := by
          intro he
          rw [he] at h2
          exact (List.nodup_cons.mp hcsn).1 h2
        refine ⟨(List.mem_erase_of_ne hne).mpr m1, ?_⟩
        rw [hsame c2 (subtree_top_mem hothers h2)]
        exact m2
      obtain ⟨r1, r2, r3, r4, r5, r6, r7⟩ := ih others ctx1 ctx2
        { lx with children := lx.children.erase c } w3 hno hxo hcons1 hlx1
        (List.Nodup.erase c hlxn) hcs1 hrest
      rw [w1] at r1 r3 r4 r6
      rw [w2] at r2
      obtain ⟨e1, e2⟩ := @weak_subtrees_cons_true ctx (n - 1) f c rest first hb hfirst
      rw [e1, e2]
      refine ⟨?_, ?_, ?_, ?_, r5.trans d5, ?_, ?_⟩
      · intro y hy
        rcases List.mem_append.mp hy with hyf | hyr
        · rw [r3 y (fun h => hdisj hyf (r6 y h)) (fun h => hxf (h ▸ hyf))]
          exact d1 y hyf
        · rw [r1 y hyr, hsame y (r6 y hyr)]
      · rw [r2]
        simp only [Option.some.injEq]
        congr 1
        exact erase_filter_not_mem hlxn c _
      · intro z hz hzx
        rw [List.mem_append, not_or] at hz
        rw [r3 z hz.2 hzx]
        exact d3 z hz.1 hzx
      · rw [r4, d4, List.map_append, List.append_assoc]
        congr 2
        apply List.map_congr_left
        intro y hy
        exact destroy_event_congr (by rw [hsame y (r6 y hy)])
      · intro y hy
        rcases List.mem_append.mp hy with hyf | hyr
        · exact List.mem_append_left _ hyf
        · exact List.mem_append_right _ (r6 y hyr)
      · intro c2 h2
        rcases List.mem_cons.mp h2 with h | h
        · subst h; exact ⟨true, hb⟩
        · obtain ⟨b2, hb2⟩ := r7 c2 h
          obtain ⟨part, hp, hsubp⟩ := subtree_post_list_mem rest others hothers c2 h
          refine ⟨b2, ?_⟩
          rw [← (is_weak_congr f c2 part hp (fun y hy => hsame y (hsubp y hy)) (n - 1)).2]
          exact hb2

/-- Two contexts that hold a pipeline at the same places have as many pipelines. -/
theorem length_eq_of_links_isSome {a b : CoglContext}
    (h : ∀ q, (b.links q).isSome = (a.links q).isSome) :
    b.pipelines.length = a.pipelines.length := by
  have key : ∀ (x y : CoglContext), (∀ q, (y.links q).isSome = (x.links q).isSome) →
      x.pipelines.length ≤ y.pipelines.length := by
    intro x y hxy
    by_contra hlt
    have hq := hxy y.pipelines.length
    simp only [CoglContext.links, CoglContext.pipeline] at hq
    rw [List.getElem?_eq_none_iff.mpr (Nat.le_refl _)] at hq
    have : y.pipelines.length < x.pipelines.length := by omega
    rw [List.getElem?_eq_getElem this] at hq
    exact absurd hq (by simp)
  exact Nat.le_antisymm (key b a (fun q => (h q).symm)) (key a b h)

/-- What one call of `destroy_weak_children_cb` does to a child `c` of `q` whose
subtree is `ids`: nothing when `_cogl_pipeline_is_weak` is false; otherwise the
whole subtree is cut loose, children before parents, `c` leaves the child list of
`q`, and the destroy callback of each pipeline of the subtree is called once, in
the order of `ids`. -/
theorem destroy_weak_children_spec :
    ∀ (n f : Nat) (ctx ctx2 : CoglContext) (c q : Nat) (ids : List Nat),
      subtree_post ctx f c = some ids → ids.Nodup → links_consistent ctx ids →
      (ctx.links c).map (fun k => k.parent) = some (some q) → q ∉ ids →
      (∃ lq, ctx.links q = some lq ∧ c ∈ lq.children) →
      destroy_weak_children_cb n ctx c = some ctx2 →
      ∃ b, _cogl_pipeline_is_weak ctx (n - 1) c = some b ∧ (b = false → ctx2 = ctx) ∧
        (b = true → dismantled ctx ctx2 ids q c) := by
  intro n
  induction n with
  | zero =>
    intro f ctx ctx2 c q ids _ _ _ _ _ _ h
    simp [destroy_weak_children_cb] at h
  | succ k ih =>
    intro f ctx ctx2 c q ids hsub hnodup hcons hpar hq hlq hret
    rw [destroy_weak_children_cb] at hret
    simp only [Nat.add_sub_cancel]
    cases hw : _cogl_pipeline_is_weak ctx k c with
    | none => rw [hw] at hret; exact absurd hret (by simp)
    | some b =>
      rw [hw] at hret
      cases b with
      | false =>
        simp only [Option.some.injEq] at hret
        exact ⟨false, rfl, fun _ => hret.symm, fun h => absurd h (by simp)⟩
      | true =>
        refine ⟨true, rfl, fun h => absurd h (by simp), fun _ => ?_⟩
        simp only at hret
        obtain ⟨g, rfl⟩ : ∃ g, f = g + 1 := by
          cases f with
          | zero => simp [subtree_post] at hsub
          | succ g => exact ⟨g, rfl⟩
        obtain ⟨node, below, hc, hbelow, hids⟩ := subtree_post_step hsub
        subst hids
        have hnb : below.Nodup := (List.nodup_append.mp hnodup).1
        have hcb : c ∉ below := by
          intro h
          exact (List.nodup_append.mp hnodup).2.2 h (List.mem_singleton_self c)
        have hqc : q ≠ c := fun h => hq (by rw [h]; simp)
        have hqb : q ∉ below := fun h => hq (List.mem_append_left _ h)
        obtain ⟨lq, hlqs, hclq⟩ := hlq
        cases hfold : _cogl_pipeline_node_foreach_child ctx c
            (fun c2 child => destroy_weak_children_cb k c2 child) ctx with
        | none => rw [hfold] at hret; exact absurd hret (by simp)
        | some ctx1 =>
          rw [hfold] at hret
          simp only at hret
          unfold _cogl_pipeline_node_foreach_child at hfold
          rw [hc] at hfold
          simp only at hfold
          have hweak := is_weak_true_children hc hw
          obtain ⟨r1, r2, r3, r4, r5, -, -⟩ := destroy_children_fold (ih g) node.children below
            ctx ctx1 node.links hbelow hnb hcb
            (links_consistent_subset hcons (fun y hy => List.mem_append_left _ hy))
            (links_of_pipeline hc) (subtree_tops_nodup node.children below hbelow hnb)
            (fun c2 h2 => ⟨h2, hcons c (by simp) node.links (links_of_pipeline hc) c2 h2⟩) hfold
          obtain ⟨ws, wc⟩ := @weak_subtrees_all ctx (k - 1) g node.children below hbelow hweak
          rw [ws] at r1 r3 r4
          rw [wc] at r2
          have hfilter : node.links.children.filter
              (fun z => decide (z ∉ node.children)) = [] := by
            rw [List.filter_eq_nil_iff]
            intro z hz
            simpa using hz
          rw [hfilter] at r2
          obtain ⟨px, hpx, hpxl⟩ := links_eq_some r2
          rw [hpx] at hret
          simp only at hret
          have hq1 : (ctx1.emit (CoglEvent.destroy px.destroy_callback c px.destroy_data)).links q =
              some lq := by
            have : ctx1.links q = ctx.links q := r3 q hqb hqc
            rw [← hlqs, ← this]
            rfl
          obtain ⟨qn, hqn, hqnl⟩ := links_eq_some hq1
          have hppar : px.parent = some q := by
            have h1 : px.links.parent = node.links.parent := by rw [hpxl]
            have h2 : (ctx.links c).map (fun k => k.parent) = some node.links.parent := by
              rw [links_of_pipeline hc]; rfl
            rw [hpar] at h2
            exact h1.trans (Option.some.inj h2).symm
          have hqch : qn.children ≠ [] := by
            have : qn.links.children = lq.children := by rw [hqnl]
            intro h0
            have hmem : c ∈ qn.links.children := by rw [this]; exact hclq
            rw [show qn.links.children = qn.children from rfl, h0] at hmem
            exact absurd hmem (by simp)
          obtain ⟨ctx3, hun, u1, u2, u3, u4⟩ := unparent_links
            (show (ctx1.emit (CoglEvent.destroy px.destroy_callback c px.destroy_data)).pipeline c
              = some px from hpx) hppar hqn (Ne.symm hqc) hqch
          unfold _cogl_pipeline_unparent at hret
          rw [hun] at hret
          simp only [Option.some.injEq] at hret
          subst hret
          have hev : CoglEvent.destroy px.destroy_callback c px.destroy_data =
              destroy_event ctx c := by
            rw [destroy_event_of_links (links_of_pipeline hc)]
            have h1 : px.links.destroy_callback = node.links.destroy_callback := by rw [hpxl]
            have h2 : px.links.destroy_data = node.links.destroy_data := by rw [hpxl]
            rw [show px.destroy_callback = px.links.destroy_callback from rfl,
              show px.destroy_data = px.links.destroy_data from rfl, h1, h2]
          refine ⟨?_, ?_, ?_, ?_, ?_⟩
          · intro y hy
            rcases List.mem_append.mp hy with hyb | hyc
            · have hyc2 : y ≠ c := fun h => hcb (h ▸ hyb)
              have hyq : y ≠ q := fun h => hqb (h ▸ hyb)
              rw [u3 y hyc2 hyq]
              exact r1 y hyb
            · rw [List.mem_singleton] at hyc
              subst hyc
              rw [u1, links_of_pipeline hc, hpxl]
              rfl
          · rw [u2, hlqs, ← hqnl]
            rfl
          · intro z hz hzq
            rw [List.mem_append, not_or, List.mem_singleton] at hz
            rw [u3 z hz.2 hzq]
            exact r3 z hz.1 hz.2
          · have : ctx3.destroyed = (ctx1.emit (CoglEvent.destroy px.destroy_callback c
                px.destroy_data)).destroyed := by
              simp only [CoglContext.destroyed, u4]
            rw [this]
            simp only [CoglContext.destroyed, CoglContext.emit, List.filter_append,
              List.map_append, List.map_cons, List.map_nil] at r4 ⊢
            rw [r4, hev]
            simp [CoglEvent.is_destroy, destroy_event_of_links (links_of_pipeline hc)]
          · rw [← r5]
            apply length_eq_of_links_isSome
            intro z
            by_cases hzc : z = c
            · rw [hzc, u1, r2]; rfl
            · by_cases hzq : z = q
              · rw [hzq, u2, show ctx1.links q = ctx.links q from r3 q hqb hqc, hlqs]; rfl
              · rw [u3 z hzc hzq]; rfl

/-! ## The tree under the steps of a change -/

theorem same_but_caches_skeleton {a b : CoglContext} (h : same_but_caches a b) :
    same_skeleton a b := by
  refine ⟨fun q => ?_, ?_⟩
  · have := congrArg (Option.map CoglPipeline.links) (h.1 q)
    simp only [Option.map_map] at this
    exact this
  · have := congrArg CoglContext.events h.2
    simp only [CoglContext.destroyed]
    rw [show b.events = a.events from this]

theorem returned_foldlM {α β : Type} {f : β → α → Option β} {inv : β → Prop}
    (hf : ∀ s a, inv s → returned (f s a) inv) :
    ∀ (l : List α) (s : β), inv s → returned (l.foldlM f s) inv := by
  intro l
  induction l with
  | nil =>
    intro s hs
    exact returned_some hs
  | cons a rest ih =>
    intro s hs
    rw [List.foldlM_cons]
    exact returned_bind (hf s a hs) (fun s2 h2 => ih s2 h2)

theorem returned_bind_any {α β : Type} {x : Option α} {f : α → Option β} {post : β → Prop}
    (hf : ∀ a, x = some a → returned (f a) post) : returned (x.bind f) post := by
  intro b hb
  cases hxa : x with
  | none => rw [hxa] at hb; exact absurd hb (by simp)
  | some a =>
    rw [hxa] at hb
    exact hf a hxa b hb

theorem returned_match {α β : Type} {x : Option α} {f : α → Option β} {post : β → Prop}
    (hf : ∀ a, x = some a → returned (f a) post) :
    returned (match x with | none => none | some a => f a) post := by
  cases hxa : x with
  | none => exact returned_none
  | some a => exact hf a hxa

/-- A step that keeps the tree, taken from a context that has the tree of `c0`. -/
theorem skeleton_step {c0 c : CoglContext} {x : Option CoglContext} (hs : same_skeleton c0 c)
    (h : returned x (same_skeleton c)) : returned x (same_skeleton c0) :=
  returned_mono h (fun _ ha => same_skeleton_trans hs ha)

theorem skeleton_bind {c0 : CoglContext} {x : Option CoglContext}
    {f : CoglContext → Option CoglContext} (hx : returned x (same_skeleton c0))
    (hf : ∀ c, same_skeleton c0 c → returned (f c) (same_skeleton c0)) :
    returned (x.bind f) (same_skeleton c0) :=
  returned_bind hx hf

theorem modify_pipeline_skeleton (ctx : CoglContext) (p : Nat) {f : CoglPipeline → CoglPipeline}
    (hf : ∀ m, (f m).links = m.links) :
    returned (ctx.modify_pipeline p f) (same_skeleton ctx) := by
  unfold CoglContext.modify_pipeline
  cases hp : ctx.pipeline p with
  | none => exact returned_none
  | some node => exact returned_some (same_skeleton_set hp (hf node))

theorem pre_change_notify_journal_skeleton (f : Nat) (ctx : CoglContext) (p change : Nat)
    (oc : Option CoglColor) :
    returned (pre_change_notify_journal f ctx p change oc) (same_skeleton ctx) := by
  unfold pre_change_notify_journal
  split
  · exact returned_none
  rename_i node hp
  refine returned_ite (fun _ => returned_ite (fun _ => ?_)
    (fun _ => returned_some (same_skeleton_emit ctx rfl)))
    (fun _ => returned_some (same_skeleton_refl ctx))
  intro a ha
  cases hnb : _cogl_pipeline_needs_blending_enabled f ctx p change oc with
  | none => rw [hnb] at ha; exact absurd ha (by simp)
  | some r =>
    obtain ⟨ctx1, w⟩ := r
    rw [hnb] at ha
    have hs := same_but_caches_skeleton (needs_blending_enabled_caches f ctx p change oc ctx1 w hnb)
    simp only at ha
    split at ha
    · rw [← Option.some.inj ha]; exact hs
    · rw [← Option.some.inj ha]; exact same_skeleton_trans hs (same_skeleton_emit _ rfl)

theorem pre_change_notify_backends_skeleton (ctx : CoglContext) (p change : Nat) (flc : Bool) :
    returned (pre_change_notify_backends ctx p change flc) (same_skeleton ctx) := by
  unfold pre_change_notify_backends
  simp only [Option.bind_eq_bind]
  refine skeleton_bind (modify_pipeline_skeleton ctx p (fun m => by split <;> rfl)) ?_
  intro c1 s1
  refine skeleton_bind (skeleton_step s1 (modify_pipeline_skeleton c1 p
    (fun m => by split <;> rfl))) ?_
  intro c2 s2
  refine returned_bind_any (fun node _ => ?_)
  cases flc with
  | true => exact returned_some s2
  | false =>
    simp only [Bool.not_false, if_true, Option.pure_def]
    exact returned_some (same_skeleton_trans s2 (same_skeleton_trans
      (same_skeleton_ite_emit _ _ _ (by rfl)) (same_skeleton_trans
        (same_skeleton_ite_emit _ _ _ (by rfl)) (same_skeleton_emit _ (by rfl)))))

theorem recursively_free_layer_caches_skeleton :
    ∀ (fuel : Nat) (ctx : CoglContext) (p : Nat),
      returned (recursively_free_layer_caches fuel ctx p) (same_skeleton ctx) := by
  intro fuel
  induction fuel with
  | zero =>
    intro ctx p
    exact returned_none
  | succ k ih =>
    intro ctx p
    unfold recursively_free_layer_caches
    split
    · exact returned_none
    rename_i node hp
    refine returned_ite (fun _ => returned_some (same_skeleton_refl ctx)) (fun _ => ?_)
    have s1 : same_skeleton ctx (ctx.set_pipeline p { node with layers_cache_dirty := true }) :=
      same_skeleton_set hp rfl
    unfold _cogl_pipeline_node_foreach_child
    dsimp only
    split
    · exact returned_none
    exact returned_foldlM (fun s a hs => skeleton_step hs (ih s a)) _ _ s1

theorem init_multi_property_sparse_state_skeleton (fuel : Nat) (ctx : CoglContext)
    (p change : Nat) :
    returned (_cogl_pipeline_init_multi_property_sparse_state fuel ctx p change)
      (same_skeleton ctx) := by
  unfold _cogl_pipeline_init_multi_property_sparse_state
  refine returned_ite (fun _ => returned_some (same_skeleton_refl ctx)) (fun _ => ?_)
  refine returned_ite (fun _ => returned_some (same_skeleton_refl ctx)) (fun _ => ?_)
  split
  · exact returned_none
  split
  · exact returned_none
  repeat' first
    | exact returned_some (same_skeleton_refl ctx)
    | exact modify_pipeline_skeleton ctx p (fun _ => rfl)
    | (apply returned_ite <;> intro _)

theorem pre_change_notify_takeover_skeleton (f : Nat) (ctx : CoglContext) (p change : Nat) :
    returned (pre_change_notify_takeover f ctx p change) (same_skeleton ctx) := by
  unfold pre_change_notify_takeover
  simp only [Option.bind_eq_bind]
  refine skeleton_bind (modify_pipeline_skeleton ctx p (fun _ => rfl)) ?_
  intro c1 s1
  refine skeleton_bind (skeleton_step s1 (modify_pipeline_skeleton c1 p
    (fun m => by split <;> rfl))) ?_
  intro c2 s2
  refine returned_bind_any (fun node _ => ?_)
  refine skeleton_bind (returned_ite (fun _ => ?_) (fun _ => returned_some s2)) ?_
  · refine skeleton_bind (skeleton_step s2
      (init_multi_property_sparse_state_skeleton f c2 p change)) ?_
    intro c3 s3
    exact skeleton_step s3 (modify_pipeline_skeleton c3 p (fun _ => rfl))
  intro c4 s4
  refine skeleton_bind (returned_ite
    (fun _ => skeleton_step s4 (recursively_free_layer_caches_skeleton f c4 p))
    (fun _ => returned_some s4)) ?_
  intro c5 s5
  simp only [Option.pure_def]
  refine returned_some ?_
  split
  · exact same_skeleton_trans s5 (same_skeleton_of_eq rfl rfl)
  · exact s5

theorem links_children_of_skeleton {a b : CoglContext} {p : Nat} {node : CoglPipeline}
    (hs : same_skeleton a b) (hch : ∀ l, a.links p = some l → l.children = [])
    (hp : b.pipeline p = some node) : node.children = [] := by
  have h1 : b.links p = some node.links := links_of_pipeline hp
  rw [hs.1 p] at h1
  exact hch _ h1

/-- The body of `_cogl_pipeline_pre_change_notify` on a pipeline without children
keeps the tree, whatever the change. -/
theorem pre_change_notify_with_leaf (notify : PreChangeNotify) (f : Nat) (ctx : CoglContext)
    (p change : Nat) (oc : Option CoglColor) (flc : Bool)
    (hch : ∀ l, ctx.links p = some l → l.children = []) :
    returned (pre_change_notify_with notify f ctx p change oc flc) (same_skeleton ctx) := by
  unfold pre_change_notify_with
  simp only [Option.bind_eq_bind]
  refine skeleton_bind (pre_change_notify_journal_skeleton f ctx p change oc) ?_
  intro c1 s1
  refine skeleton_bind (skeleton_step s1 (pre_change_notify_backends_skeleton c1 p change flc)) ?_
  intro c2 s2
  refine skeleton_bind ?_ ?_
  · unfold _cogl_pipeline_node_foreach_child
    split
    · exact returned_none
    rename_i node hp
    rw [links_children_of_skeleton s2 hch hp]
    exact returned_some s2
  intro c3 s3
  refine returned_bind_any (fun node hp => ?_)
  rw [links_children_of_skeleton s3 hch hp]
  simp only [ne_eq, not_true_eq_false, if_false, Option.some_bind]
  exact skeleton_step s3 (pre_change_notify_takeover_skeleton f c3 p change)

theorem pre_change_notify_leaf (fuel : Nat) (ctx : CoglContext)
    (p change : Nat) (oc : Option CoglColor) (flc : Bool)
    (hch : ∀ l, ctx.links p = some l → l.children = []) :
    returned (_cogl_pipeline_pre_change_notify fuel ctx p change oc flc) (same_skeleton ctx) := by
  cases fuel with
  | zero => exact returned_none
  | succ k => exact pre_change_notify_with_leaf _ k ctx p change oc flc hch

theorem set_layer_skeleton (ctx : CoglContext) (l : Nat) (v : CoglPipelineLayer) :
    same_skeleton ctx (ctx.set_layer l v) := same_skeleton_of_eq rfl rfl

theorem modify_layer_skeleton (ctx : CoglContext) (l : Nat)
    (f : CoglPipelineLayer → CoglPipelineLayer) :
    returned (ctx.modify_layer l f) (same_skeleton ctx) := by
  unfold CoglContext.modify_layer
  split
  · exact returned_none
  · exact returned_some (set_layer_skeleton ctx l _)

theorem object_ref_layer_skeleton (ctx : CoglContext) (l : Nat) :
    returned (cogl_object_ref_layer ctx l) (same_skeleton ctx) := by
  unfold cogl_object_ref_layer
  split
  · exact returned_none
  · exact returned_some (set_layer_skeleton ctx l _)

theorem object_unref_layer_skeleton (ctx : CoglContext) (l : Nat) :
    returned (cogl_object_unref_layer ctx l) (same_skeleton ctx) := by
  unfold cogl_object_unref_layer
  split
  · exact returned_none
  · exact returned_some (set_layer_skeleton ctx l _)

theorem layer_unparent_skeleton (ctx : CoglContext) (l : Nat) :
    returned (_cogl_pipeline_layer_unparent ctx l) (same_skeleton ctx) := by
  unfold _cogl_pipeline_layer_unparent
  split
  · exact returned_none
  split
  · exact returned_some (same_skeleton_refl ctx)
  split
  · exact returned_none
  refine returned_ite (fun _ => returned_some (same_skeleton_refl ctx)) (fun _ => ?_)
  dsimp only
  have s1 : ∀ (k : Nat) (v : CoglPipelineLayer), same_skeleton ctx (ctx.set_layer k v) :=
    fun k v => set_layer_skeleton ctx k v
  intro a ha
  split at ha
  · exact absurd ha (by simp)
  rename_i c2 h2
  have s2 : same_skeleton ctx c2 := by
    split at h2
    · exact same_skeleton_trans (s1 _ _) (object_unref_layer_skeleton _ _ _ h2)
    · rw [← Option.some.inj h2]; exact s1 _ _
  split at ha
  · exact absurd ha (by simp)
  rw [← Option.some.inj ha]
  exact same_skeleton_trans s2 (set_layer_skeleton _ _ _)

theorem layer_set_parent_skeleton (ctx : CoglContext) (l parent : Nat) :
    returned (_cogl_pipeline_layer_set_parent ctx l parent) (same_skeleton ctx) := by
  unfold _cogl_pipeline_layer_set_parent
  intro a ha
  split at ha
  · exact absurd ha (by simp)
  rename_i c1 h1
  have s1 := object_ref_layer_skeleton ctx parent c1 h1
  split at ha
  · exact absurd ha (by simp)
  split at ha
  · exact absurd ha (by simp)
  rename_i c2 h2
  have s2 : same_skeleton ctx c2 := by
    split at h2
    · exact same_skeleton_trans s1 (layer_unparent_skeleton _ _ _ h2)
    · rw [← Option.some.inj h2]; exact s1
  split at ha
  · exact absurd ha (by simp)
  dsimp only at ha
  split at ha
  · exact absurd ha (by simp)
  rw [← Option.some.inj ha]
  exact same_skeleton_trans s2 (same_skeleton_trans (set_layer_skeleton _ _ _)
    (set_layer_skeleton _ _ _))

theorem layer_copy_skeleton (ctx : CoglContext) (src : Nat) :
    returned (_cogl_pipeline_layer_copy ctx src) (fun r => same_skeleton ctx r.1) := by
  unfold _cogl_pipeline_layer_copy
  intro a ha
  split at ha
  · exact absurd ha (by simp)
  dsimp only at ha
  split at ha
  · exact absurd ha (by simp)
  rename_i c2 h2
  have s2 := layer_set_parent_skeleton _ _ _ c2 h2
  split at ha
  · exact absurd ha (by simp)
  rename_i c3 h3
  have s3 := modify_layer_skeleton _ _ _ c3 h3
  rw [← Option.some.inj ha]
  exact same_skeleton_trans (same_skeleton_trans (same_skeleton_of_eq rfl rfl) s2) s3

theorem leaf_of_skeleton {a b : CoglContext} {p : Nat} (hs : same_skeleton a b)
    (hch : ∀ l, a.links p = some l → l.children = []) :
    ∀ l, b.links p = some l → l.children = [] := by
  intro l hl
  rw [hs.1 p] at hl
  exact hch l hl

theorem add_layer_difference_with_skeleton {notify : PreChangeNotify} {dest : Nat}
    (hn : ∀ c ch oc flc, (∀ l, c.links dest = some l → l.children = []) →
      returned (notify c dest ch oc flc) (same_skeleton c))
    (ctx : CoglContext) (layer : Nat) (inc : Bool)
    (hch : ∀ l, ctx.links dest = some l → l.children = []) :
    returned (add_layer_difference_with notify ctx dest layer inc) (same_skeleton ctx) := by
  unfold add_layer_difference_with
  simp only [Option.bind_eq_bind, Option.pure_def]
  refine returned_bind_any (fun l _ => ?_)
  refine returned_ite (fun _ => returned_some (same_skeleton_refl ctx)) (fun _ => ?_)
  have s1 := set_layer_skeleton ctx layer { l with owner := some dest }
  refine skeleton_bind (skeleton_step s1 (object_ref_layer_skeleton _ _)) ?_
  intro c2 s2
  refine skeleton_bind (skeleton_step s2 (hn c2 _ _ _ (leaf_of_skeleton s2 hch))) ?_
  intro c3 s3
  exact skeleton_step s3 (modify_pipeline_skeleton c3 dest (fun _ => rfl))

theorem update_blend_enable_with_skeleton {notify : PreChangeNotify} {dest : Nat}
    (hn : ∀ c ch oc flc, (∀ l, c.links dest = some l → l.children = []) →
      returned (notify c dest ch oc flc) (same_skeleton c))
    (fuel : Nat) (ctx : CoglContext) (change : Nat)
    (hch : ∀ l, ctx.links dest = some l → l.children = []) :
    returned (update_blend_enable_with notify fuel ctx dest change) (same_skeleton ctx) := by
  unfold update_blend_enable_with
  simp only [Option.bind_eq_bind, Option.pure_def]
  refine returned_bind_any (fun r hr => ?_)
  obtain ⟨c1, blend_enable⟩ := r
  have s1 := same_but_caches_skeleton
    (needs_blending_enabled_caches fuel ctx dest change none c1 blend_enable hr)
  dsimp only
  refine returned_bind_any (fun node _ => ?_)
  refine returned_ite (fun _ => ?_) (fun _ => returned_some s1)
  refine skeleton_bind (skeleton_step s1 (hn c1 _ _ _ (leaf_of_skeleton s1 hch))) ?_
  intro c2 s2
  exact skeleton_step s2 (modify_pipeline_skeleton c2 dest (fun _ => rfl))

theorem copy_big_state_differences_skeleton (ctx : CoglContext) (dest src differences : Nat) :
    returned (copy_big_state_differences ctx dest src differences) (same_skeleton ctx) := by
  unfold copy_big_state_differences
  refine returned_ite (fun _ => returned_some (same_skeleton_refl ctx)) (fun _ => ?_)
  split
  · exact returned_none
  exact modify_pipeline_skeleton ctx dest (fun _ => rfl)

theorem copy_differences_with_skeleton {notify : PreChangeNotify} {dest : Nat}
    (hn : ∀ c ch oc flc, (∀ l, c.links dest = some l → l.children = []) →
      returned (notify c dest ch oc flc) (same_skeleton c))
    (fuel : Nat) (ctx : CoglContext) (src differences : Nat)
    (hch : ∀ l, ctx.links dest = some l → l.children = []) :
    returned (copy_differences_with notify fuel ctx dest src differences)
      (same_skeleton ctx) := by
  unfold copy_differences_with
  simp only [Option.bind_eq_bind]
  refine returned_bind_any (fun s _ => ?_)
  refine skeleton_bind (returned_ite (fun _ => modify_pipeline_skeleton ctx dest (fun _ => rfl))
    (fun _ => returned_some (same_skeleton_refl ctx))) ?_
  intro c1 s1
  refine skeleton_bind (returned_ite
    (fun _ => skeleton_step s1 (modify_pipeline_skeleton c1 dest (fun _ => rfl)))
    (fun _ => returned_some s1)) ?_
  intro c2 s2
  refine skeleton_bind (returned_ite (fun _ => ?_) (fun _ => returned_some s2)) ?_
  · refine returned_bind_any (fun d _ => ?_)
    refine skeleton_bind (returned_ite (fun _ => ?_) (fun _ => returned_some s2)) ?_
    · exact returned_foldlM (fun c l hs => skeleton_step hs (object_unref_layer_skeleton c l))
        _ _ s2
    intro c3 s3
    refine returned_bind_any (fun s1 _ => ?_)
    refine skeleton_bind ?_ ?_
    · refine returned_foldlM (fun c l hs => ?_) _ _ s3
      refine returned_bind_any (fun r hr => ?_)
      obtain ⟨ca, copy⟩ := r
      have sa : same_skeleton ctx ca := same_skeleton_trans hs (layer_copy_skeleton c l _ hr)
      dsimp only
      refine skeleton_bind (skeleton_step sa (add_layer_difference_with_skeleton hn ca copy false
        (leaf_of_skeleton sa hch))) ?_
      intro cb sb
      exact skeleton_step sb (object_unref_layer_skeleton cb copy)
    intro c4 s4
    refine returned_bind_any (fun s2 _ => ?_)
    exact skeleton_step s4 (modify_pipeline_skeleton c4 dest (fun _ => rfl))
  intro c5 s5
  refine skeleton_bind (skeleton_step s5 (copy_big_state_differences_skeleton c5 dest src _)) ?_
  intro c6 s6
  refine skeleton_bind (returned_ite
    (fun _ => skeleton_step s6 (update_blend_enable_with_skeleton hn fuel c6 differences
      (leaf_of_skeleton s6 hch)))
    (fun _ => returned_some s6)) ?_
  intro c7 s7
  exact skeleton_step s7 (modify_pipeline_skeleton c7 dest (fun _ => rfl))

theorem object_ref_skeleton (ctx : CoglContext) (p : Nat) :
    returned (cogl_object_ref ctx p) (same_skeleton ctx) := by
  unfold cogl_object_ref
  split
  · exact returned_none
  rename_i node hp
  exact returned_some (same_skeleton_set hp rfl)

theorem object_unref_skeleton (ctx : CoglContext) (p : Nat) :
    returned (cogl_object_unref ctx p) (same_skeleton ctx) := by
  unfold cogl_object_unref
  split
  · exact returned_none
  rename_i node hp
  exact returned_some (same_skeleton_set hp rfl)

theorem promote_weak_ancestors_loop_skeleton :
    ∀ (fuel : Nat) (ctx : CoglContext) (n : Nat),
      returned (promote_weak_ancestors_loop fuel ctx n) (same_skeleton ctx) := by
  intro fuel
  induction fuel with
  | zero => intro ctx n; exact returned_none
  | succ k ih =>
    intro ctx n
    unfold promote_weak_ancestors_loop
    split
    · exact returned_none
    refine returned_ite (fun _ => ?_) (fun _ => returned_some (same_skeleton_refl ctx))
    split
    · exact returned_none
    rename_i parent _
    intro a ha
    split at ha
    · exact absurd ha (by simp)
    rename_i c1 h1
    exact same_skeleton_trans (object_ref_skeleton ctx parent c1 h1) (ih c1 parent a ha)

theorem promote_weak_ancestors_skeleton (fuel : Nat) (ctx : CoglContext) (n : Nat) :
    returned (_cogl_pipeline_promote_weak_ancestors fuel ctx n) (same_skeleton ctx) := by
  unfold _cogl_pipeline_promote_weak_ancestors
  split
  · exact returned_none
  refine returned_ite (fun _ => returned_some (same_skeleton_refl ctx)) (fun _ => ?_)
  split
  · exact returned_some (same_skeleton_refl ctx)
  · exact promote_weak_ancestors_loop_skeleton fuel ctx _

theorem revert_weak_ancestors_loop_skeleton :
    ∀ (fuel : Nat) (ctx : CoglContext) (n : Nat),
      returned (revert_weak_ancestors_loop fuel ctx n) (same_skeleton ctx) := by
  intro fuel
  induction fuel with
  | zero => intro ctx n; exact returned_none
  | succ k ih =>
    intro ctx n
    unfold revert_weak_ancestors_loop
    split
    · exact returned_none
    refine returned_ite (fun _ => ?_) (fun _ => returned_some (same_skeleton_refl ctx))
    split
    · exact returned_none
    rename_i parent _
    intro a ha
    split at ha
    · exact absurd ha (by simp)
    rename_i c1 h1
    exact same_skeleton_trans (object_unref_skeleton ctx parent c1 h1) (ih c1 parent a ha)

theorem revert_weak_ancestors_skeleton (fuel : Nat) (ctx : CoglContext) (n : Nat) :
    returned (_cogl_pipeline_revert_weak_ancestors fuel ctx n) (same_skeleton ctx) := by
  unfold _cogl_pipeline_revert_weak_ancestors
  split
  · exact returned_none
  refine returned_ite (fun _ => returned_some (same_skeleton_refl ctx)) (fun _ => ?_)
  split
  · exact returned_some (same_skeleton_refl ctx)
  · exact revert_weak_ancestors_loop_skeleton fuel ctx _

theorem set_static_breadcrumb_skeleton (ctx : CoglContext) (p : Nat) (b : String) :
    returned (_cogl_pipeline_set_static_breadcrumb ctx p b) (same_skeleton ctx) := by
  unfold _cogl_pipeline_set_static_breadcrumb
  split
  · exact returned_none
  rename_i node hp
  exact returned_some (same_skeleton_set hp rfl)

theorem destroyed_of_events {a b : CoglContext} (h : b.events = a.events) :
    b.destroyed = a.destroyed := by
  simp only [CoglContext.destroyed, h]

/-- The relation `reparented` carried over contexts with the same trees. -/
theorem reparented_congr {a a2 b b2 : CoglContext} {c np : Nat} {strong : Bool}
    (ha : same_skeleton a a2) (hb : same_skeleton b2 b) (h : reparented a2 b2 c np strong) :
    reparented a b c np strong := by
  obtain ⟨h1, h2, h3, h4, h5⟩ := h
  refine ⟨?_, ?_, ?_, ?_, ?_⟩
  · rw [hb.1, h1, ha.1]
  · rw [hb.1, h2, ha.1]
  · intro q hq
    rw [hb.1, h3 q (by rw [ha.1]; exact hq), ha.1]
  · intro z hzc hzn hzq
    rw [hb.1, h4 z hzc hzn (by rw [ha.1]; exact hzq), ha.1]
  · rw [hb.2, h5, ha.2]

theorem links_parent_none_eta (l : PipelineLinks) (h : l.parent = none) :
    { l with parent := none } = l := by
  cases l
  simp only at h
  subst h
  rfl

/-- What `_cogl_pipeline_node_set_parent_real` does to the tree, for a node that is
a child of the parent it names, if it names one. -/
theorem set_parent_real_links {ctx ctx2 : CoglContext} {c np : Nat} {strong : Bool}
    {lc ln : PipelineLinks}
    (hc : ctx.links c = some lc) (hn : ctx.links np = some ln) (hcn : c ≠ np)
    (hq : ∀ q, lc.parent = some q →
      q ≠ c ∧ q ≠ np ∧ ∃ lq, ctx.links q = some lq ∧ c ∈ lq.children)
    (h : _cogl_pipeline_node_set_parent_real ctx c np strong = some ctx2) :
    reparented ctx ctx2 c np strong := by
  obtain ⟨cn, hcp, hcl⟩ := links_eq_some hc
  obtain ⟨nn, hnp, hnl⟩ := links_eq_some hn
  cases hpar : cn.parent with
  | none =>
    rw [set_parent_real_orphan hcp hpar hnp (Ne.symm hcn) strong] at h
    rw [← Option.some.inj h]
    have hc1 : (ctx.set_pipeline np
        { nn with ref_count := if strong = true then nn.ref_count + 1 else nn.ref_count,
                  children := c :: nn.children }).pipeline c = some cn := by
      rw [pipeline_set_pipeline_ne _ (Ne.symm hcn)]; exact hcp
    have hlp : (ctx.links c).map (fun l => l.parent) = some none := by
      rw [hc, ← hcl]; simp only [Option.map_some']; exact congrArg some hpar
    refine ⟨?_, ?_, ?_, ?_, rfl⟩
    · rw [links_set_pipeline_self hc1, hc, ← hcl]; rfl
    · rw [links_set_pipeline_ne _ hcn, links_set_pipeline_self hnp, hn, ← hnl]; rfl
    · intro q hq2
      rw [hlp] at hq2
      exact absurd hq2 (by simp)
    · intro z hzc hzn _
      rw [links_set_pipeline_ne _ (Ne.symm hzc), links_set_pipeline_ne _ (Ne.symm hzn)]
  | some q =>
    have hlcp : lc.parent = some q := by rw [← hcl]; exact hpar
    obtain ⟨hqc, hqn, lq, hlq, hmem⟩ := hq q hlcp
    obtain ⟨qn, hqp, hql⟩ := links_eq_some hlq
    unfold _cogl_pipeline_node_set_parent_real at h
    rw [cogl_object_ref_spec hnp] at h
    dsimp only at h
    have hc1 : (ctx.set_pipeline np { nn with ref_count := nn.ref_count + 1 }).pipeline c =
        some cn := by
      rw [pipeline_set_pipeline_ne _ (Ne.symm hcn)]; exact hcp
    have hq1 : (ctx.set_pipeline np { nn with ref_count := nn.ref_count + 1 }).pipeline q =
        some qn := by
      rw [pipeline_set_pipeline_ne _ (Ne.symm hqn)]; exact hqp
    have hqch : qn.children ≠ [] := by
      intro h0
      have : c ∈ qn.links.children := by rw [hql]; exact hmem
      rw [show qn.links.children = qn.children from rfl, h0] at this
      exact absurd this (by simp)
    obtain ⟨cu, hu, u1, u2, u3, u4⟩ := unparent_links hc1 hpar hq1 (Ne.symm hqc) hqch
    rw [hc1] at h
    simp only [hpar, Option.isSome_some, if_true, _cogl_pipeline_unparent, hu] at h
    have hun : cu.links np = some ln := by
      rw [u3 np (Ne.symm hcn) (Ne.symm hqn), links_set_pipeline_self hnp]
      exact congrArg some hnl
    obtain ⟨pn, hpn, hpl⟩ := links_eq_some hun
    rw [hpn] at h
    dsimp only at h
    obtain ⟨n3, hn3, hn3l⟩ := links_eq_some u1
    rw [pipeline_set_pipeline_ne _ (Ne.symm hcn), hn3] at h
    dsimp only at h
    have hc3 : (cu.set_pipeline np { pn with children := c :: pn.children }).pipeline c =
        some n3 := by
      rw [pipeline_set_pipeline_ne _ (Ne.symm hcn)]; exact hn3
    have s4 : same_skeleton ((cu.set_pipeline np { pn with children := c :: pn.children
        }).set_pipeline c { n3 with parent := some np, has_parent_reference := strong })
        ctx2 := by
      cases strong with
      | true =>
        simp only [Bool.not_true, Bool.false_eq_true, if_false, Option.some.injEq] at h
        rw [← h]
        exact same_skeleton_refl _
      | false =>
        simp only [Bool.not_false, if_true] at h
        exact object_unref_skeleton _ _ _ h
    have hlp : (ctx.links c).map (fun l => l.parent) = some (some q) := by
      rw [hc]; simp only [Option.map_some']; exact congrArg some hlcp
    refine ⟨?_, ?_, ?_, ?_, ?_⟩
    · rw [s4.1, links_set_pipeline_self hc3, hc]
      simp only [Option.map_some', Option.some.injEq]
      have : n3.links = { lc with parent := none } := by rw [hn3l, hcl]
      simp only [CoglPipeline.links] at this ⊢
      simp only [PipelineLinks.mk.injEq] at this ⊢
      exact ⟨trivial, this.2.1, trivial, this.2.2.2.1, this.2.2.2.2.1, this.2.2.2.2.2⟩
    · rw [s4.1, links_set_pipeline_ne _ hcn, links_set_pipeline_self hpn, hn, ← hpl]; rfl
    · intro q2 hq2
      rw [hlp] at hq2
      have hqq : q = q2 := Option.some.inj (Option.some.inj hq2)
      subst hqq
      rw [s4.1, links_set_pipeline_ne _ (Ne.symm hqc), links_set_pipeline_ne _ (Ne.symm hqn), u2,
        hlq, ← hql]
      rfl
    · intro z hzc hzn hzq
      have hzq2 : z ≠ q := by
        intro hz
        rw [hz] at hzq
        exact hzq hlp
      rw [s4.1, links_set_pipeline_ne _ (Ne.symm hzc), links_set_pipeline_ne _ (Ne.symm hzn),
        u3 z hzc hzq2, links_set_pipeline_ne _ (Ne.symm hzn)]
    · rw [s4.2]
      exact destroyed_of_events u4

/-- What `_cogl_pipeline_set_parent` does to the tree. -/
theorem set_parent_links {ctx ctx2 : CoglContext} {c np fuel : Nat} {strong : Bool}
    {lc ln : PipelineLinks}
    (hc : ctx.links c = some lc) (hn : ctx.links np = some ln) (hcn : c ≠ np)
    (hq : ∀ q, lc.parent = some q →
      q ≠ c ∧ q ≠ np ∧ ∃ lq, ctx.links q = some lq ∧ c ∈ lq.children)
    (h : _cogl_pipeline_set_parent fuel ctx c np strong = some ctx2) :
    reparented ctx ctx2 c np strong := by
  unfold _cogl_pipeline_set_parent at h
  split at h
  · exact absurd h (by simp)
  rename_i c1 h1
  have r1 := set_parent_real_links hc hn hcn hq h1
  split at h
  · exact absurd h (by simp)
  rename_i node _
  split at h
  · exact absurd h (by simp)
  rename_i c2 h2
  have s2 : same_skeleton c1 c2 := by
    split at h2
    · exact recursively_free_layer_caches_skeleton _ _ _ _ h2
    · rw [← Option.some.inj h2]; exact same_skeleton_refl _
  have s3 : same_skeleton c2 ctx2 := by
    split at h
    · rw [← Option.some.inj h]; exact same_skeleton_emit _ rfl
    · rw [← Option.some.inj h]; exact same_skeleton_refl _
  exact reparented_congr (same_skeleton_refl ctx) (same_skeleton_trans s2 s3) r1

theorem reparented_length {a b : CoglContext} {c np : Nat} {strong : Bool}
    (h : reparented a b c np strong) : b.pipelines.length = a.pipelines.length := by
  obtain ⟨h1, h2, h3, h4, -⟩ := h
  apply length_eq_of_links_isSome
  intro z
  by_cases hzc : z = c
  · rw [hzc, h1]; simp
  by_cases hzn : z = np
  · rw [hzn, h2]; simp
  by_cases hzq : (a.links c).map (fun l => l.parent) = some (some z)
  · rw [h3 z hzq]; simp
  · rw [h4 z hzc hzn hzq]

theorem links_append_old {ctx : CoglContext} {q : Nat} (node : CoglPipeline)
    (hq : q ≠ ctx.pipelines.length) :
    ({ ctx with pipelines := ctx.pipelines ++ [node] } : CoglContext).links q = ctx.links q := by
  simp only [CoglContext.links]
  rcases Nat.lt_or_gt_of_ne hq with hlt | hgt
  · rw [pipeline_append_old node hlt]
  · rw [pipeline_append_beyond node hgt, pipeline_none_of_length_le (Nat.le_of_lt hgt)]

theorem links_lt_length {ctx : CoglContext} {q : Nat} {l : PipelineLinks}
    (h : ctx.links q = some l) : q < ctx.pipelines.length := by
  obtain ⟨node, hn, -⟩ := links_eq_some h
  exact pipeline_lt_length hn

/-- What `_cogl_pipeline_copy` does to the tree: the copy is a new pipeline at the
head of the child list of its source. -/
theorem pipeline_copy_links {ctx c1 : CoglContext} {fuel src np : Nat} {w : Bool}
    {ls : PipelineLinks} (hs : ctx.links src = some ls)
    (h : _cogl_pipeline_copy fuel ctx src w = some (c1, np)) :
    np = ctx.pipelines.length ∧
    c1.links np = some {
      parent := some src, children := [], has_parent_reference := (!w), is_weak := w,
      destroy_callback := ctx.slice_pipeline.destroy_callback,
      destroy_data := ctx.slice_pipeline.destroy_data } ∧
    c1.links src = some { ls with children := np :: ls.children } ∧
    (∀ z, z ≠ np → z ≠ src → c1.links z = ctx.links z) ∧
    c1.destroyed = ctx.destroyed ∧
    c1.pipelines.length = ctx.pipelines.length + 1 := by
  have hlt := links_lt_length hs
  have hne : ctx.pipelines.length ≠ src := Nat.ne_of_gt hlt
  unfold _cogl_pipeline_copy at h
  split at h
  · exact absurd h (by simp)
  rename_i srcnode hsrc
  dsimp only at h
  split at h
  · exact absurd h (by simp)
  rename_i c2 h2
  have r := set_parent_links (links_of_pipeline (pipeline_append_new ctx _))
    (by rw [links_append_old _ (Ne.symm hne)]; exact hs) hne
    (fun q hq => absurd hq (by simp [CoglPipeline.links])) h2
  split at h
  · exact absurd h (by simp)
  rename_i c3 h3
  have s3 : same_skeleton c2 c3 := by
    split at h3
    · exact promote_weak_ancestors_skeleton _ _ _ _ h3
    · rw [← Option.some.inj h3]; exact same_skeleton_refl _
  split at h
  · exact absurd h (by simp)
  rename_i created hcr
  simp only [Option.some.injEq, Prod.mk.injEq] at h
  obtain ⟨h4, h5⟩ := h
  have s4 : same_skeleton c3 c1 := by
    rw [← h4]
    exact same_skeleton_set hcr rfl
  have s := same_skeleton_trans s3 s4
  obtain ⟨r1, r2, -, r4, r5⟩ := r
  refine ⟨h5.symm, ?_, ?_, ?_, ?_, ?_⟩
  · rw [← h5, s.1, r1, links_of_pipeline (pipeline_append_new ctx _)]
    rfl
  · rw [← h5, s.1, r2, links_append_old _ (Ne.symm hne), hs]
    rfl
  · intro z hzn hzs
    rw [← h5] at hzn
    rw [s.1, r4 z hzn hzs, links_append_old _ hzn]
    rw [links_of_pipeline (pipeline_append_new ctx _)]
    simp [CoglPipeline.links]
  · rw [s.2, r5]
    rfl
  · rw [same_skeleton_length s, reparented_length ⟨r1, r2, fun _ hq => absurd hq (by
      rw [links_of_pipeline (pipeline_append_new ctx _)]; simp [CoglPipeline.links]), r4, r5⟩]
    simp

theorem links_children_eta (l : PipelineLinks) : { l with children := l.children } = l := rfl

/-- The walk of `reparent_children_cb` over the children `cs` of `p`: each of them
becomes a child of `np` with a strong edge and leaves the child list of `p`. -/
theorem reparent_children_fold {fuel p np : Nat} (hpn : p ≠ np) :
    ∀ (cs : List Nat) (ctx ctx2 : CoglContext) (lp ln : PipelineLinks),
      cs.Nodup → p ∉ cs → np ∉ cs →
      ctx.links p = some lp → ctx.links np = some ln → lp.children.Nodup →
      (∀ c ∈ cs, c ∈ lp.children ∧ (ctx.links c).map (fun l => l.parent) = some (some p)) →
      cs.foldlM (reparent_children_cb fuel np) ctx = some ctx2 →
      ctx2.links p = some { lp with
        children := (lp.children.filter (fun c => decide (c ∉ cs))) } ∧
      ctx2.links np = some { ln with children := cs.reverse ++ ln.children } ∧
      (∀ c ∈ cs, ctx2.links c = (ctx.links c).map
        (fun l => { l with parent := some np, has_parent_reference := true })) ∧
      (∀ z, z ∉ cs → z ≠ p → z ≠ np → ctx2.links z = ctx.links z) ∧
      ctx2.destroyed = ctx.destroyed ∧ ctx2.pipelines.length = ctx.pipelines.length := by
  intro cs
  induction cs with
  | nil =>
    intro ctx ctx2 lp ln _ _ _ hp hn _ _ h
    simp only [List.foldlM_nil, Option.pure_def, Option.some.injEq] at h
    subst h
    refine ⟨?_, ?_, fun c hc => absurd hc (by simp), fun _ _ _ _ => rfl, rfl, rfl⟩
    · rw [hp]
      simp
    · rw [hn]
      simp
  | cons c rest ih =>
    intro ctx ctx2 lp ln hnd hpcs hncs hp hn hlpn hall h
    rw [List.foldlM_cons] at h
    cases h1 : reparent_children_cb fuel np ctx c with
    | none => rw [h1] at h; exact absurd h (by simp)
    | some c1 =>
      rw [h1] at h
      simp only [Option.bind_eq_bind, Option.some_bind] at h
      obtain ⟨hcmem, hcpar⟩ := hall c (List.mem_cons_self c rest)
      have hcp : c ≠ p := fun hh => hpcs (by rw [← hh]; exact List.mem_cons_self c rest)
      have hcn : c ≠ np := fun hh => hncs (by rw [← hh]; exact List.mem_cons_self c rest)
      obtain ⟨lc, hlc, hlcp⟩ : ∃ lc, ctx.links c = some lc ∧ lc.parent = some p := by
        cases hl : ctx.links c with
        | none => rw [hl] at hcpar; exact absurd hcpar (by simp)
        | some lc =>
          rw [hl] at hcpar
          exact ⟨lc, rfl, Option.some.inj hcpar⟩
      have r := set_parent_links hlc hn hcn (fun q hq => by
        rw [hlcp] at hq
        have : p = q := Option.some.inj hq
        subst this
        exact ⟨Ne.symm hcp, hpn, lp, hp, hcmem⟩) h1
      obtain ⟨r1, r2, r3, r4, r5⟩ := r
      have r3p := r3 p hcpar
      rw [hp] at r3p
      rw [hn] at r2
      have hnd2 := List.nodup_cons.mp hnd
      have hrest : ∀ c2 ∈ rest, c2 ≠ c := fun c2 h2 hh => hnd2.1 (hh ▸ h2)
      have hprest : p ∉ rest := fun hh => hpcs (List.mem_cons_of_mem c hh)
      have hnrest : np ∉ rest := fun hh => hncs (List.mem_cons_of_mem c hh)
      have hsame : ∀ z, z ≠ c → z ≠ p → z ≠ np → c1.links z = ctx.links z := by
        intro z hzc hzp hzn
        refine r4 z hzc hzn ?_
        rw [hcpar]
        intro hh
        exact hzp (Option.some.inj (Option.some.inj hh)).symm
      obtain ⟨i1, i2, i3, i4, i5, i6⟩ := ih c1 ctx2 _ _ hnd2.2 hprest hnrest r3p r2
        (List.Nodup.erase c hlpn)
        (fun c2 h2 => by
          obtain ⟨hm, hpar2⟩ := hall c2 (List.mem_cons_of_mem c h2)
          have hc2p : c2 ≠ p := fun hh => hprest (hh ▸ h2)
          have hc2n : c2 ≠ np := fun hh => hnrest (hh ▸ h2)
          refine ⟨(List.mem_erase_of_ne (hrest c2 h2)).mpr hm, ?_⟩
          rw [hsame c2 (hrest c2 h2) hc2p hc2n]
          exact hpar2) h
      refine ⟨?_, ?_, ?_, ?_, ?_, ?_⟩
      · rw [i1]
        simp only [Option.some.injEq]
        rw [erase_filter_not_mem hlpn c rest]
      · rw [i2]
        simp
      · intro c2 h2
        rcases List.mem_cons.mp h2 with h2c | h2r
        · subst h2c
          rw [i4 c2 hnd2.1 hcp hcn, r1]
        · have hc2p : c2 ≠ p := fun hh => hprest (hh ▸ h2r)
          have hc2n : c2 ≠ np := fun hh => hnrest (hh ▸ h2r)
          rw [i3 c2 h2r, hsame c2 (hrest c2 h2r) hc2p hc2n]
      · intro z hz hzp hzn
        rw [List.mem_cons, not_or] at hz
        rw [i4 z hz.2 hzp hzn, hsame z hz.1 hzp hzn]
      · rw [i5, r5]
      · rw [i6, reparented_length ⟨r1, by rw [hn]; exact r2, r3, r4, r5⟩]

/-- The walk of `destroy_weak_children_cb` over the children of `p`, read against a
context `ctx` with the same tree as the one it starts from: the subtrees of the weak
children are cut loose, the other children stay, and the destroy callbacks are
called children first. -/
theorem destroy_phase {n f p : Nat} {ctx c2 c3 : CoglContext} {ids : List Nat}
    (hs : same_skeleton ctx c2)
    (htree : subtree_post ctx (f + 1) p = some ids) (hnd : ids.Nodup)
    (hcons : links_consistent ctx ids)
    (h : _cogl_pipeline_node_foreach_child c2 p (destroy_weak_children_cb n) c2 = some c3) :
    ∃ lp below, ctx.links p = some lp ∧ ids = below ++ [p] ∧
      subtree_post_list (subtree_post ctx f) lp.children = some below ∧
      (∀ y ∈ weak_subtrees ctx (n - 1) f lp.children,
        c3.links y = (ctx.links y).map PipelineLinks.cut) ∧
      c3.links p = some { lp with
        children := (lp.children.filter
          (fun c => decide (c ∉ weak_children ctx (n - 1) lp.children))) } ∧
      (∀ z, z ∉ weak_subtrees ctx (n - 1) f lp.children → z ≠ p →
        c3.links z = ctx.links z) ∧
      c3.destroyed = ctx.destroyed ++
        (weak_subtrees ctx (n - 1) f lp.children).map (destroy_event ctx) ∧
      c3.pipelines.length = ctx.pipelines.length ∧
      (∀ y ∈ weak_subtrees ctx (n - 1) f lp.children, y ∈ below) ∧
      (∀ c ∈ lp.children, ∃ b, _cogl_pipeline_is_weak ctx (n - 1) c = some b) := by
  obtain ⟨node, below, hp, hbelow, hids⟩ := subtree_post_step htree
  subst hids
  have hnb : below.Nodup := (List.nodup_append.mp hnd).1
  have hpb : p ∉ below := fun hh =>
    (List.nodup_append.mp hnd).2.2 hh (List.mem_singleton_self p)
  obtain ⟨node2, hp2, hl2⟩ := same_skeleton_pipeline hs hp
  have hch2 : node2.children = node.children := by
    have : node2.links.children = node.links.children := by rw [hl2]
    exact this
  unfold _cogl_pipeline_node_foreach_child at h
  rw [hp2] at h
  simp only [hch2] at h
  obtain ⟨w1, w2, w3⟩ := @weak_subtrees_congr ctx c2 (n - 1) f node.children below hbelow
    (fun y _ => hs.1 y)
  have hcons2 : links_consistent c2 below := by
    intro y hy l hl c hc
    rw [hs.1 y] at hl
    rw [hs.1 c]
    exact hcons y (List.mem_append_left _ hy) l hl c hc
  have hpar2 : ∀ c ∈ node.children, c ∈ node2.links.children ∧
      (c2.links c).map (fun k => k.parent) = some (some p) := by
    intro c hc
    refine ⟨by rw [hl2]; exact hc, ?_⟩
    rw [hs.1 c]
    exact hcons p (by simp) node.links (links_of_pipeline hp) c hc
  have hnodup : node2.links.children.Nodup := by
    rw [hl2]
    exact subtree_tops_nodup node.children below hbelow hnb
  obtain ⟨r1, r2, r3, r4, r5, r6, r7⟩ := destroy_children_fold (destroy_weak_children_spec n f)
    node.children below c2 c3 node2.links w3 hnb hpb hcons2 (links_of_pipeline hp2) hnodup
    hpar2 h
  rw [w1] at r1 r3 r4 r6
  rw [w2, hl2] at r2
  refine ⟨node.links, below, links_of_pipeline hp, rfl, hbelow, ?_, r2, ?_, ?_, ?_, r6, ?_⟩
  · intro y hy
    rw [r1 y hy, hs.1 y]
  · intro z hz hzp
    rw [r3 z hz hzp, hs.1 z]
  · rw [r4, hs.2]
    congr 1
    apply List.map_congr_left
    intro y _
    exact destroy_event_congr (by rw [hs.1 y])
  · rw [r5, same_skeleton_length hs]
  · intro c hc
    obtain ⟨b, hb⟩ := r7 c hc
    obtain ⟨part, hpart, -⟩ := subtree_post_list_mem node.children below hbelow c hc
    rw [(is_weak_congr f c part hpart (fun y _ => hs.1 y) (n - 1)).2] at hb
    exact ⟨b, hb⟩

/-- The copy-on-write block of `_cogl_pipeline_pre_change_notify`, on a pipeline `p`
with parent `par`: a new pipeline is made below `par`, all the children of `p` are
moved below it with a strong edge, and nothing else changes in the tree. -/
theorem copy_on_write_links {notify : PreChangeNotify} {fuel p par na : Nat}
    {c3 c5 : CoglContext} {lp : PipelineLinks}
    (hn : ∀ dest c ch oc flc, (∀ l, c.links dest = some l → l.children = []) →
      returned (notify c dest ch oc flc) (same_skeleton c))
    (hp : c3.links p = some lp) (hpp : lp.parent = some par)
    (hne : p ≠ par) (hnd : lp.children.Nodup) (hpc : p ∉ lp.children)
    (hparc : par ∉ lp.children)
    (hch : ∀ c ∈ lp.children, (c3.links c).map (fun l => l.parent) = some (some p))
    (h : pre_change_notify_copy_on_write notify fuel c3 p = some (c5, na)) :
    na = c3.pipelines.length ∧
    c5.links p = some { lp with children := [] } ∧
    c5.links na = some {
      parent := some par, children := lp.children.reverse, has_parent_reference := true,
      is_weak := false, destroy_callback := c3.slice_pipeline.destroy_callback,
      destroy_data := c3.slice_pipeline.destroy_data } ∧
    c5.links par = (c3.links par).map (fun l => { l with children := na :: l.children }) ∧
    (∀ c ∈ lp.children, c5.links c = (c3.links c).map
      (fun l => { l with parent := some na, has_parent_reference := true })) ∧
    (∀ z, z ∉ lp.children → z ≠ p → z ≠ na → z ≠ par → c5.links z = c3.links z) ∧
    c5.destroyed = c3.destroyed ∧ c5.pipelines.length = c3.pipelines.length + 1 := by
  unfold pre_change_notify_copy_on_write at h
  simp only [Option.bind_eq_bind, Option.pure_def] at h
  obtain ⟨node, hnode, h⟩ := Option.bind_eq_some.mp h
  obtain ⟨parent, hparent, h⟩ := Option.bind_eq_some.mp h
  obtain ⟨r1, hcopy, h⟩ := Option.bind_eq_some.mp h
  obtain ⟨c1, np⟩ := r1
  dsimp only at h
  obtain ⟨c2, hbread, h⟩ := Option.bind_eq_some.mp h
  obtain ⟨n2, hn2, h⟩ := Option.bind_eq_some.mp h
  obtain ⟨c3b, hdiff, h⟩ := Option.bind_eq_some.mp h
  obtain ⟨c4, hfold, h⟩ := Option.bind_eq_some.mp h
  obtain ⟨c6, hunref, h⟩ := Option.bind_eq_some.mp h
  simp only [Option.some.injEq, Prod.mk.injEq] at h
  obtain ⟨h5, hna⟩ := h
  subst h5
  subst hna
  have hnl : node.links = lp := by
    have := links_of_pipeline hnode
    rw [hp] at this
    exact (Option.some.inj this).symm
  have hparent2 : parent = par := by
    have : node.links.parent = some par := by rw [hnl]; exact hpp
    rw [show node.links.parent = node.parent from rfl, hparent] at this
    exact Option.some.inj this
  subst hparent2
  unfold cogl_pipeline_copy at hcopy
  obtain ⟨lpar, hpar⟩ : ∃ lpar, c3.links parent = some lpar := by
    cases hl : c3.pipeline parent with
    | none =>
      unfold _cogl_pipeline_copy at hcopy
      rw [hl] at hcopy
      exact absurd hcopy (by simp)
    | some v => exact ⟨_, links_of_pipeline hl⟩
  obtain ⟨k1, k2, k3, k4, k5, k6⟩ := pipeline_copy_links hpar hcopy
  have hplt := links_lt_length hp
  have hpn : p ≠ np := by rw [k1]; exact Nat.ne_of_lt hplt
  have s2 : same_skeleton c1 c2 := set_static_breadcrumb_skeleton _ _ _ _ hbread
  have hleaf2 : ∀ l, c2.links np = some l → l.children = [] := by
    intro l hl
    rw [s2.1, k2] at hl
    rw [← Option.some.inj hl]
  have s3 : same_skeleton c2 c3b :=
    copy_differences_with_skeleton (hn np) fuel c2 p _ hleaf2 _ hdiff
  have s13 := same_skeleton_trans s2 s3
  have hchlt : ∀ c ∈ lp.children, c ≠ np := by
    intro c hc hcn
    have := hch c hc
    cases hl : c3.links c with
    | none => rw [hl] at this; exact absurd this (by simp)
    | some l =>
      have hlt := links_lt_length hl
      rw [hcn, k1] at hlt
      exact absurd hlt (Nat.lt_irrefl _)
  have hp3 : c3b.links p = some lp := by rw [s13.1, k4 p hpn hne, hp]
  have hnp3 : c3b.links np = some {
      parent := some parent, children := [], has_parent_reference := (!false),
      is_weak := false, destroy_callback := c3.slice_pipeline.destroy_callback,
      destroy_data := c3.slice_pipeline.destroy_data } := by rw [s13.1, k2]
  have hsame3 : ∀ c ∈ lp.children, c3b.links c = c3.links c := by
    intro c hc
    rw [s13.1, k4 c (hchlt c hc) (fun hh => hparc (hh ▸ hc))]
  unfold _cogl_pipeline_node_foreach_child at hfold
  obtain ⟨n3, hn3, hn3l⟩ := links_eq_some hp3
  rw [hn3] at hfold
  simp only [show n3.children = lp.children from by rw [← hn3l]; rfl] at hfold
  obtain ⟨f1, f2, f3, f4, f5, f6⟩ := reparent_children_fold hpn lp.children c3b c4 lp _ hnd hpc
    (fun hh => hchlt np hh rfl) hp3 hnp3 hnd
    (fun c hc => ⟨hc, by rw [hsame3 c hc]; exact hch c hc⟩) hfold
  have s5 : same_skeleton c4 c6 := object_unref_skeleton _ _ _ hunref
  refine ⟨k1, ?_, ?_, ?_, ?_, ?_, ?_, ?_⟩
  · rw [s5.1, f1]
    simp only [Option.some.injEq, PipelineLinks.mk.injEq, true_and, and_true]
    rw [List.filter_eq_nil_iff]
    intro c hc
    simpa using hc
  · rw [s5.1, f2]
    simp
  · rw [s5.1, f4 parent hparc (Ne.symm hne) (by
      intro hh
      have := links_lt_length hpar
      rw [hh, k1] at this
      exact absurd this (Nat.lt_irrefl _)), s13.1, k3, hpar]
    rfl
  · intro c hc
    rw [s5.1, f3 c hc, hsame3 c hc]
  · intro z hz hzp hzn hzpar
    rw [s5.1, f4 z hz hzp hzn, s13.1, k4 z hzn hzpar]
  · rw [s5.2, f5, s13.2, k5]
  · rw [same_skeleton_length s5, f6, same_skeleton_length s13, k6]

theorem weak_subtrees_subset {ctx : CoglContext} {w f : Nat} :
    ∀ (cs below : List Nat), subtree_post_list (subtree_post ctx f) cs = some below →
      ∀ y ∈ weak_subtrees ctx w f cs, y ∈ below := by
  intro cs
  induction cs with
  | nil =>
    intro below _ y hy
    simp [weak_subtrees] at hy
  | cons c rest ih =>
    intro below h y hy
    obtain ⟨first, others, hc, hr, hb⟩ := subtree_post_list_cons h
    subst hb
    rw [weak_subtrees] at hy
    rcases List.mem_append.mp hy with h1 | h2
    · split at h1
      · rw [hc] at h1
        exact List.mem_append_left _ (by simpa using h1)
      · simp at h1
    · exact List.mem_append_right _ (ih others hr y h2)

/-- A child that `_cogl_pipeline_is_weak` does not accept is in none of the subtrees
of its weak siblings. -/
theorem strong_child_not_destroyed {ctx : CoglContext} {w f : Nat} :
    ∀ (cs below : List Nat), subtree_post_list (subtree_post ctx f) cs = some below →
      below.Nodup → ∀ c ∈ cs, c ∉ weak_children ctx w cs → c ∉ weak_subtrees ctx w f cs := by
  intro cs
  induction cs with
  | nil =>
    intro below _ _ c hc
    exact absurd hc (by simp)
  | cons a rest ih =>
    intro below h hnd c hc hnw hmem
    obtain ⟨first, others, ha, hr, hb⟩ := subtree_post_list_cons h
    subst hb
    have hdis := (List.nodup_append.mp hnd).2.2
    have hno := (List.nodup_append.mp hnd).2.1
    have hafirst : a ∈ first := (subtree_post_member f a first ha).1
    rw [weak_subtrees] at hmem
    have hnw2 : c ∉ weak_children ctx w rest := by
      intro hh
      apply hnw
      unfold weak_children at hh ⊢
      rw [List.mem_filter] at hh ⊢
      exact ⟨List.mem_cons_of_mem a hh.1, hh.2⟩
    rcases List.mem_append.mp hmem with h1 | h2
    · split at h1
      · rename_i hweak
        rw [ha] at h1
        have h1f : c ∈ first := by simpa using h1
        rcases List.mem_cons.mp hc with hca | hcr
        · apply hnw
          unfold weak_children
          rw [List.mem_filter]
          exact ⟨hc, by rw [hca]; simpa using hweak⟩
        · exact hdis h1f (subtree_top_mem hr hcr)
      · simp at h1
    · rcases List.mem_cons.mp hc with hca | hcr
      · rw [hca] at h2
        exact hdis hafirst (weak_subtrees_subset rest others hr a h2)
      · exact ih others hr hno c hcr hnw2 h2

theorem is_weak_add {ctx : CoglContext} {g x : Nat} {b : Bool}
    (h : _cogl_pipeline_is_weak ctx g x = some b) :
    ∀ k, _cogl_pipeline_is_weak ctx (g + k) x = some b := by
  intro k
  induction k with
  | zero => exact h
  | succ k ih => exact (is_weak_mono ctx (g + k) x).2 b ih

/-- The answer of `_cogl_pipeline_is_weak` does not depend on the fuel. -/
theorem is_weak_agree {ctx : CoglContext} {g1 g2 x : Nat} {b1 b2 : Bool}
    (h1 : _cogl_pipeline_is_weak ctx g1 x = some b1)
    (h2 : _cogl_pipeline_is_weak ctx g2 x = some b2) : b1 = b2 := by
  rcases Nat.le_total g1 g2 with hle | hle
  · obtain ⟨k, hk⟩ := Nat.exists_eq_add_of_le hle
    have := is_weak_add h1 k
    rw [← hk, h2] at this
    exact (Option.some.inj this).symm
  · obtain ⟨k, hk⟩ := Nat.exists_eq_add_of_le hle
    have := is_weak_add h2 k
    rw [← hk, h1] at this
    exact Option.some.inj this

theorem subtree_post_list_elem {ctx : CoglContext} {f : Nat} :
    ∀ (cs below : List Nat), subtree_post_list (subtree_post ctx f) cs = some below →
      ∀ y ∈ below, ∃ c ∈ cs, ∃ part, subtree_post ctx f c = some part ∧ y ∈ part := by
  intro cs
  induction cs with
  | nil =>
    intro below h y hy
    simp only [subtree_post_list, Option.some.injEq] at h
    rw [← h] at hy
    exact absurd hy (by simp)
  | cons c rest ih =>
    intro below h y hy
    obtain ⟨first, others, hc, hr, hb⟩ := subtree_post_list_cons h
    subst hb
    rcases List.mem_append.mp hy with h1 | h2
    · exact ⟨c, List.mem_cons_self c rest, first, hc, h1⟩
    · obtain ⟨c2, hc2, part, hp, hyp⟩ := ih others hr y h2
      exact ⟨c2, List.mem_cons_of_mem c hc2, part, hp, hyp⟩

/-- Every pipeline of a subtree is in the heap. -/
theorem subtree_post_exists {ctx : CoglContext} :
    ∀ (f x : Nat) (ids : List Nat), subtree_post ctx f x = some ids →
      ∀ y ∈ ids, ∃ l, ctx.links y = some l := by
  intro f
  induction f with
  | zero =>
    intro x ids h
    simp [subtree_post] at h
  | succ k ih =>
    intro x ids h y hy
    obtain ⟨node, below, hx, hbelow, hids⟩ := subtree_post_step h
    subst hids
    rcases List.mem_append.mp hy with h1 | h2
    · obtain ⟨c, _, part, hp, hyp⟩ := subtree_post_list_elem node.children below hbelow y h1
      exact ih c part hp y hyp
    · rw [List.mem_singleton] at h2
      subst h2
      exact ⟨_, links_of_pipeline hx⟩

/-- What `_cogl_pipeline_pre_change_notify` does to the tree around `p`, whose
subtree is `ids`: the subtrees of the weak children are destroyed, children first;
if children remain, a new pipeline is made below the parent of `p` and they are
moved below it; `p` ends without children. -/
theorem pre_change_notify_tree {fuel f p : Nat} {ctx ctx2 : CoglContext} {change : Nat}
    {oc : Option CoglColor} {flc : Bool} {ids : List Nat}
    (htree : subtree_post ctx (f + 1) p = some ids) (hnd : ids.Nodup)
    (hcons : links_consistent ctx ids)
    (hout : ∀ lp par, ctx.links p = some lp → lp.parent = some par → par ∉ ids)
    (h : _cogl_pipeline_pre_change_notify (fuel + 1) ctx p change oc flc = some ctx2) :
    ∃ lp below, ctx.links p = some lp ∧ ids = below ++ [p] ∧
      subtree_post_list (subtree_post ctx f) lp.children = some below ∧
      (∀ c ∈ lp.children, ∃ b, _cogl_pipeline_is_weak ctx (fuel - 1) c = some b) ∧
      (∀ y ∈ weak_subtrees ctx (fuel - 1) f lp.children,
        y ∈ below ∧ ctx2.links y = (ctx.links y).map PipelineLinks.cut) ∧
      ctx2.links p = some { lp with children := [] } ∧
      ctx2.destroyed = ctx.destroyed ++
        (weak_subtrees ctx (fuel - 1) f lp.children).map (destroy_event ctx) ∧
      (strong_children ctx (fuel - 1) lp.children = [] →
        ctx2.pipelines.length = ctx.pipelines.length ∧
        ∀ z, z ∉ weak_subtrees ctx (fuel - 1) f lp.children → z ≠ p →
          ctx2.links z = ctx.links z) ∧
      (strong_children ctx (fuel - 1) lp.children ≠ [] →
        ∃ par, lp.parent = some par ∧
          ctx2.pipelines.length = ctx.pipelines.length + 1 ∧
          (ctx2.links ctx.pipelines.length).map
            (fun l => (l.parent, l.children, l.has_parent_reference, l.is_weak)) =
            some (some par, (strong_children ctx (fuel - 1) lp.children).reverse, true, false) ∧
          ctx2.links par = (ctx.links par).map
            (fun l => { l with children := ctx.pipelines.length :: l.children }) ∧
          (∀ c ∈ strong_children ctx (fuel - 1) lp.children, ctx2.links c = (ctx.links c).map
            (fun l => { l with parent := some ctx.pipelines.length,
                               has_parent_reference := true })) ∧
          (∀ z, z ∉ ids → z ≠ ctx.pipelines.length → z ≠ par → ctx2.links z = ctx.links z)) := by
  rw [_cogl_pipeline_pre_change_notify] at h
  unfold pre_change_notify_with at h
  simp only [Option.bind_eq_bind] at h
  obtain ⟨c1, hj, h⟩ := Option.bind_eq_some.mp h
  obtain ⟨c2, hb, h⟩ := Option.bind_eq_some.mp h
  obtain ⟨c3, hd, h⟩ := Option.bind_eq_some.mp h
  obtain ⟨node3, hn3, h⟩ := Option.bind_eq_some.mp h
  obtain ⟨c5, hcow, h⟩ := Option.bind_eq_some.mp h
  have s12 : same_skeleton ctx c2 := same_skeleton_trans
    (pre_change_notify_journal_skeleton _ _ _ _ _ c1 hj)
    (pre_change_notify_backends_skeleton _ _ _ _ c2 hb)
  have s6 : same_skeleton c5 ctx2 := pre_change_notify_takeover_skeleton _ _ _ _ ctx2 h
  obtain ⟨lp, below, hlp, hids, hbelow, d1, d2, d3, d4, d5, d6, d7⟩ :=
    destroy_phase s12 htree hnd hcons hd
  subst hids
  have hnb : below.Nodup := (List.nodup_append.mp hnd).1
  have hpb : p ∉ below := fun hh =>
    (List.nodup_append.mp hnd).2.2 hh (List.mem_singleton_self p)
  have hchn : lp.children.Nodup := subtree_tops_nodup lp.children below hbelow hnb
  have hn3c : node3.children = strong_children ctx (fuel - 1) lp.children := by
    have := links_of_pipeline hn3
    rw [d2] at this
    have h2 := congrArg PipelineLinks.children (Option.some.inj this)
    exact h2.symm
  have hSsub : ∀ c ∈ strong_children ctx (fuel - 1) lp.children,
      c ∈ lp.children ∧ c ∉ weak_children ctx (fuel - 1) lp.children := by
    intro c hc
    unfold strong_children at hc
    rw [List.mem_filter] at hc
    exact ⟨hc.1, by simpa using hc.2⟩
  have hSW : ∀ c ∈ strong_children ctx (fuel - 1) lp.children,
      c ∉ weak_subtrees ctx (fuel - 1) f lp.children := fun c hc =>
    strong_child_not_destroyed lp.children below hbelow hnb c (hSsub c hc).1 (hSsub c hc).2
  have hSb : ∀ c ∈ strong_children ctx (fuel - 1) lp.children, c ∈ below := fun c hc =>
    subtree_top_mem hbelow (hSsub c hc).1
  have hp3 : c3.links p = some { lp with
      children := strong_children ctx (fuel - 1) lp.children } := d2
  by_cases hS : strong_children ctx (fuel - 1) lp.children = []
  · rw [hn3c, hS] at hcow
    simp only [ne_eq, not_true_eq_false, if_false, Option.some.injEq] at hcow
    subst hcow
    refine ⟨lp, below, hlp, rfl, hbelow, d7, ?_, ?_, ?_, ?_, fun hh => absurd hS hh⟩
    · intro y hy
      exact ⟨d6 y hy, by rw [s6.1, d1 y hy]⟩
    · rw [s6.1, hp3, hS]
    · rw [s6.2, d4]
    · intro _
      refine ⟨by rw [same_skeleton_length s6, d5], ?_⟩
      intro z hz hzp
      rw [s6.1, d3 z hz hzp]
  · rw [hn3c, if_pos hS] at hcow
    obtain ⟨r, hr, hr1⟩ := Option.map_eq_some'.mp hcow
    obtain ⟨c5b, na⟩ := r
    simp only at hr1
    subst hr1
    obtain ⟨par, hpar⟩ : ∃ par, lp.parent = some par := by
      cases hpp : lp.parent with
      | some par => exact ⟨par, rfl⟩
      | none =>
        unfold pre_change_notify_copy_on_write at hr
        have : node3.parent = none := by
          have h1 := links_of_pipeline hn3
          rw [hp3] at h1
          have h2 := congrArg PipelineLinks.parent (Option.some.inj h1)
          exact h2.symm.trans hpp
        simp only [Option.bind_eq_bind, hn3, Option.some_bind, this, Option.none_bind] at hr
        exact absurd hr (by simp)
    have hparids := hout lp par hlp hpar
    have hparb : par ∉ below := fun hh => hparids (List.mem_append_left _ hh)
    have hparp : par ≠ p := fun hh => hparids (by rw [hh]; simp)
    have hsl : ∀ c ∈ strong_children ctx (fuel - 1) lp.children, c3.links c = ctx.links c :=
      fun c hc => d3 c (hSW c hc) (fun hh => hpb (hh ▸ hSb c hc))
    obtain ⟨k1, k2, k3, k4, k5, k6, k7, k8⟩ := copy_on_write_links
      (fun dest c ch oc flc hl => pre_change_notify_leaf fuel c dest ch oc flc hl)
      hp3 hpar (Ne.symm hparp) (List.Nodup.filter _ hchn)
      (fun hh => hpb (hSb p hh)) (fun hh => hparb (hSb par hh))
      (fun c hc => by
        rw [hsl c hc]
        exact hcons p (by simp) lp hlp c (hSsub c hc).1) hr
    rw [d5] at k1 k8
    subst k1
    have hWlt : ∀ y ∈ below, y ≠ ctx.pipelines.length := by
      intro y hy hh
      obtain ⟨l, hl⟩ := subtree_post_exists (f + 1) p _ htree y (List.mem_append_left _ hy)
      have := links_lt_length hl
      rw [hh] at this
      exact absurd this (Nat.lt_irrefl _)
    refine ⟨lp, below, hlp, rfl, hbelow, d7, ?_, ?_, ?_, fun hh => absurd hh hS, fun _ => ?_⟩
    · intro y hy
      refine ⟨d6 y hy, ?_⟩
      rw [s6.1, k6 y (fun hh => hSW y hh hy) (fun hh => hpb (hh ▸ d6 y hy))
        (hWlt y (d6 y hy)) (fun hh => hparb (hh ▸ d6 y hy)), d1 y hy]
    · rw [s6.1, k2]
    · rw [s6.2, k7, d4]
    · refine ⟨par, hpar, by rw [same_skeleton_length s6, k8], ?_, ?_, ?_, ?_⟩
      · rw [s6.1, k3]
        rfl
      · rw [s6.1, k4, d3 par (fun hh => hparb (d6 par hh)) hparp]
      · intro c hc
        rw [s6.1, k5 c hc, hsl c hc]
      · intro z hz hzn hzpar
        have hzb : z ∉ below := fun hh => hz (List.mem_append_left _ hh)
        have hzp : z ≠ p := fun hh => hz (by rw [hh]; simp)
        rw [s6.1, k6 z (fun hh => hzb (hSb z hh)) hzp hzn hzpar,
          d3 z (fun hh => hzb (d6 z hh)) hzp]

/-! ## Copy-on-write and weak children under a change -/

/-- The copy-on-write of `_cogl_pipeline_pre_change_notify` in a call that returns.
Let the subtree `ids` of `p` be a tree (no pipeline twice, every child pointing back
to its parent, the parent of `p` outside of it). Then `p` has no children afterwards.
For every child `c` of `p` that `_cogl_pipeline_is_weak` rejects (a child that is not
destroyed), `p` has a parent `par`, the slot `ctx.pipelines.length` was empty before
and holds a pipeline with parent `par` afterwards (the snapshot, which is not `p`),
and `c` has the snapshot as its parent with a strong edge (`has_parent_reference`).
When `_cogl_pipeline_is_weak` accepts every child of `p`, so that none is left after
their destruction, no pipeline is created. -/
theorem pre_change_notify_children_spec (fuel f p : Nat) (ctx ctx2 : CoglContext)
    (change : Nat) (oc : Option CoglColor) (flc : Bool) (ids : List Nat) (lp : PipelineLinks)
    (hret : _cogl_pipeline_pre_change_notify fuel ctx p change oc flc = some ctx2)
    (htree : subtree_post ctx f p = some ids) (hnd : ids.Nodup)
    (hcons : links_consistent ctx ids)
    (hp : ctx.links p = some lp) (hout : ∀ par, lp.parent = some par → par ∉ ids) :
    (ctx2.links p).map (fun l => l.children) = some [] ∧
    (∀ c ∈ lp.children, ∀ g, _cogl_pipeline_is_weak ctx g c = some false →
      ∃ par, lp.parent = some par ∧
        ctx.links ctx.pipelines.length = none ∧
        (ctx2.links ctx.pipelines.length).map (fun l => l.parent) = some (some par) ∧
        ctx.pipelines.length ≠ p ∧
        ctx2.links c = (ctx.links c).map
          (fun l => { l with parent := some ctx.pipelines.length,
                             has_parent_reference := true })) ∧
    ((∀ c ∈ lp.children, ∃ g, _cogl_pipeline_is_weak ctx g c = some true) →
      ctx2.pipelines.length = ctx.pipelines.length) := by
  cases fuel with
  | zero => exact absurd hret (by simp [_cogl_pipeline_pre_change_notify])
  | succ n =>
    cases f with
    | zero => exact absurd htree (by simp [subtree_post])
    | succ k =>
      obtain ⟨lp2, below, hlp2, hids, hbelow, m1, m2, m3, m4, m5, m6⟩ :=
        pre_change_notify_tree htree hnd hcons
          (fun l par hl hpar => hout par (by
            rw [hp] at hl
            rw [Option.some.inj hl]
            exact hpar)) hret
      rw [hp] at hlp2
      have hlp := Option.some.inj hlp2
      subst hlp
      refine ⟨by rw [m3]; rfl, ?_, ?_⟩
      · intro c hc g hg
        obtain ⟨b, hb⟩ := m1 c hc
        have hbf : b = false := is_weak_agree hb hg
        subst hbf
        have hcs : c ∈ strong_children ctx (n - 1) lp.children := by
          unfold strong_children weak_children
          rw [List.mem_filter]
          refine ⟨hc, ?_⟩
          simp [hb]
        obtain ⟨par, hpar, q1, q2, q3, q4, q5⟩ := m6 (List.ne_nil_of_mem hcs)
        refine ⟨par, hpar, ?_, ?_, ?_, q4 c hcs⟩
        · simp only [CoglContext.links, pipeline_none_of_length_le (Nat.le_refl _),
            Option.map_none']
        · have := congrArg (Option.map (fun t : Option Nat × List Nat × Bool × Bool => t.1)) q2
          simp only [Option.map_map, Option.map_some'] at this
          exact this
        · exact Ne.symm (Nat.ne_of_lt (links_lt_length hp))
      · intro hall
        refine (m5 ?_).1
        unfold strong_children weak_children
        rw [List.filter_eq_nil_iff]
        intro c hc
        obtain ⟨g, hg⟩ := hall c hc
        obtain ⟨b, hb⟩ := m1 c hc
        have hbt : b = true := is_weak_agree hb hg
        subst hbt
        simp only [decide_not, Bool.not_eq_true', decide_eq_false_iff_not, not_not]
        rw [List.mem_filter]
        exact ⟨hc, by simp [hb]⟩

theorem weak_subtrees_sublist {ctx : CoglContext} {w f : Nat} :
    ∀ (cs below : List Nat), subtree_post_list (subtree_post ctx f) cs = some below →
      (weak_subtrees ctx w f cs).Sublist below := by
  intro cs
  induction cs with
  | nil =>
    intro below _
    simp [weak_subtrees]
  | cons c rest ih =>
    intro below h
    obtain ⟨first, others, hc, hr, hb⟩ := subtree_post_list_cons h
    subst hb
    rw [weak_subtrees]
    refine List.Sublist.append ?_ (ih others hr)
    split
    · rw [hc]
      exact List.Sublist.refl _
    · exact List.nil_sublist _

/-- The subtree of a weak child is one stretch of what `weak_subtrees` lists. -/
theorem weak_child_split {ctx : CoglContext} {w f : Nat} :
    ∀ (cs below : List Nat), subtree_post_list (subtree_post ctx f) cs = some below →
      ∀ c ∈ cs, _cogl_pipeline_is_weak ctx w c = some true →
        ∃ sub W1 W2, subtree_post ctx f c = some sub ∧
          weak_subtrees ctx w f cs = W1 ++ sub ++ W2 := by
  intro cs
  induction cs with
  | nil =>
    intro below _ c hc
    exact absurd hc (by simp)
  | cons a rest ih =>
    intro below h c hc hw
    obtain ⟨first, others, ha, hr, hb⟩ := subtree_post_list_cons h
    subst hb
    rcases List.mem_cons.mp hc with hca | hcr
    · subst hca
      refine ⟨first, [], weak_subtrees ctx w f rest, ha, ?_⟩
      rw [(weak_subtrees_cons_true hw ha).1]
      simp
    · obtain ⟨sub, W1, W2, hsub, hW⟩ := ih others hr c hcr hw
      refine ⟨sub, (if _cogl_pipeline_is_weak ctx w a = some true
        then (subtree_post ctx f a).getD [] else []) ++ W1, W2, hsub, ?_⟩
      rw [weak_subtrees, hW]
      simp

theorem destroy_event_injective {ctx : CoglContext} {y wc : Nat} {lw : PipelineLinks}
    (hw : ctx.links wc = some lw) (h : destroy_event ctx y = destroy_event ctx wc) : y = wc := by
  rw [destroy_event_of_links hw] at h
  unfold destroy_event at h
  split at h
  · simp only [CoglEvent.destroy.injEq] at h
    exact h.2.1
  · exact absurd h (by simp)

theorem length_set_pipeline (ctx : CoglContext) (p : Nat) (v : CoglPipeline) :
    (ctx.set_pipeline p v).pipelines.length = ctx.pipelines.length := by
  simp [CoglContext.set_pipeline]

/-- What `_cogl_pipeline_node_unparent_real` leaves alone: the child list of the
node, and every pipeline but the node and its parent. -/
theorem unparent_frame {ctx ctx2 : CoglContext} {x : Nat}
    (hself : (ctx.links x).map (fun l => l.parent) ≠ some (some x))
    (h : _cogl_pipeline_node_unparent_real ctx x = some ctx2) :
    (ctx2.links x).map (fun l => l.children) = (ctx.links x).map (fun l => l.children) ∧
    (∀ z, z ≠ x → (ctx.links x).map (fun l => l.parent) ≠ some (some z) →
      ctx2.links z = ctx.links z) ∧
    ctx2.destroyed = ctx.destroyed ∧ ctx2.pipelines.length = ctx.pipelines.length := by
  unfold _cogl_pipeline_node_unparent_real at h
  split at h
  · exact absurd h (by simp)
  rename_i n hn
  split at h
  · rw [← Option.some.inj h]
    exact ⟨rfl, fun _ _ _ => rfl, rfl, rfl⟩
  rename_i parent hparent
  have hlp : (ctx.links x).map (fun l => l.parent) = some (some parent) := by
    rw [links_of_pipeline hn]
    simp only [Option.map_some']
    exact congrArg some hparent
  have hpx : parent ≠ x := by
    intro hh
    rw [hh] at hlp
    exact hself hlp
  split at h
  · exact absurd h (by simp)
  rename_i pn hpn
  split at h
  · rw [← Option.some.inj h]
    exact ⟨rfl, fun _ _ _ => rfl, rfl, rfl⟩
  dsimp only at h
  split at h
  · exact absurd h (by simp)
  rename_i c2 h2
  have s2 : same_skeleton (ctx.set_pipeline parent
      { pn with children := pn.children.erase x }) c2 := by
    split at h2
    · exact object_unref_skeleton _ _ _ h2
    · rw [← Option.some.inj h2]
      exact same_skeleton_refl _
  split at h
  · exact absurd h (by simp)
  rename_i n2 hn2
  rw [← Option.some.inj h]
  have hn2l : n2.links = n.links := by
    have h3 := links_of_pipeline hn2
    rw [s2.1, links_set_pipeline_ne _ hpx, links_of_pipeline hn] at h3
    exact (Option.some.inj h3).symm
  refine ⟨?_, ?_, ?_, ?_⟩
  · rw [links_set_pipeline_self hn2, links_of_pipeline hn]
    simp only [Option.map_some', Option.some.injEq]
    exact (congrArg PipelineLinks.children hn2l : n2.children = n.children)
  · intro z hzx hzp
    have hzp2 : z ≠ parent := by
      intro hh
      rw [hh] at hzp
      exact hzp hlp
    rw [links_set_pipeline_ne _ (Ne.symm hzx), s2.1, links_set_pipeline_ne _ (Ne.symm hzp2)]
  · show (c2.set_pipeline x _).destroyed = ctx.destroyed
    have : (c2.set_pipeline x { n2 with parent := none }).destroyed = c2.destroyed := rfl
    rw [this, s2.2]
    rfl
  · rw [length_set_pipeline, same_skeleton_length s2, length_set_pipeline]

/-- What `_cogl_pipeline_free` does to the tree around `p`, whose subtree is `ids`:
the subtrees of its children, all of them weak, are destroyed, children first. -/
theorem pipeline_free_tree {fuel f p : Nat} {ctx ctx3 : CoglContext} {ids : List Nat}
    (htree : subtree_post ctx (f + 1) p = some ids) (hnd : ids.Nodup)
    (hcons : links_consistent ctx ids)
    (hout : ∀ lp par, ctx.links p = some lp → lp.parent = some par → par ∉ ids)
    (h : _cogl_pipeline_free fuel ctx p = some ctx3) :
    ∃ lp below, ctx.links p = some lp ∧ ids = below ++ [p] ∧
      subtree_post_list (subtree_post ctx f) lp.children = some below ∧
      (∀ c ∈ lp.children, ∃ b, _cogl_pipeline_is_weak ctx (fuel - 1) c = some b) ∧
      strong_children ctx (fuel - 1) lp.children = [] ∧
      (∀ y ∈ weak_subtrees ctx (fuel - 1) f lp.children,
        y ∈ below ∧ ctx3.links y = (ctx.links y).map PipelineLinks.cut) ∧
      (ctx3.links p).map (fun l => l.children) = some [] ∧
      ctx3.destroyed = ctx.destroyed ++
        (weak_subtrees ctx (fuel - 1) f lp.children).map (destroy_event ctx) ∧
      ctx3.pipelines.length = ctx.pipelines.length := by
  unfold _cogl_pipeline_free at h
  split at h
  · exact absurd h (by simp)
  rename_i node hnode
  split at h
  · exact absurd h (by simp)
  rename_i c1 h1
  have s1 : same_skeleton ctx c1 := by
    split at h1
    · exact revert_weak_ancestors_skeleton _ _ _ _ h1
    · rw [← Option.some.inj h1]
      exact same_skeleton_refl _
  split at h
  · exact absurd h (by simp)
  rename_i c2 h2
  obtain ⟨lp, below, hlp, hids, hbelow, d1, d2, d3, d4, d5, d6, d7⟩ :=
    destroy_phase s1 htree hnd hcons h2
  subst hids
  have d2b : c2.links p = some { lp with
      children := strong_children ctx (fuel - 1) lp.children } := d2
  have hpb : p ∉ below := fun hh =>
    (List.nodup_append.mp hnd).2.2 hh (List.mem_singleton_self p)
  split at h
  · exact absurd h (by simp)
  rename_i node2 hnode2
  have hn2l : node2.links = { lp with
      children := strong_children ctx (fuel - 1) lp.children } := by
    have := links_of_pipeline hnode2
    rw [d2] at this
    exact (Option.some.inj this).symm
  have hn2c : node2.children = strong_children ctx (fuel - 1) lp.children :=
    congrArg PipelineLinks.children hn2l
  split at h
  · exact absurd h (by simp)
  rename_i hempty
  have hS : strong_children ctx (fuel - 1) lp.children = [] := by
    rw [← hn2c]
    exact not_not.mp hempty
  split at h
  · exact absurd h (by simp)
  rename_i c3 h3
  have hparent2 : (c2.links p).map (fun l => l.parent) =
      (ctx.links p).map (fun l => l.parent) := by
    rw [d2b, hlp]
    rfl
  have hself : (c2.links p).map (fun l => l.parent) ≠ some (some p) := by
    rw [hparent2, hlp]
    intro hh
    have : lp.parent = some p := Option.some.inj hh
    exact hout lp p hlp this (by simp)
  obtain ⟨u1, u2, u3, u4⟩ := unparent_frame hself h3
  split at h
  · exact absurd h (by simp)
  rename_i c4 h4
  have s4 : same_skeleton c3 c4 := by
    split at h4
    · exact returned_foldlM (fun c l hs => skeleton_step hs (object_unref_layer_skeleton c l))
        _ _ (same_skeleton_refl c3) _ h4
    · rw [← Option.some.inj h4]
      exact same_skeleton_refl _
  split at h
  · exact absurd h (by simp)
  rename_i c5 h5
  have s5 : same_skeleton c4 c5 := recursively_free_layer_caches_skeleton _ _ _ _ h5
  have s6 : same_skeleton c5 ctx3 := by
    rw [← Option.some.inj h]
    exact same_skeleton_of_eq rfl rfl
  have s := same_skeleton_trans s4 (same_skeleton_trans s5 s6)
  refine ⟨lp, below, hlp, rfl, hbelow, d7, hS, ?_, ?_, ?_, ?_⟩
  · intro y hy
    refine ⟨d6 y hy, ?_⟩
    have hyb := d6 y hy
    rw [s.1, u2 y (fun hh => hpb (hh ▸ hyb)) (by
      rw [hparent2, hlp]
      intro hh
      have : lp.parent = some y := Option.some.inj hh
      exact hout lp y hlp this (List.mem_append_left _ hyb)), d1 y hy]
  · rw [s.1, u1, d2b, hS]
    rfl
  · rw [s.2, u3, d4]
  · rw [same_skeleton_length s, u4, d5]

/-- The calls of destroy callbacks listed by `weak_subtrees`, around the call for a
weak child `wc`: it comes once, right after the calls for the pipelines below
`wc`. -/
theorem weak_child_events {ctx : CoglContext} {w f wc : Nat} {cs below dsc : List Nat}
    {lw : PipelineLinks}
    (hbelow : subtree_post_list (subtree_post ctx f) cs = some below) (hnb : below.Nodup)
    (hc : wc ∈ cs) (hweak : _cogl_pipeline_is_weak ctx w wc = some true)
    (hw : ctx.links wc = some lw) (hsub : subtree_post ctx f wc = some (dsc ++ [wc])) :
    wc ∈ weak_subtrees ctx w f cs ∧
    ∃ pre post, (weak_subtrees ctx w f cs).map (destroy_event ctx) =
        pre ++ (dsc.map (destroy_event ctx) ++
          [CoglEvent.destroy lw.destroy_callback wc lw.destroy_data]) ++ post ∧
      CoglEvent.destroy lw.destroy_callback wc lw.destroy_data ∉ pre ∧
      CoglEvent.destroy lw.destroy_callback wc lw.destroy_data ∉ dsc.map (destroy_event ctx) ∧
      CoglEvent.destroy lw.destroy_callback wc lw.destroy_data ∉ post := by
  obtain ⟨sub, W1, W2, hsub2, hW⟩ := weak_child_split cs below hbelow wc hc hweak
  rw [hsub] at hsub2
  have hs := Option.some.inj hsub2
  subst hs
  have hnodup : (weak_subtrees ctx w f cs).Nodup :=
    List.Nodup.sublist (weak_subtrees_sublist cs below hbelow) hnb
  rw [hW] at hnodup
  have hev := destroy_event_of_links hw
  have hnot : ∀ l : List Nat, wc ∉ l →
      CoglEvent.destroy lw.destroy_callback wc lw.destroy_data ∉ l.map (destroy_event ctx) := by
    intro l hl hmem
    obtain ⟨y, hy, hye⟩ := List.mem_map.mp hmem
    rw [← hev] at hye
    rw [destroy_event_injective hw hye] at hy
    exact hl hy
  have n1 := List.nodup_append.mp hnodup
  have n2 := List.nodup_append.mp n1.1
  have n3 := List.nodup_append.mp n2.2.1
  have hwsub : wc ∈ dsc ++ [wc] := by simp
  refine ⟨by rw [hW]; simp, W1.map (destroy_event ctx), W2.map (destroy_event ctx), ?_,
    hnot W1 (fun hh => n2.2.2 hh hwsub), hnot dsc (fun hh => n3.2.2 hh (by simp)),
    hnot W2 (fun hh => n1.2.2 (List.mem_append_right _ hwsub) hh)⟩
  rw [hW]
  simp only [List.map_append, List.map_cons, List.map_nil, hev]

/-- The destruction of a weak child in a call that returns. Let the subtree `ids` of
`p` be a tree (no pipeline twice, every child pointing back to its parent, the parent
of `p` outside of it), and let `wc` be a child of `p` that `_cogl_pipeline_is_weak` accepts
(weak, without strong children), with destroy callback and data as in its record
`lw` (as `_cogl_pipeline_weak_copy` stores them). Then the subtree of `wc` is
`dsc ++ [wc]`, and whenever `_cogl_pipeline_pre_change_notify` on `p` or
`_cogl_pipeline_free` on `p` returns, the destroy callback of `wc` was called once
in it, right after the destroy callbacks of the pipelines `dsc` below `wc`; `wc` has
no parent and is not in the child list of `p`. No pipeline is created by the free,
and none by the change when all the children of `p` are weak in this way. -/
theorem weak_child_destroyed_spec (f p wc g : Nat) (ctx : CoglContext) (ids : List Nat)
    (lp lw : PipelineLinks)
    (htree : subtree_post ctx f p = some ids) (hnd : ids.Nodup)
    (hcons : links_consistent ctx ids)
    (hp : ctx.links p = some lp) (hout : ∀ par, lp.parent = some par → par ∉ ids)
    (hchild : wc ∈ lp.children) (hw : ctx.links wc = some lw)
    (hweak : _cogl_pipeline_is_weak ctx g wc = some true) :
    ∃ dsc, subtree_post ctx (f - 1) wc = some (dsc ++ [wc]) ∧
      (∀ fuel change oc flc ctx2,
        _cogl_pipeline_pre_change_notify fuel ctx p change oc flc = some ctx2 →
        destroyed_after_descendants ctx ctx2 p wc dsc
          (CoglEvent.destroy lw.destroy_callback wc lw.destroy_data) ∧
        ((∀ c ∈ lp.children, ∃ k, _cogl_pipeline_is_weak ctx k c = some true) →
          ctx2.pipelines.length = ctx.pipelines.length)) ∧
      (∀ fuel ctx3, _cogl_pipeline_free fuel ctx p = some ctx3 →
        destroyed_after_descendants ctx ctx3 p wc dsc
          (CoglEvent.destroy lw.destroy_callback wc lw.destroy_data) ∧
        ctx3.pipelines.length = ctx.pipelines.length) := by
  cases f with
  | zero => exact absurd htree (by simp [subtree_post])
  | succ k =>
    have hout2 : ∀ l par, ctx.links p = some l → l.parent = some par → par ∉ ids := by
      intro l par hl hpar
      rw [hp] at hl
      rw [← Option.some.inj hl] at hpar
      exact hout par hpar
    obtain ⟨node, below, hnode, hbelow, hids⟩ := subtree_post_step htree
    have hnl : node.links = lp := by
      have := links_of_pipeline hnode
      rw [hp] at this
      exact (Option.some.inj this).symm
    have hbelow2 : subtree_post_list (subtree_post ctx k) lp.children = some below := by
      rw [← hnl]
      exact hbelow
    have hnb : below.Nodup := by
      rw [hids] at hnd
      exact (List.nodup_append.mp hnd).1
    obtain ⟨sub, hsub, -⟩ := subtree_post_list_mem lp.children below hbelow2 wc hchild
    obtain ⟨dsc, hdsc⟩ : ∃ dsc, sub = dsc ++ [wc] := by
      cases k with
      | zero => exact absurd hsub (by simp [subtree_post])
      | succ j =>
        obtain ⟨_, b2, _, _, hs⟩ := subtree_post_step hsub
        exact ⟨b2, hs⟩
    subst hdsc
    refine ⟨dsc, by simpa using hsub, ?_, ?_⟩
    · intro fuel change oc flc ctx2 hret
      cases fuel with
      | zero => exact absurd hret (by simp [_cogl_pipeline_pre_change_notify])
      | succ n =>
        obtain ⟨lp2, below2, hlp2, -, hbelow3, m1, m2, m3, m4, m5, -⟩ :=
          pre_change_notify_tree htree hnd hcons hout2 hret
        rw [hp] at hlp2
        have hlp := Option.some.inj hlp2
        subst hlp
        obtain ⟨b, hb⟩ := m1 wc hchild
        have hbt : b = true := is_weak_agree hb hweak
        subst hbt
        obtain ⟨hmem, pre, post, hev, e1, e2, e3⟩ :=
          weak_child_events hbelow2 hnb hchild hb hw hsub
        refine ⟨⟨⟨pre, post, by rw [m4, hev], e1, e2, e3⟩, ?_, ?_⟩, ?_⟩
        · rw [(m2 wc hmem).2, hw]
          rfl
        · rw [m3]
          simp
        · intro hall
          refine (m5 ?_).1
          unfold strong_children weak_children
          rw [List.filter_eq_nil_iff]
          intro c hc
          obtain ⟨g2, hg2⟩ := hall c hc
          obtain ⟨b2, hb2⟩ := m1 c hc
          have hbt : b2 = true := is_weak_agree hb2 hg2
          subst hbt
          simp only [decide_not, Bool.not_eq_true', decide_eq_false_iff_not, not_not]
          rw [List.mem_filter]
          exact ⟨hc, by simp [hb2]⟩
    · intro fuel ctx3 hret
      obtain ⟨lp2, below2, hlp2, -, hbelow3, m1, -, m2, m3, m4, m5⟩ :=
        pipeline_free_tree htree hnd hcons hout2 hret
      rw [hp] at hlp2
      have hlp := Option.some.inj hlp2
      subst hlp
      obtain ⟨b, hb⟩ := m1 wc hchild
      have hbt : b = true := is_weak_agree hb hweak
      subst hbt
      obtain ⟨hmem, pre, post, hev, e1, e2, e3⟩ :=
        weak_child_events hbelow2 hnb hchild hb hw hsub
      refine ⟨⟨⟨pre, post, by rw [m4, hev], e1, e2, e3⟩, ?_, ?_⟩, m5⟩
      · rw [(m2 wc hmem).2, hw]
        rfl
      · cases hl : ctx3.links p with
        | none => rw [hl] at m3; exact absurd m3 (by simp)
        | some l =>
          rw [hl] at m3
          simp only [Option.map_some', Option.some.injEq] at m3 ⊢
          rw [m3]
          simp

/-- C12: `_cogl_pipeline_get_layer (a, 3)` after `_cogl_pipeline_prune_to_n_layers
(a, 1)` on the pipeline `a` (1) that owns the layers of index 5 and 7. After the
pruning the one effective layer has index 5, on unit 0, and `a->layer_differences`
still lists the layer of index 7 on unit 1. The new layer of index 3 goes to unit 0
and the layer of index 5 is moved to unit 1, but the effective layers are then those
of index 3 and 7: on unit 1 the layers cache finds the layer of index 7 first.
Without the pruning, `_cogl_pipeline_get_layer (a, 6)` gives the layers of index 5,
6 and 7 on units 0, 1 and 2. -/
theorem get_layer_after_prune_finds_pruned_layer :
    (_cogl_pipeline_prune_to_n_layers 8 scenario_two_layers 1 1).bind
      (fun c => layer_indices_and_units 8 c 1) = some [(5, 0)] ∧
    ((_cogl_pipeline_prune_to_n_layers 8 scenario_two_layers 1 1).bind
      (fun c => _cogl_pipeline_get_layer 8 c 1 3)).bind
      (fun r => layer_indices_and_units 8 r.1 1) = some [(3, 0), (7, 1)] ∧
    ((_cogl_pipeline_prune_to_n_layers 8 scenario_two_layers 1 1).bind
      (fun c => _cogl_pipeline_get_layer 8 c 1 3)).bind
      (fun r => owned_indices_and_units 8 r.1 1) = some [(3, 0), (7, 1), (5, 1)] ∧
    ((_cogl_pipeline_prune_to_n_layers 8 scenario_two_layers 1 1).bind
      (fun c => _cogl_pipeline_get_layer 8 c 1 3)).bind
      (fun r => cogl_pipeline_get_n_layers 8 r.1 1) = some 2 ∧
    (_cogl_pipeline_get_layer 8 scenario_two_layers 1 6).bind
      (fun r => layer_indices_and_units 8 r.1 1) = some [(5, 0), (6, 1), (7, 2)] := by
  decide!

/-- C14: `_cogl_pipeline_get_layer (a, 3)` and `cogl_pipeline_remove_layer (a, 3)`
after `_cogl_pipeline_prune_to_n_layers (a, 1)` on the pipeline `a` (1) that owns the
layers of index 5 and 7. Before the two calls the one effective layer has index 5;
after them `n_layers` is 1 again but the one effective layer has index 7: the layer
of index 7 that the pruning left in `a->layer_differences` was moved to unit 0 by
the removal. Without the pruning, adding and removing the layer of index 6 gives
back the layers of index 5 and 7 on units 0 and 1. -/
theorem add_then_remove_after_prune_changes_layers :
    (_cogl_pipeline_prune_to_n_layers 8 scenario_two_layers 1 1).bind
      (fun c => layer_indices_and_units 8 c 1) = some [(5, 0)] ∧
    (((_cogl_pipeline_prune_to_n_layers 8 scenario_two_layers 1 1).bind
      (fun c => _cogl_pipeline_get_layer 8 c 1 3)).bind
      (fun r => cogl_pipeline_remove_layer 8 r.1 1 3)).bind
      (fun c => layer_indices_and_units 8 c 1) = some [(7, 0)] ∧
    (((_cogl_pipeline_prune_to_n_layers 8 scenario_two_layers 1 1).bind
      (fun c => _cogl_pipeline_get_layer 8 c 1 3)).bind
      (fun r => cogl_pipeline_remove_layer 8 r.1 1 3)).bind
      (fun c => cogl_pipeline_get_n_layers 8 c 1) = some 1 ∧
    layer_indices_and_units 8 scenario_two_layers 1 = some [(5, 0), (7, 1)] ∧
    ((_cogl_pipeline_get_layer 8 scenario_two_layers 1 6).bind
      (fun r => cogl_pipeline_remove_layer 8 r.1 1 6)).bind
      (fun c => layer_indices_and_units 8 c 1) = some [(5, 0), (7, 1)] := by
  decide!

/-! ## The layers of the pipelines under a change -/

theorem layers_kept_refl (d : Nat) (ctx : CoglContext) : layers_kept_but d ctx ctx :=
  ⟨Nat.le_refl _, Nat.le_refl _, fun _ _ _ => rfl, fun _ _ => rfl⟩

theorem layers_kept_trans {d : Nat} {a b c : CoglContext} (h1 : layers_kept_but d a b)
    (h2 : layers_kept_but d b c) : layers_kept_but d a c := by
  obtain ⟨p1, l1, q1, k1⟩ := h1
  obtain ⟨p2, l2, q2, k2⟩ := h2
  refine ⟨Nat.le_trans p1 p2, Nat.le_trans l1 l2, ?_, ?_⟩
  · intro q hq hd
    rw [q2 q (Nat.lt_of_lt_of_le hq p1) hd, q1 q hq hd]
  · intro L hL
    rw [k2 L (Nat.lt_of_lt_of_le hL l1), k1 L hL]

/-- A pipeline made after `ctx` is no exception among the pipelines of `ctx`. -/
theorem layers_kept_of_fresh {d d2 : Nat} {ctx c : CoglContext}
    (hd : ctx.pipelines.length ≤ d) (h : layers_kept_but d ctx c) : layers_kept_but d2 ctx c := by
  obtain ⟨p1, l1, q1, k1⟩ := h
  refine ⟨p1, l1, ?_, k1⟩
  intro q hq _
  exact q1 q hq (by omega)

theorem layers_kept_set {d p : Nat} {ctx : CoglContext} {old v : CoglPipeline}
    (h : ctx.pipeline p = some old) (hv : v.layer_state = old.layer_state) :
    layers_kept_but d ctx (ctx.set_pipeline p v) := by
  refine ⟨by rw [length_set_pipeline], Nat.le_refl _, ?_, fun _ _ => rfl⟩
  intro q _ _
  by_cases hpq : p = q
  · subst hpq
    rw [pipeline_set_pipeline_self h, h]
    simp only [Option.map_some', hv]
  · rw [pipeline_set_pipeline_ne _ hpq]

theorem layers_kept_set_at (d : Nat) (ctx : CoglContext) (v : CoglPipeline) :
    layers_kept_but d ctx (ctx.set_pipeline d v) := by
  refine ⟨by rw [length_set_pipeline], Nat.le_refl _, ?_, fun _ _ => rfl⟩
  intro q _ hqd
  rw [pipeline_set_pipeline_ne _ (Ne.symm hqd)]

theorem layer_set_layer (ctx : CoglContext) (l q : Nat) (v : CoglPipelineLayer) :
    (ctx.set_layer l v).layer q =
      if l = q then (if l < ctx.layers.length then some v else none) else ctx.layer q := by
  simp only [CoglContext.set_layer, CoglContext.layer, List.getElem?_set]

theorem layer_set_layer_self {ctx : CoglContext} {l : Nat} {old : CoglPipelineLayer}
    (h : ctx.layer l = some old) (v : CoglPipelineLayer) :
    (ctx.set_layer l v).layer l = some v := by
  have hlt : l < ctx.layers.length := by
    simp only [CoglContext.layer] at h
    exact (List.getElem?_eq_some.mp h).1
  rw [layer_set_layer]; simp [hlt]

theorem layer_set_layer_ne (ctx : CoglContext) {l q : Nat} (h : l ≠ q) (v : CoglPipelineLayer) :
    (ctx.set_layer l v).layer q = ctx.layer q := by
  rw [layer_set_layer]; simp [h]

theorem length_set_layer (ctx : CoglContext) (l : Nat) (v : CoglPipelineLayer) :
    (ctx.set_layer l v).layers.length = ctx.layers.length := by
  simp [CoglContext.set_layer]

theorem layer_lt_length {ctx : CoglContext} {l : Nat} {node : CoglPipelineLayer}
    (h : ctx.layer l = some node) : l < ctx.layers.length := by
  simp only [CoglContext.layer] at h
  exact (List.getElem?_eq_some.mp h).1

theorem layers_kept_set_layer {d l : Nat} {ctx : CoglContext} {old v : CoglPipelineLayer}
    (h : ctx.layer l = some old) (hv : v.core = old.core) :
    layers_kept_but d ctx (ctx.set_layer l v) := by
  refine ⟨Nat.le_refl _, by rw [length_set_layer], fun _ _ _ => rfl, ?_⟩
  intro L _
  by_cases hlL : l = L
  · subst hlL
    rw [layer_set_layer_self h, h]
    simp only [Option.map_some', hv]
  · rw [layer_set_layer_ne _ hlL]

theorem layers_kept_of_eq {d : Nat} {ctx c : CoglContext} (hp : c.pipelines = ctx.pipelines)
    (hl : c.layers = ctx.layers) : layers_kept_but d ctx c := by
  refine ⟨by rw [hp], by rw [hl], ?_, ?_⟩
  · intro q _ _
    simp only [CoglContext.pipeline, hp]
  · intro L _
    simp only [CoglContext.layer, hl]

/-- A step that keeps the layers, taken from a context that kept those of `c0`. -/
theorem kept_step {d : Nat} {c0 c : CoglContext} {x : Option CoglContext}
    (hs : layers_kept_but d c0 c) (h : returned x (layers_kept_but d c)) :
    returned x (layers_kept_but d c0) :=
  returned_mono h (fun _ ha => layers_kept_trans hs ha)

theorem kept_bind {d : Nat} {c0 : CoglContext} {x : Option CoglContext}
    {f : CoglContext → Option CoglContext} (hx : returned x (layers_kept_but d c0))
    (hf : ∀ c, layers_kept_but d c0 c → returned (f c) (layers_kept_but d c0)) :
    returned (x.bind f) (layers_kept_but d c0) :=
  returned_bind hx hf

theorem modify_pipeline_kept (d : Nat) (ctx : CoglContext) (p : Nat)
    {f : CoglPipeline → CoglPipeline} (hf : ∀ m, (f m).layer_state = m.layer_state) :
    returned (ctx.modify_pipeline p f) (layers_kept_but d ctx) := by
  unfold CoglContext.modify_pipeline
  split
  · exact returned_none
  rename_i node hp
  exact returned_some (layers_kept_set hp (hf node))

theorem modify_pipeline_kept_at (d : Nat) (ctx : CoglContext) (f : CoglPipeline → CoglPipeline) :
    returned (ctx.modify_pipeline d f) (layers_kept_but d ctx) := by
  unfold CoglContext.modify_pipeline
  split
  · exact returned_none
  exact returned_some (layers_kept_set_at d ctx _)

theorem modify_layer_kept (d : Nat) (ctx : CoglContext) (l : Nat)
    {f : CoglPipelineLayer → CoglPipelineLayer} (hf : ∀ m, (f m).core = m.core) :
    returned (ctx.modify_layer l f) (layers_kept_but d ctx) := by
  unfold CoglContext.modify_layer
  split
  · exact returned_none
  rename_i node hl
  exact returned_some (layers_kept_set_layer hl (hf node))

theorem same_but_caches_kept {d : Nat} {a b : CoglContext} (h : same_but_caches a b) :
    layers_kept_but d a b := by
  have hl : b.layers = a.layers := by
    have := congrArg CoglContext.layers h.2
    exact this
  have hlen : b.pipelines.length = a.pipelines.length :=
    same_skeleton_length (same_but_caches_skeleton h)
  refine ⟨by rw [hlen], by rw [hl], ?_, ?_⟩
  · intro q _ _
    have := congrArg (Option.map CoglPipeline.layer_state) (h.1 q)
    simp only [Option.map_map] at this
    exact this
  · intro L _
    simp only [CoglContext.layer, hl]

theorem emit_kept (d : Nat) (ctx : CoglContext) (e : CoglEvent) :
    layers_kept_but d ctx (ctx.emit e) := layers_kept_of_eq rfl rfl

theorem ite_emit_kept (d : Nat) (c : CoglContext) (cond : Prop) [Decidable cond] (e : CoglEvent) :
    layers_kept_but d c (if cond then c.emit e else c) := by
  split
  · exact emit_kept d c e
  · exact layers_kept_refl d c

theorem pre_change_notify_journal_kept (d f : Nat) (ctx : CoglContext) (p change : Nat)
    (oc : Option CoglColor) :
    returned (pre_change_notify_journal f ctx p change oc) (layers_kept_but d ctx) := by
  unfold pre_change_notify_journal
  split
  · exact returned_none
  rename_i node hp
  refine returned_ite (fun _ => returned_ite (fun _ => ?_)
    (fun _ => returned_some (emit_kept d ctx _)))
    (fun _ => returned_some (layers_kept_refl d ctx))
  intro a ha
  cases hnb : _cogl_pipeline_needs_blending_enabled f ctx p change oc with
  | none => rw [hnb] at ha; exact absurd ha (by simp)
  | some r =>
    obtain ⟨ctx1, w⟩ := r
    rw [hnb] at ha
    have hs : layers_kept_but d ctx ctx1 :=
      same_but_caches_kept (needs_blending_enabled_caches f ctx p change oc ctx1 w hnb)
    simp only at ha
    split at ha
    · rw [← Option.some.inj ha]; exact hs
    · rw [← Option.some.inj ha]; exact layers_kept_trans hs (emit_kept d _ _)

theorem pre_change_notify_backends_kept (d : Nat) (ctx : CoglContext) (p change : Nat)
    (flc : Bool) :
    returned (pre_change_notify_backends ctx p change flc) (layers_kept_but d ctx) := by
  unfold pre_change_notify_backends
  simp only [Option.bind_eq_bind]
  refine kept_bind (modify_pipeline_kept d ctx p (fun m => by split <;> rfl)) ?_
  intro c1 s1
  refine kept_bind (kept_step s1 (modify_pipeline_kept d c1 p (fun m => by split <;> rfl))) ?_
  intro c2 s2
  refine returned_bind_any (fun node _ => ?_)
  cases flc with
  | true => exact returned_some s2
  | false =>
    simp only [Bool.not_false, if_true, Option.pure_def]
    exact returned_some (layers_kept_trans s2 (layers_kept_trans
      (ite_emit_kept d _ _ _) (layers_kept_trans (ite_emit_kept d _ _ _) (emit_kept d _ _))))

theorem object_ref_kept (d : Nat) (ctx : CoglContext) (p : Nat) :
    returned (cogl_object_ref ctx p) (layers_kept_but d ctx) := by
  unfold cogl_object_ref
  split
  · exact returned_none
  rename_i node hp
  exact returned_some (layers_kept_set hp rfl)

theorem object_unref_kept (d : Nat) (ctx : CoglContext) (p : Nat) :
    returned (cogl_object_unref ctx p) (layers_kept_but d ctx) := by
  unfold cogl_object_unref
  split
  · exact returned_none
  rename_i node hp
  exact returned_some (layers_kept_set hp rfl)

theorem unparent_real_kept (d : Nat) (ctx : CoglContext) (x : Nat) :
    returned (_cogl_pipeline_node_unparent_real ctx x) (layers_kept_but d ctx) := by
  unfold _cogl_pipeline_node_unparent_real
  intro a ha
  split at ha
  · exact absurd ha (by simp)
  split at ha
  · rw [← Option.some.inj ha]; exact layers_kept_refl d ctx
  split at ha
  · exact absurd ha (by simp)
  rename_i pn hpn
  split at ha
  · rw [← Option.some.inj ha]; exact layers_kept_refl d ctx
  dsimp only at ha
  have s1 : layers_kept_but d ctx (ctx.set_pipeline _ { pn with children := pn.children.erase x })
      := layers_kept_set hpn rfl
  split at ha
  · exact absurd ha (by simp)
  rename_i c2 h2
  have s2 : layers_kept_but d ctx c2 := by
    split at h2
    · exact layers_kept_trans s1 (object_unref_kept d _ _ _ h2)
    · rw [← Option.some.inj h2]; exact s1
  split at ha
  · exact absurd ha (by simp)
  rename_i n2 hn2
  rw [← Option.some.inj ha]
  exact layers_kept_trans s2 (layers_kept_set hn2 rfl)

theorem destroy_weak_children_kept (d : Nat) :
    ∀ (n : Nat) (ctx : CoglContext) (x : Nat),
      returned (destroy_weak_children_cb n ctx x) (layers_kept_but d ctx) := by
  intro n
  induction n with
  | zero => intro ctx x; exact returned_none
  | succ k ih =>
    intro ctx x
    unfold destroy_weak_children_cb
    split
    · exact returned_none
    · exact returned_some (layers_kept_refl d ctx)
    · intro a ha
      split at ha
      · exact absurd ha (by simp)
      rename_i c1 h1
      have s1 : layers_kept_but d ctx c1 := by
        unfold _cogl_pipeline_node_foreach_child at h1
        split at h1
        · exact absurd h1 (by simp)
        exact returned_foldlM (fun s y hs => kept_step hs (ih s y)) _ _
          (layers_kept_refl d ctx) _ h1
      split at ha
      · exact absurd ha (by simp)
      exact layers_kept_trans s1 (layers_kept_trans (emit_kept d _ _)
        (unparent_real_kept d _ _ _ ha))

theorem recursively_free_layer_caches_kept (d : Nat) :
    ∀ (fuel : Nat) (ctx : CoglContext) (p : Nat),
      returned (recursively_free_layer_caches fuel ctx p) (layers_kept_but d ctx) := by
  intro fuel
  induction fuel with
  | zero =>
    intro ctx p
    exact returned_none
  | succ k ih =>
    intro ctx p
    unfold recursively_free_layer_caches
    split
    · exact returned_none
    rename_i node hp
    refine returned_ite (fun _ => returned_some (layers_kept_refl d ctx)) (fun _ => ?_)
    have s1 : layers_kept_but d ctx
        (ctx.set_pipeline p { node with layers_cache_dirty := true }) := layers_kept_set hp rfl
    unfold _cogl_pipeline_node_foreach_child
    dsimp only
    split
    · exact returned_none
    exact returned_foldlM (fun s a hs => kept_step hs (ih s a)) _ _ s1

theorem set_parent_real_kept (d : Nat) (ctx : CoglContext) (node parent : Nat) (strong : Bool) :
    returned (_cogl_pipeline_node_set_parent_real ctx node parent strong)
      (layers_kept_but d ctx) := by
  unfold _cogl_pipeline_node_set_parent_real
  intro a ha
  split at ha
  · exact absurd ha (by simp)
  rename_i c1 h1
  have s1 := object_ref_kept d ctx parent c1 h1
  split at ha
  · exact absurd ha (by simp)
  split at ha
  · exact absurd ha (by simp)
  rename_i c2 h2
  have s2 : layers_kept_but d ctx c2 := by
    split at h2
    · exact layers_kept_trans s1 (unparent_real_kept d _ _ _ h2)
    · rw [← Option.some.inj h2]; exact s1
  split at ha
  · exact absurd ha (by simp)
  rename_i pn hpn
  dsimp only at ha
  have s3 : layers_kept_but d ctx
      (c2.set_pipeline parent { pn with children := node :: pn.children }) :=
    layers_kept_trans s2 (layers_kept_set hpn rfl)
  split at ha
  · exact absurd ha (by simp)
  rename_i n3 hn3
  have s4 := layers_kept_trans s3 (@layers_kept_set d node _ n3
    { n3 with parent := some parent, has_parent_reference := strong } hn3 rfl)
  split at ha
  · exact layers_kept_trans s4 (object_unref_kept d _ _ _ ha)
  · rw [← Option.some.inj ha]; exact s4

theorem set_parent_kept (d fuel : Nat) (ctx : CoglContext) (node parent : Nat) (strong : Bool) :
    returned (_cogl_pipeline_set_parent fuel ctx node parent strong)
      (layers_kept_but d ctx) := by
  unfold _cogl_pipeline_set_parent
  intro a ha
  split at ha
  · exact absurd ha (by simp)
  rename_i c1 h1
  have s1 := set_parent_real_kept d ctx node parent strong c1 h1
  split at ha
  · exact absurd ha (by simp)
  split at ha
  · exact absurd ha (by simp)
  rename_i c2 h2
  have s2 : layers_kept_but d ctx c2 := by
    split at h2
    · exact layers_kept_trans s1 (recursively_free_layer_caches_kept d _ _ _ _ h2)
    · rw [← Option.some.inj h2]; exact s1
  split at ha
  · rw [← Option.some.inj ha]; exact layers_kept_trans s2 (emit_kept d _ _)
  · rw [← Option.some.inj ha]; exact s2

theorem promote_weak_ancestors_loop_kept (d : Nat) :
    ∀ (fuel : Nat) (ctx : CoglContext) (n : Nat),
      returned (promote_weak_ancestors_loop fuel ctx n) (layers_kept_but d ctx) := by
  intro fuel
  induction fuel with
  | zero => intro ctx n; exact returned_none
  | succ k ih =>
    intro ctx n
    unfold promote_weak_ancestors_loop
    split
    · exact returned_none
    refine returned_ite (fun _ => ?_) (fun _ => returned_some (layers_kept_refl d ctx))
    split
    · exact returned_none
    rename_i parent _
    intro a ha
    split at ha
    · exact absurd ha (by simp)
    rename_i c1 h1
    exact layers_kept_trans (object_ref_kept d ctx parent c1 h1) (ih c1 parent a ha)

theorem promote_weak_ancestors_kept (d fuel : Nat) (ctx : CoglContext) (n : Nat) :
    returned (_cogl_pipeline_promote_weak_ancestors fuel ctx n) (layers_kept_but d ctx) := by
  unfold _cogl_pipeline_promote_weak_ancestors
  split
  · exact returned_none
  refine returned_ite (fun _ => returned_some (layers_kept_refl d ctx)) (fun _ => ?_)
  split
  · exact returned_some (layers_kept_refl d ctx)
  · exact promote_weak_ancestors_loop_kept d fuel ctx _

theorem append_pipeline_kept (d : Nat) (ctx : CoglContext) (node : CoglPipeline) :
    layers_kept_but d ctx { ctx with pipelines := ctx.pipelines ++ [node] } := by
  refine ⟨by simp, Nat.le_refl _, ?_, fun _ _ => rfl⟩
  intro q hq _
  rw [pipeline_append_old node hq]

theorem pipeline_copy_kept (d fuel : Nat) (ctx : CoglContext) (src : Nat) (w : Bool) :
    returned (_cogl_pipeline_copy fuel ctx src w) (fun r => layers_kept_but d ctx r.1) := by
  unfold _cogl_pipeline_copy
  intro a ha
  split at ha
  · exact absurd ha (by simp)
  dsimp only at ha
  split at ha
  · exact absurd ha (by simp)
  rename_i c2 h2
  have s2 := layers_kept_trans (append_pipeline_kept d ctx _) (set_parent_kept d _ _ _ _ _ c2 h2)
  split at ha
  · exact absurd ha (by simp)
  rename_i c3 h3
  have s3 : layers_kept_but d ctx c3 := by
    split at h3
    · exact layers_kept_trans s2 (promote_weak_ancestors_kept d _ _ _ _ h3)
    · rw [← Option.some.inj h3]; exact s2
  split at ha
  · exact absurd ha (by simp)
  rename_i created hcr
  rw [← Option.some.inj ha]
  exact layers_kept_trans s3 (layers_kept_set hcr rfl)

theorem set_static_breadcrumb_kept (d : Nat) (ctx : CoglContext) (p : Nat) (b : String) :
    returned (_cogl_pipeline_set_static_breadcrumb ctx p b) (layers_kept_but d ctx) := by
  unfold _cogl_pipeline_set_static_breadcrumb
  split
  · exact returned_none
  rename_i node hp
  exact returned_some (layers_kept_set hp rfl)

theorem init_multi_property_sparse_state_kept (fuel : Nat) (ctx : CoglContext)
    (p change : Nat) :
    returned (_cogl_pipeline_init_multi_property_sparse_state fuel ctx p change)
      (layers_kept_but p ctx) := by
  unfold _cogl_pipeline_init_multi_property_sparse_state
  refine returned_ite (fun _ => returned_some (layers_kept_refl p ctx)) (fun _ => ?_)
  refine returned_ite (fun _ => returned_some (layers_kept_refl p ctx)) (fun _ => ?_)
  split
  · exact returned_none
  split
  · exact returned_none
  repeat' first
    | exact returned_some (layers_kept_refl p ctx)
    | exact modify_pipeline_kept_at p ctx _
    | (apply returned_ite <;> intro _)

theorem pre_change_notify_takeover_kept (f : Nat) (ctx : CoglContext) (p change : Nat) :
    returned (pre_change_notify_takeover f ctx p change) (layers_kept_but p ctx) := by
  unfold pre_change_notify_takeover
  simp only [Option.bind_eq_bind]
  refine kept_bind (modify_pipeline_kept_at p ctx _) ?_
  intro c1 s1
  refine kept_bind (kept_step s1 (modify_pipeline_kept_at p c1 _)) ?_
  intro c2 s2
  refine returned_bind_any (fun node _ => ?_)
  refine kept_bind (returned_ite (fun _ => ?_) (fun _ => returned_some s2)) ?_
  · refine kept_bind (kept_step s2 (init_multi_property_sparse_state_kept f c2 p change)) ?_
    intro c3 s3
    exact kept_step s3 (modify_pipeline_kept_at p c3 _)
  intro c4 s4
  refine kept_bind (returned_ite
    (fun _ => kept_step s4 (recursively_free_layer_caches_kept p f c4 p))
    (fun _ => returned_some s4)) ?_
  intro c5 s5
  simp only [Option.pure_def]
  refine returned_some ?_
  split
  · exact layers_kept_trans s5 (layers_kept_of_eq rfl rfl)
  · exact s5

theorem object_ref_layer_kept (d : Nat) (ctx : CoglContext) (l : Nat) :
    returned (cogl_object_ref_layer ctx l) (layers_kept_but d ctx) := by
  unfold cogl_object_ref_layer
  split
  · exact returned_none
  rename_i node hl
  exact returned_some (layers_kept_set_layer hl rfl)

theorem object_unref_layer_kept (d : Nat) (ctx : CoglContext) (l : Nat) :
    returned (cogl_object_unref_layer ctx l) (layers_kept_but d ctx) := by
  unfold cogl_object_unref_layer
  split
  · exact returned_none
  rename_i node hl
  exact returned_some (layers_kept_set_layer hl rfl)

/-- What a step leaves of the layers other than `l`: the pipelines and the number of
layers are the same, and so are the layers but `l` up to reference count, child
list and owner. -/
theorem layer_unparent_cores (ctx : CoglContext) (l : Nat) :
    returned (_cogl_pipeline_layer_unparent ctx l) (fun c =>
      c.pipelines = ctx.pipelines ∧ c.layers.length = ctx.layers.length ∧
      ∀ L, L ≠ l → (c.layer L).map CoglPipelineLayer.core =
        (ctx.layer L).map CoglPipelineLayer.core) := by
  unfold _cogl_pipeline_layer_unparent
  intro a ha
  split at ha
  · exact absurd ha (by simp)
  split at ha
  · rw [← Option.some.inj ha]; exact ⟨rfl, rfl, fun _ _ => rfl⟩
  rename_i parent _
  split at ha
  · exact absurd ha (by simp)
  rename_i pn hpn
  split at ha
  · rw [← Option.some.inj ha]; exact ⟨rfl, rfl, fun _ _ => rfl⟩
  dsimp only at ha
  have s1 := @layers_kept_set_layer 0 parent ctx pn
    { pn with children := pn.children.erase l } hpn rfl
  split at ha
  · exact absurd ha (by simp)
  rename_i c2 h2
  have s2 : c2.pipelines = ctx.pipelines ∧ c2.layers.length = ctx.layers.length ∧
      ∀ L, (c2.layer L).map CoglPipelineLayer.core =
        (ctx.layer L).map CoglPipelineLayer.core := by
    split at h2
    · unfold cogl_object_unref_layer at h2
      split at h2
      · exact absurd h2 (by simp)
      rename_i n1 hn1
      rw [← Option.some.inj h2]
      refine ⟨rfl, by rw [length_set_layer, length_set_layer], ?_⟩
      intro L
      by_cases hL : parent = L
      · subst hL
        rw [layer_set_layer_self hn1, hpn]
        rw [layer_set_layer_self hpn] at hn1
        rw [← Option.some.inj hn1]
        rfl
      · rw [layer_set_layer_ne _ hL, layer_set_layer_ne _ hL]
    · rw [← Option.some.inj h2]
      refine ⟨rfl, by rw [length_set_layer], ?_⟩
      intro L
      by_cases hL : parent = L
      · subst hL
        rw [layer_set_layer_self hpn, hpn]
        rfl
      · rw [layer_set_layer_ne _ hL]
  split at ha
  · exact absurd ha (by simp)
  rw [← Option.some.inj ha]
  refine ⟨s2.1, by rw [length_set_layer]; exact s2.2.1, ?_⟩
  intro L hL
  rw [layer_set_layer_ne _ (Ne.symm hL)]
  exact s2.2.2 L

theorem layer_set_parent_cores (ctx : CoglContext) (l parent : Nat) :
    returned (_cogl_pipeline_layer_set_parent ctx l parent) (fun c =>
      c.pipelines = ctx.pipelines ∧ c.layers.length = ctx.layers.length ∧
      ∀ L, L ≠ l → (c.layer L).map CoglPipelineLayer.core =
        (ctx.layer L).map CoglPipelineLayer.core) := by
  unfold _cogl_pipeline_layer_set_parent
  intro a ha
  split at ha
  · exact absurd ha (by simp)
  rename_i c1 h1
  have s1 : c1.pipelines = ctx.pipelines ∧ c1.layers.length = ctx.layers.length ∧
      ∀ L, (c1.layer L).map CoglPipelineLayer.core =
        (ctx.layer L).map CoglPipelineLayer.core := by
    unfold cogl_object_ref_layer at h1
    split at h1
    · exact absurd h1 (by simp)
    rename_i n1 hn1
    rw [← Option.some.inj h1]
    refine ⟨rfl, by rw [length_set_layer], ?_⟩
    intro L
    by_cases hL : parent = L
    · subst hL
      rw [layer_set_layer_self hn1, hn1]
      rfl
    · rw [layer_set_layer_ne _ hL]
  split at ha
  · exact absurd ha (by simp)
  split at ha
  · exact absurd ha (by simp)
  rename_i c2 h2
  have s2 : c2.pipelines = ctx.pipelines ∧ c2.layers.length = ctx.layers.length ∧
      ∀ L, L ≠ l → (c2.layer L).map CoglPipelineLayer.core =
        (ctx.layer L).map CoglPipelineLayer.core := by
    split at h2
    · obtain ⟨u1, u2, u3⟩ := layer_unparent_cores _ _ _ h2
      exact ⟨u1.trans s1.1, u2.trans s1.2.1, fun L hL => (u3 L hL).trans (s1.2.2 L)⟩
    · rw [← Option.some.inj h2]
      exact ⟨s1.1, s1.2.1, fun L _ => s1.2.2 L⟩
  split at ha
  · exact absurd ha (by simp)
  rename_i pn hpn
  dsimp only at ha
  split at ha
  · exact absurd ha (by simp)
  rw [← Option.some.inj ha]
  refine ⟨s2.1, by rw [length_set_layer, length_set_layer]; exact s2.2.1, ?_⟩
  intro L hL
  rw [layer_set_layer_ne _ (Ne.symm hL)]
  by_cases hpL : parent = L
  · subst hpL
    rw [layer_set_layer_self hpn, ← s2.2.2 parent hL, hpn]
    rfl
  · rw [layer_set_layer_ne _ hpL]
    exact s2.2.2 L hL

theorem layer_append_old {ctx : CoglContext} {q : Nat} (node : CoglPipelineLayer)
    (hq : q < ctx.layers.length) :
    ({ ctx with layers := ctx.layers ++ [node] } : CoglContext).layer q = ctx.layer q := by
  simp only [CoglContext.layer]
  exact List.getElem?_append_left hq

theorem layer_copy_kept (d : Nat) (ctx : CoglContext) (src : Nat) :
    returned (_cogl_pipeline_layer_copy ctx src) (fun r => layers_kept_but d ctx r.1) := by
  unfold _cogl_pipeline_layer_copy
  intro a ha
  split at ha
  · exact absurd ha (by simp)
  dsimp only at ha
  split at ha
  · exact absurd ha (by simp)
  rename_i c2 h2
  obtain ⟨u1, u2, u3⟩ := layer_set_parent_cores _ _ _ _ h2
  split at ha
  · exact absurd ha (by simp)
  rename_i c3 h3
  unfold CoglContext.modify_layer at h3
  split at h3
  · exact absurd h3 (by simp)
  rename_i created hcr
  rw [← Option.some.inj ha, ← Option.some.inj h3]
  refine ⟨?_, ?_, ?_, ?_⟩
  · show ctx.pipelines.length ≤ c2.pipelines.length
    rw [u1]
  · rw [length_set_layer, u2]
    simp
  · intro q _ _
    show (c2.pipeline q).map _ = _
    simp only [CoglContext.pipeline, u1]
  · intro L hL
    have hne : ctx.layers.length ≠ L := Nat.ne_of_gt hL
    rw [layer_set_layer_ne _ hne, u3 L (Ne.symm hne), layer_append_old _ hL]

theorem returned_and {α : Type} {x : Option α} {P Q : α → Prop} (h1 : returned x P)
    (h2 : returned x Q) : returned x (fun a => P a ∧ Q a) :=
  fun a ha => ⟨h1 a ha, h2 a ha⟩

/-- A step that keeps the tree and the layers, taken from a context that kept those
of `c0`. -/
theorem both_step {d : Nat} {c0 c : CoglContext} {x : Option CoglContext}
    (hs : same_skeleton c0 c) (hk : layers_kept_but d c0 c)
    (h1 : returned x (same_skeleton c)) (h2 : returned x (layers_kept_but d c)) :
    returned x (fun c2 => same_skeleton c0 c2 ∧ layers_kept_but d c0 c2) :=
  returned_and (skeleton_step hs h1) (kept_step hk h2)

theorem both_bind {d : Nat} {c0 : CoglContext} {x : Option CoglContext}
    {f : CoglContext → Option CoglContext}
    (hx : returned x (fun c => same_skeleton c0 c ∧ layers_kept_but d c0 c))
    (hf : ∀ c, same_skeleton c0 c → layers_kept_but d c0 c →
      returned (f c) (fun c2 => same_skeleton c0 c2 ∧ layers_kept_but d c0 c2)) :
    returned (x.bind f) (fun c2 => same_skeleton c0 c2 ∧ layers_kept_but d c0 c2) :=
  returned_bind hx (fun c h => hf c h.1 h.2)

theorem add_layer_difference_with_kept {notify : PreChangeNotify} {dest : Nat}
    (hn : ∀ c ch oc flc, (∀ l, c.links dest = some l → l.children = []) →
      returned (notify c dest ch oc flc)
        (fun c2 => same_skeleton c c2 ∧ layers_kept_but dest c c2))
    (ctx : CoglContext) (layer : Nat) (inc : Bool)
    (hch : ∀ l, ctx.links dest = some l → l.children = []) :
    returned (add_layer_difference_with notify ctx dest layer inc)
      (fun c2 => same_skeleton ctx c2 ∧ layers_kept_but dest ctx c2) := by
  unfold add_layer_difference_with
  simp only [Option.bind_eq_bind, Option.pure_def]
  refine returned_bind_any (fun l hl => ?_)
  refine returned_ite
    (fun _ => returned_some ⟨same_skeleton_refl ctx, layers_kept_refl dest ctx⟩) (fun _ => ?_)
  have s1 := set_layer_skeleton ctx layer { l with owner := some dest }
  have k1 : layers_kept_but dest ctx (ctx.set_layer layer { l with owner := some dest }) :=
    layers_kept_set_layer hl rfl
  refine both_bind (both_step s1 k1 (object_ref_layer_skeleton _ _)
    (object_ref_layer_kept dest _ _)) ?_
  intro c2 s2 k2
  refine both_bind (returned_mono (hn c2 _ _ _ (leaf_of_skeleton s2 hch))
    (fun c h => ⟨same_skeleton_trans s2 h.1, layers_kept_trans k2 h.2⟩)) ?_
  intro c3 s3 k3
  exact both_step s3 k3 (modify_pipeline_skeleton c3 dest (fun _ => rfl))
    (modify_pipeline_kept_at dest c3 _)

theorem update_blend_enable_with_kept {notify : PreChangeNotify} {dest : Nat}
    (hn : ∀ c ch oc flc, (∀ l, c.links dest = some l → l.children = []) →
      returned (notify c dest ch oc flc)
        (fun c2 => same_skeleton c c2 ∧ layers_kept_but dest c c2))
    (fuel : Nat) (ctx : CoglContext) (change : Nat)
    (hch : ∀ l, ctx.links dest = some l → l.children = []) :
    returned (update_blend_enable_with notify fuel ctx dest change)
      (fun c2 => same_skeleton ctx c2 ∧ layers_kept_but dest ctx c2) := by
  unfold update_blend_enable_with
  simp only [Option.bind_eq_bind, Option.pure_def]
  refine returned_bind_any (fun r hr => ?_)
  obtain ⟨c1, blend_enable⟩ := r
  have hc := needs_blending_enabled_caches fuel ctx dest change none c1 blend_enable hr
  have s1 := same_but_caches_skeleton hc
  have k1 : layers_kept_but dest ctx c1 := same_but_caches_kept hc
  dsimp only
  refine returned_bind_any (fun node _ => ?_)
  refine returned_ite (fun _ => ?_) (fun _ => returned_some ⟨s1, k1⟩)
  refine both_bind (returned_mono (hn c1 _ _ _ (leaf_of_skeleton s1 hch))
    (fun c h => ⟨same_skeleton_trans s1 h.1, layers_kept_trans k1 h.2⟩)) ?_
  intro c2 s2 k2
  exact both_step s2 k2 (modify_pipeline_skeleton c2 dest (fun _ => rfl))
    (modify_pipeline_kept_at dest c2 _)

theorem copy_big_state_differences_kept (ctx : CoglContext) (dest src differences : Nat) :
    returned (copy_big_state_differences ctx dest src differences)
      (layers_kept_but dest ctx) := by
  unfold copy_big_state_differences
  refine returned_ite (fun _ => returned_some (layers_kept_refl dest ctx)) (fun _ => ?_)
  split
  · exact returned_none
  exact modify_pipeline_kept_at dest ctx _

theorem copy_differences_with_kept {notify : PreChangeNotify} {dest : Nat}
    (hn : ∀ c ch oc flc, (∀ l, c.links dest = some l → l.children = []) →
      returned (notify c dest ch oc flc)
        (fun c2 => same_skeleton c c2 ∧ layers_kept_but dest c c2))
    (fuel : Nat) (ctx : CoglContext) (src differences : Nat)
    (hch : ∀ l, ctx.links dest = some l → l.children = []) :
    returned (copy_differences_with notify fuel ctx dest src differences)
      (fun c2 => same_skeleton ctx c2 ∧ layers_kept_but dest ctx c2) := by
  have r0 : same_skeleton ctx ctx ∧ layers_kept_but dest ctx ctx :=
    ⟨same_skeleton_refl ctx, layers_kept_refl dest ctx⟩
  unfold copy_differences_with
  simp only [Option.bind_eq_bind]
  refine returned_bind_any (fun s _ => ?_)
  refine both_bind (returned_ite
    (fun _ => both_step r0.1 r0.2 (modify_pipeline_skeleton ctx dest (fun _ => rfl))
      (modify_pipeline_kept_at dest ctx _))
    (fun _ => returned_some r0)) ?_
  intro c1 s1 k1
  refine both_bind (returned_ite
    (fun _ => both_step s1 k1 (modify_pipeline_skeleton c1 dest (fun _ => rfl))
      (modify_pipeline_kept_at dest c1 _))
    (fun _ => returned_some ⟨s1, k1⟩)) ?_
  intro c2 s2 k2
  refine both_bind (returned_ite (fun _ => ?_) (fun _ => returned_some ⟨s2, k2⟩)) ?_
  · refine returned_bind_any (fun d _ => ?_)
    refine both_bind (returned_ite (fun _ => ?_) (fun _ => returned_some ⟨s2, k2⟩)) ?_
    · exact @returned_foldlM _ _ _ (fun c => same_skeleton ctx c ∧ layers_kept_but dest ctx c)
        (fun c l hs => both_step hs.1 hs.2 (object_unref_layer_skeleton c l)
          (object_unref_layer_kept dest c l)) _ _ ⟨s2, k2⟩
    intro c3 s3 k3
    refine returned_bind_any (fun s1 _ => ?_)
    refine both_bind ?_ ?_
    · refine @returned_foldlM _ _ _
        (fun c => same_skeleton ctx c ∧ layers_kept_but dest ctx c)
        (fun c l hs => ?_) _ _ ⟨s3, k3⟩
      refine returned_bind_any (fun r hr => ?_)
      obtain ⟨ca, copy⟩ := r
      have sa : same_skeleton ctx ca := same_skeleton_trans hs.1 (layer_copy_skeleton c l _ hr)
      have ka : layers_kept_but dest ctx ca :=
        layers_kept_trans hs.2 (layer_copy_kept dest c l _ hr)
      dsimp only
      refine both_bind (returned_mono (add_layer_difference_with_kept hn ca copy false
        (leaf_of_skeleton sa hch))
        (fun c h => ⟨same_skeleton_trans sa h.1, layers_kept_trans ka h.2⟩)) ?_
      intro cb sb kb
      exact both_step sb kb (object_unref_layer_skeleton cb copy)
        (object_unref_layer_kept dest cb copy)
    intro c4 s4 k4
    refine returned_bind_any (fun s2 _ => ?_)
    exact both_step s4 k4 (modify_pipeline_skeleton c4 dest (fun _ => rfl))
      (modify_pipeline_kept_at dest c4 _)
  intro c5 s5 k5
  refine both_bind (both_step s5 k5 (copy_big_state_differences_skeleton c5 dest src _)
    (copy_big_state_differences_kept c5 dest src _)) ?_
  intro c6 s6 k6
  refine both_bind (returned_ite
    (fun _ => returned_mono (update_blend_enable_with_kept hn fuel c6 differences
      (leaf_of_skeleton s6 hch))
      (fun c h => ⟨same_skeleton_trans s6 h.1, layers_kept_trans k6 h.2⟩))
    (fun _ => returned_some ⟨s6, k6⟩)) ?_
  intro c7 s7 k7
  exact both_step s7 k7 (modify_pipeline_skeleton c7 dest (fun _ => rfl))
    (modify_pipeline_kept_at dest c7 _)

theorem pipeline_copy_fresh {ctx c1 : CoglContext} {fuel src np : Nat} {w : Bool}
    (h : _cogl_pipeline_copy fuel ctx src w = some (c1, np)) :
    np = ctx.pipelines.length ∧ ∃ ls, ctx.links src = some ls := by
  unfold _cogl_pipeline_copy at h
  split at h
  · exact absurd h (by simp)
  rename_i srcnode hsrc
  dsimp only at h
  split at h
  · exact absurd h (by simp)
  split at h
  · exact absurd h (by simp)
  split at h
  · exact absurd h (by simp)
  simp only [Option.some.injEq, Prod.mk.injEq] at h
  exact ⟨h.2.symm, _, links_of_pipeline hsrc⟩

/-- The copy-on-write block of `_cogl_pipeline_pre_change_notify` keeps the layer
state of the pipelines it finds and the layers. -/
theorem copy_on_write_kept {notify : PreChangeNotify} (d fuel p : Nat) (c3 : CoglContext)
    (hn : ∀ dest c ch oc flc, (∀ l, c.links dest = some l → l.children = []) →
      returned (notify c dest ch oc flc)
        (fun c2 => same_skeleton c c2 ∧ layers_kept_but dest c c2)) :
    returned (pre_change_notify_copy_on_write notify fuel c3 p)
      (fun r => layers_kept_but d c3 r.1) := by
  intro r h
  unfold pre_change_notify_copy_on_write at h
  simp only [Option.bind_eq_bind, Option.pure_def] at h
  obtain ⟨node, hnode, h⟩ := Option.bind_eq_some.mp h
  obtain ⟨parent, hparent, h⟩ := Option.bind_eq_some.mp h
  obtain ⟨r1, hcopy, h⟩ := Option.bind_eq_some.mp h
  obtain ⟨c1, np⟩ := r1
  dsimp only at h
  obtain ⟨c2, hbread, h⟩ := Option.bind_eq_some.mp h
  obtain ⟨n2, hn2, h⟩ := Option.bind_eq_some.mp h
  obtain ⟨c3b, hdiff, h⟩ := Option.bind_eq_some.mp h
  obtain ⟨c4, hfold, h⟩ := Option.bind_eq_some.mp h
  obtain ⟨c6, hunref, h⟩ := Option.bind_eq_some.mp h
  rw [← Option.some.inj h]
  unfold cogl_pipeline_copy at hcopy
  obtain ⟨hnp, ls, hls⟩ := pipeline_copy_fresh hcopy
  obtain ⟨-, j2, -, -, -, -⟩ := pipeline_copy_links hls hcopy
  have k1 : layers_kept_but np c3 c1 := pipeline_copy_kept np fuel c3 parent false _ hcopy
  have s2 : same_skeleton c1 c2 := set_static_breadcrumb_skeleton _ _ _ _ hbread
  have k2 := layers_kept_trans k1 (set_static_breadcrumb_kept np _ _ _ _ hbread)
  have hleaf2 : ∀ l, c2.links np = some l → l.children = [] := by
    intro l hl
    rw [s2.1, j2] at hl
    rw [← Option.some.inj hl]
  have k3 := layers_kept_trans k2
    (copy_differences_with_kept (hn np) fuel c2 p _ hleaf2 _ hdiff).2
  have k4 : layers_kept_but np c3 c4 := by
    unfold _cogl_pipeline_node_foreach_child at hfold
    split at hfold
    · exact absurd hfold (by simp)
    exact returned_foldlM (fun s y hs => kept_step hs (set_parent_kept np fuel s y np true))
      _ _ k3 _ hfold
  have k5 := layers_kept_trans k4 (object_unref_kept np _ _ _ hunref)
  exact layers_kept_of_fresh (Nat.le_of_eq hnp.symm) k5

theorem pre_change_notify_with_leaf_kept (notify : PreChangeNotify) (f : Nat)
    (ctx : CoglContext) (p change : Nat) (oc : Option CoglColor) (flc : Bool)
    (hch : ∀ l, ctx.links p = some l → l.children = []) :
    returned (pre_change_notify_with notify f ctx p change oc flc)
      (layers_kept_but p ctx) := by
  intro c h
  unfold pre_change_notify_with at h
  simp only [Option.bind_eq_bind] at h
  obtain ⟨c1, hj, h⟩ := Option.bind_eq_some.mp h
  obtain ⟨c2, hb, h⟩ := Option.bind_eq_some.mp h
  obtain ⟨c3, hd, h⟩ := Option.bind_eq_some.mp h
  obtain ⟨node3, hn3, h⟩ := Option.bind_eq_some.mp h
  obtain ⟨c5, hcow, h⟩ := Option.bind_eq_some.mp h
  have s12 : same_skeleton ctx c2 := same_skeleton_trans
    (pre_change_notify_journal_skeleton _ _ _ _ _ c1 hj)
    (pre_change_notify_backends_skeleton _ _ _ _ c2 hb)
  have k12 : layers_kept_but p ctx c2 := layers_kept_trans
    (pre_change_notify_journal_kept p _ _ _ _ _ c1 hj)
    (pre_change_notify_backends_kept p _ _ _ _ c2 hb)
  have h32 : c3 = c2 := by
    unfold _cogl_pipeline_node_foreach_child at hd
    split at hd
    · exact absurd hd (by simp)
    rename_i node hp
    rw [links_children_of_skeleton s12 hch hp] at hd
    exact (Option.some.inj hd).symm
  subst h32
  rw [links_children_of_skeleton s12 hch hn3] at hcow
  simp only [ne_eq, not_true_eq_false, if_false, Option.some.injEq] at hcow
  subst hcow
  exact layers_kept_trans k12 (pre_change_notify_takeover_kept _ _ _ _ c h)

theorem pre_change_notify_leaf_both (fuel : Nat) (ctx : CoglContext)
    (p change : Nat) (oc : Option CoglColor) (flc : Bool)
    (hch : ∀ l, ctx.links p = some l → l.children = []) :
    returned (_cogl_pipeline_pre_change_notify fuel ctx p change oc flc)
      (fun c2 => same_skeleton ctx c2 ∧ layers_kept_but p ctx c2) := by
  cases fuel with
  | zero => exact returned_none
  | succ k =>
    exact returned_and (pre_change_notify_with_leaf _ k ctx p change oc flc hch)
      (pre_change_notify_with_leaf_kept _ k ctx p change oc flc hch)

/-- The function `_cogl_pipeline_pre_change_notify` keeps the layer state of every
pipeline but the one it is called on, and the layers. -/
theorem pre_change_notify_kept (fuel : Nat) (ctx : CoglContext) (p change : Nat)
    (oc : Option CoglColor) (flc : Bool) :
    returned (_cogl_pipeline_pre_change_notify fuel ctx p change oc flc)
      (layers_kept_but p ctx) := by
  cases fuel with
  | zero => exact returned_none
  | succ f =>
    intro c h
    rw [_cogl_pipeline_pre_change_notify] at h
    unfold pre_change_notify_with at h
    simp only [Option.bind_eq_bind] at h
    obtain ⟨c1, hj, h⟩ := Option.bind_eq_some.mp h
    obtain ⟨c2, hb, h⟩ := Option.bind_eq_some.mp h
    obtain ⟨c3, hd, h⟩ := Option.bind_eq_some.mp h
    obtain ⟨node3, hn3, h⟩ := Option.bind_eq_some.mp h
    obtain ⟨c5, hcow, h⟩ := Option.bind_eq_some.mp h
    have k12 : layers_kept_but p ctx c2 := layers_kept_trans
      (pre_change_notify_journal_kept p _ _ _ _ _ c1 hj)
      (pre_change_notify_backends_kept p _ _ _ _ c2 hb)
    have k3 : layers_kept_but p ctx c3 := by
      unfold _cogl_pipeline_node_foreach_child at hd
      split at hd
      · exact absurd hd (by simp)
      exact returned_foldlM (fun s y hs => kept_step hs (destroy_weak_children_kept p f s y))
        _ _ k12 _ hd
    have k5 : layers_kept_but p ctx c5 := by
      split at hcow
      · obtain ⟨r, hr, hr1⟩ := Option.map_eq_some'.mp hcow
        rw [← hr1]
        exact layers_kept_trans k3 (copy_on_write_kept p f p c3
          (fun dest c ch oc flc hl => pre_change_notify_leaf_both f c dest ch oc flc hl) r hr)
      · rw [← Option.some.inj hcow]
        exact k3
    exact layers_kept_trans k5 (pre_change_notify_takeover_kept _ _ _ _ c h)

theorem only_dirtied_refl (ctx : CoglContext) : only_dirtied ctx ctx := by
  intro q
  refine ⟨rfl, ?_⟩
  intro n hn hd
  rw [hn]
  exact congrArg some hd

theorem only_dirtied_trans {a b c : CoglContext} (h1 : only_dirtied a b)
    (h2 : only_dirtied b c) : only_dirtied a c := by
  intro q
  refine ⟨(h2 q).1.trans (h1 q).1, ?_⟩
  intro n hn hd
  have hb := (h1 q).2 n hn hd
  cases hbq : b.pipeline q with
  | none => rw [hbq] at hb; exact absurd hb (by simp)
  | some m =>
    rw [hbq] at hb
    exact (h2 q).2 m hbq (Option.some.inj hb)

theorem recursively_free_layer_caches_dirtied :
    ∀ (fuel : Nat) (ctx : CoglContext) (p : Nat),
      returned (recursively_free_layer_caches fuel ctx p) (only_dirtied ctx) := by
  intro fuel
  induction fuel with
  | zero =>
    intro ctx p
    exact returned_none
  | succ k ih =>
    intro ctx p
    unfold recursively_free_layer_caches
    split
    · exact returned_none
    rename_i node hp
    refine returned_ite (fun _ => returned_some (only_dirtied_refl ctx)) (fun _ => ?_)
    have s1 : only_dirtied ctx (ctx.set_pipeline p { node with layers_cache_dirty := true }) := by
      intro q
      by_cases hpq : p = q
      · subst hpq
        rw [pipeline_set_pipeline_self hp, hp]
        exact ⟨rfl, fun _ _ _ => rfl⟩
      · rw [pipeline_set_pipeline_ne _ hpq]
        exact only_dirtied_refl ctx q
    unfold _cogl_pipeline_node_foreach_child
    dsimp only
    split
    · exact returned_none
    exact returned_foldlM
      (fun s a hs => returned_mono (ih s a) (fun _ h => only_dirtied_trans hs h)) _ _ s1

/-- After `recursively_free_layer_caches (p)` the record of `p` is as before with a
stale layers cache. -/
theorem recursively_free_layer_caches_marks {fuel p : Nat} {ctx c : CoglContext}
    {node : CoglPipeline} (hp : ctx.pipeline p = some node)
    (h : recursively_free_layer_caches fuel ctx p = some c) :
    c.pipeline p = some { node with layers_cache_dirty := true } := by
  have hd := recursively_free_layer_caches_dirtied fuel ctx p c h
  have h1 := (hd p).1
  rw [hp] at h1
  cases fuel with
  | zero => exact absurd h (by simp [recursively_free_layer_caches])
  | succ k =>
    have hdirty : (c.pipeline p).map (fun m => m.layers_cache_dirty) = some true := by
      unfold recursively_free_layer_caches at h
      rw [hp] at h
      dsimp only at h
      by_cases hnd : node.layers_cache_dirty = true
      · exact (hd p).2 node hp hnd
      · rw [if_neg hnd] at h
        unfold _cogl_pipeline_node_foreach_child at h
        split at h
        · exact absurd h (by simp)
        have hfold := @returned_foldlM _ _ _
          (only_dirtied (ctx.set_pipeline p { node with layers_cache_dirty := true }))
          (fun s a hs => returned_mono (recursively_free_layer_caches_dirtied k s a)
            (fun _ h => only_dirtied_trans hs h)) _ _ (only_dirtied_refl _) _ h
        exact (hfold p).2 _ (pipeline_set_pipeline_self hp _) rfl
    cases hc : c.pipeline p with
    | none => rw [hc] at hdirty; exact absurd hdirty (by simp)
    | some m =>
      rw [hc] at h1 hdirty
      simp only [Option.map_some', Option.some.injEq] at h1 hdirty
      rw [← h1]
      cases m
      simp only at hdirty
      subst hdirty
      rfl

/-- The steps of `_cogl_pipeline_pre_change_notify` before its tail: they keep the
layer state of every pipeline, the one that is changed included, and the tail
keeps the tree. -/
theorem pre_change_notify_split {f p change : Nat} {ctx c : CoglContext}
    {oc : Option CoglColor} {flc : Bool}
    (h : _cogl_pipeline_pre_change_notify (f + 1) ctx p change oc flc = some c) :
    ∃ c5, (∀ d, layers_kept_but d ctx c5) ∧ same_skeleton c5 c ∧
      pre_change_notify_takeover f c5 p change = some c := by
  rw [_cogl_pipeline_pre_change_notify] at h
  unfold pre_change_notify_with at h
  simp only [Option.bind_eq_bind] at h
  obtain ⟨c1, hj, h⟩ := Option.bind_eq_some.mp h
  obtain ⟨c2, hb, h⟩ := Option.bind_eq_some.mp h
  obtain ⟨c3, hd, h⟩ := Option.bind_eq_some.mp h
  obtain ⟨node3, hn3, h⟩ := Option.bind_eq_some.mp h
  obtain ⟨c5, hcow, h⟩ := Option.bind_eq_some.mp h
  refine ⟨c5, ?_, pre_change_notify_takeover_skeleton _ _ _ _ c h, h⟩
  intro d
  have k12 : layers_kept_but d ctx c2 := layers_kept_trans
    (pre_change_notify_journal_kept d _ _ _ _ _ c1 hj)
    (pre_change_notify_backends_kept d _ _ _ _ c2 hb)
  have k3 : layers_kept_but d ctx c3 := by
    unfold _cogl_pipeline_node_foreach_child at hd
    split at hd
    · exact absurd hd (by simp)
    exact returned_foldlM (fun s y hs => kept_step hs (destroy_weak_children_kept d f s y))
      _ _ k12 _ hd
  split at hcow
  · obtain ⟨r, hr, hr1⟩ := Option.map_eq_some'.mp hcow
    rw [← hr1]
    exact layers_kept_trans k3 (copy_on_write_kept d f p c3
      (fun dest c ch oc flc hl => pre_change_notify_leaf_both f c dest ch oc flc hl) r hr)
  · rw [← Option.some.inj hcow]
    exact k3

theorem get_authority_set_same {ctx : CoglContext} {p : Nat} {old v : CoglPipeline}
    (hp : ctx.pipeline p = some old) (hd : v.differences = old.differences)
    (hpar : v.parent = old.parent) (g : Nat) :
    ∀ (f q : Nat), _cogl_pipeline_get_authority (ctx.set_pipeline p v) f q g =
      _cogl_pipeline_get_authority ctx f q g := by
  intro f
  induction f with
  | zero => intro q; rfl
  | succ k ih =>
    intro q
    unfold _cogl_pipeline_get_authority
    by_cases hpq : p = q
    · subst hpq
      rw [pipeline_set_pipeline_self hp, hp]
      simp only [hd, hpar, ih]
    · rw [pipeline_set_pipeline_ne _ hpq]
      cases ctx.pipeline q with
      | none => rfl
      | some a => simp only [ih]

/-- The tail of `_cogl_pipeline_pre_change_notify` for a change of `LAYERS`: the
pipeline asserts `LAYERS` afterwards and its layers cache is stale; its list of
layer differences and its count are as before if it asserted `LAYERS`, and else
the list is empty and the count is that of its `LAYERS` authority. -/
theorem takeover_layers {f p : Nat} {c5 c : CoglContext} {node : CoglPipeline}
    (hp : c5.pipeline p = some node)
    (h : pre_change_notify_takeover f c5 p COGL_PIPELINE_STATE_LAYERS = some c) :
    ∃ node2, c.pipeline p = some node2 ∧ node2.parent = node.parent ∧
      node2.differences &&& COGL_PIPELINE_STATE_LAYERS ≠ 0 ∧
      node2.layers_cache_dirty = true ∧
      (node.differences &&& COGL_PIPELINE_STATE_LAYERS ≠ 0 →
        node2.layer_differences = node.layer_differences ∧ node2.n_layers = node.n_layers) ∧
      (node.differences &&& COGL_PIPELINE_STATE_LAYERS = 0 →
        node2.layer_differences = [] ∧
        ∃ auth, _cogl_pipeline_get_authority c5 f p COGL_PIPELINE_STATE_LAYERS = some auth ∧
          (c5.pipeline auth).map (fun a => a.n_layers) = some node2.n_layers) := by
  unfold pre_change_notify_takeover at h
  simp only [Option.bind_eq_bind, Option.pure_def] at h
  rw [modify_pipeline_some hp] at h
  simp only [Option.some_bind] at h
  rw [modify_pipeline_some (pipeline_set_pipeline_self hp _)] at h
  simp only [Option.some_bind, set_pipeline_set_pipeline, pipeline_set_pipeline_self hp,
    show COGL_PIPELINE_STATE_LAYERS &&& COGL_PIPELINE_STATE_NEEDS_BIG_STATE = 0 from by decide,
    ne_eq, not_true_eq_false, false_and, if_false,
    show ¬ (COGL_PIPELINE_STATE_LAYERS &&& COGL_PIPELINE_STATE_ALL_SPARSE = 0) from by decide,
    not_false_eq_true, true_and] at h
  obtain ⟨cd, hcd, h⟩ := Option.bind_eq_some.mp h
  obtain ⟨ce, hce, h⟩ := Option.bind_eq_some.mp h
  rw [if_pos trivial] at hce
  have hfinal : c.pipeline p = ce.pipeline p := by
    rw [← Option.some.inj h]
    split <;> rfl
  by_cases hhad : node.differences &&& COGL_PIPELINE_STATE_LAYERS = 0
  · rw [if_pos hhad] at hcd
    obtain ⟨ci, hci, hcd⟩ := Option.bind_eq_some.mp hcd
    unfold _cogl_pipeline_init_multi_property_sparse_state at hci
    rw [if_neg (by decide), if_neg (by decide)] at hci
    split at hci
    · exact absurd hci (by simp)
    rename_i auth hauth
    split at hci
    · exact absurd hci (by simp)
    rename_i a ha
    rw [if_pos rfl, modify_pipeline_some (pipeline_set_pipeline_self hp _)] at hci
    rw [← Option.some.inj hci, set_pipeline_set_pipeline,
      modify_pipeline_some (pipeline_set_pipeline_self hp _), set_pipeline_set_pipeline] at hcd
    have hpd := pipeline_set_pipeline_self hp
      { node with age := node.age + 1, n_layers := a.n_layers, layer_differences := [],
                  differences := node.differences ||| COGL_PIPELINE_STATE_LAYERS }
    rw [← Option.some.inj hcd] at hce
    have hm := recursively_free_layer_caches_marks hpd hce
    rw [get_authority_set_same hp (v := { node with age := node.age + 1 }) rfl rfl] at hauth
    refine ⟨_, hfinal.trans hm, rfl, ?_, rfl, fun hh => absurd hhad hh, fun _ => ⟨rfl, auth, hauth, ?_⟩⟩
    · show (node.differences ||| COGL_PIPELINE_STATE_LAYERS) &&& COGL_PIPELINE_STATE_LAYERS ≠ 0
      intro h0
      have h2 := congrArg (fun n => Nat.testBit n 2) h0
      have h4 : Nat.testBit COGL_PIPELINE_STATE_LAYERS 2 = true := by decide
      simp only [Nat.testBit_and, Nat.testBit_or, h4, Bool.or_true, Bool.and_true,
        Nat.zero_testBit] at h2
      exact absurd h2 (by simp)
    · by_cases hap : p = auth
      · subst hap
        rw [pipeline_set_pipeline_self hp] at ha
        rw [hp, ← Option.some.inj ha]
        rfl
      · rw [pipeline_set_pipeline_ne _ hap] at ha
        rw [ha]
        rfl
  · rw [if_neg hhad] at hcd
    rw [← Option.some.inj hcd] at hce
    have hm := recursively_free_layer_caches_marks (pipeline_set_pipeline_self hp _) hce
    exact ⟨_, hfinal.trans hm, rfl, hhad, rfl, fun _ => ⟨rfl, rfl⟩, fun hh => absurd hh hhad⟩

theorem layer_core_fields {a b : CoglPipelineLayer} (h : a.core = b.core) :
    a.parent = b.parent ∧ a.differences = b.differences ∧ a.unit_index = b.unit_index ∧
      a.index = b.index := by
  have h1 := congrArg CoglPipelineLayer.parent h
  have h2 := congrArg CoglPipelineLayer.differences h
  have h3 := congrArg CoglPipelineLayer.unit_index h
  have h4 := congrArg CoglPipelineLayer.index h
  exact ⟨h1, h2, h3, h4⟩

theorem layer_of_kept {d : Nat} {ctx c : CoglContext} (hk : layers_kept_but d ctx c) {L : Nat}
    {l : CoglPipelineLayer} (hl : ctx.layer L = some l) :
    ∃ l2, c.layer L = some l2 ∧ l2.core = l.core := by
  have := hk.2.2.2 L (layer_lt_length hl)
  rw [hl] at this
  cases hc : c.layer L with
  | none => rw [hc] at this; exact absurd this (by simp)
  | some l2 =>
    rw [hc] at this
    exact ⟨l2, rfl, by simpa using this⟩

theorem layer_get_authority_kept {d : Nat} {ctx c : CoglContext}
    (hk : layers_kept_but d ctx c) (g : Nat) :
    ∀ (f l a : Nat), _cogl_pipeline_layer_get_authority ctx f l g = some a →
      _cogl_pipeline_layer_get_authority c f l g = some a := by
  intro f
  induction f with
  | zero =>
    intro l a h
    exact absurd h (by simp [_cogl_pipeline_layer_get_authority])
  | succ k ih =>
    intro l a h
    unfold _cogl_pipeline_layer_get_authority at h ⊢
    cases hl : ctx.layer l with
    | none => rw [hl] at h; exact absurd h (by simp)
    | some ln =>
      rw [hl] at h
      obtain ⟨l2, hl2, hcore⟩ := layer_of_kept hk hl
      obtain ⟨hpar, hdiff, -, -⟩ := layer_core_fields hcore
      rw [hl2]
      dsimp only at h ⊢
      rw [hdiff, hpar]
      split at h
      · rename_i hass
        rw [if_pos hass]
        exact h
      · rename_i hass
        rw [if_neg hass]
        split at h
        · exact absurd h (by simp)
        · exact ih _ _ h

theorem layer_get_unit_index_kept {d : Nat} {ctx c : CoglContext}
    (hk : layers_kept_but d ctx c) {f l u : Nat}
    (h : _cogl_pipeline_layer_get_unit_index ctx f l = some u) :
    _cogl_pipeline_layer_get_unit_index c f l = some u := by
  unfold _cogl_pipeline_layer_get_unit_index at h ⊢
  cases ha : _cogl_pipeline_layer_get_authority ctx f l COGL_PIPELINE_LAYER_STATE_UNIT with
  | none => rw [ha] at h; exact absurd h (by simp)
  | some a =>
    rw [ha] at h
    rw [layer_get_authority_kept hk _ f l a ha]
    dsimp only at h ⊢
    cases hal : ctx.layer a with
    | none => rw [hal] at h; exact absurd h (by simp)
    | some an =>
      rw [hal] at h
      obtain ⟨a2, ha2, hcore⟩ := layer_of_kept hk hal
      rw [ha2]
      simp only [Option.map_some', Option.some.injEq] at h ⊢
      rw [(layer_core_fields hcore).2.2.1]
      exact h

theorem unit_of_kept {d : Nat} {ctx c : CoglContext} (hk : layers_kept_but d ctx c)
    {f l : Nat} (h : (_cogl_pipeline_layer_get_unit_index ctx f l).isSome = true) :
    unit_of c f l = unit_of ctx f l := by
  obtain ⟨u, hu⟩ := Option.isSome_iff_exists.mp h
  unfold unit_of
  rw [hu, layer_get_unit_index_kept hk hu]

/-- A chain of parents read in another context with the same parents. -/
theorem node_path_of_parents {view1 view2 : Nat → Option NodeView} :
    ∀ (path : List Nat) (n : Nat),
      (∀ m ∈ path, (view2 m).map (fun v => v.parent) = (view1 m).map (fun v => v.parent)) →
      node_path view1 n path → node_path view2 n path := by
  intro path
  induction path with
  | nil => intro n _ h; exact h
  | cons x rest ih =>
    intro n hv h
    cases rest with
    | nil =>
      simp only [node_path] at h ⊢
      refine ⟨h.1, ?_⟩
      rw [← h.1, hv x (by simp), h.1]
      exact h.2
    | cons b rest2 =>
      simp only [node_path] at h ⊢
      refine ⟨h.1, ?_, ih b (fun m hm => hv m (List.mem_cons_of_mem x hm)) h.2.2⟩
      rw [← h.1, hv x (by simp), h.1]
      exact h.2.1

theorem all_layers_map_some (l : List Nat) : all_layers (l.map some) = some l := by
  induction l with
  | nil => rfl
  | cons a rest ih =>
    simp only [List.map_cons, all_layers, ih, Option.map_some']

/-! ## The next power of two -/

theorem int32_wrap_id {x : Int} (h1 : -(2 ^ 31) ≤ x) (h2 : x < 2 ^ 31) : int32_wrap x = x := by
  unfold int32_wrap
  rw [Int.emod_eq_of_lt (by omega) (by omega)]
  omega

theorem next_p2_loop_zero (a : Int) (ha : 0 < a) : ∀ fuel, next_p2_loop fuel 0 a = none := by
  intro fuel
  induction fuel with
  | zero => rfl
  | succ k ih =>
    unfold next_p2_loop
    rw [if_pos ha]
    have : int32_wrap (0 * 2) = 0 := by decide
    rw [this]
    exact ih

theorem next_p2_loop_step {fuel : Nat} {rval a : Int} (h : rval < a) :
    next_p2_loop (fuel + 1) rval a = next_p2_loop fuel (int32_wrap (rval * 2)) a := by
  rw [next_p2_loop, if_pos h]

theorem next_p2_loop_powers (a : Int) (ha : a ≤ 2 ^ 30) :
    ∀ (n i : Nat), i + n = 30 → (∀ j, j < i → (2 : Int) ^ j < a) →
      ∃ k, i ≤ k ∧ k ≤ 30 ∧ (∀ fuel, 31 - i ≤ fuel → next_p2_loop fuel (2 ^ i) a = some (2 ^ k)) ∧
        a ≤ 2 ^ k ∧ ∀ j, j < k → (2 : Int) ^ j < a := by
  intro n
  induction n with
  | zero =>
    intro i hi hlow
    have h30 : i = 30 := by omega
    subst h30
    refine ⟨30, Nat.le_refl _, Nat.le_refl _, ?_, ha, hlow⟩
    intro fuel hf
    obtain ⟨f, rfl⟩ : ∃ f, fuel = f + 1 := ⟨fuel - 1, by omega⟩
    rw [next_p2_loop, if_neg (by omega)]
  | succ m ih =>
    intro i hi hlow
    by_cases hlt : (2 : Int) ^ i < a
    · have hlow2 : ∀ j, j < i + 1 → (2 : Int) ^ j < a := by
        intro j hj
        by_cases hji : j = i
        · rw [hji]; exact hlt
        · exact hlow j (by omega)
      obtain ⟨k, hk1, hk2, hrun, hak, hmin⟩ := ih (i + 1) (by omega) hlow2
      refine ⟨k, by omega, hk2, ?_, hak, hmin⟩
      intro fuel hf
      obtain ⟨f, rfl⟩ : ∃ f, fuel = f + 1 := ⟨fuel - 1, by omega⟩
      rw [next_p2_loop_step hlt]
      have hpow : (2 : Int) ^ i * 2 = 2 ^ (i + 1) := by rw [pow_succ]
      have hpos : (0 : Int) < 2 ^ (i + 1) := by positivity
      have hle : (2 : Int) ^ (i + 1) ≤ 2 ^ 30 :=
        pow_le_pow_right₀ (by norm_num) (by omega)
      rw [hpow, int32_wrap_id (by omega) (by omega)]
      exact hrun f (by omega)
    · refine ⟨i, Nat.le_refl _, by omega, ?_, by omega, hlow⟩
      intro fuel hf
      obtain ⟨f, rfl⟩ : ∃ f, fuel = f + 1 := ⟨fuel - 1, by omega⟩
      rw [next_p2_loop, if_neg hlt]

/-- C29: `_cogl_util_next_p2 (0x40000001)` does not return. No power of two of an
`int` is as large as 2^30 + 1: `rval` is doubled up to 2^30, the next shift leaves
the sign bit alone set, the one after leaves 0, and from 0 the loop condition
`rval < a` holds for ever: the call returns neither with 1000 units of fuel nor
with any other amount. -/
theorem next_p2_above_largest_power_never_returns :
    _cogl_util_next_p2 1000 (2 ^ 30 + 1) = none ∧
    (∀ fuel : Nat, _cogl_util_next_p2 fuel (2 ^ 30 + 1) = none) := by
  suffices h : ∀ fuel : Nat, _cogl_util_next_p2 fuel (2 ^ 30 + 1) = none from ⟨h 1000, h⟩
  intro fuel
  unfold _cogl_util_next_p2
  by_cases hf : fuel < 32
  · interval_cases fuel <;> decide
  · obtain ⟨f, rfl⟩ : ∃ f, fuel = f + 32 := ⟨fuel - 32, by omega⟩
    have h32 : next_p2_loop (f + 32) 1 (2 ^ 30 + 1) = next_p2_loop f 0 (2 ^ 30 + 1) := by
      iterate 32 rw [next_p2_loop_step (by decide)]
      rfl
    rw [h32]
    exact next_p2_loop_zero _ (by decide) f

/-- C29: for an `int` `a` up to 2^30 the function `_cogl_util_next_p2` returns, with
any fuel from 31 on, the least power of two that is not below `a`: the result is
`2 ^ k`, it is not below `a`, and every power of two not below `a` is at least
`2 ^ k`. It returns `a` itself when `a` is a power of two, so a second call on the
result gives the result again. -/
theorem next_p2_is_least_power_of_two (a : Int) (ha : a ≤ 2 ^ 30) :
    ∃ k : Nat, k ≤ 30 ∧ (∀ fuel, 31 ≤ fuel → _cogl_util_next_p2 fuel a = some (2 ^ k)) ∧
      a ≤ 2 ^ k ∧ (∀ m : Nat, a ≤ 2 ^ m → (2 : Int) ^ k ≤ 2 ^ m) ∧
      ((∃ m : Nat, a = 2 ^ m) → (2 : Int) ^ k = a) ∧
      (∀ fuel, 31 ≤ fuel → _cogl_util_next_p2 fuel (2 ^ k) = some (2 ^ k)) := by
  obtain ⟨k, -, hk30, hrun, hak, hmin⟩ :=
    next_p2_loop_powers a ha 30 0 (by omega) (fun j hj => absurd hj (by omega))
  have hleast : ∀ m : Nat, a ≤ 2 ^ m → (2 : Int) ^ k ≤ 2 ^ m := by
    intro m hm
    by_cases hmk : m < k
    · exact absurd (hmin m hmk) (by omega)
    · exact pow_le_pow_right₀ (by norm_num) (by omega)
  have hpow : (∃ m : Nat, a = 2 ^ m) → (2 : Int) ^ k = a := by
    rintro ⟨m, hm⟩
    have h1 := hleast m (by omega)
    omega
  refine ⟨k, hk30, ?_, hak, hleast, hpow, ?_⟩
  · intro fuel hf
    unfold _cogl_util_next_p2
    have := hrun fuel (by omega)
    simpa using this
  · intro fuel hf
    have hle : (2 : Int) ^ k ≤ 2 ^ 30 := pow_le_pow_right₀ (by norm_num) hk30
    obtain ⟨k2, -, -, hrun2, hak2, hmin2⟩ :=
      next_p2_loop_powers (2 ^ k) hle 30 0 (by omega) (fun j hj => absurd hj (by omega))
    have hk2 : (2 : Int) ^ k2 = 2 ^ k := by
      have h1 : (2 : Int) ^ k ≤ 2 ^ k2 := hak2
      by_cases hlt : k < k2
      · exact absurd (hmin2 k hlt) (by omega)
      · have : (2 : Int) ^ k2 ≤ 2 ^ k := pow_le_pow_right₀ (by norm_num) (by omega)
        omega
    unfold _cogl_util_next_p2
    have := hrun2 fuel (by omega)
    rw [hk2] at this
    simpa using this

theorem next_p2_is_least_power_of_two_witness :
    (5 : Int) ≤ 2 ^ 30 ∧
    ∃ k : Nat, k ≤ 30 ∧ (∀ fuel, 31 ≤ fuel → _cogl_util_next_p2 fuel 5 = some (2 ^ k)) ∧
      (5 : Int) ≤ 2 ^ k ∧ (∀ m : Nat, (5 : Int) ≤ 2 ^ m → (2 : Int) ^ k ≤ 2 ^ m) ∧
      ((∃ m : Nat, (5 : Int) = 2 ^ m) → (2 : Int) ^ k = 5) ∧
      (∀ fuel, 31 ≤ fuel → _cogl_util_next_p2 fuel (2 ^ k) = some (2 ^ k)) :=
  ⟨by decide, next_p2_is_least_power_of_two 5 (by decide)⟩

/-! ## The combine state of a layer -/

/-- C30: `_cogl_pipeline_need_texture_combine_separate` on a combine authority
whose RGB and alpha combine are both `REPLACE` of the texture, with the RGB operand
`ONE_MINUS_SRC_COLOR` and the alpha operand `SRC_ALPHA`: the operand pair is not one
of those that can be merged, and the function returns FALSE (the inner `default:
return FALSE`). It returns FALSE as well for two `MODULATE` combines whose second
arguments have different sources, because the first operand pair ends the loop. -/
theorem need_texture_combine_separate_false_on_mixed_operands :
    _cogl_pipeline_need_texture_combine_separate (scenario_combine scenario_replace_inverted) 0 =
      some false ∧
    combine_is_shared scenario_replace_inverted = false ∧
    _cogl_pipeline_need_texture_combine_separate (scenario_combine scenario_modulate_mixed) 0 =
      some false ∧
    combine_is_shared scenario_modulate_mixed = false := by
  decide!

/-! ## Evaluations of the copy-on-write snapshot, the journal and the big state -/

/-- C21 (failing input): `p` (1) stores a color of alpha 0x80 below the default
pipeline, whose color is opaque, `p` blends, and `c` (2) is a strong copy of `p`.
`_cogl_pipeline_pre_change_notify (p, POINT_SIZE, NULL, FALSE)` makes the snapshot
`np` (3) above `c`. The snapshot holds the color of alpha 0x80 and asserts `COLOR`,
the blend-enable predicate is true on it as it is on `p`, and `p->real_blend_enable`
is TRUE, but `np->real_blend_enable` is FALSE: it is FALSE after
`cogl_pipeline_copy (parent (p))` and still FALSE after
`_cogl_pipeline_copy_differences (np, p, p->differences)`. -/
theorem snapshot_real_blend_enable_stale :
    (scenario_translucent_parent.pipeline 1).map
        (fun p => (p.parent, p.children, p.differences, p.color.alpha, p.real_blend_enable)) =
      some (some 0, [2], COGL_PIPELINE_STATE_COLOR, 0x80, true) ∧
    (cogl_pipeline_get_color 8 scenario_translucent_parent 0).map cogl_color_get_alpha_byte =
      some 0xff ∧
    scenario_translucent_parent.pipelines.length = 3 ∧
    (scenario_translucent_snapshot.pipeline 3).map
        (fun np => (np.parent, np.children, np.differences, np.color.alpha,
          np.real_blend_enable)) =
      some (some 0, [2], COGL_PIPELINE_STATE_COLOR, 0x80, false) ∧
    _cogl_pipeline_get_real_blend_enabled scenario_translucent_snapshot 1 = some true ∧
    blend_enable_predicate 8 scenario_translucent_snapshot 3 = some true ∧
    blend_enable_predicate 8 scenario_translucent_snapshot 1 = some true ∧
    scenario_translucent_copy_differences = some (false, false) := by
  refine ⟨by decide!, by decide!, by decide!, by decide!, by decide!, by decide!, by decide!,
    by decide!⟩

/-- C22 (failing input): the journal refers to `p` (1), which has a color of alpha
0x80 and blends. `_cogl_pipeline_pre_change_notify (p, COLOR, opaque white, FALSE)`
does not call `cogl_flush`, and the write of the color with
`_cogl_pipeline_update_blend_enable (p, COLOR)` brings `real_blend_enable` from TRUE
to FALSE. In the other direction, from the opaque default color to a color of alpha
0x80, the journal is flushed; a change that leaves the need for blending as it is
(alpha 0x80 to alpha 0x80, opaque to opaque) is not flushed. Each triple is
(flushed, `real_blend_enable` before, `real_blend_enable` after). -/
theorem color_change_to_opaque_skips_flush :
    (scenario_journal_translucent.pipeline 1).map
        (fun p => (decide (0 < p.journal_ref_count), p.color.alpha, p.real_blend_enable)) =
      some (true, 0x80, true) ∧
    color_change_flushes scenario_journal_translucent 1
        (cogl_color_init_from_4ub 0xff 0xff 0xff 0xff) = some (false, true, false) ∧
    color_change_flushes scenario_journal_opaque 1
        (cogl_color_init_from_4ub 0xff 0xff 0xff 0x80) = some (true, false, true) ∧
    color_change_flushes scenario_journal_translucent 1
        (cogl_color_init_from_4ub 0xff 0 0 0x80) = some (false, true, true) ∧
    color_change_flushes scenario_journal_opaque 1
        (cogl_color_init_from_4ub 0xff 0 0 0xff) = some (false, false, false) := by
  decide!

/-- C25 (failing input): in `scenario_pruned_recycled` the layer of index 5 (layer
3) is owned by `a` (1) and listed by `a` alone; `p` (2) asserts `LAYERS` with an
empty `layer_differences` and has the strong child `c` (3). After
`_cogl_pipeline_pre_change_notify (p, COLOR, NULL, FALSE)` the snapshot `np` (4)
asserts `LAYERS` and its `layer_differences`, which no statement assigned, is the
list found in the block: layer 3 is listed by the two pipelines `a` and `np`, and
its owner is `a`. -/
theorem snapshot_lists_layer_of_other_owner :
    pipelines_listing scenario_pruned_recycled 3 = [1] ∧
    (scenario_pruned_recycled.layer 3).map (fun l => l.owner) = some (some 1) ∧
    (scenario_pruned_recycled.pipeline 2).map
        (fun p => (p.children, p.differences, p.layer_differences)) =
      some ([3], COGL_PIPELINE_STATE_LAYERS, []) ∧
    scenario_pruned_recycled.pipelines.length = 4 ∧
    scenario_pruned_recycled_changed.pipelines.length = 5 ∧
    pipelines_listing scenario_pruned_recycled_changed 3 = [1, 4] ∧
    (scenario_pruned_recycled_changed.layer 3).map (fun l => l.owner) = some (some 1) ∧
    (scenario_pruned_recycled_changed.pipeline 4).map
        (fun np => (np.parent, np.children, np.differences, np.layer_differences)) =
      some (some 1, [3], COGL_PIPELINE_STATE_LAYERS, [3]) := by
  refine ⟨by decide!, by decide!, by decide!, by decide!, by decide!, by decide!, by decide!,
    by decide!⟩

/-- C27 (failing input): `p` (1) is a new pipeline without a big state. The point
size 2.0 is written to it (`_cogl_pipeline_pre_change_notify (p, POINT_SIZE, ...)`,
the write, `_cogl_pipeline_update_authority`): `p` asserts `POINT_SIZE` and has a big
state. Then the point size 1.0 of the default pipeline is written to it in the same
way: `_cogl_pipeline_update_authority` finds the value of the parent and clears
`POINT_SIZE`, so that `p->differences` has no group of `NEEDS_BIG_STATE`, while
`has_big_state` stays TRUE. Each pair is (`differences & NEEDS_BIG_STATE`,
`has_big_state`). -/
theorem reverted_pipeline_keeps_big_state :
    big_state_status scenario_new 1 = some (0, false) ∧
    (scenario_new.pipeline 0).map (fun n => n.big_state.point_size) = some 0x3F800000 ∧
    (point_size_change scenario_new 1 0x40000000).bind (fun c => big_state_status c 1) =
      some (COGL_PIPELINE_STATE_POINT_SIZE, true) ∧
    ((point_size_change scenario_new 1 0x40000000).bind
        (fun c => point_size_change c 1 0x3F800000)).bind (fun c => big_state_status c 1) =
      some (0, true) ∧
    ((point_size_change scenario_new 1 0x40000000).bind
        (fun c => point_size_change c 1 0x3F800000)).bind
        (fun c => (c.pipeline 1).map (fun n => n.differences)) = some 0 := by
  decide!

/-- C28 (failing input): `p` (2) is a copy of `a` (1), which owns the layers of index
5 and 7 on units 0 and 1; `p` asserts `LAYERS` with `n_layers` 1 and owns one layer,
derived from the layer of index 7 and on unit 1, so `n_layers` equals the length of
`layer_differences` while the one effective layer of `p`, of index 5, is owned by
`a`. `_cogl_pipeline_prune_redundant_ancestry (p)` makes `p` a child of the default
pipeline (0): afterwards the slot of unit 0 in the layers cache of `p` is NULL and
`_cogl_pipeline_get_layers (p)` does not return. -/
theorem prune_redundant_ancestry_drops_inherited_layer :
    (scenario_own_second_layer.pipeline 2).map
        (fun p => (p.parent, p.differences, p.n_layers, p.layer_differences)) =
      some (some 1, COGL_PIPELINE_STATE_LAYERS, 1, [5]) ∧
    (scenario_own_second_layer.layer 5).map (fun l => (l.parent, l.owner, l.index)) =
      some (some 4, some 2, 7) ∧
    _cogl_pipeline_layer_get_unit_index scenario_own_second_layer 8 5 = some 1 ∧
    layer_indices_and_units 8 scenario_own_second_layer 2 = some [(5, 0)] ∧
    layers_cache_indices 8 scenario_own_second_layer 2 = some [some 5] ∧
    (_cogl_pipeline_prune_redundant_ancestry 8 scenario_own_second_layer 2).map
        (fun c => (c.pipeline 2).map
          (fun p => (p.parent, p.differences, p.n_layers, p.layer_differences))) =
      some (some (some 0, COGL_PIPELINE_STATE_LAYERS, 1, [5])) ∧
    (_cogl_pipeline_prune_redundant_ancestry 8 scenario_own_second_layer 2).bind
        (fun c => layers_cache_indices 8 c 2) = some [none] ∧
    (_cogl_pipeline_prune_redundant_ancestry 8 scenario_own_second_layer 2).bind
        (fun c => layer_indices_and_units 8 c 2) = none := by
  decide!

/-! ## Reference counts under a strong copy -/

theorem strip_fields {a b : CoglPipeline} (h : a.strip = b.strip) :
    a.parent = b.parent ∧ a.is_weak = b.is_weak ∧
      a.has_parent_reference = b.has_parent_reference ∧ a.differences = b.differences := by
  have h1 := congrArg CoglPipeline.parent h
  have h2 := congrArg CoglPipeline.is_weak h
  have h3 := congrArg CoglPipeline.has_parent_reference h
  have h4 := congrArg CoglPipeline.differences h
  exact ⟨h1, h2, h3, h4⟩

theorem pipeline_of_strip {c ctx : CoglContext} {m : Nat} {node : CoglPipeline}
    (h : (c.pipeline m).map CoglPipeline.strip = (ctx.pipeline m).map CoglPipeline.strip)
    (hm : ctx.pipeline m = some node) :
    ∃ node2, c.pipeline m = some node2 ∧ node2.strip = node.strip := by
  rw [hm] at h
  cases hc : c.pipeline m with
  | none => rw [hc] at h; exact absurd h (by simp)
  | some node2 =>
    rw [hc] at h
    exact ⟨node2, rfl, by simpa using h⟩

theorem map_add_refs_zero (x : Option CoglPipeline) :
    x.map (fun node => node.add_refs 0) = x := by
  cases x <;> rfl

theorem map_drop_refs_zero (x : Option CoglPipeline) :
    x.map (fun node => node.drop_refs 0) = x := by
  cases x <;> rfl

theorem weak_chain_parents_not_weak {ctx : CoglContext} {n : Nat} {rest : List Nat}
    {node : CoglPipeline} (hn : ctx.pipeline n = some node) (hw : ¬ node.is_weak = true) :
    weak_chain_parents ctx (n :: rest) = [] := by
  cases rest with
  | nil => rfl
  | cons b rest2 =>
    simp only [weak_chain_parents, hn, Option.map_some', Option.some.injEq, hw, if_false,
      Bool.false_eq_true]

theorem weak_chain_parents_weak {ctx : CoglContext} {n b : Nat} {rest : List Nat}
    {node : CoglPipeline} (hn : ctx.pipeline n = some node) (hw : node.is_weak = true) :
    weak_chain_parents ctx (n :: b :: rest) = b :: weak_chain_parents ctx (b :: rest) := by
  simp only [weak_chain_parents, hn, Option.map_some', hw, if_true]

/-- The loop of `_cogl_pipeline_promote_weak_ancestors` adds one reference for each
entry of `weak_chain_parents` and changes nothing else. -/
theorem promote_loop_counts :
    ∀ (path : List Nat) (n root fuel : Nat) (ctx c : CoglContext),
      pipeline_path ctx n path → path.getLast? = some root → pipeline_not_weak ctx root →
      path.length ≤ fuel →
      (∀ m ∈ path, (c.pipeline m).map CoglPipeline.strip =
        (ctx.pipeline m).map CoglPipeline.strip) →
      ∃ c2, promote_weak_ancestors_loop fuel c n = some c2 ∧
        (∀ q, c2.pipeline q = (c.pipeline q).map
          (fun node => node.add_refs ((weak_chain_parents ctx path).count q))) ∧
        c2 = { c with pipelines := c2.pipelines } := by
  intro path
  induction path with
  | nil => intro n root fuel ctx c h; exact absurd h (by simp [pipeline_path, node_path])
  | cons x rest ih =>
    intro n root fuel ctx c hpath hlast hroot hfuel hagree
    obtain ⟨r, hr⟩ := node_path_head hpath
    obtain rfl := (List.cons.inj hr).1
    obtain ⟨k, rfl⟩ : ∃ k, fuel = k + 1 := ⟨fuel - 1, by simp at hfuel; omega⟩
    have hvalid := node_path_valid _ _ hpath x (by simp)
    simp only [pipeline_view, Option.isSome_map'] at hvalid
    obtain ⟨node, hnode⟩ := Option.isSome_iff_exists.mp hvalid
    obtain ⟨node2, hnode2, hstrip⟩ := pipeline_of_strip (hagree x (by simp)) hnode
    obtain ⟨hpar, hweak, -, -⟩ := strip_fields hstrip
    simp only [promote_weak_ancestors_loop, hnode2]
    by_cases hw : node.is_weak = true
    · rw [hweak, hw, if_pos rfl]
      cases rest with
      | nil =>
        simp at hlast
        subst hlast
        simp [pipeline_not_weak, hnode, hw] at hroot
      | cons b rest2 =>
        simp only [pipeline_path, node_path, pipeline_view, hnode, Option.map_some'] at hpath
        obtain ⟨-, h2, h3⟩ := hpath
        have h2b : node.parent = some b := by simpa using h2
        rw [hpar, h2b]
        dsimp only
        have hbvalid := node_path_valid _ _ h3 b (by simp)
        simp only [pipeline_view, Option.isSome_map'] at hbvalid
        obtain ⟨bnode, hbnode⟩ := Option.isSome_iff_exists.mp hbvalid
        obtain ⟨bnode2, hbnode2, hbstrip⟩ := pipeline_of_strip (hagree b (by simp)) hbnode
        rw [cogl_object_ref_spec hbnode2]
        dsimp only
        have hagree1 : ∀ m ∈ b :: rest2,
            ((c.set_pipeline b { bnode2 with ref_count := bnode2.ref_count + 1 }).pipeline m).map
              CoglPipeline.strip = (ctx.pipeline m).map CoglPipeline.strip := by
          intro m hm
          by_cases hmb : b = m
          · subst hmb
            rw [pipeline_set_pipeline_self hbnode2, hbnode]
            simp only [Option.map_some', Option.some.injEq]
            exact hbstrip
          · rw [pipeline_set_pipeline_ne _ hmb]
            exact hagree m (List.mem_cons_of_mem _ hm)
        have hlast1 : (b :: rest2).getLast? = some root := by
          rw [← hlast]; simp [List.getLast?_cons_cons]
        obtain ⟨c2, hrun, hcnt, heq⟩ :=
          ih b root k ctx _ h3 hlast1 hroot (by simp at hfuel ⊢; omega) hagree1
        refine ⟨c2, hrun, ?_, ?_⟩
        · intro q
          rw [hcnt q, weak_chain_parents_weak hnode hw]
          by_cases hqb : b = q
          · subst hqb
            rw [pipeline_set_pipeline_self hbnode2, hbnode2]
            simp only [Option.map_some', Option.some.injEq, CoglPipeline.add_refs,
              List.count_cons_self]
            congr 1
            omega
          · rw [pipeline_set_pipeline_ne _ hqb, List.count_cons_of_ne (Ne.symm hqb)]
        · rw [heq]
          rfl
    · have hw2 : ¬ node2.is_weak = true := by rw [hweak]; exact hw
      rw [if_neg hw2]
      refine ⟨c, rfl, ?_, rfl⟩
      intro q
      rw [weak_chain_parents_not_weak hnode hw, List.count_nil, map_add_refs_zero]

/-- The loop of `_cogl_pipeline_revert_weak_ancestors` drops one reference for each
entry of `weak_chain_parents` and changes nothing else. -/
theorem revert_loop_counts :
    ∀ (path : List Nat) (n root fuel : Nat) (ctx c : CoglContext),
      pipeline_path ctx n path → path.getLast? = some root → pipeline_not_weak ctx root →
      path.length ≤ fuel →
      (∀ m ∈ path, (c.pipeline m).map CoglPipeline.strip =
        (ctx.pipeline m).map CoglPipeline.strip) →
      ∃ c2, revert_weak_ancestors_loop fuel c n = some c2 ∧
        (∀ q, c2.pipeline q = (c.pipeline q).map
          (fun node => node.drop_refs ((weak_chain_parents ctx path).count q))) ∧
        c2 = { c with pipelines := c2.pipelines } := by
  intro path
  induction path with
  | nil => intro n root fuel ctx c h; exact absurd h (by simp [pipeline_path, node_path])
  | cons x rest ih =>
    intro n root fuel ctx c hpath hlast hroot hfuel hagree
    obtain ⟨r, hr⟩ := node_path_head hpath
    obtain rfl := (List.cons.inj hr).1
    obtain ⟨k, rfl⟩ : ∃ k, fuel = k + 1 := ⟨fuel - 1, by simp at hfuel; omega⟩
    have hvalid := node_path_valid _ _ hpath x (by simp)
    simp only [pipeline_view, Option.isSome_map'] at hvalid
    obtain ⟨node, hnode⟩ := Option.isSome_iff_exists.mp hvalid
    obtain ⟨node2, hnode2, hstrip⟩ := pipeline_of_strip (hagree x (by simp)) hnode
    obtain ⟨hpar, hweak, -, -⟩ := strip_fields hstrip
    simp only [revert_weak_ancestors_loop, hnode2]
    by_cases hw : node.is_weak = true
    · rw [hweak, hw, if_pos rfl]
      cases rest with
      | nil =>
        simp at hlast
        subst hlast
        simp [pipeline_not_weak, hnode, hw] at hroot
      | cons b rest2 =>
        simp only [pipeline_path, node_path, pipeline_view, hnode, Option.map_some'] at hpath
        obtain ⟨-, h2, h3⟩ := hpath
        have h2b : node.parent = some b := by simpa using h2
        rw [hpar, h2b]
        dsimp only
        have hbvalid := node_path_valid _ _ h3 b (by simp)
        simp only [pipeline_view, Option.isSome_map'] at hbvalid
        obtain ⟨bnode, hbnode⟩ := Option.isSome_iff_exists.mp hbvalid
        obtain ⟨bnode2, hbnode2, hbstrip⟩ := pipeline_of_strip (hagree b (by simp)) hbnode
        simp only [cogl_object_unref, hbnode2]
        have hagree1 : ∀ m ∈ b :: rest2,
            ((c.set_pipeline b { bnode2 with ref_count := bnode2.ref_count - 1 }).pipeline m).map
              CoglPipeline.strip = (ctx.pipeline m).map CoglPipeline.strip := by
          intro m hm
          by_cases hmb : b = m
          · subst hmb
            rw [pipeline_set_pipeline_self hbnode2, hbnode]
            simp only [Option.map_some', Option.some.injEq]
            exact hbstrip
          · rw [pipeline_set_pipeline_ne _ hmb]
            exact hagree m (List.mem_cons_of_mem _ hm)
        have hlast1 : (b :: rest2).getLast? = some root := by
          rw [← hlast]; simp [List.getLast?_cons_cons]
        obtain ⟨c2, hrun, hcnt, heq⟩ :=
          ih b root k ctx _ h3 hlast1 hroot (by simp at hfuel ⊢; omega) hagree1
        refine ⟨c2, hrun, ?_, ?_⟩
        · intro q
          rw [hcnt q, weak_chain_parents_weak hnode hw]
          by_cases hqb : b = q
          · subst hqb
            rw [pipeline_set_pipeline_self hbnode2, hbnode2]
            simp only [Option.map_some', Option.some.injEq, CoglPipeline.drop_refs,
              List.count_cons_self]
            congr 1
            omega
          · rw [pipeline_set_pipeline_ne _ hqb, List.count_cons_of_ne (Ne.symm hqb)]
        · rw [heq]
          rfl
    · have hw2 : ¬ node2.is_weak = true := by rw [hweak]; exact hw
      rw [if_neg hw2]
      refine ⟨c, rfl, ?_, rfl⟩
      intro q
      rw [weak_chain_parents_not_weak hnode hw, List.count_nil, map_drop_refs_zero]

theorem weak_chain_parents_subset (ctx : CoglContext) :
    ∀ (path : List Nat), ∀ q ∈ weak_chain_parents ctx path, q ∈ path.tail := by
  intro path
  induction path with
  | nil => intro q hq; exact absurd hq (by simp [weak_chain_parents])
  | cons n rest ih =>
    cases rest with
    | nil => intro q hq; exact absurd hq (by simp [weak_chain_parents])
    | cons b rest2 =>
      intro q hq
      simp only [weak_chain_parents] at hq
      split at hq
      · rcases List.mem_cons.mp hq with h | h
        · rw [h]; simp
        · have := ih q h
          simp only [List.tail_cons] at this ⊢
          exact List.mem_cons_of_mem _ this
      · exact absurd hq (by simp)

theorem weak_chain_parents_sublist (ctx : CoglContext) :
    ∀ (path : List Nat), (weak_chain_parents ctx path).Sublist path.tail := by
  intro path
  induction path with
  | nil => simp [weak_chain_parents]
  | cons n rest ih =>
    cases rest with
    | nil => simp [weak_chain_parents]
    | cons b rest2 =>
      simp only [weak_chain_parents, List.tail_cons]
      split
      · simp only [List.tail_cons] at ih
        exact List.Sublist.cons₂ b ih
      · exact List.nil_sublist _

/-- The entries of `weak_chain_parents`: `q` is counted when it is the parent of a
node `m` of the chain such that every node from the head of the chain to `m` is
weak. -/
theorem mem_weak_chain_parents (ctx : CoglContext) :
    ∀ (path : List Nat) (q : Nat), q ∈ weak_chain_parents ctx path ↔
      ∃ pre m post, path = pre ++ m :: q :: post ∧
        ∀ x ∈ pre ++ [m], (ctx.pipeline x).map (fun node => node.is_weak) = some true := by
  intro path
  induction path with
  | nil =>
    intro q
    simp [weak_chain_parents]
  | cons n rest ih =>
    cases rest with
    | nil =>
      intro q
      simp only [weak_chain_parents, List.not_mem_nil, false_iff]
      rintro ⟨pre, m, post, h, -⟩
      have := congrArg List.length h
      simp at this
      omega
    | cons b rest2 =>
      intro q
      simp only [weak_chain_parents]
      constructor
      · intro hq
        split at hq
        · rename_i hw
          rcases List.mem_cons.mp hq with h | h
          · refine ⟨[], n, rest2, by rw [h]; rfl, ?_⟩
            intro x hx
            simp at hx
            rw [hx]; exact hw
          · obtain ⟨pre, m, post, hp, hall⟩ := (ih q).mp h
            refine ⟨n :: pre, m, post, by rw [hp]; rfl, ?_⟩
            intro x hx
            rcases List.mem_cons.mp hx with h1 | h1
            · rw [h1]; exact hw
            · exact hall x h1
        · exact absurd hq (by simp)
      · rintro ⟨pre, m, post, hp, hall⟩
        cases pre with
        | nil =>
          simp only [List.nil_append, List.cons.injEq] at hp
          obtain ⟨h1, h2, -⟩ := hp
          have hw := hall m (by simp)
          rw [← h1] at hw
          rw [if_pos hw, h2]
          simp
        | cons p0 pre2 =>
          simp only [List.cons_append, List.cons.injEq] at hp
          obtain ⟨h1, h2⟩ := hp
          have hw := hall p0 (by simp)
          rw [← h1] at hw
          rw [if_pos hw]
          exact List.mem_cons_of_mem _ ((ih q).mpr ⟨pre2, m, post, h2,
            fun x hx => hall x (List.mem_cons_of_mem _ hx)⟩)

/-- What `cogl_pipeline_copy` does to the reference counts and the child lists, on a
pipeline with a path to a root that is not weak. -/
theorem pipeline_copy_counts (ctx : CoglContext) (src root fuel : Nat) (path : List Nat)
    (hpath : pipeline_path ctx src path) (hlast : path.getLast? = some root)
    (hroot : pipeline_not_weak ctx root) (hfuel : path.length ≤ fuel) :
    ∃ c1 cn, cogl_pipeline_copy fuel ctx src = some (c1, ctx.pipelines.length) ∧
      c1.pipeline ctx.pipelines.length = some cn ∧ cn.parent = some src ∧
      cn.is_weak = false ∧ cn.children = [] ∧ cn.has_parent_reference = true ∧
      cn.differences = 0 ∧ cn.layers_cache_dirty = true ∧ cn.ref_count = 1 ∧
      (∀ q node, ctx.pipeline q = some node → c1.pipeline q = some
        { node with
          ref_count := node.ref_count + (if q = src then 1 else 0) +
            (weak_chain_parents ctx path).count q
          children := if q = src then ctx.pipelines.length :: node.children
            else node.children }) := by
  have hv := node_path_valid _ _ hpath src (by
    obtain ⟨r, hr⟩ := node_path_head hpath; rw [hr]; simp)
  simp only [pipeline_view, Option.isSome_map'] at hv
  obtain ⟨s, hs⟩ := Option.isSome_iff_exists.mp hv
  have hsrc_lt := pipeline_lt_length hs
  have hne : src ≠ ctx.pipelines.length := Nat.ne_of_lt hsrc_lt
  unfold cogl_pipeline_copy _cogl_pipeline_copy
  simp only [hs, Bool.not_false, if_true]
  generalize hnode0 : ({ ctx.slice_pipeline with
        parent := none
        children := []
        is_weak := false
        journal_ref_count := 0
        differences := 0
        has_big_state := false
        real_blend_enable := s.real_blend_enable
        layers_cache_dirty := true
        deprecated_get_layers_list := []
        deprecated_get_layers_list_dirty := true
        fragend := s.fragend
        vertend := s.vertend
        has_static_breadcrumb := false
        age := 0 } : CoglPipeline) = node0
  have hn0p : node0.parent = none := by rw [← hnode0]
  generalize hctx1 : ({ ctx with pipelines := ctx.pipelines ++ [node0] } : CoglContext) = ctx1
  have h1new : ctx1.pipeline ctx.pipelines.length = some node0 := by
    rw [← hctx1]; exact pipeline_append_new ctx node0
  have h1old : ∀ q, q < ctx.pipelines.length → ctx1.pipeline q = ctx.pipeline q := by
    intro q hq; rw [← hctx1]; exact pipeline_append_old node0 hq
  have h1src : ctx1.pipeline src = some s := by rw [h1old src hsrc_lt]; exact hs
  unfold _cogl_pipeline_set_parent
  rw [set_parent_real_orphan h1new hn0p h1src hne true]
  simp only [if_true]
  generalize hsrc2 : ({ s with ref_count := s.ref_count + 1, children := ctx.pipelines.length :: s.children } : CoglPipeline) = s2
  generalize hnode1 : ({ node0 with parent := some src, has_parent_reference := true } : CoglPipeline) = node1
  have hn1 : node1.parent = some src ∧ node1.differences = 0 ∧ node1.is_weak = false ∧
      node1.has_parent_reference = true ∧ node1.children = [] ∧
      node1.layers_cache_dirty = true := by
    rw [← hnode1, ← hnode0]; simp
  generalize hctx4 : (ctx1.set_pipeline src s2).set_pipeline ctx.pipelines.length node1 = ctx4
  have h4new : ctx4.pipeline ctx.pipelines.length = some node1 := by
    rw [← hctx4]
    exact pipeline_set_pipeline_self
      (by rw [pipeline_set_pipeline_ne _ hne]; exact h1new) _
  have h4src : ctx4.pipeline src = some s2 := by
    rw [← hctx4, pipeline_set_pipeline_ne _ (Ne.symm hne)]
    exact pipeline_set_pipeline_self h1src _
  have h4old : ∀ q, q ≠ src → q ≠ ctx.pipelines.length → ctx4.pipeline q = ctx1.pipeline q := by
    intro q h1 h2
    rw [← hctx4, pipeline_set_pipeline_ne _ (Ne.symm h2), pipeline_set_pipeline_ne _ (Ne.symm h1)]
  simp only [h4new, hn1.2.1]
  simp only [show ¬ (0 &&& COGL_PIPELINE_STATE_LAYERS ≠ 0) by decide, if_false]
  generalize hctx5 : (if node1.fragend ≠ COGL_PIPELINE_FRAGEND_UNDEFINED
      then some (ctx4.emit (CoglEvent.fragend_set_parent_notify ctx.pipelines.length))
      else some ctx4) = r5
  obtain ⟨ctx5, hr5, h5p⟩ : ∃ ctx5, r5 = some ctx5 ∧
      (∀ q, ctx5.pipeline q = ctx4.pipeline q) := by
    rw [← hctx5]
    split
    · exact ⟨_, rfl, fun q => rfl⟩
    · exact ⟨_, rfl, fun q => rfl⟩
  rw [hr5]
  simp only
  unfold _cogl_pipeline_promote_weak_ancestors
  simp only [h5p, h4new, hn1.2.2.1, hn1.1, Bool.false_eq_true, if_false]
  have hagree : ∀ m ∈ path, (ctx5.pipeline m).map CoglPipeline.strip =
      (ctx.pipeline m).map CoglPipeline.strip := by
    intro m hm
    have hv := node_path_valid _ _ hpath m hm
    simp only [pipeline_view, Option.isSome_map'] at hv
    obtain ⟨mn, hmn⟩ := Option.isSome_iff_exists.mp hv
    have hmlt := pipeline_lt_length hmn
    rw [h5p]
    by_cases hms : m = src
    · subst hms
      rw [h4src, hs, ← hsrc2]
      rfl
    · rw [h4old m hms (Nat.ne_of_lt hmlt), h1old m hmlt]
  obtain ⟨ctx6, hrun, hcnt, -⟩ :=
    promote_loop_counts path src root fuel ctx ctx5 hpath hlast hroot hfuel hagree
  rw [hrun]
  simp only
  have h6new : ctx6.pipeline ctx.pipelines.length = some
      (node1.add_refs ((weak_chain_parents ctx path).count ctx.pipelines.length)) := by
    rw [hcnt, h5p, h4new]; rfl
  rw [h6new]
  simp only
  refine ⟨_, _, rfl, pipeline_set_pipeline_self h6new _, hn1.1, hn1.2.2.1, hn1.2.2.2.2.1,
    hn1.2.2.2.1, hn1.2.1, hn1.2.2.2.2.2, rfl, ?_⟩
  intro q old hq
  have hqlt := pipeline_lt_length hq
  rw [pipeline_set_pipeline_ne _ (Ne.symm (Nat.ne_of_lt hqlt)), hcnt, h5p]
  by_cases hqs : q = src
  · subst hqs
    rw [hs] at hq
    obtain rfl := Option.some.inj hq
    rw [h4src, ← hsrc2]
    simp only [Option.map_some', CoglPipeline.add_refs, if_true]
  · rw [h4old q hqs (Nat.ne_of_lt hqlt), h1old q hqlt, hq]
    simp only [Option.map_some', CoglPipeline.add_refs, if_neg hqs, Nat.add_zero]

theorem weak_chain_parents_nodup {ctx : CoglContext} {src : Nat} {path : List Nat}
    (hpath : pipeline_path ctx src path) :
    (weak_chain_parents ctx path).Nodup ∧ src ∉ weak_chain_parents ctx path := by
  have hnd : path.Nodup := node_path_nodup _ _ hpath
  obtain ⟨rest, hr⟩ := node_path_head hpath
  subst hr
  have hnd2 := List.nodup_cons.mp hnd
  refine ⟨(weak_chain_parents_sublist ctx (src :: rest)).nodup (by simpa using hnd2.2), ?_⟩
  intro hmem
  have := weak_chain_parents_subset ctx (src :: rest) src hmem
  exact hnd2.1 (by simpa using this)

theorem free_of_fresh_copy {fuel : Nat} {ctx c1 : CoglContext} {src root : Nat} {path : List Nat}
    {cn s : CoglPipeline}
    (hpath : pipeline_path ctx src path) (hlast : path.getLast? = some root)
    (hroot : pipeline_not_weak ctx root) (hfuel : path.length ≤ fuel)
    (hs : ctx.pipeline src = some s)
    (hcn : c1.pipeline ctx.pipelines.length = some cn) (hcnpar : cn.parent = some src)
    (hcnweak : cn.is_weak = false) (hcnch : cn.children = [])
    (hcnref : cn.has_parent_reference = true) (hcndiff : cn.differences = 0)
    (hcndirty : cn.layers_cache_dirty = true)
    (hold : ∀ q node, ctx.pipeline q = some node → c1.pipeline q = some
        { node with
          ref_count := node.ref_count + (if q = src then 1 else 0) +
            (weak_chain_parents ctx path).count q
          children := if q = src then ctx.pipelines.length :: node.children
            else node.children }) :
    ∃ c2, _cogl_pipeline_free fuel c1 ctx.pipelines.length = some c2 ∧
      (∀ q node, ctx.pipeline q = some node → c2.pipeline q = some node) := by
  have hsrc_lt := pipeline_lt_length hs
  have hne : src ≠ ctx.pipelines.length := Nat.ne_of_lt hsrc_lt
  have hagree1 : ∀ m ∈ path, (c1.pipeline m).map CoglPipeline.strip =
      (ctx.pipeline m).map CoglPipeline.strip := by
    intro m hm
    have hv := node_path_valid _ _ hpath m hm
    simp only [pipeline_view, Option.isSome_map'] at hv
    obtain ⟨mn, hmn⟩ := Option.isSome_iff_exists.mp hv
    rw [hold m mn hmn, hmn]
    rfl
  obtain ⟨c2a, hrev, hcnt2, -⟩ :=
    revert_loop_counts path src root fuel ctx c1 hpath hlast hroot hfuel hagree1
  obtain ⟨k, rfl⟩ : ∃ k, fuel = k + 1 := ⟨fuel - 1, by
    have : 0 < path.length := by
      obtain ⟨rest, hr⟩ := node_path_head hpath
      rw [hr]; simp
    omega⟩
  generalize hK : weak_chain_parents ctx path = K at hold hcnt2
  generalize hL : ctx.pipelines.length = L at *
  have h2len : c2a.pipeline L = some (cn.drop_refs (K.count L)) := by
    rw [hcnt2, hcn]; rfl
  have h2src : c2a.pipeline src = some
      { s with ref_count := s.ref_count + 1 + K.count src - K.count src,
               children := L :: s.children } := by
    rw [hcnt2, hold src s hs]
    simp only [if_true, Option.map_some', CoglPipeline.drop_refs]
  have h2old : ∀ q node, q ≠ src → ctx.pipeline q = some node → c2a.pipeline q = some node := by
    intro q node hq hn
    rw [hcnt2, hold q node hn]
    simp only [if_neg hq, Option.map_some', CoglPipeline.drop_refs, Nat.add_zero,
      Nat.add_sub_cancel]
  unfold _cogl_pipeline_free
  simp only [hcn, hcnweak, Bool.not_false, if_true]
  unfold _cogl_pipeline_revert_weak_ancestors
  simp only [hcn, hcnweak, Bool.false_eq_true, if_false, hcnpar, hrev]
  simp only [_cogl_pipeline_node_foreach_child, h2len, CoglPipeline.drop_refs, hcnch,
    List.foldlM_nil, Option.pure_def, ne_eq, not_true_eq_false, if_false]
  unfold _cogl_pipeline_unparent _cogl_pipeline_node_unparent_real
  simp only [h2len, CoglPipeline.drop_refs, hcnpar, h2src, hcnref, if_true]
  simp only [List.cons_ne_nil, if_false, List.erase_cons_head, cogl_object_unref,
    pipeline_set_pipeline_self h2src, set_pipeline_set_pipeline]
  have hs1 : ({ s with
      ref_count := s.ref_count + 1 + K.count src - K.count src - 1,
      children := s.children } : CoglPipeline) = s := by
    have : s.ref_count + 1 + K.count src - K.count src - 1 = s.ref_count := by omega
    rw [this]
  simp only [hs1]
  have h3len : (c2a.set_pipeline src s).pipeline L = some (cn.drop_refs (K.count L)) := by
    rw [pipeline_set_pipeline_ne _ hne]; exact h2len
  simp only [h3len, CoglPipeline.drop_refs, hcndiff]
  simp only [show ¬ (0 &&& COGL_PIPELINE_STATE_LAYERS ≠ 0) by decide, if_false]
  unfold recursively_free_layer_caches
  have h3len2 := h3len
  simp only [CoglPipeline.drop_refs] at h3len2
  simp only [pipeline_set_pipeline_self h3len2, hcndirty, if_true]
  refine ⟨_, rfl, ?_⟩
  intro q node hq
  have hqlt := pipeline_lt_length hq
  rw [hL] at hqlt
  have hqL : L ≠ q := Ne.symm (Nat.ne_of_lt hqlt)
  change ((c2a.set_pipeline src s).set_pipeline L _).pipeline q = some node
  rw [pipeline_set_pipeline_ne _ hqL]
  by_cases hqs : q = src
  · subst hqs
    rw [pipeline_set_pipeline_self h2src]
    rw [hs] at hq
    exact hq
  · rw [pipeline_set_pipeline_ne _ (Ne.symm hqs)]
    exact h2old q node hqs hq

/-- C23: a strong copy and its release leave the reference counts as they were. Let
`src` have a chain `path` of parents up to a root that is not weak. Then
`cogl_pipeline_copy (src)` returns a new pipeline, and on every pipeline `q` that was
there the reference count is the old one, plus one if `q` is `src`, plus one if `q`
is the parent of a node `m` of the chain such that all nodes from `src` to `m` are
weak; there is no such `q` when `src` is not weak. `_cogl_pipeline_free` of the copy
then returns, and every pipeline that was there before the copy has its old record
again, reference count and child list included. -/
theorem strong_copy_then_free_restores_ref_counts (ctx : CoglContext) (src root fuel : Nat)
    (path : List Nat) (hpath : pipeline_path ctx src path) (hlast : path.getLast? = some root)
    (hroot : pipeline_not_weak ctx root) (hfuel : path.length ≤ fuel) :
    ∃ c1 c2, cogl_pipeline_copy fuel ctx src = some (c1, ctx.pipelines.length) ∧
      (∀ q node, ctx.pipeline q = some node →
        (c1.pipeline q).map (fun n => n.ref_count) =
          some (node.ref_count + (if q = src then 1 else 0) +
            (if q ∈ weak_chain_parents ctx path then 1 else 0))) ∧
      (∀ q, q ∈ weak_chain_parents ctx path ↔
        ∃ pre m post, path = pre ++ m :: q :: post ∧
          ∀ x ∈ pre ++ [m], (ctx.pipeline x).map (fun node => node.is_weak) = some true) ∧
      src ∉ weak_chain_parents ctx path ∧
      (pipeline_not_weak ctx src → weak_chain_parents ctx path = []) ∧
      _cogl_pipeline_free fuel c1 ctx.pipelines.length = some c2 ∧
      (∀ q node, ctx.pipeline q = some node → c2.pipeline q = some node) := by
  obtain ⟨c1, cn, hcopy, hcn, hcnpar, hcnweak, hcnch, hcnref, hcndiff, hcndirty, -, hold⟩ :=
    pipeline_copy_counts ctx src root fuel path hpath hlast hroot hfuel
  have hv := node_path_valid _ _ hpath src (by
    obtain ⟨r, hr⟩ := node_path_head hpath; rw [hr]; simp)
  simp only [pipeline_view, Option.isSome_map'] at hv
  obtain ⟨s, hs⟩ := Option.isSome_iff_exists.mp hv
  obtain ⟨c2, hfree, hrestored⟩ := free_of_fresh_copy hpath hlast hroot hfuel hs hcn hcnpar
    hcnweak hcnch hcnref hcndiff hcndirty hold
  obtain ⟨hnd, hsrc⟩ := weak_chain_parents_nodup hpath
  refine ⟨c1, c2, hcopy, ?_, mem_weak_chain_parents ctx path, hsrc, ?_, hfree, hrestored⟩
  · intro q node hq
    rw [hold q node hq, List.count_eq_of_nodup hnd]
    rfl
  · intro hnw
    obtain ⟨rest, hr⟩ := node_path_head hpath
    subst hr
    unfold pipeline_not_weak at hnw
    rw [hs] at hnw
    exact weak_chain_parents_not_weak hs (by
      simp only [Option.map_some', Option.some.injEq] at hnw
      rw [hnw]; simp)

/-! ## Reference counts under a change of parent -/

theorem count_erase_one {l : List Nat} {a : Nat} (h : l.count a = 1) : a ∉ l.erase a := by
  intro hmem
  have h1 : (l.erase a).count a = 0 := by
    rw [List.count_erase_self, h]
  have h2 := List.count_pos_iff.mpr hmem
  omega

theorem ne_nil_of_count_one {l : List Nat} {a : Nat} (h : l.count a = 1) : l ≠ [] := by
  intro hl
  rw [hl] at h
  simp at h

theorem pipeline_record_eq (a : CoglPipeline) {r1 r2 : Nat} {c1 c2 : List Nat} (hr : r1 = r2)
    (hc : c1 = c2) :
    ({ a with ref_count := r1, children := c1 } : CoglPipeline) =
      { a with ref_count := r2, children := c2 } := by
  subst hr
  subst hc
  rfl

theorem set_parent_real_same {ctx : CoglContext} {node parent : Nat} {n pn : CoglPipeline}
    (strong : Bool)
    (hn : ctx.pipeline node = some n) (hp : ctx.pipeline parent = some pn) (hne : node ≠ parent)
    (hpar : n.parent = some parent) (hch : pn.children ≠ []) :
    ∃ ctx2, _cogl_pipeline_node_set_parent_real ctx node parent strong = some ctx2 ∧
      ctx2.pipeline node = some { n with parent := some parent, has_parent_reference := strong } ∧
      ctx2.pipeline parent = some
        { pn with
          ref_count := pn.ref_count + 1 - (if n.has_parent_reference = true then 1 else 0) -
            (if strong = true then 0 else 1)
          children := node :: pn.children.erase node } ∧
      (∀ z, z ≠ node → z ≠ parent → ctx2.pipeline z = ctx.pipeline z) := by
  have hnlt := pipeline_lt_length hn
  have hplt := pipeline_lt_length hp
  unfold _cogl_pipeline_node_set_parent_real _cogl_pipeline_unparent
    _cogl_pipeline_node_unparent_real
  cases strong <;> cases hh : n.has_parent_reference <;>
    simp only [cogl_object_ref, cogl_object_unref, hp, hn, hpar, pipeline_set_pipeline,
      length_set_pipeline, hnlt, hplt, if_true, hne, Ne.symm hne, if_false, Option.isSome_some,
      hch, hh, Bool.false_eq_true, Bool.not_false, Bool.not_true, set_pipeline_set_pipeline]
  all_goals
    refine ⟨_, rfl, ?_, ?_, ?_⟩
    · simp only [pipeline_set_pipeline, length_set_pipeline, hnlt, hplt, hne, Ne.symm hne,
        if_true, if_false]
    · simp only [pipeline_set_pipeline, length_set_pipeline, hnlt, hplt, hne, Ne.symm hne,
        if_true, if_false, Option.some.injEq, Bool.false_eq_true] <;>
      exact pipeline_record_eq pn (by omega) rfl
    · intro z hz1 hz2
      simp only [pipeline_set_pipeline, Ne.symm hz1, Ne.symm hz2, if_false]

theorem set_parent_real_moved {ctx : CoglContext} {node parent q : Nat} {n pn qn : CoglPipeline}
    (strong : Bool)
    (hn : ctx.pipeline node = some n) (hp : ctx.pipeline parent = some pn) (hne : node ≠ parent)
    (hpar : n.parent = some q) (hq : ctx.pipeline q = some qn) (hqn : q ≠ node)
    (hqp : q ≠ parent) (hch : qn.children ≠ []) :
    ∃ ctx2, _cogl_pipeline_node_set_parent_real ctx node parent strong = some ctx2 ∧
      ctx2.pipeline node = some { n with parent := some parent, has_parent_reference := strong } ∧
      ctx2.pipeline parent = some
        { pn with
          ref_count := pn.ref_count + 1 - (if strong = true then 0 else 1)
          children := node :: pn.children } ∧
      ctx2.pipeline q = some
        { qn with
          ref_count := qn.ref_count - (if n.has_parent_reference = true then 1 else 0)
          children := qn.children.erase node } ∧
      (∀ z, z ≠ node → z ≠ parent → z ≠ q → ctx2.pipeline z = ctx.pipeline z) := by
  have hnlt := pipeline_lt_length hn
  have hplt := pipeline_lt_length hp
  have hqlt := pipeline_lt_length hq
  unfold _cogl_pipeline_node_set_parent_real _cogl_pipeline_unparent
    _cogl_pipeline_node_unparent_real
  cases strong <;> cases hh : n.has_parent_reference <;>
    simp only [cogl_object_ref, cogl_object_unref, hp, hn, hq, hpar, pipeline_set_pipeline,
      length_set_pipeline, hnlt, hplt, hqlt, if_true, hne, Ne.symm hne, hqn, Ne.symm hqn, hqp,
      Ne.symm hqp, if_false, Option.isSome_some,
      hch, hh, Bool.false_eq_true, Bool.not_false, Bool.not_true, set_pipeline_set_pipeline]
  all_goals
    refine ⟨_, rfl, ?_, ?_, ?_, ?_⟩
    · simp only [pipeline_set_pipeline, length_set_pipeline, hnlt, hplt, hqlt, hne, Ne.symm hne,
        hqn, Ne.symm hqn, hqp, Ne.symm hqp, if_true, if_false]
    · simp only [pipeline_set_pipeline, length_set_pipeline, hnlt, hplt, hqlt, hne, Ne.symm hne,
        hqn, Ne.symm hqn, hqp, Ne.symm hqp, if_true, if_false, Option.some.injEq,
        Bool.false_eq_true] <;>
      exact pipeline_record_eq pn (by omega) rfl
    · simp only [pipeline_set_pipeline, length_set_pipeline, hnlt, hplt, hqlt, hne, Ne.symm hne,
        hqn, Ne.symm hqn, hqp, Ne.symm hqp, if_true, if_false, Option.some.injEq,
        Bool.false_eq_true] <;>
      exact pipeline_record_eq qn (by omega) rfl
    · intro z hz1 hz2 hz3
      simp only [pipeline_set_pipeline, Ne.symm hz1, Ne.symm hz2, Ne.symm hz3, if_false]

/-- What `_cogl_pipeline_weak_copy` does to the reference counts and the child
lists. -/
theorem weak_copy_counts (ctx : CoglContext) (src fuel callback user_data : Nat)
    (s : CoglPipeline) (hs : ctx.pipeline src = some s) :
    ∃ c1 cn, _cogl_pipeline_weak_copy fuel ctx src callback user_data =
        some (c1, ctx.pipelines.length) ∧
      c1.pipeline ctx.pipelines.length = some cn ∧ cn.parent = some src ∧
      cn.is_weak = true ∧ cn.has_parent_reference = false ∧
      c1.pipeline src = some { s with children := ctx.pipelines.length :: s.children } ∧
      (∀ q, q ≠ src → q < ctx.pipelines.length → c1.pipeline q = ctx.pipeline q) := by
  have hsrc_lt := pipeline_lt_length hs
  have hne : src ≠ ctx.pipelines.length := Nat.ne_of_lt hsrc_lt
  unfold _cogl_pipeline_weak_copy _cogl_pipeline_copy
  simp only [hs, Bool.not_true, if_true]
  generalize hnode0 : ({ ctx.slice_pipeline with
        parent := none
        children := []
        is_weak := true
        journal_ref_count := 0
        differences := 0
        has_big_state := false
        real_blend_enable := s.real_blend_enable
        layers_cache_dirty := true
        deprecated_get_layers_list := []
        deprecated_get_layers_list_dirty := true
        fragend := s.fragend
        vertend := s.vertend
        has_static_breadcrumb := false
        age := 0 } : CoglPipeline) = node0
  have hn0p : node0.parent = none := by rw [← hnode0]
  generalize hctx1 : ({ ctx with pipelines := ctx.pipelines ++ [node0] } : CoglContext) = ctx1
  have h1new : ctx1.pipeline ctx.pipelines.length = some node0 := by
    rw [← hctx1]; exact pipeline_append_new ctx node0
  have h1old : ∀ q, q < ctx.pipelines.length → ctx1.pipeline q = ctx.pipeline q := by
    intro q hq; rw [← hctx1]; exact pipeline_append_old node0 hq
  have h1src : ctx1.pipeline src = some s := by rw [h1old src hsrc_lt]; exact hs
  unfold _cogl_pipeline_set_parent
  rw [set_parent_real_orphan h1new hn0p h1src hne false]
  simp only [Bool.false_eq_true, if_false]
  generalize hsrc2 : ({ s with ref_count := s.ref_count, children := ctx.pipelines.length :: s.children } : CoglPipeline) = s2
  generalize hnode1 : ({ node0 with parent := some src, has_parent_reference := false } : CoglPipeline) = node1
  have hn1 : node1.parent = some src ∧ node1.differences = 0 ∧ node1.is_weak = true ∧
      node1.has_parent_reference = false := by
    rw [← hnode1, ← hnode0]; simp
  generalize hctx4 : (ctx1.set_pipeline src s2).set_pipeline ctx.pipelines.length node1 = ctx4
  have h4new : ctx4.pipeline ctx.pipelines.length = some node1 := by
    rw [← hctx4]
    exact pipeline_set_pipeline_self
      (by rw [pipeline_set_pipeline_ne _ hne]; exact h1new) _
  have h4src : ctx4.pipeline src = some s2 := by
    rw [← hctx4, pipeline_set_pipeline_ne _ (Ne.symm hne)]
    exact pipeline_set_pipeline_self h1src _
  have h4old : ∀ q, q ≠ src → q ≠ ctx.pipelines.length → ctx4.pipeline q = ctx1.pipeline q := by
    intro q h1 h2
    rw [← hctx4, pipeline_set_pipeline_ne _ (Ne.symm h2), pipeline_set_pipeline_ne _ (Ne.symm h1)]
  simp only [h4new, hn1.2.1]
  simp only [show ¬ (0 &&& COGL_PIPELINE_STATE_LAYERS ≠ 0) by decide, if_false]
  generalize hctx5 : (if node1.fragend ≠ COGL_PIPELINE_FRAGEND_UNDEFINED
      then some (ctx4.emit (CoglEvent.fragend_set_parent_notify ctx.pipelines.length))
      else some ctx4) = r5
  obtain ⟨ctx5, hr5, h5p⟩ : ∃ ctx5, r5 = some ctx5 ∧
      (∀ q, ctx5.pipeline q = ctx4.pipeline q) := by
    rw [← hctx5]
    split
    · exact ⟨_, rfl, fun q => rfl⟩
    · exact ⟨_, rfl, fun q => rfl⟩
  rw [hr5]
  have h5new : ctx5.pipeline ctx.pipelines.length = some node1 := by rw [h5p]; exact h4new
  simp only [h5new, pipeline_set_pipeline_self h5new]
  have h6new : (ctx5.set_pipeline ctx.pipelines.length { node1 with ref_count := 1 }).pipeline
      ctx.pipelines.length = some { node1 with ref_count := 1 } :=
    pipeline_set_pipeline_self h5new _
  refine ⟨_, _, rfl, pipeline_set_pipeline_self h6new _, hn1.1, hn1.2.2.1, hn1.2.2.2, ?_, ?_⟩
  · rw [pipeline_set_pipeline_ne _ (Ne.symm hne), pipeline_set_pipeline_ne _ (Ne.symm hne), h5p,
      h4src, ← hsrc2]
  · intro q hq1 hq2
    have hqL : ctx.pipelines.length ≠ q := Ne.symm (Nat.ne_of_lt hq2)
    rw [pipeline_set_pipeline_ne _ hqL, pipeline_set_pipeline_ne _ hqL, h5p,
      h4old q hq1 (Ne.symm hqL), h1old q hq2]

/-- The links and counts after `_cogl_pipeline_node_set_parent_real (node, parent,
unparent, strong)`, with `cogl_object_unref` as a decrement, on a node that is
listed once by the parent it has, if it has one, and is not yet listed by a new
parent. The call returns; the node has the parent `parent` and
`has_parent_reference` is `strong`; the node is listed once by `parent`; the
reference count of `parent` is raised by one iff `strong` (and lowered by one if
`parent` was the parent before and the old edge held a reference); an old parent
other than `parent` does not list the node any more and its count is lowered by one
iff the old edge held a reference; no other pipeline is changed. Hence
`cogl_pipeline_copy (parent)` gives a child with a parent reference and raises the
count of `parent` by one, and `_cogl_pipeline_weak_copy (parent)` gives a child
without a parent reference and leaves the count as it is. -/
theorem set_parent_real_links_spec (ctx : CoglContext) (node parent : Nat)
    (n pn : CoglPipeline) (strong : Bool)
    (hn : ctx.pipeline node = some n) (hp : ctx.pipeline parent = some pn) (hne : node ≠ parent)
    (hold : ∀ q, n.parent = some q → q ≠ node ∧ ∃ qn, ctx.pipeline q = some qn ∧
      qn.children.count node = 1 ∧ (n.has_parent_reference = true → 1 ≤ qn.ref_count))
    (hnew : n.parent ≠ some parent → node ∉ pn.children) :
    (∃ ctx2 n2 pn2, _cogl_pipeline_node_set_parent_real ctx node parent strong = some ctx2 ∧
      ctx2.pipeline node = some n2 ∧ n2.parent = some parent ∧
      n2.has_parent_reference = strong ∧
      ctx2.pipeline parent = some pn2 ∧ pn2.children.count node = 1 ∧
      pn2.ref_count + (if n.parent = some parent ∧ n.has_parent_reference = true then 1 else 0) =
        pn.ref_count + (if strong = true then 1 else 0) ∧
      (∀ q qn, n.parent = some q → q ≠ parent → ctx.pipeline q = some qn →
        ∃ qn2, ctx2.pipeline q = some qn2 ∧ node ∉ qn2.children ∧
          qn2.ref_count + (if n.has_parent_reference = true then 1 else 0) = qn.ref_count) ∧
      (∀ z, z ≠ node → z ≠ parent → n.parent ≠ some z → ctx2.pipeline z = ctx.pipeline z)) ∧
    (∀ fuel path root, pipeline_path ctx parent path → path.getLast? = some root →
      pipeline_not_weak ctx root → path.length ≤ fuel →
      ∃ c1, cogl_pipeline_copy fuel ctx parent = some (c1, ctx.pipelines.length) ∧
        (c1.pipeline ctx.pipelines.length).map (fun c => (c.parent, c.has_parent_reference)) =
          some (some parent, true) ∧
        (c1.pipeline parent).map (fun p => p.ref_count) = some (pn.ref_count + 1)) ∧
    (∀ fuel callback user_data,
      ∃ c1, _cogl_pipeline_weak_copy fuel ctx parent callback user_data =
          some (c1, ctx.pipelines.length) ∧
        (c1.pipeline ctx.pipelines.length).map (fun c => (c.parent, c.has_parent_reference)) =
          some (some parent, false) ∧
        (c1.pipeline parent).map (fun p => p.ref_count) = some pn.ref_count) := by
  refine ⟨?_, ?_, ?_⟩
  · cases hpar : n.parent with
    | none =>
      have hnotin : node ∉ pn.children := hnew (by rw [hpar]; simp)
      have hpl : ((ctx.set_pipeline parent
          { pn with ref_count := if strong then pn.ref_count + 1 else pn.ref_count,
                    children := node :: pn.children }).set_pipeline node
          { n with parent := some parent, has_parent_reference := strong }).pipeline parent =
          some { pn with ref_count := if strong then pn.ref_count + 1 else pn.ref_count,
                         children := node :: pn.children } := by
        rw [pipeline_set_pipeline_ne _ hne, pipeline_set_pipeline_self hp]
      refine ⟨_, _, _, set_parent_real_orphan hn hpar hp (Ne.symm hne) strong,
        pipeline_set_pipeline_self (by rw [pipeline_set_pipeline_ne _ (Ne.symm hne)]; exact hn) _,
        rfl, rfl, hpl, ?_, ?_, ?_, ?_⟩
      · simp only [List.count_cons_self, List.count_eq_zero_of_not_mem hnotin]
      · simp only [reduceCtorEq, false_and, if_false, Nat.add_zero]
        cases strong <;> simp
      · intro q qn hq
        exact absurd hq (by simp)
      · intro z hz1 hz2 _
        rw [pipeline_set_pipeline_ne _ (Ne.symm hz1), pipeline_set_pipeline_ne _ (Ne.symm hz2)]
    | some q =>
      obtain ⟨hqn_ne, qn, hqn, hcount, hrc⟩ := hold q hpar
      have hqch := ne_nil_of_count_one hcount
      by_cases hqp : q = parent
      · subst hqp
        rw [hp] at hqn
        obtain rfl := Option.some.inj hqn
        obtain ⟨ctx2, hrun, h2n, h2p, h2z⟩ := set_parent_real_same strong hn hp hne hpar hqch
        refine ⟨ctx2, _, _, hrun, h2n, rfl, rfl, h2p, ?_, ?_, ?_, ?_⟩
        · simp only [List.count_cons_self, List.count_erase_self, hcount]
        · simp only [true_and]
          cases hh : n.has_parent_reference with
          | false => cases strong <;> simp
          | true =>
            have := hrc hh
            cases strong <;> simp <;> omega
        · intro q2 qn2 hq2 hq2p
          exact absurd (Option.some.inj hq2) (Ne.symm hq2p)
        · intro z hz1 hz2 _
          exact h2z z hz1 hz2
      · have hnotin : node ∉ pn.children := hnew (by
          rw [hpar]; intro h; exact hqp (Option.some.inj h))
        obtain ⟨ctx2, hrun, h2n, h2p, h2q, h2z⟩ :=
          set_parent_real_moved strong hn hp hne hpar hqn hqn_ne hqp hqch
        refine ⟨ctx2, _, _, hrun, h2n, rfl, rfl, h2p, ?_, ?_, ?_, ?_⟩
        · simp only [List.count_cons_self, List.count_eq_zero_of_not_mem hnotin]
        · have hnp : ¬ (some q = some parent ∧ n.has_parent_reference = true) := by
            intro h; exact hqp (Option.some.inj h.1)
          rw [if_neg hnp]
          cases strong <;> simp
        · intro q2 qn2 hq2 hq2p hq2n
          obtain rfl := Option.some.inj hq2
          rw [hqn] at hq2n
          obtain rfl := Option.some.inj hq2n
          refine ⟨_, h2q, count_erase_one hcount, ?_⟩
          cases hh : n.has_parent_reference with
          | false => simp
          | true =>
            have := hrc hh
            simp
            omega
        · intro z hz1 hz2 hz3
          exact h2z z hz1 hz2 (fun h => hz3 (by rw [h]))
  · intro fuel path root hpath hlast hroot hfuel
    obtain ⟨c1, cn, hcopy, hcn, hcnpar, -, -, hcnref, -, -, -, hold2⟩ :=
      pipeline_copy_counts ctx parent root fuel path hpath hlast hroot hfuel
    refine ⟨c1, hcopy, ?_, ?_⟩
    · rw [hcn]
      simp only [Option.map_some', hcnpar, hcnref]
    · rw [hold2 parent pn hp]
      simp only [Option.map_some', if_true, Option.some.injEq]
      rw [List.count_eq_zero_of_not_mem (weak_chain_parents_nodup hpath).2]
  · intro fuel callback user_data
    obtain ⟨c1, cn, hcopy, hcn, hcnpar, -, hcnref, hsrc, -⟩ :=
      weak_copy_counts ctx parent fuel callback user_data pn hp
    refine ⟨c1, hcopy, ?_, ?_⟩
    · rw [hcn]
      simp only [Option.map_some', hcnpar, hcnref]
    · rw [hsrc]
      rfl

theorem strong_copy_then_free_restores_ref_counts_witness :
    pipeline_path scenario_weak_chain 3 [3, 2, 1, 0] ∧ [3, 2, 1, 0].getLast? = some 0 ∧
    pipeline_not_weak scenario_weak_chain 0 ∧ [3, 2, 1, 0].length ≤ 8 ∧
    ∃ c1 c2, cogl_pipeline_copy 8 scenario_weak_chain 3 =
        some (c1, scenario_weak_chain.pipelines.length) ∧
      (∀ q node, scenario_weak_chain.pipeline q = some node →
        (c1.pipeline q).map (fun n => n.ref_count) =
          some (node.ref_count + (if q = 3 then 1 else 0) +
            (if q ∈ weak_chain_parents scenario_weak_chain [3, 2, 1, 0] then 1 else 0))) ∧
      (∀ q, q ∈ weak_chain_parents scenario_weak_chain [3, 2, 1, 0] ↔
        ∃ pre m post, [3, 2, 1, 0] = pre ++ m :: q :: post ∧
          ∀ x ∈ pre ++ [m],
            (scenario_weak_chain.pipeline x).map (fun node => node.is_weak) = some true) ∧
      3 ∉ weak_chain_parents scenario_weak_chain [3, 2, 1, 0] ∧
      (pipeline_not_weak scenario_weak_chain 3 →
        weak_chain_parents scenario_weak_chain [3, 2, 1, 0] = []) ∧
      _cogl_pipeline_free 8 c1 scenario_weak_chain.pipelines.length = some c2 ∧
      (∀ q node, scenario_weak_chain.pipeline q = some node → c2.pipeline q = some node) :=
  ⟨by decide!, by decide!, by decide!, by decide!,
    strong_copy_then_free_restores_ref_counts scenario_weak_chain 3 0 8 [3, 2, 1, 0]
      (by decide!) (by decide!) (by decide!) (by decide!)⟩

/-! ## The layer heap under a change of a pipeline -/

theorem same_layers_refl (ctx : CoglContext) : same_layers ctx ctx := rfl

theorem same_layers_trans {a b c : CoglContext} (h1 : same_layers a b) (h2 : same_layers b c) :
    same_layers a c := by
  unfold same_layers at *
  rw [h2, h1]

theorem layers_step {c0 c : CoglContext} {x : Option CoglContext}
    (hs : same_layers c0 c) (h : returned x (same_layers c)) : returned x (same_layers c0) :=
  returned_mono h (fun _ ha => same_layers_trans hs ha)

theorem layers_bind {c0 : CoglContext} {x : Option CoglContext}
    {f : CoglContext → Option CoglContext} (hx : returned x (same_layers c0))
    (hf : ∀ c, same_layers c0 c → returned (f c) (same_layers c0)) :
    returned (x.bind f) (same_layers c0) :=
  returned_bind hx hf

theorem modify_pipeline_layers (ctx : CoglContext) (p : Nat) (f : CoglPipeline → CoglPipeline) :
    returned (ctx.modify_pipeline p f) (same_layers ctx) := by
  unfold CoglContext.modify_pipeline
  split
  · exact returned_none
  exact returned_some rfl

theorem same_layers_set (ctx : CoglContext) (p : Nat) (v : CoglPipeline) :
    same_layers ctx (ctx.set_pipeline p v) := rfl

theorem append_pipeline_layers (ctx : CoglContext) (node : CoglPipeline) :
    same_layers ctx { ctx with pipelines := ctx.pipelines ++ [node] } := rfl

theorem same_but_caches_layers {a b : CoglContext} (h : same_but_caches a b) :
    same_layers a b := by
  have := congrArg CoglContext.layers h.2
  exact this

theorem emit_layers (ctx : CoglContext) (e : CoglEvent) :
    same_layers ctx (ctx.emit e) := rfl

theorem ite_emit_layers (c : CoglContext) (cond : Prop) [Decidable cond] (e : CoglEvent) :
    same_layers c (if cond then c.emit e else c) := by
  split
  · exact emit_layers c e
  · exact same_layers_refl c

theorem pre_change_notify_journal_layers (f : Nat) (ctx : CoglContext) (p change : Nat)
    (oc : Option CoglColor) :
    returned (pre_change_notify_journal f ctx p change oc) (same_layers ctx) := by
  unfold pre_change_notify_journal
  split
  · exact returned_none
  rename_i node hp
  refine returned_ite (fun _ => returned_ite (fun _ => ?_)
    (fun _ => returned_some (emit_layers ctx _)))
    (fun _ => returned_some (same_layers_refl ctx))
  intro a ha
  cases hnb : _cogl_pipeline_needs_blending_enabled f ctx p change oc with
  | none => rw [hnb] at ha; exact absurd ha (by simp)
  | some r =>
    obtain ⟨ctx1, w⟩ := r
    rw [hnb] at ha
    have hs : same_layers ctx ctx1 :=
      same_but_caches_layers (needs_blending_enabled_caches f ctx p change oc ctx1 w hnb)
    simp only at ha
    split at ha
    · rw [← Option.some.inj ha]; exact hs
    · rw [← Option.some.inj ha]; exact same_layers_trans hs (emit_layers _ _)

theorem pre_change_notify_backends_layers (ctx : CoglContext) (p change : Nat)
    (flc : Bool) :
    returned (pre_change_notify_backends ctx p change flc) (same_layers ctx) := by
  unfold pre_change_notify_backends
  simp only [Option.bind_eq_bind]
  refine layers_bind (modify_pipeline_layers ctx p _) ?_
  intro c1 s1
  refine layers_bind (layers_step s1 (modify_pipeline_layers c1 p _)) ?_
  intro c2 s2
  refine returned_bind_any (fun node _ => ?_)
  cases flc with
  | true => exact returned_some s2
  | false =>
    simp only [Bool.not_false, if_true, Option.pure_def]
    exact returned_some (same_layers_trans s2 (same_layers_trans
      (ite_emit_layers _ _ _) (same_layers_trans (ite_emit_layers _ _ _) (emit_layers _ _))))

theorem object_ref_layers (ctx : CoglContext) (p : Nat) :
    returned (cogl_object_ref ctx p) (same_layers ctx) := by
  unfold cogl_object_ref
  split
  · exact returned_none
  rename_i node hp
  exact returned_some (rfl)

theorem object_unref_layers (ctx : CoglContext) (p : Nat) :
    returned (cogl_object_unref ctx p) (same_layers ctx) := by
  unfold cogl_object_unref
  split
  · exact returned_none
  rename_i node hp
  exact returned_some (rfl)

theorem unparent_real_layers (ctx : CoglContext) (x : Nat) :
    returned (_cogl_pipeline_node_unparent_real ctx x) (same_layers ctx) := by
  unfold _cogl_pipeline_node_unparent_real
  intro a ha
  split at ha
  · exact absurd ha (by simp)
  split at ha
  · rw [← Option.some.inj ha]; exact same_layers_refl ctx
  split at ha
  · exact absurd ha (by simp)
  rename_i pn hpn
  split at ha
  · rw [← Option.some.inj ha]; exact same_layers_refl ctx
  dsimp only at ha
  split at ha
  · exact absurd ha (by simp)
  rename_i c2 h2
  have s2 : same_layers ctx c2 := by
    split at h2
    · exact same_layers_trans (same_layers_set _ _ _) (object_unref_layers _ _ _ h2)
    · rw [← Option.some.inj h2]; exact same_layers_set _ _ _
  split at ha
  · exact absurd ha (by simp)
  rename_i n2 hn2
  rw [← Option.some.inj ha]
  exact same_layers_trans s2 (rfl)

theorem destroy_weak_children_layers :
    ∀ (n : Nat) (ctx : CoglContext) (x : Nat),
      returned (destroy_weak_children_cb n ctx x) (same_layers ctx) := by
  intro n
  induction n with
  | zero => intro ctx x; exact returned_none
  | succ k ih =>
    intro ctx x
    unfold destroy_weak_children_cb
    split
    · exact returned_none
    · exact returned_some (same_layers_refl ctx)
    · intro a ha
      split at ha
      · exact absurd ha (by simp)
      rename_i c1 h1
      have s1 : same_layers ctx c1 := by
        unfold _cogl_pipeline_node_foreach_child at h1
        split at h1
        · exact absurd h1 (by simp)
        exact returned_foldlM (fun s y hs => layers_step hs (ih s y)) _ _
          (same_layers_refl ctx) _ h1
      split at ha
      · exact absurd ha (by simp)
      exact same_layers_trans s1 (same_layers_trans (emit_layers _ _)
        (unparent_real_layers _ _ _ ha))

theorem recursively_free_layer_caches_layers :
    ∀ (fuel : Nat) (ctx : CoglContext) (p : Nat),
      returned (recursively_free_layer_caches fuel ctx p) (same_layers ctx) := by
  intro fuel
  induction fuel with
  | zero =>
    intro ctx p
    exact returned_none
  | succ k ih =>
    intro ctx p
    unfold recursively_free_layer_caches
    split
    · exact returned_none
    rename_i node hp
    refine returned_ite (fun _ => returned_some (same_layers_refl ctx)) (fun _ => ?_)
    have s1 : same_layers ctx
        (ctx.set_pipeline p { node with layers_cache_dirty := true }) := rfl
    unfold _cogl_pipeline_node_foreach_child
    dsimp only
    split
    · exact returned_none
    exact returned_foldlM (fun s a hs => layers_step hs (ih s a)) _ _ s1

theorem set_parent_real_layers (ctx : CoglContext) (node parent : Nat) (strong : Bool) :
    returned (_cogl_pipeline_node_set_parent_real ctx node parent strong)
      (same_layers ctx) := by
  unfold _cogl_pipeline_node_set_parent_real
  intro a ha
  split at ha
  · exact absurd ha (by simp)
  rename_i c1 h1
  have s1 := object_ref_layers ctx parent c1 h1
  split at ha
  · exact absurd ha (by simp)
  split at ha
  · exact absurd ha (by simp)
  rename_i c2 h2
  have s2 : same_layers ctx c2 := by
    split at h2
    · exact same_layers_trans s1 (unparent_real_layers _ _ _ h2)
    · rw [← Option.some.inj h2]; exact s1
  split at ha
  · exact absurd ha (by simp)
  rename_i pn hpn
  dsimp only at ha
  have s3 : same_layers ctx
      (c2.set_pipeline parent { pn with children := node :: pn.children }) :=
    same_layers_trans s2 (rfl)
  split at ha
  · exact absurd ha (by simp)
  rename_i n3 hn3
  split at ha
  · exact same_layers_trans s3
      (same_layers_trans (same_layers_set _ _ _) (object_unref_layers _ _ _ ha))
  · rw [← Option.some.inj ha]; exact same_layers_trans s3 (same_layers_set _ _ _)

theorem set_parent_layers (fuel : Nat) (ctx : CoglContext) (node parent : Nat) (strong : Bool) :
    returned (_cogl_pipeline_set_parent fuel ctx node parent strong)
      (same_layers ctx) := by
  unfold _cogl_pipeline_set_parent
  intro a ha
  split at ha
  · exact absurd ha (by simp)
  rename_i c1 h1
  have s1 := set_parent_real_layers ctx node parent strong c1 h1
  split at ha
  · exact absurd ha (by simp)
  split at ha
  · exact absurd ha (by simp)
  rename_i c2 h2
  have s2 : same_layers ctx c2 := by
    split at h2
    · exact same_layers_trans s1 (recursively_free_layer_caches_layers _ _ _ _ h2)
    · rw [← Option.some.inj h2]; exact s1
  split at ha
  · rw [← Option.some.inj ha]; exact same_layers_trans s2 (emit_layers _ _)
  · rw [← Option.some.inj ha]; exact s2

theorem promote_weak_ancestors_loop_layers :
    ∀ (fuel : Nat) (ctx : CoglContext) (n : Nat),
      returned (promote_weak_ancestors_loop fuel ctx n) (same_layers ctx) := by
  intro fuel
  induction fuel with
  | zero => intro ctx n; exact returned_none
  | succ k ih =>
    intro ctx n
    unfold promote_weak_ancestors_loop
    split
    · exact returned_none
    refine returned_ite (fun _ => ?_) (fun _ => returned_some (same_layers_refl ctx))
    split
    · exact returned_none
    rename_i parent _
    intro a ha
    split at ha
    · exact absurd ha (by simp)
    rename_i c1 h1
    exact same_layers_trans (object_ref_layers ctx parent c1 h1) (ih c1 parent a ha)

theorem promote_weak_ancestors_layers (fuel : Nat) (ctx : CoglContext) (n : Nat) :
    returned (_cogl_pipeline_promote_weak_ancestors fuel ctx n) (same_layers ctx) := by
  unfold _cogl_pipeline_promote_weak_ancestors
  split
  · exact returned_none
  refine returned_ite (fun _ => returned_some (same_layers_refl ctx)) (fun _ => ?_)
  split
  · exact returned_some (same_layers_refl ctx)
  · exact promote_weak_ancestors_loop_layers fuel ctx _

theorem pipeline_copy_layers (fuel : Nat) (ctx : CoglContext) (src : Nat) (w : Bool) :
    returned (_cogl_pipeline_copy fuel ctx src w) (fun r => same_layers ctx r.1) := by
  unfold _cogl_pipeline_copy
  intro a ha
  split at ha
  · exact absurd ha (by simp)
  dsimp only at ha
  split at ha
  · exact absurd ha (by simp)
  rename_i c2 h2
  have s2 := same_layers_trans (append_pipeline_layers ctx _) (set_parent_layers _ _ _ _ _ c2 h2)
  split at ha
  · exact absurd ha (by simp)
  rename_i c3 h3
  have s3 : same_layers ctx c3 := by
    split at h3
    · exact same_layers_trans s2 (promote_weak_ancestors_layers _ _ _ _ h3)
    · rw [← Option.some.inj h3]; exact s2
  split at ha
  · exact absurd ha (by simp)
  rename_i created hcr
  rw [← Option.some.inj ha]
  exact same_layers_trans s3 (rfl)

theorem set_static_breadcrumb_layers (ctx : CoglContext) (p : Nat) (b : String) :
    returned (_cogl_pipeline_set_static_breadcrumb ctx p b) (same_layers ctx) := by
  unfold _cogl_pipeline_set_static_breadcrumb
  split
  · exact returned_none
  rename_i node hp
  exact returned_some (rfl)

theorem init_multi_property_sparse_state_layers (fuel : Nat) (ctx : CoglContext)
    (p change : Nat) :
    returned (_cogl_pipeline_init_multi_property_sparse_state fuel ctx p change)
      (same_layers ctx) := by
  unfold _cogl_pipeline_init_multi_property_sparse_state
  refine returned_ite (fun _ => returned_some (same_layers_refl ctx)) (fun _ => ?_)
  refine returned_ite (fun _ => returned_some (same_layers_refl ctx)) (fun _ => ?_)
  split
  · exact returned_none
  split
  · exact returned_none
  repeat' first
    | exact returned_some (same_layers_refl ctx)
    | exact modify_pipeline_layers ctx p _
    | (apply returned_ite <;> intro _)

theorem pre_change_notify_takeover_layers (f : Nat) (ctx : CoglContext) (p change : Nat) :
    returned (pre_change_notify_takeover f ctx p change) (same_layers ctx) := by
  unfold pre_change_notify_takeover
  simp only [Option.bind_eq_bind]
  refine layers_bind (modify_pipeline_layers ctx p _) ?_
  intro c1 s1
  refine layers_bind (layers_step s1 (modify_pipeline_layers c1 p _)) ?_
  intro c2 s2
  refine returned_bind_any (fun node _ => ?_)
  refine layers_bind (returned_ite (fun _ => ?_) (fun _ => returned_some s2)) ?_
  · refine layers_bind (layers_step s2 (init_multi_property_sparse_state_layers f c2 p change)) ?_
    intro c3 s3
    exact layers_step s3 (modify_pipeline_layers c3 p _)
  intro c4 s4
  refine layers_bind (returned_ite
    (fun _ => layers_step s4 (recursively_free_layer_caches_layers f c4 p))
    (fun _ => returned_some s4)) ?_
  intro c5 s5
  simp only [Option.pure_def]
  refine returned_some ?_
  split
  · exact same_layers_trans s5 (rfl)
  · exact s5

/-! ## The owners of the layers under a change of a pipeline -/

theorem owners_kept_refl (n : Nat) (ctx : CoglContext) : owners_kept n ctx ctx :=
  ⟨Nat.le_refl _, fun _ l _ hl => ⟨l, hl, rfl, fun _ h => h⟩⟩

theorem owners_kept_trans {n : Nat} {a b c : CoglContext} (h1 : owners_kept n a b)
    (h2 : owners_kept n b c) : owners_kept n a c := by
  refine ⟨Nat.le_trans h1.1 h2.1, ?_⟩
  intro L l hL hl
  obtain ⟨l2, hl2, ho2, hc2⟩ := h1.2 L l hL hl
  obtain ⟨l3, hl3, ho3, hc3⟩ := h2.2 L l2 hL hl2
  exact ⟨l3, hl3, ho3.trans ho2, fun x h => hc3 x (hc2 x h)⟩

theorem owners_kept_of_layers {n : Nat} {a b : CoglContext} (h : same_layers a b) :
    owners_kept n a b := by
  unfold same_layers at h
  refine ⟨by rw [h], ?_⟩
  intro L l _ hl
  refine ⟨l, ?_, rfl, fun _ h => h⟩
  simp only [CoglContext.layer, h]
  exact hl

theorem owners_kept_mono {n m : Nat} {a b : CoglContext} (hm : m ≤ n) (h : owners_kept n a b) :
    owners_kept m a b :=
  ⟨h.1, fun L l hL hl => h.2 L l (Nat.lt_of_lt_of_le hL hm) hl⟩

theorem owners_kept_set_layer {n L : Nat} {ctx : CoglContext} {old v : CoglPipelineLayer}
    (h : ctx.layer L = some old) (ho : v.owner = old.owner)
    (hc : ∀ x ∈ old.children, x ∈ v.children) :
    owners_kept n ctx (ctx.set_layer L v) := by
  refine ⟨by rw [length_set_layer], ?_⟩
  intro K l _ hl
  by_cases hK : L = K
  · subst hK
    rw [h] at hl
    obtain rfl := Option.some.inj hl
    exact ⟨v, layer_set_layer_self h v, ho, hc⟩
  · exact ⟨l, by rw [layer_set_layer_ne _ hK]; exact hl, rfl, fun _ h => h⟩

theorem owners_kept_set_fresh {n L : Nat} (ctx : CoglContext) (v : CoglPipelineLayer)
    (hL : n ≤ L) : owners_kept n ctx (ctx.set_layer L v) := by
  refine ⟨by rw [length_set_layer], ?_⟩
  intro K l hK hl
  have hne : L ≠ K := by omega
  exact ⟨l, by rw [layer_set_layer_ne _ hne]; exact hl, rfl, fun _ h => h⟩

theorem owned_step {n : Nat} {c0 c : CoglContext} {x : Option CoglContext}
    (hs : owners_kept n c0 c) (h : returned x (owners_kept n c)) :
    returned x (owners_kept n c0) :=
  returned_mono h (fun _ ha => owners_kept_trans hs ha)

theorem owned_bind {n : Nat} {c0 : CoglContext} {x : Option CoglContext}
    {f : CoglContext → Option CoglContext} (hx : returned x (owners_kept n c0))
    (hf : ∀ c, owners_kept n c0 c → returned (f c) (owners_kept n c0)) :
    returned (x.bind f) (owners_kept n c0) :=
  returned_bind hx hf

theorem owned_of_layers {n : Nat} {ctx : CoglContext} {x : Option CoglContext}
    (h : returned x (same_layers ctx)) : returned x (owners_kept n ctx) :=
  returned_mono h (fun _ ha => owners_kept_of_layers ha)

theorem object_ref_layer_owned (n : Nat) (ctx : CoglContext) (l : Nat) :
    returned (cogl_object_ref_layer ctx l) (owners_kept n ctx) := by
  unfold cogl_object_ref_layer
  split
  · exact returned_none
  rename_i node hl
  exact returned_some (owners_kept_set_layer hl rfl (fun _ h => h))

theorem object_unref_layer_owned (n : Nat) (ctx : CoglContext) (l : Nat) :
    returned (cogl_object_unref_layer ctx l) (owners_kept n ctx) := by
  unfold cogl_object_unref_layer
  split
  · exact returned_none
  rename_i node hl
  exact returned_some (owners_kept_set_layer hl rfl (fun _ h => h))

theorem layer_append_new (ctx : CoglContext) (node : CoglPipelineLayer) :
    ({ ctx with layers := ctx.layers ++ [node] } : CoglContext).layer ctx.layers.length =
      some node := by
  simp only [CoglContext.layer]
  exact List.getElem?_concat_length _ _

/-- What `_cogl_pipeline_layer_copy` returns: a new layer at the end of the heap,
which is a child of the source with its index, without owner, differences or
children; the source has one reference and one child more; no other layer and no
pipeline is changed. -/
theorem layer_copy_spec {ctx c2 : CoglContext} {src new : Nat}
    (h : _cogl_pipeline_layer_copy ctx src = some (c2, new)) :
    new = ctx.layers.length ∧ c2.pipelines = ctx.pipelines ∧
    c2.layers.length = ctx.layers.length + 1 ∧
    ∃ s, ctx.layer src = some s ∧
      c2.layer src = some { s with ref_count := s.ref_count + 1, children := new :: s.children } ∧
      (∀ L, L ≠ src → L ≠ new → c2.layer L = ctx.layer L) ∧
      ∃ nn, c2.layer new = some nn ∧ nn.parent = some src ∧ nn.index = s.index ∧
        nn.owner = none ∧ nn.differences = 0 ∧ nn.children = [] := by
  unfold _cogl_pipeline_layer_copy at h
  split at h
  · exact absurd h (by simp)
  rename_i s hs
  have hslt := layer_lt_length hs
  have hne : src ≠ ctx.layers.length := Nat.ne_of_lt hslt
  dsimp only at h
  unfold _cogl_pipeline_layer_set_parent cogl_object_ref_layer CoglContext.modify_layer at h
  simp only [layer_append_old _ hslt, hs, layer_set_layer, length_set_layer, hne, Ne.symm hne,
    if_false, if_true, layer_append_new, Option.isSome_none, Bool.false_eq_true,
    List.length_append, List.length_singleton, show src < ctx.layers.length + 1 by omega,
    show ctx.layers.length < ctx.layers.length + 1 by omega, Option.some.injEq,
    Prod.mk.injEq] at h
  obtain ⟨h1, h2⟩ := h
  subst h2
  subst h1
  refine ⟨rfl, rfl, ?_, s, hs, ?_, ?_, ?_⟩
  · simp only [length_set_layer, List.length_append, List.length_singleton]
  · simp only [layer_set_layer, length_set_layer, hne, Ne.symm hne, if_false, if_true,
      List.length_append, List.length_singleton, show src < ctx.layers.length + 1 by omega]
  · intro L hL1 hL2
    simp only [layer_set_layer, Ne.symm hL1, Ne.symm hL2, if_false]
    by_cases hlt : L < ctx.layers.length
    · exact layer_append_old _ hlt
    · simp only [CoglContext.layer]
      rw [List.getElem?_eq_none_iff.mpr (by simp; omega),
        List.getElem?_eq_none_iff.mpr (by omega)]
  · simp only [layer_set_layer, length_set_layer, hne, Ne.symm hne, if_false, if_true,
      List.length_append, List.length_singleton,
      show ctx.layers.length < ctx.layers.length + 1 by omega]
    exact ⟨_, rfl, rfl, rfl, rfl, rfl, rfl⟩

theorem owners_kept_any {n : Nat} {a b : CoglContext} (h : owners_kept a.layers.length a b) :
    owners_kept n a b :=
  ⟨h.1, fun L l _ hl => h.2 L l (layer_lt_length hl) hl⟩

theorem owners_kept_fresh {n : Nat} {a b : CoglContext} (h : owners_kept n a b)
    (hn : n ≤ a.layers.length) : n ≤ b.layers.length := Nat.le_trans hn h.1

theorem layer_copy_owned (n : Nat) (ctx : CoglContext) (src : Nat) :
    returned (_cogl_pipeline_layer_copy ctx src)
      (fun r => owners_kept n ctx r.1 ∧ r.2 = ctx.layers.length) := by
  intro r h
  obtain ⟨c2, new⟩ := r
  obtain ⟨hnew, -, hlen, s, hs, hsrc, hother, -⟩ := layer_copy_spec h
  refine ⟨⟨by rw [hlen]; omega, ?_⟩, hnew⟩
  intro L l _ hl
  have hL := layer_lt_length hl
  by_cases hLs : L = src
  · subst hLs
    rw [hs] at hl
    obtain rfl := Option.some.inj hl
    exact ⟨_, hsrc, rfl, fun x hx => List.mem_cons_of_mem _ hx⟩
  · exact ⟨l, by rw [hother L hLs (by omega)]; exact hl, rfl, fun _ h => h⟩

theorem add_layer_difference_with_owned {notify : PreChangeNotify} {n : Nat}
    (hn : ∀ c p ch oc flc, returned (notify c p ch oc flc) (owners_kept n c))
    (ctx : CoglContext) (dest layer : Nat) (inc : Bool) (hfresh : n ≤ layer) :
    returned (add_layer_difference_with notify ctx dest layer inc) (owners_kept n ctx) := by
  unfold add_layer_difference_with
  simp only [Option.bind_eq_bind, Option.pure_def]
  refine returned_bind_any (fun l _ => ?_)
  refine returned_ite (fun _ => returned_some (owners_kept_refl n ctx)) (fun _ => ?_)
  have k1 : owners_kept n ctx (ctx.set_layer layer { l with owner := some dest }) :=
    owners_kept_set_fresh ctx _ hfresh
  refine owned_bind (owned_step k1 (object_ref_layer_owned n _ _)) ?_
  intro c2 k2
  refine owned_bind (owned_step k2 (hn c2 _ _ _ _)) ?_
  intro c3 k3
  exact owned_step k3 (owned_of_layers (modify_pipeline_layers c3 dest _))

theorem update_blend_enable_with_owned {notify : PreChangeNotify} {n : Nat}
    (hn : ∀ c p ch oc flc, returned (notify c p ch oc flc) (owners_kept n c))
    (fuel : Nat) (ctx : CoglContext) (dest change : Nat) :
    returned (update_blend_enable_with notify fuel ctx dest change) (owners_kept n ctx) := by
  unfold update_blend_enable_with
  simp only [Option.bind_eq_bind, Option.pure_def]
  refine returned_bind_any (fun r hr => ?_)
  obtain ⟨c1, blend_enable⟩ := r
  have hc := needs_blending_enabled_caches fuel ctx dest change none c1 blend_enable hr
  have k1 : owners_kept n ctx c1 := owners_kept_of_layers (same_but_caches_layers hc)
  dsimp only
  refine returned_bind_any (fun node _ => ?_)
  refine returned_ite (fun _ => ?_) (fun _ => returned_some k1)
  refine owned_bind (owned_step k1 (hn c1 _ _ _ _)) ?_
  intro c2 k2
  exact owned_step k2 (owned_of_layers (modify_pipeline_layers c2 dest _))

theorem copy_big_state_differences_layers (ctx : CoglContext) (dest src differences : Nat) :
    returned (copy_big_state_differences ctx dest src differences) (same_layers ctx) := by
  unfold copy_big_state_differences
  refine returned_ite (fun _ => returned_some (same_layers_refl ctx)) (fun _ => ?_)
  split
  · exact returned_none
  exact modify_pipeline_layers ctx dest _

theorem copy_differences_with_owned {notify : PreChangeNotify} {n : Nat}
    (hn : ∀ c p ch oc flc, returned (notify c p ch oc flc) (owners_kept n c))
    (fuel : Nat) (ctx : CoglContext) (dest src differences : Nat)
    (hfresh : n ≤ ctx.layers.length) :
    returned (copy_differences_with notify fuel ctx dest src differences)
      (owners_kept n ctx) := by
  have r0 : owners_kept n ctx ctx := owners_kept_refl n ctx
  unfold copy_differences_with
  simp only [Option.bind_eq_bind]
  refine returned_bind_any (fun s _ => ?_)
  refine owned_bind (returned_ite
    (fun _ => owned_of_layers (modify_pipeline_layers ctx dest _))
    (fun _ => returned_some r0)) ?_
  intro c1 k1
  refine owned_bind (returned_ite
    (fun _ => owned_step k1 (owned_of_layers (modify_pipeline_layers c1 dest _)))
    (fun _ => returned_some k1)) ?_
  intro c2 k2
  refine owned_bind (returned_ite (fun _ => ?_) (fun _ => returned_some k2)) ?_
  · refine returned_bind_any (fun d _ => ?_)
    refine owned_bind (returned_ite (fun _ => ?_) (fun _ => returned_some k2)) ?_
    · exact @returned_foldlM _ _ _ (fun c => owners_kept n ctx c)
        (fun c l hs => owned_step hs (object_unref_layer_owned n c l)) _ _ k2
    intro c3 k3
    refine returned_bind_any (fun s1 _ => ?_)
    refine owned_bind ?_ ?_
    · refine @returned_foldlM _ _ _ (fun c => owners_kept n ctx c) (fun c l hs => ?_) _ _ k3
      refine returned_bind_any (fun r hr => ?_)
      obtain ⟨ca, copy⟩ := r
      obtain ⟨ka0, hcopy⟩ := layer_copy_owned n c l _ hr
      have ka : owners_kept n ctx ca := owners_kept_trans hs ka0
      dsimp only at hcopy ⊢
      have hf2 : n ≤ copy := by
        rw [hcopy]
        exact owners_kept_fresh hs hfresh
      refine owned_bind (owned_step ka (add_layer_difference_with_owned hn ca dest copy false
        hf2)) ?_
      intro cb kb
      exact owned_step kb (object_unref_layer_owned n cb copy)
    intro c4 k4
    refine returned_bind_any (fun s2 _ => ?_)
    exact owned_step k4 (owned_of_layers (modify_pipeline_layers c4 dest _))
  intro c5 k5
  refine owned_bind (owned_step k5
    (owned_of_layers (copy_big_state_differences_layers c5 dest src _))) ?_
  intro c6 k6
  refine owned_bind (returned_ite
    (fun _ => owned_step k6 (update_blend_enable_with_owned hn fuel c6 dest differences))
    (fun _ => returned_some k6)) ?_
  intro c7 k7
  exact owned_step k7 (owned_of_layers (modify_pipeline_layers c7 dest _))

theorem foreach_child_layers {ctx : CoglContext} {node : Nat}
    {cb : CoglContext → Nat → Option CoglContext} {c0 : CoglContext}
    (hcb : ∀ s y, returned (cb s y) (same_layers s)) (start : CoglContext)
    (hs : same_layers c0 start) :
    returned (_cogl_pipeline_node_foreach_child ctx node cb start) (same_layers c0) := by
  unfold _cogl_pipeline_node_foreach_child
  split
  · exact returned_none
  exact returned_foldlM (fun s y h => layers_step h (hcb s y)) _ _ hs

/-- The copy-on-write block of `_cogl_pipeline_pre_change_notify` keeps the owner of
every layer it finds, and a layer that has children keeps some. -/
theorem copy_on_write_owned {notify : PreChangeNotify} {n : Nat} (fuel p : Nat)
    (c3 : CoglContext)
    (hn : ∀ c p ch oc flc, returned (notify c p ch oc flc) (owners_kept n c))
    (hfresh : n ≤ c3.layers.length) :
    returned (pre_change_notify_copy_on_write notify fuel c3 p)
      (fun r => owners_kept n c3 r.1) := by
  intro r h
  unfold pre_change_notify_copy_on_write at h
  simp only [Option.bind_eq_bind, Option.pure_def] at h
  obtain ⟨node, hnode, h⟩ := Option.bind_eq_some.mp h
  obtain ⟨parent, hparent, h⟩ := Option.bind_eq_some.mp h
  obtain ⟨r1, hcopy, h⟩ := Option.bind_eq_some.mp h
  obtain ⟨c1, np⟩ := r1
  dsimp only at h
  obtain ⟨c2, hbread, h⟩ := Option.bind_eq_some.mp h
  obtain ⟨n2, hn2, h⟩ := Option.bind_eq_some.mp h
  obtain ⟨c3b, hdiff, h⟩ := Option.bind_eq_some.mp h
  obtain ⟨c4, hfold, h⟩ := Option.bind_eq_some.mp h
  obtain ⟨c6, hunref, h⟩ := Option.bind_eq_some.mp h
  rw [← Option.some.inj h]
  unfold cogl_pipeline_copy at hcopy
  have l1 : same_layers c3 c1 := pipeline_copy_layers fuel c3 parent false _ hcopy
  have l2 : same_layers c3 c2 :=
    same_layers_trans l1 (set_static_breadcrumb_layers _ _ _ _ hbread)
  have k2 : owners_kept n c3 c2 := owners_kept_of_layers l2
  have k3 : owners_kept n c3 c3b := owners_kept_trans k2
    (copy_differences_with_owned hn fuel c2 np p _ (owners_kept_fresh k2 hfresh) _ hdiff)
  have l4 : same_layers c3b c4 :=
    foreach_child_layers (fun s y => set_parent_layers fuel s y np true) c3b
      (same_layers_refl c3b) _ hfold
  have l5 : same_layers c3b c6 := same_layers_trans l4 (object_unref_layers _ _ _ hunref)
  exact owners_kept_trans k3 (owners_kept_of_layers l5)

theorem pre_change_notify_with_owned {notify : PreChangeNotify} {n : Nat} (f : Nat)
    (ctx : CoglContext) (p change : Nat) (oc : Option CoglColor) (flc : Bool)
    (hn : ∀ c p ch oc flc, returned (notify c p ch oc flc) (owners_kept n c))
    (hfresh : n ≤ ctx.layers.length) :
    returned (pre_change_notify_with notify f ctx p change oc flc) (owners_kept n ctx) := by
  intro c h
  unfold pre_change_notify_with at h
  simp only [Option.bind_eq_bind] at h
  obtain ⟨c1, hj, h⟩ := Option.bind_eq_some.mp h
  obtain ⟨c2, hb, h⟩ := Option.bind_eq_some.mp h
  obtain ⟨c3, hd, h⟩ := Option.bind_eq_some.mp h
  obtain ⟨node3, hn3, h⟩ := Option.bind_eq_some.mp h
  obtain ⟨c5, hcow, h⟩ := Option.bind_eq_some.mp h
  have l2 : same_layers ctx c2 := same_layers_trans
    (pre_change_notify_journal_layers _ _ _ _ _ c1 hj)
    (pre_change_notify_backends_layers _ _ _ _ c2 hb)
  have l3 : same_layers ctx c3 :=
    foreach_child_layers (fun s y => destroy_weak_children_layers f s y) c2 l2 _ hd
  have k3 : owners_kept n ctx c3 := owners_kept_of_layers l3
  have k5 : owners_kept n ctx c5 := by
    split at hcow
    · obtain ⟨r, hr, hr2⟩ := Option.map_eq_some'.mp hcow
      rw [← hr2]
      exact owners_kept_trans k3
        (copy_on_write_owned f p c3 hn (owners_kept_fresh k3 hfresh) r hr)
    · rw [← Option.some.inj hcow]
      exact k3
  exact owners_kept_trans k5
    (owners_kept_of_layers (pre_change_notify_takeover_layers _ _ _ _ c h))

/-- The function `_cogl_pipeline_pre_change_notify` keeps the owner of every layer,
and a layer that has children keeps some. -/
theorem pre_change_notify_owned :
    ∀ (fuel n : Nat) (ctx : CoglContext) (p change : Nat) (oc : Option CoglColor) (flc : Bool),
      returned (_cogl_pipeline_pre_change_notify fuel ctx p change oc flc)
        (owners_kept n ctx) := by
  intro fuel
  induction fuel with
  | zero =>
    intro n ctx p change oc flc
    exact returned_none
  | succ f ih =>
    intro n ctx p change oc flc
    rw [_cogl_pipeline_pre_change_notify]
    exact returned_mono
      (pre_change_notify_with_owned f ctx p change oc flc
        (fun c q ch o fl => ih ctx.layers.length c q ch o fl) (Nat.le_refl _))
      (fun _ h => owners_kept_any h)

/-! ## The layer pre-change notify -/

theorem layers_held_refl (free : Nat → Prop) (ctx : CoglContext) : layers_held_but free ctx ctx :=
  fun _ k hk => ⟨k, hk, rfl, fun _ => rfl, fun _ h => h⟩

theorem layers_held_trans {free : Nat → Prop} {a b c : CoglContext}
    (h1 : layers_held_but free a b) (h2 : layers_held_but free b c) :
    layers_held_but free a c := by
  intro K k hk
  obtain ⟨k2, hk2, c2, o2, s2⟩ := h1 K k hk
  obtain ⟨k3, hk3, c3, o3, s3⟩ := h2 K k2 hk2
  exact ⟨k3, hk3, c3.trans c2, fun hf => (o3 hf).trans (o2 hf), fun x hx => s3 x (s2 x hx)⟩

theorem layers_held_mono {free free2 : Nat → Prop} {a b : CoglContext}
    (hf : ∀ K, free K → free2 K) (h : layers_held_but free a b) : layers_held_but free2 a b := by
  intro K k hk
  obtain ⟨k2, hk2, c2, o2, s2⟩ := h K k hk
  exact ⟨k2, hk2, c2, fun hn => o2 (fun hh => hn (hf K hh)), s2⟩

theorem layers_held_of_eq {free : Nat → Prop} {a b : CoglContext} (h : b.layers = a.layers) :
    layers_held_but free a b := by
  intro K k hk
  refine ⟨k, ?_, rfl, fun _ => rfl, fun _ h => h⟩
  simp only [CoglContext.layer, h]
  exact hk

theorem layers_held_set {free : Nat → Prop} {ctx : CoglContext} {L : Nat}
    {old v : CoglPipelineLayer} (h : ctx.layer L = some old) (hc : v.core = old.core)
    (ho : ¬ free L → v.owner = old.owner) (hs : ∀ x ∈ old.children, x ∈ v.children) :
    layers_held_but free ctx (ctx.set_layer L v) := by
  intro K k hk
  by_cases hK : L = K
  · subst hK
    rw [h] at hk
    obtain rfl := Option.some.inj hk
    exact ⟨v, layer_set_layer_self h v, hc, ho, hs⟩
  · exact ⟨k, by rw [layer_set_layer_ne _ hK]; exact hk, rfl, fun _ => rfl, fun _ h => h⟩

/-- What `_cogl_pipeline_pre_change_notify` does to the layers: every layer keeps its
state, its owner and its children. -/
theorem pre_change_notify_held {fuel : Nat} {ctx c : CoglContext} {p change : Nat}
    {oc : Option CoglColor} {flc : Bool}
    (h : _cogl_pipeline_pre_change_notify fuel ctx p change oc flc = some c) :
    layers_held_but (fun _ => False) ctx c := by
  intro K k hk
  have hK := layer_lt_length hk
  obtain ⟨k2, hk2, hc2⟩ := layer_of_kept (pre_change_notify_kept fuel ctx p change oc flc c h) hk
  obtain ⟨k3, hk3, ho3, hs3⟩ :=
    (pre_change_notify_owned fuel ctx.layers.length ctx p change oc flc c h).2 K k hK hk
  rw [hk2] at hk3
  obtain rfl := Option.some.inj hk3
  exact ⟨k2, hk2, hc2, fun _ => ho3, hs3⟩

theorem modify_layer_inv {ctx c : CoglContext} {L : Nat}
    {f : CoglPipelineLayer → CoglPipelineLayer} (h : ctx.modify_layer L f = some c) :
    ∃ k, ctx.layer L = some k ∧ c = ctx.set_layer L (f k) := by
  unfold CoglContext.modify_layer at h
  split at h
  · exact absurd h (by simp)
  rename_i k hk
  exact ⟨k, hk, (Option.some.inj h).symm⟩

theorem modify_pipeline_inv {ctx c : CoglContext} {p : Nat}
    {f : CoglPipeline → CoglPipeline} (h : ctx.modify_pipeline p f = some c) :
    ∃ n, ctx.pipeline p = some n ∧ c = ctx.set_pipeline p (f n) := by
  unfold CoglContext.modify_pipeline at h
  split at h
  · exact absurd h (by simp)
  rename_i n hn
  exact ⟨n, hn, (Option.some.inj h).symm⟩

theorem object_unref_layer_held (free : Nat → Prop) {ctx c : CoglContext} {L : Nat}
    (h : cogl_object_unref_layer ctx L = some c) : layers_held_but free ctx c := by
  unfold cogl_object_unref_layer at h
  split at h
  · exact absurd h (by simp)
  rename_i node hl
  rw [← Option.some.inj h]
  exact layers_held_set hl rfl (fun _ => rfl) (fun _ h => h)

theorem object_ref_layer_held (free : Nat → Prop) {ctx c : CoglContext} {L : Nat}
    (h : cogl_object_ref_layer ctx L = some c) : layers_held_but free ctx c := by
  unfold cogl_object_ref_layer at h
  split at h
  · exact absurd h (by simp)
  rename_i node hl
  rw [← Option.some.inj h]
  exact layers_held_set hl rfl (fun _ => rfl) (fun _ h => h)

/-- What `_cogl_pipeline_remove_layer_difference` does to the layers: every layer
keeps its state and its children, and every layer but the one removed keeps its
owner. -/
theorem remove_layer_difference_held {fuel : Nat} {ctx c : CoglContext} {p L : Nat} {dec : Bool}
    (h : _cogl_pipeline_remove_layer_difference fuel ctx p L dec = some c) :
    layers_held_but (fun K => K = L) ctx c := by
  unfold _cogl_pipeline_remove_layer_difference at h
  simp only [Option.bind_eq_bind, Option.pure_def] at h
  obtain ⟨l, hl, h⟩ := Option.bind_eq_some.mp h
  split at h
  · rw [← Option.some.inj h]
    exact layers_held_refl _ ctx
  obtain ⟨c1, h1, h⟩ := Option.bind_eq_some.mp h
  obtain ⟨c2, h2, h⟩ := Option.bind_eq_some.mp h
  obtain ⟨c3, h3, h⟩ := Option.bind_eq_some.mp h
  obtain ⟨n, -, h4⟩ := modify_pipeline_inv h
  obtain ⟨k, hk, h2e⟩ := modify_layer_inv h2
  have k1 : layers_held_but (fun K => K = L) ctx c1 :=
    layers_held_mono (fun _ hf => hf.elim) (pre_change_notify_held h1)
  have k2 : layers_held_but (fun K => K = L) c1 c2 := by
    rw [h2e]
    exact layers_held_set hk rfl (fun hn => absurd rfl hn) (fun _ h => h)
  have k3 := object_unref_layer_held (fun K => K = L) h3
  have k4 : layers_held_but (fun K => K = L) c3 c := layers_held_of_eq (by rw [h4]; rfl)
  exact layers_held_trans k1 (layers_held_trans k2 (layers_held_trans k3 k4))

/-- What `_cogl_pipeline_add_layer_difference` does with a layer `N` without owner:
the pipeline lists `N` and owns it; every layer keeps its state and its children, and
every other layer keeps its owner. -/
theorem add_layer_difference_held {fuel : Nat} {ctx c : CoglContext} {p N : Nat} {inc : Bool}
    {nn : CoglPipelineLayer} (hN : ctx.layer N = some nn) (hfree : nn.owner = none)
    (h : _cogl_pipeline_add_layer_difference fuel ctx p N inc = some c) :
    layers_held_but (fun K => K = N) ctx c ∧
    (∃ pn, c.pipeline p = some pn ∧ N ∈ pn.layer_differences) ∧
    ∃ n2, c.layer N = some n2 ∧ n2.owner = some p := by
  unfold _cogl_pipeline_add_layer_difference add_layer_difference_with at h
  simp only [Option.bind_eq_bind, Option.pure_def, hN, Option.some_bind, hfree, ne_eq,
    not_true_eq_false, if_false] at h
  obtain ⟨c2, h2, h⟩ := Option.bind_eq_some.mp h
  obtain ⟨c3, h3, h⟩ := Option.bind_eq_some.mp h
  obtain ⟨n, hn, h4⟩ := modify_pipeline_inv h
  have k1 : layers_held_but (fun K => K = N) ctx
      (ctx.set_layer N { nn with owner := some p }) :=
    layers_held_set hN rfl (fun hn => absurd rfl hn) (fun _ h => h)
  have k2 := object_ref_layer_held (fun _ => False) h2
  have k3 := layers_held_trans k2 (pre_change_notify_held h3)
  have k4 : layers_held_but (fun K => K = N) c3 c := layers_held_of_eq (by rw [h4]; rfl)
  refine ⟨layers_held_trans k1 (layers_held_trans
    (layers_held_mono (fun _ hf => hf.elim) k3) k4), ?_, ?_⟩
  · rw [h4]
    exact ⟨_, pipeline_set_pipeline_self hn _, List.mem_cons_self N n.layer_differences⟩
  · obtain ⟨k5, hk5, -, ho5, -⟩ := k3 N _ (layer_set_layer_self hN _)
    refine ⟨k5, ?_, (ho5 (fun hf => hf)).trans rfl⟩
    rw [h4]
    exact hk5

theorem set_layer_set_layer (ctx : CoglContext) (L : Nat) (a b : CoglPipelineLayer) :
    (ctx.set_layer L a).set_layer L b = ctx.set_layer L b := by
  simp only [CoglContext.set_layer, List.set_set]

theorem set_layer_same {ctx : CoglContext} {L : Nat} {k : CoglPipelineLayer}
    (h : ctx.layer L = some k) : ctx.set_layer L k = ctx := by
  simp only [CoglContext.layer] at h
  have hlt := (List.getElem?_eq_some.mp h).1
  have : ctx.layers.set L k = ctx.layers := by
    apply List.ext_getElem?
    intro i
    rw [List.getElem?_set]
    by_cases hi : L = i
    · subst hi
      simp only [if_true, if_pos hlt]
      exact h.symm
    · rw [if_neg hi]
  simp only [CoglContext.set_layer, this]

/-- What `_cogl_pipeline_layer_init_multi_property_sparse_state` does: it writes
state fields of the layer; the links, the owner and the differences stay. -/
theorem layer_init_multi_property_sparse_state_inv {fuel : Nat} {ctx c : CoglContext}
    {layer change : Nat} {k : CoglPipelineLayer} (hk : ctx.layer layer = some k)
    (h : _cogl_pipeline_layer_init_multi_property_sparse_state fuel ctx layer change = some c) :
    ∃ v, c = ctx.set_layer layer v ∧ v.parent = k.parent ∧ v.index = k.index ∧
      v.owner = k.owner ∧ v.children = k.children ∧ v.differences = k.differences := by
  have hsame : ∃ v, ctx = ctx.set_layer layer v ∧ v.parent = k.parent ∧ v.index = k.index ∧
      v.owner = k.owner ∧ v.children = k.children ∧ v.differences = k.differences :=
    ⟨k, (set_layer_same hk).symm, rfl, rfl, rfl, rfl, rfl⟩
  unfold _cogl_pipeline_layer_init_multi_property_sparse_state at h
  split at h
  · rw [← Option.some.inj h]
    exact hsame
  split at h
  · exact absurd h (by simp)
  split at h
  · exact absurd h (by simp)
  rename_i a _
  simp only [CoglContext.modify_layer, hk] at h
  split at h
  · exact ⟨_, (Option.some.inj h).symm, rfl, rfl, rfl, rfl, rfl⟩
  split at h
  · exact ⟨_, (Option.some.inj h).symm, rfl, rfl, rfl, rfl, rfl⟩
  split at h
  · exact ⟨_, (Option.some.inj h).symm, rfl, rfl, rfl, rfl, rfl⟩
  · rw [← Option.some.inj h]
    exact hsame

/-- What the tail of `_cogl_pipeline_layer_pre_change_notify` does: the age of the
required owner goes up, and the layer is written: it keeps its links, its index and
its owner, and a sparse `change` of which it holds no bit is added to its
differences. No other layer is touched. -/
theorem init_layer_state_spec {fuel : Nat} {ctx c : CoglContext} {ro : Option Nat}
    {layer change r : Nat}
    (h : layer_pre_change_notify_init_layer_state fuel ctx ro layer change = some (c, r)) :
    r = layer ∧
    ∃ (cA : CoglContext) (k v : CoglPipelineLayer), cA.layers = ctx.layers ∧
      (∀ q qn, ctx.pipeline q = some qn →
        ∃ qn2, cA.pipeline q = some qn2 ∧ qn2.layer_differences = qn.layer_differences) ∧
      ctx.layer layer = some k ∧ c = cA.set_layer layer v ∧
      v.parent = k.parent ∧ v.index = k.index ∧ v.owner = k.owner ∧
      v.children = k.children ∧
      v.differences =
        (if change &&& COGL_PIPELINE_LAYER_STATE_ALL_SPARSE ≠ 0 ∧ k.differences &&& change = 0
         then k.differences ||| change else k.differences) := by
  unfold layer_pre_change_notify_init_layer_state at h
  simp only [Option.bind_eq_bind, Option.pure_def] at h
  obtain ⟨cA, hA, h⟩ := Option.bind_eq_some.mp h
  obtain ⟨cB, hB, h⟩ := Option.bind_eq_some.mp h
  obtain ⟨lB, hlB, h⟩ := Option.bind_eq_some.mp h
  obtain ⟨cC, hC, h⟩ := Option.bind_eq_some.mp h
  simp only [Option.some.injEq, Prod.mk.injEq] at h
  obtain ⟨rfl, rfl⟩ := h
  have hAl : cA.layers = ctx.layers := by
    cases ro with
    | none =>
      simp only [Option.some.injEq] at hA
      rw [← hA]
    | some owner =>
      obtain ⟨n, -, e⟩ := modify_pipeline_inv hA
      rw [e]
      rfl
  have hAp : ∀ q qn, ctx.pipeline q = some qn →
      ∃ qn2, cA.pipeline q = some qn2 ∧ qn2.layer_differences = qn.layer_differences := by
    intro q qn hq
    cases ro with
    | none =>
      simp only [Option.some.injEq] at hA
      rw [← hA]
      exact ⟨qn, hq, rfl⟩
    | some owner =>
      obtain ⟨n, hn, e⟩ := modify_pipeline_inv hA
      rw [e]
      by_cases hqo : owner = q
      · subst hqo
        rw [hn] at hq
        obtain rfl := Option.some.inj hq
        exact ⟨_, pipeline_set_pipeline_self hn _, rfl⟩
      · exact ⟨qn, by rw [pipeline_set_pipeline_ne _ hqo]; exact hq, rfl⟩
  obtain ⟨k, hk, eB⟩ := modify_layer_inv hB
  have hkc : ctx.layer layer = some k := by
    simp only [CoglContext.layer, ← hAl]
    exact hk
  have hlB2 : cB.layer layer = some lB := hlB
  rw [eB, layer_set_layer_self hk] at hlB2
  have hB1 : lB.parent = k.parent ∧ lB.index = k.index ∧ lB.owner = k.owner ∧
      lB.children = k.children ∧ lB.differences = k.differences := by
    rw [← Option.some.inj hlB2]
    split <;> exact ⟨rfl, rfl, rfl, rfl, rfl⟩
  obtain ⟨b1, b2, b3, b4, b5⟩ := hB1
  refine ⟨rfl, cA, k, ?_⟩
  by_cases hcond : change &&& COGL_PIPELINE_LAYER_STATE_ALL_SPARSE ≠ 0 ∧
      lB.differences &&& change = 0
  · rw [if_pos hcond] at hC
    obtain ⟨cD, hD, hE⟩ := Option.bind_eq_some.mp hC
    obtain ⟨v, eD, d1, d2, d3, d4, d5⟩ := layer_init_multi_property_sparse_state_inv hlB hD
    obtain ⟨m, hm, eE⟩ := modify_layer_inv hE
    have hm2 : m = v := by
      rw [eD, layer_set_layer_self hlB] at hm
      exact (Option.some.inj hm).symm
    subst hm2
    rw [eD, eB, set_layer_set_layer, set_layer_set_layer] at eE
    refine ⟨_, hAl, hAp, hkc, eE, d1.trans b1, d2.trans b2, d3.trans b3, d4.trans b4, ?_⟩
    rw [← b5, if_pos hcond]
    show m.differences ||| change = lB.differences ||| change
    rw [d5]
  · rw [if_neg hcond] at hC
    rw [← Option.some.inj hC]
    refine ⟨lB, hAl, hAp, hkc, ?_, b1, b2, b3, b4, ?_⟩
    · rw [eB, ← Option.some.inj hlB2]
    · rw [← b5, if_neg hcond]

theorem mask_or_and_self (d c : Nat) : (d ||| c) &&& c = c := by
  apply Nat.eq_of_testBit_eq
  intro i
  rw [Nat.testBit_and, Nat.testBit_or]
  cases d.testBit i <;> cases c.testBit i <;> rfl

theorem layer_core_eq_of_links {a b : CoglPipelineLayer} (h : a.core = b.core) :
    a.parent = b.parent ∧ a.index = b.index ∧ a.differences = b.differences :=
  ⟨(layer_core_fields h).1, (layer_core_fields h).2.2.2, (layer_core_fields h).2.1⟩

/-- The tail of `_cogl_pipeline_layer_pre_change_notify` leaves the layer it returns
with a bit of a sparse `change` in its differences, and with all of `change` when it
held no bit of it. -/
theorem init_layer_state_change_set {fuel : Nat} {ctx c : CoglContext} {ro : Option Nat}
    {layer change r : Nat}
    (h : layer_pre_change_notify_init_layer_state fuel ctx ro layer change = some (c, r))
    (hs : change &&& COGL_PIPELINE_LAYER_STATE_ALL_SPARSE ≠ 0) :
    ∃ rn, c.layer r = some rn ∧ rn.differences &&& change ≠ 0 := by
  obtain ⟨hr, cA, k, v, hAl, -, hk, hc, -, -, -, -, hd⟩ := init_layer_state_spec h
  have hkA : cA.layer layer = some k := by
    simp only [CoglContext.layer, hAl]
    exact hk
  have hc0 : change ≠ 0 := by
    intro h0
    rw [h0] at hs
    exact hs (by simp)
  refine ⟨v, by rw [hr, hc]; exact layer_set_layer_self hkA v, ?_⟩
  rw [hd]
  by_cases hz : k.differences &&& change = 0
  · rw [if_pos ⟨hs, hz⟩, mask_or_and_self]
    exact hc0
  · rw [if_neg (fun hh => hz hh.2)]
    exact hz

/-- The copy branch of `_cogl_pipeline_layer_pre_change_notify`, from the copy of
the layer to the end. -/
theorem layer_pre_change_notify_copy_branch {fuel : Nat} {c1 c2 c3 c4 c5 cF : CoglContext}
    {p L new r change : Nat} {l1 : CoglPipelineLayer}
    (hl1 : c1.layer L = some l1)
    (hcopy : _cogl_pipeline_layer_copy c1 L = some (c2, new))
    (hrem : layers_held_but (fun K => K = L) c2 c3)
    (hadd : _cogl_pipeline_add_layer_difference fuel c3 p new false = some c4)
    (hunref : cogl_object_unref_layer c4 new = some c5)
    (hinit : layer_pre_change_notify_init_layer_state fuel c5 (some p) new change =
      some (cF, r)) :
    r = c1.layers.length ∧
    ∃ rn l2 pn, cF.layer r = some rn ∧ rn.parent = some L ∧ rn.index = l1.index ∧
      rn.owner = some p ∧ cF.pipeline p = some pn ∧ r ∈ pn.layer_differences ∧
      cF.layer L = some l2 ∧ r ∈ l2.children ∧ l2.core = l1.core ∧
      (change &&& COGL_PIPELINE_LAYER_STATE_ALL_SPARSE ≠ 0 → rn.differences = change) ∧
      (change &&& COGL_PIPELINE_LAYER_STATE_ALL_SPARSE = 0 → rn.differences = 0) := by
  obtain ⟨hnew, -, -, s, hs, hsrc, -, nn, hnn, n1, n2, n3, n4, -⟩ := layer_copy_spec hcopy
  rw [hl1] at hs
  obtain rfl := Option.some.inj hs
  have hLlt := layer_lt_length hl1
  have hne : new ≠ L := by omega
  -- the new layer and the layer `L` after the removal
  obtain ⟨nn3, hnn3, q1, q2, -⟩ := hrem new nn hnn
  obtain ⟨l3, hl3, r1, -, r3⟩ := hrem L _ hsrc
  have hfree3 : nn3.owner = none := (q2 hne).trans n3
  -- after the addition
  obtain ⟨k4, ⟨pn4, hpn4, hin4⟩, nn4, hnn4, o4⟩ := add_layer_difference_held hnn3 hfree3 hadd
  obtain ⟨nn4b, hnn4b, u1, -, -⟩ := k4 new nn3 hnn3
  rw [hnn4] at hnn4b
  obtain rfl := Option.some.inj hnn4b
  obtain ⟨l4, hl4, v1, -, v3⟩ := k4 L l3 hl3
  -- after the release of the reference
  have k5 := object_unref_layer_held (fun _ => False) hunref
  obtain ⟨nn5, hnn5, w1, w2, -⟩ := k5 new nn4 hnn4
  obtain ⟨l5, hl5, x1, -, x3⟩ := k5 L l4 hl4
  have hp5 : c5.pipeline p = some pn4 := by
    unfold cogl_object_unref_layer at hunref
    split at hunref
    · exact absurd hunref (by simp)
    rw [← Option.some.inj hunref]
    exact hpn4
  -- the tail
  obtain ⟨hr, cA, k, v, hAl, hAp, hk, hc, f1, f2, f3, -, f5⟩ := init_layer_state_spec hinit
  rw [hnn5] at hk
  obtain rfl := Option.some.inj hk
  have hkA : cA.layer new = some nn5 := by
    simp only [CoglContext.layer, hAl]
    exact hnn5
  obtain ⟨pnF, hpnF, hldF⟩ := hAp p pn4 hp5
  have hcore := layer_core_eq_of_links (w1.trans (u1.trans q1))
  refine ⟨hr.trans hnew, v, l5, pnF, ?_, ?_, ?_, ?_, ?_, ?_, ?_, ?_, ?_, ?_, ?_⟩
  · rw [hr, hc]
    exact layer_set_layer_self hkA v
  · rw [f1, hcore.1, n1]
  · rw [f2, hcore.2.1, n2]
  · rw [f3, w2 (fun hf => hf), o4]
  · rw [hc]
    exact hpnF
  · rw [hr, hldF]
    exact hin4
  · rw [hc, layer_set_layer_ne _ hne]
    simp only [CoglContext.layer, hAl]
    exact hl5
  · rw [hr]
    exact x3 _ (v3 _ (r3 _ (List.mem_cons_self _ _)))
  · rw [x1, v1, r1]
    rfl
  · intro hsp
    rw [f5, hcore.2.2, n4, if_pos ⟨hsp, Nat.zero_and _⟩, Nat.zero_or]
  · intro hsp
    rw [f5, hcore.2.2, n4, if_neg (fun hh => hh.1 hsp)]

/-- What `_cogl_pipeline_layer_pre_change_notify` returns for a required owner `p`. -/
theorem layer_pre_change_notify_post {fuel : Nat} {ctx cF : CoglContext}
    {p L r change : Nat} {l : CoglPipelineLayer} (hl : ctx.layer L = some l)
    (h : _cogl_pipeline_layer_pre_change_notify fuel ctx (some p) L change = some (cF, r)) :
    ((l.children ≠ [] ∨ ∃ q, l.owner = some q ∧ q ≠ p) →
      ctx.layers.length ≤ r ∧
      ∃ rn l2 pn, cF.layer r = some rn ∧ rn.parent = some L ∧ rn.index = l.index ∧
        rn.owner = some p ∧ cF.pipeline p = some pn ∧ r ∈ pn.layer_differences ∧
        cF.layer L = some l2 ∧ r ∈ l2.children ∧ l2.core = l.core ∧
        (change &&& COGL_PIPELINE_LAYER_STATE_ALL_SPARSE ≠ 0 → rn.differences = change) ∧
        (change &&& COGL_PIPELINE_LAYER_STATE_ALL_SPARSE = 0 → rn.differences = 0)) ∧
    (r = L → l.children = [] ∧ (l.owner = none ∨ l.owner = some p)) ∧
    (l.children = [] → l.owner = none → r = L) ∧
    (change &&& COGL_PIPELINE_LAYER_STATE_ALL_SPARSE ≠ 0 →
      ∃ rn, cF.layer r = some rn ∧ rn.differences &&& change ≠ 0) := by
  unfold _cogl_pipeline_layer_pre_change_notify at h
  simp only [Option.bind_eq_bind, Option.pure_def, hl, Option.some_bind] at h
  by_cases he : l.children = [] ∧ l.owner = none
  · rw [if_pos he] at h
    have hr := (init_layer_state_spec h).1
    refine ⟨?_, fun _ => ⟨he.1, Or.inl he.2⟩, fun _ _ => hr,
      fun hs => init_layer_state_change_set h hs⟩
    intro hsh
    rcases hsh with hc | ⟨q, hq, -⟩
    · exact absurd he.1 hc
    · rw [he.2] at hq
      exact absurd hq (by simp)
  · rw [if_neg he] at h
    obtain ⟨c1, hc1, h⟩ := Option.bind_eq_some.mp h
    obtain ⟨l1, hl1, h⟩ := Option.bind_eq_some.mp h
    obtain ⟨l1b, hl1b, core1, own1, ch1⟩ := pre_change_notify_held hc1 L l hl
    rw [hl1] at hl1b
    obtain rfl := Option.some.inj hl1b
    have own1b : l1.owner = l.owner := own1 (fun hf => hf)
    have hlen : ctx.layers.length ≤ c1.layers.length :=
      (pre_change_notify_kept fuel ctx p _ _ _ c1 hc1).2.1
    have hLlt := layer_lt_length hl
    by_cases hs : l1.children ≠ [] ∨ l1.owner ≠ some p
    · rw [if_pos hs] at h
      obtain ⟨r1, hcopy, h⟩ := Option.bind_eq_some.mp h
      obtain ⟨c2, new⟩ := r1
      dsimp only at h
      obtain ⟨l2, hl2, h⟩ := Option.bind_eq_some.mp h
      obtain ⟨c3, hrem, h⟩ := Option.bind_eq_some.mp h
      obtain ⟨c4, hadd, h⟩ := Option.bind_eq_some.mp h
      obtain ⟨c5, hunref, h⟩ := Option.bind_eq_some.mp h
      have hheld : layers_held_but (fun K => K = L) c2 c3 := by
        split at hrem
        · exact remove_layer_difference_held hrem
        · rw [← Option.some.inj hrem]
          exact layers_held_refl _ c2
      obtain ⟨hr, rn, l5, pn, g1, g2, g3, g4, g5, g6, g7, g8, g9, g10, g11⟩ :=
        layer_pre_change_notify_copy_branch hl1 hcopy hheld hadd hunref h
      have hge : ctx.layers.length ≤ r := by omega
      refine ⟨fun _ => ⟨hge, rn, l5, pn, g1, g2, ?_, g4, g5, g6, g7, g8, g9.trans core1,
        g10, g11⟩, fun hrL => absurd hrL (by omega),
        fun h1 h2 => absurd ⟨h1, h2⟩ he, fun hsp => init_layer_state_change_set h hsp⟩
      rw [g3, (layer_core_eq_of_links core1).2.1]
    · rw [if_neg hs] at h
      obtain ⟨c2, -, h⟩ := Option.bind_eq_some.mp h
      obtain ⟨unit_index, -, h⟩ := Option.bind_eq_some.mp h
      have hr := (init_layer_state_spec h).1
      have hch : l1.children = [] := by
        by_contra hne
        exact hs (Or.inl hne)
      have hown : l1.owner = some p := by
        by_contra hne
        exact hs (Or.inr hne)
      have hlc : l.children = [] := by
        cases hcs : l.children with
        | nil => rfl
        | cons x rest =>
          have := ch1 x (by rw [hcs]; exact List.mem_cons_self _ _)
          rw [hch] at this
          exact absurd this (List.not_mem_nil _)
      refine ⟨?_, fun _ => ⟨hlc, Or.inr (own1b ▸ hown)⟩,
        fun h1 h2 => absurd ⟨h1, h2⟩ he, fun hsp => init_layer_state_change_set h hsp⟩
      intro hsh
      rcases hsh with hc | ⟨q, hq, hqp⟩
      · exact absurd hlc hc
      · rw [own1b, hq] at hown
        exact absurd (Option.some.inj hown) hqp

/-! ## The layer pre-change notify returns -/

theorem pipeline_get_authority_exists {ctx : CoglContext} {g : Nat} :
    ∀ (f p a : Nat), _cogl_pipeline_get_authority ctx f p g = some a →
      ∃ an, ctx.pipeline a = some an := by
  intro f
  induction f with
  | zero => intro p a h; exact absurd h (by simp [_cogl_pipeline_get_authority])
  | succ k ih =>
    intro p a h
    unfold _cogl_pipeline_get_authority at h
    split at h
    · exact absurd h (by simp)
    rename_i node hp
    split at h
    · rw [← Option.some.inj h]
      exact ⟨node, hp⟩
    split at h
    · exact absurd h (by simp)
    exact ih _ a h

theorem layer_get_authority_exists {ctx : CoglContext} {g : Nat} :
    ∀ (f l a : Nat), _cogl_pipeline_layer_get_authority ctx f l g = some a →
      ∃ an, ctx.layer a = some an := by
  intro f
  induction f with
  | zero => intro l a h; exact absurd h (by simp [_cogl_pipeline_layer_get_authority])
  | succ k ih =>
    intro l a h
    unfold _cogl_pipeline_layer_get_authority at h
    split at h
    · exact absurd h (by simp)
    rename_i node hp
    split at h
    · rw [← Option.some.inj h]
      exact ⟨node, hp⟩
    split at h
    · exact absurd h (by simp)
    exact ih _ a h

/-- A layer walk that resolves still resolves, to the same layer, when every layer
keeps its differences and its parent. -/
theorem layer_get_authority_seen {ctx c : CoglContext} (g : Nat)
    (hv : ∀ K k, ctx.layer K = some k →
      ∃ k2, c.layer K = some k2 ∧ k2.differences = k.differences ∧ k2.parent = k.parent) :
    ∀ (f l a : Nat), _cogl_pipeline_layer_get_authority ctx f l g = some a →
      _cogl_pipeline_layer_get_authority c f l g = some a := by
  intro f
  induction f with
  | zero => intro l a h; exact absurd h (by simp [_cogl_pipeline_layer_get_authority])
  | succ k ih =>
    intro l a h
    unfold _cogl_pipeline_layer_get_authority at h
    split at h
    · exact absurd h (by simp)
    rename_i node hp
    obtain ⟨k2, hk2, hd, hpar⟩ := hv l node hp
    simp only [_cogl_pipeline_layer_get_authority, hk2, hd, hpar]
    split at h
    · rename_i hc
      rw [if_pos hc]
      exact h
    rename_i hc
    rw [if_neg hc]
    split at h
    · exact absurd h (by simp)
    rename_i parent hparent
    exact ih _ a h

theorem layers_held_seen {free : Nat → Prop} {ctx c : CoglContext}
    (h : layers_held_but free ctx c) :
    ∀ K k, ctx.layer K = some k →
      ∃ k2, c.layer K = some k2 ∧ k2.differences = k.differences ∧ k2.parent = k.parent := by
  intro K k hk
  obtain ⟨k2, hk2, hc, -, -⟩ := h K k hk
  exact ⟨k2, hk2, (layer_core_eq_of_links hc).2.2, (layer_core_eq_of_links hc).1⟩

/-- A pipeline walk that resolves still resolves, to the same pipeline, when every
pipeline keeps its differences and its parent. -/
theorem pipeline_get_authority_seen {ctx c : CoglContext} (g : Nat)
    (hv : ∀ q n, ctx.pipeline q = some n →
      ∃ n2, c.pipeline q = some n2 ∧ n2.differences = n.differences ∧ n2.parent = n.parent) :
    ∀ (f p a : Nat), _cogl_pipeline_get_authority ctx f p g = some a →
      _cogl_pipeline_get_authority c f p g = some a := by
  intro f
  induction f with
  | zero => intro l a h; exact absurd h (by simp [_cogl_pipeline_get_authority])
  | succ k ih =>
    intro l a h
    unfold _cogl_pipeline_get_authority at h
    split at h
    · exact absurd h (by simp)
    rename_i node hp
    obtain ⟨k2, hk2, hd, hpar⟩ := hv l node hp
    simp only [_cogl_pipeline_get_authority, hk2, hd, hpar]
    split at h
    · rename_i hc
      rw [if_pos hc]
      exact h
    rename_i hc
    rw [if_neg hc]
    split at h
    · exact absurd h (by simp)
    rename_i parent hparent
    exact ih _ a h

theorem recursively_free_layer_caches_leaf {ctx : CoglContext} {p : Nat} {node : CoglPipeline}
    (f : Nat) (hp : ctx.pipeline p = some node) (hch : node.children = []) :
    ∃ c, recursively_free_layer_caches (f + 1) ctx p = some c := by
  unfold recursively_free_layer_caches
  simp only [hp]
  split
  · exact ⟨_, rfl⟩
  · simp only [_cogl_pipeline_node_foreach_child, pipeline_set_pipeline_self hp, hch,
      List.foldlM_nil, Option.pure_def]
    exact ⟨_, rfl⟩

theorem mask_or_layers (d : Nat) :
    (d ||| COGL_PIPELINE_STATE_LAYERS) &&& COGL_PIPELINE_STATE_LAYERS ≠ 0 := by
  rw [mask_or_and_self]
  decide

/-- The tail of `_cogl_pipeline_pre_change_notify` for a change of `LAYERS` returns
on a pipeline without children whose `LAYERS` authority can be found. -/
theorem takeover_layers_total {f p : Nat} {c5 : CoglContext} {node : CoglPipeline}
    (hp : c5.pipeline p = some node) (hch : node.children = [])
    (hauth : ∃ a, _cogl_pipeline_get_authority c5 (f + 1) p COGL_PIPELINE_STATE_LAYERS =
      some a) :
    ∃ c, pre_change_notify_takeover (f + 1) c5 p COGL_PIPELINE_STATE_LAYERS = some c := by
  unfold pre_change_notify_takeover
  simp only [Option.bind_eq_bind, Option.pure_def]
  rw [modify_pipeline_some hp]
  simp only [Option.some_bind]
  rw [modify_pipeline_some (pipeline_set_pipeline_self hp _)]
  simp only [Option.some_bind, set_pipeline_set_pipeline, pipeline_set_pipeline_self hp,
    show COGL_PIPELINE_STATE_LAYERS &&& COGL_PIPELINE_STATE_NEEDS_BIG_STATE = 0 from by decide,
    ne_eq, not_true_eq_false, false_and, if_false,
    show ¬ (COGL_PIPELINE_STATE_LAYERS &&& COGL_PIPELINE_STATE_ALL_SPARSE = 0) from by decide,
    not_false_eq_true, true_and, if_true]
  by_cases hhad : node.differences &&& COGL_PIPELINE_STATE_LAYERS = 0
  · rw [if_pos hhad]
    obtain ⟨a, ha⟩ := hauth
    have ha2 : _cogl_pipeline_get_authority (c5.set_pipeline p { node with age := node.age + 1 })
        (f + 1) p COGL_PIPELINE_STATE_LAYERS = some a := by
      rw [get_authority_set_same hp (v := { node with age := node.age + 1 }) rfl rfl]
      exact ha
    obtain ⟨an, han⟩ := pipeline_get_authority_exists _ _ _ ha2
    unfold _cogl_pipeline_init_multi_property_sparse_state
    rw [if_neg (by decide), if_neg (by decide)]
    simp only [ha2, han, if_true]
    rw [modify_pipeline_some (pipeline_set_pipeline_self hp _)]
    simp only [Option.some_bind, set_pipeline_set_pipeline]
    rw [modify_pipeline_some (pipeline_set_pipeline_self hp _)]
    simp only [Option.some_bind, set_pipeline_set_pipeline]
    obtain ⟨c, hc⟩ := recursively_free_layer_caches_leaf f
      (pipeline_set_pipeline_self hp
        { node with age := node.age + 1, n_layers := an.n_layers, layer_differences := [],
                    differences := node.differences ||| COGL_PIPELINE_STATE_LAYERS }) hch
    rw [hc]
    exact ⟨_, rfl⟩
  · rw [if_neg hhad]
    simp only [Option.some_bind]
    obtain ⟨c, hc⟩ := recursively_free_layer_caches_leaf f
      (pipeline_set_pipeline_self hp { node with age := node.age + 1 }) hch
    rw [hc]
    exact ⟨_, rfl⟩

theorem seen_of_kept_skeleton {a b : CoglContext}
    (hk : layers_kept_but a.pipelines.length a b) (hs : same_skeleton a b) :
    ∀ q n, a.pipeline q = some n →
      ∃ n2, b.pipeline q = some n2 ∧ n2.differences = n.differences ∧
        n2.parent = n.parent ∧ n2.children = n.children := by
  intro q n hq
  obtain ⟨n2, hq2, hl2⟩ := same_skeleton_pipeline hs hq
  have hlt : q < a.pipelines.length := by
    simp only [CoglContext.pipeline] at hq
    exact (List.getElem?_eq_some.mp hq).1
  have h3 := hk.2.2.1 q hlt (Nat.ne_of_lt hlt)
  rw [hq, hq2] at h3
  have h4 : n2.layer_state = n.layer_state := Option.some.inj h3
  refine ⟨n2, hq2, congrArg (fun t : Nat × List Nat × Nat => t.1) h4,
    congrArg PipelineLinks.parent hl2, congrArg PipelineLinks.children hl2⟩

/-- The function `_cogl_pipeline_pre_change_notify` returns for a change of `LAYERS`
on a pipeline without children whose `LAYERS` authority can be found; afterwards the
pipeline still has no children and asserts `LAYERS`. -/
theorem pre_change_notify_leaf_layers_returns {ctx : CoglContext} {p : Nat} {n : CoglPipeline}
    (f : Nat) (flc : Bool) (hp : ctx.pipeline p = some n) (hch : n.children = [])
    (hauth : ∃ a, _cogl_pipeline_get_authority ctx (f + 1) p COGL_PIPELINE_STATE_LAYERS =
      some a) :
    ∃ c n2, _cogl_pipeline_pre_change_notify (f + 2) ctx p COGL_PIPELINE_STATE_LAYERS none flc =
        some c ∧
      c.pipeline p = some n2 ∧ n2.children = [] ∧
      n2.differences &&& COGL_PIPELINE_STATE_LAYERS ≠ 0 := by
  obtain ⟨c1, h1, hp1, s1⟩ := pre_change_notify_journal_total (f + 1) none hp
    (show COGL_PIPELINE_STATE_LAYERS ≠ COGL_PIPELINE_STATE_COLOR by decide)
  have hp1n : c1.pipeline p = some n := by
    simp only [CoglContext.pipeline, hp1]
    exact hp
  obtain ⟨c2, h2, s2⟩ := pre_change_notify_backends_total COGL_PIPELINE_STATE_LAYERS flc hp1n
  have k2 := pre_change_notify_backends_kept c1.pipelines.length c1 p
    COGL_PIPELINE_STATE_LAYERS flc c2 h2
  have seen := seen_of_kept_skeleton k2 s2
  obtain ⟨n2, hp2, -, -, hch2⟩ := seen p n hp1n
  have hauth1 : ∃ a, _cogl_pipeline_get_authority c1 (f + 1) p COGL_PIPELINE_STATE_LAYERS =
      some a := by
    obtain ⟨a, ha⟩ := hauth
    refine ⟨a, pipeline_get_authority_seen _ (fun q m hq => ⟨m, ?_, rfl, rfl⟩) _ _ _ ha⟩
    simp only [CoglContext.pipeline, hp1]
    exact hq
  have hauth2 : ∃ a, _cogl_pipeline_get_authority c2 (f + 1) p COGL_PIPELINE_STATE_LAYERS =
      some a := by
    obtain ⟨a, ha⟩ := hauth1
    exact ⟨a, pipeline_get_authority_seen _
      (fun q m hq => by
        obtain ⟨m2, hm2, d2, p2, -⟩ := seen q m hq
        exact ⟨m2, hm2, d2, p2⟩) _ _ _ ha⟩
  obtain ⟨c3, h3⟩ := takeover_layers_total hp2 (hch2.trans hch) hauth2
  have hcall : _cogl_pipeline_pre_change_notify (f + 2) ctx p COGL_PIPELINE_STATE_LAYERS none
      flc = some c3 := by
    rw [_cogl_pipeline_pre_change_notify]
    unfold pre_change_notify_with
    simp only [Option.bind_eq_bind, h1, Option.some_bind, h2, _cogl_pipeline_node_foreach_child,
      hp2, hch2.trans hch, List.foldlM_nil, Option.pure_def, ne_eq, not_true_eq_false, if_false,
      h3]
  have hleaf : ∀ l, ctx.links p = some l → l.children = [] := by
    intro l hl
    rw [links_of_pipeline hp] at hl
    rw [← Option.some.inj hl]
    exact hch
  obtain ⟨s3, -⟩ := pre_change_notify_leaf_both (f + 2) ctx p _ none flc hleaf c3 hcall
  obtain ⟨n3, hp3, hl3⟩ := same_skeleton_pipeline s3 hp
  obtain ⟨n3b, hp3b, -, hd3, -⟩ := takeover_layers hp2 h3
  rw [hp3] at hp3b
  obtain rfl := Option.some.inj hp3b
  exact ⟨c3, n3, hcall, hp3, (congrArg PipelineLinks.children hl3).trans hch, hd3⟩

theorem layer_copy_total {ctx : CoglContext} {src : Nat} {s : CoglPipelineLayer}
    (hs : ctx.layer src = some s) :
    ∃ c2, _cogl_pipeline_layer_copy ctx src = some (c2, ctx.layers.length) := by
  have hslt := layer_lt_length hs
  have hne : src ≠ ctx.layers.length := Nat.ne_of_lt hslt
  unfold _cogl_pipeline_layer_copy
  simp only [hs]
  unfold _cogl_pipeline_layer_set_parent cogl_object_ref_layer CoglContext.modify_layer
  simp only [layer_append_old _ hslt, hs, layer_set_layer, length_set_layer, hne, Ne.symm hne,
    if_false, if_true, layer_append_new, Option.isSome_none, Bool.false_eq_true,
    List.length_append, List.length_singleton, show src < ctx.layers.length + 1 by omega,
    show ctx.layers.length < ctx.layers.length + 1 by omega]
  exact ⟨_, rfl⟩

theorem modify_layer_some {ctx : CoglContext} {L : Nat} {k : CoglPipelineLayer}
    (h : ctx.layer L = some k) (f : CoglPipelineLayer → CoglPipelineLayer) :
    ctx.modify_layer L f = some (ctx.set_layer L (f k)) := by
  simp only [CoglContext.modify_layer, h]

theorem layer_init_multi_property_sparse_state_total {fuel : Nat} {ctx : CoglContext}
    {layer change : Nat} {k : CoglPipelineLayer} (hk : ctx.layer layer = some k)
    (hauth : ∃ a, _cogl_pipeline_layer_get_authority ctx fuel layer change = some a) :
    ∃ c, _cogl_pipeline_layer_init_multi_property_sparse_state fuel ctx layer change =
      some c := by
  obtain ⟨a, ha⟩ := hauth
  obtain ⟨an, han⟩ := layer_get_authority_exists _ _ _ ha
  unfold _cogl_pipeline_layer_init_multi_property_sparse_state
  simp only [ha, han, CoglContext.modify_layer, hk]
  split
  · exact ⟨_, rfl⟩
  split
  · exact ⟨_, rfl⟩
  split
  · exact ⟨_, rfl⟩
  split
  · exact ⟨_, rfl⟩
  · exact ⟨_, rfl⟩

/-- The tail of `_cogl_pipeline_layer_pre_change_notify` returns when the required
owner and the layer exist and the authority of the layer for `change` can be
found. -/
theorem init_layer_state_total {fuel : Nat} {ctx : CoglContext} {p layer change : Nat}
    {pn : CoglPipeline} {k : CoglPipelineLayer}
    (hp : ctx.pipeline p = some pn) (hk : ctx.layer layer = some k)
    (hauth : k.differences &&& change = 0 →
      ∃ a, _cogl_pipeline_layer_get_authority ctx fuel layer change = some a) :
    ∃ c, layer_pre_change_notify_init_layer_state fuel ctx (some p) layer change =
      some (c, layer) := by
  have key : returns (layer_pre_change_notify_init_layer_state fuel ctx (some p) layer change)
      (fun r => r.2 = layer) := by
    unfold layer_pre_change_notify_init_layer_state
    simp only [Option.bind_eq_bind, Option.pure_def]
    refine returns_bind
      (⟨_, modify_pipeline_some hp _, rfl⟩ :
        returns _ (fun cA : CoglContext => cA.layers = ctx.layers)) ?_
    intro cA hAl
    have hkA : cA.layer layer = some k := by
      simp only [CoglContext.layer, hAl]
      exact hk
    refine returns_bind
      (⟨_, modify_layer_some hkA _, _, layer_set_layer_self hkA _,
          by split <;> rfl, by split <;> rfl,
          fun K hK => by
            rw [layer_set_layer_ne _ (Ne.symm hK)]
            simp only [CoglContext.layer, hAl]⟩ :
        returns _ (fun cB : CoglContext => ∃ kB, cB.layer layer = some kB ∧
          kB.differences = k.differences ∧ kB.parent = k.parent ∧
          ∀ K, K ≠ layer → cB.layer K = ctx.layer K)) ?_
    intro cB hB
    obtain ⟨kB, hkB, hd, hpar, hoth⟩ := hB
    refine returns_bind (⟨kB, hkB, rfl⟩ : returns _ (fun l => l = kB)) ?_
    intro l hl
    subst hl
    refine returns_bind (?_ : returns _ (fun _ : CoglContext => True))
      (fun c _ => returns_some rfl)
    refine returns_ite (fun hc => ?_) (fun _ => returns_some trivial)
    have hwalk : ∃ a, _cogl_pipeline_layer_get_authority cB fuel layer change = some a := by
      obtain ⟨a, ha⟩ := hauth (hd ▸ hc.2)
      refine ⟨a, layer_get_authority_seen change ?_ _ _ _ ha⟩
      intro K k1 hK
      by_cases hKl : K = layer
      · subst hKl
        rw [hk] at hK
        rw [← Option.some.inj hK]
        exact ⟨l, hkB, hd, hpar⟩
      · exact ⟨k1, by rw [hoth K hKl]; exact hK, rfl, rfl⟩
    obtain ⟨c, hc1⟩ := layer_init_multi_property_sparse_state_total hkB hwalk
    obtain ⟨v, hv, -⟩ := layer_init_multi_property_sparse_state_inv hkB hc1
    rw [hc1, Option.some_bind, hv, modify_layer_some (layer_set_layer_self hkB v)]
    exact returns_some trivial
  obtain ⟨r, hr, hr2⟩ := key
  obtain ⟨c, r2⟩ := r
  dsimp only at hr2
  subst hr2
  exact ⟨c, hr⟩

theorem returns_and_returned {α : Type} {x : Option α} {P Q : α → Prop} (h1 : returns x P)
    (h2 : returned x Q) : returns x (fun a => P a ∧ Q a) := by
  obtain ⟨a, ha, hp⟩ := h1
  exact ⟨a, ha, hp, h2 a ha⟩

theorem layers_leaf_walk {c : CoglContext} {p : Nat} (h : layers_leaf c p) (f : Nat) :
    ∃ a, _cogl_pipeline_get_authority c (f + 1) p COGL_PIPELINE_STATE_LAYERS = some a := by
  obtain ⟨n, hn, -, hd⟩ := h
  refine ⟨p, ?_⟩
  unfold _cogl_pipeline_get_authority
  simp only [hn, if_pos hd]

theorem layers_leaf_of_pipelines {c c2 : CoglContext} {p : Nat} (h : layers_leaf c p)
    (he : c2.pipelines = c.pipelines) : layers_leaf c2 p := by
  obtain ⟨n, hn, h1, h2⟩ := h
  refine ⟨n, ?_, h1, h2⟩
  simp only [CoglContext.pipeline, he]
  exact hn

/-- The function `_cogl_pipeline_pre_change_notify` for a change of `LAYERS` returns on
a pipeline without children that asserts `LAYERS`, and leaves it so. -/
theorem pre_change_notify_layers_leaf {c : CoglContext} {p : Nat} (h : layers_leaf c p)
    (f : Nat) (flc : Bool) :
    returns (_cogl_pipeline_pre_change_notify (f + 2) c p COGL_PIPELINE_STATE_LAYERS none flc)
      (fun c1 => layers_leaf c1 p ∧ layers_held_but (fun _ => False) c c1) := by
  obtain ⟨n, hn, hch, hd⟩ := h
  obtain ⟨c1, n1, h1, hp1, hch1, hd1⟩ :=
    pre_change_notify_leaf_layers_returns f flc hn hch (layers_leaf_walk ⟨n, hn, hch, hd⟩ f)
  exact ⟨c1, h1, ⟨n1, hp1, hch1, hd1⟩, pre_change_notify_held h1⟩

theorem object_unref_layer_total {c : CoglContext} {L : Nat} {k : CoglPipelineLayer}
    (hk : c.layer L = some k) :
    ∃ c2, cogl_object_unref_layer c L = some c2 ∧ c2.pipelines = c.pipelines := by
  unfold cogl_object_unref_layer
  simp only [hk]
  exact ⟨_, rfl, rfl⟩

theorem object_ref_layer_total {c : CoglContext} {L : Nat} {k : CoglPipelineLayer}
    (hk : c.layer L = some k) :
    ∃ c2, cogl_object_ref_layer c L = some c2 ∧ c2.pipelines = c.pipelines := by
  unfold cogl_object_ref_layer
  simp only [hk]
  exact ⟨_, rfl, rfl⟩

/-- The function `_cogl_pipeline_remove_layer_difference` returns on a pipeline
without children that asserts `LAYERS`, and leaves it so. -/
theorem remove_layer_difference_leaf {c : CoglContext} {p L : Nat} {l : CoglPipelineLayer}
    (h : layers_leaf c p) (hl : c.layer L = some l) (f : Nat) (dec : Bool) :
    returns (_cogl_pipeline_remove_layer_difference (f + 2) c p L dec)
      (fun c3 => layers_leaf c3 p) := by
  unfold _cogl_pipeline_remove_layer_difference
  simp only [Option.bind_eq_bind, Option.pure_def, hl, Option.some_bind]
  refine returns_ite (fun _ => returns_some h) (fun _ => ?_)
  refine returns_bind (pre_change_notify_layers_leaf h f _) ?_
  intro c1 h1
  obtain ⟨hleaf1, held1⟩ := h1
  obtain ⟨k, hk, -⟩ := held1 L l hl
  refine returns_bind
    (⟨_, modify_layer_some hk _, hleaf1, _, layer_set_layer_self hk _⟩ :
      returns _ (fun c2 : CoglContext => layers_leaf c2 p ∧ ∃ k2, c2.layer L = some k2)) ?_
  intro c2 h2
  obtain ⟨hleaf2, k2, hk2⟩ := h2
  obtain ⟨c3, hc3, hp3⟩ := object_unref_layer_total hk2
  refine returns_bind
    (⟨c3, hc3, layers_leaf_of_pipelines hleaf2 hp3⟩ :
      returns _ (fun c3 : CoglContext => layers_leaf c3 p)) ?_
  intro c4 h4
  obtain ⟨n4, hn4, hch4, -⟩ := h4
  exact ⟨_, modify_pipeline_some hn4 _, _, pipeline_set_pipeline_self hn4 _, hch4,
    mask_or_layers _⟩

/-- The function `_cogl_pipeline_add_layer_difference` returns on a pipeline without
children that asserts `LAYERS`, and leaves it so. -/
theorem add_layer_difference_leaf {c : CoglContext} {p N : Nat} {nn : CoglPipelineLayer}
    (h : layers_leaf c p) (hN : c.layer N = some nn) (f : Nat) (inc : Bool) :
    returns (_cogl_pipeline_add_layer_difference (f + 2) c p N inc)
      (fun c3 => layers_leaf c3 p) := by
  unfold _cogl_pipeline_add_layer_difference add_layer_difference_with
  simp only [Option.bind_eq_bind, Option.pure_def, hN, Option.some_bind]
  refine returns_ite (fun _ => returns_some h) (fun _ => ?_)
  obtain ⟨c2, hc2, hp2⟩ := object_ref_layer_total
    (layer_set_layer_self hN { nn with owner := some p })
  refine returns_bind
    (⟨c2, hc2, layers_leaf_of_pipelines h hp2⟩ :
      returns _ (fun c2 : CoglContext => layers_leaf c2 p)) ?_
  intro c3 h3
  refine returns_bind (pre_change_notify_layers_leaf h3 f _) ?_
  intro c4 h4
  obtain ⟨n4, hn4, hch4, -⟩ := h4.1
  exact ⟨_, modify_pipeline_some hn4 _, _, pipeline_set_pipeline_self hn4 _, hch4,
    mask_or_layers _⟩

theorem layer_copy_held {c1 c2 : CoglContext} {L new : Nat}
    (h : _cogl_pipeline_layer_copy c1 L = some (c2, new)) :
    layers_held_but (fun _ => False) c1 c2 := by
  obtain ⟨hnew, -, -, s, hs, hsrc, hother, -⟩ := layer_copy_spec h
  intro K k hK
  have hKlt := layer_lt_length hK
  by_cases hKL : K = L
  · subst hKL
    rw [hs] at hK
    obtain rfl := Option.some.inj hK
    exact ⟨_, hsrc, rfl, fun _ => rfl, fun x hx => List.mem_cons_of_mem _ hx⟩
  · exact ⟨k, by rw [hother K hKL (by omega)]; exact hK, rfl, fun _ => rfl, fun _ h => h⟩

theorem layer_change_notify_backends_total {c : CoglContext} {p : Nat} {o : CoglPipeline}
    (hp : c.pipeline p = some o) (layer change : Nat) :
    ∃ c2, layer_change_notify_backends c p layer change = some c2 ∧
      c2.layers = c.layers ∧ c2.pipelines = c.pipelines := by
  unfold layer_change_notify_backends
  simp only [hp]
  refine ⟨_, rfl, ?_, ?_⟩
  · simp only [CoglContext.emit]
    split <;> split <;> rfl
  · simp only [CoglContext.emit]
    split <;> split <;> rfl

theorem layer_get_unit_index_total {c : CoglContext} {fuel L : Nat}
    (h : ∃ a, _cogl_pipeline_layer_get_authority c fuel L COGL_PIPELINE_LAYER_STATE_UNIT =
      some a) :
    ∃ u, _cogl_pipeline_layer_get_unit_index c fuel L = some u := by
  obtain ⟨a, ha⟩ := h
  obtain ⟨an, han⟩ := layer_get_authority_exists _ _ _ ha
  unfold _cogl_pipeline_layer_get_unit_index
  simp only [ha, han, Option.map_some']
  exact ⟨_, rfl⟩

/-- The function `_cogl_pipeline_layer_pre_change_notify` returns when the required
owner has no children, the layer exists, and the walks to the `LAYERS` authority of
the owner and to the authorities of the layer for `change` and for `UNIT` end within
the fuel. -/
theorem layer_pre_change_notify_leaf_returns {ctx : CoglContext} {p L change F : Nat}
    {pn : CoglPipeline} {l : CoglPipelineLayer} (f : Nat)
    (hp : ctx.pipeline p = some pn) (hleaf : pn.children = [])
    (hl : ctx.layer L = some l)
    (hpa : ∃ a, _cogl_pipeline_get_authority ctx F p COGL_PIPELINE_STATE_LAYERS = some a)
    (hla : ∃ a, _cogl_pipeline_layer_get_authority ctx F L change = some a)
    (hlu : ∃ a, _cogl_pipeline_layer_get_authority ctx F L COGL_PIPELINE_LAYER_STATE_UNIT =
      some a)
    (hF : F ≤ f + 1) :
    ∃ cF r, _cogl_pipeline_layer_pre_change_notify (f + 2) ctx (some p) L change =
      some (cF, r) := by
  have key : returns (_cogl_pipeline_layer_pre_change_notify (f + 2) ctx (some p) L change)
      (fun _ => True) := by
    unfold _cogl_pipeline_layer_pre_change_notify
    simp only [Option.bind_eq_bind, Option.pure_def, hl, Option.some_bind]
    refine returns_ite (fun he => ?_) (fun he => ?_)
    · obtain ⟨c, hc⟩ := @init_layer_state_total (f + 2) _ _ _ change _ _ hp hl (fun _ => by
        obtain ⟨a, ha⟩ := hla
        exact ⟨a, layer_get_authority_mono _ _ _ _ _ ha _ (by omega)⟩)
      exact ⟨_, hc, trivial⟩
    · obtain ⟨d1, n1, h1, hp1, hch1, hd1⟩ :=
        pre_change_notify_leaf_layers_returns f true hp hleaf (by
          obtain ⟨a, ha⟩ := hpa
          exact ⟨a, pipeline_get_authority_mono _ _ _ _ _ ha _ hF⟩)
      refine returns_bind
        (⟨d1, h1, ⟨n1, hp1, hch1, hd1⟩, pre_change_notify_held h1⟩ :
          returns _ (fun c1 : CoglContext =>
            layers_leaf c1 p ∧ layers_held_but (fun _ => False) ctx c1)) ?_
      intro c1 hc1
      obtain ⟨hleaf1, held1⟩ := hc1
      obtain ⟨l1, hl1, -⟩ := held1 L l hl
      rw [hl1]
      simp only [Option.some_bind]
      refine returns_ite (fun hs => ?_) (fun hs => ?_)
      · obtain ⟨d2, hcopy⟩ := layer_copy_total hl1
        refine returns_bind
          (⟨_, hcopy, rfl⟩ :
            returns _ (fun r : CoglContext × Nat => r = (d2, c1.layers.length))) ?_
        intro r hr
        subst hr
        dsimp only
        obtain ⟨-, hpipes2, -, s, hs1, hsrc, -, nn, hnn, m1, m2, m3, m4, -⟩ :=
          layer_copy_spec hcopy
        have held2 := layer_copy_held hcopy
        have hleaf2 := layers_leaf_of_pipelines hleaf1 hpipes2
        rw [hsrc]
        simp only [Option.some_bind]
        refine returns_bind
          (?_ : returns _ (fun c3 : CoglContext =>
            layers_leaf c3 p ∧ layers_held_but (fun K => K = L) d2 c3)) ?_
        · exact returns_ite
            (fun _ => returns_and_returned (remove_layer_difference_leaf hleaf2 hsrc f false)
              (fun c3 h3 => remove_layer_difference_held h3))
            (fun _ => returns_some ⟨hleaf2, layers_held_refl _ d2⟩)
        intro c3 hc3
        obtain ⟨hleaf3, held3⟩ := hc3
        obtain ⟨nn3, hnn3, q1, q2, -⟩ := held3 _ nn hnn
        have hne : c1.layers.length ≠ L := Nat.ne_of_gt (layer_lt_length hl1)
        have hfree3 : nn3.owner = none := (q2 hne).trans m3
        refine returns_bind
          (returns_and_returned (add_layer_difference_leaf hleaf3 hnn3 f false)
            (fun c4 h4 => (add_layer_difference_held hnn3 hfree3 h4).1)) ?_
        intro c4 hc4
        obtain ⟨hleaf4, held4⟩ := hc4
        obtain ⟨nn4, hnn4, u1, -, -⟩ := held4 _ nn3 hnn3
        obtain ⟨d5, hc5, hp5⟩ := object_unref_layer_total hnn4
        have held5 := object_unref_layer_held (fun _ => False) hc5
        refine returns_bind (⟨d5, hc5, rfl⟩ : returns _ (fun c : CoglContext => c = d5)) ?_
        intro c5 hc
        subst hc
        obtain ⟨nn5, hnn5, w1, -, -⟩ := held5 _ nn4 hnn4
        obtain ⟨n5, hn5, -, -⟩ := layers_leaf_of_pipelines hleaf4 hp5
        have hcore := layer_core_eq_of_links (w1.trans (u1.trans q1))
        have hall : layers_held_but (fun _ => True) ctx c5 :=
          layers_held_trans (layers_held_mono (fun _ _ => trivial) held1)
            (layers_held_trans (layers_held_mono (fun _ _ => trivial) held2)
              (layers_held_trans (layers_held_mono (fun _ _ => trivial) held3)
                (layers_held_trans (layers_held_mono (fun _ _ => trivial) held4)
                  (layers_held_mono (fun _ _ => trivial) held5))))
        have hwalk : ∃ a, _cogl_pipeline_layer_get_authority c5 (f + 2) c1.layers.length
            change = some a := by
          obtain ⟨a, ha⟩ := hla
          have hL5 : _cogl_pipeline_layer_get_authority c5 (f + 1) L change = some a :=
            layer_get_authority_mono _ _ _ _ _
              (layer_get_authority_seen change (layers_held_seen hall) _ _ _ ha) _ hF
          refine ⟨a, ?_⟩
          rw [_cogl_pipeline_layer_get_authority]
          simp only [hnn5, hcore.2.2, m4, Nat.zero_and, ne_eq, not_true_eq_false, if_false,
            hcore.1, m1]
          exact hL5
        obtain ⟨cF, hcF⟩ := @init_layer_state_total (f + 2) _ _ _ change _ _ hn5 hnn5
          (fun _ => hwalk)
        exact ⟨_, hcF, trivial⟩
      · obtain ⟨n1, hn1, -, -⟩ := hleaf1
        obtain ⟨d2, hc2, hl2, hp2⟩ := layer_change_notify_backends_total hn1 L change
        refine returns_bind
          (⟨d2, hc2, hl2, hp2⟩ :
            returns _ (fun c : CoglContext =>
              c.layers = c1.layers ∧ c.pipelines = c1.pipelines)) ?_
        intro c2 hc
        obtain ⟨hl2, hp2⟩ := hc
        have hwalk2 : ∀ g, (∃ a, _cogl_pipeline_layer_get_authority ctx F L g = some a) →
            ∃ a, _cogl_pipeline_layer_get_authority c1 (f + 2) L g = some a := by
          intro g hg
          obtain ⟨a, ha⟩ := hg
          exact ⟨a, layer_get_authority_mono _ _ _ _ _
            (layer_get_authority_seen g (layers_held_seen held1) _ _ _ ha) _ (by omega)⟩
        obtain ⟨u, hu⟩ := @layer_get_unit_index_total c2 (f + 2) L (by
          obtain ⟨a, ha⟩ := hwalk2 _ hlu
          exact ⟨a, by rw [layer_get_authority_layers hl2]; exact ha⟩)
        refine returns_bind (⟨u, hu, trivial⟩ : returns _ (fun _ : Nat => True)) ?_
        intro u2 _
        have hgen : ∀ c3 : CoglContext, c3.layers = c2.layers → c3.pipelines = c2.pipelines →
            returns (layer_pre_change_notify_init_layer_state (f + 2) c3 (some p) L change)
              (fun _ => True) := by
          intro c3 e1 e2
          have hp3 : c3.pipeline p = some n1 := by
            simp only [CoglContext.pipeline, e2, hp2]
            exact hn1
          have hl3 : c3.layer L = some l1 := by
            simp only [CoglContext.layer, e1, hl2]
            exact hl1
          obtain ⟨cF, hcF⟩ := @init_layer_state_total (f + 2) _ _ _ change _ _ hp3 hl3
            (fun _ => by
              obtain ⟨a, ha⟩ := hwalk2 _ hla
              exact ⟨a, by rw [layer_get_authority_layers (e1.trans hl2)]; exact ha⟩)
          exact ⟨_, hcF, trivial⟩
        apply hgen
        · split
          · split <;> rfl
          · rfl
        · split
          · split <;> rfl
          · rfl
  obtain ⟨r, hr, -⟩ := key
  exact ⟨r.1, r.2, hr⟩

/-- C26, counterexample to the claim as worded: on `scenario_fresh_layer` the layer 5
has no children and no owner, so its owner is not the required owner `a`
(pipeline 1). `_cogl_pipeline_layer_pre_change_notify (a, layer 5, TEXTURE_TARGET)`
returns layer 5 itself and not a new layer: afterwards layer 5 still has no owner,
and `a` lists the layers 4 and 3 as before. -/
theorem layer_pre_change_notify_keeps_unowned_layer :
    (scenario_fresh_layer.layer 5).map (fun l => (l.children, l.owner)) = some ([], none) ∧
    (scenario_fresh_layer.pipeline 1).map (fun n => n.layer_differences) = some [4, 3] ∧
    (_cogl_pipeline_layer_pre_change_notify 8 scenario_fresh_layer (some 1) 5
      COGL_PIPELINE_LAYER_STATE_TEXTURE_TARGET).map (fun r => r.2) = some 5 ∧
    (_cogl_pipeline_layer_pre_change_notify 8 scenario_fresh_layer (some 1) 5
      COGL_PIPELINE_LAYER_STATE_TEXTURE_TARGET).map
        (fun r => (r.1.layer 5).map (fun n => n.owner)) = some (some none) ∧
    (_cogl_pipeline_layer_pre_change_notify 8 scenario_fresh_layer (some 1) 5
      COGL_PIPELINE_LAYER_STATE_TEXTURE_TARGET).map
        (fun r => (r.1.pipeline 1).map (fun n => n.layer_differences)) =
      some (some [4, 3]) :=
  ⟨by decide!, by decide!, by decide!, by decide!, by decide!⟩

/-- C26: the copy-on-write of `_cogl_pipeline_layer_pre_change_notify` for a required
owner `p` and a layer `L`. Whatever the call returns: if `L` has a child or is owned
by a pipeline other than `p`, the layer returned is a new one (no layer of the
context before), it is a child of `L` with the index of `L`, it is owned by `p` and
listed in the `layer_differences` of `p`, and `L` keeps its differences and its
stored state (its record up to reference count, child list and owner); for a sparse
`change` the differences of the new layer are exactly `change`. `L` itself is
returned only if `L` has no children and is unowned or owned by `p`, and it is
returned whenever `L` has no children and no owner. In every case the layer returned
holds a bit of a sparse `change` in its differences. And the call does return when `p`
has no children and the walks to the `LAYERS` authority of `p` and to the authorities
of `L` for `change` and for `UNIT` end within `F` steps, with `F + 2` units of
fuel. -/
theorem layer_pre_change_notify_copies_shared_layer (fuel : Nat) (ctx : CoglContext)
    (p L change : Nat) (l : CoglPipelineLayer) (hl : ctx.layer L = some l) :
    (∀ cF r, _cogl_pipeline_layer_pre_change_notify fuel ctx (some p) L change = some (cF, r) →
      ((l.children ≠ [] ∨ ∃ q, l.owner = some q ∧ q ≠ p) →
        ctx.layers.length ≤ r ∧
        ∃ rn l2 pn, cF.layer r = some rn ∧ rn.parent = some L ∧ rn.index = l.index ∧
          rn.owner = some p ∧ cF.pipeline p = some pn ∧ r ∈ pn.layer_differences ∧
          cF.layer L = some l2 ∧ r ∈ l2.children ∧ l2.differences = l.differences ∧
          l2.core = l.core ∧
          (change &&& COGL_PIPELINE_LAYER_STATE_ALL_SPARSE ≠ 0 → rn.differences = change)) ∧
      (r = L → l.children = [] ∧ (l.owner = none ∨ l.owner = some p)) ∧
      (l.children = [] → l.owner = none → r = L) ∧
      (change &&& COGL_PIPELINE_LAYER_STATE_ALL_SPARSE ≠ 0 →
        ∃ rn, cF.layer r = some rn ∧ rn.differences &&& change ≠ 0)) ∧
    (∀ pn F, ctx.pipeline p = some pn → pn.children = [] →
      (∃ a, _cogl_pipeline_get_authority ctx F p COGL_PIPELINE_STATE_LAYERS = some a) →
      (∃ a, _cogl_pipeline_layer_get_authority ctx F L change = some a) →
      (∃ a, _cogl_pipeline_layer_get_authority ctx F L COGL_PIPELINE_LAYER_STATE_UNIT =
        some a) →
      F + 2 ≤ fuel →
      ∃ cF r, _cogl_pipeline_layer_pre_change_notify fuel ctx (some p) L change =
        some (cF, r)) := by
  refine ⟨?_, ?_⟩
  · intro cF r h
    obtain ⟨h1, h2, h3, h4⟩ := layer_pre_change_notify_post hl h
    refine ⟨fun hs => ?_, h2, h3, h4⟩
    obtain ⟨g0, rn, l2, pn, g1, g2, g3, g4, g5, g6, g7, g8, g9, g10, -⟩ := h1 hs
    exact ⟨g0, rn, l2, pn, g1, g2, g3, g4, g5, g6, g7, g8, (layer_core_eq_of_links g9).2.2,
      g9, g10⟩
  · intro pn F hp hleaf hpa hla hlu hF
    obtain ⟨f, rfl⟩ : ∃ f, fuel = f + 2 := ⟨fuel - 2, by omega⟩
    exact layer_pre_change_notify_leaf_returns f hp hleaf hl hpa hla hlu (by omega)

theorem layer_pre_change_notify_copies_shared_layer_witness :
    scenario_inherited.layer 3 = some scenario_inherited_layer ∧
    scenario_inherited_layer.owner = some 1 ∧
    scenario_inherited_layer.index = 5 ∧
    scenario_inherited.layers.length = 5 ∧
    ∃ cF r, _cogl_pipeline_layer_pre_change_notify 8 scenario_inherited (some 2) 3
        COGL_PIPELINE_LAYER_STATE_FILTERS = some (cF, r) ∧
      5 ≤ r ∧
      ∃ rn l2 pn, cF.layer r = some rn ∧ rn.parent = some 3 ∧ rn.index = 5 ∧
        rn.owner = some 2 ∧ cF.pipeline 2 = some pn ∧ r ∈ pn.layer_differences ∧
        cF.layer 3 = some l2 ∧ r ∈ l2.children ∧
        l2.differences = scenario_inherited_layer.differences ∧
        l2.core = scenario_inherited_layer.core ∧
        rn.differences = COGL_PIPELINE_LAYER_STATE_FILTERS := by
  have hl : scenario_inherited.layer 3 = some scenario_inherited_layer := by decide!
  have hown : scenario_inherited_layer.owner = some 1 := by decide!
  have hidx : scenario_inherited_layer.index = 5 := by decide!
  have hlen : scenario_inherited.layers.length = 5 := by decide!
  have h := layer_pre_change_notify_copies_shared_layer 8 scenario_inherited 2 3
    COGL_PIPELINE_LAYER_STATE_FILTERS scenario_inherited_layer hl
  obtain ⟨cF, r, hcall⟩ := h.2 scenario_inherited_p 6 (by decide!) (by decide!)
    ⟨1, by decide!⟩ ⟨0, by decide!⟩ ⟨0, by decide!⟩ (by decide)
  obtain ⟨g0, rn, l2, pn, g1, g2, g3, g4, g5, g6, g7, g8, g9, g10, g11⟩ :=
    (h.1 cF r hcall).1 (Or.inr ⟨1, hown, by decide⟩)
  rw [hlen] at g0
  rw [hidx] at g3
  exact ⟨hl, hown, hidx, hlen, cF, r, hcall, g0, rn, l2, pn, g1, g2, g3, g4, g5, g6, g7, g8,
    g9, g10, g11 (by decide)⟩

/-! ## Pruning the layers of a pipeline -/

/-- The function `_cogl_pipeline_update_layers_cache` on a pipeline with a stale cache:
slot `u` of the new cache holds the first layer of unit `u` that the chain lists. -/
theorem update_layers_cache_fills {ctx : CoglContext} {fuel f0 A : Nat} {node : CoglPipeline}
    {path : List Nat} (hA : ctx.pipeline A = some node)
    (hdirty : node.layers_cache_dirty = true) (hN : 0 < node.n_layers)
    (hpath : pipeline_path ctx A path) (hfuel : path.length + f0 ≤ fuel)
    (hunits : ∀ L ∈ layers_on_path ctx path,
      (_cogl_pipeline_layer_get_unit_index ctx f0 L).isSome = true) :
    ∃ cache, _cogl_pipeline_update_layers_cache fuel ctx A =
        some (ctx.set_pipeline A
          { node with layers_cache_dirty := false, layers_cache := cache }) ∧
      cache.length = node.n_layers ∧
      ∀ u, u < node.n_layers → cache[u]? =
        some ((layers_on_path ctx path).find? (fun L => decide (unit_of ctx f0 L = u))) := by
  have hU : ∀ L ∈ layers_on_path ctx path,
      _cogl_pipeline_layer_get_unit_index ctx f0 L = some (unit_of ctx f0 L) := by
    intro L hL
    have := hunits L hL
    unfold unit_of
    cases hx : _cogl_pipeline_layer_get_unit_index ctx f0 L with
    | none => rw [hx] at this; exact absurd this (by simp)
    | some v => rfl
  obtain ⟨cache, hwalk, hlen, hslots⟩ :=
    walk_spec (unit_of ctx f0) path A fuel (List.replicate node.n_layers none) 0 [] hpath hfuel
      hU (by simp)
      (List.countP_eq_zero.mpr (fun x hx => by rw [List.eq_of_mem_replicate hx]; simp)).symm
      hN (by
        intro u hu
        simp [hu])
  refine ⟨cache, ?_, hlen, ?_⟩
  · unfold _cogl_pipeline_update_layers_cache
    simp only [hA, hdirty, Bool.not_true, Bool.false_eq_true, false_or,
      if_neg (Nat.pos_iff_ne_zero.mp hN), hwalk]
  · intro u hu
    have hs := hslots u hu
    simp only [List.nil_append] at hs
    exact hs

theorem cache_eq_of_slots {cache : List (Option Nat)} {layers : List Nat}
    (hlen : cache.length = layers.length)
    (hslots : ∀ u, u < layers.length → cache[u]? = some (layers[u]?)) :
    cache = layers.map some := by
  apply List.ext_getElem?
  intro u
  by_cases hu : u < layers.length
  · rw [hslots u hu, List.getElem?_map, List.getElem?_eq_getElem hu]
    rfl
  · rw [List.getElem?_eq_none (by omega), List.getElem?_eq_none (by simp; omega)]

theorem layer_of_unit_index {ctx : CoglContext} {f L u : Nat}
    (h : _cogl_pipeline_layer_get_unit_index ctx f L = some u) :
    ∃ l, ctx.layer L = some l := by
  unfold _cogl_pipeline_layer_get_unit_index at h
  split at h
  · exact absurd h (by simp)
  rename_i a ha
  cases f with
  | zero => exact absurd ha (by simp [_cogl_pipeline_layer_get_authority])
  | succ k =>
    unfold _cogl_pipeline_layer_get_authority at ha
    split at ha
    · exact absurd ha (by simp)
    rename_i l hl
    exact ⟨l, hl⟩

/-- The walk of `update_prune_layers_info_cb` over a cache that is up to date: the
callback counts to `n` and stores the index of the layer in slot `n`. -/
theorem prune_info_loop {c : CoglContext} {p n : Nat} {node : CoglPipeline}
    {layers : List Nat} (hp : c.pipeline p = some node)
    (hclean : node.layers_cache_dirty = false) (hcache : node.layers_cache = layers.map some)
    (hex : ∀ L ∈ layers, ∃ l, c.layer L = some l) (hn : n < layers.length) :
    ∀ (remaining i : Nat), i + remaining = layers.length → i ≤ n →
      foreach_layer_internal_loop p update_prune_layers_info_cb remaining i c
          { keep_n := n, current_pos := i, first_index_to_prune := none } =
        some (c, { keep_n := n, current_pos := n,
                   first_index_to_prune := ((layers[n]?).bind c.layer).map (fun l => l.index) }) := by
  intro remaining
  induction remaining with
  | zero => intro i h1 h2; omega
  | succ r ih =>
    intro i h1 h2
    have hi : i < layers.length := by omega
    have hLi : layers[i]? = some (layers[i]) := List.getElem?_eq_getElem hi
    obtain ⟨l, hl⟩ := hex (layers[i]) (List.getElem_mem hi)
    unfold foreach_layer_internal_loop
    simp only [hp, hclean, Bool.false_eq_true, if_false, hcache, List.getElem?_map, hLi,
      Option.map_some', update_prune_layers_info_cb, hl]
    by_cases hin : i = n
    · subst hin
      simp only [if_true, hLi, Option.some_bind, hl, Option.map_some']
    · simp only [if_neg hin]
      exact ih (i + 1) (by omega) (by omega)

theorem pipeline_of_kept {d : Nat} {ctx c : CoglContext} (hk : layers_kept_but d ctx c)
    {q : Nat} {node : CoglPipeline} (hq : ctx.pipeline q = some node) (hqd : q ≠ d) :
    ∃ node2, c.pipeline q = some node2 ∧ node2.differences = node.differences ∧
      node2.layer_differences = node.layer_differences ∧ node2.n_layers = node.n_layers := by
  have h3 := hk.2.2.1 q (pipeline_lt_length hq) hqd
  rw [hq] at h3
  cases hc : c.pipeline q with
  | none => rw [hc] at h3; exact absurd h3 (by simp)
  | some node2 =>
    rw [hc] at h3
    have h4 : node2.layer_state = node.layer_state := Option.some.inj h3
    exact ⟨node2, rfl, congrArg (fun t : Nat × List Nat × Nat => t.1) h4,
      congrArg (fun t : Nat × List Nat × Nat => t.2.1) h4,
      congrArg (fun t : Nat × List Nat × Nat => t.2.2) h4⟩

/-- What `_cogl_pipeline_pre_change_notify` for `LAYERS` does to a pipeline without
children that asserts `LAYERS`: the tree and the layers are kept, and the pipeline
keeps its list and its count, with a stale layers cache. -/
theorem pre_change_notify_layers_record {fuel : Nat} {c c1 : CoglContext} {p : Nat}
    {node : CoglPipeline} {flc : Bool}
    (hp : c.pipeline p = some node) (hch : node.children = [])
    (hd : node.differences &&& COGL_PIPELINE_STATE_LAYERS ≠ 0)
    (h : _cogl_pipeline_pre_change_notify fuel c p COGL_PIPELINE_STATE_LAYERS none flc =
      some c1) :
    same_skeleton c c1 ∧ layers_kept_but p c c1 ∧
    ∃ node1, c1.pipeline p = some node1 ∧ node1.children = [] ∧
      node1.differences &&& COGL_PIPELINE_STATE_LAYERS ≠ 0 ∧
      node1.layers_cache_dirty = true ∧
      node1.layer_differences = node.layer_differences ∧ node1.n_layers = node.n_layers := by
  have hleaf : ∀ l, c.links p = some l → l.children = [] := by
    intro l hl
    rw [links_of_pipeline hp] at hl
    rw [← Option.some.inj hl]
    exact hch
  obtain ⟨s1, k1⟩ := pre_change_notify_leaf_both fuel c p _ none flc hleaf c1 h
  cases fuel with
  | zero => exact absurd h (by simp [_cogl_pipeline_pre_change_notify])
  | succ f =>
    obtain ⟨c5, hk5, -, htake⟩ := pre_change_notify_split h
    obtain ⟨node5, hp5, hd5, hl5, hn5⟩ := pipeline_of_kept (hk5 (p + 1)) hp (by omega)
    obtain ⟨node2, hp2, -, hd2, hdirty2, hhad, -⟩ := takeover_layers hp5 htake
    obtain ⟨hl2, hn2⟩ := hhad (by rw [hd5]; exact hd)
    refine ⟨s1, k1, node2, hp2, ?_, hd2, hdirty2, hl2.trans hl5, hn2.trans hn5⟩
    exact links_children_of_skeleton s1 hleaf hp2

theorem prune_invariant_refl {c0 : CoglContext} {p n : Nat} {first : Int}
    {cache : List (Option Nat)} {node : CoglPipeline}
    (hp : c0.pipeline p = some node) (hch : node.children = [])
    (hd : node.differences &&& COGL_PIPELINE_STATE_LAYERS ≠ 0) (hn : node.n_layers = n)
    (hclean : node.layers_cache_dirty = false) (hcache : node.layers_cache = cache) :
    prune_invariant c0 c0 p n first cache node.layer_differences :=
  ⟨same_skeleton_refl c0, layers_kept_refl p c0, node, hp, hch, hd, hn,
    ⟨[], fun _ hx => absurd hx (List.not_mem_nil _), rfl⟩, Or.inr ⟨hclean, hcache⟩⟩

/-- One step of the loop of `_cogl_pipeline_prune_to_n_layers` that unlinks layers. -/
theorem prune_remove_step {fuel : Nat} {c0 : CoglContext} {p n : Nat} {first : Int}
    {cache : List (Option Nat)} {listed : List Nat} (c : CoglContext) (X : Nat)
    (hinv : prune_invariant c0 c p n first cache listed) :
    returned
      ((c.layer X).bind (fun l =>
        (some first).bind (fun f =>
          if l.index > f then _cogl_pipeline_remove_layer_difference fuel c p X false
          else some c)))
      (fun c2 => prune_invariant c0 c2 p n first cache listed) := by
  intro c2 h
  obtain ⟨l, hl, h⟩ := Option.bind_eq_some.mp h
  simp only [Option.some_bind] at h
  split at h
  swap
  · rw [← Option.some.inj h]
    exact hinv
  rename_i hbig
  unfold _cogl_pipeline_remove_layer_difference at h
  simp only [Option.bind_eq_bind, Option.pure_def, hl, Option.some_bind] at h
  split at h
  · rw [← Option.some.inj h]
    exact hinv
  obtain ⟨s0, k0, node, hp, hch, hd, hn, ⟨gone, hgone, hlist⟩, hcache⟩ := hinv
  obtain ⟨c1, h1, h⟩ := Option.bind_eq_some.mp h
  obtain ⟨c3, h3, h⟩ := Option.bind_eq_some.mp h
  obtain ⟨c4, h4, h⟩ := Option.bind_eq_some.mp h
  obtain ⟨s1, k1, node1, hp1, hch1, hd1, hdirty1, hl1, hn1⟩ :=
    pre_change_notify_layers_record hp hch hd h1
  obtain ⟨k3, hk3, e3⟩ := modify_layer_inv h3
  have s3 : same_skeleton c1 c3 := by
    rw [e3]
    exact set_layer_skeleton _ _ _
  have kk3 : layers_kept_but p c1 c3 := by
    rw [e3]
    exact layers_kept_set_layer hk3 rfl
  have s4 : same_skeleton c3 c4 := object_unref_layer_skeleton _ _ _ h4
  have kk4 : layers_kept_but p c3 c4 := object_unref_layer_kept p _ _ _ h4
  have s14 := same_skeleton_trans s1 (same_skeleton_trans s3 s4)
  have k14 := layers_kept_trans k1 (layers_kept_trans kk3 kk4)
  have hp4 : c4.pipeline p = some node1 := by
    have e4 : c4.pipelines = c1.pipelines := by
      unfold cogl_object_unref_layer at h4
      split at h4
      · exact absurd h4 (by simp)
      rw [← Option.some.inj h4, e3]
      rfl
    simp only [CoglContext.pipeline, e4]
    exact hp1
  obtain ⟨m, hm, e5⟩ := modify_pipeline_inv h
  rw [hp4] at hm
  rw [← Option.some.inj hm] at e5
  have s5 : same_skeleton c4 c2 := by
    rw [e5]
    exact same_skeleton_set hp4 rfl
  have k5 : layers_kept_but p c4 c2 := by
    rw [e5]
    exact layers_kept_set_at p c4 _
  have hp2 : ∃ m2, c2.pipeline p = some m2 ∧ m2.children = node1.children ∧
      m2.differences = node1.differences ||| COGL_PIPELINE_STATE_LAYERS ∧
      m2.layer_differences = node1.layer_differences.erase X ∧
      m2.n_layers = node1.n_layers ∧ m2.layers_cache_dirty = node1.layers_cache_dirty := by
    rw [e5]
    exact ⟨_, pipeline_set_pipeline_self hp4 _, rfl, rfl, rfl, rfl, rfl⟩
  obtain ⟨m2, hm2, q1, q2, q3, q4, q5⟩ := hp2
  refine ⟨same_skeleton_trans s0 (same_skeleton_trans s14 s5),
    layers_kept_trans k0 (layers_kept_trans k14 k5), m2, hm2, q1.trans hch1, ?_,
    q4.trans (hn1.trans hn), ⟨gone ++ [X], ?_, ?_⟩, Or.inl (q5.trans hdirty1)⟩
  · rw [q2]
    exact mask_or_layers _
  · intro x hx l0 hl0
    rcases List.mem_append.mp hx with hg | hX
    · exact hgone x hg l0 hl0
    · rw [List.mem_singleton] at hX
      subst hX
      obtain ⟨l2, hl2, hcore⟩ := layer_of_kept k0 hl0
      rw [hl] at hl2
      rw [← Option.some.inj hl2] at hcore
      rw [← (layer_core_fields hcore).2.2.2]
      exact hbig
  · rw [q3, List.foldl_append, ← hlist, hl1]
    rfl

theorem find_erase_of_ne {pr : Nat → Bool} :
    ∀ (l : List Nat) (x y : Nat), l.find? pr = some y → x ≠ y →
      (l.erase x).find? pr = some y := by
  intro l
  induction l with
  | nil => intro x y h; exact absurd h (by simp)
  | cons a rest ih =>
    intro x y h hne
    rw [List.erase_cons]
    by_cases hp : pr a = true
    · rw [List.find?_cons_of_pos _ hp] at h
      obtain rfl := Option.some.inj h
      have hax : (a == x) = false := by
        rw [beq_eq_false_iff_ne]
        exact Ne.symm hne
      rw [hax]
      simp only [Bool.false_eq_true, if_false]
      exact List.find?_cons_of_pos _ hp
    · rw [List.find?_cons_of_neg _ hp] at h
      by_cases hax : (a == x) = true
      · rw [if_pos hax]
        exact h
      · rw [if_neg hax, List.find?_cons_of_neg _ hp]
        exact ih x y h hne

theorem find_erase_none {pr : Nat → Bool} {l : List Nat} (x : Nat) (h : l.find? pr = none) :
    (l.erase x).find? pr = none := by
  rw [List.find?_eq_none] at h ⊢
  intro z hz
  exact h z (List.mem_of_mem_erase hz)

theorem find_foldl_erase {pr : Nat → Bool} :
    ∀ (gone l : List Nat) (y : Nat), l.find? pr = some y → (∀ x ∈ gone, x ≠ y) →
      (gone.foldl List.erase l).find? pr = some y := by
  intro gone
  induction gone with
  | nil => intro l y h _; exact h
  | cons g rest ih =>
    intro l y h hne
    rw [List.foldl_cons]
    exact ih _ y (find_erase_of_ne l g y h (hne g (List.mem_cons_self _ _)))
      (fun x hx => hne x (List.mem_cons_of_mem _ hx))

theorem find_foldl_erase_none {pr : Nat → Bool} :
    ∀ (gone l : List Nat), l.find? pr = none → (gone.foldl List.erase l).find? pr = none := by
  intro gone
  induction gone with
  | nil => intro l h; exact h
  | cons g rest ih =>
    intro l h
    rw [List.foldl_cons]
    exact ih _ (find_erase_none g h)

theorem mem_foldl_erase :
    ∀ (gone l : List Nat) (z : Nat), z ∈ gone.foldl List.erase l → z ∈ l := by
  intro gone
  induction gone with
  | nil => intro l z h; exact h
  | cons g rest ih =>
    intro l z h
    rw [List.foldl_cons] at h
    exact List.mem_of_mem_erase (ih _ z h)

theorem find_congr_mem {pr qr : Nat → Bool} :
    ∀ (l : List Nat), (∀ x ∈ l, pr x = qr x) → l.find? pr = l.find? qr := by
  intro l
  induction l with
  | nil => intro _; rfl
  | cons a rest ih =>
    intro h
    rw [List.find?_cons, List.find?_cons, h a (List.mem_cons_self _ _),
      ih (fun x hx => h x (List.mem_cons_of_mem _ hx))]

theorem layers_on_path_cons (ctx : CoglContext) (a b : Nat) (rest : List Nat) :
    layers_on_path ctx (a :: b :: rest) = listed_layers ctx a ++ layers_on_path ctx (b :: rest) := by
  rw [layers_on_path, listed_layers]

theorem listed_layers_of_pipeline {ctx : CoglContext} {q : Nat} {node : CoglPipeline}
    (h : ctx.pipeline q = some node) :
    listed_layers ctx q =
      if node.differences &&& COGL_PIPELINE_STATE_LAYERS ≠ 0 then node.layer_differences
      else [] := by
  rw [listed_layers, h]

/-- The walk of `_cogl_pipeline_update_layers_cache` meets the same layers in two
contexts in which every pipeline of the chain lists the same layers. -/
theorem layers_on_path_congr {ctx c : CoglContext} :
    ∀ (path : List Nat), (∀ q ∈ path, listed_layers c q = listed_layers ctx q) →
      layers_on_path c path = layers_on_path ctx path := by
  intro path
  induction path with
  | nil => intro _; rfl
  | cons a rest ih =>
    intro h
    cases rest with
    | nil => rfl
    | cons b rest2 =>
      rw [layers_on_path_cons, layers_on_path_cons, h a (List.mem_cons_self _ _),
        ih (fun q hq => h q (List.mem_cons_of_mem _ hq))]

theorem view_parent_eq_links (c : CoglContext) (m : Nat) :
    (pipeline_view c m).map (fun v => v.parent) = (c.links m).map (fun l => l.parent) := by
  unfold pipeline_view CoglContext.links
  cases c.pipeline m <;> rfl

theorem parent_of_links {c : CoglContext} {m : Nat} {node : CoglPipeline} {q : Option Nat}
    (hm : c.pipeline m = some node) (h : (c.links m).map (fun l => l.parent) = some q) :
    node.parent = q := by
  rw [links_of_pipeline hm] at h
  exact Option.some.inj h

/-- What the call of `_cogl_pipeline_pre_change_notify` at the head of
`_cogl_pipeline_prune_to_n_layers` leaves: the chain above `p`, the layers and the
lists of the chain are kept; `p` has no children, asserts `LAYERS` with the count of
its former authority, and its layers cache is stale. -/
theorem prune_notify_spec {fuel f F : Nat} {ctx c1 : CoglContext} {p A : Nat}
    {a : CoglPipeline} {path ids : List Nat}
    (hpath : pipeline_path ctx p path)
    (htree : subtree_post ctx (f + 1) p = some ids) (hnd : ids.Nodup)
    (hcons : links_consistent ctx ids)
    (hanc : ∀ z ∈ path, z ≠ p → z ∉ ids)
    (hauth : _cogl_pipeline_get_authority ctx F p COGL_PIPELINE_STATE_LAYERS = some A)
    (hA : ctx.pipeline A = some a)
    (h : _cogl_pipeline_pre_change_notify (fuel + 1) ctx p COGL_PIPELINE_STATE_LAYERS none
      false = some c1) :
    pipeline_path c1 p path ∧ layers_kept_but p ctx c1 ∧
    layers_on_path c1 path = layers_on_path ctx path ∧
    ∃ node1, c1.pipeline p = some node1 ∧ node1.children = [] ∧
      node1.differences &&& COGL_PIPELINE_STATE_LAYERS ≠ 0 ∧
      node1.layers_cache_dirty = true ∧ node1.n_layers = a.n_layers := by
  obtain ⟨rest, hrest⟩ := node_path_head hpath
  have hpmem : p ∈ path := by rw [hrest]; exact List.mem_cons_self _ _
  obtain ⟨node, hp⟩ := pipeline_of_mem_path hpath hpmem
  have hndpath : path.Nodup := node_path_nodup path p hpath
  have hparent : ∀ par, node.parent = some par → par ∈ path ∧ par ≠ p := by
    intro par hpar
    cases rest with
    | nil =>
      rw [hrest] at hpath
      simp only [pipeline_path, node_path] at hpath
      obtain ⟨n0, hn0, hpar0⟩ := pipeline_view_parent hpath.2
      rw [hp] at hn0
      rw [← Option.some.inj hn0, hpar] at hpar0
      exact absurd hpar0 (by simp)
    | cons b rest2 =>
      have hpath2 := hpath
      rw [hrest] at hpath2
      simp only [pipeline_path, node_path] at hpath2
      obtain ⟨n0, hn0, hpar0⟩ := pipeline_view_parent hpath2.2.1
      rw [hp] at hn0
      rw [← Option.some.inj hn0, hpar] at hpar0
      obtain rfl := Option.some.inj hpar0
      rw [hrest] at hndpath ⊢
      refine ⟨by simp, ?_⟩
      intro hbp
      rw [hbp] at hndpath
      exact absurd hndpath (by simp)
  have hout : ∀ lp par, ctx.links p = some lp → lp.parent = some par → par ∉ ids := by
    intro lp par hlp hpar
    rw [links_of_pipeline hp] at hlp
    rw [← Option.some.inj hlp] at hpar
    obtain ⟨h1, h2⟩ := hparent par hpar
    exact hanc par h1 h2
  obtain ⟨lp, below, hlp, hids, -, -, hweak, hp2links, -, hnostrong, hstrong⟩ :=
    pre_change_notify_tree htree hnd hcons hout h
  have hparents : ∀ z ∈ path,
      (c1.links z).map (fun l => l.parent) = (ctx.links z).map (fun l => l.parent) := by
    intro z hz
    by_cases hzp : z = p
    · rw [hzp, hp2links, hlp]
      rfl
    · have hzids : z ∉ ids := hanc z hz hzp
      by_cases hs : strong_children ctx (fuel - 1) lp.children = []
      · rw [(hnostrong hs).2 z (fun hw => hzids (by
          rw [hids]
          exact List.mem_append_left _ (hweak z hw).1)) hzp]
      · obtain ⟨par, hpar, -, -, hparlinks, -, hothers⟩ := hstrong hs
        by_cases hzpar : z = par
        · rw [hzpar, hparlinks]
          cases ctx.links par <;> rfl
        · obtain ⟨zn, hzn⟩ := pipeline_of_mem_path hpath hz
          rw [hothers z hzids (Nat.ne_of_lt (pipeline_lt_length hzn)) hzpar]
  have hpath1 : pipeline_path c1 p path := by
    refine node_path_of_parents path p (fun m hm => ?_) hpath
    rw [view_parent_eq_links, view_parent_eq_links]
    exact hparents m hm
  have k1 := pre_change_notify_kept (fuel + 1) ctx p _ none false c1 h
  obtain ⟨c5, hk5, s5, htake⟩ := pre_change_notify_split h
  obtain ⟨node5, hp5, hd5, hl5, hn5⟩ := pipeline_of_kept (hk5 (p + 1)) hp (by omega)
  obtain ⟨node2, hp2, -, hd2, hdirty2, hhad, hhadnt⟩ := takeover_layers hp5 htake
  have hch2 : node2.children = [] := by
    have := hp2links
    rw [links_of_pipeline hp2] at this
    have h3 := congrArg PipelineLinks.children (Option.some.inj this)
    exact h3
  have hview5 : ∀ m ∈ path, pipeline_view c5 m = pipeline_view ctx m := by
    intro m hm
    obtain ⟨r, hr⟩ := pipeline_of_mem_path hpath hm
    obtain ⟨r5, hr5, hrd, -, -⟩ := pipeline_of_kept (hk5 (m + 1)) hr (by omega)
    have hpar5 : r5.parent = r.parent := by
      have h1 := hparents m hm
      rw [s5.1 m, links_of_pipeline hr5, links_of_pipeline hr] at h1
      exact Option.some.inj h1
    unfold pipeline_view
    rw [hr5, hr]
    simp only [Option.map_some', hrd, hpar5]
  have hfacts : node2.n_layers = a.n_layers ∧ listed_layers c1 p = listed_layers ctx p := by
    rw [listed_layers_of_pipeline hp2, listed_layers_of_pipeline hp, if_pos hd2]
    by_cases hh : node.differences &&& COGL_PIPELINE_STATE_LAYERS ≠ 0
    · obtain ⟨hl2, hn2⟩ := hhad (by rw [hd5]; exact hh)
      have hAp : A = p := by
        cases F with
        | zero => exact absurd hauth (by simp [_cogl_pipeline_get_authority])
        | succ k =>
          unfold _cogl_pipeline_get_authority at hauth
          simp only [hp, if_pos hh] at hauth
          exact (Option.some.inj hauth).symm
      subst hAp
      rw [hp] at hA
      rw [← Option.some.inj hA, if_pos hh]
      exact ⟨hn2.trans hn5, hl2.trans hl5⟩
    · have hh0 : node.differences &&& COGL_PIPELINE_STATE_LAYERS = 0 := by
        by_contra hne
        exact hh hne
      obtain ⟨hl2, auth, hauth5, hn2⟩ := hhadnt (by rw [hd5]; exact hh0)
      rw [if_neg hh]
      refine ⟨?_, hl2⟩
      have hw : _cogl_pipeline_get_authority c5 fuel p COGL_PIPELINE_STATE_LAYERS =
          _cogl_pipeline_get_authority ctx fuel p COGL_PIPELINE_STATE_LAYERS := by
        rw [pipeline_get_authority_eq, pipeline_get_authority_eq]
        exact node_get_authority_congr _ path p fuel hview5 hpath
      rw [hw] at hauth5
      have e1 := pipeline_get_authority_mono ctx _ _ _ _ hauth5 (max fuel F) (Nat.le_max_left _ _)
      have e2 := pipeline_get_authority_mono ctx _ _ _ _ hauth (max fuel F) (Nat.le_max_right _ _)
      rw [e1] at e2
      obtain rfl := Option.some.inj e2
      obtain ⟨a5, ha5, -, -, hna5⟩ := pipeline_of_kept (hk5 (auth + 1)) hA (by omega)
      rw [ha5] at hn2
      simp only [Option.map_some', Option.some.injEq] at hn2
      rw [← hn2, hna5]
  refine ⟨hpath1, k1, ?_, node2, hp2, hch2, hd2, hdirty2, hfacts.1⟩
  refine layers_on_path_congr path (fun q hq => ?_)
  by_cases hqp : q = p
  · rw [hqp]
    exact hfacts.2
  · obtain ⟨r, hr⟩ := pipeline_of_mem_path hpath hq
    obtain ⟨r1, hr1, hrd, hrl, -⟩ := pipeline_of_kept k1 hr hqp
    rw [listed_layers_of_pipeline hr1, listed_layers_of_pipeline hr, hrd, hrl]

theorem take_map_some (layers : List Nat) (n : Nat) :
    (layers.map some).take n = (layers.take n).map some := by
  rw [List.map_take]

/-- The layer count and the effective layers of a pipeline that asserts `LAYERS` with
`n` layers, when the lists of its chain give the layer `layers[u]` to every unit `u`
below `n` and its cache is stale or holds `layers`. -/
theorem prune_effective_layers {fuel f0 : Nat} {c : CoglContext} {p n : Nat}
    {node : CoglPipeline} {path layers : List Nat}
    (hpath : pipeline_path c p path) (hfuel : path.length + f0 ≤ fuel)
    (hp : c.pipeline p = some node)
    (hd : node.differences &&& COGL_PIPELINE_STATE_LAYERS ≠ 0) (hn : node.n_layers = n)
    (hcache : node.layers_cache_dirty = true ∨
      (node.layers_cache_dirty = false ∧ node.layers_cache = layers.map some))
    (hunits : ∀ L ∈ layers_on_path c path,
      (_cogl_pipeline_layer_get_unit_index c f0 L).isSome = true)
    (hfind : ∀ u, u < n →
      (layers_on_path c path).find? (fun L => decide (unit_of c f0 L = u)) = layers[u]?)
    (hle : n ≤ layers.length) :
    cogl_pipeline_get_n_layers fuel c p = some n ∧
    effective_layers fuel c p = some (layers.take n) := by
  have hlen1 : 1 ≤ path.length := by
    obtain ⟨rest, hrest⟩ := node_path_head hpath
    rw [hrest]
    simp
  obtain ⟨k, rfl⟩ : ∃ k, fuel = k + 1 := ⟨fuel - 1, by omega⟩
  have hwalk : _cogl_pipeline_get_authority c (k + 1) p COGL_PIPELINE_STATE_LAYERS = some p := by
    unfold _cogl_pipeline_get_authority
    simp only [hp, if_pos hd]
  have htake : (layers.take n).length = n := by
    rw [List.length_take]
    omega
  refine ⟨?_, ?_⟩
  · unfold cogl_pipeline_get_n_layers
    simp only [hwalk, hp, Option.map_some', hn]
  · unfold effective_layers
    simp only [Option.bind_eq_bind, hwalk, Option.some_bind, hp, Option.pure_def, hn]
    by_cases hn0 : n = 0
    · rw [if_pos hn0, hn0]
      rfl
    · rw [if_neg hn0]
      rcases hcache with hdirty | ⟨hclean, hc⟩
      · obtain ⟨cache, hupd, hclen, hslots⟩ :=
          update_layers_cache_fills hp hdirty (by rw [hn]; omega) hpath hfuel hunits
        rw [hn] at hclen hslots
        have hcache2 : cache = (layers.take n).map some := by
          refine cache_eq_of_slots (by rw [hclen, htake]) (fun u hu => ?_)
          rw [htake] at hu
          rw [hslots u hu, hfind u hu, List.getElem?_take_of_lt hu]
        rw [hupd]
        simp only [Option.some_bind, pipeline_set_pipeline_self hp, Bool.false_eq_true,
          false_or]
        have htk : cache.take n = cache := List.take_of_length_le (by rw [hclen])
        rw [htk, hclen]
        simp only [ne_eq, not_true_eq_false, if_false]
        rw [hcache2]
        exact all_layers_map_some _
      · have hupd : _cogl_pipeline_update_layers_cache (k + 1) c p = some c := by
          unfold _cogl_pipeline_update_layers_cache
          simp only [hp, hclean, Bool.not_false, true_or, if_true]
        rw [hupd]
        simp only [Option.some_bind, hp, hclean, Bool.false_eq_true, false_or, hc,
          take_map_some, List.length_map, htake, ne_eq, not_true_eq_false, if_false]
        exact all_layers_map_some _

theorem units_of_kept {f0 p : Nat} {ctx c2 : CoglContext} {ls : List Nat}
    (hunits : ∀ L ∈ ls, (_cogl_pipeline_layer_get_unit_index ctx f0 L).isSome = true)
    (hk : layers_kept_but p ctx c2) :
    ∀ L ∈ ls, (_cogl_pipeline_layer_get_unit_index c2 f0 L).isSome = true ∧
      unit_of c2 f0 L = unit_of ctx f0 L := by
  intro L hL
  obtain ⟨u, hu⟩ := Option.isSome_iff_exists.mp (hunits L hL)
  exact ⟨by rw [layer_get_unit_index_kept hk hu]; rfl, unit_of_kept hk (hunits L hL)⟩

theorem layer_of_units {f0 : Nat} {ctx : CoglContext} {ls : List Nat}
    (hunits : ∀ L ∈ ls, (_cogl_pipeline_layer_get_unit_index ctx f0 L).isSome = true) :
    ∀ L ∈ ls, ∃ l, ctx.layer L = some l := by
  intro L hL
  obtain ⟨u, hu⟩ := Option.isSome_iff_exists.mp (hunits L hL)
  exact layer_of_unit_index hu

theorem mem_of_slots {ls layers : List Nat} {N : Nat} {U : Nat → Nat}
    (hlen : layers.length = N)
    (hcoh : ∀ u, u < N → ls.find? (fun L => decide (U L = u)) = layers[u]?) :
    ∀ (u L : Nat), layers[u]? = some L → L ∈ ls := by
  intro u L hL
  have hu : u < N := by
    rw [← hlen]
    exact (List.getElem?_eq_some.mp hL).1
  have := hcoh u hu
  rw [hL] at this
  exact List.mem_of_find?_eq_some this

/-- The walk of `update_prune_layers_info_cb` in `_cogl_pipeline_prune_to_n_layers`:
the layers cache of `p` is filled with the effective layers and the callback stores
the index of the layer of unit `n`. -/
theorem prune_foreach_spec {k f0 : Nat} {ctx c1 : CoglContext} {p n N : Nat}
    {node1 : CoglPipeline} {path layers : List Nat}
    (hpath1 : pipeline_path c1 p path) (hfuel : path.length + f0 ≤ k + 1)
    (k1 : layers_kept_but p ctx c1)
    (hlop1 : layers_on_path c1 path = layers_on_path ctx path)
    (hp1 : c1.pipeline p = some node1)
    (hd1 : node1.differences &&& COGL_PIPELINE_STATE_LAYERS ≠ 0)
    (hdirty1 : node1.layers_cache_dirty = true) (hn1 : node1.n_layers = N)
    (hunits : ∀ L ∈ layers_on_path ctx path,
      (_cogl_pipeline_layer_get_unit_index ctx f0 L).isSome = true)
    (hlen : layers.length = N)
    (hcoh : ∀ u, u < N →
      (layers_on_path ctx path).find? (fun L => decide (unit_of ctx f0 L = u)) = layers[u]?)
    (hn : n < N) :
    ∃ Ln ln, layers[n]? = some Ln ∧ ctx.layer Ln = some ln ∧
      _cogl_pipeline_foreach_layer_internal (k + 1) c1 p update_prune_layers_info_cb
          { keep_n := n, current_pos := 0, first_index_to_prune := none } =
        some (c1.set_pipeline p
            { node1 with layers_cache_dirty := false, layers_cache := layers.map some },
          { keep_n := n, current_pos := n, first_index_to_prune := some ln.index }) := by
  have hunits_of := units_of_kept hunits k1
  have hlayer_of := layer_of_units hunits
  have hmem_layers := mem_of_slots hlen hcoh
  obtain ⟨cache, hupd, hclen, hslots⟩ :=
    update_layers_cache_fills hp1 hdirty1 (by omega) hpath1 hfuel (by
      rw [hlop1]
      exact fun L hL => (hunits_of L hL).1)
  have hcacheB : cache = layers.map some := by
    refine cache_eq_of_slots (by rw [hclen, hn1, hlen]) (fun u hu => ?_)
    rw [hslots u (by omega), hlop1,
      find_congr_mem _ (fun x hx => by rw [(hunits_of x hx).2]), hcoh u (by omega)]
  subst hcacheB
  have hwalk1 : _cogl_pipeline_get_authority c1 (k + 1) p COGL_PIPELINE_STATE_LAYERS =
      some p := by
    unfold _cogl_pipeline_get_authority
    simp only [hp1, if_pos hd1]
  have hnlt : n < layers.length := by omega
  have hLn : layers[n]? = some (layers[n]) := List.getElem?_eq_getElem hnlt
  obtain ⟨ln, hln⟩ := hlayer_of _ (hmem_layers n _ hLn)
  obtain ⟨ln1, hln1, hcoren⟩ := layer_of_kept k1 hln
  have hloop := prune_info_loop
    (pipeline_set_pipeline_self hp1
      { node1 with layers_cache_dirty := false, layers_cache := layers.map some })
    rfl rfl
    (fun L hL => by
      obtain ⟨u, hu⟩ := List.getElem?_of_mem hL
      obtain ⟨l, hl⟩ := hlayer_of L (hmem_layers u L hu)
      obtain ⟨l1, hl1, -⟩ := layer_of_kept k1 hl
      exact ⟨l1, hl1⟩)
    hnlt node1.n_layers 0 (by omega) (Nat.zero_le _)
  refine ⟨layers[n], ln, hLn, hln, ?_⟩
  unfold _cogl_pipeline_foreach_layer_internal
  simp only [hwalk1, hp1, if_neg (by omega : ¬ node1.n_layers = 0), hupd]
  rw [hloop]
  have hfirst : ((layers[n]?).bind
      (c1.set_pipeline p
        { node1 with layers_cache_dirty := false, layers_cache := layers.map some }).layer).map
      (fun l => l.index) = some ln.index := by
    show ((layers[n]?).bind c1.layer).map (fun l => l.index) = some ln.index
    rw [hLn, Option.some_bind, hln1, Option.map_some', (layer_core_fields hcoren).2.2.2]
  rw [hfirst]

/-- What `_cogl_pipeline_prune_to_n_layers` leaves when it has layers to drop. -/
theorem prune_to_n_layers_post {fuel F f0 f : Nat} {ctx c : CoglContext} {p A n : Nat}
    {a : CoglPipeline} {path ids layers : List Nat}
    (hauth : _cogl_pipeline_get_authority ctx F p COGL_PIPELINE_STATE_LAYERS = some A)
    (hA : ctx.pipeline A = some a) (hF : F ≤ fuel) (hn : n < a.n_layers)
    (hpath : pipeline_path ctx p path) (hfuel : path.length + f0 ≤ fuel)
    (htree : subtree_post ctx (f + 1) p = some ids) (hnd : ids.Nodup)
    (hcons : links_consistent ctx ids)
    (hanc : ∀ z ∈ path, z ≠ p → z ∉ ids)
    (hunits : ∀ L ∈ layers_on_path ctx path,
      (_cogl_pipeline_layer_get_unit_index ctx f0 L).isSome = true)
    (hlen : layers.length = a.n_layers)
    (hcoh : ∀ u, u < a.n_layers →
      (layers_on_path ctx path).find? (fun L => decide (unit_of ctx f0 L = u)) = layers[u]?)
    (horder : ∀ u Lu Ln lu ln, u < n → layers[u]? = some Lu → layers[n]? = some Ln →
      ctx.layer Lu = some lu → ctx.layer Ln = some ln → lu.index ≤ ln.index)
    (h : _cogl_pipeline_prune_to_n_layers fuel ctx p n = some c) :
    cogl_pipeline_get_n_layers fuel c p = some n ∧
    effective_layers fuel c p = some (layers.take n) := by
  have hauthf := pipeline_get_authority_mono ctx _ _ _ _ hauth fuel hF
  obtain ⟨k, rfl⟩ : ∃ k, fuel = k + 1 := by
    cases fuel with
    | zero => exact absurd hauthf (by simp [_cogl_pipeline_get_authority])
    | succ k => exact ⟨k, rfl⟩
  unfold _cogl_pipeline_prune_to_n_layers at h
  simp only [Option.bind_eq_bind, Option.pure_def, hauthf, Option.some_bind, hA,
    if_neg (by omega : ¬ a.n_layers ≤ n)] at h
  obtain ⟨c1, h1, hsa⟩ := Option.bind_eq_some.mp h
  obtain ⟨r2, h2, hsb⟩ := Option.bind_eq_some.mp hsa
  obtain ⟨c2, state⟩ := r2
  dsimp only at hsb
  obtain ⟨c3, h3, hsc⟩ := Option.bind_eq_some.mp hsb
  obtain ⟨node3, hp3, hsd⟩ := Option.bind_eq_some.mp hsc
  obtain ⟨c4, hfold, hfin⟩ := Option.bind_eq_some.mp hsd
  clear h hsa hsb hsc hsd
  obtain ⟨hpath1, k1, hlop1, node1, hp1, hch1, hd1, hdirty1, hn1⟩ :=
    prune_notify_spec hpath htree hnd hcons hanc hauth hA h1
  have hunits_of : ∀ c2 : CoglContext, layers_kept_but p ctx c2 →
      ∀ L ∈ layers_on_path ctx path,
        (_cogl_pipeline_layer_get_unit_index c2 f0 L).isSome = true ∧
          unit_of c2 f0 L = unit_of ctx f0 L := fun c2 hk => units_of_kept hunits hk
  have hlayer_of := layer_of_units hunits
  have hmem_layers := mem_of_slots hlen hcoh
  obtain ⟨Ln, ln, hLn, hln, hforeach⟩ :=
    prune_foreach_spec hpath1 hfuel k1 hlop1 hp1 hd1 hdirty1 hn1 hunits hlen hcoh hn
  rw [hforeach] at h2
  simp only [Option.some.injEq, Prod.mk.injEq] at h2
  obtain ⟨hc2, hstate⟩ := h2
  subst hc2
  have hfirst : state.first_index_to_prune = some ln.index := by
    rw [← hstate]
  -- the pipeline when the loop starts
  obtain ⟨m2, hm2, e3⟩ := modify_pipeline_inv h3
  rw [pipeline_set_pipeline_self hp1] at hm2
  rw [← Option.some.inj hm2] at e3
  have hp3b : ∃ m3, c3.pipeline p = some m3 ∧ m3.children = node1.children ∧
      m3.differences = node1.differences ||| COGL_PIPELINE_STATE_LAYERS ∧
      m3.layer_differences = node1.layer_differences ∧ m3.n_layers = n ∧
      m3.layers_cache_dirty = false ∧ m3.layers_cache = layers.map some ∧
      m3.links = node1.links := by
    rw [e3, set_pipeline_set_pipeline]
    exact ⟨_, pipeline_set_pipeline_self hp1 _, rfl, rfl, rfl, rfl, rfl, rfl, rfl⟩
  obtain ⟨m3, hm3, t1, t2, t3, t4, t5, t6, t7⟩ := hp3b
  rw [hm3] at hp3
  obtain rfl := Option.some.inj hp3
  have s13 : same_skeleton c1 c3 := by
    rw [e3, set_pipeline_set_pipeline]
    exact same_skeleton_set hp1 rfl
  have k13 : layers_kept_but p c1 c3 := by
    rw [e3, set_pipeline_set_pipeline]
    exact layers_kept_set_at p c1 _
  have inv0 : prune_invariant c3 c3 p n ln.index (layers.map some) m3.layer_differences :=
    prune_invariant_refl hm3 (t1.trans hch1) (by rw [t2]; exact mask_or_layers _) t4 t5 t6
  have inv4 : prune_invariant c3 c4 p n ln.index (layers.map some) m3.layer_differences := by
    refine @returned_foldlM _ _ _
      (fun s => prune_invariant c3 s p n ln.index (layers.map some) m3.layer_differences)
      (fun s X hs => ?_) _ _ inv0 _ hfold
    rw [hfirst]
    exact prune_remove_step s X hs
  obtain ⟨s34, k34, node4, hp4, hch4, hd4, hn4, ⟨gone, hgone, hlist4⟩, hcache4⟩ := inv4
  obtain ⟨m5, hm5, e5⟩ := modify_pipeline_inv hfin
  rw [hp4] at hm5
  rw [← Option.some.inj hm5] at e5
  have hpc : ∃ mc, c.pipeline p = some mc ∧
      mc.differences = node4.differences ||| COGL_PIPELINE_STATE_LAYERS ∧
      mc.layer_differences = node4.layer_differences ∧ mc.n_layers = node4.n_layers ∧
      mc.layers_cache_dirty = node4.layers_cache_dirty ∧
      mc.layers_cache = node4.layers_cache := by
    rw [e5]
    exact ⟨_, pipeline_set_pipeline_self hp4 _, rfl, rfl, rfl, rfl, rfl⟩
  obtain ⟨mc, hmc, v1, v2, v3, v4, v5⟩ := hpc
  have s4c : same_skeleton c4 c := by
    rw [e5]
    exact same_skeleton_set hp4 rfl
  have k4c : layers_kept_but p c4 c := by
    rw [e5]
    exact layers_kept_set_at p c4 _
  have s1c : same_skeleton c1 c := same_skeleton_trans s13 (same_skeleton_trans s34 s4c)
  have k1c : layers_kept_but p c1 c := layers_kept_trans k13 (layers_kept_trans k34 k4c)
  have kc : layers_kept_but p ctx c := layers_kept_trans k1 k1c
  have hpathc : pipeline_path c p path := by
    refine node_path_of_parents path p (fun m _ => ?_) hpath1
    rw [view_parent_eq_links, view_parent_eq_links, s1c.1 m]
  -- the lists of the chain
  obtain ⟨rest, hrest⟩ := node_path_head hpath
  have hndpath : path.Nodup := node_path_nodup path p hpath
  cases rest with
  | nil =>
    have h0 := hcoh 0 (by omega)
    rw [hrest] at h0
    simp only [layers_on_path, List.find?_nil] at h0
    rw [List.getElem?_eq_getElem (by omega : 0 < layers.length)] at h0
    exact absurd h0 (by simp)
  | cons b rest2 =>
    have hLp : listed_layers c1 p = m3.layer_differences := by
      rw [listed_layers_of_pipeline hp1, if_pos hd1, t3]
    have hLpc : listed_layers c p = gone.foldl List.erase m3.layer_differences := by
      rw [listed_layers_of_pipeline hmc, v1, if_pos (mask_or_layers _), v2, hlist4]
    have hR : layers_on_path c (b :: rest2) = layers_on_path c1 (b :: rest2) := by
      refine layers_on_path_congr _ (fun q hq => ?_)
      have hqp : q ≠ p := by
        intro hqp
        rw [hrest] at hndpath
        exact (List.nodup_cons.mp hndpath).1 (hqp ▸ hq)
      obtain ⟨r, hr⟩ := pipeline_of_mem_path hpath1 (by rw [hrest]; exact List.mem_cons_of_mem _ hq)
      obtain ⟨r1, hr1, hrd, hrl, -⟩ := pipeline_of_kept k1c hr hqp
      rw [listed_layers_of_pipeline hr1, listed_layers_of_pipeline hr, hrd, hrl]
    have e_ctx : layers_on_path ctx path =
        m3.layer_differences ++ layers_on_path c1 (b :: rest2) := by
      rw [← hlop1, hrest, layers_on_path_cons, hLp]
    have e_c : layers_on_path c path =
        gone.foldl List.erase m3.layer_differences ++ layers_on_path c1 (b :: rest2) := by
      rw [hrest, layers_on_path_cons, hLpc, hR]
    have hsub : ∀ L ∈ layers_on_path c path, L ∈ layers_on_path ctx path := by
      intro L hL
      rw [e_c] at hL
      rw [e_ctx]
      rcases List.mem_append.mp hL with h1 | h2
      · exact List.mem_append_left _ (mem_foldl_erase _ _ _ h1)
      · exact List.mem_append_right _ h2
    refine prune_effective_layers hpathc hfuel hmc (by rw [v1]; exact mask_or_layers _)
      (v3.trans hn4) ?_ (fun L hL => (hunits_of c kc L (hsub L hL)).1) ?_ (by omega)
    · rcases hcache4 with hdirty | ⟨hclean, hc⟩
      · exact Or.inl (v4.trans hdirty)
      · exact Or.inr ⟨v4.trans hclean, by rw [v5, hc]⟩
    · intro u hu
      have hold := hcoh u (by omega)
      rw [find_congr_mem _ (fun x hx => by rw [(hunits_of c kc x (hsub x hx)).2])]
      rw [e_c, List.find?_append]
      rw [e_ctx, List.find?_append] at hold
      cases hf : m3.layer_differences.find? (fun L => decide (unit_of ctx f0 L = u)) with
      | none =>
        rw [find_foldl_erase_none gone _ hf]
        rw [hf] at hold
        exact hold
      | some y =>
        rw [hf] at hold
        have hy : layers[u]? = some y := hold.symm
        obtain ⟨ly, hly⟩ := hlayer_of y (hmem_layers u y hy)
        have hle := horder u y Ln ly ln hu hy hLn hly hln
        have hne : ∀ x ∈ gone, x ≠ y := by
          intro x hx hxy
          subst hxy
          obtain ⟨l1, hl1, hc1⟩ := layer_of_kept (layers_kept_trans k1 k13) hly
          have hlt := hgone x hx l1 hl1
          rw [(layer_core_fields hc1).2.2.2] at hlt
          omega
        rw [find_foldl_erase gone _ y hf hne]
        exact hold

theorem returns_foldlM {α β : Type} {f : β → α → Option β} {inv : β → Prop} :
    ∀ (l : List α) (s : β), (∀ s a, a ∈ l → inv s → returns (f s a) inv) → inv s →
      returns (l.foldlM f s) inv := by
  intro l
  induction l with
  | nil =>
    intro s _ hs
    exact returns_some hs
  | cons a rest ih =>
    intro s hf hs
    rw [List.foldlM_cons]
    refine returns_bind (hf s a (List.mem_cons_self _ _) hs) ?_
    intro s2 hs2
    exact ih s2 (fun s3 b hb h3 => hf s3 b (List.mem_cons_of_mem _ hb) h3) hs2

theorem subtree_post_leaf {ctx : CoglContext} {p : Nat} {node : CoglPipeline}
    (hp : ctx.pipeline p = some node) (hch : node.children = []) :
    subtree_post ctx 1 p = some [p] := by
  unfold subtree_post
  simp only [hp, hch, subtree_post_list, Option.map_some', List.nil_append]

theorem links_consistent_leaf {ctx : CoglContext} {p : Nat} {node : CoglPipeline}
    (hp : ctx.pipeline p = some node) (hch : node.children = []) :
    links_consistent ctx [p] := by
  intro y hy l hl c hc
  rw [List.mem_singleton] at hy
  subst hy
  rw [links_of_pipeline hp] at hl
  rw [← Option.some.inj hl] at hc
  have : c ∈ node.children := hc
  rw [hch] at this
  exact absurd this (List.not_mem_nil _)

/-- The function `_cogl_pipeline_prune_to_n_layers` returns on a pipeline without
children whose chain lists a layer for every unit. -/
theorem prune_to_n_layers_leaf_returns {k F f0 : Nat} {ctx : CoglContext} {p A n : Nat}
    {a node : CoglPipeline} {path layers : List Nat}
    (hauth : _cogl_pipeline_get_authority ctx F p COGL_PIPELINE_STATE_LAYERS = some A)
    (hA : ctx.pipeline A = some a) (hF : F ≤ k + 1) (hn : n < a.n_layers)
    (hp : ctx.pipeline p = some node) (hleaf : node.children = [])
    (hpath : pipeline_path ctx p path) (hfuel : path.length + f0 ≤ k + 2)
    (hunits : ∀ L ∈ layers_on_path ctx path,
      (_cogl_pipeline_layer_get_unit_index ctx f0 L).isSome = true)
    (hlen : layers.length = a.n_layers)
    (hcoh : ∀ u, u < a.n_layers →
      (layers_on_path ctx path).find? (fun L => decide (unit_of ctx f0 L = u)) = layers[u]?) :
    ∃ c, _cogl_pipeline_prune_to_n_layers (k + 2) ctx p n = some c := by
  have hauthf := pipeline_get_authority_mono ctx _ _ _ _ hauth (k + 2) (by omega)
  obtain ⟨c1, n1, h1, -, -, -⟩ := pre_change_notify_leaf_layers_returns k false hp hleaf
    ⟨A, pipeline_get_authority_mono ctx _ _ _ _ hauth (k + 1) hF⟩
  obtain ⟨hpath1, k1, hlop1, node1, hp1, hch1, hd1, hdirty1, hn1⟩ :=
    prune_notify_spec hpath (subtree_post_leaf hp hleaf) (List.nodup_singleton p)
      (links_consistent_leaf hp hleaf)
      (fun z _ hzp hz => hzp (List.mem_singleton.mp hz)) hauth hA h1
  obtain ⟨Ln, ln, hLn, hln, hforeach⟩ :=
    prune_foreach_spec hpath1 hfuel k1 hlop1 hp1 hd1 hdirty1 hn1 hunits hlen hcoh hn
  -- the layers that `p` lists exist
  have hlisted : ∀ X ∈ node1.layer_differences, ∃ l, c1.layer X = some l := by
    intro X hX
    obtain ⟨rest, hrest⟩ := node_path_head hpath
    cases rest with
    | nil =>
      have h0 := hcoh 0 (by omega)
      rw [hrest] at h0
      simp only [layers_on_path, List.find?_nil] at h0
      rw [List.getElem?_eq_getElem (by omega : 0 < layers.length)] at h0
      exact absurd h0 (by simp)
    | cons b rest2 =>
      have hmem : X ∈ layers_on_path ctx path := by
        rw [← hlop1, hrest, layers_on_path_cons, listed_layers_of_pipeline hp1, if_pos hd1]
        exact List.mem_append_left _ hX
      obtain ⟨l, hl⟩ := layer_of_units hunits X hmem
      obtain ⟨l1, hl1, -⟩ := layer_of_kept k1 hl
      exact ⟨l1, hl1⟩
  have key : returns (_cogl_pipeline_prune_to_n_layers (k + 2) ctx p n) (fun _ => True) := by
    unfold _cogl_pipeline_prune_to_n_layers
    simp only [Option.bind_eq_bind, Option.pure_def, hauthf, Option.some_bind, hA,
      if_neg (by omega : ¬ a.n_layers ≤ n), h1, hforeach]
    rw [modify_pipeline_some (pipeline_set_pipeline_self hp1 _)]
    simp only [Option.some_bind, set_pipeline_set_pipeline, pipeline_set_pipeline_self hp1]
    refine returns_bind
      (@returns_foldlM _ _ _ (fun s : CoglContext => layers_leaf s p ∧
          ∀ X ∈ node1.layer_differences, ∃ l, s.layer X = some l) _ _
        (fun s X hX hs => ?_) ⟨⟨_, pipeline_set_pipeline_self hp1 _, hch1, mask_or_layers _⟩,
          hlisted⟩) ?_
    · obtain ⟨hleafs, hex⟩ := hs
      obtain ⟨l, hl⟩ := hex X hX
      rw [hl]
      simp only [Option.some_bind]
      refine returns_ite (fun _ => ?_) (fun _ => returns_some ⟨hleafs, hex⟩)
      refine returns_mono (returns_and_returned (remove_layer_difference_leaf hleafs hl k false)
        (fun c3 h3 => remove_layer_difference_held h3)) ?_
      intro c3 hc3
      refine ⟨hc3.1, fun Y hY => ?_⟩
      obtain ⟨ly, hly⟩ := hex Y hY
      obtain ⟨ly2, hly2, -⟩ := hc3.2 Y ly hly
      exact ⟨ly2, hly2⟩
    · intro c4 hc4
      obtain ⟨n4, hn4, -, -⟩ := hc4.1
      exact ⟨_, modify_pipeline_some hn4 _, trivial⟩
  obtain ⟨c, hc, -⟩ := key
  exact ⟨c, hc⟩

theorem effective_layers_length {fuel : Nat} {ctx : CoglContext} {p A : Nat}
    {a : CoglPipeline} {layers : List Nat}
    (hauth : _cogl_pipeline_get_authority ctx fuel p COGL_PIPELINE_STATE_LAYERS = some A)
    (hA : ctx.pipeline A = some a) (h : effective_layers fuel ctx p = some layers) :
    layers.length = a.n_layers := by
  unfold effective_layers at h
  simp only [Option.bind_eq_bind, hauth, Option.some_bind, hA, Option.pure_def] at h
  by_cases hn0 : a.n_layers = 0
  · rw [if_pos hn0] at h
    rw [← Option.some.inj h, hn0]
    rfl
  · rw [if_neg hn0] at h
    obtain ⟨c1, -, h⟩ := Option.bind_eq_some.mp h
    obtain ⟨a1, -, h⟩ := Option.bind_eq_some.mp h
    split at h
    · exact absurd h (by simp)
    rename_i hcond
    simp only [not_or, ne_eq, not_not] at hcond
    have := congrArg List.length (all_layers_eq_some h)
    rw [List.length_map] at this
    rw [← this]
    exact hcond.2

/-- C15: `_cogl_pipeline_prune_to_n_layers (p, n)`. Let `A` be the `LAYERS` authority
of `p` and `N` its `n_layers`. If `N ≤ n` the call returns the context it was given:
nothing is changed. If `n < N`: let `path` be the chain from `p` to the root, let
every layer listed on the chain resolve its unit index, let `layers` be the effective
layers of `p`, which are the layers that the lists of the chain give to the units
below `N`, and let no layer of a unit below `n` have an index above that of the layer
of unit `n`. Then, when the pipelines below `p` form a tree that the chain does not
enter, in whatever context the call returns `cogl_pipeline_get_n_layers (p)` is `n`
and the effective layers of `p` are the first `n` of `layers`; and when `p` has no
children the call does return such a context. -/
theorem prune_to_n_layers_keeps_first_layers (fuel F f0 : Nat) (ctx : CoglContext)
    (p A n : Nat) (a : CoglPipeline)
    (hauth : _cogl_pipeline_get_authority ctx F p COGL_PIPELINE_STATE_LAYERS = some A)
    (hA : ctx.pipeline A = some a) (hF : F + 1 ≤ fuel) :
    (a.n_layers ≤ n → _cogl_pipeline_prune_to_n_layers fuel ctx p n = some ctx) ∧
    (n < a.n_layers → ∀ (path layers : List Nat),
      pipeline_path ctx p path → path.length + f0 ≤ fuel →
      (∀ L ∈ layers_on_path ctx path,
        (_cogl_pipeline_layer_get_unit_index ctx f0 L).isSome = true) →
      effective_layers fuel ctx p = some layers →
      (∀ u, u < a.n_layers →
        (layers_on_path ctx path).find? (fun L => decide (unit_of ctx f0 L = u)) =
          layers[u]?) →
      (∀ u Lu Ln lu ln, u < n → layers[u]? = some Lu → layers[n]? = some Ln →
        ctx.layer Lu = some lu → ctx.layer Ln = some ln → lu.index ≤ ln.index) →
      (∀ f ids c, subtree_post ctx (f + 1) p = some ids → ids.Nodup →
        links_consistent ctx ids → (∀ z ∈ path, z ≠ p → z ∉ ids) →
        _cogl_pipeline_prune_to_n_layers fuel ctx p n = some c →
        cogl_pipeline_get_n_layers fuel c p = some n ∧
          effective_layers fuel c p = some (layers.take n)) ∧
      ((ctx.pipeline p).map (fun node => node.children) = some [] →
        ∃ c, _cogl_pipeline_prune_to_n_layers fuel ctx p n = some c ∧
          cogl_pipeline_get_n_layers fuel c p = some n ∧
          effective_layers fuel c p = some (layers.take n))) := by
  have hauthf := pipeline_get_authority_mono ctx _ _ _ _ hauth fuel (by omega)
  refine ⟨?_, ?_⟩
  · intro hle
    unfold _cogl_pipeline_prune_to_n_layers
    simp only [Option.bind_eq_bind, Option.pure_def, hauthf, Option.some_bind, hA, if_pos hle]
  · intro hn path layers hpath hfuel hunits hbefore hcoh horder
    have hlen := effective_layers_length hauthf hA hbefore
    have hpost : ∀ f ids c, subtree_post ctx (f + 1) p = some ids → ids.Nodup →
        links_consistent ctx ids → (∀ z ∈ path, z ≠ p → z ∉ ids) →
        _cogl_pipeline_prune_to_n_layers fuel ctx p n = some c →
        cogl_pipeline_get_n_layers fuel c p = some n ∧
          effective_layers fuel c p = some (layers.take n) :=
      fun f ids c htree hnd hcons hanc h =>
        prune_to_n_layers_post hauth hA (by omega) hn hpath hfuel htree hnd hcons hanc hunits
          hlen hcoh horder h
    refine ⟨hpost, ?_⟩
    intro hleaf
    cases hp : ctx.pipeline p with
    | none => rw [hp] at hleaf; exact absurd hleaf (by simp)
    | some node =>
      rw [hp] at hleaf
      have hch : node.children = [] := Option.some.inj hleaf
      have hF1 : 1 ≤ F := by
        cases F with
        | zero => exact absurd hauth (by simp [_cogl_pipeline_get_authority])
        | succ j => omega
      obtain ⟨k, rfl⟩ : ∃ k, fuel = k + 2 := ⟨fuel - 2, by omega⟩
      obtain ⟨c, hc⟩ := prune_to_n_layers_leaf_returns hauth hA (by omega) hn hp hch hpath
        hfuel hunits hlen hcoh
      exact ⟨c, hc, hpost 0 [p] c (subtree_post_leaf hp hch) (List.nodup_singleton p)
        (links_consistent_leaf hp hch) (fun z _ hzp hz => hzp (List.mem_singleton.mp hz)) hc⟩

theorem prune_to_n_layers_keeps_first_layers_witness :
    _cogl_pipeline_get_authority scenario_inherited 2 2 COGL_PIPELINE_STATE_LAYERS = some 1 ∧
    scenario_inherited.pipeline 1 = some scenario_inherited_a ∧
    scenario_inherited_a.n_layers = 2 ∧
    effective_layers 8 scenario_inherited 2 = some [3, 4] ∧
    ∃ c, _cogl_pipeline_prune_to_n_layers 8 scenario_inherited 2 1 = some c ∧
      cogl_pipeline_get_n_layers 8 c 2 = some 1 ∧
      effective_layers 8 c 2 = some [3] := by
  have hauth : _cogl_pipeline_get_authority scenario_inherited 2 2
      COGL_PIPELINE_STATE_LAYERS = some 1 := by decide!
  have hA : scenario_inherited.pipeline 1 = some scenario_inherited_a := by decide!
  have hN : scenario_inherited_a.n_layers = 2 := by decide!
  have hbefore : effective_layers 8 scenario_inherited 2 = some [3, 4] := by decide!
  have hlop : layers_on_path scenario_inherited [2, 1, 0] = [4, 3] := by decide!
  have h := (prune_to_n_layers_keeps_first_layers 8 2 3 scenario_inherited 2 1 1
    scenario_inherited_a hauth hA (by decide)).2 (by rw [hN]; decide) [2, 1, 0] [3, 4]
    (by decide!) (by decide)
    (by
      rw [hlop]
      intro L hL
      simp only [List.mem_cons, List.mem_singleton, List.not_mem_nil, or_false] at hL
      rcases hL with rfl | rfl
      · decide!
      · decide!)
    hbefore
    (by
      rw [hlop, hN]
      intro u hu
      have hu2 : u = 0 ∨ u = 1 := by omega
      rcases hu2 with rfl | rfl
      · decide!
      · decide!)
    (by
      intro u Lu Ln lu ln hu hLu hLn hlu hln
      have hu0 : u = 0 := by omega
      subst hu0
      have e1 : Lu = 3 := by
        simp only [List.getElem?_cons_zero, Option.some.injEq] at hLu
        exact hLu.symm
      have e2 : Ln = 4 := by
        simp only [List.getElem?_cons_succ, List.getElem?_cons_zero, Option.some.injEq] at hLn
        exact hLn.symm
      subst e1
      subst e2
      have i1 : (scenario_inherited.layer 3).map (fun l => l.index) = some 5 := by decide!
      have i2 : (scenario_inherited.layer 4).map (fun l => l.index) = some 7 := by decide!
      rw [hlu] at i1
      rw [hln] at i2
      simp only [Option.map_some', Option.some.injEq] at i1 i2
      rw [i1, i2]
      decide)
  obtain ⟨c, hc, h1, h2⟩ := h.2 (by decide!)
  exact ⟨hauth, hA, hN, hbefore, c, hc, h1, h2⟩

/-! ## Resolving several authorities in one walk -/

theorem node_resolve_authorities_returns (view : Nat → Option NodeView)
    (path : List Nat) (n fuel mask : Nat) (authorities : List (Option Nat))
    (hpath : node_path view n path) (hfuel : path.length ≤ fuel)
    (hbits : ∀ j, mask.testBit j = true →
      j < authorities.length ∧ ∃ m ∈ path, node_asserts view (1 <<< j) m) :
    ∃ out, node_resolve_authorities view fuel n mask authorities = some out ∧
      out.length = authorities.length ∧
      ∀ j, (mask.testBit j = true →
          ∃ a, out[j]? = some (some a) ∧ node_get_authority view fuel n (1 <<< j) = some a) ∧
        (mask.testBit j = false → out[j]? = authorities[j]?) := by
  obtain ⟨out, h⟩ := node_resolve_authorities_total view path n fuel mask authorities hpath
    hfuel hbits
  exact ⟨out, h, node_resolve_authorities_spec view fuel n mask authorities out h⟩

/-- C31: `_cogl_pipeline_resolve_authorities (p, mask, out)` and
`_cogl_pipeline_layer_resolve_authorities (l, mask, out)`. Let `path` be the chain
from the node to the root, walked within the fuel, and let every bit of `mask` name
an entry of the array and a group that some node of the chain asserts (the root
asserts every sparse group). Then the call returns; for every bit `j` of `mask` the
entry `out[j]` is the node that the single-group authority walk returns for the
group `1 << j`, and every entry of a bit outside `mask` is the one the array had. -/
theorem resolve_authorities_matches_single_walks (ctx : CoglContext) (fuel : Nat)
    (path : List Nat) (n mask : Nat) (authorities : List (Option Nat)) :
    (pipeline_path ctx n path → path.length ≤ fuel →
      (∀ j, mask.testBit j = true →
        j < authorities.length ∧ ∃ m ∈ path, pipeline_asserts ctx (1 <<< j) m) →
      ∃ out, _cogl_pipeline_resolve_authorities ctx fuel n mask authorities = some out ∧
        out.length = authorities.length ∧
        ∀ j, (mask.testBit j = true →
            ∃ a, out[j]? = some (some a) ∧
              _cogl_pipeline_get_authority ctx fuel n (1 <<< j) = some a) ∧
          (mask.testBit j = false → out[j]? = authorities[j]?)) ∧
    (layer_path ctx n path → path.length ≤ fuel →
      (∀ j, mask.testBit j = true →
        j < authorities.length ∧ ∃ m ∈ path, layer_asserts ctx (1 <<< j) m) →
      ∃ out, _cogl_pipeline_layer_resolve_authorities ctx fuel n mask authorities =
          some out ∧
        out.length = authorities.length ∧
        ∀ j, (mask.testBit j = true →
            ∃ a, out[j]? = some (some a) ∧
              _cogl_pipeline_layer_get_authority ctx fuel n (1 <<< j) = some a) ∧
          (mask.testBit j = false → out[j]? = authorities[j]?)) := by
  refine ⟨?_, ?_⟩
  · intro hpath hfuel hbits
    simp only [pipeline_get_authority_eq]
    exact node_resolve_authorities_returns (pipeline_view ctx) path n fuel mask authorities
      hpath hfuel hbits
  · intro hpath hfuel hbits
    simp only [layer_get_authority_eq]
    exact node_resolve_authorities_returns (layer_view ctx) path n fuel mask authorities
      hpath hfuel hbits

theorem resolve_authorities_matches_single_walks_witness :
    (∃ out, _cogl_pipeline_resolve_authorities scenario_inherited 3 2 5
        (List.replicate 13 none) = some out ∧
      out.length = (List.replicate 13 (none : Option Nat)).length ∧
      ∀ j, (Nat.testBit 5 j = true →
          ∃ a, out[j]? = some (some a) ∧
            _cogl_pipeline_get_authority scenario_inherited 3 2 (1 <<< j) = some a) ∧
        (Nat.testBit 5 j = false → out[j]? = (List.replicate 13 (none : Option Nat))[j]?)) ∧
    (∃ out, _cogl_pipeline_layer_resolve_authorities scenario_inherited 3 4 9
        (List.replicate 9 none) = some out ∧
      out.length = (List.replicate 9 (none : Option Nat)).length ∧
      ∀ j, (Nat.testBit 9 j = true →
          ∃ a, out[j]? = some (some a) ∧
            _cogl_pipeline_layer_get_authority scenario_inherited 3 4 (1 <<< j) = some a) ∧
        (Nat.testBit 9 j = false → out[j]? = (List.replicate 9 (none : Option Nat))[j]?)) := by
  have hbit : ∀ (m j : Nat), m < 16 → m.testBit j = true → j < 4 := by
    intro m j hm hj
    by_contra hge
    have hlt : m < 2 ^ j := lt_of_lt_of_le hm
      (le_trans (by decide : 16 ≤ 2 ^ 4) (Nat.pow_le_pow_right (by decide) (by omega)))
    rw [Nat.testBit_lt_two_pow hlt] at hj
    exact absurd hj (by decide)
  refine ⟨(resolve_authorities_matches_single_walks scenario_inherited 3 [2, 1, 0] 2 5
      (List.replicate 13 none)).1 (by decide!) (by decide) ?_,
    (resolve_authorities_matches_single_walks scenario_inherited 3 [4, 1, 0] 4 9
      (List.replicate 9 none)).2 (by decide!) (by decide) ?_⟩
  · intro j hj
    have hj4 := hbit 5 j (by decide) hj
    have hc : j = 0 ∨ j = 1 ∨ j = 2 ∨ j = 3 := by omega
    rcases hc with rfl | rfl | rfl | rfl
    · exact ⟨by decide, 0, by decide, by decide!⟩
    · exact absurd hj (by decide)
    · exact ⟨by decide, 1, by decide, by decide!⟩
    · exact absurd hj (by decide)
  · intro j hj
    have hj4 := hbit 9 j (by decide) hj
    have hc : j = 0 ∨ j = 1 ∨ j = 2 ∨ j = 3 := by omega
    rcases hc with rfl | rfl | rfl | rfl
    · exact ⟨by decide, 1, by decide, by decide!⟩
    · exact absurd hj (by decide)
    · exact absurd hj (by decide)
    · exact ⟨by decide, 0, by decide, by decide!⟩

/-! ## The sparse groups of the pipelines under a change -/

theorem groups_kept_refl (d : Nat) (ctx : CoglContext) : groups_kept_but d ctx ctx :=
  ⟨Nat.le_refl _, Nat.le_refl _, fun _ _ _ => rfl, fun _ _ => rfl⟩

theorem groups_kept_trans {d : Nat} {a b c : CoglContext} (h1 : groups_kept_but d a b)
    (h2 : groups_kept_but d b c) : groups_kept_but d a c := by
  obtain ⟨p1, l1, q1, k1⟩ := h1
  obtain ⟨p2, l2, q2, k2⟩ := h2
  refine ⟨Nat.le_trans p1 p2, Nat.le_trans l1 l2, ?_, ?_⟩
  · intro q hq hd
    rw [q2 q (Nat.lt_of_lt_of_le hq p1) hd, q1 q hq hd]
  · intro L hL
    rw [k2 L (Nat.lt_of_lt_of_le hL l1), k1 L hL]

/-- A pipeline made after `ctx` is no exception among the pipelines of `ctx`. -/
theorem groups_kept_of_fresh {d d2 : Nat} {ctx c : CoglContext}
    (hd : ctx.pipelines.length ≤ d) (h : groups_kept_but d ctx c) : groups_kept_but d2 ctx c := by
  obtain ⟨p1, l1, q1, k1⟩ := h
  refine ⟨p1, l1, ?_, k1⟩
  intro q hq _
  exact q1 q hq (by omega)

theorem groups_kept_set {d p : Nat} {ctx : CoglContext} {old v : CoglPipeline}
    (h : ctx.pipeline p = some old) (hv : v.group_state = old.group_state) :
    groups_kept_but d ctx (ctx.set_pipeline p v) := by
  refine ⟨by rw [length_set_pipeline], Nat.le_refl _, ?_, fun _ _ => rfl⟩
  intro q _ _
  by_cases hpq : p = q
  · subst hpq
    rw [pipeline_set_pipeline_self h, h]
    simp only [Option.map_some', hv]
  · rw [pipeline_set_pipeline_ne _ hpq]

theorem groups_kept_set_at (d : Nat) (ctx : CoglContext) (v : CoglPipeline) :
    groups_kept_but d ctx (ctx.set_pipeline d v) := by
  refine ⟨by rw [length_set_pipeline], Nat.le_refl _, ?_, fun _ _ => rfl⟩
  intro q _ hqd
  rw [pipeline_set_pipeline_ne _ (Ne.symm hqd)]

theorem groups_kept_set_layer {d l : Nat} {ctx : CoglContext} {old v : CoglPipelineLayer}
    (h : ctx.layer l = some old) (hv : v.core = old.core) :
    groups_kept_but d ctx (ctx.set_layer l v) := by
  refine ⟨Nat.le_refl _, by rw [length_set_layer], fun _ _ _ => rfl, ?_⟩
  intro L _
  by_cases hlL : l = L
  · subst hlL
    rw [layer_set_layer_self h, h]
    simp only [Option.map_some', hv]
  · rw [layer_set_layer_ne _ hlL]

theorem groups_kept_of_eq {d : Nat} {ctx c : CoglContext} (hp : c.pipelines = ctx.pipelines)
    (hl : c.layers = ctx.layers) : groups_kept_but d ctx c := by
  refine ⟨by rw [hp], by rw [hl], ?_, ?_⟩
  · intro q _ _
    simp only [CoglContext.pipeline, hp]
  · intro L _
    simp only [CoglContext.layer, hl]

/-- A step that keeps the groups, taken from a context that kept those of `c0`. -/
theorem groups_step {d : Nat} {c0 c : CoglContext} {x : Option CoglContext}
    (hs : groups_kept_but d c0 c) (h : returned x (groups_kept_but d c)) :
    returned x (groups_kept_but d c0) :=
  returned_mono h (fun _ ha => groups_kept_trans hs ha)

theorem groups_bind {d : Nat} {c0 : CoglContext} {x : Option CoglContext}
    {f : CoglContext → Option CoglContext} (hx : returned x (groups_kept_but d c0))
    (hf : ∀ c, groups_kept_but d c0 c → returned (f c) (groups_kept_but d c0)) :
    returned (x.bind f) (groups_kept_but d c0) :=
  returned_bind hx hf

theorem modify_pipeline_groups (d : Nat) (ctx : CoglContext) (p : Nat)
    {f : CoglPipeline → CoglPipeline} (hf : ∀ m, (f m).group_state = m.group_state) :
    returned (ctx.modify_pipeline p f) (groups_kept_but d ctx) := by
  unfold CoglContext.modify_pipeline
  split
  · exact returned_none
  rename_i node hp
  exact returned_some (groups_kept_set hp (hf node))

theorem modify_pipeline_groups_at (d : Nat) (ctx : CoglContext) (f : CoglPipeline → CoglPipeline) :
    returned (ctx.modify_pipeline d f) (groups_kept_but d ctx) := by
  unfold CoglContext.modify_pipeline
  split
  · exact returned_none
  exact returned_some (groups_kept_set_at d ctx _)

theorem modify_layer_groups (d : Nat) (ctx : CoglContext) (l : Nat)
    {f : CoglPipelineLayer → CoglPipelineLayer} (hf : ∀ m, (f m).core = m.core) :
    returned (ctx.modify_layer l f) (groups_kept_but d ctx) := by
  unfold CoglContext.modify_layer
  split
  · exact returned_none
  rename_i node hl
  exact returned_some (groups_kept_set_layer hl (hf node))

theorem same_but_caches_groups {d : Nat} {a b : CoglContext} (h : same_but_caches a b) :
    groups_kept_but d a b := by
  have hl : b.layers = a.layers := by
    have := congrArg CoglContext.layers h.2
    exact this
  have hlen : b.pipelines.length = a.pipelines.length :=
    same_skeleton_length (same_but_caches_skeleton h)
  refine ⟨by rw [hlen], by rw [hl], ?_, ?_⟩
  · intro q _ _
    have := congrArg (Option.map CoglPipeline.group_state) (h.1 q)
    simp only [Option.map_map] at this
    exact this
  · intro L _
    simp only [CoglContext.layer, hl]

theorem emit_groups (d : Nat) (ctx : CoglContext) (e : CoglEvent) :
    groups_kept_but d ctx (ctx.emit e) := groups_kept_of_eq rfl rfl

theorem ite_emit_groups (d : Nat) (c : CoglContext) (cond : Prop) [Decidable cond] (e : CoglEvent) :
    groups_kept_but d c (if cond then c.emit e else c) := by
  split
  · exact emit_groups d c e
  · exact groups_kept_refl d c

theorem pre_change_notify_journal_groups (d f : Nat) (ctx : CoglContext) (p change : Nat)
    (oc : Option CoglColor) :
    returned (pre_change_notify_journal f ctx p change oc) (groups_kept_but d ctx) := by
  unfold pre_change_notify_journal
  split
  · exact returned_none
  rename_i node hp
  refine returned_ite (fun _ => returned_ite (fun _ => ?_)
    (fun _ => returned_some (emit_groups d ctx _)))
    (fun _ => returned_some (groups_kept_refl d ctx))
  intro a ha
  cases hnb : _cogl_pipeline_needs_blending_enabled f ctx p change oc with
  | none => rw [hnb] at ha; exact absurd ha (by simp)
  | some r =>
    obtain ⟨ctx1, w⟩ := r
    rw [hnb] at ha
    have hs : groups_kept_but d ctx ctx1 :=
      same_but_caches_groups (needs_blending_enabled_caches f ctx p change oc ctx1 w hnb)
    simp only at ha
    split at ha
    · rw [← Option.some.inj ha]; exact hs
    · rw [← Option.some.inj ha]; exact groups_kept_trans hs (emit_groups d _ _)

theorem pre_change_notify_backends_groups (d : Nat) (ctx : CoglContext) (p change : Nat)
    (flc : Bool) :
    returned (pre_change_notify_backends ctx p change flc) (groups_kept_but d ctx) := by
  unfold pre_change_notify_backends
  simp only [Option.bind_eq_bind]
  refine groups_bind (modify_pipeline_groups d ctx p (fun m => by split <;> rfl)) ?_
  intro c1 s1
  refine groups_bind (groups_step s1 (modify_pipeline_groups d c1 p (fun m => by split <;> rfl))) ?_
  intro c2 s2
  refine returned_bind_any (fun node _ => ?_)
  cases flc with
  | true => exact returned_some s2
  | false =>
    simp only [Bool.not_false, if_true, Option.pure_def]
    exact returned_some (groups_kept_trans s2 (groups_kept_trans
      (ite_emit_groups d _ _ _) (groups_kept_trans (ite_emit_groups d _ _ _) (emit_groups d _ _))))

theorem object_ref_groups (d : Nat) (ctx : CoglContext) (p : Nat) :
    returned (cogl_object_ref ctx p) (groups_kept_but d ctx) := by
  unfold cogl_object_ref
  split
  · exact returned_none
  rename_i node hp
  exact returned_some (groups_kept_set hp rfl)

theorem object_unref_groups (d : Nat) (ctx : CoglContext) (p : Nat) :
    returned (cogl_object_unref ctx p) (groups_kept_but d ctx) := by
  unfold cogl_object_unref
  split
  · exact returned_none
  rename_i node hp
  exact returned_some (groups_kept_set hp rfl)

theorem unparent_real_groups (d : Nat) (ctx : CoglContext) (x : Nat) :
    returned (_cogl_pipeline_node_unparent_real ctx x) (groups_kept_but d ctx) := by
  unfold _cogl_pipeline_node_unparent_real
  intro a ha
  split at ha
  · exact absurd ha (by simp)
  split at ha
  · rw [← Option.some.inj ha]; exact groups_kept_refl d ctx
  split at ha
  · exact absurd ha (by simp)
  rename_i pn hpn
  split at ha
  · rw [← Option.some.inj ha]; exact groups_kept_refl d ctx
  dsimp only at ha
  have s1 : groups_kept_but d ctx (ctx.set_pipeline _ { pn with children := pn.children.erase x })
      := groups_kept_set hpn rfl
  split at ha
  · exact absurd ha (by simp)
  rename_i c2 h2
  have s2 : groups_kept_but d ctx c2 := by
    split at h2
    · exact groups_kept_trans s1 (object_unref_groups d _ _ _ h2)
    · rw [← Option.some.inj h2]; exact s1
  split at ha
  · exact absurd ha (by simp)
  rename_i n2 hn2
  rw [← Option.some.inj ha]
  exact groups_kept_trans s2 (groups_kept_set hn2 rfl)

theorem destroy_weak_children_groups (d : Nat) :
    ∀ (n : Nat) (ctx : CoglContext) (x : Nat),
      returned (destroy_weak_children_cb n ctx x) (groups_kept_but d ctx) := by
  intro n
  induction n with
  | zero => intro ctx x; exact returned_none
  | succ k ih =>
    intro ctx x
    unfold destroy_weak_children_cb
    split
    · exact returned_none
    · exact returned_some (groups_kept_refl d ctx)
    · intro a ha
      split at ha
      · exact absurd ha (by simp)
      rename_i c1 h1
      have s1 : groups_kept_but d ctx c1 := by
        unfold _cogl_pipeline_node_foreach_child at h1
        split at h1
        · exact absurd h1 (by simp)
        exact returned_foldlM (fun s y hs => groups_step hs (ih s y)) _ _
          (groups_kept_refl d ctx) _ h1
      split at ha
      · exact absurd ha (by simp)
      exact groups_kept_trans s1 (groups_kept_trans (emit_groups d _ _)
        (unparent_real_groups d _ _ _ ha))

theorem recursively_free_layer_caches_groups (d : Nat) :
    ∀ (fuel : Nat) (ctx : CoglContext) (p : Nat),
      returned (recursively_free_layer_caches fuel ctx p) (groups_kept_but d ctx) := by
  intro fuel
  induction fuel with
  | zero =>
    intro ctx p
    exact returned_none
  | succ k ih =>
    intro ctx p
    unfold recursively_free_layer_caches
    split
    · exact returned_none
    rename_i node hp
    refine returned_ite (fun _ => returned_some (groups_kept_refl d ctx)) (fun _ => ?_)
    have s1 : groups_kept_but d ctx
        (ctx.set_pipeline p { node with layers_cache_dirty := true }) := groups_kept_set hp rfl
    unfold _cogl_pipeline_node_foreach_child
    dsimp only
    split
    · exact returned_none
    exact returned_foldlM (fun s a hs => groups_step hs (ih s a)) _ _ s1

theorem set_parent_real_groups (d : Nat) (ctx : CoglContext) (node parent : Nat) (strong : Bool) :
    returned (_cogl_pipeline_node_set_parent_real ctx node parent strong)
      (groups_kept_but d ctx) := by
  unfold _cogl_pipeline_node_set_parent_real
  intro a ha
  split at ha
  · exact absurd ha (by simp)
  rename_i c1 h1
  have s1 := object_ref_groups d ctx parent c1 h1
  split at ha
  · exact absurd ha (by simp)
  split at ha
  · exact absurd ha (by simp)
  rename_i c2 h2
  have s2 : groups_kept_but d ctx c2 := by
    split at h2
    · exact groups_kept_trans s1 (unparent_real_groups d _ _ _ h2)
    · rw [← Option.some.inj h2]; exact s1
  split at ha
  · exact absurd ha (by simp)
  rename_i pn hpn
  dsimp only at ha
  have s3 : groups_kept_but d ctx
      (c2.set_pipeline parent { pn with children := node :: pn.children }) :=
    groups_kept_trans s2 (groups_kept_set hpn rfl)
  split at ha
  · exact absurd ha (by simp)
  rename_i n3 hn3
  have s4 := groups_kept_trans s3 (@groups_kept_set d node _ n3
    { n3 with parent := some parent, has_parent_reference := strong } hn3 rfl)
  split at ha
  · exact groups_kept_trans s4 (object_unref_groups d _ _ _ ha)
  · rw [← Option.some.inj ha]; exact s4

theorem set_parent_groups (d fuel : Nat) (ctx : CoglContext) (node parent : Nat) (strong : Bool) :
    returned (_cogl_pipeline_set_parent fuel ctx node parent strong)
      (groups_kept_but d ctx) := by
  unfold _cogl_pipeline_set_parent
  intro a ha
  split at ha
  · exact absurd ha (by simp)
  rename_i c1 h1
  have s1 := set_parent_real_groups d ctx node parent strong c1 h1
  split at ha
  · exact absurd ha (by simp)
  split at ha
  · exact absurd ha (by simp)
  rename_i c2 h2
  have s2 : groups_kept_but d ctx c2 := by
    split at h2
    · exact groups_kept_trans s1 (recursively_free_layer_caches_groups d _ _ _ _ h2)
    · rw [← Option.some.inj h2]; exact s1
  split at ha
  · rw [← Option.some.inj ha]; exact groups_kept_trans s2 (emit_groups d _ _)
  · rw [← Option.some.inj ha]; exact s2

theorem promote_weak_ancestors_loop_groups (d : Nat) :
    ∀ (fuel : Nat) (ctx : CoglContext) (n : Nat),
      returned (promote_weak_ancestors_loop fuel ctx n) (groups_kept_but d ctx) := by
  intro fuel
  induction fuel with
  | zero => intro ctx n; exact returned_none
  | succ k ih =>
    intro ctx n
    unfold promote_weak_ancestors_loop
    split
    · exact returned_none
    refine returned_ite (fun _ => ?_) (fun _ => returned_some (groups_kept_refl d ctx))
    split
    · exact returned_none
    rename_i parent _
    intro a ha
    split at ha
    · exact absurd ha (by simp)
    rename_i c1 h1
    exact groups_kept_trans (object_ref_groups d ctx parent c1 h1) (ih c1 parent a ha)

theorem promote_weak_ancestors_groups (d fuel : Nat) (ctx : CoglContext) (n : Nat) :
    returned (_cogl_pipeline_promote_weak_ancestors fuel ctx n) (groups_kept_but d ctx) := by
  unfold _cogl_pipeline_promote_weak_ancestors
  split
  · exact returned_none
  refine returned_ite (fun _ => returned_some (groups_kept_refl d ctx)) (fun _ => ?_)
  split
  · exact returned_some (groups_kept_refl d ctx)
  · exact promote_weak_ancestors_loop_groups d fuel ctx _

theorem append_pipeline_groups (d : Nat) (ctx : CoglContext) (node : CoglPipeline) :
    groups_kept_but d ctx { ctx with pipelines := ctx.pipelines ++ [node] } := by
  refine ⟨by simp, Nat.le_refl _, ?_, fun _ _ => rfl⟩
  intro q hq _
  rw [pipeline_append_old node hq]

theorem pipeline_copy_groups (d fuel : Nat) (ctx : CoglContext) (src : Nat) (w : Bool) :
    returned (_cogl_pipeline_copy fuel ctx src w) (fun r => groups_kept_but d ctx r.1) := by
  unfold _cogl_pipeline_copy
  intro a ha
  split at ha
  · exact absurd ha (by simp)
  dsimp only at ha
  split at ha
  · exact absurd ha (by simp)
  rename_i c2 h2
  have s2 := groups_kept_trans (append_pipeline_groups d ctx _) (set_parent_groups d _ _ _ _ _ c2 h2)
  split at ha
  · exact absurd ha (by simp)
  rename_i c3 h3
  have s3 : groups_kept_but d ctx c3 := by
    split at h3
    · exact groups_kept_trans s2 (promote_weak_ancestors_groups d _ _ _ _ h3)
    · rw [← Option.some.inj h3]; exact s2
  split at ha
  · exact absurd ha (by simp)
  rename_i created hcr
  rw [← Option.some.inj ha]
  exact groups_kept_trans s3 (groups_kept_set hcr rfl)

theorem set_static_breadcrumb_groups (d : Nat) (ctx : CoglContext) (p : Nat) (b : String) :
    returned (_cogl_pipeline_set_static_breadcrumb ctx p b) (groups_kept_but d ctx) := by
  unfold _cogl_pipeline_set_static_breadcrumb
  split
  · exact returned_none
  rename_i node hp
  exact returned_some (groups_kept_set hp rfl)

theorem init_multi_property_sparse_state_groups (fuel : Nat) (ctx : CoglContext)
    (p change : Nat) :
    returned (_cogl_pipeline_init_multi_property_sparse_state fuel ctx p change)
      (groups_kept_but p ctx) := by
  unfold _cogl_pipeline_init_multi_property_sparse_state
  refine returned_ite (fun _ => returned_some (groups_kept_refl p ctx)) (fun _ => ?_)
  refine returned_ite (fun _ => returned_some (groups_kept_refl p ctx)) (fun _ => ?_)
  split
  · exact returned_none
  split
  · exact returned_none
  repeat' first
    | exact returned_some (groups_kept_refl p ctx)
    | exact modify_pipeline_groups_at p ctx _
    | (apply returned_ite <;> intro _)

theorem pre_change_notify_takeover_groups (f : Nat) (ctx : CoglContext) (p change : Nat) :
    returned (pre_change_notify_takeover f ctx p change) (groups_kept_but p ctx) := by
  unfold pre_change_notify_takeover
  simp only [Option.bind_eq_bind]
  refine groups_bind (modify_pipeline_groups_at p ctx _) ?_
  intro c1 s1
  refine groups_bind (groups_step s1 (modify_pipeline_groups_at p c1 _)) ?_
  intro c2 s2
  refine returned_bind_any (fun node _ => ?_)
  refine groups_bind (returned_ite (fun _ => ?_) (fun _ => returned_some s2)) ?_
  · refine groups_bind (groups_step s2 (init_multi_property_sparse_state_groups f c2 p change)) ?_
    intro c3 s3
    exact groups_step s3 (modify_pipeline_groups_at p c3 _)
  intro c4 s4
  refine groups_bind (returned_ite
    (fun _ => groups_step s4 (recursively_free_layer_caches_groups p f c4 p))
    (fun _ => returned_some s4)) ?_
  intro c5 s5
  simp only [Option.pure_def]
  refine returned_some ?_
  split
  · exact groups_kept_trans s5 (groups_kept_of_eq rfl rfl)
  · exact s5

theorem object_ref_layer_groups (d : Nat) (ctx : CoglContext) (l : Nat) :
    returned (cogl_object_ref_layer ctx l) (groups_kept_but d ctx) := by
  unfold cogl_object_ref_layer
  split
  · exact returned_none
  rename_i node hl
  exact returned_some (groups_kept_set_layer hl rfl)

theorem object_unref_layer_groups (d : Nat) (ctx : CoglContext) (l : Nat) :
    returned (cogl_object_unref_layer ctx l) (groups_kept_but d ctx) := by
  unfold cogl_object_unref_layer
  split
  · exact returned_none
  rename_i node hl
  exact returned_some (groups_kept_set_layer hl rfl)

theorem layer_copy_groups (d : Nat) (ctx : CoglContext) (src : Nat) :
    returned (_cogl_pipeline_layer_copy ctx src) (fun r => groups_kept_but d ctx r.1) := by
  unfold _cogl_pipeline_layer_copy
  intro a ha
  split at ha
  · exact absurd ha (by simp)
  dsimp only at ha
  split at ha
  · exact absurd ha (by simp)
  rename_i c2 h2
  obtain ⟨u1, u2, u3⟩ := layer_set_parent_cores _ _ _ _ h2
  split at ha
  · exact absurd ha (by simp)
  rename_i c3 h3
  unfold CoglContext.modify_layer at h3
  split at h3
  · exact absurd h3 (by simp)
  rename_i created hcr
  rw [← Option.some.inj ha, ← Option.some.inj h3]
  refine ⟨?_, ?_, ?_, ?_⟩
  · show ctx.pipelines.length ≤ c2.pipelines.length
    rw [u1]
  · rw [length_set_layer, u2]
    simp
  · intro q _ _
    show (c2.pipeline q).map _ = _
    simp only [CoglContext.pipeline, u1]
  · intro L hL
    have hne : ctx.layers.length ≠ L := Nat.ne_of_gt hL
    rw [layer_set_layer_ne _ hne, u3 L (Ne.symm hne), layer_append_old _ hL]

/-- A step that keeps the tree and the groups, taken from a context that kept those
of `c0`. -/
theorem both_groups_step {d : Nat} {c0 c : CoglContext} {x : Option CoglContext}
    (hs : same_skeleton c0 c) (hk : groups_kept_but d c0 c)
    (h1 : returned x (same_skeleton c)) (h2 : returned x (groups_kept_but d c)) :
    returned x (fun c2 => same_skeleton c0 c2 ∧ groups_kept_but d c0 c2) :=
  returned_and (skeleton_step hs h1) (groups_step hk h2)

theorem both_groups_bind {d : Nat} {c0 : CoglContext} {x : Option CoglContext}
    {f : CoglContext → Option CoglContext}
    (hx : returned x (fun c => same_skeleton c0 c ∧ groups_kept_but d c0 c))
    (hf : ∀ c, same_skeleton c0 c → groups_kept_but d c0 c →
      returned (f c) (fun c2 => same_skeleton c0 c2 ∧ groups_kept_but d c0 c2)) :
    returned (x.bind f) (fun c2 => same_skeleton c0 c2 ∧ groups_kept_but d c0 c2) :=
  returned_bind hx (fun c h => hf c h.1 h.2)

theorem add_layer_difference_with_groups {notify : PreChangeNotify} {dest : Nat}
    (hn : ∀ c ch oc flc, (∀ l, c.links dest = some l → l.children = []) →
      returned (notify c dest ch oc flc)
        (fun c2 => same_skeleton c c2 ∧ groups_kept_but dest c c2))
    (ctx : CoglContext) (layer : Nat) (inc : Bool)
    (hch : ∀ l, ctx.links dest = some l → l.children = []) :
    returned (add_layer_difference_with notify ctx dest layer inc)
      (fun c2 => same_skeleton ctx c2 ∧ groups_kept_but dest ctx c2) := by
  unfold add_layer_difference_with
  simp only [Option.bind_eq_bind, Option.pure_def]
  refine returned_bind_any (fun l hl => ?_)
  refine returned_ite
    (fun _ => returned_some ⟨same_skeleton_refl ctx, groups_kept_refl dest ctx⟩) (fun _ => ?_)
  have s1 := set_layer_skeleton ctx layer { l with owner := some dest }
  have k1 : groups_kept_but dest ctx (ctx.set_layer layer { l with owner := some dest }) :=
    groups_kept_set_layer hl rfl
  refine both_groups_bind (both_groups_step s1 k1 (object_ref_layer_skeleton _ _)
    (object_ref_layer_groups dest _ _)) ?_
  intro c2 s2 k2
  refine both_groups_bind (returned_mono (hn c2 _ _ _ (leaf_of_skeleton s2 hch))
    (fun c h => ⟨same_skeleton_trans s2 h.1, groups_kept_trans k2 h.2⟩)) ?_
  intro c3 s3 k3
  exact both_groups_step s3 k3 (modify_pipeline_skeleton c3 dest (fun _ => rfl))
    (modify_pipeline_groups_at dest c3 _)

theorem update_blend_enable_with_groups {notify : PreChangeNotify} {dest : Nat}
    (hn : ∀ c ch oc flc, (∀ l, c.links dest = some l → l.children = []) →
      returned (notify c dest ch oc flc)
        (fun c2 => same_skeleton c c2 ∧ groups_kept_but dest c c2))
    (fuel : Nat) (ctx : CoglContext) (change : Nat)
    (hch : ∀ l, ctx.links dest = some l → l.children = []) :
    returned (update_blend_enable_with notify fuel ctx dest change)
      (fun c2 => same_skeleton ctx c2 ∧ groups_kept_but dest ctx c2) := by
  unfold update_blend_enable_with
  simp only [Option.bind_eq_bind, Option.pure_def]
  refine returned_bind_any (fun r hr => ?_)
  obtain ⟨c1, blend_enable⟩ := r
  have hc := needs_blending_enabled_caches fuel ctx dest change none c1 blend_enable hr
  have s1 := same_but_caches_skeleton hc
  have k1 : groups_kept_but dest ctx c1 := same_but_caches_groups hc
  dsimp only
  refine returned_bind_any (fun node _ => ?_)
  refine returned_ite (fun _ => ?_) (fun _ => returned_some ⟨s1, k1⟩)
  refine both_groups_bind (returned_mono (hn c1 _ _ _ (leaf_of_skeleton s1 hch))
    (fun c h => ⟨same_skeleton_trans s1 h.1, groups_kept_trans k1 h.2⟩)) ?_
  intro c2 s2 k2
  exact both_groups_step s2 k2 (modify_pipeline_skeleton c2 dest (fun _ => rfl))
    (modify_pipeline_groups_at dest c2 _)

theorem copy_big_state_differences_groups (ctx : CoglContext) (dest src differences : Nat) :
    returned (copy_big_state_differences ctx dest src differences)
      (groups_kept_but dest ctx) := by
  unfold copy_big_state_differences
  refine returned_ite (fun _ => returned_some (groups_kept_refl dest ctx)) (fun _ => ?_)
  split
  · exact returned_none
  exact modify_pipeline_groups_at dest ctx _

theorem copy_differences_with_groups {notify : PreChangeNotify} {dest : Nat}
    (hn : ∀ c ch oc flc, (∀ l, c.links dest = some l → l.children = []) →
      returned (notify c dest ch oc flc)
        (fun c2 => same_skeleton c c2 ∧ groups_kept_but dest c c2))
    (fuel : Nat) (ctx : CoglContext) (src differences : Nat)
    (hch : ∀ l, ctx.links dest = some l → l.children = []) :
    returned (copy_differences_with notify fuel ctx dest src differences)
      (fun c2 => same_skeleton ctx c2 ∧ groups_kept_but dest ctx c2) := by
  have r0 : same_skeleton ctx ctx ∧ groups_kept_but dest ctx ctx :=
    ⟨same_skeleton_refl ctx, groups_kept_refl dest ctx⟩
  unfold copy_differences_with
  simp only [Option.bind_eq_bind]
  refine returned_bind_any (fun s _ => ?_)
  refine both_groups_bind (returned_ite
    (fun _ => both_groups_step r0.1 r0.2 (modify_pipeline_skeleton ctx dest (fun _ => rfl))
      (modify_pipeline_groups_at dest ctx _))
    (fun _ => returned_some r0)) ?_
  intro c1 s1 k1
  refine both_groups_bind (returned_ite
    (fun _ => both_groups_step s1 k1 (modify_pipeline_skeleton c1 dest (fun _ => rfl))
      (modify_pipeline_groups_at dest c1 _))
    (fun _ => returned_some ⟨s1, k1⟩)) ?_
  intro c2 s2 k2
  refine both_groups_bind (returned_ite (fun _ => ?_) (fun _ => returned_some ⟨s2, k2⟩)) ?_
  · refine returned_bind_any (fun d _ => ?_)
    refine both_groups_bind (returned_ite (fun _ => ?_) (fun _ => returned_some ⟨s2, k2⟩)) ?_
    · exact @returned_foldlM _ _ _ (fun c => same_skeleton ctx c ∧ groups_kept_but dest ctx c)
        (fun c l hs => both_groups_step hs.1 hs.2 (object_unref_layer_skeleton c l)
          (object_unref_layer_groups dest c l)) _ _ ⟨s2, k2⟩
    intro c3 s3 k3
    refine returned_bind_any (fun s1 _ => ?_)
    refine both_groups_bind ?_ ?_
    · refine @returned_foldlM _ _ _
        (fun c => same_skeleton ctx c ∧ groups_kept_but dest ctx c)
        (fun c l hs => ?_) _ _ ⟨s3, k3⟩
      refine returned_bind_any (fun r hr => ?_)
      obtain ⟨ca, copy⟩ := r
      have sa : same_skeleton ctx ca := same_skeleton_trans hs.1 (layer_copy_skeleton c l _ hr)
      have ka : groups_kept_but dest ctx ca :=
        groups_kept_trans hs.2 (layer_copy_groups dest c l _ hr)
      dsimp only
      refine both_groups_bind (returned_mono (add_layer_difference_with_groups hn ca copy false
        (leaf_of_skeleton sa hch))
        (fun c h => ⟨same_skeleton_trans sa h.1, groups_kept_trans ka h.2⟩)) ?_
      intro cb sb kb
      exact both_groups_step sb kb (object_unref_layer_skeleton cb copy)
        (object_unref_layer_groups dest cb copy)
    intro c4 s4 k4
    refine returned_bind_any (fun s2 _ => ?_)
    exact both_groups_step s4 k4 (modify_pipeline_skeleton c4 dest (fun _ => rfl))
      (modify_pipeline_groups_at dest c4 _)
  intro c5 s5 k5
  refine both_groups_bind (both_groups_step s5 k5 (copy_big_state_differences_skeleton c5 dest src _)
    (copy_big_state_differences_groups c5 dest src _)) ?_
  intro c6 s6 k6
  refine both_groups_bind (returned_ite
    (fun _ => returned_mono (update_blend_enable_with_groups hn fuel c6 differences
      (leaf_of_skeleton s6 hch))
      (fun c h => ⟨same_skeleton_trans s6 h.1, groups_kept_trans k6 h.2⟩))
    (fun _ => returned_some ⟨s6, k6⟩)) ?_
  intro c7 s7 k7
  exact both_groups_step s7 k7 (modify_pipeline_skeleton c7 dest (fun _ => rfl))
    (modify_pipeline_groups_at dest c7 _)

/-- The copy-on-write block of `_cogl_pipeline_pre_change_notify` keeps the group
state of the pipelines it finds and the layers. -/
theorem copy_on_write_groups {notify : PreChangeNotify} (d fuel p : Nat) (c3 : CoglContext)
    (hn : ∀ dest c ch oc flc, (∀ l, c.links dest = some l → l.children = []) →
      returned (notify c dest ch oc flc)
        (fun c2 => same_skeleton c c2 ∧ groups_kept_but dest c c2)) :
    returned (pre_change_notify_copy_on_write notify fuel c3 p)
      (fun r => groups_kept_but d c3 r.1) := by
  intro r h
  unfold pre_change_notify_copy_on_write at h
  simp only [Option.bind_eq_bind, Option.pure_def] at h
  obtain ⟨node, hnode, h⟩ := Option.bind_eq_some.mp h
  obtain ⟨parent, hparent, h⟩ := Option.bind_eq_some.mp h
  obtain ⟨r1, hcopy, h⟩ := Option.bind_eq_some.mp h
  obtain ⟨c1, np⟩ := r1
  dsimp only at h
  obtain ⟨c2, hbread, h⟩ := Option.bind_eq_some.mp h
  obtain ⟨n2, hn2, h⟩ := Option.bind_eq_some.mp h
  obtain ⟨c3b, hdiff, h⟩ := Option.bind_eq_some.mp h
  obtain ⟨c4, hfold, h⟩ := Option.bind_eq_some.mp h
  obtain ⟨c6, hunref, h⟩ := Option.bind_eq_some.mp h
  rw [← Option.some.inj h]
  unfold cogl_pipeline_copy at hcopy
  obtain ⟨hnp, ls, hls⟩ := pipeline_copy_fresh hcopy
  obtain ⟨-, j2, -, -, -, -⟩ := pipeline_copy_links hls hcopy
  have k1 : groups_kept_but np c3 c1 := pipeline_copy_groups np fuel c3 parent false _ hcopy
  have s2 : same_skeleton c1 c2 := set_static_breadcrumb_skeleton _ _ _ _ hbread
  have k2 := groups_kept_trans k1 (set_static_breadcrumb_groups np _ _ _ _ hbread)
  have hleaf2 : ∀ l, c2.links np = some l → l.children = [] := by
    intro l hl
    rw [s2.1, j2] at hl
    rw [← Option.some.inj hl]
  have k3 := groups_kept_trans k2
    (copy_differences_with_groups (hn np) fuel c2 p _ hleaf2 _ hdiff).2
  have k4 : groups_kept_but np c3 c4 := by
    unfold _cogl_pipeline_node_foreach_child at hfold
    split at hfold
    · exact absurd hfold (by simp)
    exact returned_foldlM (fun s y hs => groups_step hs (set_parent_groups np fuel s y np true))
      _ _ k3 _ hfold
  have k5 := groups_kept_trans k4 (object_unref_groups np _ _ _ hunref)
  exact groups_kept_of_fresh (Nat.le_of_eq hnp.symm) k5

theorem pre_change_notify_with_leaf_groups (notify : PreChangeNotify) (f : Nat)
    (ctx : CoglContext) (p change : Nat) (oc : Option CoglColor) (flc : Bool)
    (hch : ∀ l, ctx.links p = some l → l.children = []) :
    returned (pre_change_notify_with notify f ctx p change oc flc)
      (groups_kept_but p ctx) := by
  intro c h
  unfold pre_change_notify_with at h
  simp only [Option.bind_eq_bind] at h
  obtain ⟨c1, hj, h⟩ := Option.bind_eq_some.mp h
  obtain ⟨c2, hb, h⟩ := Option.bind_eq_some.mp h
  obtain ⟨c3, hd, h⟩ := Option.bind_eq_some.mp h
  obtain ⟨node3, hn3, h⟩ := Option.bind_eq_some.mp h
  obtain ⟨c5, hcow, h⟩ := Option.bind_eq_some.mp h
  have s12 : same_skeleton ctx c2 := same_skeleton_trans
    (pre_change_notify_journal_skeleton _ _ _ _ _ c1 hj)
    (pre_change_notify_backends_skeleton _ _ _ _ c2 hb)
  have k12 : groups_kept_but p ctx c2 := groups_kept_trans
    (pre_change_notify_journal_groups p _ _ _ _ _ c1 hj)
    (pre_change_notify_backends_groups p _ _ _ _ c2 hb)
  have h32 : c3 = c2 := by
    unfold _cogl_pipeline_node_foreach_child at hd
    split at hd
    · exact absurd hd (by simp)
    rename_i node hp
    rw [links_children_of_skeleton s12 hch hp] at hd
    exact (Option.some.inj hd).symm
  subst h32
  rw [links_children_of_skeleton s12 hch hn3] at hcow
  simp only [ne_eq, not_true_eq_false, if_false, Option.some.injEq] at hcow
  subst hcow
  exact groups_kept_trans k12 (pre_change_notify_takeover_groups _ _ _ _ c h)

theorem pre_change_notify_leaf_both_groups (fuel : Nat) (ctx : CoglContext)
    (p change : Nat) (oc : Option CoglColor) (flc : Bool)
    (hch : ∀ l, ctx.links p = some l → l.children = []) :
    returned (_cogl_pipeline_pre_change_notify fuel ctx p change oc flc)
      (fun c2 => same_skeleton ctx c2 ∧ groups_kept_but p ctx c2) := by
  cases fuel with
  | zero => exact returned_none
  | succ k =>
    exact returned_and (pre_change_notify_with_leaf _ k ctx p change oc flc hch)
      (pre_change_notify_with_leaf_groups _ k ctx p change oc flc hch)

/-- The function `_cogl_pipeline_pre_change_notify` keeps the group state of every
pipeline but the one it is called on, and the layers. -/
theorem pre_change_notify_groups (fuel : Nat) (ctx : CoglContext) (p change : Nat)
    (oc : Option CoglColor) (flc : Bool) :
    returned (_cogl_pipeline_pre_change_notify fuel ctx p change oc flc)
      (groups_kept_but p ctx) := by
  cases fuel with
  | zero => exact returned_none
  | succ f =>
    intro c h
    rw [_cogl_pipeline_pre_change_notify] at h
    unfold pre_change_notify_with at h
    simp only [Option.bind_eq_bind] at h
    obtain ⟨c1, hj, h⟩ := Option.bind_eq_some.mp h
    obtain ⟨c2, hb, h⟩ := Option.bind_eq_some.mp h
    obtain ⟨c3, hd, h⟩ := Option.bind_eq_some.mp h
    obtain ⟨node3, hn3, h⟩ := Option.bind_eq_some.mp h
    obtain ⟨c5, hcow, h⟩ := Option.bind_eq_some.mp h
    have k12 : groups_kept_but p ctx c2 := groups_kept_trans
      (pre_change_notify_journal_groups p _ _ _ _ _ c1 hj)
      (pre_change_notify_backends_groups p _ _ _ _ c2 hb)
    have k3 : groups_kept_but p ctx c3 := by
      unfold _cogl_pipeline_node_foreach_child at hd
      split at hd
      · exact absurd hd (by simp)
      exact returned_foldlM (fun s y hs => groups_step hs (destroy_weak_children_groups p f s y))
        _ _ k12 _ hd
    have k5 : groups_kept_but p ctx c5 := by
      split at hcow
      · obtain ⟨r, hr, hr1⟩ := Option.map_eq_some'.mp hcow
        rw [← hr1]
        exact groups_kept_trans k3 (copy_on_write_groups p f p c3
          (fun dest c ch oc flc hl => pre_change_notify_leaf_both_groups f c dest ch oc flc hl) r hr)
      · rw [← Option.some.inj hcow]
        exact k3
    exact groups_kept_trans k5 (pre_change_notify_takeover_groups _ _ _ _ c h)

/-- The steps of `_cogl_pipeline_pre_change_notify` before its tail: they keep the
group state of every pipeline, the one that is changed included, and the tail
keeps the tree. -/
theorem pre_change_notify_split_groups {f p change : Nat} {ctx c : CoglContext}
    {oc : Option CoglColor} {flc : Bool}
    (h : _cogl_pipeline_pre_change_notify (f + 1) ctx p change oc flc = some c) :
    ∃ c5, (∀ d, groups_kept_but d ctx c5) ∧ same_skeleton c5 c ∧
      pre_change_notify_takeover f c5 p change = some c := by
  rw [_cogl_pipeline_pre_change_notify] at h
  unfold pre_change_notify_with at h
  simp only [Option.bind_eq_bind] at h
  obtain ⟨c1, hj, h⟩ := Option.bind_eq_some.mp h
  obtain ⟨c2, hb, h⟩ := Option.bind_eq_some.mp h
  obtain ⟨c3, hd, h⟩ := Option.bind_eq_some.mp h
  obtain ⟨node3, hn3, h⟩ := Option.bind_eq_some.mp h
  obtain ⟨c5, hcow, h⟩ := Option.bind_eq_some.mp h
  refine ⟨c5, ?_, pre_change_notify_takeover_skeleton _ _ _ _ c h, h⟩
  intro d
  have k12 : groups_kept_but d ctx c2 := groups_kept_trans
    (pre_change_notify_journal_groups d _ _ _ _ _ c1 hj)
    (pre_change_notify_backends_groups d _ _ _ _ c2 hb)
  have k3 : groups_kept_but d ctx c3 := by
    unfold _cogl_pipeline_node_foreach_child at hd
    split at hd
    · exact absurd hd (by simp)
    exact returned_foldlM (fun s y hs => groups_step hs (destroy_weak_children_groups d f s y))
      _ _ k12 _ hd
  split at hcow
  · obtain ⟨r, hr, hr1⟩ := Option.map_eq_some'.mp hcow
    rw [← hr1]
    exact groups_kept_trans k3 (copy_on_write_groups d f p c3
      (fun dest c ch oc flc hl => pre_change_notify_leaf_both_groups f c dest ch oc flc hl) r hr)
  · rw [← Option.some.inj hcow]
    exact k3

theorem pipeline_get_authority_asserts {ctx : CoglContext} {g : Nat} :
    ∀ (f p a : Nat), _cogl_pipeline_get_authority ctx f p g = some a →
      ∃ an, ctx.pipeline a = some an ∧ an.differences &&& g ≠ 0 := by
  intro f
  induction f with
  | zero => intro p a h; exact absurd h (by simp [_cogl_pipeline_get_authority])
  | succ k ih =>
    intro p a h
    unfold _cogl_pipeline_get_authority at h
    split at h
    · exact absurd h (by simp)
    rename_i node hp
    split at h
    · rename_i hd
      rw [← Option.some.inj h]
      exact ⟨node, hp, hd⟩
    split at h
    · exact absurd h (by simp)
    exact ih _ a h

theorem sparse_state_groups_eq :
    sparse_state_groups = [1, 2, 4, 8, 16, 32, 64, 128, 256, 512, 1024, 2048, 4096] := by
  decide

theorem stored_group_congr {m n : CoglPipeline} (h : m.group_state = n.group_state) (G : Nat) :
    m.stored_group G = n.stored_group G := by
  simp only [CoglPipeline.group_state, Prod.mk.injEq] at h
  obtain ⟨-, hc, hb, hbig, -, hl, hn⟩ := h
  unfold CoglPipeline.stored_group
  rw [hc, hb, hbig, hl, hn]

theorem mask_or_bit_of_and {x i : Nat} (h : x &&& (1 <<< i) ≠ 0) : x ||| (1 <<< i) = x := by
  have hb := (and_bit_ne_zero x i).mp h
  apply Nat.eq_of_testBit_eq
  intro j
  rw [Nat.testBit_or, Nat.one_shiftLeft, Nat.testBit_two_pow]
  by_cases hij : i = j
  · subst hij
    simp [hb]
  · simp [hij]

theorem sparse_group_bit {G : Nat} (hG : G ∈ sparse_state_groups) : ∃ i, G = 1 <<< i := by
  unfold sparse_state_groups at hG
  obtain ⟨i, -, hi⟩ := List.mem_map.mp hG
  exact ⟨i, hi.symm⟩

/-- What `_cogl_pipeline_init_multi_property_sparse_state` leaves on a pipeline that
does not assert the single group `G`: the differences and the parent are kept, and
for a group of several properties the fields of the group are those of the
authority (for `LAYERS` the count, with an empty list). -/
theorem init_multi_property_sparse_state_spec {f p G : Nat} {c2 ci : CoglContext}
    {nodeB : CoglPipeline}
    (hG : G = 1 ∨ G = 2 ∨ G = 4 ∨ G = 8 ∨ G = 16 ∨ G = 32 ∨ G = 64 ∨ G = 128 ∨ G = 256 ∨
      G = 512 ∨ G = 1024 ∨ G = 2048 ∨ G = 4096)
    (hpB : c2.pipeline p = some nodeB)
    (h : _cogl_pipeline_init_multi_property_sparse_state f c2 p G = some ci) :
    ∃ nodeI, ci.pipeline p = some nodeI ∧ nodeI.differences = nodeB.differences ∧
      nodeI.parent = nodeB.parent ∧
      (G &&& COGL_PIPELINE_STATE_MULTI_PROPERTY ≠ 0 →
        ∃ A a, _cogl_pipeline_get_authority c2 f p G = some A ∧ c2.pipeline A = some a ∧
          (if G = COGL_PIPELINE_STATE_LAYERS
           then nodeI.n_layers = a.n_layers ∧ nodeI.layer_differences = []
           else nodeI.stored_group G = a.stored_group G)) := by
  unfold _cogl_pipeline_init_multi_property_sparse_state at h
  rcases hG with rfl | rfl | rfl | rfl | rfl | rfl | rfl | rfl | rfl | rfl | rfl | rfl | rfl
  all_goals first
    | (rw [if_neg (by decide), if_pos (by decide)] at h
       exact ⟨nodeB, by rw [← Option.some.inj h]; exact hpB, rfl, rfl,
         fun hm => absurd hm (by decide)⟩)
    | (rw [if_neg (by decide), if_neg (by decide)] at h
       split at h
       · exact absurd h (by simp)
       rename_i A hA
       split at h
       · exact absurd h (by simp)
       rename_i a ha
       repeat (first | rw [if_pos (by decide)] at h | rw [if_neg (by decide)] at h)
       rw [modify_pipeline_some hpB] at h
       have hci := Option.some.inj h
       subst hci
       refine ⟨_, pipeline_set_pipeline_self hpB _, rfl, rfl, fun _ => ⟨A, a, hA, ha, ?_⟩⟩
       first
         | (rw [if_pos (by decide)]; exact ⟨rfl, rfl⟩)
         | (rw [if_neg (by decide)]; rfl))

theorem takeover_group {f p G : Nat} {c5 c : CoglContext} {node : CoglPipeline}
    (hG : G ∈ sparse_state_groups) (hp : c5.pipeline p = some node)
    (h : pre_change_notify_takeover f c5 p G = some c) :
    ∃ node2, c.pipeline p = some node2 ∧ node2.differences = node.differences ||| G ∧
      node2.parent = node.parent ∧
      (node.differences &&& G ≠ 0 →
        (G &&& COGL_PIPELINE_STATE_NEEDS_BIG_STATE ≠ 0 → node.has_big_state = true) →
        node2.stored_group G = node.stored_group G) ∧
      (node.differences &&& G = 0 → G &&& COGL_PIPELINE_STATE_MULTI_PROPERTY ≠ 0 →
        ∃ A a, _cogl_pipeline_get_authority c5 f p G = some A ∧ c5.pipeline A = some a ∧
          (if G = COGL_PIPELINE_STATE_LAYERS
           then node2.n_layers = a.n_layers ∧ node2.layer_differences = []
           else node2.stored_group G = a.stored_group G)) := by
  have hG0 := hG
  rw [sparse_state_groups_eq] at hG
  simp only [List.mem_cons, List.mem_singleton, List.not_mem_nil, or_false] at hG
  have hs : G &&& COGL_PIPELINE_STATE_ALL_SPARSE ≠ 0 := by
    rcases hG with rfl | rfl | rfl | rfl | rfl | rfl | rfl | rfl | rfl | rfl | rfl | rfl | rfl <;>
      decide
  unfold pre_change_notify_takeover at h
  simp only [Option.bind_eq_bind, Option.pure_def] at h
  obtain ⟨c1, h1, hsa⟩ := Option.bind_eq_some.mp h
  obtain ⟨c2, h2, hsb⟩ := Option.bind_eq_some.mp hsa
  obtain ⟨nodeB, hB, hsc⟩ := Option.bind_eq_some.mp hsb
  obtain ⟨c3, h3, hsd⟩ := Option.bind_eq_some.mp hsc
  obtain ⟨c4, h4, hfin⟩ := Option.bind_eq_some.mp hsd
  clear h hsa hsb hsc hsd
  rw [modify_pipeline_some hp] at h1
  have e1 := Option.some.inj h1
  subst e1
  rw [modify_pipeline_some (pipeline_set_pipeline_self hp _), set_pipeline_set_pipeline] at h2
  have e2 := Option.some.inj h2
  subst e2
  rw [pipeline_set_pipeline_self hp] at hB
  have eB := Option.some.inj hB
  rw [eB] at h3
  clear h1 h2 hB
  have hBd : nodeB.differences = node.differences := by
    rw [← eB]; split <;> rfl
  have hBp : nodeB.parent = node.parent := by
    rw [← eB]; split <;> rfl
  have hBg : (G &&& COGL_PIPELINE_STATE_NEEDS_BIG_STATE ≠ 0 → node.has_big_state = true) →
      nodeB.group_state = node.group_state := by
    intro hb
    rw [← eB]
    split
    · rename_i hc
      have := hb hc.1
      rw [this] at hc
      exact absurd hc.2 (by decide)
    · rfl
  have hc4 : c.pipeline p = c4.pipeline p := by
    rw [← Option.some.inj hfin]
    split <;> rfl
  have hpB : (c5.set_pipeline p nodeB).pipeline p = some nodeB := pipeline_set_pipeline_self hp _
  have hfree : ∀ nodeC, c3.pipeline p = some nodeC →
      ∃ node2, c.pipeline p = some node2 ∧ node2.differences = nodeC.differences ∧
        node2.parent = nodeC.parent ∧ node2.group_state = nodeC.group_state := by
    intro nodeC hC
    by_cases hl : G = COGL_PIPELINE_STATE_LAYERS
    · rw [if_pos hl] at h4
      exact ⟨_, hc4.trans (recursively_free_layer_caches_marks hC h4), rfl, rfl, rfl⟩
    · rw [if_neg hl] at h4
      rw [← Option.some.inj h4] at hc4
      exact ⟨nodeC, hc4.trans hC, rfl, rfl, rfl⟩
  by_cases hhad : nodeB.differences &&& G = 0
  · rw [if_pos ⟨hs, hhad⟩] at h3
    obtain ⟨ci, hinit, hmod⟩ := Option.bind_eq_some.mp h3
    obtain ⟨nodeI, hI, hId, hIp, hImulti⟩ := init_multi_property_sparse_state_spec hG hpB hinit
    rw [modify_pipeline_some hI] at hmod
    have hC : c3.pipeline p = some { nodeI with differences := nodeI.differences ||| G } := by
      rw [← Option.some.inj hmod]
      exact pipeline_set_pipeline_self hI _
    obtain ⟨node2, hn2, hd2, hp2, hg2⟩ := hfree _ hC
    have hd0 : node.differences &&& G = 0 := by rw [← hBd]; exact hhad
    refine ⟨node2, hn2, ?_, ?_, fun hne => absurd hd0 hne, ?_⟩
    · rw [hd2, ← hBd, ← hId]
    · rw [hp2, ← hBp, ← hIp]
    · intro _ hm
      obtain ⟨A, a, hA, ha, hgroup⟩ := hImulti hm
      obtain ⟨an, han, hasserts⟩ := pipeline_get_authority_asserts _ _ _ hA
      have hAp : p ≠ A := by
        intro hpa
        rw [← hpa, hpB] at han
        rw [← Option.some.inj han] at hasserts
        exact hasserts hhad
      rw [get_authority_set_same hp hBd hBp] at hA
      rw [pipeline_set_pipeline_ne _ hAp] at ha
      refine ⟨A, a, hA, ha, ?_⟩
      simp only [CoglPipeline.group_state, Prod.mk.injEq] at hg2
      split
      · rename_i hl
        rw [if_pos hl] at hgroup
        rw [hg2.2.2.2.2.2.2, hg2.2.2.2.2.2.1]
        exact hgroup
      · rename_i hl
        rw [if_neg hl] at hgroup
        rw [← hgroup]
        have e : node2.group_state =
            ({ nodeI with differences := nodeI.differences ||| G } : CoglPipeline).group_state := by
          simp only [CoglPipeline.group_state, Prod.mk.injEq]
          exact hg2
        refine (stored_group_congr e G).trans ?_
        rfl
  · rw [if_neg (fun hx => hhad hx.2)] at h3
    rw [← Option.some.inj h3] at hfree
    obtain ⟨node2, hn2, hd2, hp2, hg2⟩ := hfree nodeB hpB
    refine ⟨node2, hn2, ?_, hp2.trans hBp, ?_, ?_⟩
    · rw [hd2, hBd]
      obtain ⟨i, rfl⟩ := sparse_group_bit hG0
      rw [← hBd]
      exact (mask_or_bit_of_and hhad).symm
    · intro _ hb
      exact stored_group_congr (hg2.trans (hBg hb)) G
    · intro h0
      rw [hBd] at hhad
      exact absurd h0 hhad

theorem groups_of_kept {d : Nat} {ctx c : CoglContext} (hk : groups_kept_but d ctx c)
    {q : Nat} {node : CoglPipeline} (hq : ctx.pipeline q = some node) (hqd : q ≠ d) :
    ∃ node2, c.pipeline q = some node2 ∧ node2.group_state = node.group_state := by
  have h3 := hk.2.2.1 q (pipeline_lt_length hq) hqd
  rw [hq] at h3
  cases hc : c.pipeline q with
  | none => rw [hc] at h3; exact absurd h3 (by simp)
  | some node2 =>
    rw [hc] at h3
    exact ⟨node2, rfl, Option.some.inj h3⟩

theorem differences_of_group_state {m n : CoglPipeline} (h : m.group_state = n.group_state) :
    m.differences = n.differences := by
  simp only [CoglPipeline.group_state, Prod.mk.injEq] at h
  exact h.1

/-- What `_cogl_pipeline_pre_change_notify (p, change)` does before its tail, seen
from the chain above `p`: the state groups of every pipeline are kept, and so are
the parents and the differences along the chain. -/
theorem pre_change_notify_chain {fuel f : Nat} {ctx c : CoglContext} {p change : Nat}
    {oc : Option CoglColor} {flc : Bool} {path ids : List Nat}
    (hpath : pipeline_path ctx p path)
    (htree : subtree_post ctx (f + 1) p = some ids) (hnd : ids.Nodup)
    (hcons : links_consistent ctx ids) (hanc : ∀ z ∈ path, z ≠ p → z ∉ ids)
    (h : _cogl_pipeline_pre_change_notify (fuel + 1) ctx p change oc flc = some c) :
    ∃ c5, pre_change_notify_takeover fuel c5 p change = some c ∧
      (∀ q n, ctx.pipeline q = some n →
        ∃ n5, c5.pipeline q = some n5 ∧ n5.group_state = n.group_state) ∧
      (∀ m ∈ path, pipeline_view c5 m = pipeline_view ctx m) := by
  obtain ⟨rest, hrest⟩ := node_path_head hpath
  have hpmem : p ∈ path := by rw [hrest]; exact List.mem_cons_self _ _
  obtain ⟨node, hp⟩ := pipeline_of_mem_path hpath hpmem
  have hndpath : path.Nodup := node_path_nodup path p hpath
  have hparent : ∀ par, node.parent = some par → par ∈ path ∧ par ≠ p := by
    intro par hpar
    cases rest with
    | nil =>
      rw [hrest] at hpath
      simp only [pipeline_path, node_path] at hpath
      obtain ⟨n0, hn0, hpar0⟩ := pipeline_view_parent hpath.2
      rw [hp] at hn0
      rw [← Option.some.inj hn0, hpar] at hpar0
      exact absurd hpar0 (by simp)
    | cons b rest2 =>
      have hpath2 := hpath
      rw [hrest] at hpath2
      simp only [pipeline_path, node_path] at hpath2
      obtain ⟨n0, hn0, hpar0⟩ := pipeline_view_parent hpath2.2.1
      rw [hp] at hn0
      rw [← Option.some.inj hn0, hpar] at hpar0
      obtain rfl := Option.some.inj hpar0
      rw [hrest] at hndpath ⊢
      refine ⟨by simp, ?_⟩
      intro hbp
      rw [hbp] at hndpath
      exact absurd hndpath (by simp)
  have hout : ∀ lp par, ctx.links p = some lp → lp.parent = some par → par ∉ ids := by
    intro lp par hlp hpar
    rw [links_of_pipeline hp] at hlp
    rw [← Option.some.inj hlp] at hpar
    obtain ⟨h1, h2⟩ := hparent par hpar
    exact hanc par h1 h2
  obtain ⟨lp, below, hlp, hids, -, -, hweak, hp2links, -, hnostrong, hstrong⟩ :=
    pre_change_notify_tree htree hnd hcons hout h
  have hparents : ∀ z ∈ path,
      (c.links z).map (fun l => l.parent) = (ctx.links z).map (fun l => l.parent) := by
    intro z hz
    by_cases hzp : z = p
    · rw [hzp, hp2links, hlp]
      rfl
    · have hzids : z ∉ ids := hanc z hz hzp
      by_cases hs : strong_children ctx (fuel - 1) lp.children = []
      · rw [(hnostrong hs).2 z (fun hw => hzids (by
          rw [hids]
          exact List.mem_append_left _ (hweak z hw).1)) hzp]
      · obtain ⟨par, hpar, -, -, hparlinks, -, hothers⟩ := hstrong hs
        by_cases hzpar : z = par
        · rw [hzpar, hparlinks]
          cases ctx.links par <;> rfl
        · obtain ⟨zn, hzn⟩ := pipeline_of_mem_path hpath hz
          rw [hothers z hzids (Nat.ne_of_lt (pipeline_lt_length hzn)) hzpar]
  obtain ⟨c5, hk5, s5, htake⟩ := pre_change_notify_split_groups h
  refine ⟨c5, htake, fun q n hq => groups_of_kept (hk5 (q + 1)) hq (by omega), ?_⟩
  intro m hm
  obtain ⟨r, hr⟩ := pipeline_of_mem_path hpath hm
  obtain ⟨r5, hr5, hrg⟩ := groups_of_kept (hk5 (m + 1)) hr (by omega)
  have hpar5 : r5.parent = r.parent := by
    have h1 := hparents m hm
    rw [s5.1 m, links_of_pipeline hr5, links_of_pipeline hr] at h1
    exact Option.some.inj h1
  unfold pipeline_view
  rw [hr5, hr]
  simp only [Option.map_some', differences_of_group_state hrg, hpar5]

/-- After `_cogl_pipeline_pre_change_notify (p, G)` for a single sparse group `G`, on
a pipeline whose subtree is a tree that its chain to the root does not enter: the
differences of `p` are those it had with `G` added; a group that `p` asserted is
stored as it was (given a big state when `G` lives there); a group of several
properties that `p` did not assert holds what the authority of `p` held (for
`LAYERS` the count, and no layer of its own). -/
theorem pre_change_notify_group_post {fuel f F : Nat} {ctx c : CoglContext} {p G : Nat}
    {oc : Option CoglColor} {flc : Bool} {node : CoglPipeline} {path ids : List Nat}
    (hG : G ∈ sparse_state_groups) (hp : ctx.pipeline p = some node)
    (hpath : pipeline_path ctx p path)
    (htree : subtree_post ctx (f + 1) p = some ids) (hnd : ids.Nodup)
    (hcons : links_consistent ctx ids) (hanc : ∀ z ∈ path, z ≠ p → z ∉ ids)
    (h : _cogl_pipeline_pre_change_notify (fuel + 1) ctx p G oc flc = some c) :
    ∃ node2, c.pipeline p = some node2 ∧ node2.differences = node.differences ||| G ∧
      (node.differences &&& G ≠ 0 →
        (G &&& COGL_PIPELINE_STATE_NEEDS_BIG_STATE ≠ 0 → node.has_big_state = true) →
        node2.stored_group G = node.stored_group G) ∧
      (node.differences &&& G = 0 → G &&& COGL_PIPELINE_STATE_MULTI_PROPERTY ≠ 0 →
        ∀ A a, _cogl_pipeline_get_authority ctx F p G = some A → ctx.pipeline A = some a →
          if G = COGL_PIPELINE_STATE_LAYERS
          then node2.n_layers = a.n_layers ∧ node2.layer_differences = []
          else node2.stored_group G = a.stored_group G) := by
  obtain ⟨c5, htake, hgroups, hviews⟩ := pre_change_notify_chain hpath htree hnd hcons hanc h
  obtain ⟨node5, hp5, hg5⟩ := hgroups p node hp
  have hd5 := differences_of_group_state hg5
  have hb5 : node5.has_big_state = node.has_big_state := by
    simp only [CoglPipeline.group_state, Prod.mk.injEq] at hg5
    exact hg5.2.2.2.2.1
  obtain ⟨node2, hn2, hd2, -, hhad, hnot⟩ := takeover_group hG hp5 htake
  refine ⟨node2, hn2, by rw [hd2, hd5], ?_, ?_⟩
  · intro hne hbig
    rw [← hd5] at hne
    rw [hhad hne (fun hb => by rw [hb5]; exact hbig hb)]
    exact stored_group_congr hg5 G
  · intro h0 hm A a hA ha
    rw [← hd5] at h0
    obtain ⟨A5, a5, hA5, ha5, hgroup⟩ := hnot h0 hm
    have hw : _cogl_pipeline_get_authority c5 fuel p G =
        _cogl_pipeline_get_authority ctx fuel p G := by
      rw [pipeline_get_authority_eq, pipeline_get_authority_eq]
      exact node_get_authority_congr _ path p fuel hviews hpath
    rw [hw] at hA5
    have e1 := pipeline_get_authority_mono ctx _ _ _ _ hA5 (max fuel F) (Nat.le_max_left _ _)
    have e2 := pipeline_get_authority_mono ctx _ _ _ _ hA (max fuel F) (Nat.le_max_right _ _)
    rw [e1] at e2
    obtain rfl := Option.some.inj e2
    obtain ⟨a5b, ha5b, hga⟩ := hgroups A5 a ha
    rw [ha5] at ha5b
    obtain rfl := Option.some.inj ha5b
    split
    · rename_i hl
      rw [if_pos hl] at hgroup
      simp only [CoglPipeline.group_state, Prod.mk.injEq] at hga
      rw [← hga.2.2.2.2.2.2]
      exact hgroup
    · rename_i hl
      rw [if_neg hl] at hgroup
      rw [hgroup]
      exact stored_group_congr hga G

theorem init_multi_property_sparse_state_total {f p G : Nat} {c2 : CoglContext}
    {nodeB : CoglPipeline}
    (hG : G = 1 ∨ G = 2 ∨ G = 4 ∨ G = 8 ∨ G = 16 ∨ G = 32 ∨ G = 64 ∨ G = 128 ∨ G = 256 ∨
      G = 512 ∨ G = 1024 ∨ G = 2048 ∨ G = 4096)
    (hpB : c2.pipeline p = some nodeB)
    (hauth : ∃ a, _cogl_pipeline_get_authority c2 f p G = some a) :
    ∃ ci nodeI, _cogl_pipeline_init_multi_property_sparse_state f c2 p G = some ci ∧
      ci.pipeline p = some nodeI ∧ nodeI.children = nodeB.children := by
  obtain ⟨A, hA⟩ := hauth
  obtain ⟨a, ha⟩ := pipeline_get_authority_exists _ _ _ hA
  unfold _cogl_pipeline_init_multi_property_sparse_state
  rcases hG with rfl | rfl | rfl | rfl | rfl | rfl | rfl | rfl | rfl | rfl | rfl | rfl | rfl
  all_goals first
    | (rw [if_neg (by decide), if_pos (by decide)]
       exact ⟨c2, nodeB, rfl, hpB, rfl⟩)
    | (rw [if_neg (by decide), if_neg (by decide)]
       simp only [hA, ha]
       repeat (first | rw [if_pos (by decide)] | rw [if_neg (by decide)])
       rw [modify_pipeline_some hpB]
       exact ⟨_, _, rfl, pipeline_set_pipeline_self hpB _, rfl⟩)

/-- The tail of `_cogl_pipeline_pre_change_notify` for a single sparse group returns
on a pipeline without children whose authority for the group can be found. -/
theorem takeover_group_total {f p G : Nat} {c5 : CoglContext} {node : CoglPipeline}
    (hG : G ∈ sparse_state_groups) (hp : c5.pipeline p = some node) (hch : node.children = [])
    (hauth : ∃ a, _cogl_pipeline_get_authority c5 (f + 1) p G = some a) :
    ∃ c, pre_change_notify_takeover (f + 1) c5 p G = some c := by
  rw [sparse_state_groups_eq] at hG
  simp only [List.mem_cons, List.mem_singleton, List.not_mem_nil, or_false] at hG
  suffices hr : returns (pre_change_notify_takeover (f + 1) c5 p G) (fun _ => True) by
    obtain ⟨c, hc, -⟩ := hr
    exact ⟨c, hc⟩
  unfold pre_change_notify_takeover
  simp only [Option.bind_eq_bind, Option.pure_def]
  refine returns_bind (⟨_, modify_pipeline_some hp _, rfl⟩ :
    returns _ (fun c1 : CoglContext =>
      c1 = c5.set_pipeline p { node with age := node.age + 1 })) ?_
  intro c1 hc1
  subst hc1
  refine returns_bind (⟨_, modify_pipeline_some (pipeline_set_pipeline_self hp _) _,
      ⟨_, pipeline_set_pipeline_self (pipeline_set_pipeline_self hp _) _,
        by split <;> exact hch, by split <;> rfl, by split <;> rfl, by
          rw [set_pipeline_set_pipeline]⟩⟩ :
    returns _ (fun c2 : CoglContext => ∃ nB, c2.pipeline p = some nB ∧ nB.children = [] ∧
      nB.differences = node.differences ∧ nB.parent = node.parent ∧
      c2 = c5.set_pipeline p nB)) ?_
  intro c2 hc2
  obtain ⟨nB, hpB, hchB, hdB, hparB, hc2eq⟩ := hc2
  rw [hpB, Option.some_bind]
  have hauth2 : ∃ a, _cogl_pipeline_get_authority c2 (f + 1) p G = some a := by
    obtain ⟨a, ha⟩ := hauth
    refine ⟨a, ?_⟩
    rw [hc2eq, get_authority_set_same hp hdB hparB]
    exact ha
  refine returns_bind (?_ : returns _ (fun c3 : CoglContext =>
      ∃ n3, c3.pipeline p = some n3 ∧ n3.children = [])) ?_
  · split
    · obtain ⟨ci, nI, hinit, hI, hchI⟩ := init_multi_property_sparse_state_total hG hpB hauth2
      rw [hinit, Option.some_bind, modify_pipeline_some hI]
      exact ⟨_, rfl, _, pipeline_set_pipeline_self hI _, hchI.trans hchB⟩
    · exact ⟨_, rfl, nB, hpB, hchB⟩
  intro c3 hc3
  obtain ⟨n3, hp3, hch3⟩ := hc3
  refine returns_bind (?_ : returns _ (fun _ : CoglContext => True)) ?_
  · split
    · obtain ⟨c4, h4⟩ := recursively_free_layer_caches_leaf f hp3 hch3
      exact ⟨c4, h4, trivial⟩
    · exact ⟨_, rfl, trivial⟩
  intro c4 _
  exact ⟨_, rfl, trivial⟩

/-- The function `_cogl_pipeline_pre_change_notify` returns for a change of a single
sparse group on a pipeline without children whose authority for the group can be
found (for a change of color, on a pipeline that the journal does not reference). -/
theorem pre_change_notify_leaf_group_returns {ctx : CoglContext} {p G : Nat} {n : CoglPipeline}
    (f : Nat) (oc : Option CoglColor) (flc : Bool) (hG : G ∈ sparse_state_groups)
    (hp : ctx.pipeline p = some n) (hch : n.children = [])
    (hj : G = COGL_PIPELINE_STATE_COLOR → n.journal_ref_count = 0)
    (hauth : ∃ a, _cogl_pipeline_get_authority ctx (f + 1) p G = some a) :
    ∃ c, _cogl_pipeline_pre_change_notify (f + 2) ctx p G oc flc = some c := by
  obtain ⟨c1, h1, hp1, s1⟩ : ∃ c1, pre_change_notify_journal (f + 1) ctx p G oc = some c1 ∧
      c1.pipelines = ctx.pipelines ∧ same_skeleton ctx c1 := by
    by_cases hc : G = COGL_PIPELINE_STATE_COLOR
    · unfold pre_change_notify_journal
      simp only [hp, hj hc, ne_eq, not_true_eq_false, if_false]
      exact ⟨ctx, rfl, rfl, same_skeleton_refl ctx⟩
    · exact pre_change_notify_journal_total (f + 1) oc hp hc
  have hp1n : c1.pipeline p = some n := by
    simp only [CoglContext.pipeline, hp1]
    exact hp
  obtain ⟨c2, h2, s2⟩ := pre_change_notify_backends_total G flc hp1n
  have k2 := pre_change_notify_backends_kept c1.pipelines.length c1 p G flc c2 h2
  have seen := seen_of_kept_skeleton k2 s2
  obtain ⟨n2, hp2, -, -, hch2⟩ := seen p n hp1n
  have hauth1 : ∃ a, _cogl_pipeline_get_authority c1 (f + 1) p G = some a := by
    obtain ⟨a, ha⟩ := hauth
    refine ⟨a, pipeline_get_authority_seen _ (fun q m hq => ⟨m, ?_, rfl, rfl⟩) _ _ _ ha⟩
    simp only [CoglContext.pipeline, hp1]
    exact hq
  have hauth2 : ∃ a, _cogl_pipeline_get_authority c2 (f + 1) p G = some a := by
    obtain ⟨a, ha⟩ := hauth1
    exact ⟨a, pipeline_get_authority_seen _
      (fun q m hq => by
        obtain ⟨m2, hm2, d2, p2, -⟩ := seen q m hq
        exact ⟨m2, hm2, d2, p2⟩) _ _ _ ha⟩
  obtain ⟨c3, h3⟩ := takeover_group_total hG hp2 (hch2.trans hch) hauth2
  refine ⟨c3, ?_⟩
  rw [_cogl_pipeline_pre_change_notify]
  unfold pre_change_notify_with
  simp only [Option.bind_eq_bind, h1, Option.some_bind, h2, _cogl_pipeline_node_foreach_child,
    hp2, hch2.trans hch, List.foldlM_nil, Option.pure_def, ne_eq, not_true_eq_false, if_false,
    h3]

/-- C32: sparse-group takeover. Let `G` be one of the thirteen sparse groups and let
`_cogl_pipeline_pre_change_notify (p, G, ...)` return on a pipeline `p` whose subtree
is a tree that its chain to the root does not enter. Then afterwards the differences
of `p` are those it had with `G` added, so `p` is its own authority for `G` and no
other bit changed. If `p` did not assert `G` and `G` is a group of several
properties, the fields of `G` stored on `p` are those of the authority that `p` had
for `G` (for `LAYERS`: `n_layers` is copied and `layer_differences` is empty). If
`p` asserted `G` (with a big state when `G` lives there), the stored group is as it
was. The call does return on a pipeline without children whose authority for `G` is
found within the fuel (for a change of color: when the journal does not reference
`p`). -/
theorem pre_change_notify_takes_over_group (fuel : Nat) (ctx : CoglContext) (p G : Nat)
    (oc : Option CoglColor) (flc : Bool) (node : CoglPipeline)
    (hG : G ∈ sparse_state_groups) (hp : ctx.pipeline p = some node) :
    (∀ (f : Nat) (path ids : List Nat) (c : CoglContext),
      pipeline_path ctx p path → subtree_post ctx (f + 1) p = some ids → ids.Nodup →
      links_consistent ctx ids → (∀ z ∈ path, z ≠ p → z ∉ ids) →
      _cogl_pipeline_pre_change_notify (fuel + 2) ctx p G oc flc = some c →
      ∃ node2, c.pipeline p = some node2 ∧ node2.differences = node.differences ||| G ∧
        _cogl_pipeline_get_authority c 1 p G = some p ∧
        (node.differences &&& G ≠ 0 →
          (G &&& COGL_PIPELINE_STATE_NEEDS_BIG_STATE ≠ 0 → node.has_big_state = true) →
          node2.stored_group G = node.stored_group G) ∧
        (node.differences &&& G = 0 → G &&& COGL_PIPELINE_STATE_MULTI_PROPERTY ≠ 0 →
          ∀ F A a, _cogl_pipeline_get_authority ctx F p G = some A → ctx.pipeline A = some a →
            if G = COGL_PIPELINE_STATE_LAYERS
            then node2.n_layers = a.n_layers ∧ node2.layer_differences = []
            else node2.stored_group G = a.stored_group G)) ∧
    (node.children = [] → (G = COGL_PIPELINE_STATE_COLOR → node.journal_ref_count = 0) →
      (∃ A, _cogl_pipeline_get_authority ctx (fuel + 1) p G = some A) →
      ∃ c, _cogl_pipeline_pre_change_notify (fuel + 2) ctx p G oc flc = some c) := by
  refine ⟨?_, fun hch hj hauth => pre_change_notify_leaf_group_returns fuel oc flc hG hp hch hj
    hauth⟩
  intro f path ids c hpath htree hnd hcons hanc h
  obtain ⟨node2, hn2, hd2, -, -⟩ :=
    pre_change_notify_group_post (F := 0) hG hp hpath htree hnd hcons hanc h
  refine ⟨node2, hn2, hd2, ?_, ?_, ?_⟩
  · unfold _cogl_pipeline_get_authority
    simp only [hn2]
    rw [if_pos]
    rw [hd2, mask_or_and_self]
    obtain ⟨i, rfl⟩ := sparse_group_bit hG
    rw [Nat.one_shiftLeft]
    exact Nat.pos_iff_ne_zero.mp (Nat.two_pow_pos i)
  · intro hne hbig
    obtain ⟨n2, hn2b, -, hhad, -⟩ :=
      pre_change_notify_group_post (F := 0) hG hp hpath htree hnd hcons hanc h
    rw [hn2] at hn2b
    rw [Option.some.inj hn2b]
    exact hhad hne hbig
  · intro h0 hm F A a hA ha
    obtain ⟨n2, hn2b, -, -, hnot⟩ :=
      pre_change_notify_group_post (F := F) hG hp hpath htree hnd hcons hanc h
    rw [hn2] at hn2b
    rw [Option.some.inj hn2b]
    exact hnot h0 hm A a hA ha

theorem pre_change_notify_takes_over_group_witness :
    scenario_inherited_p.differences = 0 ∧
    _cogl_pipeline_get_authority scenario_inherited 3 2 COGL_PIPELINE_STATE_BLEND = some 0 ∧
    ∃ c node2,
      _cogl_pipeline_pre_change_notify 8 scenario_inherited 2 COGL_PIPELINE_STATE_BLEND none
        false = some c ∧
      c.pipeline 2 = some node2 ∧
      node2.differences = scenario_inherited_p.differences ||| COGL_PIPELINE_STATE_BLEND ∧
      _cogl_pipeline_get_authority c 1 2 COGL_PIPELINE_STATE_BLEND = some 2 ∧
      node2.stored_group COGL_PIPELINE_STATE_BLEND =
        scenario_inherited_root.stored_group COGL_PIPELINE_STATE_BLEND := by
  have hp : scenario_inherited.pipeline 2 = some scenario_inherited_p := by decide!
  have hch : scenario_inherited_p.children = [] := by decide!
  have hauth : _cogl_pipeline_get_authority scenario_inherited 3 2 COGL_PIPELINE_STATE_BLEND =
      some 0 := by decide!
  have T := pre_change_notify_takes_over_group 6 scenario_inherited 2 COGL_PIPELINE_STATE_BLEND
    none false scenario_inherited_p (by decide) hp
  obtain ⟨c, hc⟩ := T.2 hch (fun h => absurd h (by decide)) ⟨0, by decide!⟩
  obtain ⟨node2, h1, h2, h3, -, h5⟩ := T.1 0 [2, 1, 0] [2] c (by decide!)
    (subtree_post_leaf hp hch) (by decide) (links_consistent_leaf hp hch)
    (fun z _ hzp hzi => hzp (List.mem_singleton.mp hzi)) hc
  have h6 := h5 (by decide!) (by decide) 3 0 scenario_inherited_root hauth (by decide!)
  rw [if_neg (by decide)] at h6
  exact ⟨by decide!, hauth, c, node2, hc, h1, h2, h3, h6⟩

/-! ## Pruning redundant ancestry -/

/-- The loop of `_cogl_pipeline_prune_redundant_ancestry` stops at the first pipeline
of the chain that is the root or whose differences are not contained in `d`. -/
theorem prune_redundant_ancestry_loop_spec (ctx : CoglContext) (d : Nat) :
    ∀ (skipped : List Nat) (X : Nat) (above : List Nat) (fuel start : Nat),
      pipeline_path ctx start (skipped ++ X :: above) →
      (∀ s ∈ skipped, ∀ n, ctx.pipeline s = some n → n.differences ||| d = d) →
      (above = [] ∨ ∀ n, ctx.pipeline X = some n → n.differences ||| d ≠ d) →
      skipped.length + 1 ≤ fuel →
      prune_redundant_ancestry_loop ctx d fuel start = some X := by
  intro skipped
  induction skipped with
  | nil =>
    intro X above fuel start hpath _ hX hfuel
    obtain ⟨k, rfl⟩ : ∃ k, fuel = k + 1 := ⟨fuel - 1, by simp at hfuel; omega⟩
    simp only [List.nil_append] at hpath
    obtain ⟨r, hr⟩ := node_path_head hpath
    obtain rfl := (List.cons.inj hr).1
    unfold prune_redundant_ancestry_loop
    cases above with
    | nil =>
      simp only [pipeline_path, node_path] at hpath
      obtain ⟨n, hn, hnp⟩ := pipeline_view_parent hpath.2
      simp only [hn, hnp]
    | cons b rest =>
      simp only [pipeline_path, node_path] at hpath
      obtain ⟨n, hn, hnp⟩ := pipeline_view_parent hpath.2.1
      simp only [hn, hnp]
      rcases hX with h0 | h1
      · exact absurd h0 (by simp)
      · rw [if_neg (h1 n hn)]
  | cons s rest ih =>
    intro X above fuel start hpath hsk hX hfuel
    obtain ⟨k, rfl⟩ : ∃ k, fuel = k + 1 := ⟨fuel - 1, by simp at hfuel; omega⟩
    obtain ⟨r, hr⟩ := node_path_head hpath
    obtain rfl := (List.cons.inj hr).1
    obtain ⟨b, tl, htl⟩ : ∃ b tl, rest ++ X :: above = b :: tl := by
      cases rest with
      | nil => exact ⟨X, above, rfl⟩
      | cons b tl => exact ⟨b, tl ++ X :: above, rfl⟩
    have hpath2 := hpath
    rw [List.cons_append, htl] at hpath2
    simp only [pipeline_path, node_path] at hpath2
    obtain ⟨n, hn, hnp⟩ := pipeline_view_parent hpath2.2.1
    unfold prune_redundant_ancestry_loop
    simp only [hn, hnp]
    rw [if_pos (hsk _ (List.mem_cons_self _ _) n hn)]
    refine ih X above k b ?_ (fun t ht => hsk t (List.mem_cons_of_mem _ ht)) hX ?_
    · rw [htl]
      exact hpath2.2.2
    · simp only [List.length_cons] at hfuel
      omega

theorem is_weak_leaf {ctx : CoglContext} {p : Nat} {node : CoglPipeline} (k : Nat)
    (hp : ctx.pipeline p = some node) (hch : node.children = []) :
    _cogl_pipeline_is_weak ctx (k + 2) p = some node.is_weak := by
  rw [_cogl_pipeline_is_weak, hp]
  simp only
  split
  · rename_i hw
    rw [has_strong_children]
    simp only [_cogl_pipeline_node_foreach_child, hp, hch, List.foldlM_nil, Option.pure_def,
      Bool.not_false, hw]
  · rename_i hw
    simp only [Bool.not_eq_true] at hw
    rw [hw]

/-- What `_cogl_pipeline_set_parent` leaves when a pipeline is moved from below `q` to
below `parent`: the links of the three pipelines, and the call returns when the
layers caches below the pipeline can be released. -/
theorem set_parent_moved {ctx : CoglContext} {fuel node parent q : Nat}
    {n pn qn : CoglPipeline} (strong : Bool)
    (hn : ctx.pipeline node = some n) (hp : ctx.pipeline parent = some pn) (hne : node ≠ parent)
    (hpar : n.parent = some q) (hq : ctx.pipeline q = some qn) (hqn : q ≠ node)
    (hqp : q ≠ parent) (hch : qn.children ≠ []) :
    (∀ c, _cogl_pipeline_set_parent fuel ctx node parent strong = some c →
      ∃ n2 pn2 qn2, c.pipeline node = some n2 ∧ n2.parent = some parent ∧
        n2.has_parent_reference = strong ∧
        c.pipeline parent = some pn2 ∧ pn2.children = node :: pn.children ∧
        c.pipeline q = some qn2 ∧ qn2.children = qn.children.erase node ∧
        ∀ z, z ≠ node → z ≠ parent → z ≠ q → c.links z = ctx.links z) ∧
    (n.children = [] → 1 ≤ fuel →
      ∃ c, _cogl_pipeline_set_parent fuel ctx node parent strong = some c) := by
  obtain ⟨c1, h1, hn1, hp1, hq1, hz1⟩ :=
    set_parent_real_moved strong hn hp hne hpar hq hqn hqp hch
  constructor
  · intro c h
    unfold _cogl_pipeline_set_parent at h
    simp only [h1, hn1] at h
    split at h
    · exact absurd h (by simp)
    rename_i c2 h2
    have s2 : same_skeleton c1 c2 := by
      split at h2
      · exact recursively_free_layer_caches_skeleton _ _ _ _ h2
      · rw [← Option.some.inj h2]; exact same_skeleton_refl _
    have s3 : same_skeleton c2 c := by
      split at h
      · rw [← Option.some.inj h]; exact same_skeleton_emit _ rfl
      · rw [← Option.some.inj h]; exact same_skeleton_refl _
    have s := same_skeleton_trans s2 s3
    obtain ⟨n2, hn2, hl2⟩ := same_skeleton_pipeline s hn1
    obtain ⟨pn2, hpn2, hlp2⟩ := same_skeleton_pipeline s hp1
    obtain ⟨qn2, hqn2, hlq2⟩ := same_skeleton_pipeline s hq1
    refine ⟨n2, pn2, qn2, hn2, congrArg PipelineLinks.parent hl2,
      congrArg PipelineLinks.has_parent_reference hl2, hpn2,
      congrArg PipelineLinks.children hlp2, hqn2, congrArg PipelineLinks.children hlq2, ?_⟩
    intro z hzn hzp hzq
    rw [s.1 z]
    simp only [CoglContext.links, hz1 z hzn hzp hzq]
  · intro hleaf hfuel
    obtain ⟨k, rfl⟩ : ∃ k, fuel = k + 1 := ⟨fuel - 1, by omega⟩
    unfold _cogl_pipeline_set_parent
    simp only [h1, hn1]
    have hfree : ∃ c2, (if n.differences &&& COGL_PIPELINE_STATE_LAYERS ≠ 0
        then recursively_free_layer_caches (k + 1) c1 node else some c1) = some c2 := by
      split
      · exact recursively_free_layer_caches_leaf k hn1 hleaf
      · exact ⟨_, rfl⟩
    obtain ⟨c2, h2⟩ := hfree
    simp only [h2]
    split
    · exact ⟨_, rfl⟩
    · exact ⟨_, rfl⟩

/-- C33: `_cogl_pipeline_prune_redundant_ancestry (p)` on a pipeline `p` with a
parent. If `p` asserts `LAYERS` and its `n_layers` is not the length of its
`layer_differences`, the call returns the context it was given. Otherwise let the
chain from `p` to the root be `p`, the pipelines `skipped`, `X` and the pipelines
`above`, where the differences of every skipped pipeline are contained in those of
`p` and `X` is the root or holds a difference that `p` does not, and let `p` be
listed as a child of its parent. Then in whatever context the call returns: when
nothing is skipped `X` is the parent of `p` and nothing changed; else the parent of
`p` is `X`, the edge holds a reference exactly when `_cogl_pipeline_is_weak (p)` is
false, `p` heads the child list of `X` and is gone from the list of its former
parent. On a pipeline without children the call does return. -/
theorem prune_redundant_ancestry_reparents (fuel : Nat) (ctx : CoglContext) (p parent : Nat)
    (node : CoglPipeline) (hp : ctx.pipeline p = some node) (hpar : node.parent = some parent) :
    (node.differences &&& COGL_PIPELINE_STATE_LAYERS ≠ 0 ∧
        node.n_layers ≠ node.layer_differences.length →
      _cogl_pipeline_prune_redundant_ancestry fuel ctx p = some ctx) ∧
    (¬ (node.differences &&& COGL_PIPELINE_STATE_LAYERS ≠ 0 ∧
        node.n_layers ≠ node.layer_differences.length) →
      ∀ (skipped above : List Nat) (X : Nat) (pn : CoglPipeline),
        pipeline_path ctx p (p :: (skipped ++ X :: above)) →
        (∀ s ∈ skipped, ∀ n, ctx.pipeline s = some n →
          n.differences ||| node.differences = node.differences) →
        (above = [] ∨ ∀ n, ctx.pipeline X = some n →
          n.differences ||| node.differences ≠ node.differences) →
        ctx.pipeline parent = some pn → p ∈ pn.children → skipped.length + 1 ≤ fuel →
        (∀ c, _cogl_pipeline_prune_redundant_ancestry fuel ctx p = some c →
          (skipped = [] → X = parent ∧ c = ctx) ∧
          (skipped ≠ [] → ∃ w node2 xn xn2 pn2,
            _cogl_pipeline_is_weak ctx fuel p = some w ∧
            c.pipeline p = some node2 ∧ node2.parent = some X ∧
            node2.has_parent_reference = !w ∧
            ctx.pipeline X = some xn ∧ c.pipeline X = some xn2 ∧
            xn2.children = p :: xn.children ∧
            c.pipeline parent = some pn2 ∧ pn2.children = pn.children.erase p)) ∧
        (node.children = [] → 2 ≤ fuel →
          ∃ c, _cogl_pipeline_prune_redundant_ancestry fuel ctx p = some c)) := by
  constructor
  · intro hguard
    unfold _cogl_pipeline_prune_redundant_ancestry
    simp only [Option.bind_eq_bind, hp, Option.some_bind, if_pos hguard, Option.pure_def]
  · intro hguard skipped above X pn hpath hsk hX hparent hmem hfuel
    have hnd : (p :: (skipped ++ X :: above)).Nodup := node_path_nodup _ p hpath
    have hXmem : X ∈ p :: (skipped ++ X :: above) :=
      List.mem_cons_of_mem _ (List.mem_append_right _ (List.mem_cons_self _ _))
    obtain ⟨xn, hxn⟩ := pipeline_of_mem_path hpath hXmem
    have hpX : p ≠ X := by
      intro h
      have := (List.nodup_cons.mp hnd).1
      rw [h] at this
      exact this (List.mem_append_right _ (List.mem_cons_self _ _))
    obtain ⟨b, tl, htl⟩ : ∃ b tl, skipped ++ X :: above = b :: tl := by
      cases skipped with
      | nil => exact ⟨X, above, rfl⟩
      | cons b tl => exact ⟨b, tl ++ X :: above, rfl⟩
    have hpath2 := hpath
    rw [htl] at hpath2
    simp only [pipeline_path, node_path] at hpath2
    obtain ⟨n0, hn0, hnp0⟩ := pipeline_view_parent hpath2.2.1
    rw [hp] at hn0
    rw [← Option.some.inj hn0, hpar] at hnp0
    have hb : parent = b := Option.some.inj hnp0
    have hrest : pipeline_path ctx parent (skipped ++ X :: above) := by
      rw [htl, hb]
      exact hpath2.2.2
    have hloop := prune_redundant_ancestry_loop_spec ctx node.differences skipped X above fuel
      parent hrest hsk hX hfuel
    have hcall : _cogl_pipeline_prune_redundant_ancestry fuel ctx p =
        if X ≠ parent then
          (_cogl_pipeline_is_weak ctx fuel p).bind
            (fun w => _cogl_pipeline_set_parent fuel ctx p X (!w))
        else some ctx := by
      unfold _cogl_pipeline_prune_redundant_ancestry
      simp only [Option.bind_eq_bind, hp, Option.some_bind, if_neg hguard, hpar, hloop,
        Option.pure_def]
    have hcase : skipped ≠ [] → X ≠ parent ∧ parent ≠ p := by
      intro hne
      cases skipped with
      | nil => exact absurd rfl hne
      | cons s rest =>
        have hs : parent = s := by
          rw [hb]
          exact ((List.cons.inj htl).1).symm
        have hnd2 := (List.nodup_cons.mp hnd).2
        rw [List.cons_append] at hnd2
        have h1 := (List.nodup_cons.mp hnd2).1
        have h0 := (List.nodup_cons.mp hnd).1
        refine ⟨?_, ?_⟩
        · intro hx
          rw [hs] at hx
          rw [← hx] at h1
          exact h1 (List.mem_append_right _ (List.mem_cons_self _ _))
        · intro hx
          rw [hs] at hx
          rw [← hx] at h0
          exact h0 (List.mem_cons_self _ _)
    have hchild : pn.children ≠ [] := by
      intro h
      rw [h] at hmem
      exact absurd hmem (List.not_mem_nil _)
    refine ⟨?_, ?_⟩
    · intro c h
      rw [hcall] at h
      refine ⟨?_, ?_⟩
      · intro hnil
        subst hnil
        have hXp : X = parent := by
          rw [hb]
          exact (List.cons.inj htl).1
        rw [if_neg (not_not.mpr hXp)] at h
        exact ⟨hXp, (Option.some.inj h).symm⟩
      · intro hne
        obtain ⟨hXp, hpp⟩ := hcase hne
        rw [if_pos hXp] at h
        obtain ⟨w, hw, hset⟩ := Option.bind_eq_some.mp h
        obtain ⟨n2, pn2, qn2, h1, h2, h3, h4, h5, h6, h7, -⟩ :=
          (set_parent_moved (!w) hp hxn hpX hpar hparent hpp (Ne.symm hXp) hchild).1 c hset
        exact ⟨w, n2, xn, pn2, qn2, hw, h1, h2, h3, hxn, h4, h5, h6, h7⟩
    · intro hleaf hfuel2
      rw [hcall]
      split
      · rename_i hXp
        obtain ⟨k, rfl⟩ : ∃ k, fuel = k + 2 := ⟨fuel - 2, by omega⟩
        rw [is_weak_leaf k hp hleaf, Option.some_bind]
        have hpp : parent ≠ p := by
          cases skipped with
          | nil =>
            exact absurd ((List.cons.inj htl).1.trans hb.symm) hXp
          | cons s rest => exact (hcase (by simp)).2
        exact (set_parent_moved (!node.is_weak) hp hxn hpX hpar hparent hpp (Ne.symm hXp)
          hchild).2 hleaf (by omega)
      · exact ⟨ctx, rfl⟩

theorem prune_redundant_ancestry_reparents_witness :
    scenario_copy.pipeline 2 = some scenario_copy_c ∧
    scenario_copy_c.parent = some 1 ∧
    pipeline_path scenario_copy 2 [2, 1, 0] ∧
    ∃ c node2 xn2 pn2, _cogl_pipeline_prune_redundant_ancestry 8 scenario_copy 2 = some c ∧
      c.pipeline 2 = some node2 ∧ node2.parent = some 0 ∧
      node2.has_parent_reference = true ∧
      c.pipeline 0 = some xn2 ∧ xn2.children = 2 :: scenario_copy_default.children ∧
      c.pipeline 1 = some pn2 ∧ pn2.children = scenario_copy_p.children.erase 2 := by
  have hp : scenario_copy.pipeline 2 = some scenario_copy_c := by decide!
  have hpar : scenario_copy_c.parent = some 1 := by decide!
  have hpath : pipeline_path scenario_copy 2 [2, 1, 0] := by decide!
  have hd : scenario_copy_c.differences = 0 := by decide!
  have h1 : scenario_copy.pipeline 1 = some scenario_copy_p := by decide!
  have h0 : scenario_copy.pipeline 0 = some scenario_copy_default := by decide!
  have T := (prune_redundant_ancestry_reparents 8 scenario_copy 2 1 scenario_copy_c hp hpar).2
    (by rw [hd]; decide) [1] [] 0 scenario_copy_p hpath
    (by
      intro s hs n hn
      rw [List.mem_singleton.mp hs, h1] at hn
      rw [← Option.some.inj hn, hd]
      decide!)
    (Or.inl rfl) h1 (by decide!) (by decide)
  obtain ⟨c, hc⟩ := T.2 (by decide!) (by decide)
  obtain ⟨w, node2, xn, xn2, pn2, hw, e1, e2, e3, e4, e5, e6, e7, e8⟩ :=
    (T.1 c hc).2 (by simp)
  have hweak : _cogl_pipeline_is_weak scenario_copy 8 2 = some false := by decide!
  rw [hweak] at hw
  rw [← Option.some.inj hw] at e3
  rw [h0] at e4
  rw [← Option.some.inj e4] at e6
  exact ⟨hp, hpar, hpath, c, node2, xn2, pn2, hc, e1, e2, e3, e5, e6, e7, e8⟩

/-! ## Reverting authority -/

/-- C34: `_cogl_pipeline_update_authority (p, authority, state, comparitor)`. When
`authority` is `p` itself and `p` has a parent, let `old` be the authority that the
walk from the parent finds for `state`: if the comparator holds of `p` and `old`, the
call returns the context with `state` cleared in the differences of `p` (bit `i` of
the new differences is bit `i` of the old ones and not of `state`) and nothing else
changed; if it does not hold, the call returns the context it was given. When
`authority` is another pipeline, the call is
`_cogl_pipeline_prune_redundant_ancestry (p)` run after `state` is added to the
differences of `p`. And the example: on a new pipeline the color red sets the
`COLOR` bit; the color white, set after it, clears the bit again and leaves the
default pipeline as the parent. -/
theorem update_authority_reverts_or_prunes (fuel : Nat) (ctx : CoglContext)
    (p authority state : Nat) (comparitor : CoglPipeline → CoglPipeline → Bool)
    (node : CoglPipeline) (hp : ctx.pipeline p = some node) :
    (authority = p → ∀ parent old oa, node.parent = some parent →
      _cogl_pipeline_get_authority ctx fuel parent state = some old →
      ctx.pipeline old = some oa →
      (comparitor node oa = true →
        _cogl_pipeline_update_authority fuel ctx p authority state comparitor =
          some (ctx.set_pipeline p
            { node with differences := mask_clear node.differences state }) ∧
        ∀ i, (mask_clear node.differences state).testBit i =
          (node.differences.testBit i && !state.testBit i)) ∧
      (comparitor node oa = false →
        _cogl_pipeline_update_authority fuel ctx p authority state comparitor = some ctx)) ∧
    (authority ≠ p → ∀ a, ctx.pipeline authority = some a →
      _cogl_pipeline_update_authority fuel ctx p authority state comparitor =
        _cogl_pipeline_prune_redundant_ancestry fuel
          (ctx.set_pipeline p { node with differences := node.differences ||| state }) p) ∧
    ((scenario_new.pipeline 1).map
        (fun n => (n.differences &&& COGL_PIPELINE_STATE_COLOR, n.parent)) =
        some (0, some scenario_new.default_pipeline) ∧
      (scenario_new_red.pipeline 1).map
        (fun n => (n.differences &&& COGL_PIPELINE_STATE_COLOR, n.parent)) =
        some (COGL_PIPELINE_STATE_COLOR, some scenario_new.default_pipeline) ∧
      scenario_new_red_white.bind (fun c => (c.pipeline 1).map
        (fun n => (n.differences &&& COGL_PIPELINE_STATE_COLOR, n.parent))) =
        some (0, some scenario_new.default_pipeline)) := by
  refine ⟨?_, ?_, ?_⟩
  · intro ha parent old oa hpar hold hoa
    subst ha
    constructor
    · intro hc
      refine ⟨?_, testBit_mask_clear _ _⟩
      unfold _cogl_pipeline_update_authority
      simp only [Option.bind_eq_bind, hp, Option.some_bind, true_and, hpar, hold, ne_eq,
        Option.some_ne_none, not_false_eq_true, hoa, hc, if_true, modify_pipeline_some hp]
    · intro hc
      unfold _cogl_pipeline_update_authority
      simp only [Option.bind_eq_bind, hp, Option.some_bind, true_and, hpar, hold, ne_eq,
        Option.some_ne_none, not_false_eq_true, hoa, hc, if_true, Bool.false_eq_true, if_false,
        Option.pure_def]
  · intro hne a ha
    have hne2 : p ≠ authority := fun h => hne h.symm
    unfold _cogl_pipeline_update_authority
    simp only [Option.bind_eq_bind, ha, Option.some_bind, hne2, false_and, if_false, ne_eq,
      not_false_eq_true, if_true, modify_pipeline_some hp]
  · refine ⟨by decide!, by decide!, by decide!⟩

theorem update_authority_reverts_or_prunes_witness :
    scenario_new_white_written.pipeline 1 = some scenario_new_white_written_p ∧
    scenario_new_white_written_p.differences = COGL_PIPELINE_STATE_COLOR ∧
    _cogl_pipeline_update_authority 8 scenario_new_white_written 1 1 COGL_PIPELINE_STATE_COLOR
        (fun p0 p1 => cogl_color_equal p0.color p1.color) =
      some (scenario_new_white_written.set_pipeline 1
        { scenario_new_white_written_p with
          differences :=
            mask_clear scenario_new_white_written_p.differences COGL_PIPELINE_STATE_COLOR }) :=
  ⟨by decide!, by decide!,
    (((update_authority_reverts_or_prunes 8 scenario_new_white_written 1 1
      COGL_PIPELINE_STATE_COLOR (fun p0 p1 => cogl_color_equal p0.color p1.color)
      scenario_new_white_written_p (by decide!)).1 rfl 0 0 scenario_new_white_written_root
      (by decide!) (by decide!) (by decide!)).1 (by decide!)).1⟩

/-! ## The stale flag of the layers caches -/

/-- C35: the flag `layers_cache_dirty` below a stale ancestor. The pipeline `a` (1)
has two layers and a stale layers cache; its child `p` (2) takes over `LAYERS` with
`_cogl_pipeline_pre_change_notify`, which leaves the cache of `p` stale as well.
`_cogl_pipeline_update_layers_cache (p)` then fills the cache of `p` and clears the
flag of `p` alone: `a` is stale and its child `p` is not. After that
`recursively_free_layer_caches (a)` returns at once, on the flag of `a`, and the
cache of `p` stays marked as valid. -/
theorem update_layers_cache_cleans_below_dirty_ancestor :
    (_cogl_pipeline_pre_change_notify 8 scenario_inherited 2 COGL_PIPELINE_STATE_LAYERS none
      false).isSome = true ∧
    layers_cache_flags scenario_layers_taken =
      [(none, [1], true, 0, false), (some 0, [2], true, 2, true), (some 1, [], true, 2, true)] ∧
    (_cogl_pipeline_update_layers_cache 8 scenario_layers_taken 2).isSome = true ∧
    layers_cache_flags scenario_cache_filled =
      [(none, [1], true, 0, false), (some 0, [2], true, 2, true), (some 1, [], true, 2, false)] ∧
    (scenario_cache_filled.pipeline 2).map (fun n => n.layers_cache) =
      some [some 3, some 4] ∧
    recursively_free_layer_caches 8 scenario_cache_filled 1 = some scenario_cache_filled := by
  refine ⟨by decide!, by decide!, by decide!, by decide!, by decide!, by decide!⟩

/-! ## Symmetry of the comparison -/

/-- The comparisons of `_cogl_pipeline_equal` for the mask `BLEND` alone: when the
first pipeline does not blend nothing is compared, and when it blends the answer is
that of the comparator of `BLEND` on the two authorities. -/
theorem pipeline_equal_groups_blend (fns : CoglPipelineStateFuncs) (ctx : CoglContext)
    (fuel : Nat) (rbe : Bool) (A0 A1 : List (Option Nat)) (l f : Nat) (a0 a1 : CoglPipeline)
    (h0 : authority_record ctx A0 COGL_PIPELINE_STATE_BLEND_INDEX = some a0)
    (h1 : authority_record ctx A1 COGL_PIPELINE_STATE_BLEND_INDEX = some a1) :
    pipeline_equal_groups fns ctx fuel rbe COGL_PIPELINE_STATE_BLEND A0 A1 l f =
      if rbe then some (ctx, fns.blend_state_equal a0 a1) else some (ctx, true) := by
  have hsimple : ∀ (i : Nat) (cmp : CoglPipeline → CoglPipeline → Bool),
      i < 13 → i ≠ 6 →
      simple_property_equal ctx A0 A1 COGL_PIPELINE_STATE_BLEND i cmp = some true := by
    intro i cmp hi hne
    unfold simple_property_equal
    rw [if_neg]
    have hc : i = 0 ∨ i = 1 ∨ i = 2 ∨ i = 3 ∨ i = 4 ∨ i = 5 ∨ i = 7 ∨ i = 8 ∨ i = 9 ∨
        i = 10 ∨ i = 11 ∨ i = 12 := by omega
    rcases hc with rfl | rfl | rfl | rfl | rfl | rfl | rfl | rfl | rfl | rfl | rfl | rfl <;>
      decide
  have hblend : simple_property_equal ctx A0 A1 COGL_PIPELINE_STATE_BLEND
      COGL_PIPELINE_STATE_BLEND_INDEX fns.blend_state_equal =
      some (fns.blend_state_equal a0 a1) := by
    unfold simple_property_equal
    rw [if_pos (by decide), h0, h1]
  unfold pipeline_equal_groups
  simp only [hsimple COGL_PIPELINE_STATE_COLOR_INDEX _ (by decide) (by decide),
    hsimple COGL_PIPELINE_STATE_LIGHTING_INDEX _ (by decide) (by decide),
    hsimple COGL_PIPELINE_STATE_ALPHA_FUNC_INDEX _ (by decide) (by decide),
    hsimple COGL_PIPELINE_STATE_ALPHA_FUNC_REFERENCE_INDEX _ (by decide) (by decide),
    hsimple COGL_PIPELINE_STATE_DEPTH_INDEX _ (by decide) (by decide),
    hsimple COGL_PIPELINE_STATE_FOG_INDEX _ (by decide) (by decide),
    hsimple COGL_PIPELINE_STATE_CULL_FACE_INDEX _ (by decide) (by decide),
    hsimple COGL_PIPELINE_STATE_POINT_SIZE_INDEX _ (by decide) (by decide),
    hsimple COGL_PIPELINE_STATE_LOGIC_OPS_INDEX _ (by decide) (by decide),
    hsimple COGL_PIPELINE_STATE_USER_SHADER_INDEX _ (by decide) (by decide),
    hblend, unless_done,
    show ¬ (COGL_PIPELINE_STATE_BLEND &&& COGL_PIPELINE_STATE_LAYERS ≠ 0) from by decide,
    if_false]
  cases rbe with
  | false => simp only [Bool.false_eq_true, if_false]
  | true =>
    simp only [if_true]
    cases fns.blend_state_equal a0 a1 <;> rfl


/-- The function `_cogl_pipeline_equal` on two distinct pipelines under the mask
`BLEND` alone, when the two may differ in `BLEND`. -/
theorem equal_blend_only (fns : CoglPipelineStateFuncs) (ctx : CoglContext) (fuel : Nat)
    (p0 p1 : Nat) (n0 n1 : CoglPipeline) (d : Nat) (A0 A1 : List (Option Nat))
    (a0 a1 : CoglPipeline) (l f : Nat) (hne : p0 ≠ p1)
    (hp0 : ctx.pipeline p0 = some n0) (hp1 : ctx.pipeline p1 = some n1)
    (hc : _cogl_pipeline_compare_differences ctx fuel p0 p1 = some d)
    (hd : d &&& COGL_PIPELINE_STATE_BLEND = COGL_PIPELINE_STATE_BLEND)
    (hr0 : _cogl_pipeline_resolve_authorities ctx fuel p0 COGL_PIPELINE_STATE_BLEND
      (List.replicate COGL_PIPELINE_STATE_SPARSE_COUNT none) = some A0)
    (hr1 : _cogl_pipeline_resolve_authorities ctx fuel p1 COGL_PIPELINE_STATE_BLEND
      (List.replicate COGL_PIPELINE_STATE_SPARSE_COUNT none) = some A1)
    (ha0 : authority_record ctx A0 COGL_PIPELINE_STATE_BLEND_INDEX = some a0)
    (ha1 : authority_record ctx A1 COGL_PIPELINE_STATE_BLEND_INDEX = some a1) :
    _cogl_pipeline_equal fns ctx fuel p0 p1 COGL_PIPELINE_STATE_BLEND l f =
      if n0.real_blend_enable then some (ctx, fns.blend_state_equal a0 a1)
      else some (ctx, true) := by
  have hm : ¬ (COGL_PIPELINE_STATE_BLEND &&& COGL_PIPELINE_STATE_REAL_BLEND_ENABLE ≠ 0 ∧
      n0.real_blend_enable ≠ n1.real_blend_enable) := fun h => absurd h.1 (by decide)
  unfold _cogl_pipeline_equal
  rw [if_neg hne]
  simp only [hp0, hp1]
  rw [if_neg hm]
  simp only [hc, hd, hr0, hr1]
  exact pipeline_equal_groups_blend fns ctx fuel _ A0 A1 l f a0 a1 ha0 ha1

/-- C37: `_cogl_pipeline_equal` is not symmetric. In `scenario_blend_asymmetric` the
pipeline `p` (1) blends and resolves the default blend function, and `q` (2) does
not blend and holds the source factor `GL_SRC_ALPHA`. Under the mask `BLEND`,
without `REAL_BLEND_ENABLE`, the call with `q` first returns true whatever the
comparators are, because the blend state is compared only if the first pipeline
blends; the call with `p` first returns the answer of the comparator of `BLEND` on
the two authorities, which is false for the comparison of the fields. -/
theorem equal_differs_when_arguments_swap (fns : CoglPipelineStateFuncs) (l f : Nat) :
    scenario_blend_asymmetric.pipeline 1 = some scenario_blend_asymmetric_p ∧
    scenario_blend_asymmetric.pipeline 2 = some scenario_blend_asymmetric_q ∧
    pipeline_path scenario_blend_asymmetric 1 [1, 0] ∧
    pipeline_path scenario_blend_asymmetric 2 [2, 0] ∧
    scenario_blend_asymmetric_p.real_blend_enable = true ∧
    scenario_blend_asymmetric_q.real_blend_enable = false ∧
    scenario_blend_asymmetric_root.big_state.blend_state.blend_src_factor_rgb = GL_ONE ∧
    scenario_blend_asymmetric_q.big_state.blend_state.blend_src_factor_rgb = GL_SRC_ALPHA ∧
    _cogl_pipeline_equal fns scenario_blend_asymmetric 8 2 1 COGL_PIPELINE_STATE_BLEND l f =
      some (scenario_blend_asymmetric, true) ∧
    _cogl_pipeline_equal fns scenario_blend_asymmetric 8 1 2 COGL_PIPELINE_STATE_BLEND l f =
      some (scenario_blend_asymmetric,
        fns.blend_state_equal scenario_blend_asymmetric_root scenario_blend_asymmetric_q) ∧
    reference_funcs.blend_state_equal scenario_blend_asymmetric_root
      scenario_blend_asymmetric_q = false := by
  have hp : scenario_blend_asymmetric.pipeline 1 = some scenario_blend_asymmetric_p := by
    decide!
  have hq : scenario_blend_asymmetric.pipeline 2 = some scenario_blend_asymmetric_q := by
    decide!
  have hbp : scenario_blend_asymmetric_p.real_blend_enable = true := by decide!
  have hbq : scenario_blend_asymmetric_q.real_blend_enable = false := by decide!
  have hc12 : _cogl_pipeline_compare_differences scenario_blend_asymmetric 8 1 2 = some 67 := by
    decide!
  have hc21 : _cogl_pipeline_compare_differences scenario_blend_asymmetric 8 2 1 = some 67 := by
    decide!
  have hr1 : _cogl_pipeline_resolve_authorities scenario_blend_asymmetric 8 1
      COGL_PIPELINE_STATE_BLEND
      (List.replicate COGL_PIPELINE_STATE_SPARSE_COUNT none) =
      some [none, none, none, none, none, none, some 0, none, none, none, none, none, none] := by
    decide!
  have hr2 : _cogl_pipeline_resolve_authorities scenario_blend_asymmetric 8 2
      COGL_PIPELINE_STATE_BLEND
      (List.replicate COGL_PIPELINE_STATE_SPARSE_COUNT none) =
      some [none, none, none, none, none, none, some 2, none, none, none, none, none, none] := by
    decide!
  have ha0 : authority_record scenario_blend_asymmetric
      [none, none, none, none, none, none, some 0, none, none, none, none, none, none]
      COGL_PIPELINE_STATE_BLEND_INDEX = some scenario_blend_asymmetric_root := by decide!
  have ha2 : authority_record scenario_blend_asymmetric
      [none, none, none, none, none, none, some 2, none, none, none, none, none, none]
      COGL_PIPELINE_STATE_BLEND_INDEX = some scenario_blend_asymmetric_q := by decide!
  refine ⟨hp, hq, by decide!, by decide!, hbp, hbq, by decide!, by decide!, ?_, ?_, by decide!⟩
  · rw [equal_blend_only fns scenario_blend_asymmetric 8 2 1 _ _ 67 _ _ _ _ l f (by decide) hq hp
      hc21 (by decide) hr2 hr1 ha2 ha0, hbq]
    rfl
  · rw [equal_blend_only fns scenario_blend_asymmetric 8 1 2 _ _ 67 _ _ _ _ l f (by decide) hp hq
      hc12 (by decide) hr1 hr2 ha0 ha2, hbp]
    rfl

/-! ## Bitmasks -/

theorem get_from_array_bit (array : List Nat) (b : Nat) :
    _cogl_bitmask_get_from_array (CoglBitmask.array array) b =
      some (bitmask_word_bit array b) := by
  unfold _cogl_bitmask_get_from_array bitmask_word_bit
  dsimp only
  by_cases h : b ≥ UINT_BITS * array.length
  · rw [if_pos h]
    have hlen : array.length ≤ b / UINT_BITS := by
      rw [Nat.le_div_iff_mul_le (by decide : 0 < UINT_BITS)]
      rw [Nat.mul_comm]
      exact h
    rw [List.getD_eq_getElem?_getD, List.getElem?_eq_none_iff.mpr hlen]
    simp
  · rw [if_neg h]
    have hlt : b / UINT_BITS < array.length := by
      rw [Nat.div_lt_iff_lt_mul (by decide : 0 < UINT_BITS)]
      rw [Nat.mul_comm]
      exact Nat.lt_of_not_ge h
    rw [List.getD_eq_getElem?_getD, List.getElem?_eq_getElem hlt]
    simp only [Option.map_some', Option.getD_some, Option.some.injEq]
    cases hb : (array[b / UINT_BITS]).testBit (b % UINT_BITS) with
    | true => exact decide_eq_true ((and_bit_ne_zero _ _).mpr hb)
    | false =>
      apply decide_eq_false
      intro hne
      rw [(and_bit_ne_zero _ _).mp hne] at hb
      exact absurd hb (by decide)

theorem bitmask_get_array (array : List Nat) (b : Nat) :
    _cogl_bitmask_get (CoglBitmask.array array) b = some (bitmask_word_bit array b) := by
  unfold _cogl_bitmask_get
  simp only [_cogl_bitmask_has_array, if_true]
  exact get_from_array_bit array b

theorem bitmask_get_direct {value : Nat} (hv : (CoglBitmask.direct value).valid) (b : Nat) :
    _cogl_bitmask_get (CoglBitmask.direct value) b =
      some (bitmask_word_bit [value >>> 1] b) := by
  obtain ⟨hlt, htag⟩ := hv
  unfold _cogl_bitmask_get bitmask_word_bit
  simp only [_cogl_bitmask_has_array, htag, show ¬ ((1 : Nat) = 0) from by decide,
    decide_False, Bool.false_eq_true, if_false]
  by_cases hb : b ≥ UINT_BITS - 1
  · rw [if_pos hb]
    congr 1
    by_cases hb2 : b < UINT_BITS
    · have hb31 : b = 31 := by
        simp only [UINT_BITS] at hb hb2
        omega
      subst hb31
      simp only [UINT_BITS, List.getD_cons_zero, Nat.testBit_shiftRight]
      exact (Nat.testBit_lt_two_pow hlt).symm
    · have hidx : 1 ≤ b / UINT_BITS := by
        rw [Nat.le_div_iff_mul_le (by decide : 0 < UINT_BITS)]
        simp only [UINT_BITS] at hb2 ⊢
        omega
      obtain ⟨k, hk⟩ : ∃ k, b / UINT_BITS = k + 1 := ⟨b / UINT_BITS - 1, by omega⟩
      rw [hk]
      simp
  · rw [if_neg hb]
    have hb31 : b < 31 := by
      simp only [UINT_BITS] at hb
      omega
    have hdiv : b / UINT_BITS = 0 := by
      simp only [UINT_BITS]
      omega
    have hmod : b % UINT_BITS = b := by
      simp only [UINT_BITS]
      omega
    rw [hdiv, hmod]
    simp only [List.getD_cons_zero, Nat.testBit_shiftRight, Option.some.injEq]
    rw [Nat.add_comm 1 b]
    cases hbit : value.testBit (b + 1) with
    | true => exact decide_eq_true ((and_bit_ne_zero _ _).mpr hbit)
    | false =>
      apply decide_eq_false
      intro hne
      rw [(and_bit_ne_zero _ _).mp hne] at hbit
      exact absurd hbit (by decide)

/-- The head of the writing functions on a well-formed bitmask: it returns an array
that is not empty and holds the bits of the bitmask. -/
theorem bitmask_array_spec {bitmask : CoglBitmask} (hv : bitmask.valid) :
    ∃ array, bitmask_array bitmask = some array ∧ array ≠ [] ∧
      ∀ b, _cogl_bitmask_get bitmask b = some (bitmask_word_bit array b) := by
  cases bitmask with
  | direct value =>
    refine ⟨[value >>> 1], ?_, by simp, fun b => bitmask_get_direct hv b⟩
    obtain ⟨hlt, htag⟩ := hv
    simp only [bitmask_array, _cogl_bitmask_has_array, htag,
      show ¬ ((1 : Nat) = 0) from by decide, decide_False, Bool.not_false, if_true,
      _cogl_bitmask_convert_to_array, Option.bind_eq_bind, Option.some_bind]
  | array words =>
    refine ⟨words, ?_, hv.1, fun b => bitmask_get_array words b⟩
    simp only [bitmask_array, _cogl_bitmask_has_array, Bool.not_true, Bool.false_eq_true,
      if_false, Option.bind_eq_bind, Option.some_bind]

theorem word_bit_set_size (array : List Nat) (n b : Nat) (hn : array.length ≤ n) :
    bitmask_word_bit (g_array_set_size array n) b = bitmask_word_bit array b := by
  unfold bitmask_word_bit g_array_set_size
  by_cases hle : n ≤ array.length
  · rw [if_pos hle]
    have : n = array.length := Nat.le_antisymm hle hn
    rw [this, List.take_length]
  · rw [if_neg hle]
    congr 1
    rw [List.getD_eq_getElem?_getD, List.getD_eq_getElem?_getD]
    by_cases hi : b / UINT_BITS < array.length
    · rw [List.getElem?_append_left hi]
    · have hi2 : array.length ≤ b / UINT_BITS := Nat.le_of_not_lt hi
      rw [List.getElem?_append_right hi2, List.getElem?_eq_none_iff.mpr hi2]
      by_cases hr : b / UINT_BITS - array.length < n - array.length
      · rw [List.getElem?_replicate, if_pos hr]
        rfl
      · rw [List.getElem?_eq_none_iff.mpr (by rw [List.length_replicate]; omega)]

theorem length_set_size (array : List Nat) (n : Nat) :
    (g_array_set_size array n).length = n := by
  unfold g_array_set_size
  split
  · rw [List.length_take]; omega
  · rw [List.length_append, List.length_replicate]; omega

theorem word_bit_set (array : List Nat) (i w b : Nat) (hi : i < array.length) :
    bitmask_word_bit (array.set i w) b =
      if b / UINT_BITS = i then w.testBit (b % UINT_BITS) else bitmask_word_bit array b := by
  unfold bitmask_word_bit
  rw [List.getD_eq_getElem?_getD, List.getElem?_set]
  by_cases h : i = b / UINT_BITS
  · rw [if_pos h, if_pos h.symm, if_pos hi]
    rfl
  · rw [if_neg h, if_neg (fun e => h e.symm), ← List.getD_eq_getElem?_getD]

theorem testBit_or_bit (w k j : Nat) :
    (w ||| (1 <<< k)).testBit j = (w.testBit j || decide (k = j)) := by
  rw [Nat.testBit_or, Nat.one_shiftLeft, Nat.testBit_two_pow]

theorem testBit_and_not_bit (w k j : Nat) (hj : j < 32) :
    (w &&& (UINT_MAX ^^^ (1 <<< k))).testBit j = (w.testBit j && !decide (k = j)) := by
  rw [Nat.testBit_and, Nat.testBit_xor, Nat.one_shiftLeft, Nat.testBit_two_pow, UINT_MAX,
    Nat.testBit_two_pow_sub_one]
  simp [hj]

theorem bit_num_eq_of_parts {b c : Nat} (h1 : c / UINT_BITS = b / UINT_BITS)
    (h2 : b % UINT_BITS = c % UINT_BITS) : c = b := by
  have e1 := Nat.div_add_mod c UINT_BITS
  have e2 := Nat.div_add_mod b UINT_BITS
  rw [h1, ← h2] at e1
  omega

theorem word_lt_of_set {array : List Nat} {i w : Nat} (hw : w < 2 ^ 32)
    (h : ∀ x ∈ array, x < 2 ^ 32) : ∀ x ∈ array.set i w, x < 2 ^ 32 := by
  intro x hx
  rcases List.mem_or_eq_of_mem_set hx with hm | he
  · exact h x hm
  · rw [he]; exact hw

theorem word_lt_of_set_size {array : List Nat} (n : Nat) (h : ∀ x ∈ array, x < 2 ^ 32) :
    ∀ x ∈ g_array_set_size array n, x < 2 ^ 32 := by
  intro x hx
  unfold g_array_set_size at hx
  split at hx
  · exact h x (List.mem_of_mem_take hx)
  · rcases List.mem_append.mp hx with hm | hr
    · exact h x hm
    · rw [(List.mem_replicate.mp hr).2]
      decide

theorem bitmask_array_lt {bitmask : CoglBitmask} (hv : bitmask.valid) {array : List Nat}
    (h : bitmask_array bitmask = some array) : ∀ x ∈ array, x < 2 ^ 32 := by
  cases bitmask with
  | direct value =>
    obtain ⟨hlt, htag⟩ := hv
    simp only [bitmask_array, _cogl_bitmask_has_array, htag,
      show ¬ ((1 : Nat) = 0) from by decide, decide_False, Bool.not_false, if_true,
      _cogl_bitmask_convert_to_array, Option.bind_eq_bind, Option.some_bind,
      Option.some.injEq] at h
    rw [← h]
    intro x hx
    rw [List.mem_singleton.mp hx, Nat.shiftRight_eq_div_pow]
    omega
  | array words =>
    simp only [bitmask_array, _cogl_bitmask_has_array, Bool.not_true, Bool.false_eq_true,
      if_false, Option.bind_eq_bind, Option.some_bind, Option.some.injEq] at h
    rw [← h]
    exact hv.2

/-- C38: `_cogl_bitmask_set_in_array (mask, b, v)` on a well-formed bitmask, direct
or array. The call returns a well-formed array; `_cogl_bitmask_get_from_array`
reads `v` at `b` afterwards, and at every other bit number `c` it reads what
`_cogl_bitmask_get` read on the bitmask before the call (the bits of a direct value
are carried over, a grown array is zero-filled, a bit past the end reads false). -/
theorem set_in_array_sets_one_bit (bitmask : CoglBitmask) (b : Nat) (value : Bool)
    (hv : bitmask.valid) :
    ∃ result, _cogl_bitmask_set_in_array bitmask b value = some result ∧ result.valid ∧
      _cogl_bitmask_get_from_array result b = some value ∧
      ∀ c, c ≠ b → _cogl_bitmask_get_from_array result c = _cogl_bitmask_get bitmask c := by
  obtain ⟨array, harr, hne, hbits⟩ := bitmask_array_spec hv
  have hwords := bitmask_array_lt hv harr
  have hgrow : ∃ array2, (if b / UINT_BITS ≥ array.length
      then g_array_set_size array (b / UINT_BITS + 1) else array) = array2 ∧
      b / UINT_BITS < array2.length ∧ (∀ x ∈ array2, x < 2 ^ 32) ∧
      ∀ c, bitmask_word_bit array2 c = bitmask_word_bit array c := by
    by_cases hge : b / UINT_BITS ≥ array.length
    · rw [if_pos hge]
      refine ⟨_, rfl, ?_, word_lt_of_set_size _ hwords, fun c => word_bit_set_size _ _ _ ?_⟩
      · rw [length_set_size]; omega
      · omega
    · rw [if_neg hge]
      exact ⟨array, rfl, by omega, hwords, fun _ => rfl⟩
  obtain ⟨array2, h2, hlen2, hwords2, hbits2⟩ := hgrow
  have hmod : b % UINT_BITS < 32 := Nat.mod_lt _ (by decide)
  have hmask : 1 <<< (b % UINT_BITS) < 2 ^ 32 := by
    rw [Nat.one_shiftLeft]
    exact Nat.pow_lt_pow_right (by decide) hmod
  have hword : array2[b / UINT_BITS]? = some (array2[b / UINT_BITS]) :=
    List.getElem?_eq_getElem hlen2
  have hwlt : array2[b / UINT_BITS] < 2 ^ 32 := hwords2 _ (List.getElem_mem _)
  have hold : bitmask_word_bit array2 b = (array2[b / UINT_BITS]).testBit (b % UINT_BITS) := by
    unfold bitmask_word_bit
    rw [List.getD_eq_getElem?_getD, hword]
    rfl
  unfold _cogl_bitmask_set_in_array
  simp only [Option.bind_eq_bind, harr, Option.some_bind, h2, hword, Option.pure_def]
  cases value with
  | true =>
    simp only [if_true]
    refine ⟨_, rfl, ⟨?_, word_lt_of_set (Nat.or_lt_two_pow hwlt hmask) hwords2⟩, ?_, ?_⟩
    · intro h
      have := congrArg List.length h
      rw [List.length_set, List.length_nil] at this
      rw [this] at hlen2
      exact Nat.not_lt_zero _ hlen2
    · rw [get_from_array_bit, word_bit_set _ _ _ _ hlen2, if_pos rfl, testBit_or_bit]
      simp
    · intro c hc
      rw [get_from_array_bit, hbits c, word_bit_set _ _ _ _ hlen2, ← hbits2 c]
      congr 1
      split
      · rename_i hidx
        have hm : b % UINT_BITS ≠ c % UINT_BITS := fun e => hc (bit_num_eq_of_parts hidx e)
        rw [testBit_or_bit]
        unfold bitmask_word_bit
        rw [hidx, List.getD_eq_getElem?_getD, hword]
        simp [hm]
      · rfl
  | false =>
    simp only [Bool.false_eq_true, if_false]
    refine ⟨_, rfl, ⟨?_, word_lt_of_set (Nat.lt_of_le_of_lt Nat.and_le_left hwlt) hwords2⟩,
      ?_, ?_⟩
    · intro h
      have := congrArg List.length h
      rw [List.length_set, List.length_nil] at this
      rw [this] at hlen2
      exact Nat.not_lt_zero _ hlen2
    · rw [get_from_array_bit, word_bit_set _ _ _ _ hlen2, if_pos rfl,
        testBit_and_not_bit _ _ _ hmod]
      simp
    · intro c hc
      rw [get_from_array_bit, hbits c, word_bit_set _ _ _ _ hlen2, ← hbits2 c]
      congr 1
      split
      · rename_i hidx
        have hm : b % UINT_BITS ≠ c % UINT_BITS := fun e => hc (bit_num_eq_of_parts hidx e)
        rw [testBit_and_not_bit _ _ (c % UINT_BITS) (Nat.mod_lt _ (by decide))]
        unfold bitmask_word_bit
        rw [hidx, List.getD_eq_getElem?_getD, hword]
        simp [hm]
      · rfl

theorem set_in_array_sets_one_bit_witness :
    (CoglBitmask.direct 11).valid ∧
    ∃ result, _cogl_bitmask_set_in_array (CoglBitmask.direct 11) 40 true = some result ∧
      result.valid ∧ _cogl_bitmask_get_from_array result 40 = some true ∧
      ∀ c, c ≠ 40 →
        _cogl_bitmask_get_from_array result c = _cogl_bitmask_get (CoglBitmask.direct 11) c :=
  ⟨by decide, set_in_array_sets_one_bit (CoglBitmask.direct 11) 40 true (by decide)⟩

theorem testBit_low_mask (bi j : Nat) (hbi : bi < 32) :
    (UINT_MAX >>> (UINT_BITS - 1 - bi)).testBit j = decide (j ≤ bi) := by
  rw [Nat.testBit_shiftRight, UINT_MAX, Nat.testBit_two_pow_sub_one]
  simp only [UINT_BITS]
  by_cases h : j ≤ bi
  · rw [decide_eq_true h]
    exact decide_eq_true (by omega)
  · rw [decide_eq_false h]
    exact decide_eq_false (by omega)

theorem testBit_high_mask (bi j : Nat) (hj : j < 32) :
    (((UINT_MAX ^^^ 1) <<< bi) % 2 ^ 32).testBit j = decide (bi < j) := by
  rw [Nat.testBit_mod_two_pow, Nat.testBit_shiftLeft, Nat.testBit_xor, UINT_MAX,
    Nat.testBit_two_pow_sub_one]
  have h1 : (1 : Nat).testBit (j - bi) = decide (j - bi = 0) := by
    have := @Nat.testBit_two_pow 0 (j - bi)
    simp only [Nat.pow_zero] at this
    rw [this]
    by_cases h : j - bi = 0
    · rw [decide_eq_true h, decide_eq_true h.symm]
    · rw [decide_eq_false h, decide_eq_false (fun e => h e.symm)]
  rw [h1]
  by_cases h : bi < j
  · rw [decide_eq_true h, decide_eq_true hj, decide_eq_true (show j ≥ bi by omega),
      decide_eq_true (show j - bi < 32 by omega), decide_eq_false (show ¬ (j - bi = 0) by omega)]
    rfl
  · rw [decide_eq_false h]
    by_cases h2 : j ≥ bi
    · rw [decide_eq_true h2, decide_eq_true (show j - bi < 32 by omega),
        decide_eq_true (show j - bi = 0 by omega)]
      simp
    · rw [decide_eq_false h2]
      simp

theorem getD_replicate_drop (l : List Nat) (ai X idx : Nat) (_h : ai ≤ l.length) :
    (List.replicate ai X ++ l.drop ai).getD idx 0 = if idx < ai then X else l.getD idx 0 := by
  rw [List.getD_eq_getElem?_getD, List.getD_eq_getElem?_getD]
  by_cases hi : idx < ai
  · rw [if_pos hi, List.getElem?_append_left (by rw [List.length_replicate]; exact hi),
      List.getElem?_replicate, if_pos hi]
    rfl
  · rw [if_neg hi, List.getElem?_append_right (by rw [List.length_replicate]; omega),
      List.length_replicate, List.getElem?_drop]
    congr 2
    omega

theorem word_lt_replicate_drop {l : List Nat} (ai X : Nat) (hX : X < 2 ^ 32)
    (h : ∀ x ∈ l, x < 2 ^ 32) : ∀ x ∈ List.replicate ai X ++ l.drop ai, x < 2 ^ 32 := by
  intro x hx
  rcases List.mem_append.mp hx with hr | hd
  · rw [(List.mem_replicate.mp hr).2]; exact hX
  · exact h x (List.mem_of_mem_drop hd)

theorem bit_num_parts (n c : Nat) (hn : 0 < n) :
    (c / UINT_BITS < (n - 1) / UINT_BITS → c < n) ∧
    (c / UINT_BITS = (n - 1) / UINT_BITS → (c < n ↔ c % UINT_BITS ≤ (n - 1) % UINT_BITS)) ∧
    ((n - 1) / UINT_BITS < c / UINT_BITS → n ≤ c) := by
  have e1 := Nat.div_add_mod c UINT_BITS
  have e2 := Nat.div_add_mod (n - 1) UINT_BITS
  have m1 := Nat.mod_lt c (show 0 < UINT_BITS by decide)
  have m2 := Nat.mod_lt (n - 1) (show 0 < UINT_BITS by decide)
  simp only [UINT_BITS] at *
  refine ⟨fun h => by omega, fun h => by omega, fun h => by omega⟩

/-- C39: `_cogl_bitmask_set_range_in_array (mask, n_bits, v)` on a well-formed
bitmask. With `n_bits = 0` the bitmask is returned as it is. Otherwise the call
returns a well-formed array in which every bit below `n_bits` reads `v` and every
bit at `n_bits` or above reads what `_cogl_bitmask_get` read before the call. -/
theorem set_range_in_array_sets_low_bits (bitmask : CoglBitmask) (n_bits : Nat)
    (value : Bool) (hv : bitmask.valid) :
    (n_bits = 0 → _cogl_bitmask_set_range_in_array bitmask n_bits value = some bitmask) ∧
    (0 < n_bits →
      ∃ result, _cogl_bitmask_set_range_in_array bitmask n_bits value = some result ∧
        result.valid ∧
        (∀ c, c < n_bits → _cogl_bitmask_get_from_array result c = some value) ∧
        ∀ c, n_bits ≤ c →
          _cogl_bitmask_get_from_array result c = _cogl_bitmask_get bitmask c) := by
  constructor
  · intro h0
    unfold _cogl_bitmask_set_range_in_array
    rw [if_pos h0]
  intro hn
  obtain ⟨array, harr, hne, hbits⟩ := bitmask_array_spec hv
  have hwords := bitmask_array_lt hv harr
  have hgrow : ∃ array2, (if (n_bits - 1) / UINT_BITS ≥ array.length
      then g_array_set_size array ((n_bits - 1) / UINT_BITS + 1) else array) = array2 ∧
      (n_bits - 1) / UINT_BITS < array2.length ∧ (∀ x ∈ array2, x < 2 ^ 32) ∧
      ∀ c, bitmask_word_bit array2 c = bitmask_word_bit array c := by
    by_cases hge : (n_bits - 1) / UINT_BITS ≥ array.length
    · rw [if_pos hge]
      refine ⟨_, rfl, ?_, word_lt_of_set_size _ hwords, fun c => word_bit_set_size _ _ _ ?_⟩
      · rw [length_set_size]; omega
      · omega
    · rw [if_neg hge]
      exact ⟨array, rfl, by omega, hwords, fun _ => rfl⟩
  obtain ⟨array2, h2, hlen2, hwords2, hbits2⟩ := hgrow
  have hbi : (n_bits - 1) % UINT_BITS < 32 := Nat.mod_lt _ (by decide)
  have hword : array2[(n_bits - 1) / UINT_BITS]? = some (array2[(n_bits - 1) / UINT_BITS]) :=
    List.getElem?_eq_getElem hlen2
  have hwlt : array2[(n_bits - 1) / UINT_BITS] < 2 ^ 32 := hwords2 _ (List.getElem_mem _)
  have hmax : UINT_MAX < 2 ^ 32 := by decide
  have hread : ∀ (w X : Nat) (c : Nat),
      bitmask_word_bit (List.replicate ((n_bits - 1) / UINT_BITS) X ++
        (array2.set ((n_bits - 1) / UINT_BITS) w).drop ((n_bits - 1) / UINT_BITS)) c =
      if c / UINT_BITS < (n_bits - 1) / UINT_BITS then X.testBit (c % UINT_BITS)
      else if c / UINT_BITS = (n_bits - 1) / UINT_BITS then w.testBit (c % UINT_BITS)
      else bitmask_word_bit array2 c := by
    intro w X c
    have hset := word_bit_set array2 ((n_bits - 1) / UINT_BITS) w c hlen2
    unfold bitmask_word_bit at hset ⊢
    rw [getD_replicate_drop _ _ _ _ (by rw [List.length_set]; omega)]
    by_cases h1 : c / UINT_BITS < (n_bits - 1) / UINT_BITS
    · rw [if_pos h1, if_pos h1]
    · rw [if_neg h1, if_neg h1, hset]
  have hnonempty : ∀ (w X : Nat), List.replicate ((n_bits - 1) / UINT_BITS) X ++
      (array2.set ((n_bits - 1) / UINT_BITS) w).drop ((n_bits - 1) / UINT_BITS) ≠ [] := by
    intro w X h
    have := congrArg List.length h
    rw [List.length_append, List.length_replicate, List.length_drop, List.length_set,
      List.length_nil] at this
    exact Nat.ne_of_gt (Nat.add_pos_right _ (Nat.sub_pos_of_lt hlen2)) this
  have hcm : ∀ c, c % UINT_BITS < 32 := fun c => Nat.mod_lt _ (by decide)
  unfold _cogl_bitmask_set_range_in_array
  rw [if_neg (by omega)]
  simp only [Option.bind_eq_bind, harr, Option.some_bind, h2, hword, Option.pure_def]
  cases value with
  | true =>
    simp only [if_true]
    refine ⟨_, rfl, ⟨hnonempty _ _, word_lt_replicate_drop _ _ hmax
      (word_lt_of_set (Nat.or_lt_two_pow hwlt
        (Nat.lt_of_le_of_lt (by rw [Nat.shiftRight_eq_div_pow]; exact Nat.div_le_self _ _) hmax)) hwords2)⟩, ?_, ?_⟩
    · intro c hc
      obtain ⟨p1, p2, p3⟩ := bit_num_parts n_bits c hn
      rw [get_from_array_bit, hread]
      congr 1
      split
      · rw [UINT_MAX, Nat.testBit_two_pow_sub_one]
        exact decide_eq_true (hcm c)
      · split
        · rename_i hidx
          rw [Nat.testBit_or, testBit_low_mask _ _ hbi, decide_eq_true ((p2 hidx).mp hc)]
          simp
        · rename_i h1 h2
          have : (n_bits - 1) / UINT_BITS < c / UINT_BITS := by omega
          exact absurd (p3 this) (by omega)
    · intro c hc
      obtain ⟨p1, p2, p3⟩ := bit_num_parts n_bits c hn
      rw [get_from_array_bit, hread, hbits c, ← hbits2 c]
      congr 1
      split
      · rename_i h1
        exact absurd (p1 h1) (by omega)
      · split
        · rename_i hidx
          have hnle : ¬ c % UINT_BITS ≤ (n_bits - 1) % UINT_BITS :=
            fun h => absurd ((p2 hidx).mpr h) (by omega)
          rw [Nat.testBit_or, testBit_low_mask _ _ hbi, decide_eq_false hnle, Bool.or_false]
          unfold bitmask_word_bit
          rw [hidx, List.getD_eq_getElem?_getD, hword]
          rfl
        · rfl
  | false =>
    simp only [Bool.false_eq_true, if_false]
    refine ⟨_, rfl, ⟨hnonempty _ _, word_lt_replicate_drop _ _ (by decide)
      (word_lt_of_set (Nat.lt_of_le_of_lt Nat.and_le_left hwlt) hwords2)⟩, ?_, ?_⟩
    · intro c hc
      obtain ⟨p1, p2, p3⟩ := bit_num_parts n_bits c hn
      rw [get_from_array_bit, hread]
      congr 1
      split
      · exact Nat.zero_testBit _
      · split
        · rename_i hidx
          have hle := (p2 hidx).mp hc
          rw [Nat.testBit_and, testBit_high_mask _ _ (hcm c),
            decide_eq_false (show ¬ (n_bits - 1) % UINT_BITS < c % UINT_BITS by omega),
            Bool.and_false]
        · rename_i h1 h2
          have : (n_bits - 1) / UINT_BITS < c / UINT_BITS := by omega
          exact absurd (p3 this) (by omega)
    · intro c hc
      obtain ⟨p1, p2, p3⟩ := bit_num_parts n_bits c hn
      rw [get_from_array_bit, hread, hbits c, ← hbits2 c]
      congr 1
      split
      · rename_i h1
        exact absurd (p1 h1) (by omega)
      · split
        · rename_i hidx
          have hnle : ¬ c % UINT_BITS ≤ (n_bits - 1) % UINT_BITS :=
            fun h => absurd ((p2 hidx).mpr h) (by omega)
          rw [Nat.testBit_and, testBit_high_mask _ _ (hcm c),
            decide_eq_true (show (n_bits - 1) % UINT_BITS < c % UINT_BITS by omega),
            Bool.and_true]
          unfold bitmask_word_bit
          rw [hidx, List.getD_eq_getElem?_getD, hword]
          rfl
        · rfl

theorem set_range_in_array_sets_low_bits_witness :
    (CoglBitmask.direct 11).valid ∧ (0 : Nat) < 64 ∧
    ∃ result, _cogl_bitmask_set_range_in_array (CoglBitmask.direct 11) 64 false =
        some result ∧ result.valid ∧
      (∀ c, c < 64 → _cogl_bitmask_get_from_array result c = some false) ∧
      ∀ c, 64 ≤ c →
        _cogl_bitmask_get_from_array result c = _cogl_bitmask_get (CoglBitmask.direct 11) c :=
  ⟨by decide, by decide,
    (set_range_in_array_sets_low_bits (CoglBitmask.direct 11) 64 false (by decide)).2
      (by decide)⟩

theorem bitmask_words_spec {bitmask : CoglBitmask} (hv : bitmask.valid) :
    ∃ array, bitmask_array bitmask = some array ∧ array ≠ [] ∧ (∀ x ∈ array, x < 2 ^ 32) ∧
      ∀ b, _cogl_bitmask_get bitmask b = some (bitmask_word_bit array b) := by
  obtain ⟨array, h1, h2, h3⟩ := bitmask_array_spec hv
  exact ⟨array, h1, h2, bitmask_array_lt hv h1, h3⟩

theorem bitmask_combine_loop_spec (op : Nat → Nat → Nat) (src dst : List Nat)
    (hlen : src.length ≤ dst.length) :
    ∃ r, bitmask_combine_loop op src dst = some r ∧ r.length = dst.length ∧
      ∀ j, r.getD j 0 =
        if j < src.length then op (dst.getD j 0) (src.getD j 0) else dst.getD j 0 := by
  unfold bitmask_combine_loop
  have key : ∀ n, n ≤ src.length →
      ∃ r, (List.range n).foldlM (fun dst i => do
          let d ← dst[i]?
          let s ← src[i]?
          pure (dst.set i (op d s))) dst = some r ∧ r.length = dst.length ∧
        ∀ j, r.getD j 0 =
          if j < n then op (dst.getD j 0) (src.getD j 0) else dst.getD j 0 := by
    intro n
    induction n with
    | zero =>
      intro _
      refine ⟨dst, rfl, rfl, fun j => ?_⟩
      rw [if_neg (Nat.not_lt_zero j)]
    | succ n ih =>
      intro hn
      obtain ⟨r, hr, hrl, hrj⟩ := ih (Nat.le_of_succ_le hn)
      have hns : n < src.length := hn
      have hnr : n < r.length := by omega
      rw [List.range_succ, List.foldlM_append, hr]
      simp only [Option.bind_eq_bind, Option.some_bind, List.foldlM_cons, List.foldlM_nil,
        List.getElem?_eq_getElem hnr, List.getElem?_eq_getElem hns, Option.pure_def,
        Option.bind_some]
      refine ⟨_, rfl, by rw [List.length_set, hrl], fun j => ?_⟩
      have hrn := hrj n
      rw [if_neg (Nat.lt_irrefl n), List.getD_eq_getElem?_getD,
        List.getElem?_eq_getElem hnr] at hrn
      have hsn : src.getD n 0 = src[n] := by
        rw [List.getD_eq_getElem?_getD, List.getElem?_eq_getElem hns]
        rfl
      rw [List.getD_eq_getElem?_getD, List.getElem?_set]
      by_cases hj : n = j
      · subst hj
        rw [if_pos rfl, if_pos hnr, if_pos (Nat.lt_succ_self n), ← hsn]
        show op r[n] (src.getD n 0) = _
        rw [← hrn]
        rfl
      · rw [if_neg hj, ← List.getD_eq_getElem?_getD, hrj j]
        by_cases hjn : j < n
        · rw [if_pos hjn, if_pos (Nat.lt_succ_of_lt hjn)]
        · rw [if_neg hjn, if_neg (by omega)]
  exact key src.length (Nat.le_refl _)

theorem words_lt_of_getD {r : List Nat} (h : ∀ j, j < r.length → r.getD j 0 < 2 ^ 32) :
    ∀ x ∈ r, x < 2 ^ 32 := by
  intro x hx
  obtain ⟨i, hi, rfl⟩ := List.getElem_of_mem hx
  have := h i hi
  rw [List.getD_eq_getElem?_getD, List.getElem?_eq_getElem hi] at this
  exact this

theorem getD_lt_of_words {r : List Nat} (h : ∀ x ∈ r, x < 2 ^ 32) (j : Nat) :
    r.getD j 0 < 2 ^ 32 := by
  rw [List.getD_eq_getElem?_getD]
  by_cases hj : j < r.length
  · rw [List.getElem?_eq_getElem hj]
    exact h _ (List.getElem_mem _)
  · rw [List.getElem?_eq_none_iff.mpr (Nat.le_of_not_lt hj)]
    decide

theorem tag_bit_iff (x : Nat) : x &&& 1 = 1 ↔ x.testBit 0 = true := by
  rw [Nat.and_one_is_mod, Nat.testBit_zero, decide_eq_true_iff]

/-- The text shared by `_cogl_bitmask_set_bits` and `_cogl_bitmask_xor_bits` on
well-formed bitmasks, for a word operation `op` that works bit by bit as `bop`: the
call returns a well-formed bitmask whose bit `b` is `bop` of the two bits before, and
two direct values give a direct value. -/
theorem bitmask_combine_spec (op direct : Nat → Nat → Nat) (bop : Bool → Bool → Bool)
    (hop : ∀ d s j, (op d s).testBit j = bop (d.testBit j) (s.testBit j))
    (hlt : ∀ d s, d < 2 ^ 32 → s < 2 ^ 32 → op d s < 2 ^ 32)
    (hb : ∀ x, bop x false = x)
    (hdlt : ∀ d s, d < 2 ^ 32 → s < 2 ^ 32 → direct d s < 2 ^ 32)
    (hdtag : ∀ d s, d.testBit 0 = true → s.testBit 0 = true → (direct d s).testBit 0 = true)
    (hdop : ∀ d s j, (direct d s).testBit (j + 1) =
      bop (d.testBit (j + 1)) (s.testBit (j + 1)))
    (dst src : CoglBitmask) (hd : dst.valid) (hs : src.valid) :
    ∃ r, bitmask_combine op direct dst src = some r ∧ r.valid ∧
      (∀ b, ∃ x y, _cogl_bitmask_get dst b = some x ∧ _cogl_bitmask_get src b = some y ∧
        _cogl_bitmask_get r b = some (bop x y)) ∧
      (_cogl_bitmask_has_array dst = false → _cogl_bitmask_has_array src = false →
        _cogl_bitmask_has_array r = false) := by
  cases src with
  | array src_array =>
    obtain ⟨dst_array, harr, hne, hwords, hbits⟩ := bitmask_words_spec hd
    have hgrow : ∃ array2, (if dst_array.length < src_array.length
        then g_array_set_size dst_array src_array.length else dst_array) = array2 ∧
        src_array.length ≤ array2.length ∧ array2 ≠ [] ∧ (∀ x ∈ array2, x < 2 ^ 32) ∧
        ∀ c, bitmask_word_bit array2 c = bitmask_word_bit dst_array c := by
      by_cases hl : dst_array.length < src_array.length
      · rw [if_pos hl]
        refine ⟨_, rfl, by rw [length_set_size], ?_, word_lt_of_set_size _ hwords,
          fun c => word_bit_set_size _ _ _ (Nat.le_of_lt hl)⟩
        intro h
        have := congrArg List.length h
        rw [length_set_size, List.length_nil] at this
        omega
      · rw [if_neg hl]
        exact ⟨dst_array, rfl, Nat.le_of_not_lt hl, hne, hwords, fun _ => rfl⟩
    obtain ⟨array2, h2, hlen2, hne2, hwords2, hbits2⟩ := hgrow
    obtain ⟨r, hr, hrl, hrj⟩ := bitmask_combine_loop_spec op src_array array2 hlen2
    refine ⟨CoglBitmask.array r, ?_, ⟨?_, ?_⟩, ?_, ?_⟩
    · unfold bitmask_combine
      simp only [_cogl_bitmask_has_array, if_true, Option.bind_eq_bind, harr,
        Option.some_bind, h2, hr, Option.pure_def]
    · intro h
      rw [h, List.length_nil] at hrl
      exact hne2 (List.length_eq_zero.mp hrl.symm)
    · refine words_lt_of_getD (fun j _ => ?_)
      rw [hrj j]
      split
      · exact hlt _ _ (getD_lt_of_words hwords2 j) (getD_lt_of_words hs.2 j)
      · exact getD_lt_of_words hwords2 j
    · intro b
      refine ⟨_, _, hbits b, bitmask_get_array src_array b, ?_⟩
      rw [bitmask_get_array, ← hbits2 b]
      congr 1
      unfold bitmask_word_bit
      rw [hrj]
      by_cases hj : b / UINT_BITS < src_array.length
      · rw [if_pos hj, hop]
      · rw [if_neg hj, List.getD_eq_getElem?_getD (l := src_array),
          List.getElem?_eq_none_iff.mpr (Nat.le_of_not_lt hj)]
        show _ = bop _ ((0 : Nat).testBit _)
        rw [Nat.zero_testBit, hb]
    · intro _ hsa
      simp only [_cogl_bitmask_has_array] at hsa
      exact absurd hsa (by decide)
  | direct src_value =>
    have hstag : src_value &&& 1 = 1 := hs.2
    have hsrc : _cogl_bitmask_has_array (CoglBitmask.direct src_value) = false := by
      simp only [_cogl_bitmask_has_array, hstag]
      decide
    cases dst with
    | array dst_array =>
      have h0 : 0 < dst_array.length := List.length_pos.mpr hd.1
      have hslt : src_value >>> 1 < 2 ^ 32 := by
        rw [Nat.shiftRight_eq_div_pow]
        exact Nat.lt_of_le_of_lt (Nat.div_le_self _ _) hs.1
      refine ⟨CoglBitmask.array (dst_array.set 0 (op dst_array[0] (src_value >>> 1))), ?_,
        ⟨?_, ?_⟩, ?_, ?_⟩
      · unfold bitmask_combine
        simp only [hsrc, Bool.false_eq_true, if_false, _cogl_bitmask_has_array,
          if_true, Option.bind_eq_bind, List.getElem?_eq_getElem h0, Option.some_bind,
          Option.pure_def, hstag, show ¬ ((1 : Nat) = 0) from by decide, decide_False]
      · intro h
        have := congrArg List.length h
        rw [List.length_set, List.length_nil] at this
        omega
      · exact word_lt_of_set (hlt _ _ (hd.2 _ (List.getElem_mem _)) hslt) hd.2
      · intro b
        refine ⟨_, _, bitmask_get_array dst_array b, bitmask_get_direct hs b, ?_⟩
        rw [bitmask_get_array, word_bit_set _ _ _ _ h0]
        congr 1
        by_cases hb0 : b / UINT_BITS = 0
        · rw [if_pos hb0, hop]
          unfold bitmask_word_bit
          rw [hb0, List.getD_eq_getElem?_getD, List.getElem?_eq_getElem h0]
          rfl
        · rw [if_neg hb0]
          have : bitmask_word_bit [src_value >>> 1] b = false := by
            unfold bitmask_word_bit
            rw [List.getD_eq_getElem?_getD, List.getElem?_eq_none_iff.mpr (by
              rw [List.length_singleton]; exact Nat.pos_of_ne_zero hb0)]
            exact Nat.zero_testBit _
          rw [this, hb]
      · intro hda
        simp only [_cogl_bitmask_has_array] at hda
        exact absurd hda (by decide)
    | direct dst_value =>
      have hdtag0 : dst_value &&& 1 = 1 := hd.2
      have hdst : _cogl_bitmask_has_array (CoglBitmask.direct dst_value) = false := by
        simp only [_cogl_bitmask_has_array, hdtag0]
        decide
      have hrv : (CoglBitmask.direct (direct dst_value src_value)).valid :=
        ⟨hdlt _ _ hd.1 hs.1,
          (tag_bit_iff _).mpr (hdtag _ _ ((tag_bit_iff _).mp hd.2) ((tag_bit_iff _).mp hs.2))⟩
      refine ⟨CoglBitmask.direct (direct dst_value src_value), ?_, hrv, ?_, ?_⟩
      · unfold bitmask_combine
        simp only [hsrc, hdst, Bool.false_eq_true, if_false]
      · intro b
        refine ⟨_, _, bitmask_get_direct hd b, bitmask_get_direct hs b, ?_⟩
        rw [bitmask_get_direct hrv]
        congr 1
        unfold bitmask_word_bit
        by_cases hb0 : b / UINT_BITS = 0
        · rw [hb0]
          show (direct dst_value src_value >>> 1).testBit _ =
            bop ((dst_value >>> 1).testBit _) ((src_value >>> 1).testBit _)
          rw [Nat.testBit_shiftRight, Nat.testBit_shiftRight, Nat.testBit_shiftRight,
            Nat.add_comm 1, hdop]
        · have e : ∀ v : Nat, [v].getD (b / UINT_BITS) 0 = 0 := by
            intro v
            rw [List.getD_eq_getElem?_getD, List.getElem?_eq_none_iff.mpr (by
              rw [List.length_singleton]; exact Nat.pos_of_ne_zero hb0)]
            rfl
          rw [e, e, e, Nat.zero_testBit, hb]
      · intro _ _
        simp only [_cogl_bitmask_has_array, hrv.2]
        decide

/-- C40: `_cogl_bitmask_xor_bits (dst, src)` and `_cogl_bitmask_set_bits (dst,
src)` on well-formed bitmasks in any combination of direct and array form. Each call
returns a well-formed bitmask; every bit of the result of `xor_bits` is the old bit
of `dst` XOR the bit of `src`, every bit of the result of `set_bits` is the old bit
of `dst` OR the bit of `src`; two direct values give a direct value (the tag bit
stays set); and `xor_bits` with the same `src` a second time returns a bitmask with
the bits `dst` had at first. -/
theorem xor_bits_and_set_bits_combine_bitwise (dst src : CoglBitmask)
    (hd : dst.valid) (hs : src.valid) :
    (∃ r, _cogl_bitmask_xor_bits dst src = some r ∧ r.valid ∧
      (∀ b, ∃ x y, _cogl_bitmask_get dst b = some x ∧ _cogl_bitmask_get src b = some y ∧
        _cogl_bitmask_get r b = some (xor x y)) ∧
      (_cogl_bitmask_has_array dst = false → _cogl_bitmask_has_array src = false →
        _cogl_bitmask_has_array r = false) ∧
      ∃ r2, _cogl_bitmask_xor_bits r src = some r2 ∧ r2.valid ∧
        ∀ b, _cogl_bitmask_get r2 b = _cogl_bitmask_get dst b) ∧
    (∃ r, _cogl_bitmask_set_bits dst src = some r ∧ r.valid ∧
      (∀ b, ∃ x y, _cogl_bitmask_get dst b = some x ∧ _cogl_bitmask_get src b = some y ∧
        _cogl_bitmask_get r b = some (x || y)) ∧
      (_cogl_bitmask_has_array dst = false → _cogl_bitmask_has_array src = false →
        _cogl_bitmask_has_array r = false)) := by
  have hxor : ∀ (d s : CoglBitmask), d.valid → s.valid →
      ∃ r, _cogl_bitmask_xor_bits d s = some r ∧ r.valid ∧
      (∀ b, ∃ x y, _cogl_bitmask_get d b = some x ∧ _cogl_bitmask_get s b = some y ∧
        _cogl_bitmask_get r b = some (xor x y)) ∧
      (_cogl_bitmask_has_array d = false → _cogl_bitmask_has_array s = false →
        _cogl_bitmask_has_array r = false) := by
    intro d s hdv hsv
    refine bitmask_combine_spec (fun d s => d ^^^ s) (fun d s => (d ^^^ s) ||| 1) xor
      (fun d s j => Nat.testBit_xor d s j) (fun d s h1 h2 => Nat.xor_lt_two_pow h1 h2)
      (fun x => Bool.xor_false x)
      (fun d s h1 h2 => Nat.or_lt_two_pow (Nat.xor_lt_two_pow h1 h2) (by decide))
      (fun d s _ _ => ?_) (fun d s j => ?_) d s hdv hsv
    · show ((d ^^^ s) ||| 1).testBit 0 = true
      rw [Nat.testBit_or]
      simp
    · show ((d ^^^ s) ||| 1).testBit (j + 1) = _
      rw [Nat.testBit_or, Nat.testBit_xor]
      have : (1 : Nat).testBit (j + 1) = false := by
        have := @Nat.testBit_two_pow 0 (j + 1)
        simp only [Nat.pow_zero] at this
        rw [this]
        exact decide_eq_false (by omega)
      rw [this, Bool.or_false]
  constructor
  · obtain ⟨r, hr, hrv, hrb, hrd⟩ := hxor dst src hd hs
    obtain ⟨r2, hr2, hr2v, hr2b, _⟩ := hxor r src hrv hs
    refine ⟨r, hr, hrv, hrb, hrd, r2, hr2, hr2v, fun b => ?_⟩
    obtain ⟨x, y, hx, hy, hxy⟩ := hrb b
    obtain ⟨x2, y2, hx2, hy2, hxy2⟩ := hr2b b
    rw [hxy] at hx2
    rw [hy] at hy2
    rw [hxy2, hx, ← Option.some.inj hx2, ← Option.some.inj hy2]
    congr 1
    cases x <;> cases y <;> rfl
  · refine bitmask_combine_spec (fun d s => d ||| s) (fun d s => d ||| s) (fun x y => x || y)
      (fun d s j => Nat.testBit_or d s j) (fun d s h1 h2 => Nat.or_lt_two_pow h1 h2)
      (fun x => Bool.or_false x)
      (fun d s h1 h2 => Nat.or_lt_two_pow h1 h2)
      (fun d s h1 _ => ?_) (fun d s j => Nat.testBit_or d s _) dst src hd hs
    show (d ||| s).testBit 0 = true
    rw [Nat.testBit_or, h1]
    rfl

theorem xor_bits_and_set_bits_combine_bitwise_witness :
    (CoglBitmask.direct 11).valid ∧ (CoglBitmask.array [6, 1]).valid ∧
    (∃ r, _cogl_bitmask_xor_bits (CoglBitmask.direct 11) (CoglBitmask.array [6, 1]) = some r ∧
      r.valid ∧
      (∀ b, ∃ x y, _cogl_bitmask_get (CoglBitmask.direct 11) b = some x ∧
        _cogl_bitmask_get (CoglBitmask.array [6, 1]) b = some y ∧
        _cogl_bitmask_get r b = some (xor x y)) ∧
      (_cogl_bitmask_has_array (CoglBitmask.direct 11) = false →
        _cogl_bitmask_has_array (CoglBitmask.array [6, 1]) = false →
        _cogl_bitmask_has_array r = false) ∧
      ∃ r2, _cogl_bitmask_xor_bits r (CoglBitmask.array [6, 1]) = some r2 ∧ r2.valid ∧
        ∀ b, _cogl_bitmask_get r2 b = _cogl_bitmask_get (CoglBitmask.direct 11) b) ∧
    (∃ r, _cogl_bitmask_set_bits (CoglBitmask.direct 11) (CoglBitmask.array [6, 1]) = some r ∧
      r.valid ∧
      (∀ b, ∃ x y, _cogl_bitmask_get (CoglBitmask.direct 11) b = some x ∧
        _cogl_bitmask_get (CoglBitmask.array [6, 1]) b = some y ∧
        _cogl_bitmask_get r b = some (x || y)) ∧
      (_cogl_bitmask_has_array (CoglBitmask.direct 11) = false →
        _cogl_bitmask_has_array (CoglBitmask.array [6, 1]) = false →
        _cogl_bitmask_has_array r = false)) :=
  ⟨by decide, by decide,
    xor_bits_and_set_bits_combine_bitwise (CoglBitmask.direct 11) (CoglBitmask.array [6, 1])
      (by decide) (by decide)⟩

/-! ## The default layers -/

theorem parents_held_refl (ctx : CoglContext) : parents_held ctx ctx :=
  fun _ k hk => ⟨k, hk, rfl⟩

theorem parents_held_trans {a b c : CoglContext} (h1 : parents_held a b)
    (h2 : parents_held b c) : parents_held a c := by
  intro K k hk
  obtain ⟨k2, hk2, p2⟩ := h1 K k hk
  obtain ⟨k3, hk3, p3⟩ := h2 K k2 hk2
  exact ⟨k3, hk3, p3.trans p2⟩

theorem parents_held_of_held {free : Nat → Prop} {a b : CoglContext}
    (h : layers_held_but free a b) : parents_held a b := by
  intro K k hk
  obtain ⟨k2, hk2, hc, -, -⟩ := h K k hk
  exact ⟨k2, hk2, (layer_core_fields hc).1⟩

theorem parents_held_of_eq {a b : CoglContext} (h : b.layers = a.layers) :
    parents_held a b := parents_held_of_held (@layers_held_of_eq (fun _ => False) a b h)

theorem parents_held_set {ctx : CoglContext} {L : Nat} {old v : CoglPipelineLayer}
    (h : ctx.layer L = some old) (hp : v.parent = old.parent) :
    parents_held ctx (ctx.set_layer L v) := by
  intro K k hk
  by_cases hK : L = K
  · subst hK
    rw [h] at hk
    obtain rfl := Option.some.inj hk
    exact ⟨v, layer_set_layer_self h v, hp⟩
  · exact ⟨k, by rw [layer_set_layer_ne _ hK]; exact hk, rfl⟩

theorem parents_held_length {a b : CoglContext} (h : parents_held a b) :
    a.layers.length ≤ b.layers.length := by
  by_contra hlt
  have hlt2 : b.layers.length < a.layers.length := Nat.lt_of_not_le hlt
  have hex : ∃ k, a.layer b.layers.length = some k :=
    ⟨_, List.getElem?_eq_getElem hlt2⟩
  obtain ⟨k, hk⟩ := hex
  obtain ⟨k2, hk2, -⟩ := h _ k hk
  exact absurd (layer_lt_length hk2) (Nat.lt_irrefl _)

theorem init_layer_state_parents {fuel : Nat} {ctx c : CoglContext} {ro : Option Nat}
    {layer change r : Nat}
    (h : layer_pre_change_notify_init_layer_state fuel ctx ro layer change = some (c, r)) :
    r = layer ∧ parents_held ctx c := by
  obtain ⟨hr, cA, k, v, hAl, -, hk, hc, hp, -, -, -, -⟩ := init_layer_state_spec h
  refine ⟨hr, ?_⟩
  have hkA : cA.layer layer = some k := by
    simp only [CoglContext.layer, hAl]
    exact hk
  rw [hc]
  exact parents_held_trans (parents_held_of_eq hAl) (parents_held_set hkA hp)

theorem add_layer_difference_parents {fuel : Nat} {ctx c : CoglContext} {p N : Nat}
    {inc : Bool} (h : _cogl_pipeline_add_layer_difference fuel ctx p N inc = some c) :
    parents_held ctx c := by
  unfold _cogl_pipeline_add_layer_difference add_layer_difference_with at h
  simp only [Option.bind_eq_bind, Option.pure_def] at h
  obtain ⟨l, hl, h⟩ := Option.bind_eq_some.mp h
  split at h
  · rw [← Option.some.inj h]
    exact parents_held_refl ctx
  obtain ⟨c2, h2, h⟩ := Option.bind_eq_some.mp h
  obtain ⟨c3, h3, h⟩ := Option.bind_eq_some.mp h
  obtain ⟨n, -, h4⟩ := modify_pipeline_inv h
  have k1 : parents_held ctx (ctx.set_layer N { l with owner := some p }) :=
    parents_held_set hl rfl
  have k2 := parents_held_of_held (object_ref_layer_held (fun _ => False) h2)
  have k3 := parents_held_of_held (pre_change_notify_held h3)
  have k4 : parents_held c3 c := parents_held_of_eq (by rw [h4]; rfl)
  exact parents_held_trans k1 (parents_held_trans k2 (parents_held_trans k3 k4))

theorem layer_change_notify_backends_layers {c c2 : CoglContext} {p L change : Nat}
    (h : layer_change_notify_backends c p L change = some c2) : c2.layers = c.layers := by
  unfold layer_change_notify_backends at h
  split at h
  · exact absurd h (by simp)
  rw [← Option.some.inj h]
  simp only [CoglContext.emit]
  split <;> split <;> rfl

/-- What `_cogl_pipeline_layer_pre_change_notify` does to the parent links, for any
required owner: every layer keeps its parent, and the layer returned is the one
passed or a new layer that is a child of it. -/
theorem layer_pre_change_notify_parents {fuel : Nat} {ctx cF : CoglContext}
    {ro : Option Nat} {L r change : Nat}
    (h : _cogl_pipeline_layer_pre_change_notify fuel ctx ro L change = some (cF, r)) :
    parents_held ctx cF ∧
    (r = L ∨ (ctx.layers.length ≤ r ∧ ∃ rn, cF.layer r = some rn ∧ rn.parent = some L)) := by
  unfold _cogl_pipeline_layer_pre_change_notify at h
  simp only [Option.bind_eq_bind, Option.pure_def] at h
  obtain ⟨l, hl, h⟩ := Option.bind_eq_some.mp h
  by_cases he : l.children = [] ∧ l.owner = none
  · rw [if_pos he] at h
    obtain ⟨hr, hp⟩ := init_layer_state_parents h
    exact ⟨hp, Or.inl hr⟩
  rw [if_neg he] at h
  cases ro with
  | none =>
    simp only [Option.some.injEq, Prod.mk.injEq] at h
    rw [← h.1, ← h.2]
    exact ⟨parents_held_refl ctx, Or.inl rfl⟩
  | some p =>
    simp only at h
    obtain ⟨c1, hc1, h⟩ := Option.bind_eq_some.mp h
    obtain ⟨l1, hl1, h⟩ := Option.bind_eq_some.mp h
    have k1 := parents_held_of_held (pre_change_notify_held hc1)
    by_cases hs : l1.children ≠ [] ∨ l1.owner ≠ some p
    · rw [if_pos hs] at h
      obtain ⟨r1, hcopy, h⟩ := Option.bind_eq_some.mp h
      obtain ⟨c2, new⟩ := r1
      dsimp only at h
      obtain ⟨l2, hl2, h⟩ := Option.bind_eq_some.mp h
      obtain ⟨c3, hrem, h⟩ := Option.bind_eq_some.mp h
      obtain ⟨c4, hadd, h⟩ := Option.bind_eq_some.mp h
      obtain ⟨c5, hunref, h⟩ := Option.bind_eq_some.mp h
      have hheld : layers_held_but (fun K => K = L) c2 c3 := by
        split at hrem
        · exact remove_layer_difference_held hrem
        · rw [← Option.some.inj hrem]
          exact layers_held_refl _ c2
      obtain ⟨hr, rn, l5, pn, g1, g2, -⟩ :=
        layer_pre_change_notify_copy_branch hl1 hcopy hheld hadd hunref h
      have k2 := parents_held_of_held (layer_copy_held hcopy)
      have k3 := parents_held_of_held hheld
      have k4 := add_layer_difference_parents hadd
      have k5 := parents_held_of_held (object_unref_layer_held (fun _ => False) hunref)
      have k6 := (init_layer_state_parents h).2
      refine ⟨parents_held_trans k1 (parents_held_trans k2 (parents_held_trans k3
        (parents_held_trans k4 (parents_held_trans k5 k6)))), Or.inr ⟨?_, rn, g1, g2⟩⟩
      rw [hr]
      exact parents_held_length k1
    · rw [if_neg hs] at h
      obtain ⟨c2, hc2, h⟩ := Option.bind_eq_some.mp h
      obtain ⟨unit_index, -, h⟩ := Option.bind_eq_some.mp h
      obtain ⟨hr, k3⟩ := init_layer_state_parents h
      have k2 : parents_held c1 c2 :=
        parents_held_of_eq (layer_change_notify_backends_layers hc2)
      refine ⟨parents_held_trans k1 (parents_held_trans k2
        (parents_held_trans (parents_held_of_eq ?_) k3)), Or.inl hr⟩
      split
      · split <;> rfl
      · rfl

theorem layer_set_parent_parent {ctx c : CoglContext} {l parent : Nat}
    (h : _cogl_pipeline_layer_set_parent ctx l parent = some c) :
    (∃ v, c.layer l = some v ∧ v.parent = some parent) ∧
    ∀ K k, K ≠ l → ctx.layer K = some k → ∃ k2, c.layer K = some k2 ∧ k2.parent = k.parent := by
  have hcores := (layer_set_parent_cores ctx l parent c h).2.2
  refine ⟨?_, ?_⟩
  · unfold _cogl_pipeline_layer_set_parent at h
    split at h
    · exact absurd h (by simp)
    split at h
    · exact absurd h (by simp)
    split at h
    · exact absurd h (by simp)
    split at h
    · exact absurd h (by simp)
    dsimp only at h
    split at h
    · exact absurd h (by simp)
    rename_i n3 h3
    rw [← Option.some.inj h]
    exact ⟨_, layer_set_layer_self h3 _, rfl⟩
  · intro K k hK hk
    have := hcores K hK
    rw [hk] at this
    cases hc : c.layer K with
    | none => rw [hc] at this; exact absurd this (by simp)
    | some k2 =>
      rw [hc] at this
      simp only [Option.map_some', Option.some.injEq] at this
      exact ⟨k2, rfl, (layer_core_fields this).1⟩

/-- The loop of `_cogl_pipeline_layer_prune_redundant_ancestry` stays inside a set of
layers that holds the parent of each of its members. -/
theorem layer_prune_loop_closed {ctx : CoglContext} {S : Nat → Prop} {d : Nat}
    (hS : ∀ Y, S Y → ∀ y, ctx.layer Y = some y → ∀ G, y.parent = some G → S G) :
    ∀ (fuel P P1 : Nat), layer_prune_redundant_ancestry_loop ctx d fuel P = some P1 →
      S P → S P1 := by
  intro fuel
  induction fuel with
  | zero =>
    intro P P1 h
    exact absurd h (by simp [layer_prune_redundant_ancestry_loop])
  | succ f ih =>
    intro P P1 h hP
    rw [layer_prune_redundant_ancestry_loop] at h
    split at h
    · exact absurd h (by simp)
    rename_i np hnp
    split at h
    · rw [← Option.some.inj h]; exact hP
    rename_i G hG
    split at h
    · exact ih G P1 h (hS P hP np hnp G hG)
    · rw [← Option.some.inj h]; exact hP

theorem layer_prune_redundant_ancestry_parents {fuel : Nat} {ctx c : CoglContext} {L : Nat}
    {S : Nat → Prop}
    (hS : ∀ Y, S Y → ∀ y, ctx.layer Y = some y → ∀ G, y.parent = some G → S G)
    (h : _cogl_pipeline_layer_prune_redundant_ancestry fuel ctx L = some c) :
    (∃ l P v P1, ctx.layer L = some l ∧ l.parent = some P ∧ c.layer L = some v ∧
      v.parent = some P1 ∧ (S P → S P1)) ∧
    ∀ K k, K ≠ L → ctx.layer K = some k → ∃ k2, c.layer K = some k2 ∧ k2.parent = k.parent := by
  unfold _cogl_pipeline_layer_prune_redundant_ancestry at h
  simp only [Option.bind_eq_bind] at h
  obtain ⟨l, hl, h⟩ := Option.bind_eq_some.mp h
  obtain ⟨P, hP, h⟩ := Option.bind_eq_some.mp h
  obtain ⟨P1, hP1, h⟩ := Option.bind_eq_some.mp h
  obtain ⟨⟨v, hv, hvp⟩, hrest⟩ := layer_set_parent_parent h
  exact ⟨⟨l, P, v, P1, hl, hP, hv, hvp, layer_prune_loop_closed hS fuel P P1 hP1⟩, hrest⟩

/-- What `_cogl_pipeline_set_layer_unit` does to the parent links: the layer written
to is the one passed or a new layer; every layer of the context before keeps its
parent, but for the layer written to, which had a parent and may have been moved to
an ancestor of it: if its parent was in a set `S` of layers that holds the parent of
each of its members, its new parent is in `S`. -/
theorem set_layer_unit_parents {fuel : Nat} {ctx c : CoglContext} {ro : Option Nat}
    {K u new : Nat} {S : Nat → Prop}
    (hS : ∀ Y, S Y → ∃ y, ctx.layer Y = some y ∧ ∀ G, y.parent = some G → S G)
    (h : _cogl_pipeline_set_layer_unit fuel ctx ro K u = some (c, new)) :
    (new = K ∨ ctx.layers.length ≤ new) ∧
    ∀ X x, ctx.layer X = some x → ∃ x2, c.layer X = some x2 ∧
      (x2.parent = x.parent ∨
        (X = new ∧ ∃ P P1, x.parent = some P ∧ x2.parent = some P1 ∧ (S P → S P1))) := by
  unfold _cogl_pipeline_set_layer_unit at h
  simp only [Option.bind_eq_bind, Option.pure_def] at h
  obtain ⟨authority, hauth, h⟩ := Option.bind_eq_some.mp h
  obtain ⟨a, ha, h⟩ := Option.bind_eq_some.mp h
  split at h
  · simp only [Option.some.injEq, Prod.mk.injEq] at h
    rw [← h.1, ← h.2]
    exact ⟨Or.inl rfl, fun X x hx => ⟨x, hx, Or.inl rfl⟩⟩
  obtain ⟨r1, hpre, h⟩ := Option.bind_eq_some.mp h
  obtain ⟨c1, new1⟩ := r1
  dsimp only at h
  obtain ⟨hheld, hnew⟩ := layer_pre_change_notify_parents hpre
  have hnew2 : new1 = K ∨ ctx.layers.length ≤ new1 := by
    rcases hnew with h1 | ⟨h1, -⟩
    · exact Or.inl h1
    · exact Or.inr h1
  obtain ⟨reverted, hrev, h⟩ := Option.bind_eq_some.mp h
  clear hrev
  cases reverted with
  | true =>
    simp only [if_true] at h
    obtain ⟨c2, h2, h⟩ := Option.bind_eq_some.mp h
    obtain ⟨n, hn, e2⟩ := modify_layer_inv h2
    have k2 : parents_held c1 c2 := by rw [e2]; exact parents_held_set hn rfl
    simp only [Option.some.injEq, Prod.mk.injEq] at h
    obtain ⟨rfl, rfl⟩ := h
    refine ⟨hnew2, fun X x hx => ?_⟩
    obtain ⟨x2, hx2, hp2⟩ := parents_held_trans hheld k2 X x hx
    exact ⟨x2, hx2, Or.inl hp2⟩
  | false =>
    simp only [Bool.false_eq_true, if_false] at h
    obtain ⟨c2, h2, h⟩ := Option.bind_eq_some.mp h
    obtain ⟨n, hn, e2⟩ := modify_layer_inv h2
    have k2 : parents_held c1 c2 := by rw [e2]; exact parents_held_set hn rfl
    split at h
    · obtain ⟨c3, h3, h⟩ := Option.bind_eq_some.mp h
      obtain ⟨c4, h4, h⟩ := Option.bind_eq_some.mp h
      simp only [Option.some.injEq, Prod.mk.injEq] at h
      obtain ⟨hcc, hnn⟩ := h
      subst hcc
      subst hnn
      obtain ⟨n3, hn3, e3⟩ := modify_layer_inv h3
      have k3 : parents_held c2 c3 := by rw [e3]; exact parents_held_set hn3 rfl
      have k13 := parents_held_trans hheld (parents_held_trans k2 k3)
      have hS3 : ∀ Y, S Y → ∀ y, c3.layer Y = some y → ∀ G, y.parent = some G → S G := by
        intro Y hY y hy G hG
        obtain ⟨y0, hy0, hSy⟩ := hS Y hY
        obtain ⟨y3, hy3, hp3⟩ := k13 Y y0 hy0
        rw [hy] at hy3
        obtain rfl := Option.some.inj hy3
        exact hSy G (by rw [← hp3]; exact hG)
      obtain ⟨⟨l, P, v, P1, hl, hP, hv, hvp, hSP⟩, hrest⟩ :=
        layer_prune_redundant_ancestry_parents hS3 h4
      refine ⟨hnew2, fun X x hx => ?_⟩
      obtain ⟨x3, hx3, hp3⟩ := k13 X x hx
      by_cases hX : X = new1
      · subst hX
        rw [hl] at hx3
        obtain rfl := Option.some.inj hx3
        exact ⟨v, hv, Or.inr ⟨rfl, P, P1, by rw [← hp3]; exact hP, hvp, hSP⟩⟩
      · obtain ⟨x4, hx4, hp4⟩ := hrest X x3 hX hx3
        exact ⟨x4, hx4, Or.inl (hp4.trans hp3)⟩
    · simp only [Option.some.injEq, Prod.mk.injEq] at h
      obtain ⟨hcc, hnn⟩ := h
      subst hcc
      subst hnn
      refine ⟨hnew2, fun X x hx => ?_⟩
      obtain ⟨x2, hx2, hp2⟩ := parents_held_trans hheld k2 X x hx
      exact ⟨x2, hx2, Or.inl hp2⟩

theorem update_layer_info_bound {c : CoglContext} {fuel layer n : Nat}
    {info : CoglPipelineLayerInfo} {r : CoglPipelineLayerInfo × Bool}
    (hn : c.layers.length = n)
    (h0 : (∀ f, info.layer = some f → f < n) ∧ ∀ K ∈ info.layers_to_shift, K < n)
    (h : update_layer_info c fuel layer info = some r) :
    (∀ f, r.1.layer = some f → f < n) ∧ ∀ K ∈ r.1.layers_to_shift, K < n := by
  unfold update_layer_info at h
  split at h
  · exact absurd h (by simp)
  rename_i l hl
  have hlt : layer < n := by rw [← hn]; exact layer_lt_length hl
  split at h
  · rw [← Option.some.inj h]
    refine ⟨fun f hf => ?_, h0.2⟩
    rw [← Option.some.inj hf]
    exact hlt
  split at h
  · split at h
    · exact absurd h (by simp)
    rw [← Option.some.inj h]
    exact h0
  · rw [← Option.some.inj h]
    refine ⟨h0.1, fun K hK => ?_⟩
    rcases List.mem_append.mp hK with hm | hm
    · exact h0.2 K hm
    · rw [List.mem_singleton.mp hm]
      exact hlt

theorem foreach_layer_internal_loop_inv {α : Type} {A : Nat}
    {cb : CoglContext → α → Nat → Option (CoglContext × α × Bool)} (I : α → Prop)
    (J : CoglContext → Prop)
    (hcb : ∀ c st l r, J c → I st → cb c st l = some r → J r.1 ∧ I r.2.1) :
    ∀ (n i : Nat) (c : CoglContext) (st : α) (c1 : CoglContext) (s1 : α),
      foreach_layer_internal_loop A cb n i c st = some (c1, s1) → J c → I st → I s1 := by
  intro n
  induction n with
  | zero =>
    intro i c st c1 s1 hl _ hI
    simp only [foreach_layer_internal_loop, Option.some.injEq, Prod.mk.injEq] at hl
    rw [← hl.2]
    exact hI
  | succ m ihm =>
    intro i c st c1 s1 hl hJ hI
    rw [foreach_layer_internal_loop] at hl
    split at hl
    · exact absurd hl (by simp)
    split at hl
    · simp only [Option.some.injEq, Prod.mk.injEq] at hl
      rw [← hl.2]
      exact hI
    split at hl
    · rename_i layer hlay
      cases hr : cb c st layer with
      | none => rw [hr] at hl; exact absurd hl (by simp)
      | some r =>
        obtain ⟨rc, rs, rb⟩ := r
        obtain ⟨hJ2, hI2⟩ := hcb c st layer _ hJ hI hr
        rw [hr] at hl
        cases rb with
        | true => exact ihm (i + 1) rc rs c1 s1 hl hJ2 hI2
        | false =>
          simp only [Option.some.injEq, Prod.mk.injEq] at hl
          rw [← hl.2]
          exact hI2
    · exact absurd hl (by simp)

theorem get_layer_info_loop_bound {c : CoglContext} {fuel n : Nat}
    {cache : List (Option Nat)} (hn : c.layers.length = n) :
    ∀ (rem i : Nat) (info out : CoglPipelineLayerInfo),
      get_layer_info_loop c fuel cache rem i info = some out →
      ((∀ f, info.layer = some f → f < n) ∧ ∀ K ∈ info.layers_to_shift, K < n) →
      (∀ f, out.layer = some f → f < n) ∧ ∀ K ∈ out.layers_to_shift, K < n := by
  intro rem
  induction rem with
  | zero =>
    intro i info out h h0
    simp only [get_layer_info_loop, Option.some.injEq] at h
    rw [← h]
    exact h0
  | succ m ih =>
    intro i info out h h0
    rw [get_layer_info_loop] at h
    split at h
    · rename_i layer hlay
      cases hu : update_layer_info c fuel layer info with
      | none => rw [hu] at h; exact absurd h (by simp)
      | some r =>
        obtain ⟨info1, b⟩ := r
        have hb := update_layer_info_bound hn h0 hu
        rw [hu] at h
        cases b with
        | true =>
          simp only [Option.some.injEq] at h
          rw [← h]
          exact hb
        | false => exact ih (i + 1) info1 out h hb
    · exact absurd h (by simp)

/-- What `_cogl_pipeline_get_layer_info` returns: the context is the one passed up
to the layers caches, and the layer found and the layers to shift are layers of
it. -/
theorem get_layer_info_bound {fuel : Nat} {ctx c1 : CoglContext} {A : Nat}
    {info out : CoglPipelineLayerInfo}
    (h : _cogl_pipeline_get_layer_info fuel ctx A info = some (c1, out))
    (h0 : (∀ f, info.layer = some f → f < ctx.layers.length) ∧
      ∀ K ∈ info.layers_to_shift, K < ctx.layers.length) :
    same_but_caches ctx c1 ∧ (∀ f, out.layer = some f → f < ctx.layers.length) ∧
      ∀ K ∈ out.layers_to_shift, K < ctx.layers.length := by
  unfold _cogl_pipeline_get_layer_info at h
  split at h
  · exact absurd h (by simp)
  rename_i node hnode
  split at h
  · have hcb : ∀ (c : CoglContext) (st : CoglPipelineLayerInfo) (l : Nat)
        (r : CoglContext × CoglPipelineLayerInfo × Bool),
        (update_layer_info c fuel l st).map (fun r => (c, r.1, !r.2)) = some r → r.1 = c := by
      intro c st l r hr
      obtain ⟨x, -, hx⟩ := Option.map_eq_some'.mp hr
      rw [← hx]
    have hsame := foreach_layer_internal_caches hcb h
    refine ⟨hsame, ?_⟩
    unfold _cogl_pipeline_foreach_layer_internal at h
    split at h
    · exact absurd h (by simp)
    split at h
    · exact absurd h (by simp)
    split at h
    · simp only [Option.some.injEq, Prod.mk.injEq] at h
      rw [← h.2]
      exact h0
    split at h
    · exact absurd h (by simp)
    rename_i cu hu
    have hlen : cu.layers.length = ctx.layers.length := by
      rw [(update_layers_cache_frame hu).1]
    exact foreach_layer_internal_loop_inv
      (fun st : CoglPipelineLayerInfo => (∀ f, st.layer = some f → f < ctx.layers.length) ∧
        ∀ K ∈ st.layers_to_shift, K < ctx.layers.length)
      (fun c => c.layers.length = ctx.layers.length)
      (fun c st l r hJ hI hr => by
        obtain ⟨x, hx, hxr⟩ := Option.map_eq_some'.mp hr
        rw [← hxr]
        exact ⟨hJ, @update_layer_info_bound c fuel l _ st x hJ hI hx⟩)
      _ _ _ _ _ _ h hlen h0
  · split at h
    · exact absurd h (by simp)
    rename_i cu hu
    split at h
    · exact absurd h (by simp)
    obtain ⟨x, hx, hxr⟩ := Option.map_eq_some'.mp h
    simp only [Prod.mk.injEq] at hxr
    obtain ⟨rfl, rfl⟩ := hxr
    have hlen : cu.layers.length = ctx.layers.length := by
      rw [(update_layers_cache_frame hu).1]
    exact ⟨update_layers_cache_caches hu, get_layer_info_loop_bound hlen _ _ _ _ hx h0⟩

theorem under_defaults_held {c c2 : CoglContext} {d0 dn X : Nat} (h : parents_held c c2)
    (hu : under_defaults c d0 dn X) : under_defaults c2 d0 dn X := by
  obtain ⟨rn, l0, ln, h1, h2, h3, h4, h5, h6⟩ := hu
  obtain ⟨rn2, g1, p1⟩ := h X rn h1
  obtain ⟨l02, g2, p2⟩ := h d0 l0 h2
  obtain ⟨ln2, g4, p4⟩ := h dn ln h4
  exact ⟨rn2, l02, ln2, g1, g2, p2.trans h3, g4, p4.trans h5, by rw [p1]; exact h6⟩

/-- The setter `_cogl_pipeline_set_layer_unit`, whatever layer it writes to, keeps a
layer that hangs below default layer 0 below it. -/
theorem set_layer_unit_under {fuel : Nat} {c c2 : CoglContext} {ro : Option Nat}
    {K u new d0 dn X : Nat}
    (h : _cogl_pipeline_set_layer_unit fuel c ro K u = some (c2, new))
    (hu : under_defaults c d0 dn X) : under_defaults c2 d0 dn X := by
  obtain ⟨rn, l0, ln, h1, h2, h3, h4, h5, h6⟩ := hu
  have hS1 : ∀ Y, (fun Y => Y = d0) Y →
      ∃ y, c.layer Y = some y ∧ ∀ G, y.parent = some G → (fun Y => Y = d0) G := by
    intro Y hY
    have hY2 : Y = d0 := hY
    subst hY2
    refine ⟨l0, h2, fun G hG => ?_⟩
    rw [h3] at hG
    exact absurd hG (by simp)
  have hS2 : ∀ Y, (fun Y => Y = d0 ∨ Y = dn) Y →
      ∃ y, c.layer Y = some y ∧ ∀ G, y.parent = some G → (fun Y => Y = d0 ∨ Y = dn) G := by
    intro Y hY
    have hY2 : Y = d0 ∨ Y = dn := hY
    rcases hY2 with rfl | rfl
    · refine ⟨l0, h2, fun G hG => ?_⟩
      rw [h3] at hG
      exact absurd hG (by simp)
    · refine ⟨ln, h4, fun G hG => ?_⟩
      rw [h5] at hG
      exact Or.inl (Option.some.inj hG).symm
  have a1 := (set_layer_unit_parents hS1 h).2
  have a2 := (set_layer_unit_parents hS2 h).2
  obtain ⟨l02, g2, q2⟩ := a1 d0 l0 h2
  obtain ⟨ln2, g4, q4⟩ := a1 dn ln h4
  obtain ⟨rn2, g1, q1⟩ := a2 X rn h1
  refine ⟨rn2, l02, ln2, g1, g2, ?_, g4, ?_, ?_⟩
  · rcases q2 with e | ⟨-, P, P1, hP, -, -⟩
    · exact e.trans h3
    · rw [h3] at hP
      exact absurd hP (by simp)
  · rcases q4 with e | ⟨-, P, P1, hP, hP1, hSP⟩
    · exact e.trans h5
    · rw [h5] at hP
      have : P1 = d0 := hSP (Option.some.inj hP).symm
      rw [hP1, this]
  · rcases q1 with e | ⟨-, P, P1, hP, hP1, hSP⟩
    · rw [e]; exact h6
    · have hSPin : P = d0 ∨ P = dn := by
        rcases h6 with e | e
        · rw [e] at hP
          exact Or.inl (Option.some.inj hP).symm
        · rw [e] at hP
          exact Or.inr (Option.some.inj hP).symm
      have : P1 = d0 ∨ P1 = dn := hSP hSPin
      rcases this with e | e
      · exact Or.inl (by rw [hP1, e])
      · exact Or.inr (by rw [hP1, e])

theorem shift_layers_under {fuel : Nat} {pipeline d0 dn X : Nat} :
    ∀ (shift : List Nat) (c c2 : CoglContext),
      shift.foldlM (fun c shift_layer => do
        let shift_unit ← _cogl_pipeline_layer_get_unit_index c fuel shift_layer
        let (cs, _) ← _cogl_pipeline_set_layer_unit fuel c (some pipeline) shift_layer
          (shift_unit + 1)
        pure cs) c = some c2 →
      under_defaults c d0 dn X → under_defaults c2 d0 dn X := by
  intro shift
  induction shift with
  | nil =>
    intro c c2 h hu
    simp only [List.foldlM_nil, Option.pure_def, Option.some.injEq] at h
    rw [← h]
    exact hu
  | cons K rest ih =>
    intro c c2 h hu
    simp only [List.foldlM_cons, Option.bind_eq_bind, Option.pure_def] at h
    obtain ⟨cs, hcs, h⟩ := Option.bind_eq_some.mp h
    obtain ⟨su, -, hcs⟩ := Option.bind_eq_some.mp hcs
    obtain ⟨r1, hset, hcs⟩ := Option.bind_eq_some.mp hcs
    obtain ⟨cs1, new⟩ := r1
    simp only [Option.some.injEq] at hcs
    subst hcs
    exact ih _ _ h (set_layer_unit_under hset hu)

/-- Every layer that `_cogl_pipeline_get_layer` creates hangs below default layer 0,
in a context whose default layer 0 is a root and whose default layer n is a child of
it. -/
theorem get_layer_created_under {fuel : Nat} {ctx cF : CoglContext} {p r : Nat} {idx : Int}
    {l0 ln : CoglPipelineLayer}
    (h0 : ctx.layer ctx.default_layer_0 = some l0) (hroot : l0.parent = none)
    (hn : ctx.layer ctx.default_layer_n = some ln)
    (hnp : ln.parent = some ctx.default_layer_0)
    (h : _cogl_pipeline_get_layer fuel ctx p idx = some (cF, r))
    (hnew : ctx.layers.length ≤ r) :
    r = ctx.layers.length ∧ under_defaults cF ctx.default_layer_0 ctx.default_layer_n r := by
  unfold _cogl_pipeline_get_layer at h
  simp only [Option.bind_eq_bind, Option.pure_def] at h
  obtain ⟨authority, -, h⟩ := Option.bind_eq_some.mp h
  obtain ⟨r1, hinfo, h⟩ := Option.bind_eq_some.mp h
  obtain ⟨c1, layer_info⟩ := r1
  dsimp only at h
  obtain ⟨hsame, hfound, -⟩ := get_layer_info_bound hinfo
    ⟨fun f hf => absurd hf (by simp), fun K hK => absurd hK (List.not_mem_nil K)⟩
  have hlayers : c1.layers = ctx.layers := by
    have := congrArg CoglContext.layers hsame.2
    exact this
  have hd0 : c1.default_layer_0 = ctx.default_layer_0 := by
    have := congrArg CoglContext.default_layer_0 hsame.2
    exact this
  have hdn : c1.default_layer_n = ctx.default_layer_n := by
    have := congrArg CoglContext.default_layer_n hsame.2
    exact this
  split at h
  · rename_i found hf
    simp only [Option.some.injEq, Prod.mk.injEq] at h
    have := hfound found hf
    rw [h.2] at this
    exact absurd this (by omega)
  obtain ⟨r2, hmake, h⟩ := Option.bind_eq_some.mp h
  obtain ⟨c2, layer⟩ := r2
  dsimp only at h
  obtain ⟨c3, h3, h⟩ := Option.bind_eq_some.mp h
  obtain ⟨c4, h4, h⟩ := Option.bind_eq_some.mp h
  obtain ⟨c5, h5, h⟩ := Option.bind_eq_some.mp h
  obtain ⟨c6, h6, h⟩ := Option.bind_eq_some.mp h
  simp only [Option.some.injEq, Prod.mk.injEq] at h
  obtain ⟨hcc, hrr⟩ := h
  subst hcc
  subst hrr
  have k01 : parents_held ctx c1 := parents_held_of_eq hlayers
  have hmade : layer = ctx.layers.length ∧
      under_defaults c2 ctx.default_layer_0 ctx.default_layer_n layer := by
    split at hmake
    · rw [hd0] at hmake
      obtain ⟨e, -, -, s, -, -, -, nn, hnn, hpar, -⟩ := layer_copy_spec hmake
      have k12 := parents_held_of_held (layer_copy_held hmake)
      obtain ⟨l02, g0, p0⟩ := parents_held_trans k01 k12 _ l0 h0
      obtain ⟨ln2, g1, p1⟩ := parents_held_trans k01 k12 _ ln hn
      exact ⟨by rw [e, hlayers], nn, l02, ln2, hnn, g0, p0.trans hroot, g1, p1.trans hnp,
        Or.inl hpar⟩
    · rw [hdn] at hmake
      obtain ⟨ra, hcopy, hmake⟩ := Option.bind_eq_some.mp hmake
      obtain ⟨ca, la⟩ := ra
      dsimp only at hmake
      obtain ⟨rb, hset, hmake⟩ := Option.bind_eq_some.mp hmake
      obtain ⟨cb, new⟩ := rb
      dsimp only at hmake
      split at hmake
      · exact absurd hmake (by simp)
      simp only [Option.some.injEq, Prod.mk.injEq] at hmake
      obtain ⟨hcc, hll⟩ := hmake
      subst hcc
      subst hll
      obtain ⟨e, -, -, s, -, -, -, nn, hnn, hpar, -⟩ := layer_copy_spec hcopy
      have k12 := parents_held_of_held (layer_copy_held hcopy)
      obtain ⟨l02, g0, p0⟩ := parents_held_trans k01 k12 _ l0 h0
      obtain ⟨ln2, g1, p1⟩ := parents_held_trans k01 k12 _ ln hn
      exact ⟨by rw [e, hlayers], set_layer_unit_under hset
        ⟨nn, l02, ln2, hnn, g0, p0.trans hroot, g1, p1.trans hnp, Or.inr hpar⟩⟩
  refine ⟨hmade.1, ?_⟩
  obtain ⟨n3, hn3, e3⟩ := modify_layer_inv h3
  have k3 : parents_held c2 c3 := by rw [e3]; exact parents_held_set hn3 rfl
  have u3 := under_defaults_held k3 hmade.2
  have u4 := shift_layers_under _ _ _ h4 u3
  have u5 := under_defaults_held (add_layer_difference_parents h5) u4
  exact under_defaults_held
    (parents_held_of_held (object_unref_layer_held (fun _ => False) h6)) u5

theorem set_layer_unit_fresh_child_eval {c : CoglContext} {L P u : Nat} (f : Nat)
    {l pr : CoglPipelineLayer}
    (hL : c.layer L = some l) (hch : l.children = []) (how : l.owner = none)
    (hd : l.differences = 0) (hpar : l.parent = some P)
    (href : l.has_parent_reference = true)
    (hP : c.layer P = some pr) (hroot : pr.parent = none)
    (hauth : pr.differences &&& COGL_PIPELINE_LAYER_STATE_UNIT ≠ 0)
    (hu : pr.unit_index ≠ u) (hne : L ≠ P) (hkids : pr.children ≠ []) :
    ∃ c2, _cogl_pipeline_set_layer_unit (f + 2) c none L u = some (c2, L) ∧
      (c2.layer L).map (fun x => (x.parent, x.unit_index, x.differences)) =
        some (some P, u, COGL_PIPELINE_LAYER_STATE_UNIT) ∧
      (c2.layer P).map (fun x => (x.parent, x.differences, x.unit_index, x.children)) =
        some (none, pr.differences, pr.unit_index, L :: pr.children.erase L) ∧
      c2.layers.length = c.layers.length ∧
      (∀ X, X ≠ L → X ≠ P → c2.layer X = c.layer X) ∧
      c2.default_layer_0 = c.default_layer_0 ∧ c2.default_layer_n = c.default_layer_n ∧
      c2.dummy_layer_dependant = c.dummy_layer_dependant := by
  have hLlt := layer_lt_length hL
  have hPlt := layer_lt_length hP
  have ha : _cogl_pipeline_layer_get_authority c (f + 2) L COGL_PIPELINE_LAYER_STATE_UNIT =
      some P := by
    rw [_cogl_pipeline_layer_get_authority]
    simp only [hL, hd, Nat.zero_and, ne_eq, not_true_eq_false, if_false, hpar]
    rw [_cogl_pipeline_layer_get_authority]
    simp only [hP, hauth, ne_eq, not_false_eq_true, if_true]
  unfold _cogl_pipeline_set_layer_unit
  simp only [Option.bind_eq_bind, Option.pure_def, ha, Option.some_bind, hP, hu, if_false]
  unfold _cogl_pipeline_layer_pre_change_notify layer_pre_change_notify_init_layer_state
    _cogl_pipeline_layer_init_multi_property_sparse_state CoglContext.modify_layer
  simp only [Option.bind_eq_bind, Option.pure_def, hL, Option.some_bind, hch, how, and_self,
    if_true, layer_set_layer, hLlt, length_set_layer, hd, Nat.zero_and,
    show COGL_PIPELINE_LAYER_STATE_UNIT &&& COGL_PIPELINE_LAYER_STATE_NEEDS_BIG_STATE = 0
      from by decide,
    show COGL_PIPELINE_LAYER_STATE_UNIT &&& COGL_PIPELINE_LAYER_STATE_ALL_SPARSE ≠ 0
      from by decide,
    show COGL_PIPELINE_LAYER_STATE_UNIT &&& COGL_PIPELINE_LAYER_STATE_MULTI_PROPERTY = 0
      from by decide,
    ne_eq, not_true_eq_false, false_and, if_false, not_false_eq_true, true_and, hne,
    and_false, Nat.zero_or]
  unfold _cogl_pipeline_layer_prune_redundant_ancestry
  simp only [Option.bind_eq_bind, layer_set_layer, if_true, hLlt, length_set_layer,
    Option.some_bind, hpar]
  rw [layer_prune_redundant_ancestry_loop]
  simp only [layer_set_layer, hne, if_false, hP, hroot]
  unfold _cogl_pipeline_layer_set_parent cogl_object_ref_layer _cogl_pipeline_layer_unparent
    cogl_object_unref_layer
  simp only [layer_set_layer, hne, Ne.symm hne, if_false, if_true, hP, hLlt, hPlt,
    length_set_layer, hpar, Option.isSome_some, hkids, href, Option.some_bind]
  refine ⟨_, rfl, ?_, ?_, ?_, ?_, rfl, rfl, rfl⟩
  · simp only [layer_set_layer, hne, Ne.symm hne, if_false, if_true, hP, hLlt, hPlt,
      length_set_layer, Option.map_some']
    rfl
  · simp only [layer_set_layer, hne, Ne.symm hne, if_false, if_true, hP, hLlt, hPlt,
      length_set_layer, Option.map_some', hroot]
  · simp only [length_set_layer]
  · intro X hX1 hX2
    simp only [layer_set_layer, Ne.symm hX1, Ne.symm hX2, if_false]

theorem layer_copy_fields {ctx c2 : CoglContext} {src new : Nat}
    (h : _cogl_pipeline_layer_copy ctx src = some (c2, new)) :
    c2.default_layer_0 = ctx.default_layer_0 ∧ c2.default_layer_n = ctx.default_layer_n ∧
    c2.dummy_layer_dependant = ctx.dummy_layer_dependant ∧
    ∃ nn, c2.layer new = some nn ∧ nn.has_parent_reference = true := by
  unfold _cogl_pipeline_layer_copy at h
  split at h
  · exact absurd h (by simp)
  rename_i s hs
  have hslt := layer_lt_length hs
  have hne : src ≠ ctx.layers.length := Nat.ne_of_lt hslt
  dsimp only at h
  unfold _cogl_pipeline_layer_set_parent cogl_object_ref_layer CoglContext.modify_layer at h
  simp only [layer_append_old _ hslt, hs, layer_set_layer, length_set_layer, hne, Ne.symm hne,
    if_false, if_true, layer_append_new, Option.isSome_none, Bool.false_eq_true,
    List.length_append, List.length_singleton, show src < ctx.layers.length + 1 by omega,
    show ctx.layers.length < ctx.layers.length + 1 by omega, Option.some.injEq,
    Prod.mk.injEq] at h
  obtain ⟨h1, h2⟩ := h
  subst h2
  subst h1
  refine ⟨rfl, rfl, rfl, ?_⟩
  simp only [layer_set_layer, length_set_layer, hne, Ne.symm hne, if_false, if_true,
    List.length_append, List.length_singleton,
    show ctx.layers.length < ctx.layers.length + 1 by omega]
  exact ⟨_, rfl, rfl⟩

/-- The function `_cogl_pipeline_init_default_layers` returns with at least two
units of fuel, whatever the context, and leaves the default layers ready: the three
layers it makes are the last three of the layer heap. -/
theorem init_default_layers_returns (f F : Nat) (ctx : CoglContext) :
    ∃ c, _cogl_pipeline_init_default_layers (f + 2) ctx = some c ∧
      default_layers_ready (F + 1) c ∧
      c.default_layer_0 = ctx.layers.length ∧ c.default_layer_n = ctx.layers.length + 1 ∧
      c.dummy_layer_dependant = ctx.layers.length + 2 ∧
      c.layers.length = ctx.layers.length + 3 := by
  unfold _cogl_pipeline_init_default_layers
  simp only [Option.bind_eq_bind, Option.pure_def]
  generalize hlayer : ({ zeroed_layer with
      parent := none
      children := []
      index := 0
      differences := COGL_PIPELINE_LAYER_STATE_ALL_SPARSE
      unit_index := 0
      texture := none
      target := 0
      mag_filter := COGL_PIPELINE_FILTER_LINEAR
      min_filter := COGL_PIPELINE_FILTER_LINEAR
      wrap_mode_s := COGL_PIPELINE_WRAP_MODE_AUTOMATIC
      wrap_mode_t := COGL_PIPELINE_WRAP_MODE_AUTOMATIC
      wrap_mode_p := COGL_PIPELINE_WRAP_MODE_AUTOMATIC
      big_state :=
        { zeroed_layer_big_state with
          texture_combine_rgb_func := COGL_PIPELINE_COMBINE_FUNC_MODULATE
          texture_combine_rgb_src :=
            [COGL_PIPELINE_COMBINE_SOURCE_PREVIOUS, COGL_PIPELINE_COMBINE_SOURCE_TEXTURE, 0]
          texture_combine_rgb_op :=
            [COGL_PIPELINE_COMBINE_OP_SRC_COLOR, COGL_PIPELINE_COMBINE_OP_SRC_COLOR, 0]
          texture_combine_alpha_func := COGL_PIPELINE_COMBINE_FUNC_MODULATE
          texture_combine_alpha_src :=
            [COGL_PIPELINE_COMBINE_SOURCE_PREVIOUS, COGL_PIPELINE_COMBINE_SOURCE_TEXTURE, 0]
          texture_combine_alpha_op :=
            [COGL_PIPELINE_COMBINE_OP_SRC_ALPHA, COGL_PIPELINE_COMBINE_OP_SRC_ALPHA, 0]
          point_sprite_coords := false
          matrix := identity_matrix }
      has_big_state := true
      ref_count := 1 } : CoglPipelineLayer) = layer0
  have e1 : layer0.parent = none := by rw [← hlayer]
  have e2 : layer0.differences = COGL_PIPELINE_LAYER_STATE_ALL_SPARSE := by rw [← hlayer]
  have e3 : layer0.unit_index = 0 := by rw [← hlayer]
  have e4 : layer0.children = [] := by rw [← hlayer]
  clear hlayer
  generalize hc1 :
    ({ ctx with layers := ctx.layers ++ [layer0], default_layer_0 := ctx.layers.length } :
      CoglContext) = c1
  have h10 : c1.layer ctx.layers.length = some layer0 := by
    rw [← hc1]
    exact layer_append_new ctx layer0
  have hlen1 : c1.layers.length = ctx.layers.length + 1 := by
    rw [← hc1]
    simp only [List.length_append, List.length_singleton]
  have hd1 : c1.default_layer_0 = ctx.layers.length := by rw [← hc1]
  obtain ⟨c2, hcopy⟩ := layer_copy_total h10
  rw [hlen1] at hcopy
  obtain ⟨-, -, hlen2, s, hs, hsrc, -, nn, hnn, n1, -, n3, n4, n5⟩ := layer_copy_spec hcopy
  obtain ⟨hd2, -, -, nn2, hnn2, href⟩ := layer_copy_fields hcopy
  rw [hnn] at hnn2
  obtain rfl := Option.some.inj hnn2
  rw [h10] at hs
  obtain rfl := Option.some.inj hs
  simp only [hcopy, Option.some_bind]
  generalize hc3 : ({ c2 with default_layer_n := ctx.layers.length + 1 } : CoglContext) = c3
  have h3L : ∀ X, c3.layer X = c2.layer X := by
    intro X
    rw [← hc3]
    rfl
  have hd3 : c3.default_layer_0 = ctx.layers.length := by
    rw [← hc3]
    exact hd2.trans hd1
  have hdn3 : c3.default_layer_n = ctx.layers.length + 1 := by rw [← hc3]
  have hlen3 : c3.layers.length = ctx.layers.length + 2 := by
    rw [← hc3]
    show c2.layers.length = _
    rw [hlen2, hlen1]
  obtain ⟨pr, hP3, hpr2⟩ : ∃ pr, c3.layer ctx.layers.length = some pr ∧
      c2.layer ctx.layers.length = some pr := ⟨_, (h3L _).trans hsrc, hsrc⟩
  rw [hsrc] at hpr2
  have hpe := Option.some.inj hpr2
  have q1 : pr.parent = none := by rw [← hpe]; exact e1
  have q2 : pr.differences = COGL_PIPELINE_LAYER_STATE_ALL_SPARSE := by rw [← hpe]; exact e2
  have q3 : pr.unit_index = 0 := by rw [← hpe]; exact e3
  have q4 : pr.children ≠ [] := by rw [← hpe]; simp
  obtain ⟨c4, hset, g1, g2, hlen4, -, hd4, hdn4, -⟩ :=
    @set_layer_unit_fresh_child_eval c3 (ctx.layers.length + 1) ctx.layers.length 1 f nn pr
      (by rw [h3L]; exact hnn) n5 n3 n4 n1 href hP3 q1
      (by rw [q2]; decide) (by rw [q3]; decide) (by omega) q4
  simp only [hset, Option.some_bind, hdn3, ne_eq, not_true_eq_false, if_false]
  obtain ⟨l4, hl4, el4⟩ := Option.map_eq_some'.mp g1
  obtain ⟨p4, hp4, ep4⟩ := Option.map_eq_some'.mp g2
  simp only [Prod.mk.injEq] at el4 ep4
  obtain ⟨c5, hcopy2⟩ := layer_copy_total hl4
  rw [hlen4, hlen3] at hcopy2
  obtain ⟨-, -, hlen5, s5, hs5, hsrc5, hother5, -⟩ := layer_copy_spec hcopy2
  obtain ⟨hd5, hdn5, -, -⟩ := layer_copy_fields hcopy2
  rw [hl4] at hs5
  obtain rfl := Option.some.inj hs5
  have hp5 : c5.layer ctx.layers.length = some p4 := by
    rw [hother5 _ (by omega) (by omega)]
    exact hp4
  simp only [hcopy2, Option.some_bind]
  obtain ⟨cF, hcF⟩ : ∃ cF : CoglContext,
      cF = { c5 with dummy_layer_dependant := ctx.layers.length + 2 } := ⟨_, rfl⟩
  have a0 : cF.default_layer_0 = ctx.layers.length := by
    rw [hcF]
    exact hd5.trans (hd4.trans hd3)
  have an : cF.default_layer_n = ctx.layers.length + 1 := by
    rw [hcF]
    exact hdn5.trans (hdn4.trans hdn3)
  have ad : cF.dummy_layer_dependant = ctx.layers.length + 2 := by rw [hcF]
  have b0 : cF.layer ctx.layers.length = some p4 := by
    rw [hcF]
    exact hp5
  have bn : cF.layer (ctx.layers.length + 1) = some
      { l4 with
        ref_count := l4.ref_count + 1
        children := (ctx.layers.length + 2) :: l4.children } := by
    rw [hcF]
    exact hsrc5
  refine ⟨cF, by rw [hcF], ?_, a0, an, ad, ?_⟩
  · unfold default_layers_ready
    rw [a0, an, ad, b0, bn]
    simp only [Option.map_some', Option.some.injEq, Prod.mk.injEq, decide_eq_true_eq]
    refine ⟨⟨ep4.1, ep4.2.1.trans q2, ep4.2.2.1.trans q3⟩, ?_, el4.1, ?_, ?_⟩
    · rw [ep4.2.2.2]
      exact List.mem_cons_self _ _
    · unfold _cogl_pipeline_layer_get_unit_index
      rw [_cogl_pipeline_layer_get_authority]
      simp only [bn, el4.2.2, Option.map_some', el4.2.1,
        show COGL_PIPELINE_LAYER_STATE_UNIT &&& COGL_PIPELINE_LAYER_STATE_UNIT ≠ 0
          from by decide, ne_eq, not_false_eq_true, if_true]
    · exact List.mem_cons_self _ _
  · rw [hcF]
    show c5.layers.length = _
    rw [hlen5, hlen4, hlen3]

theorem default_layers_ready_inv {F : Nat} {c : CoglContext} (h : default_layers_ready F c) :
    ∃ l0 ln, c.layer c.default_layer_0 = some l0 ∧ c.layer c.default_layer_n = some ln ∧
      l0.parent = none ∧ l0.differences = COGL_PIPELINE_LAYER_STATE_ALL_SPARSE ∧
      l0.unit_index = 0 ∧ c.default_layer_n ∈ l0.children ∧
      ln.parent = some c.default_layer_0 ∧
      _cogl_pipeline_layer_get_unit_index c F c.default_layer_n = some 1 ∧
      c.dummy_layer_dependant ∈ ln.children := by
  obtain ⟨h1, h2, h3, h4, h5⟩ := h
  obtain ⟨l0, h0, e0⟩ := Option.map_eq_some'.mp h1
  obtain ⟨ln, hn, en⟩ := Option.map_eq_some'.mp h3
  rw [h0] at h2
  rw [hn] at h5
  simp only [Option.map_some', Option.some.injEq, decide_eq_true_eq] at h2 h5
  simp only [Prod.mk.injEq] at e0
  exact ⟨l0, ln, h0, hn, e0.1, e0.2.1, e0.2.2, h2, en, h4, h5⟩

theorem pipeline_get_authority_pipelines {c c2 : CoglContext} (h : c2.pipelines = c.pipelines)
    (g : Nat) : ∀ (f p : Nat),
      _cogl_pipeline_get_authority c2 f p g = _cogl_pipeline_get_authority c f p g := by
  intro f
  induction f with
  | zero => intro p; rfl
  | succ k ih =>
    intro p
    rw [_cogl_pipeline_get_authority, _cogl_pipeline_get_authority]
    have e : c2.pipeline p = c.pipeline p := by simp only [CoglContext.pipeline, h]
    rw [e]
    split
    · rfl
    split
    · rfl
    split
    · rfl
    exact ih _

/-- The function `_cogl_pipeline_add_layer_difference` returns on a pipeline without
children whose `LAYERS` authority can be found. -/
theorem add_layer_difference_leaf_total {c : CoglContext} {p N : Nat}
    {pn : CoglPipeline} {nn : CoglPipelineLayer} (f : Nat) (inc : Bool)
    (hp : c.pipeline p = some pn) (hleaf : pn.children = [])
    (hauth : ∃ a, _cogl_pipeline_get_authority c (f + 1) p COGL_PIPELINE_STATE_LAYERS = some a)
    (hN : c.layer N = some nn) :
    ∃ c3, _cogl_pipeline_add_layer_difference (f + 2) c p N inc = some c3 := by
  have key : returns (_cogl_pipeline_add_layer_difference (f + 2) c p N inc)
      (fun _ => True) := by
    unfold _cogl_pipeline_add_layer_difference add_layer_difference_with
    simp only [Option.bind_eq_bind, Option.pure_def, hN, Option.some_bind]
    refine returns_ite (fun _ => returns_some trivial) (fun _ => ?_)
    obtain ⟨c2, hc2, hp2⟩ := object_ref_layer_total
      (layer_set_layer_self hN { nn with owner := some p })
    have hp2b : c2.pipelines = c.pipelines := hp2
    have hpc2 : c2.pipeline p = some pn := by
      simp only [CoglContext.pipeline, hp2b]
      exact hp
    obtain ⟨a, ha⟩ := hauth
    obtain ⟨d1, n1, h1, hp1, -, -⟩ :=
      pre_change_notify_leaf_layers_returns f (!inc) hpc2 hleaf
        ⟨a, by rw [pipeline_get_authority_pipelines hp2b]; exact ha⟩
    refine returns_bind (⟨c2, hc2, rfl⟩ : returns _ (fun x : CoglContext => x = c2)) ?_
    intro x hx
    subst hx
    refine returns_bind
      (⟨d1, h1, hp1⟩ : returns _ (fun x : CoglContext => x.pipeline p = some n1)) ?_
    intro x hx
    exact ⟨_, modify_pipeline_some hx _, trivial⟩
  obtain ⟨c3, h3, -⟩ := key
  exact ⟨c3, h3⟩

/-- The function `_cogl_pipeline_get_layer` returns a new layer for a pipeline
without children whose `LAYERS` authority holds no layers. -/
theorem get_layer_first_returns {ctx : CoglContext} {p A : Nat} {pn an : CoglPipeline}
    {l0 : CoglPipelineLayer} (f : Nat) (idx : Int)
    (hp : ctx.pipeline p = some pn) (hleaf : pn.children = [])
    (hauth : _cogl_pipeline_get_authority ctx (f + 1) p COGL_PIPELINE_STATE_LAYERS = some A)
    (hA : ctx.pipeline A = some an) (hnl : an.n_layers = 0)
    (h0 : ctx.layer ctx.default_layer_0 = some l0) :
    ∃ cF, _cogl_pipeline_get_layer (f + 2) ctx p idx = some (cF, ctx.layers.length) := by
  have hauth2 := pipeline_get_authority_mono ctx _ _ _ _ hauth (f + 2) (by omega)
  obtain ⟨an2, hA2, hassert⟩ := pipeline_get_authority_asserts _ _ _ hauth
  rw [hA] at hA2
  obtain rfl := Option.some.inj hA2
  have hinfo : ∀ info : CoglPipelineLayerInfo,
      _cogl_pipeline_get_layer_info (f + 2) ctx A info = some (ctx, info) := by
    intro info
    unfold _cogl_pipeline_get_layer_info
    simp only [hA]
    split
    · unfold _cogl_pipeline_foreach_layer_internal
      rw [_cogl_pipeline_get_authority]
      simp only [hA, hassert, ne_eq, not_false_eq_true, if_true, hnl]
    · unfold _cogl_pipeline_update_layers_cache
      simp only [hA, hnl, or_true, if_true, get_layer_info_loop, Option.map_some']
  obtain ⟨c2, hcopy⟩ := layer_copy_total h0
  obtain ⟨-, hpip2, -, -, -, -, -, nn, hnn, -⟩ := layer_copy_spec hcopy
  unfold _cogl_pipeline_get_layer
  simp only [Option.bind_eq_bind, Option.pure_def, hauth2, Option.some_bind, hinfo,
    Int.reduceNeg, Int.reduceAdd, neg_add_cancel, if_true, hcopy, modify_layer_some hnn,
    List.foldlM_nil]
  have hN3 : (c2.set_layer ctx.layers.length { nn with index := idx }).layer
      ctx.layers.length = some { nn with index := idx } := layer_set_layer_self hnn _
  have hp3 : (c2.set_layer ctx.layers.length { nn with index := idx }).pipeline p =
      some pn := by
    simp only [CoglContext.pipeline, CoglContext.set_layer, hpip2]
    exact hp
  obtain ⟨c5, h5⟩ := add_layer_difference_leaf_total f true hp3 hleaf
    ⟨A, by
      rw [pipeline_get_authority_pipelines (c := ctx) (by
        simp only [CoglContext.set_layer, hpip2])]
      exact hauth⟩ hN3
  simp only [h5, Option.some_bind]
  obtain ⟨k5, hk5, -⟩ := add_layer_difference_parents h5 _ _ hN3
  unfold cogl_object_unref_layer
  simp only [hk5]
  exact ⟨_, rfl⟩

/-- Copy-on-write of a default layer: in a context whose default layers are ready,
`_cogl_pipeline_layer_pre_change_notify` with a required owner does not return the
default layer it is called on: the layer returned is a new one, a child of the
default layer, and the default layer keeps its state. -/
theorem default_layer_pre_change_notify_post {fuel F : Nat} {ctx cF : CoglContext}
    {p L r change : Nat} (hready : default_layers_ready F ctx)
    (hL : L = ctx.default_layer_0 ∨ L = ctx.default_layer_n)
    (h : _cogl_pipeline_layer_pre_change_notify fuel ctx (some p) L change = some (cF, r)) :
    r ≠ L ∧ ctx.layers.length ≤ r ∧
    ∃ rn l l2, cF.layer r = some rn ∧ rn.parent = some L ∧ rn.owner = some p ∧
      ctx.layer L = some l ∧ cF.layer L = some l2 ∧ r ∈ l2.children ∧ l2.core = l.core := by
  obtain ⟨l0, ln, h0, hn, -, -, -, hc0, -, -, hcn⟩ := default_layers_ready_inv hready
  have hex : ∃ l, ctx.layer L = some l ∧ l.children ≠ [] := by
    rcases hL with rfl | rfl
    · exact ⟨l0, h0, List.ne_nil_of_mem hc0⟩
    · exact ⟨ln, hn, List.ne_nil_of_mem hcn⟩
  obtain ⟨l, hl, hch⟩ := hex
  obtain ⟨h1, -, -, -⟩ := layer_pre_change_notify_post hl h
  obtain ⟨g0, rn, l2, pn, g1, g2, -, g4, -, -, g7, g8, g9, -, -⟩ := h1 (Or.inl hch)
  have hlt := layer_lt_length hl
  exact ⟨by omega, g0, rn, l, l2, g1, g2, g4, hl, g7, g8, g9⟩

/-- C36: the default layers. `_cogl_pipeline_init_default_layers` returns (with at
least two units of fuel, on any context) and leaves the default layers ready: default
layer 0 is a root with every sparse layer bit set and unit index 0, default layer n
is a child of it whose unit index resolves to 1, and the dummy dependant is a child
of default layer n. In every context whose default layers are ready:
`_cogl_pipeline_layer_pre_change_notify` with a required owner `p`, called on default
layer 0 or default layer n, never returns the default layer: whatever it returns is a
new layer, a child of the default layer, owned by `p`, and the default layer keeps
its state; and the call does return when `p` has no children and the authority walks
end within the fuel. And every layer that `_cogl_pipeline_get_layer` creates (a
layer that the context before did not hold) hangs below default layer 0: its parent
is default layer 0, or default layer n whose parent is default layer 0; and the call
does create a layer for a pipeline without children whose `LAYERS` authority holds
no layers. -/
theorem default_layers_stay_shared_ancestors (f : Nat) (ctx : CoglContext) :
    (∃ c, _cogl_pipeline_init_default_layers (f + 2) ctx = some c ∧
      default_layers_ready (f + 2) c ∧
      c.default_layer_0 = ctx.layers.length ∧ c.default_layer_n = ctx.layers.length + 1 ∧
      c.dummy_layer_dependant = ctx.layers.length + 2) ∧
    (∀ F, default_layers_ready F ctx →
      (∀ L p change, L = ctx.default_layer_0 ∨ L = ctx.default_layer_n →
        (∀ cF r, _cogl_pipeline_layer_pre_change_notify (f + 2) ctx (some p) L change =
            some (cF, r) →
          r ≠ L ∧ ctx.layers.length ≤ r ∧
          ∃ rn l l2, cF.layer r = some rn ∧ rn.parent = some L ∧ rn.owner = some p ∧
            ctx.layer L = some l ∧ cF.layer L = some l2 ∧ r ∈ l2.children ∧
            l2.core = l.core) ∧
        (∀ pn, ctx.pipeline p = some pn → pn.children = [] →
          (∃ a, _cogl_pipeline_get_authority ctx (f + 1) p COGL_PIPELINE_STATE_LAYERS =
            some a) →
          (∃ a, _cogl_pipeline_layer_get_authority ctx (f + 1) L change = some a) →
          (∃ a, _cogl_pipeline_layer_get_authority ctx (f + 1) L
            COGL_PIPELINE_LAYER_STATE_UNIT = some a) →
          ∃ cF r, _cogl_pipeline_layer_pre_change_notify (f + 2) ctx (some p) L change =
            some (cF, r))) ∧
      (∀ p idx,
        (∀ cF r, _cogl_pipeline_get_layer (f + 2) ctx p idx = some (cF, r) →
          ctx.layers.length ≤ r →
          r = ctx.layers.length ∧
            under_defaults cF ctx.default_layer_0 ctx.default_layer_n r) ∧
        (∀ pn A an, ctx.pipeline p = some pn → pn.children = [] →
          _cogl_pipeline_get_authority ctx (f + 1) p COGL_PIPELINE_STATE_LAYERS = some A →
          ctx.pipeline A = some an → an.n_layers = 0 →
          ∃ cF, _cogl_pipeline_get_layer (f + 2) ctx p idx =
            some (cF, ctx.layers.length)))) := by
  refine ⟨?_, fun F hready => ⟨fun L p change hL => ⟨fun cF r h => ?_, ?_⟩,
    fun p idx => ⟨fun cF r h hnew => ?_, ?_⟩⟩⟩
  · obtain ⟨c, hc, hr, h0, hn, hd, -⟩ := init_default_layers_returns f (f + 1) ctx
    exact ⟨c, hc, hr, h0, hn, hd⟩
  · exact default_layer_pre_change_notify_post hready hL h
  · intro pn hp hleaf hpa hla hlu
    obtain ⟨l0, ln, h0, hn, -⟩ := default_layers_ready_inv hready
    have hex : ∃ l, ctx.layer L = some l := by
      rcases hL with rfl | rfl
      · exact ⟨l0, h0⟩
      · exact ⟨ln, hn⟩
    obtain ⟨l, hl⟩ := hex
    exact layer_pre_change_notify_leaf_returns f hp hleaf hl hpa hla hlu (Nat.le_refl _)
  · obtain ⟨l0, ln, h0, hn, hroot, -, -, -, hnp, -, -⟩ := default_layers_ready_inv hready
    exact get_layer_created_under h0 hroot hn hnp h hnew
  · intro pn A an hp hleaf hauth hA hnl
    obtain ⟨l0, ln, h0, -⟩ := default_layers_ready_inv hready
    exact get_layer_first_returns f idx hp hleaf hauth hA hnl h0

theorem default_layers_stay_shared_ancestors_witness :
    default_layers_ready 2 scenario_one_layer ∧
    scenario_one_layer.default_layer_0 = 0 ∧ scenario_one_layer.default_layer_n = 1 ∧
    scenario_one_layer.layers.length = 4 ∧
    (∃ cF r, _cogl_pipeline_layer_pre_change_notify 8 scenario_one_layer (some 1) 1
        COGL_PIPELINE_LAYER_STATE_FILTERS = some (cF, r) ∧
      r ≠ 1 ∧ 4 ≤ r ∧
      ∃ rn l l2, cF.layer r = some rn ∧ rn.parent = some 1 ∧ rn.owner = some 1 ∧
        scenario_one_layer.layer 1 = some l ∧ cF.layer 1 = some l2 ∧ r ∈ l2.children ∧
        l2.core = l.core) ∧
    (∃ cF r, _cogl_pipeline_get_layer 8 scenario_one_layer 1 7 = some (cF, r) ∧
      r = 4 ∧ under_defaults cF 0 1 r) ∧
    ∃ cF, _cogl_pipeline_get_layer 8 scenario_new 1 5 = some (cF, 3) := by
  have hready : default_layers_ready 2 scenario_one_layer := by decide!
  have hd0 : scenario_one_layer.default_layer_0 = 0 := by decide!
  have hdn : scenario_one_layer.default_layer_n = 1 := by decide!
  have hlen : scenario_one_layer.layers.length = 4 := by decide!
  have h := (default_layers_stay_shared_ancestors 6 scenario_one_layer).2 2 hready
  have hB := h.1 1 1 COGL_PIPELINE_LAYER_STATE_FILTERS (Or.inr hdn.symm)
  have hC := h.2 1 7
  refine ⟨hready, hd0, hdn, hlen, ?_, ?_, ?_⟩
  · have hp1 : (scenario_one_layer.pipeline 1).map (fun n => n.children) = some [] := by
      decide!
    obtain ⟨pn, hpn, hch⟩ := Option.map_eq_some'.mp hp1
    obtain ⟨cF, r, hcall⟩ := hB.2 pn hpn hch ⟨1, by decide!⟩ ⟨0, by decide!⟩ ⟨1, by decide!⟩
    have hpost := hB.1 cF r hcall
    rw [hlen] at hpost
    exact ⟨cF, r, hcall, hpost⟩
  · have hr : (_cogl_pipeline_get_layer 8 scenario_one_layer 1 7).map (fun r => r.2) =
        some 4 := by decide!
    obtain ⟨⟨cF, r⟩, hcall, hr2⟩ := Option.map_eq_some'.mp hr
    have hr3 : r = 4 := hr2
    have hpost := hC.1 cF r hcall (by rw [hlen, hr3])
    rw [hd0, hdn] at hpost
    exact ⟨cF, r, hcall, hr3, hpost.2⟩
  · have hready2 : default_layers_ready 2 scenario_new := by decide!
    have hlen2 : scenario_new.layers.length = 3 := by decide!
    have hp1 : (scenario_new.pipeline 1).map (fun n => n.children) = some [] := by decide!
    obtain ⟨pn, hpn, hch⟩ := Option.map_eq_some'.mp hp1
    have hA : (scenario_new.pipeline 0).map (fun n => n.n_layers) = some 0 := by decide!
    obtain ⟨an, han, hnl⟩ := Option.map_eq_some'.mp hA
    have := ((default_layers_stay_shared_ancestors 6 scenario_new).2 2 hready2).2 1 5
    obtain ⟨cF, hcF⟩ := this.2 pn 0 an hpn hch (by decide!) han hnl
    rw [hlen2] at hcF
    exact ⟨cF, hcF⟩

/-! ## The debug option and the GLES 1 driver -/

/-- C18 (counterexample): two pipelines on which
`_cogl_pipeline_needs_blending_enabled (q, AFFECTS_BLENDING, NULL)` is not the
blend-enable predicate. With the debug option `COGL_DEBUG_DISABLE_BLENDING`, `q`
holds an explicit `ENABLED`, the predicate is true and the function returns FALSE.
On the driver `COGL_DRIVER_GLES1`, `q` resolves `AUTOMATIC` and a blend function with
the alpha source factor `GL_SRC_ALPHA`, the predicate is true (the factors are not
(ONE, ONE_MINUS_SRC_ALPHA) for alpha) and the function returns FALSE. -/
theorem needs_blending_enabled_misses_predicate :
    (scenario_debug_enabled.debug_disable_blending = true ∧
      _cogl_pipeline_get_authority scenario_debug_enabled 8 2
        COGL_PIPELINE_STATE_BLEND_ENABLE = some 2 ∧
      (scenario_debug_enabled.pipeline 2).map (fun n => n.blend_enable) =
        some CoglPipelineBlendEnable.COGL_PIPELINE_BLEND_ENABLE_ENABLED ∧
      blend_enable_predicate 8 scenario_debug_enabled 2 = some true ∧
      (_cogl_pipeline_needs_blending_enabled 9 scenario_debug_enabled 2
        COGL_PIPELINE_STATE_AFFECTS_BLENDING none).map Prod.snd = some false) ∧
    (scenario_gles1_alpha_factor.debug_disable_blending = false ∧
      scenario_gles1_alpha_factor.driver = CoglDriver.COGL_DRIVER_GLES1 ∧
      _cogl_pipeline_get_authority scenario_gles1_alpha_factor 8 2
        COGL_PIPELINE_STATE_BLEND_ENABLE = some 0 ∧
      (scenario_gles1_alpha_factor.pipeline 0).map (fun n => n.blend_enable) =
        some CoglPipelineBlendEnable.COGL_PIPELINE_BLEND_ENABLE_AUTOMATIC ∧
      _cogl_pipeline_get_authority scenario_gles1_alpha_factor 8 2
        COGL_PIPELINE_STATE_BLEND = some 2 ∧
      (scenario_gles1_alpha_factor.pipeline 2).map (fun n =>
          (n.big_state.blend_state.blend_equation_rgb,
           n.big_state.blend_state.blend_equation_alpha,
           n.big_state.blend_state.blend_src_factor_rgb,
           n.big_state.blend_state.blend_dst_factor_rgb,
           n.big_state.blend_state.blend_src_factor_alpha,
           n.big_state.blend_state.blend_dst_factor_alpha)) =
        some (GL_FUNC_ADD, GL_FUNC_ADD, GL_ONE, GL_ONE_MINUS_SRC_ALPHA, GL_SRC_ALPHA,
          GL_ONE_MINUS_SRC_ALPHA) ∧
      blend_enable_predicate 8 scenario_gles1_alpha_factor 2 = some true ∧
      (_cogl_pipeline_needs_blending_enabled 9 scenario_gles1_alpha_factor 2
        COGL_PIPELINE_STATE_AFFECTS_BLENDING none).map Prod.snd = some false) := by
  refine ⟨⟨by decide!, by decide!, by decide!, by decide!, by decide!⟩,
    by decide!, by decide!, by decide!, by decide!, by decide!, by decide!, by decide!,
    by decide!⟩

/-- C20 (counterexample): in a program run with the debug option
`COGL_DEBUG_DISABLE_BLENDING`, a new pipeline `p` (1) (blend enable `AUTOMATIC`,
default blend function, no user program, no layers) has its color changed to alpha
0x80 and `_cogl_pipeline_update_blend_enable (p, COLOR)` run: `p` is its own `COLOR`
authority with the alpha byte 0x80, and `real_blend_enable` is false before the
change and after it. -/
theorem debug_option_keeps_real_blend_enable_false :
    scenario_alpha_steps_debug = some (1, 0x80, [false, false]) := by
  decide!

/-- C11 (failing input): `p` (2) of `scenario_reparented_past_layers` is its own
`LAYERS` authority with `n_layers` 1 and a stale cache; the one layer it lists is on
unit 1 and its parent is the default pipeline. `_cogl_pipeline_update_layers_cache
(p)` returns with the cache marked valid and the slot of unit 0 NULL, and
`_cogl_pipeline_foreach_layer_internal (p, ...)` dereferences that slot. -/
theorem update_layers_cache_leaves_null_slot :
    _cogl_pipeline_get_authority scenario_reparented_past_layers 8 2
      COGL_PIPELINE_STATE_LAYERS = some 2 ∧
    (scenario_reparented_past_layers.pipeline 2).map
        (fun p => (p.parent, p.n_layers, p.layer_differences, p.layers_cache_dirty)) =
      some (some 0, 1, [5], true) ∧
    _cogl_pipeline_layer_get_unit_index scenario_reparented_past_layers 8 5 = some 1 ∧
    (_cogl_pipeline_update_layers_cache 8 scenario_reparented_past_layers 2).bind
        (fun c => (c.pipeline 2).map
          (fun p => (p.n_layers, p.layers_cache_dirty, p.layers_cache.take p.n_layers))) =
      some (1, false, [none]) ∧
    (_cogl_pipeline_foreach_layer_internal 8 scenario_reparented_past_layers 2
        (fun c (seen : List Nat) layer => some (c, seen ++ [layer], true)) []).map Prod.snd =
      none := by
  refine ⟨by decide!, by decide!, by decide!, by decide!, by decide!⟩

/-! ## Reparenting without disposal -/

/-- C24 (counterexample): a reparenting in which the old parent is disposed of. In
`scenario_held_by_child` the pipeline `p` (1) is a child of the default pipeline (0),
holds one reference on it, and has the count 1, held by the edge of its strong child
`c` (2); the default pipeline has the count 2. During
`_cogl_pipeline_node_set_parent_real (c, default, unparent, TRUE)` the count of `p`
reaches zero in `_cogl_pipeline_node_unparent_real`. The disposal of `p`,
`_cogl_pipeline_free (p)`, unparents `p` and gives back its reference on the default
pipeline: `c` is a strong child of the default pipeline, whose count is 2 as before,
not raised by one. During `_cogl_pipeline_node_set_parent_real (c, p, unparent,
FALSE)`, which makes the edge from `c` to its parent `p` a weak one, the count of the
new parent `p` reaches zero in the last `cogl_object_unref`, and the disposal of `p`
stops at `g_assert (COGL_LIST_EMPTY (&COGL_PIPELINE_NODE (pipeline)->children))`. -/
theorem set_parent_real_disposes_old_parent :
    (scenario_held_by_child.pipeline 1).map
        (fun p => (p.parent, p.has_parent_reference, p.children, p.ref_count)) =
      some (some 0, true, [2], 1) ∧
    (scenario_held_by_child.pipeline 2).map (fun c => (c.parent, c.has_parent_reference)) =
      some (some 1, true) ∧
    (scenario_held_by_child.pipeline 0).map (fun d => (d.children, d.ref_count)) =
      some ([1], 2) ∧
    (_cogl_pipeline_node_set_parent_real scenario_held_by_child 2 0 true).bind
        (fun c1 => (c1.pipeline 1).map (fun p => p.ref_count)) = some 0 ∧
    ((_cogl_pipeline_node_set_parent_real scenario_held_by_child 2 0 true).bind
        (fun c1 => _cogl_pipeline_free 8 c1 1)).map
        (fun c2 => (c2.freed, (c2.pipeline 2).map (fun c => (c.parent, c.has_parent_reference)),
          (c2.pipeline 0).map (fun d => (d.children, d.ref_count)))) =
      some ([1], some (some 0, true), some ([2], 2)) ∧
    (_cogl_pipeline_node_set_parent_real scenario_held_by_child 2 1 false).bind
        (fun c1 => (c1.pipeline 1).map (fun p => (p.children, p.ref_count))) = some ([2], 0) ∧
    (_cogl_pipeline_node_set_parent_real scenario_held_by_child 2 1 false).bind
        (fun c1 => _cogl_pipeline_free 8 c1 1) = none := by
  refine ⟨by decide!, by decide!, by decide!, by decide!, by decide!, by decide!, by decide!⟩

/-- C24: `_cogl_pipeline_node_set_parent_real (node, parent, unparent, strong)` in a
call that disposes of nothing: the new parent is alive (count at least 1), an old
parent other than `parent` whose edge holds a reference has another reference as
well (count at least 2), and so has `parent` when it is the old parent, the old
edge holds a reference and the new edge is weak. The node is listed once by the
parent it has, if it has one, and is not yet listed by a new parent. The call
returns; the node has the parent `parent` and `has_parent_reference` is `strong`;
the node is listed once by `parent`; the reference count of `parent` is raised by
one iff `strong` (and lowered by one if `parent` was the parent before and the old
edge held a reference) and stays above zero; an old parent other than `parent` does
not list the node any more, and its count is lowered by one iff the old edge held a
reference, staying above zero then; no other pipeline is changed. Hence
`cogl_pipeline_copy (parent)` gives a child with a parent reference and raises the
count of `parent` by one, and `_cogl_pipeline_weak_copy (parent)` gives a child
without a parent reference and leaves the count as it is. -/
theorem set_parent_real_links_and_reference_counts (ctx : CoglContext) (node parent : Nat)
    (n pn : CoglPipeline) (strong : Bool)
    (hn : ctx.pipeline node = some n) (hp : ctx.pipeline parent = some pn) (hne : node ≠ parent)
    (hold : ∀ q, n.parent = some q → q ≠ node ∧ ∃ qn, ctx.pipeline q = some qn ∧
      qn.children.count node = 1 ∧
      (n.has_parent_reference = true → q ≠ parent → 2 ≤ qn.ref_count))
    (hnew : n.parent ≠ some parent → node ∉ pn.children)
    (hlive : 1 ≤ pn.ref_count)
    (hsame : n.parent = some parent → n.has_parent_reference = true → strong = false →
      2 ≤ pn.ref_count) :
    (∃ ctx2 n2 pn2, _cogl_pipeline_node_set_parent_real ctx node parent strong = some ctx2 ∧
      ctx2.pipeline node = some n2 ∧ n2.parent = some parent ∧
      n2.has_parent_reference = strong ∧
      ctx2.pipeline parent = some pn2 ∧ pn2.children.count node = 1 ∧
      pn2.ref_count + (if n.parent = some parent ∧ n.has_parent_reference = true then 1 else 0) =
        pn.ref_count + (if strong = true then 1 else 0) ∧
      1 ≤ pn2.ref_count ∧
      (∀ q qn, n.parent = some q → q ≠ parent → ctx.pipeline q = some qn →
        ∃ qn2, ctx2.pipeline q = some qn2 ∧ node ∉ qn2.children ∧
          qn2.ref_count + (if n.has_parent_reference = true then 1 else 0) = qn.ref_count ∧
          (n.has_parent_reference = true → 1 ≤ qn2.ref_count)) ∧
      (∀ z, z ≠ node → z ≠ parent → n.parent ≠ some z → ctx2.pipeline z = ctx.pipeline z)) ∧
    (∀ fuel path root, pipeline_path ctx parent path → path.getLast? = some root →
      pipeline_not_weak ctx root → path.length ≤ fuel →
      ∃ c1, cogl_pipeline_copy fuel ctx parent = some (c1, ctx.pipelines.length) ∧
        (c1.pipeline ctx.pipelines.length).map (fun c => (c.parent, c.has_parent_reference)) =
          some (some parent, true) ∧
        (c1.pipeline parent).map (fun p => p.ref_count) = some (pn.ref_count + 1)) ∧
    (∀ fuel callback user_data,
      ∃ c1, _cogl_pipeline_weak_copy fuel ctx parent callback user_data =
          some (c1, ctx.pipelines.length) ∧
        (c1.pipeline ctx.pipelines.length).map (fun c => (c.parent, c.has_parent_reference)) =
          some (some parent, false) ∧
        (c1.pipeline parent).map (fun p => p.ref_count) = some pn.ref_count) := by
  have hold1 : ∀ q, n.parent = some q → q ≠ node ∧ ∃ qn, ctx.pipeline q = some qn ∧
      qn.children.count node = 1 ∧ (n.has_parent_reference = true → 1 ≤ qn.ref_count) := by
    intro q hq
    obtain ⟨h1, qn, hqn, hc, h2⟩ := hold q hq
    refine ⟨h1, qn, hqn, hc, fun href => ?_⟩
    by_cases hqp : q = parent
    · subst hqp
      rw [hp] at hqn
      rw [← Option.some.inj hqn]
      exact hlive
    · exact Nat.le_of_succ_le (h2 href hqp)
  obtain ⟨⟨ctx2, n2, pn2, hret, a1, a2, a3, a4, a5, a6, a7, a8⟩, hcopy, hweak⟩ :=
    set_parent_real_links_spec ctx node parent n pn strong hn hp hne hold1 hnew
  refine ⟨⟨ctx2, n2, pn2, hret, a1, a2, a3, a4, a5, a6, ?_, ?_, a8⟩, hcopy, hweak⟩
  · by_cases hc : n.parent = some parent ∧ n.has_parent_reference = true
    · rw [if_pos hc] at a6
      cases hs : strong with
      | true =>
        rw [hs] at a6
        simp only [if_true] at a6
        omega
      | false =>
        have := hsame hc.1 hc.2 hs
        rw [hs] at a6
        simp only [Bool.false_eq_true, if_false] at a6
        omega
    · rw [if_neg hc] at a6
      have : 0 ≤ (if strong = true then 1 else 0) := Nat.zero_le _
      omega
  · intro q qn hq hqp hqn
    obtain ⟨qn2, b1, b2, b3⟩ := a7 q qn hq hqp hqn
    refine ⟨qn2, b1, b2, b3, ?_⟩
    obtain ⟨-, qn1, hqn1, -, h2⟩ := hold q hq
    rw [hqn] at hqn1
    have he := Option.some.inj hqn1
    subst he
    intro href
    have := h2 href hqp
    rw [if_pos href] at b3
    omega

theorem set_parent_real_links_and_reference_counts_witness :
    scenario_copy.pipeline 2 = some scenario_copy_c ∧
    scenario_copy.pipeline 0 = some scenario_copy_default ∧ 2 ≠ 0 ∧
    scenario_copy_c.parent = some 1 ∧ scenario_copy_c.has_parent_reference = true ∧
    (scenario_copy.pipeline 1).map (fun p => (p.children, p.ref_count)) = some ([2], 2) ∧
    1 ≤ scenario_copy_default.ref_count ∧
    ((∃ ctx2 n2 pn2, _cogl_pipeline_node_set_parent_real scenario_copy 2 0 true = some ctx2 ∧
      ctx2.pipeline 2 = some n2 ∧ n2.parent = some 0 ∧
      n2.has_parent_reference = true ∧
      ctx2.pipeline 0 = some pn2 ∧ pn2.children.count 2 = 1 ∧
      pn2.ref_count + (if scenario_copy_c.parent = some 0 ∧
          scenario_copy_c.has_parent_reference = true then 1 else 0) =
        scenario_copy_default.ref_count + (if true = true then 1 else 0) ∧
      1 ≤ pn2.ref_count ∧
      (∀ q qn, scenario_copy_c.parent = some q → q ≠ 0 → scenario_copy.pipeline q = some qn →
        ∃ qn2, ctx2.pipeline q = some qn2 ∧ 2 ∉ qn2.children ∧
          qn2.ref_count + (if scenario_copy_c.has_parent_reference = true then 1 else 0) =
            qn.ref_count ∧
          (scenario_copy_c.has_parent_reference = true → 1 ≤ qn2.ref_count)) ∧
      (∀ z, z ≠ 2 → z ≠ 0 → scenario_copy_c.parent ≠ some z →
        ctx2.pipeline z = scenario_copy.pipeline z)) ∧
    (∀ fuel path root, pipeline_path scenario_copy 0 path → path.getLast? = some root →
      pipeline_not_weak scenario_copy root → path.length ≤ fuel →
      ∃ c1, cogl_pipeline_copy fuel scenario_copy 0 = some (c1, scenario_copy.pipelines.length) ∧
        (c1.pipeline scenario_copy.pipelines.length).map
            (fun c => (c.parent, c.has_parent_reference)) = some (some 0, true) ∧
        (c1.pipeline 0).map (fun p => p.ref_count) = some (scenario_copy_default.ref_count + 1)) ∧
    (∀ fuel callback user_data,
      ∃ c1, _cogl_pipeline_weak_copy fuel scenario_copy 0 callback user_data =
          some (c1, scenario_copy.pipelines.length) ∧
        (c1.pipeline scenario_copy.pipelines.length).map
            (fun c => (c.parent, c.has_parent_reference)) = some (some 0, false) ∧
        (c1.pipeline 0).map (fun p => p.ref_count) = some scenario_copy_default.ref_count)) :=
  have hparent : scenario_copy_c.parent = some 1 := by decide!
  have hold : ∀ q, scenario_copy_c.parent = some q → q ≠ 2 ∧
      ∃ qn, scenario_copy.pipeline q = some qn ∧ qn.children.count 2 = 1 ∧
        (scenario_copy_c.has_parent_reference = true → q ≠ 0 → 2 ≤ qn.ref_count) := by
    intro q hq
    rw [hparent] at hq
    obtain rfl := Option.some.inj hq
    exact ⟨by decide, (scenario_copy.pipeline 1).getD zeroed_pipeline, by decide!, by decide!,
      fun _ _ => by decide!⟩
  have hnew : scenario_copy_c.parent ≠ some 0 → 2 ∉ scenario_copy_default.children :=
    fun _ => by decide!
  have hlive : 1 ≤ scenario_copy_default.ref_count := by decide!
  ⟨by decide!, by decide!, by decide, hparent, by decide!, by decide!, hlive,
    set_parent_real_links_and_reference_counts scenario_copy 2 0 scenario_copy_c
      scenario_copy_default true (by decide!) (by decide!) (by decide) hold hnew hlive
      (fun h => by
        rw [hparent] at h
        exact absurd (Option.some.inj h) (by decide))⟩

/-! ## The calls return -/

theorem foldlM_total_mem {α β : Type} (f : β → α → Option β) :
    ∀ (l : List α) (b : β) (inv : β → Prop), inv b →
      (∀ s a, a ∈ l → inv s → ∃ s2, f s a = some s2 ∧ inv s2) →
      ∃ r, l.foldlM f b = some r ∧ inv r := by
  intro l
  induction l with
  | nil =>
    intro b inv hb _
    exact ⟨b, rfl, hb⟩
  | cons a rest ih =>
    intro b inv hb hstep
    obtain ⟨s2, h2, hi2⟩ := hstep b a (List.mem_cons_self _ _) hb
    obtain ⟨r, hr, hir⟩ := ih s2 inv hi2 (fun s x hx hs => hstep s x (List.mem_cons_of_mem _ hx) hs)
    exact ⟨r, by simp only [List.foldlM_cons, Option.bind_eq_bind, h2, Option.some_bind, hr], hir⟩

theorem foldlM_ne_none_mem {α β : Type} (f : β → α → Option β) (l : List α) (b : β)
    (inv : β → Prop) (hb : inv b)
    (hstep : ∀ s a, a ∈ l → inv s → ∃ s2, f s a = some s2 ∧ inv s2) :
    l.foldlM f b ≠ none := by
  obtain ⟨r, hr, -⟩ := foldlM_total_mem f l b inv hb hstep
  rw [hr]
  exact Option.some_ne_none r

/-- The test `_cogl_pipeline_is_weak` returns on a pipeline whose subtree is read
within `f` steps, given twice that fuel. -/
theorem is_weak_total {ctx : CoglContext} :
    ∀ (f k x : Nat) (ids : List Nat), subtree_post ctx f x = some ids → 2 * f ≤ k →
      ∃ b, _cogl_pipeline_is_weak ctx k x = some b := by
  intro f
  induction f with
  | zero => intro k x ids h; simp [subtree_post] at h
  | succ j ih =>
    intro k x ids h hk
    obtain ⟨node, below, hx, hb, -⟩ := subtree_post_step h
    obtain ⟨k2, rfl⟩ : ∃ k2, k = k2 + 2 := ⟨k - 2, by omega⟩
    rw [_cogl_pipeline_is_weak, hx]
    simp only
    by_cases hw : node.is_weak = true
    · rw [if_pos hw, has_strong_children]
      unfold _cogl_pipeline_node_foreach_child
      rw [hx]
      simp only
      split
      · rename_i heq
        refine absurd heq (foldlM_ne_none_mem _ _ _ (fun _ => True) trivial ?_)
        intro s a ha _
        obtain ⟨part, hp, -⟩ := subtree_post_list_mem _ _ hb a ha
        obtain ⟨b, hb2⟩ := ih k2 a part hp (by omega)
        simp only [hb2]
        split
        · exact ⟨_, rfl, trivial⟩
        · exact ⟨_, rfl, trivial⟩
      · exact ⟨_, rfl⟩
    · rw [if_neg hw]
      exact ⟨_, rfl⟩
/-- The walk of `destroy_weak_children_cb` over a child list returns when each call
of the callback does. -/
theorem destroy_children_fold_total {n f x : Nat}
    (hD : ∀ (ctx ctx2 : CoglContext) (c q : Nat) (ids : List Nat),
      subtree_post ctx f c = some ids → ids.Nodup → links_consistent ctx ids →
      (ctx.links c).map (fun k => k.parent) = some (some q) → q ∉ ids →
      (∃ lq, ctx.links q = some lq ∧ c ∈ lq.children) →
      destroy_weak_children_cb n ctx c = some ctx2 →
      ∃ b, _cogl_pipeline_is_weak ctx (n - 1) c = some b ∧ (b = false → ctx2 = ctx) ∧
        (b = true → dismantled ctx ctx2 ids q c))
    (hT : ∀ (ctx : CoglContext) (c q : Nat) (ids : List Nat),
      subtree_post ctx f c = some ids → ids.Nodup → links_consistent ctx ids →
      (ctx.links c).map (fun k => k.parent) = some (some q) → q ∉ ids →
      (∃ lq, ctx.links q = some lq ∧ c ∈ lq.children) →
      ∃ ctx2, destroy_weak_children_cb n ctx c = some ctx2) :
    ∀ (cs below : List Nat) (ctx : CoglContext) (lx : PipelineLinks),
      subtree_post_list (subtree_post ctx f) cs = some below → below.Nodup → x ∉ below →
      links_consistent ctx below → ctx.links x = some lx → lx.children.Nodup →
      (∀ c ∈ cs, c ∈ lx.children ∧ (ctx.links c).map (fun k => k.parent) = some (some x)) →
      ∃ ctx2, cs.foldlM (destroy_weak_children_cb n) ctx = some ctx2 := by
  intro cs
  induction cs with
  | nil =>
    intro below ctx lx _ _ _ _ _ _ _
    exact ⟨ctx, rfl⟩
  | cons c rest ih =>
    intro below ctx lx hsub hnodup hxb hcons hlx hlxn hcs
    obtain ⟨first, others, hfirst, hothers, hbelow⟩ := subtree_post_list_cons hsub
    subst hbelow
    have hcsn := subtree_tops_nodup (c :: rest) (first ++ others) hsub hnodup
    rw [List.nodup_append] at hnodup
    obtain ⟨hnf, hno, hdisj⟩ := hnodup
    have hxf : x ∉ first := fun h => hxb (List.mem_append_left _ h)
    have hxo : x ∉ others := fun h => hxb (List.mem_append_right _ h)
    obtain ⟨hcl, hcp⟩ := hcs c (List.mem_cons_self _ _)
    obtain ⟨ctx1, hstep⟩ := hT ctx c x first hfirst hnf
      (links_consistent_subset hcons (fun y hy => List.mem_append_left _ hy)) hcp hxf
      ⟨lx, hlx, hcl⟩
    obtain ⟨b, hb, hbf, hbt⟩ := hD ctx ctx1 c x first hfirst hnf
      (links_consistent_subset hcons (fun y hy => List.mem_append_left _ hy)) hcp hxf
      ⟨lx, hlx, hcl⟩ hstep
    simp only [List.foldlM_cons, Option.bind_eq_bind, hstep, Option.some_bind]
    cases b with
    | false =>
      have he := hbf rfl
      subst he
      exact ih others ctx1 lx hothers hno hxo
        (links_consistent_subset hcons (fun y hy => List.mem_append_right _ hy)) hlx hlxn
        (fun c2 h2 => hcs c2 (List.mem_cons_of_mem _ h2))
    | true =>
      obtain ⟨d1, d2, d3, d4, d5⟩ := hbt rfl
      have hsame : ∀ y ∈ others, ctx1.links y = ctx.links y := fun y hy =>
        d3 y (fun hf => hdisj hf hy) (fun hx => hxo (hx ▸ hy))
      obtain ⟨w1, w2, w3⟩ := @weak_subtrees_congr ctx ctx1 (n - 1) f rest others hothers hsame
      have hlx1 : ctx1.links x =
          some { lx with children := lx.children.erase c } := by
        rw [d2, hlx]
        rfl
      have hxpar : (ctx1.links x).map (fun k => k.parent) =
          (ctx.links x).map (fun k => k.parent) := by
        rw [hlx1, hlx]
        rfl
      have hcons1 : links_consistent ctx1 others := by
        intro y hy l hl c2 hc2
        rw [hsame y hy] at hl
        have hpar := hcons y (List.mem_append_right _ hy) l hl c2 hc2
        have hc2f : c2 ∉ first := by
          intro hin
          rcases (subtree_post_member f c first hfirst).2 c2 hin with he | ⟨z, hz, lz, hlz, hcz⟩
          · rw [he, hcp] at hpar
            simp only [Option.some.injEq] at hpar
            exact hxo (hpar ▸ hy)
          · have := hcons z (List.mem_append_left _ hz) lz hlz c2 hcz
            rw [this] at hpar
            simp only [Option.some.injEq] at hpar
            exact hdisj hz (hpar ▸ hy)
        by_cases hc2x : c2 = x
        · rw [hc2x, hxpar, ← hc2x]
          exact hpar
        · rw [d3 c2 hc2f hc2x]
          exact hpar
      have hcs1 : ∀ c2 ∈ rest, c2 ∈ (lx.children.erase c) ∧
          (ctx1.links c2).map (fun k => k.parent) = some (some x) := by
        intro c2 h2
        obtain ⟨m1, m2⟩ := hcs c2 (List.mem_cons_of_mem _ h2)
        have hne : c2 ≠ c := by
          intro he
          rw [he] at h2
          exact (List.nodup_cons.mp hcsn).1 h2
        refine ⟨(List.mem_erase_of_ne hne).mpr m1, ?_⟩
        rw [hsame c2 (subtree_top_mem hothers h2)]
        exact m2
      exact ih others ctx1 { lx with children := lx.children.erase c } w3 hno hxo hcons1 hlx1
        (List.Nodup.erase c hlxn) hcs1
/-- The callback `destroy_weak_children_cb` returns on a child `c` of `q` whose
subtree is a tree read within `f` steps, given `2 * f + 1` units of fuel. -/
theorem destroy_weak_children_total :
    ∀ (n f : Nat) (ctx : CoglContext) (c q : Nat) (ids : List Nat),
      subtree_post ctx f c = some ids → ids.Nodup → links_consistent ctx ids →
      (ctx.links c).map (fun k => k.parent) = some (some q) → q ∉ ids →
      (∃ lq, ctx.links q = some lq ∧ c ∈ lq.children) → 2 * f + 1 ≤ n →
      ∃ ctx2, destroy_weak_children_cb n ctx c = some ctx2 := by
  intro n
  induction n with
  | zero =>
    intro f ctx c q ids _ _ _ _ _ _ h
    omega
  | succ k ih =>
    intro f ctx c q ids hsub hnodup hcons hpar hq hlq hfuel
    rw [destroy_weak_children_cb]
    obtain ⟨b, hw⟩ := is_weak_total f k c ids hsub (by omega)
    rw [hw]
    cases b with
    | false => exact ⟨ctx, rfl⟩
    | true =>
      simp only
      obtain ⟨g, rfl⟩ : ∃ g, f = g + 1 := by
        cases f with
        | zero => simp [subtree_post] at hsub
        | succ g => exact ⟨g, rfl⟩
      obtain ⟨node, below, hc, hbelow, hids⟩ := subtree_post_step hsub
      subst hids
      have hnb : below.Nodup := (List.nodup_append.mp hnodup).1
      have hcb : c ∉ below := by
        intro h
        exact (List.nodup_append.mp hnodup).2.2 h (List.mem_singleton_self c)
      have hqc : q ≠ c := fun h => hq (by rw [h]; simp)
      have hqb : q ∉ below := fun h => hq (List.mem_append_left _ h)
      obtain ⟨lq, hlqs, hclq⟩ := hlq
      obtain ⟨ctx1, hfold⟩ := destroy_children_fold_total (destroy_weak_children_spec k g)
        (fun ctx c q ids h1 h2 h3 h4 h5 h6 => ih g ctx c q ids h1 h2 h3 h4 h5 h6 (by omega))
        node.children below ctx node.links hbelow hnb hcb
        (links_consistent_subset hcons (fun y hy => List.mem_append_left _ hy))
        (links_of_pipeline hc) (subtree_tops_nodup node.children below hbelow hnb)
        (fun c2 h2 => ⟨h2, hcons c (by simp) node.links (links_of_pipeline hc) c2 h2⟩)
      have hfe : _cogl_pipeline_node_foreach_child ctx c
          (fun c2 child => destroy_weak_children_cb k c2 child) ctx = some ctx1 := by
        unfold _cogl_pipeline_node_foreach_child
        rw [hc]
        exact hfold
      rw [hfe]
      simp only
      obtain ⟨-, r2, r3, -, -, -, -⟩ := destroy_children_fold (destroy_weak_children_spec k g)
        node.children below ctx ctx1 node.links hbelow hnb hcb
        (links_consistent_subset hcons (fun y hy => List.mem_append_left _ hy))
        (links_of_pipeline hc) (subtree_tops_nodup node.children below hbelow hnb)
        (fun c2 h2 => ⟨h2, hcons c (by simp) node.links (links_of_pipeline hc) c2 h2⟩) hfold
      obtain ⟨px, hpx, hpxl⟩ := links_eq_some r2
      rw [hpx]
      simp only
      have hq1 : (ctx1.emit (CoglEvent.destroy px.destroy_callback c px.destroy_data)).links q =
          some lq := by
        have : ctx1.links q = ctx.links q := r3 q
          (fun h => hqb ((weak_subtrees_sublist node.children below hbelow).subset h)) hqc
        rw [← hlqs, ← this]
        rfl
      obtain ⟨qn, hqn, hqnl⟩ := links_eq_some hq1
      have hppar : px.parent = some q := by
        have h1 : px.links.parent = node.links.parent := by rw [hpxl]
        have h2 : (ctx.links c).map (fun k => k.parent) = some node.links.parent := by
          rw [links_of_pipeline hc]; rfl
        rw [hpar] at h2
        exact h1.trans (Option.some.inj h2).symm
      have hqch : qn.children ≠ [] := by
        have : qn.links.children = lq.children := by rw [hqnl]
        intro h0
        have hmem : c ∈ qn.links.children := by rw [this]; exact hclq
        rw [show qn.links.children = qn.children from rfl, h0] at hmem
        exact absurd hmem (by simp)
      obtain ⟨ctx3, hun, -⟩ := unparent_links
        (show (ctx1.emit (CoglEvent.destroy px.destroy_callback c px.destroy_data)).pipeline c
          = some px from hpx) hppar hqn (Ne.symm hqc) hqch
      exact ⟨ctx3, hun⟩
/-- The destruction of the weak children in `_cogl_pipeline_pre_change_notify` and
`_cogl_pipeline_free` returns on a tree, given `2 * f + 1` units of fuel. -/
theorem destroy_phase_total {n f p : Nat} {ctx c2 : CoglContext} {ids : List Nat}
    (hs : same_skeleton ctx c2)
    (htree : subtree_post ctx (f + 1) p = some ids) (hnd : ids.Nodup)
    (hcons : links_consistent ctx ids) (hfuel : 2 * f + 1 ≤ n) :
    ∃ c3, _cogl_pipeline_node_foreach_child c2 p (destroy_weak_children_cb n) c2 = some c3 := by
  obtain ⟨node, below, hp, hbelow, hids⟩ := subtree_post_step htree
  subst hids
  have hnb : below.Nodup := (List.nodup_append.mp hnd).1
  have hpb : p ∉ below := fun hh =>
    (List.nodup_append.mp hnd).2.2 hh (List.mem_singleton_self p)
  obtain ⟨node2, hp2, hl2⟩ := same_skeleton_pipeline hs hp
  have hch2 : node2.children = node.children := by
    have : node2.links.children = node.links.children := by rw [hl2]
    exact this
  unfold _cogl_pipeline_node_foreach_child
  rw [hp2]
  simp only [hch2]
  obtain ⟨w1, w2, w3⟩ := @weak_subtrees_congr ctx c2 (n - 1) f node.children below hbelow
    (fun y _ => hs.1 y)
  have hcons2 : links_consistent c2 below := by
    intro y hy l hl c hc
    rw [hs.1 y] at hl
    rw [hs.1 c]
    exact hcons y (List.mem_append_left _ hy) l hl c hc
  have hpar2 : ∀ c ∈ node.children, c ∈ node2.links.children ∧
      (c2.links c).map (fun k => k.parent) = some (some p) := by
    intro c hc
    refine ⟨by rw [hl2]; exact hc, ?_⟩
    rw [hs.1 c]
    exact hcons p (by simp) node.links (links_of_pipeline hp) c hc
  have hnodup : node2.links.children.Nodup := by
    rw [hl2]
    exact subtree_tops_nodup node.children below hbelow hnb
  exact destroy_children_fold_total (destroy_weak_children_spec n f)
    (fun ctx c q ids h1 h2 h3 h4 h5 h6 =>
      destroy_weak_children_total n f ctx c q ids h1 h2 h3 h4 h5 h6 hfuel)
    node.children below c2 node2.links w3 hnb hpb hcons2 (links_of_pipeline hp2) hnodup hpar2
theorem pipeline_view_eq {a b : CoglContext} {q : Nat}
    (hpar : (b.links q).map (fun l => l.parent) = (a.links q).map (fun l => l.parent))
    (hdiff : (b.pipeline q).map CoglPipeline.layer_state =
      (a.pipeline q).map CoglPipeline.layer_state) :
    pipeline_view b q = pipeline_view a q := by
  unfold pipeline_view
  unfold CoglContext.links at hpar
  cases ha : a.pipeline q with
  | none =>
    rw [ha] at hdiff
    cases hb : b.pipeline q with
    | none => rfl
    | some nb => rw [hb] at hdiff; exact absurd hdiff (by simp)
  | some na =>
    rw [ha] at hdiff hpar
    cases hb : b.pipeline q with
    | none => rw [hb] at hdiff; exact absurd hdiff (by simp)
    | some nb =>
      rw [hb] at hdiff hpar
      simp only [Option.map_some', Option.some.injEq, CoglPipeline.layer_state,
        Prod.mk.injEq, CoglPipeline.links] at hdiff hpar ⊢
      rw [hdiff.1, hpar]

theorem sparse_group_facts {G : Nat} (hG : G ∈ sparse_state_groups) :
    G ≠ 0 ∧ G &&& COGL_PIPELINE_STATE_ALL_SPARSE = G := by
  rw [sparse_state_groups_eq] at hG
  simp only [List.mem_cons, List.mem_singleton, List.not_mem_nil, or_false] at hG
  rcases hG with rfl | rfl | rfl | rfl | rfl | rfl | rfl | rfl | rfl | rfl | rfl | rfl | rfl <;>
    exact ⟨by decide, by decide⟩

/-- The authority of a sparse group is found from `p` in every context that shows
the chain from `p` to a root asserting every sparse group as `ctx` does. -/
theorem authority_on_path {ctx c : CoglContext} {p G root fuel : Nat} {path : List Nat}
    (hG : G ∈ sparse_state_groups)
    (hpath : pipeline_path ctx p path) (hlast : path.getLast? = some root)
    (hroot : node_asserts_all (pipeline_view ctx) COGL_PIPELINE_STATE_ALL_SPARSE root)
    (hfuel : path.length ≤ fuel)
    (hview : ∀ m ∈ path, pipeline_view c m = pipeline_view ctx m) :
    ∃ a, _cogl_pipeline_get_authority c fuel p G = some a ∧ a ∈ path := by
  obtain ⟨hg0, hgs⟩ := sparse_group_facts hG
  have hp2 : node_path (pipeline_view c) p path := node_path_congr path p hview hpath
  have hroot2 : node_asserts_all (pipeline_view c) COGL_PIPELINE_STATE_ALL_SPARSE root := by
    unfold node_asserts_all at hroot ⊢
    rw [hview root (List.mem_of_getLast?_eq_some hlast)]
    exact hroot
  obtain ⟨a, ha, hnear, -⟩ := node_authority_of_rooted (pipeline_view c)
    COGL_PIPELINE_STATE_ALL_SPARSE G p root fuel path hp2 hlast hroot2 hg0 hgs hfuel
  refine ⟨a, by rw [pipeline_get_authority_eq]; exact ha, ?_⟩
  obtain ⟨pre, post, hsplit, -, -⟩ := hnear
  rw [hsplit]
  simp

/-- The steps of `_cogl_pipeline_pre_change_notify` up to the destruction of the weak
children return on a tree, and what they return shows the chain from `p` to the root
as before. -/
theorem pre_change_notify_head_returns {ctx : CoglContext} {p G f k : Nat} {n : CoglPipeline}
    {ids path : List Nat} (oc : Option CoglColor) (flc : Bool)
    (hp : ctx.pipeline p = some n)
    (hj : G = COGL_PIPELINE_STATE_COLOR → n.journal_ref_count = 0)
    (htree : subtree_post ctx (f + 1) p = some ids) (hnd : ids.Nodup)
    (hcons : links_consistent ctx ids)
    (hpath : pipeline_path ctx p path) (hout : ∀ m ∈ path.tail, m ∉ ids)
    (hfuel : 2 * f + 1 ≤ k) :
    ∃ c1 c2 c3, pre_change_notify_journal k ctx p G oc = some c1 ∧
      pre_change_notify_backends c1 p G flc = some c2 ∧
      _cogl_pipeline_node_foreach_child c2 p (destroy_weak_children_cb k) c2 = some c3 ∧
      same_skeleton ctx c2 ∧
      layers_kept_but ctx.pipelines.length ctx c3 ∧
      (∀ m ∈ path, pipeline_view c3 m = pipeline_view ctx m) := by
  obtain ⟨c1, h1, hp1, s1⟩ : ∃ c1, pre_change_notify_journal k ctx p G oc = some c1 ∧
      c1.pipelines = ctx.pipelines ∧ same_skeleton ctx c1 := by
    by_cases hc : G = COGL_PIPELINE_STATE_COLOR
    · unfold pre_change_notify_journal
      simp only [hp, hj hc, ne_eq, not_true_eq_false, if_false]
      exact ⟨ctx, rfl, rfl, same_skeleton_refl ctx⟩
    · exact pre_change_notify_journal_total k oc hp hc
  have hp1n : c1.pipeline p = some n := by
    simp only [CoglContext.pipeline, hp1]
    exact hp
  obtain ⟨c2, h2, s2⟩ := pre_change_notify_backends_total G flc hp1n
  have s12 := same_skeleton_trans s1 s2
  obtain ⟨c3, h3⟩ := destroy_phase_total (n := k) s12 htree hnd hcons hfuel
  have k1 := pre_change_notify_journal_kept ctx.pipelines.length k ctx p G oc c1 h1
  have k2 := pre_change_notify_backends_kept ctx.pipelines.length c1 p G flc c2 h2
  have k3 : layers_kept_but ctx.pipelines.length c2 c3 := by
    unfold _cogl_pipeline_node_foreach_child at h3
    split at h3
    · exact absurd h3 (by simp)
    exact returned_foldlM
      (fun s y hs => kept_step hs (destroy_weak_children_kept ctx.pipelines.length k s y)) _ _
      (layers_kept_refl _ c2) _ h3
  have k123 := layers_kept_trans k1 (layers_kept_trans k2 k3)
  obtain ⟨lp, below, hlp, hids, hbelow, -, d2, d3, -, -, d6, -⟩ :=
    destroy_phase s12 htree hnd hcons h3
  refine ⟨c1, c2, c3, h1, h2, h3, s12, k123, ?_⟩
  intro m hm
  have hmv := node_path_valid _ _ hpath m hm
  simp only [pipeline_view, Option.isSome_map'] at hmv
  obtain ⟨mn, hmn⟩ := Option.isSome_iff_exists.mp hmv
  have hmlt := pipeline_lt_length hmn
  refine pipeline_view_eq ?_ (k123.2.2.1 m hmlt (Nat.ne_of_lt hmlt))
  obtain ⟨r, hr⟩ := node_path_head hpath
  by_cases hmp : m = p
  · rw [hmp, d2, hlp]
    rfl
  · have hmt : m ∈ path.tail := by
      rw [hr] at hm ⊢
      rcases List.mem_cons.mp hm with h | h
      · exact absurd h hmp
      · exact h
    have hmi : m ∉ ids := hout m hmt
    rw [d3 m (fun h => hmi (by rw [hids]; exact List.mem_append_left _ (d6 m h))) hmp]
/-- No child of `p` is left by the destruction of the weak children when
`_cogl_pipeline_is_weak` accepts every child. -/
theorem strong_children_nil_of_weak {ctx : CoglContext} {k : Nat} {cs : List Nat}
    (hk : ∀ c ∈ cs, ∃ b, _cogl_pipeline_is_weak ctx k c = some b)
    (hall : ∀ c ∈ cs, ∃ g, _cogl_pipeline_is_weak ctx g c = some true) :
    cs.filter (fun c => decide (c ∉ weak_children ctx k cs)) = [] := by
  rw [List.filter_eq_nil_iff]
  intro c hc
  obtain ⟨g2, hg2⟩ := hall c hc
  obtain ⟨b2, hb2⟩ := hk c hc
  have hbt : b2 = true := is_weak_agree hb2 hg2
  subst hbt
  simp only [decide_not, Bool.not_eq_true', decide_eq_false_iff_not, not_not]
  unfold weak_children
  rw [List.mem_filter]
  exact ⟨hc, by simp [hb2]⟩

/-- The function `_cogl_pipeline_pre_change_notify` returns for a change of a single
sparse group on a pipeline all of whose children are weak: the subtree of `p` is a
tree, the chain from `p` to a root that asserts every sparse group stays outside of
it, and the fuel covers both. -/
theorem pre_change_notify_weak_children_returns {ctx : CoglContext} {p G f k root : Nat}
    {n : CoglPipeline} {ids path : List Nat} (oc : Option CoglColor) (flc : Bool)
    (hG : G ∈ sparse_state_groups) (hp : ctx.pipeline p = some n)
    (hj : G = COGL_PIPELINE_STATE_COLOR → n.journal_ref_count = 0)
    (htree : subtree_post ctx (f + 1) p = some ids) (hnd : ids.Nodup)
    (hcons : links_consistent ctx ids)
    (hweak : ∀ c ∈ n.children, ∃ g, _cogl_pipeline_is_weak ctx g c = some true)
    (hpath : pipeline_path ctx p path) (hlast : path.getLast? = some root)
    (hroot : node_asserts_all (pipeline_view ctx) COGL_PIPELINE_STATE_ALL_SPARSE root)
    (hout : ∀ m ∈ path.tail, m ∉ ids)
    (hfuel1 : 2 * f + 1 ≤ k + 1) (hfuel2 : path.length ≤ k + 1) :
    ∃ c, _cogl_pipeline_pre_change_notify (k + 2) ctx p G oc flc = some c := by
  obtain ⟨c1, c2, c3, h1, h2, h3, s12, k123, hview⟩ :=
    pre_change_notify_head_returns oc flc hp hj htree hnd hcons hpath hout hfuel1
  obtain ⟨lp, below, hlp, hids, hbelow, -, d2, -, -, -, -, d7⟩ :=
    destroy_phase s12 htree hnd hcons h3
  have hlpn : lp = n.links := by
    rw [links_of_pipeline hp] at hlp
    exact (Option.some.inj hlp).symm
  have hnil := @strong_children_nil_of_weak _ _ lp.children d7
    (by rw [hlpn]; exact hweak)
  rw [hnil] at d2
  obtain ⟨n3, hp3, hl3⟩ := links_eq_some d2
  have hch3 : n3.children = [] := congrArg PipelineLinks.children hl3
  obtain ⟨a, ha, -⟩ := authority_on_path hG hpath hlast hroot hfuel2 hview
  obtain ⟨c4, h4⟩ := takeover_group_total hG hp3 hch3 ⟨a, ha⟩
  refine ⟨c4, ?_⟩
  rw [_cogl_pipeline_pre_change_notify]
  unfold pre_change_notify_with
  simp only [Option.bind_eq_bind, h1, Option.some_bind, h2, h3, hp3, hch3, ne_eq,
    not_true_eq_false, if_false, h4]
theorem pipeline_some_of_lt {c : CoglContext} {x : Nat} (h : x < c.pipelines.length) :
    ∃ m, c.pipeline x = some m :=
  ⟨c.pipelines[x], by simp only [CoglContext.pipeline]; exact List.getElem?_eq_getElem h⟩

/-- The function `_cogl_pipeline_node_unparent_real` returns on a node whose parent,
if it has one, is there. -/
theorem unparent_real_total {ctx : CoglContext} {x : Nat} {n : CoglPipeline}
    (hx : ctx.pipeline x = some n)
    (hpar : ∀ q, n.parent = some q → ∃ qn, ctx.pipeline q = some qn) :
    ∃ ctx2, _cogl_pipeline_node_unparent_real ctx x = some ctx2 := by
  unfold _cogl_pipeline_node_unparent_real
  rw [hx]
  simp only
  cases hp : n.parent with
  | none => exact ⟨ctx, rfl⟩
  | some q =>
    obtain ⟨qn, hq⟩ := hpar q hp
    simp only [hq]
    by_cases hch : qn.children = []
    · rw [if_pos hch]
      exact ⟨ctx, rfl⟩
    · rw [if_neg hch]
      have hxlt := pipeline_lt_length hx
      have hq1 := pipeline_set_pipeline_self hq { qn with children := qn.children.erase x }
      by_cases href : n.has_parent_reference = true
      · simp only [href, if_true, cogl_object_unref, hq1]
        obtain ⟨m2, hm2⟩ := @pipeline_some_of_lt
          ((ctx.set_pipeline q { qn with children := qn.children.erase x }).set_pipeline
            q { ({ qn with children := qn.children.erase x } : CoglPipeline) with
              ref_count := qn.ref_count - 1 }) x
          (by rw [length_set_pipeline, length_set_pipeline]; exact hxlt)
        rw [hm2]
        exact ⟨_, rfl⟩
      · simp only [href, Bool.false_eq_true, if_false]
        obtain ⟨m, hm⟩ := @pipeline_some_of_lt
          (ctx.set_pipeline q { qn with children := qn.children.erase x }) x
          (by rw [length_set_pipeline]; exact hxlt)
        rw [hm]
        exact ⟨_, rfl⟩

theorem unref_layers_total :
    ∀ (ls : List Nat) (c : CoglContext), (∀ L ∈ ls, L < c.layers.length) →
      ∃ c2, ls.foldlM cogl_object_unref_layer c = some c2 ∧ c2.pipelines = c.pipelines := by
  intro ls
  induction ls with
  | nil => intro c _; exact ⟨c, rfl, rfl⟩
  | cons L rest ih =>
    intro c h
    have hL := h L (List.mem_cons_self _ _)
    have hk : c.layer L = some c.layers[L] := by
      simp only [CoglContext.layer]
      exact List.getElem?_eq_getElem hL
    obtain ⟨c1, h1, hp1⟩ := object_unref_layer_total hk
    have hlen : c1.layers.length = c.layers.length := by
      unfold cogl_object_unref_layer at h1
      rw [hk] at h1
      simp only [Option.some.injEq] at h1
      rw [← h1]
      exact length_set_layer _ _ _
    obtain ⟨c2, h2, hp2⟩ := ih c1 (fun M hM => by
      rw [hlen]; exact h M (List.mem_cons_of_mem _ hM))
    exact ⟨c2, by simp only [List.foldlM_cons, Option.bind_eq_bind, h1, Option.some_bind, h2],
      hp2.trans hp1⟩
theorem node_path_tail {view : Nat → Option NodeView} {n b : Nat} {rest : List Nat}
    (h : node_path view n (n :: b :: rest)) :
    (view n).map (fun v => v.parent) = some (some b) ∧ node_path view b (b :: rest) := by
  simp only [node_path] at h
  exact ⟨h.2.1, h.2.2⟩

/-- The walk of `_cogl_pipeline_revert_weak_ancestors` returns on a pipeline with a
chain to a root that is not weak. -/
theorem revert_weak_ancestors_total {ctx : CoglContext} {p root fuel : Nat} {path : List Nat}
    (hpath : pipeline_path ctx p path) (hlast : path.getLast? = some root)
    (hroot : pipeline_not_weak ctx root) (hfuel : path.length ≤ fuel) :
    ∃ c1, _cogl_pipeline_revert_weak_ancestors fuel ctx p = some c1 ∧
      c1 = { ctx with pipelines := c1.pipelines } := by
  obtain ⟨r, hr⟩ := node_path_head hpath
  subst hr
  have hv := node_path_valid _ _ hpath p (by simp)
  simp only [pipeline_view, Option.isSome_map'] at hv
  obtain ⟨n, hn⟩ := Option.isSome_iff_exists.mp hv
  unfold _cogl_pipeline_revert_weak_ancestors
  rw [hn]
  simp only
  by_cases hw : n.is_weak = true
  · rw [if_pos hw]
    exact ⟨ctx, rfl, rfl⟩
  · rw [if_neg hw]
    cases r with
    | nil =>
      have hpar : n.parent = none := by
        simp only [pipeline_path, node_path, pipeline_view, hn, Option.map_some',
          Option.some.injEq, true_and] at hpath
        exact hpath
      simp only [hpar]
      exact ⟨ctx, rfl, rfl⟩
    | cons b rest =>
      obtain ⟨hpb, hrest⟩ := node_path_tail hpath
      have hpar : n.parent = some b := by
        simp only [pipeline_view, hn, Option.map_some', Option.some.injEq] at hpb
        exact hpb
      simp only [hpar]
      have hlast2 : (b :: rest).getLast? = some root := by
        rw [← hlast]
        simp [List.getLast?_cons_cons]
      obtain ⟨c2, h2, -, h3⟩ := revert_loop_counts (b :: rest) b root fuel ctx ctx hrest hlast2
        hroot (by simp only [List.length_cons] at hfuel ⊢; omega) (fun _ _ => rfl)
      exact ⟨c2, h2, h3⟩

/-- The function `_cogl_pipeline_free` returns on a pipeline all of whose children
are weak: the subtree of `p` is a tree with the parent of `p` outside, `p` has a
chain to a root that is not weak, the layers it lists when it asserts `LAYERS` are
there, and the fuel covers
the subtree and the chain. -/
theorem pipeline_free_weak_children_returns {ctx : CoglContext} {p f fuel root : Nat}
    {n : CoglPipeline} {ids path : List Nat}
    (hp : ctx.pipeline p = some n)
    (htree : subtree_post ctx (f + 1) p = some ids) (hnd : ids.Nodup)
    (hcons : links_consistent ctx ids)
    (hweak : ∀ c ∈ n.children, ∃ g, _cogl_pipeline_is_weak ctx g c = some true)
    (hpath : pipeline_path ctx p path) (hlast : path.getLast? = some root)
    (hroot : pipeline_not_weak ctx root)
    (hout : ∀ par, n.parent = some par → par ∉ ids)
    (hlayers : n.differences &&& COGL_PIPELINE_STATE_LAYERS ≠ 0 →
      ∀ L ∈ n.layer_differences, L < ctx.layers.length)
    (hfuel1 : 2 * f + 1 ≤ fuel) (hfuel2 : path.length ≤ fuel) :
    ∃ c, _cogl_pipeline_free fuel ctx p = some c := by
  -- the weak ancestors
  obtain ⟨c1, h1, e1⟩ : ∃ c1, (if (!n.is_weak) = true
      then _cogl_pipeline_revert_weak_ancestors fuel ctx p else some ctx) = some c1 ∧
      c1.layers = ctx.layers := by
    split
    · obtain ⟨c1, h1, e1⟩ := revert_weak_ancestors_total hpath hlast hroot hfuel2
      exact ⟨c1, h1, by rw [e1]⟩
    · exact ⟨ctx, rfl, rfl⟩
  have s1 : same_skeleton ctx c1 := by
    split at h1
    · exact revert_weak_ancestors_skeleton _ _ _ _ h1
    · rw [← Option.some.inj h1]
      exact same_skeleton_refl _
  -- the weak children
  obtain ⟨c2, h2⟩ := destroy_phase_total (n := fuel) s1 htree hnd hcons hfuel1
  obtain ⟨lp, below, hlp, hids, hbelow, -, d2, d3, -, d5, d6, d7⟩ :=
    destroy_phase s1 htree hnd hcons h2
  have hlpn : lp = n.links := by
    rw [links_of_pipeline hp] at hlp
    exact (Option.some.inj hlp).symm
  have hnil := @strong_children_nil_of_weak _ _ lp.children d7
    (by rw [hlpn]; exact hweak)
  rw [hnil] at d2
  obtain ⟨n2, hp2, hl2⟩ := links_eq_some d2
  have hch2 : n2.children = [] := congrArg PipelineLinks.children hl2
  have hpar2 : n2.parent = n.parent := by
    have := congrArg PipelineLinks.parent hl2
    rw [hlpn] at this
    exact this
  have k2 : layers_kept_but ctx.pipelines.length c1 c2 := by
    unfold _cogl_pipeline_node_foreach_child at h2
    split at h2
    · exact absurd h2 (by simp)
    exact returned_foldlM
      (fun s y hs => kept_step hs (destroy_weak_children_kept ctx.pipelines.length fuel s y)) _ _
      (layers_kept_refl _ c1) _ h2
  -- the parent
  have hparx : ∀ q, n2.parent = some q → ∃ qn, c2.pipeline q = some qn := by
    intro q hq
    rw [hpar2] at hq
    have hqi : q ∉ ids := hout q hq
    have hqp : q ≠ p := fun h => hqi (by rw [h, hids]; simp)
    have hq2 := d3 q (fun h => hqi (by rw [hids]; exact List.mem_append_left _ (d6 q h))) hqp
    have hqv : (ctx.links q).isSome := by
      obtain ⟨r, hr⟩ := node_path_head hpath
      subst hr
      cases r with
      | nil =>
        simp only [pipeline_path, node_path, pipeline_view, hp, Option.map_some',
          Option.some.injEq, true_and] at hpath
        rw [hpath] at hq
        exact absurd hq (by simp)
      | cons b rest =>
        obtain ⟨hpb, hrest⟩ := node_path_tail hpath
        simp only [pipeline_view, hp, Option.map_some', Option.some.injEq] at hpb
        rw [hq] at hpb
        obtain rfl := Option.some.inj hpb
        have := node_path_valid _ _ hrest q (by simp)
        simp only [pipeline_view, Option.isSome_map'] at this
        simp only [CoglContext.links, Option.isSome_map']
        exact this
    rw [← hq2] at hqv
    obtain ⟨l, hl⟩ := Option.isSome_iff_exists.mp hqv
    obtain ⟨qn, hqn, -⟩ := links_eq_some hl
    exact ⟨qn, hqn⟩
  obtain ⟨c3, h3⟩ := unparent_real_total hp2 hparx
  have k3 := unparent_real_kept ctx.pipelines.length c2 p c3 h3
  have hlen3 : c3.pipelines.length = c2.pipelines.length := by
    have hself : (c2.links p).map (fun l => l.parent) ≠ some (some p) := by
      rw [links_of_pipeline hp2]
      simp only [Option.map_some', ne_eq, Option.some.injEq, CoglPipeline.links]
      rw [hpar2]
      intro h
      exact hout p h (by rw [hids]; simp)
    exact (unparent_frame hself h3).2.2.2
  have hch3 : (c3.links p).map (fun l => l.children) = some [] := by
    have hself : (c2.links p).map (fun l => l.parent) ≠ some (some p) := by
      rw [links_of_pipeline hp2]
      simp only [Option.map_some', ne_eq, Option.some.injEq, CoglPipeline.links]
      rw [hpar2]
      intro h
      exact hout p h (by rw [hids]; simp)
    rw [(unparent_frame hself h3).1, d2]
    rfl
  -- the layers
  have hlay3 : ctx.layers.length ≤ c3.layers.length := by
    have := (layers_kept_trans k2 k3).2.1
    rw [e1] at this
    exact this
  have hst2 : n2.layer_state = n.layer_state := by
    have hplt := pipeline_lt_length hp
    obtain ⟨n1, hp1, -⟩ := same_skeleton_pipeline s1 hp
    have hn1 : n1.layer_state = n.layer_state := by
      split at h1
      · obtain ⟨c1b, h1b, e1b⟩ := revert_weak_ancestors_total hpath hlast hroot hfuel2
        rw [h1b] at h1
        obtain rfl := Option.some.inj h1
        unfold _cogl_pipeline_revert_weak_ancestors at h1b
        rw [hp] at h1b
        simp only at h1b
        split at h1b
        · rw [← Option.some.inj h1b, hp] at hp1
          rw [← Option.some.inj hp1]
        · split at h1b
          · rw [← Option.some.inj h1b, hp] at hp1
            rw [← Option.some.inj hp1]
          · rename_i par hpar
            obtain ⟨r, hr⟩ := node_path_head hpath
            subst hr
            cases r with
            | nil =>
              simp only [pipeline_path, node_path, pipeline_view, hp, Option.map_some',
                Option.some.injEq, true_and] at hpath
              rw [hpath] at hpar
              exact absurd hpar (by simp)
            | cons b rest =>
              obtain ⟨hpb, hrest⟩ := node_path_tail hpath
              simp only [pipeline_view, hp, Option.map_some', Option.some.injEq] at hpb
              rw [hpar] at hpb
              obtain rfl := Option.some.inj hpb
              have hlast2 : (par :: rest).getLast? = some root := by
                rw [← hlast]
                simp [List.getLast?_cons_cons]
              obtain ⟨c2b, h2b, hcnt, -⟩ := revert_loop_counts (par :: rest) par root fuel ctx ctx
                hrest hlast2 hroot (by simp only [List.length_cons] at hfuel2 ⊢; omega)
                (fun _ _ => rfl)
              rw [h2b] at h1b
              obtain rfl := Option.some.inj h1b
              rw [hcnt p, hp] at hp1
              simp only [Option.map_some', Option.some.injEq] at hp1
              rw [← hp1]
              rfl
      · rw [← Option.some.inj h1, hp] at hp1
        rw [← Option.some.inj hp1]
    have hplt1 : p < c1.pipelines.length := pipeline_lt_length hp1
    have hlen1 : c1.pipelines.length = ctx.pipelines.length := same_skeleton_length s1
    have := k2.2.2.1 p hplt1 (by rw [← hlen1]; exact Nat.ne_of_lt hplt1)
    rw [hp2, hp1] at this
    exact (Option.some.inj this).trans hn1
  obtain ⟨n3, hp3, hl3⟩ : ∃ n3, c3.pipeline p = some n3 ∧ n3.children = [] := by
    cases hl : c3.links p with
    | none => rw [hl] at hch3; exact absurd hch3 (by simp)
    | some l =>
      rw [hl] at hch3
      obtain ⟨n3, hn3, hn3l⟩ := links_eq_some hl
      refine ⟨n3, hn3, ?_⟩
      have : l.children = [] := by simpa using hch3
      rw [← hn3l] at this
      exact this
  obtain ⟨c4, h4, hp4⟩ : ∃ c4, (if n2.differences &&& COGL_PIPELINE_STATE_LAYERS ≠ 0
      then n2.layer_differences.foldlM cogl_object_unref_layer c3 else some c3) = some c4 ∧
      c4.pipelines = c3.pipelines := by
    split
    · rename_i hasserts
      have hld : n2.layer_differences = n.layer_differences := by
        have := congrArg (fun t : Nat × List Nat × Nat => t.2.1) hst2
        exact this
      have hdf : n2.differences = n.differences := by
        have := congrArg (fun t : Nat × List Nat × Nat => t.1) hst2
        exact this
      rw [hdf] at hasserts
      rw [hld]
      exact unref_layers_total _ c3
        (fun L hL => Nat.lt_of_lt_of_le (hlayers hasserts L hL) hlay3)
    · exact ⟨c3, rfl, rfl⟩
  have hp4n : c4.pipeline p = some n3 := by
    simp only [CoglContext.pipeline, hp4]
    exact hp3
  obtain ⟨k, rfl⟩ : ∃ k, fuel = k + 1 := ⟨fuel - 1, by omega⟩
  obtain ⟨c5, h5⟩ := recursively_free_layer_caches_leaf k hp4n hl3
  unfold _cogl_pipeline_free
  simp only [hp, h1, h2, hp2, hch2, ne_eq, not_true_eq_false, if_false, _cogl_pipeline_unparent,
    h3, h4, h5]
  exact ⟨_, rfl⟩

/-- C6: the destruction of a weak child. Let the subtree `ids` of `p` be a tree (no
pipeline twice, every child pointing back to its parent, the parent of `p`
outside of it), and let `wc` be a child of `p` that `_cogl_pipeline_is_weak` accepts
(weak, without strong children), with destroy callback and data as in its record
`lw` (as `_cogl_pipeline_weak_copy` stores them). Then the subtree of `wc` is
`dsc ++ [wc]`, and whenever `_cogl_pipeline_pre_change_notify` on `p` or
`_cogl_pipeline_free` on `p` returns, the destroy callback of `wc` was called once
in it, right after the destroy callbacks of the pipelines `dsc` below `wc`; `wc` has
no parent and is not in the child list of `p`. No pipeline is created by the free,
and none by the change when all the children of `p` are weak in this way. Both calls
do return when all the children of `p` are weak in this way: the change of a single
sparse group `G` (for the color, on a pipeline that the journal does not reference)
when `p` has a chain to a root that asserts every sparse group and stays outside of
the subtree, and the free when `p` has a chain to a root that is not weak and the
layers it lists when it asserts `LAYERS` are there; the fuel covers the subtree and
the chain. -/
theorem weak_child_destroyed_once (f p wc g : Nat) (ctx : CoglContext) (ids : List Nat)
    (lp lw : PipelineLinks)
    (htree : subtree_post ctx f p = some ids) (hnd : ids.Nodup)
    (hcons : links_consistent ctx ids)
    (hp : ctx.links p = some lp) (hout : ∀ par, lp.parent = some par → par ∉ ids)
    (hchild : wc ∈ lp.children) (hw : ctx.links wc = some lw)
    (hweak : _cogl_pipeline_is_weak ctx g wc = some true) :
    ∃ dsc, subtree_post ctx (f - 1) wc = some (dsc ++ [wc]) ∧
      (∀ fuel change oc flc ctx2,
        _cogl_pipeline_pre_change_notify fuel ctx p change oc flc = some ctx2 →
        destroyed_after_descendants ctx ctx2 p wc dsc
          (CoglEvent.destroy lw.destroy_callback wc lw.destroy_data) ∧
        ((∀ c ∈ lp.children, ∃ k, _cogl_pipeline_is_weak ctx k c = some true) →
          ctx2.pipelines.length = ctx.pipelines.length)) ∧
      (∀ fuel ctx3, _cogl_pipeline_free fuel ctx p = some ctx3 →
        destroyed_after_descendants ctx ctx3 p wc dsc
          (CoglEvent.destroy lw.destroy_callback wc lw.destroy_data) ∧
        ctx3.pipelines.length = ctx.pipelines.length) ∧
      ((∀ c ∈ lp.children, ∃ k, _cogl_pipeline_is_weak ctx k c = some true) →
        (∀ k G oc flc path root, G ∈ sparse_state_groups →
          (G = COGL_PIPELINE_STATE_COLOR →
            (ctx.pipeline p).map (fun n => n.journal_ref_count) = some 0) →
          pipeline_path ctx p path → path.getLast? = some root →
          node_asserts_all (pipeline_view ctx) COGL_PIPELINE_STATE_ALL_SPARSE root →
          (∀ m ∈ path.tail, m ∉ ids) → 2 * f ≤ k + 2 → path.length ≤ k + 1 →
          ∃ ctx2, _cogl_pipeline_pre_change_notify (k + 2) ctx p G oc flc = some ctx2) ∧
        (∀ fuel path root, pipeline_path ctx p path → path.getLast? = some root →
          pipeline_not_weak ctx root →
          (∀ n, ctx.pipeline p = some n → n.differences &&& COGL_PIPELINE_STATE_LAYERS ≠ 0 →
            ∀ L ∈ n.layer_differences, L < ctx.layers.length) →
          2 * f ≤ fuel + 1 → path.length ≤ fuel →
          ∃ ctx3, _cogl_pipeline_free fuel ctx p = some ctx3)) := by
  obtain ⟨dsc, h1, h2, h3⟩ :=
    weak_child_destroyed_spec f p wc g ctx ids lp lw htree hnd hcons hp hout hchild hw hweak
  refine ⟨dsc, h1, h2, h3, ?_⟩
  intro hall
  obtain ⟨f2, rfl⟩ : ∃ f2, f = f2 + 1 := by
    cases f with
    | zero => exact absurd htree (by simp [subtree_post])
    | succ j => exact ⟨j, rfl⟩
  obtain ⟨n, hn, hnl⟩ := links_eq_some hp
  have hallc : ∀ c ∈ n.children, ∃ k, _cogl_pipeline_is_weak ctx k c = some true := by
    intro c hc
    exact hall c (by rw [← hnl]; exact hc)
  constructor
  · intro k G oc flc path root hG hj hpath hlast hroot hpout hf1 hf2
    exact pre_change_notify_weak_children_returns oc flc hG hn
      (fun hc => by
        have := hj hc
        rw [hn] at this
        simpa using this)
      htree hnd hcons hallc hpath hlast hroot hpout (by omega) hf2
  · intro fuel path root hpath hlast hroot hlayers hf1 hf2
    exact pipeline_free_weak_children_returns hn htree hnd hcons hallc hpath hlast hroot
      (fun par hpar => hout par (by rw [← hnl]; exact hpar))
      (hlayers n hn) (by omega) hf2

theorem weak_child_destroyed_once_witness :
    (scenario_weak_chain.links 2 = some scenario_weak_chain_copy_links ∧
      _cogl_pipeline_is_weak scenario_weak_chain 4 2 = some true) ∧
    (∃ ctx2, _cogl_pipeline_pre_change_notify 8 scenario_weak_chain 1
        COGL_PIPELINE_STATE_COLOR none false = some ctx2 ∧
      destroyed_after_descendants scenario_weak_chain ctx2 1 2 [3]
        (CoglEvent.destroy 77 2 88) ∧
      ctx2.pipelines.length = scenario_weak_chain.pipelines.length) ∧
    (∃ ctx3, _cogl_pipeline_free 8 scenario_weak_chain 1 = some ctx3 ∧
      destroyed_after_descendants scenario_weak_chain ctx3 1 2 [3]
        (CoglEvent.destroy 77 2 88)) := by
  obtain ⟨dsc, hsub, hpcn, hfree, htotal⟩ := weak_child_destroyed_once 3 1 2 4
    scenario_weak_chain [3, 2, 1] scenario_weak_chain_links scenario_weak_chain_copy_links
    (by decide!) (by decide!) (links_consistent_of_bool (by decide!)) (by decide!)
    (fun par hpar => by
      have h0 : scenario_weak_chain_links.parent = some 0 := by decide!
      rw [h0] at hpar
      rw [← Option.some.inj hpar]
      decide)
    (by decide!) (by decide!) (by decide!)
  have h2 : subtree_post scenario_weak_chain 2 2 = some [3, 2] := by decide!
  have h3 : dsc ++ [2] = [3] ++ [2] := Option.some.inj (hsub.symm.trans h2)
  have hd : dsc = [3] := List.append_cancel_right h3
  subst hd
  have he : CoglEvent.destroy scenario_weak_chain_copy_links.destroy_callback 2
      scenario_weak_chain_copy_links.destroy_data = CoglEvent.destroy 77 2 88 := by decide!
  rw [he] at hpcn hfree
  have hallw : ∀ c ∈ scenario_weak_chain_links.children,
      ∃ k, _cogl_pipeline_is_weak scenario_weak_chain k c = some true := by
    intro c hc
    have hch : scenario_weak_chain_links.children = [2] := by decide!
    rw [hch, List.mem_singleton] at hc
    subst hc
    exact ⟨4, by decide!⟩
  obtain ⟨tchange, tfree⟩ := htotal hallw
  obtain ⟨ctx2, hret⟩ := tchange 6 COGL_PIPELINE_STATE_COLOR none false [1, 0] 0 (by decide)
    (fun _ => by decide!) (by decide!) (by decide) (by decide!)
    (fun m hm => by
      simp only [List.tail_cons, List.mem_singleton] at hm
      subst hm
      decide)
    (by decide) (by decide)
  obtain ⟨ctx3, hfr⟩ := tfree 8 [1, 0] 0 (by decide!) (by decide) (by decide!)
    (fun n hn hl => by
      have h0 : (scenario_weak_chain.pipeline 1).map (fun n => n.differences) = some 0 := by
        decide!
      rw [hn] at h0
      simp only [Option.map_some', Option.some.injEq] at h0
      rw [h0] at hl
      exact absurd hl (by decide))
    (by decide) (by decide)
  obtain ⟨p1, p2⟩ := hpcn 8 COGL_PIPELINE_STATE_COLOR none false _ hret
  exact ⟨⟨by decide!, by decide!⟩, ⟨ctx2, hret, p1, p2 hallw⟩, ⟨ctx3, hfr, (hfree 8 _ hfr).1⟩⟩

/-! ## The change returns with strong children -/

theorem rooted_authority {c : CoglContext} {x root F G : Nat} {path : List Nat}
    (h : rooted_layerless c x path root) (hG : G ∈ sparse_state_groups)
    (hF : path.length ≤ F) :
    ∃ a r, _cogl_pipeline_get_authority c F x G = some a ∧ c.pipeline a = some r ∧ a ∈ path := by
  obtain ⟨a, ha, hmem⟩ := authority_on_path hG h.1 h.2.1 h.2.2.1 hF (fun _ _ => rfl)
  have hv := node_path_valid _ _ h.1 a hmem
  simp only [pipeline_view, Option.isSome_map'] at hv
  obtain ⟨r, hr⟩ := Option.isSome_iff_exists.mp hv
  exact ⟨a, r, ha, hr, hmem⟩

theorem rooted_foreach_layer {c : CoglContext} {x root F : Nat} {path : List Nat} {α : Type}
    (h : rooted_layerless c x path root) (hF : path.length ≤ F)
    (cb : CoglContext → α → Nat → Option (CoglContext × α × Bool)) (u : α) :
    _cogl_pipeline_foreach_layer_internal F c x cb u = some (c, u) := by
  obtain ⟨a, r, ha, hr, hmem⟩ := rooted_authority (G := COGL_PIPELINE_STATE_LAYERS) h
    (by decide) hF
  obtain ⟨r2, hr2, hasserts⟩ := pipeline_get_authority_asserts _ _ _ ha
  rw [hr] at hr2
  obtain rfl := Option.some.inj hr2
  unfold _cogl_pipeline_foreach_layer_internal
  simp only [ha, hr]
  have := h.2.2.2 a hmem
  rw [hr] at this
  simp only [Option.map_some', Option.some.injEq, decide_eq_true_eq] at this
  rw [if_pos (this hasserts)]
theorem ite_pair_total {P : Prop} [Decidable P] {c : CoglContext} {v : Bool}
    {x : Option (CoglContext × Bool)} (h : ∃ b, x = some (c, b)) :
    ∃ b, (if P then some (c, v) else x) = some (c, b) := by
  split
  · exact ⟨v, rfl⟩
  · exact h

theorem rooted_get_color {c : CoglContext} {x root F : Nat} {path : List Nat}
    (h : rooted_layerless c x path root) (hF : path.length ≤ F) :
    ∃ col, cogl_pipeline_get_color F c x = some col := by
  obtain ⟨a, r, ha, hr, -⟩ := rooted_authority (G := COGL_PIPELINE_STATE_COLOR) h (by decide) hF
  unfold cogl_pipeline_get_color
  simp only [ha, hr, Option.map_some']
  exact ⟨_, rfl⟩

theorem rooted_get_user_program {c : CoglContext} {x root F : Nat} {path : List Nat}
    (h : rooted_layerless c x path root) (hF : path.length ≤ F) :
    ∃ up, _cogl_pipeline_get_user_program F c x = some up := by
  obtain ⟨a, r, ha, hr, -⟩ := rooted_authority (G := COGL_PIPELINE_STATE_USER_SHADER) h
    (by decide) hF
  unfold _cogl_pipeline_get_user_program
  simp only [ha, hr, Option.map_some']
  exact ⟨_, rfl⟩

/-- The pass of `_cogl_pipeline_needs_blending_enabled` over changes that include
`LAYERS` returns on a rooted pipeline without layers, with the context as it was. -/
theorem needs_blending_enabled_layers_total {c : CoglContext} {x root F changes : Nat}
    {path : List Nat} (oc : Option CoglColor)
    (h : rooted_layerless c x path root) (hF : path.length ≤ F)
    (hl : changes &&& COGL_PIPELINE_STATE_LAYERS ≠ 0) :
    ∃ b, _cogl_pipeline_needs_blending_enabled (F + 1) c x changes oc = some (c, b) := by
  obtain ⟨ea, er, hea, her, -⟩ :=
    rooted_authority (G := COGL_PIPELINE_STATE_BLEND_ENABLE) h (by decide) hF
  obtain ⟨ba, br, hba, hbr, -⟩ :=
    rooted_authority (G := COGL_PIPELINE_STATE_BLEND) h (by decide) hF
  obtain ⟨col, hcol⟩ := rooted_get_color h hF
  obtain ⟨up, hup⟩ := rooted_get_user_program h hF
  have hx : ∃ n, c.pipeline x = some n := by
    obtain ⟨r, hr⟩ := node_path_head h.1
    have hv := node_path_valid _ _ h.1 x (by rw [hr]; simp)
    simp only [pipeline_view, Option.isSome_map'] at hv
    exact Option.isSome_iff_exists.mp hv
  obtain ⟨n, hn⟩ := hx
  have hAC : COGL_PIPELINE_STATE_AFFECTS_BLENDING &&& COGL_PIPELINE_STATE_COLOR ≠ 0 := by decide
  have hAU : COGL_PIPELINE_STATE_AFFECTS_BLENDING &&& COGL_PIPELINE_STATE_USER_SHADER ≠ 0 := by
    decide
  have hAL : COGL_PIPELINE_STATE_AFFECTS_BLENDING &&& COGL_PIPELINE_STATE_LAYERS ≠ 0 := by decide
  have hM : mask_clear COGL_PIPELINE_STATE_AFFECTS_BLENDING
      COGL_PIPELINE_STATE_AFFECTS_BLENDING = 0 := by decide
  rw [_cogl_pipeline_needs_blending_enabled]
  by_cases hdbg : c.debug_disable_blending = true
  · rw [if_pos hdbg]
    exact ⟨_, rfl⟩
  rw [if_neg hdbg]
  simp only [if_pos hl, if_pos hAC, if_pos hAU, if_pos hAL, hM, Option.bind_eq_bind,
    Option.pure_def, hea, her, hba, hbr, hcol, hup, Option.some_bind, Option.map_some',
    rooted_foreach_layer h hF, hn, Bool.false_eq_true, if_false, ne_eq, not_true_eq_false]
  repeat (refine ite_pair_total ?_)
  exact ⟨_, rfl⟩
theorem mask_clear_affects_layers {changes : Nat}
    (hl : ¬ (changes &&& COGL_PIPELINE_STATE_LAYERS ≠ 0)) :
    mask_clear COGL_PIPELINE_STATE_AFFECTS_BLENDING changes &&& COGL_PIPELINE_STATE_LAYERS ≠ 0 := by
  have h2 : changes.testBit 2 = false := by
    cases hb : changes.testBit 2 with
    | false => rfl
    | true => exact absurd ((and_bit_ne_zero changes 2).2 hb) hl
  apply (and_bit_ne_zero _ 2).2
  rw [testBit_mask_clear, h2]
  decide

/-- The function `_cogl_pipeline_needs_blending_enabled` returns on a rooted pipeline
without layers, with the context as it was. -/
theorem needs_blending_enabled_total {c : CoglContext} {x root F changes : Nat}
    {path : List Nat} (oc : Option CoglColor)
    (h : rooted_layerless c x path root) (hF : path.length ≤ F) :
    ∃ b, _cogl_pipeline_needs_blending_enabled (F + 2) c x changes oc = some (c, b) := by
  by_cases hl : changes &&& COGL_PIPELINE_STATE_LAYERS ≠ 0
  · exact needs_blending_enabled_layers_total oc h (Nat.le_succ_of_le hF) hl
  obtain ⟨ea, er, hea, her, -⟩ :=
    rooted_authority (G := COGL_PIPELINE_STATE_BLEND_ENABLE) h (by decide) (Nat.le_succ_of_le hF)
  obtain ⟨ba, br, hba, hbr, -⟩ :=
    rooted_authority (G := COGL_PIPELINE_STATE_BLEND) h (by decide) (Nat.le_succ_of_le hF)
  obtain ⟨col, hcol⟩ := rooted_get_color h (Nat.le_succ_of_le hF)
  obtain ⟨up, hup⟩ := rooted_get_user_program h (Nat.le_succ_of_le hF)
  have hx : ∃ n, c.pipeline x = some n := by
    obtain ⟨r, hr⟩ := node_path_head h.1
    have hv := node_path_valid _ _ h.1 x (by rw [hr]; simp)
    simp only [pipeline_view, Option.isSome_map'] at hv
    exact Option.isSome_iff_exists.mp hv
  obtain ⟨n, hn⟩ := hx
  obtain ⟨b2, hb2⟩ := @needs_blending_enabled_layers_total _ _ _ _
    (mask_clear COGL_PIPELINE_STATE_AFFECTS_BLENDING changes) _ none h hF
    (mask_clear_affects_layers hl)
  rw [_cogl_pipeline_needs_blending_enabled]
  by_cases hdbg : c.debug_disable_blending = true
  · rw [if_pos hdbg]
    exact ⟨_, rfl⟩
  rw [if_neg hdbg]
  by_cases hc : changes &&& COGL_PIPELINE_STATE_COLOR ≠ 0
  · by_cases hu : changes &&& COGL_PIPELINE_STATE_USER_SHADER ≠ 0
    · by_cases ho : mask_clear COGL_PIPELINE_STATE_AFFECTS_BLENDING changes ≠ 0
      · simp only [if_neg hl, if_pos hc, if_pos hu, if_pos ho]
        simp only [Option.bind_eq_bind, Option.pure_def,
          hea, her, hba, hbr, hcol, hup, Option.some_bind, Option.map_some', hn]
        simp only [hb2, Option.some_bind]
        repeat (refine ite_pair_total ?_)
        split
        · split
          · exact ⟨_, rfl⟩
          · exact ⟨_, rfl⟩
        · exact ⟨_, rfl⟩
      · simp only [if_neg hl, if_pos hc, if_pos hu, if_neg ho]
        simp only [Option.bind_eq_bind, Option.pure_def,
          hea, her, hba, hbr, hcol, hup, Option.some_bind, Option.map_some', hn]
        repeat (refine ite_pair_total ?_)
        exact ⟨_, rfl⟩
    · by_cases ho : mask_clear COGL_PIPELINE_STATE_AFFECTS_BLENDING changes ≠ 0
      · simp only [if_neg hl, if_pos hc, if_neg hu, if_pos ho]
        simp only [Option.bind_eq_bind, Option.pure_def,
          hea, her, hba, hbr, hcol, hup, Option.some_bind, Option.map_some', hn]
        simp only [hb2, Option.some_bind]
        repeat (refine ite_pair_total ?_)
        split
        · split
          · exact ⟨_, rfl⟩
          · exact ⟨_, rfl⟩
        · exact ⟨_, rfl⟩
      · simp only [if_neg hl, if_pos hc, if_neg hu, if_neg ho]
        simp only [Option.bind_eq_bind, Option.pure_def,
          hea, her, hba, hbr, hcol, hup, Option.some_bind, Option.map_some', hn]
        repeat (refine ite_pair_total ?_)
        exact ⟨_, rfl⟩
  · by_cases hu : changes &&& COGL_PIPELINE_STATE_USER_SHADER ≠ 0
    · by_cases ho : mask_clear COGL_PIPELINE_STATE_AFFECTS_BLENDING changes ≠ 0
      · simp only [if_neg hl, if_neg hc, if_pos hu, if_pos ho]
        simp only [Option.bind_eq_bind, Option.pure_def,
          hea, her, hba, hbr, hcol, hup, Option.some_bind, Option.map_some', hn]
        simp only [hb2, Option.some_bind]
        repeat (refine ite_pair_total ?_)
        split
        · split
          · exact ⟨_, rfl⟩
          · exact ⟨_, rfl⟩
        · exact ⟨_, rfl⟩
      · simp only [if_neg hl, if_neg hc, if_pos hu, if_neg ho]
        simp only [Option.bind_eq_bind, Option.pure_def,
          hea, her, hba, hbr, hcol, hup, Option.some_bind, Option.map_some', hn]
        repeat (refine ite_pair_total ?_)
        exact ⟨_, rfl⟩
    · by_cases ho : mask_clear COGL_PIPELINE_STATE_AFFECTS_BLENDING changes ≠ 0
      · simp only [if_neg hl, if_neg hc, if_neg hu, if_pos ho]
        simp only [Option.bind_eq_bind, Option.pure_def,
          hea, her, hba, hbr, hcol, hup, Option.some_bind, Option.map_some', hn]
        simp only [hb2, Option.some_bind]
        repeat (refine ite_pair_total ?_)
        split
        · split
          · exact ⟨_, rfl⟩
          · exact ⟨_, rfl⟩
        · exact ⟨_, rfl⟩
      · simp only [if_neg hl, if_neg hc, if_neg hu, if_neg ho]
        simp only [Option.bind_eq_bind, Option.pure_def,
          hea, her, hba, hbr, hcol, hup, Option.some_bind, Option.map_some', hn]
        repeat (refine ite_pair_total ?_)
        exact ⟨_, rfl⟩
/-- The function `_cogl_pipeline_update_blend_enable` returns on a rooted pipeline
without layers and without children. -/
theorem update_blend_enable_with_total {c : CoglContext} {x root F k changes : Nat}
    {path : List Nat} {n : CoglPipeline}
    (h : rooted_layerless c x path root) (hF : path.length ≤ F)
    (hx : c.pipeline x = some n) (hleaf : n.children = []) :
    ∃ c2, update_blend_enable_with (_cogl_pipeline_pre_change_notify (k + 1)) (F + 2) c x
      changes = some c2 := by
  obtain ⟨b, hb⟩ := @needs_blending_enabled_total _ _ _ _ changes _ none h hF
  unfold update_blend_enable_with
  simp only [Option.bind_eq_bind, hb, Option.some_bind, hx, Option.pure_def]
  split
  · rw [_cogl_pipeline_pre_change_notify]
    obtain ⟨c2, h2, s2⟩ := pre_change_notify_leaf_nonsparse (_cogl_pipeline_pre_change_notify k) k
      none false hx hleaf (show COGL_PIPELINE_STATE_REAL_BLEND_ENABLE &&&
        COGL_PIPELINE_STATE_ALL_SPARSE = 0 by decide)
    rw [h2]
    obtain ⟨m, hm, -⟩ := same_skeleton_pipeline s2 hx
    simp only [Option.some_bind]
    exact ⟨_, modify_pipeline_some hm _⟩
  · exact ⟨_, rfl⟩
theorem dest_touched_refl {dest : Nat} {d : CoglPipeline} {c : CoglContext}
    (hd : c.pipeline dest = some d) : dest_touched dest d c c :=
  ⟨⟨d, hd, rfl, rfl, rfl⟩, fun _ _ => rfl⟩

theorem dest_touched_modify {dest : Nat} {d : CoglPipeline} {c c1 : CoglContext}
    (h : dest_touched dest d c c1) (f : CoglPipeline → CoglPipeline)
    (hf : ∀ m, (f m).differences = m.differences ∧ (f m).parent = m.parent ∧
      (f m).children = m.children) :
    ∃ c2, c1.modify_pipeline dest f = some c2 ∧ dest_touched dest d c c2 := by
  obtain ⟨⟨d1, hd1, e1, e2, e3⟩, hq⟩ := h
  refine ⟨_, modify_pipeline_some hd1 f, ⟨f d1, pipeline_set_pipeline_self hd1 _,
    (hf d1).1.trans e1, (hf d1).2.1.trans e2, (hf d1).2.2.trans e3⟩, ?_⟩
  intro q hqd
  rw [pipeline_set_pipeline_ne _ (Ne.symm hqd)]
  exact hq q hqd

theorem dest_touched_ite {dest : Nat} {d : CoglPipeline} {c c1 : CoglContext}
    (h : dest_touched dest d c c1) (P : Prop) [Decidable P] (f : CoglPipeline → CoglPipeline)
    (hf : ∀ m, (f m).differences = m.differences ∧ (f m).parent = m.parent ∧
      (f m).children = m.children) :
    ∃ c2, (if P then c1.modify_pipeline dest f else some c1) = some c2 ∧
      dest_touched dest d c c2 := by
  split
  · exact dest_touched_modify h f hf
  · exact ⟨c1, rfl, h⟩

theorem rooted_layerless_touched {dest x root : Nat} {d : CoglPipeline} {c c2 : CoglContext}
    {path : List Nat} (h : rooted_layerless c x path root) (hd : c.pipeline dest = some d)
    (hd0 : d.differences &&& COGL_PIPELINE_STATE_LAYERS = 0)
    (ht : dest_touched dest d c c2) : rooted_layerless c2 x path root := by
  obtain ⟨⟨d2, hd2, e1, e2, e3⟩, hq⟩ := ht
  have hview : ∀ m, pipeline_view c2 m = pipeline_view c m := by
    intro m
    by_cases hm : m = dest
    · subst hm
      simp only [pipeline_view, hd2, hd, Option.map_some', e1, e2]
    · simp only [pipeline_view, hq m hm]
  refine ⟨node_path_congr path x (fun m _ => hview m) h.1, h.2.1, ?_, ?_⟩
  · have := h.2.2.1
    unfold node_asserts_all at this ⊢
    rw [hview root]
    exact this
  · intro m hm
    by_cases hmd : m = dest
    · subst hmd
      rw [hd2]
      simp only [Option.map_some', Option.some.injEq, decide_eq_true_eq, e1]
      intro hne
      exact absurd hd0 hne
    · rw [hq m hmd]
      exact h.2.2.2 m hm

/-- The function `_cogl_pipeline_copy_differences` returns on a destination without
children and without differences that sits on a rooted chain without layers, for a
source that lists no layers. -/
theorem copy_differences_with_total {c : CoglContext} {dest src root F k differences : Nat}
    {path : List Nat} {d s : CoglPipeline}
    (h : rooted_layerless c dest path root) (hF : path.length ≤ F)
    (hd : c.pipeline dest = some d) (hleaf : d.children = []) (hd0 : d.differences = 0)
    (hs : c.pipeline src = some s) (hne : src ≠ dest)
    (hsl : differences &&& COGL_PIPELINE_STATE_LAYERS ≠ 0 → s.layer_differences = []) :
    ∃ c2, copy_differences_with (_cogl_pipeline_pre_change_notify (k + 1)) (F + 2) c dest src
      differences = some c2 := by
  have hd0L : d.differences &&& COGL_PIPELINE_STATE_LAYERS = 0 := by rw [hd0]; decide
  unfold copy_differences_with
  simp only [Option.bind_eq_bind, hs, Option.some_bind]
  obtain ⟨c1, h1, t1⟩ := dest_touched_ite (dest_touched_refl hd)
    (differences &&& COGL_PIPELINE_STATE_COLOR ≠ 0) (fun d => { d with color := s.color })
    (fun _ => ⟨rfl, rfl, rfl⟩)
  rw [h1, Option.some_bind]
  obtain ⟨c2, h2, t2⟩ := dest_touched_ite t1
    (differences &&& COGL_PIPELINE_STATE_BLEND_ENABLE ≠ 0)
    (fun d => { d with blend_enable := s.blend_enable }) (fun _ => ⟨rfl, rfl, rfl⟩)
  rw [h2, Option.some_bind]
  obtain ⟨c3, h3, t3⟩ : ∃ c3, (if differences &&& COGL_PIPELINE_STATE_LAYERS ≠ 0 then
      (c2.pipeline dest).bind (fun d =>
        (if d.differences &&& COGL_PIPELINE_STATE_LAYERS ≠ 0 ∧ d.layer_differences ≠ []
          then d.layer_differences.foldlM cogl_object_unref_layer c2 else some c2).bind
        (fun c1 => (c1.pipeline src).bind (fun s1 =>
          (s1.layer_differences.foldlM
            (fun c l => (_cogl_pipeline_layer_copy c l).bind (fun x =>
              match x with
              | (ca, copy) =>
                (add_layer_difference_with (_cogl_pipeline_pre_change_notify (k + 1)) ca dest
                  copy false).bind (fun cb => cogl_object_unref_layer cb copy))) c1).bind
          (fun c2 => (c2.pipeline src).bind (fun s2 =>
            c2.modify_pipeline dest (fun d => { d with n_layers := s2.n_layers }))))))
      else some c2) = some c3 ∧ dest_touched dest d c c3 := by
    split
    · rename_i hl
      obtain ⟨⟨d2, hd2, e1, e2, e3⟩, hq⟩ := t2
      have hs2 : c2.pipeline src = some s := by rw [hq src hne]; exact hs
      have hnl : ¬ (d2.differences &&& COGL_PIPELINE_STATE_LAYERS ≠ 0 ∧ d2.layer_differences ≠ [])
          := by
        rw [e1]
        exact fun hh => hh.1 hd0L
      simp only [hd2, Option.some_bind, if_neg hnl, hs2, hsl hl, List.foldlM_nil,
        Option.pure_def]
      exact dest_touched_modify ⟨⟨d2, hd2, e1, e2, e3⟩, hq⟩ _ (fun _ => ⟨rfl, rfl, rfl⟩)
    · exact ⟨c2, rfl, t2⟩
  rw [h3, Option.some_bind]
  obtain ⟨c4, h4, t4⟩ : ∃ c4, copy_big_state_differences c3 dest src differences = some c4 ∧
      dest_touched dest d c c4 := by
    unfold copy_big_state_differences
    split
    · exact ⟨c3, rfl, t3⟩
    · have hs3 : c3.pipeline src = some s := by rw [t3.2 src hne]; exact hs
      simp only [hs3]
      exact dest_touched_modify t3 _ (fun _ => ⟨rfl, rfl, rfl⟩)
  rw [h4, Option.some_bind]
  have hr4 := rooted_layerless_touched h hd hd0L t4
  obtain ⟨⟨d4, hd4, e1, e2, e3⟩, hq4⟩ := t4
  obtain ⟨c5, h5, s5⟩ : ∃ c5, (if differences &&& COGL_PIPELINE_STATE_AFFECTS_BLENDING ≠ 0
      then update_blend_enable_with (_cogl_pipeline_pre_change_notify (k + 1)) (F + 2) c4 dest
        differences else some c4) = some c5 ∧ same_skeleton c4 c5 := by
    split
    · obtain ⟨c5, h5⟩ := @update_blend_enable_with_total _ _ _ _ k differences _ _ hr4 hF
        hd4 (e3.trans hleaf)
      refine ⟨c5, h5, ?_⟩
      refine update_blend_enable_with_skeleton (fun c ch oc flc hl => ?_) _ _ _ ?_ c5 h5
      · exact returned_mono (pre_change_notify_leaf_both (k + 1) c dest ch oc flc hl)
          (fun _ hh => hh.1)
      · intro l hl
        rw [links_of_pipeline hd4] at hl
        rw [← Option.some.inj hl]
        exact e3.trans hleaf
    · exact ⟨c4, rfl, same_skeleton_refl _⟩
  rw [h5, Option.some_bind]
  obtain ⟨m, hm, -⟩ := same_skeleton_pipeline s5 hd4
  exact ⟨_, modify_pipeline_some hm _⟩
/-- The walk `recursively_free_layer_caches` returns on a tree read within the
fuel. -/
theorem recursively_free_layer_caches_total :
    ∀ (f k : Nat) (c : CoglContext) (x : Nat) (ids : List Nat),
      subtree_post c f x = some ids → f ≤ k →
      ∃ c2, recursively_free_layer_caches k c x = some c2 := by
  intro f
  induction f with
  | zero => intro k c x ids h; simp [subtree_post] at h
  | succ j ih =>
    intro k c x ids h hk
    obtain ⟨node, below, hx, hb, hids⟩ := subtree_post_step h
    obtain ⟨k2, rfl⟩ : ∃ k2, k = k2 + 1 := ⟨k - 1, by omega⟩
    rw [recursively_free_layer_caches, hx]
    simp only
    split
    · exact ⟨c, rfl⟩
    · have hx1 := pipeline_set_pipeline_self hx { node with layers_cache_dirty := true }
      have s1 : same_skeleton c (c.set_pipeline x { node with layers_cache_dirty := true }) :=
        same_skeleton_set hx rfl
      unfold _cogl_pipeline_node_foreach_child
      rw [hx1]
      simp only
      obtain ⟨r, hr, -⟩ := foldlM_total_mem
        (fun (cc : CoglContext) child => recursively_free_layer_caches k2 cc child)
        node.children (c.set_pipeline x { node with layers_cache_dirty := true })
        (fun cc => same_skeleton c cc) s1
        (fun cc a ha hs => by
          obtain ⟨part, hp, hsub⟩ := subtree_post_list_mem _ _ hb a ha
          have hp2 := subtree_post_congr j a part hp (fun y _ => hs.1 y)
          obtain ⟨c2, h2⟩ := ih k2 cc a part hp2 (by omega)
          exact ⟨c2, h2, same_skeleton_trans hs
            (recursively_free_layer_caches_skeleton k2 cc a c2 h2)⟩)
      exact ⟨r, hr⟩

theorem object_ref_total {c : CoglContext} {x : Nat} {n : CoglPipeline}
    (hx : c.pipeline x = some n) :
    ∃ c2, cogl_object_ref c x = some c2 ∧ c2.pipelines.length = c.pipelines.length := by
  unfold cogl_object_ref
  rw [hx]
  exact ⟨_, rfl, length_set_pipeline _ _ _⟩

theorem object_unref_total {c : CoglContext} {x : Nat} {n : CoglPipeline}
    (hx : c.pipeline x = some n) :
    ∃ c2, cogl_object_unref c x = some c2 ∧ c2.pipelines.length = c.pipelines.length := by
  unfold cogl_object_unref
  rw [hx]
  exact ⟨_, rfl, length_set_pipeline _ _ _⟩

/-- The function `_cogl_pipeline_node_set_parent_real` returns when the node, the new
parent and the parent the node has are there. -/
theorem set_parent_real_total {c : CoglContext} {x np : Nat} {n pn : CoglPipeline}
    (strong : Bool) (hx : c.pipeline x = some n) (hnp : c.pipeline np = some pn)
    (hold : ∀ q, n.parent = some q → ∃ qn, c.pipeline q = some qn) :
    ∃ c2, _cogl_pipeline_node_set_parent_real c x np strong = some c2 := by
  have hxlt := pipeline_lt_length hx
  have hnlt := pipeline_lt_length hnp
  obtain ⟨c1, h1, l1⟩ := object_ref_total hnp
  obtain ⟨n1, hn1⟩ := @pipeline_some_of_lt c1 x (by rw [l1]; exact hxlt)
  have hn1par : n1.parent = n.parent := by
    unfold cogl_object_ref at h1
    rw [hnp] at h1
    obtain rfl := Option.some.inj h1
    by_cases hxn : x = np
    · subst hxn
      rw [pipeline_set_pipeline_self hnp] at hn1
      rw [hx] at hnp
      obtain rfl := Option.some.inj hnp
      rw [← Option.some.inj hn1]
    · rw [pipeline_set_pipeline_ne _ (Ne.symm hxn), hx] at hn1
      rw [← Option.some.inj hn1]
  obtain ⟨c2, h2, l2⟩ : ∃ c2, (if n1.parent.isSome = true then _cogl_pipeline_unparent c1 x
      else some c1) = some c2 ∧ c.pipelines.length ≤ c2.pipelines.length := by
    split
    · obtain ⟨c2, h2⟩ := unparent_real_total hn1 (fun q hq => by
        rw [hn1par] at hq
        obtain ⟨qn, hqn⟩ := hold q hq
        exact @pipeline_some_of_lt c1 q (by rw [l1]; exact pipeline_lt_length hqn))
      refine ⟨c2, h2, ?_⟩
      have := (unparent_real_kept 0 c1 x c2 h2).1
      rw [l1] at this
      exact this
    · exact ⟨c1, rfl, Nat.le_of_eq l1.symm⟩
  obtain ⟨pn2, hpn2⟩ := @pipeline_some_of_lt c2 np (Nat.lt_of_lt_of_le hnlt l2)
  obtain ⟨n3, hn3⟩ := @pipeline_some_of_lt
    (c2.set_pipeline np { pn2 with children := x :: pn2.children }) x
    (by rw [length_set_pipeline]; exact Nat.lt_of_lt_of_le hxlt l2)
  unfold _cogl_pipeline_node_set_parent_real
  simp only [h1, hn1, h2, hpn2, hn3]
  cases strong with
  | true => exact ⟨_, rfl⟩
  | false =>
    simp only [Bool.not_false, if_true]
    obtain ⟨m, hm⟩ := @pipeline_some_of_lt
      ((c2.set_pipeline np { pn2 with children := x :: pn2.children }).set_pipeline x
        { n3 with parent := some np, has_parent_reference := false }) np
      (by rw [length_set_pipeline, length_set_pipeline]; exact Nat.lt_of_lt_of_le hnlt l2)
    obtain ⟨c4, h4, -⟩ := object_unref_total hm
    exact ⟨c4, h4⟩
/-- The subtree read off the child lists is the same in a context that shows the
same child lists on it. -/
theorem subtree_post_congr_children {ctx ctx2 : CoglContext} :
    ∀ (f x : Nat) (ids : List Nat), subtree_post ctx f x = some ids →
      (∀ y ∈ ids, (ctx2.links y).map (fun l => l.children) =
        (ctx.links y).map (fun l => l.children)) →
      subtree_post ctx2 f x = some ids := by
  intro f
  induction f with
  | zero => intro x ids h; simp [subtree_post] at h
  | succ k ih =>
    intro x ids h hl
    obtain ⟨node, below, hx, hb, he⟩ := subtree_post_step h
    have hxl := hl x (by rw [he]; simp)
    rw [links_of_pipeline hx] at hxl
    obtain ⟨node2, hx2, hch⟩ : ∃ node2, ctx2.pipeline x = some node2 ∧
        node2.children = node.children := by
      cases hl2 : ctx2.links x with
      | none => rw [hl2] at hxl; exact absurd hxl (by simp)
      | some l2 =>
        rw [hl2] at hxl
        obtain ⟨node2, hx2, hn2⟩ := links_eq_some hl2
        refine ⟨node2, hx2, ?_⟩
        simp only [Option.map_some', Option.some.injEq] at hxl
        rw [← hn2] at hxl
        exact hxl
    rw [subtree_post, hx2]
    simp only [hch]
    rw [subtree_post_list_congr node.children below hb
      (fun c _ part hp hsub => ih c part hp
        (fun y hy => hl y (by rw [he]; exact List.mem_append_left _ (hsub y hy))))]
    simp [he]

/-- The function `_cogl_pipeline_set_parent` returns on a node `x` with the parent
`q`, whose subtree is a tree read within the fuel that holds neither `q` nor the new
parent. -/
theorem set_parent_total {c : CoglContext} {fuel x np q f : Nat} {lx ln lq : PipelineLinks}
    {part : List Nat} (strong : Bool)
    (hx : c.links x = some lx) (hnp : c.links np = some ln) (hxn : x ≠ np)
    (hpar : lx.parent = some q) (hq : c.links q = some lq) (hxq : x ∈ lq.children)
    (hqx : q ≠ x) (hqn : q ≠ np)
    (hsub : subtree_post c f x = some part) (hnpp : np ∉ part) (hqp : q ∉ part)
    (hf : f ≤ fuel) :
    ∃ c2, _cogl_pipeline_set_parent fuel c x np strong = some c2 ∧
      reparented c c2 x np strong := by
  obtain ⟨n, hn, hnl⟩ := links_eq_some hx
  obtain ⟨pn, hpn, -⟩ := links_eq_some hnp
  obtain ⟨qn, hqnr, -⟩ := links_eq_some hq
  have hnpar : n.parent = some q := by
    have := congrArg PipelineLinks.parent hnl
    exact this.trans hpar
  obtain ⟨c1, h1⟩ := set_parent_real_total strong hn hpn (fun q2 hq2 => by
    rw [hnpar] at hq2
    obtain rfl := Option.some.inj hq2
    exact ⟨qn, hqnr⟩)
  have r1 := set_parent_real_links hx hnp hxn (fun q2 hq2 => by
    rw [hpar] at hq2
    obtain rfl := Option.some.inj hq2
    exact ⟨hqx, hqn, lq, hq, hxq⟩) h1
  obtain ⟨r1x, r1n, r1q, r1z, -⟩ := r1
  have hsub1 : subtree_post c1 f x = some part := by
    refine subtree_post_congr_children f x part hsub ?_
    intro y hy
    by_cases hyx : y = x
    · subst hyx
      rw [r1x, hx]
      rfl
    · have hyn : y ≠ np := fun h => hnpp (h ▸ hy)
      have hyq : (c.links x).map (fun l => l.parent) ≠ some (some y) := by
        rw [hx]
        simp only [Option.map_some', ne_eq, Option.some.injEq, hpar]
        intro h
        exact hqp (h ▸ hy)
      rw [r1z y hyx hyn hyq]
  obtain ⟨node1, hnode1⟩ : ∃ node1, c1.pipeline x = some node1 := by
    rw [hx] at r1x
    obtain ⟨m, hm, -⟩ := links_eq_some r1x
    exact ⟨m, hm⟩
  obtain ⟨c2, h2⟩ : ∃ c2, (if node1.differences &&& COGL_PIPELINE_STATE_LAYERS ≠ 0
      then recursively_free_layer_caches fuel c1 x else some c1) = some c2 := by
    split
    · exact recursively_free_layer_caches_total f fuel c1 x part hsub1 hf
    · exact ⟨c1, rfl⟩
  have hres : ∃ c3, _cogl_pipeline_set_parent fuel c x np strong = some c3 := by
    unfold _cogl_pipeline_set_parent
    simp only [h1, hnode1, h2]
    split
    · exact ⟨_, rfl⟩
    · exact ⟨_, rfl⟩
  obtain ⟨c3, h3⟩ := hres
  exact ⟨c3, h3, set_parent_links hx hnp hxn (fun q2 hq2 => by
    rw [hpar] at hq2
    obtain rfl := Option.some.inj hq2
    exact ⟨hqx, hqn, lq, hq, hxq⟩) h3⟩
/-- The walk of `reparent_children_cb` over a child list returns when the subtrees of
the children are trees, apart from each other, read within the fuel. -/
theorem reparent_children_total {fuel p np f : Nat} (hpn : p ≠ np) (hf : f ≤ fuel) :
    ∀ (cs : List Nat) (ctx : CoglContext) (lp ln : PipelineLinks),
      cs.Nodup → p ∉ cs → np ∉ cs →
      ctx.links p = some lp → ctx.links np = some ln →
      (∀ c ∈ cs, c ∈ lp.children ∧ (ctx.links c).map (fun l => l.parent) = some (some p) ∧
        ∃ part, subtree_post ctx f c = some part ∧ p ∉ part ∧ np ∉ part ∧
          ∀ c2 ∈ cs, c2 ≠ c → c2 ∉ part) →
      ∃ ctx2, cs.foldlM (reparent_children_cb fuel np) ctx = some ctx2 := by
  intro cs
  induction cs with
  | nil =>
    intro ctx lp ln _ _ _ _ _ _
    exact ⟨ctx, rfl⟩
  | cons c rest ih =>
    intro ctx lp ln hnd hpcs hncs hp hn hall
    obtain ⟨hcl, hcpar, part, hsub, hpp, hnpp, hdis⟩ := hall c (List.mem_cons_self _ _)
    have hcp : c ≠ p := fun h => hpcs (h ▸ List.mem_cons_self _ _)
    have hcn : c ≠ np := fun h => hncs (h ▸ List.mem_cons_self _ _)
    obtain ⟨lc, hlc, hlcpar⟩ : ∃ lc, ctx.links c = some lc ∧ lc.parent = some p := by
      cases hl : ctx.links c with
      | none => rw [hl] at hcpar; exact absurd hcpar (by simp)
      | some lc =>
        rw [hl] at hcpar
        exact ⟨lc, rfl, by simpa using hcpar⟩
    obtain ⟨ctx1, h1, r1x, r1n, r1q, r1z, -⟩ := @set_parent_total _ fuel _ _ _ _ _ _ _ _ true hlc hn hcn
      hlcpar hp hcl (Ne.symm hcp) hpn hsub hnpp hpp hf
    have hp1 : ctx1.links p = some { lp with children := lp.children.erase c } := by
      rw [r1q p hcpar, hp]
      rfl
    have hn1 : ctx1.links np = some { ln with children := c :: ln.children } := by
      rw [r1n, hn]
      rfl
    have hnd2 := List.nodup_cons.mp hnd
    obtain ⟨ctx2, h2⟩ := ih ctx1 { lp with children := lp.children.erase c }
      { ln with children := c :: ln.children } hnd2.2
      (fun h => hpcs (List.mem_cons_of_mem _ h)) (fun h => hncs (List.mem_cons_of_mem _ h))
      hp1 hn1 (by
        intro c2 hc2
        obtain ⟨a1, a2, part2, a3, a4, a5, a6⟩ := hall c2 (List.mem_cons_of_mem _ hc2)
        have hc2c : c2 ≠ c := fun h => hnd2.1 (h ▸ hc2)
        have hc2p : c2 ≠ p := fun h => hpcs (h ▸ List.mem_cons_of_mem _ hc2)
        have hc2n : c2 ≠ np := fun h => hncs (h ▸ List.mem_cons_of_mem _ hc2)
        have hsame : ∀ y, y ≠ c → y ≠ np → y ≠ p → ctx1.links y = ctx.links y := by
          intro y h1 h2 h3
          refine r1z y h1 h2 ?_
          rw [hcpar]
          simp only [ne_eq, Option.some.injEq]
          exact fun h => h3 h.symm
        refine ⟨(List.mem_erase_of_ne hc2c).mpr a1, ?_, part2, ?_, a4, a5, ?_⟩
        · rw [hsame c2 hc2c hc2n hc2p]
          exact a2
        · refine subtree_post_congr f c2 part2 a3 (fun y hy => ?_)
          exact hsame y (fun h => a6 c (List.mem_cons_self _ _) (Ne.symm hc2c) (h ▸ hy))
            (fun h => a5 (h ▸ hy)) (fun h => a4 (h ▸ hy))
        · intro c3 hc3 hne
          exact a6 c3 (List.mem_cons_of_mem _ hc3) hne)
    refine ⟨ctx2, ?_⟩
    rw [List.foldlM_cons]
    simp only [reparent_children_cb, Option.bind_eq_bind] at h1 h2 ⊢
    rw [h1]
    exact h2
/-- The subtrees of two children of one pipeline have no pipeline in common. -/
theorem subtree_parts_disjoint {bl : Nat → Option (List Nat)} :
    ∀ (cs below : List Nat), subtree_post_list bl cs = some below → below.Nodup →
      (∀ c part, bl c = some part → c ∈ part) →
      ∀ c ∈ cs, ∀ part, bl c = some part → ∀ c2 ∈ cs, c2 ≠ c → ∀ part2, bl c2 = some part2 →
        ∀ y ∈ part, y ∉ part2 := by
  intro cs
  induction cs with
  | nil => intro below _ _ _ c hc; exact absurd hc (by simp)
  | cons a rest ih =>
    intro below h hnd htop c hc part hp c2 hc2 hne part2 hp2 y hy hy2
    rw [subtree_post_list] at h
    cases ha : bl a with
    | none => rw [ha] at h; exact absurd h (by simp)
    | some first =>
      cases hr : subtree_post_list bl rest with
      | none => rw [ha, hr] at h; exact absurd h (by simp)
      | some others =>
        rw [ha, hr] at h
        simp only [Option.some.injEq] at h
        subst h
        have hdis := (List.nodup_append.mp hnd).2.2
        have hno := (List.nodup_append.mp hnd).2.1
        by_cases hca : c = a
        · subst hca
          rw [ha] at hp
          obtain rfl := Option.some.inj hp
          rcases List.mem_cons.mp hc2 with h2 | h2
          · exact hne h2
          · obtain ⟨p2, hp2', hsub⟩ := subtree_post_list_mem rest others hr c2 h2
            rw [hp2] at hp2'
            obtain rfl := Option.some.inj hp2'
            exact hdis hy (hsub y hy2)
        · have hcr : c ∈ rest := by
            rcases List.mem_cons.mp hc with h1 | h1
            · exact absurd h1 hca
            · exact h1
          obtain ⟨p1, hp1', hsub1⟩ := subtree_post_list_mem rest others hr c hcr
          rw [hp] at hp1'
          obtain rfl := Option.some.inj hp1'
          by_cases hc2a : c2 = a
          · subst hc2a
            rw [ha] at hp2
            obtain rfl := Option.some.inj hp2
            exact hdis hy2 (hsub1 y hy)
          · have hc2r : c2 ∈ rest := by
              rcases List.mem_cons.mp hc2 with h1 | h1
              · exact absurd h1 hc2a
              · exact h1
            exact ih others hr hno htop c hcr part hp c2 hc2r hne part2 hp2 y hy hy2

theorem weak_subtrees_parts {ctx : CoglContext} {w f : Nat} :
    ∀ (cs : List Nat) (y : Nat), y ∈ weak_subtrees ctx w f cs →
      ∃ c ∈ cs, _cogl_pipeline_is_weak ctx w c = some true ∧
        ∃ part, subtree_post ctx f c = some part ∧ y ∈ part := by
  intro cs
  induction cs with
  | nil => intro y hy; simp [weak_subtrees] at hy
  | cons a rest ih =>
    intro y hy
    rw [weak_subtrees] at hy
    rcases List.mem_append.mp hy with h1 | h2
    · split at h1
      · rename_i hweak
        cases hs : subtree_post ctx f a with
        | none => rw [hs] at h1; simp at h1
        | some part =>
          rw [hs] at h1
          exact ⟨a, List.mem_cons_self _ _, hweak, part, hs, by simpa using h1⟩
      · simp at h1
    · obtain ⟨c, hc, hw, part, hp, hyp⟩ := ih y h2
      exact ⟨c, List.mem_cons_of_mem _ hc, hw, part, hp, hyp⟩

/-- The subtree of a child that is not destroyed holds no pipeline of the subtrees
that are destroyed. -/
theorem strong_part_not_destroyed {ctx : CoglContext} {w f : Nat} {cs below : List Nat}
    (hb : subtree_post_list (subtree_post ctx f) cs = some below) (hnd : below.Nodup)
    {c : Nat} (hc : c ∈ cs) (hs : c ∉ weak_children ctx w cs) {part : List Nat}
    (hp : subtree_post ctx f c = some part) :
    ∀ y ∈ part, y ∉ weak_subtrees ctx w f cs := by
  intro y hy hyw
  obtain ⟨c2, hc2, hw2, part2, hp2, hy2⟩ := weak_subtrees_parts cs y hyw
  have hne : c2 ≠ c := by
    intro h
    subst h
    apply hs
    unfold weak_children
    rw [List.mem_filter]
    exact ⟨hc, by simpa using hw2⟩
  exact subtree_parts_disjoint cs below hb hnd
    (fun x px hx => (subtree_post_member f x px hx).1) c hc part hp c2 hc2 hne part2 hp2 y hy hy2
/-- A rooted layerless chain stays one in a context that shows the same differences,
parents and layer counts on the chain. -/
theorem rooted_layerless_congr {c c2 : CoglContext} {x root : Nat} {path : List Nat}
    (h : rooted_layerless c x path root)
    (hv : ∀ m ∈ path, (c2.pipeline m).map (fun n => (n.differences, n.parent, n.n_layers)) =
      (c.pipeline m).map (fun n => (n.differences, n.parent, n.n_layers))) :
    rooted_layerless c2 x path root := by
  obtain ⟨h1, h2, h3, h4⟩ := h
  have hrec : ∀ m ∈ path, (c.pipeline m = none ∧ c2.pipeline m = none) ∨
      ∃ u v, c.pipeline m = some u ∧ c2.pipeline m = some v ∧ v.differences = u.differences ∧
        v.parent = u.parent ∧ v.n_layers = u.n_layers := by
    intro m hm
    have := hv m hm
    cases ha : c.pipeline m with
    | none =>
      rw [ha] at this
      cases hb : c2.pipeline m with
      | none => exact Or.inl ⟨rfl, rfl⟩
      | some v => rw [hb] at this; simp at this
    | some u =>
      rw [ha] at this
      cases hb : c2.pipeline m with
      | none => rw [hb] at this; simp at this
      | some v =>
        rw [hb] at this
        simp only [Option.map_some', Option.some.injEq, Prod.mk.injEq] at this
        exact Or.inr ⟨u, v, rfl, rfl, this.1, this.2.1, this.2.2⟩
  have hview : ∀ m ∈ path, pipeline_view c2 m = pipeline_view c m := by
    intro m hm
    unfold pipeline_view
    rcases hrec m hm with ⟨a, b⟩ | ⟨u, v, a, b, e1, e2, e3⟩
    · rw [a, b]
    · rw [a, b]; simp [e1, e2]
  refine ⟨node_path_congr path x hview h1, h2, ?_, ?_⟩
  · unfold node_asserts_all
    rw [hview root (List.mem_of_getLast?_eq_some h2)]
    exact h3
  · intro m hm
    have h4m := h4 m hm
    rcases hrec m hm with ⟨a, b⟩ | ⟨u, v, a, b, e1, e2, e3⟩
    · rw [a] at h4m; simp at h4m
    · rw [a] at h4m
      rw [b]
      simpa [e1, e3] using h4m

/-- A pipeline without layers of its own on top of a rooted layerless chain. -/
theorem rooted_layerless_cons {c : CoglContext} {x par root : Nat} {rest : List Nat}
    {n : CoglPipeline} (h : rooted_layerless c par (par :: rest) root)
    (hx : c.pipeline x = some n) (hp : n.parent = some par)
    (hd : n.differences &&& COGL_PIPELINE_STATE_LAYERS ≠ 0 → n.n_layers = 0) :
    rooted_layerless c x (x :: par :: rest) root := by
  obtain ⟨h1, h2, h3, h4⟩ := h
  refine ⟨?_, ?_, h3, ?_⟩
  · unfold pipeline_path node_path
    refine ⟨rfl, ?_, h1⟩
    simp [pipeline_view, hx, hp]
  · rw [List.getLast?_cons_cons]; exact h2
  · intro m hm
    rcases List.mem_cons.mp hm with rfl | hm
    · rw [hx]
      simp only [Option.map_some', Option.some.injEq, decide_eq_true_eq]
      exact hd
    · exact h4 m hm

/-- The copy-on-write block of `_cogl_pipeline_pre_change_notify` returns on a
pipeline of a rooted layerless chain whose children head trees apart from each other
and from the chain. -/
theorem copy_on_write_total {c : CoglContext} {p par root F f : Nat} {n : CoglPipeline}
    {rest : List Nat}
    (hp : c.pipeline p = some n) (hpar : n.parent = some par)
    (hrl : rooted_layerless c p (p :: par :: rest) root)
    (hnw : pipeline_not_weak c root)
    (hlay : n.differences &&& COGL_PIPELINE_STATE_LAYERS ≠ 0 → n.layer_differences = [])
    (hnd : n.children.Nodup) (hpc : p ∉ n.children)
    (hch : ∀ ch ∈ n.children, (c.links ch).map (fun l => l.parent) = some (some p) ∧
      ∃ part, subtree_post c f ch = some part ∧ p ∉ part ∧ (∀ m ∈ par :: rest, m ∉ part) ∧
        ∀ c2 ∈ n.children, c2 ≠ ch → c2 ∉ part)
    (hf : f ≤ F + 2) (hk : rest.length + 2 ≤ F) :
    ∃ r, pre_change_notify_copy_on_write (_cogl_pipeline_pre_change_notify (F + 2)) (F + 2)
      c p = some r := by
  have hrl0 := hrl
  obtain ⟨hpath, hlast, hroot, hlayers⟩ := hrl
  obtain ⟨hpv, hpath2⟩ := node_path_tail hpath
  have hlast2 : (par :: rest).getLast? = some root := by
    rw [← hlast, List.getLast?_cons_cons]
  have hnodup := node_path_nodup _ _ hpath
  have hppar : p ≠ par := by
    intro h
    rw [List.nodup_cons] at hnodup
    exact hnodup.1 (h ▸ List.mem_cons_self _ _)
  obtain ⟨c1, cn, hcopy, hcn, e1, e2, e3, e4, e5, e6, e7, hold⟩ :=
    pipeline_copy_counts c par root (F + 2) (par :: rest) hpath2 hlast2 hnw
      (by simp only [List.length_cons]; omega)
  have hplt := pipeline_lt_length hp
  have hpL : p ≠ c.pipelines.length := Nat.ne_of_lt hplt
  obtain ⟨lpar, hlpar⟩ : ∃ lpar, c.links par = some lpar := by
    have hv := node_path_valid _ _ hpath2 par (List.mem_cons_self _ _)
    simp only [pipeline_view, Option.isSome_map'] at hv
    obtain ⟨s, hs⟩ := Option.isSome_iff_exists.mp hv
    exact ⟨_, links_of_pipeline hs⟩
  have hcopy0 := hcopy
  unfold cogl_pipeline_copy at hcopy0
  obtain ⟨k1, k2, k3, k4, k5, k6⟩ := pipeline_copy_links hlpar hcopy0
  unfold pre_change_notify_copy_on_write
  simp only [Option.bind_eq_bind, hp, Option.some_bind, hpar, hcopy]
  unfold _cogl_pipeline_set_static_breadcrumb
  simp only [hcn, Option.some_bind]
  generalize hcn2 : ({ cn with
    has_static_breadcrumb := true
    static_breadcrumb := "pre_change_notify:copy-on-write" } : CoglPipeline) = cn2
  have hcn2f : cn2.parent = some par ∧ cn2.differences = 0 ∧ cn2.children = [] := by
    rw [← hcn2]; exact ⟨e1, e5, e3⟩
  generalize hc2 : c1.set_pipeline c.pipelines.length cn2 = c2
  have h2new : c2.pipeline c.pipelines.length = some cn2 := by
    rw [← hc2]; exact pipeline_set_pipeline_self hcn cn2
  have h2old : ∀ q, q ≠ c.pipelines.length → c2.pipeline q = c1.pipeline q := by
    intro q hq; rw [← hc2]; exact pipeline_set_pipeline_ne c1 (Ne.symm hq) cn2
  have s2 : same_skeleton c1 c2 := by
    rw [← hc2]; exact same_skeleton_set hcn (by rw [← hcn2]; rfl)
  have h2p := h2old p hpL
  rw [hold p n hp] at h2p
  simp only [h2p, Option.some_bind]
  -- the chain of the copy
  have hrl2 : rooted_layerless c2 c.pipelines.length (c.pipelines.length :: par :: rest) root := by
    refine rooted_layerless_cons ?_ h2new hcn2f.1 (fun h => ?_)
    · refine rooted_layerless_congr ⟨hpath2, hlast2, hroot, fun m hm => hlayers m
        (List.mem_cons_of_mem _ hm)⟩ ?_
      intro m hm
      have hv := node_path_valid _ _ hpath2 m hm
      simp only [pipeline_view, Option.isSome_map'] at hv
      obtain ⟨s, hs⟩ := Option.isSome_iff_exists.mp hv
      rw [h2old m (Nat.ne_of_lt (pipeline_lt_length hs)), hold m s hs, hs]
      rfl
    · rw [hcn2f.2.1] at h
      exact absurd rfl h
  obtain ⟨c3b, hdiff⟩ := @copy_differences_with_total c2 c.pipelines.length p root F (F + 1)
    n.differences _ cn2 _ hrl2 (by simp only [List.length_cons]; omega) h2new hcn2f.2.2
    hcn2f.2.1 h2p hpL hlay
  rw [hdiff]
  simp only [Option.some_bind]
  have hleaf2 : ∀ l, c2.links c.pipelines.length = some l → l.children = [] := by
    intro l hl
    rw [links_of_pipeline h2new] at hl
    rw [← Option.some.inj hl]
    exact hcn2f.2.2
  have s3 : same_skeleton c2 c3b :=
    copy_differences_with_skeleton (fun c0 ch oc flc hl =>
      pre_change_notify_leaf (F + 2) c0 c.pipelines.length ch oc flc hl) (F + 2) c2 p _ hleaf2 _ hdiff
  have s13 := same_skeleton_trans s2 s3
  have hL : ∀ z l, c.links z = some l → z ≠ c.pipelines.length :=
    fun z l hl => Nat.ne_of_lt (links_lt_length hl)
  have hlinks3 : ∀ z, z ≠ c.pipelines.length → z ≠ par → c3b.links z = c.links z := by
    intro z hz hzp
    rw [s13.1, k4 z hz hzp]
  have hp3 : c3b.links p = some n.links := by
    rw [hlinks3 p hpL hppar]; exact links_of_pipeline hp
  have hnp3 := s13.1 c.pipelines.length
  rw [k2] at hnp3
  obtain ⟨n3, hn3, hn3l⟩ := links_eq_some hp3
  have hn3c : n3.children = n.children := by
    have : n3.links.children = n.links.children := by rw [hn3l]
    exact this
  have hchl : ∀ ch ∈ n.children, ∃ l, c.links ch = some l := by
    intro ch hc
    have := (hch ch hc).1
    cases hl : c.links ch with
    | none => rw [hl] at this; exact absurd this (by simp)
    | some l => exact ⟨l, rfl⟩
  have hLc : c.pipelines.length ∉ n.children := by
    intro h
    obtain ⟨l, hl⟩ := hchl _ h
    exact hL _ l hl rfl
  obtain ⟨c4, hfold⟩ := @reparent_children_total (F + 2) p c.pipelines.length f hpL hf
    n.children c3b n.links _ hnd hpc hLc hp3 hnp3 (by
      intro ch hc
      obtain ⟨hcp, part, hsub, hpp, hout, hdis⟩ := hch ch hc
      have htop := (subtree_post_member f ch part hsub).1
      have hex := subtree_post_exists f ch part hsub
      have hpy : ∀ y ∈ part, c3b.links y = c.links y := by
        intro y hy
        obtain ⟨l, hl⟩ := hex y hy
        exact hlinks3 y (hL y l hl) (fun h => hout par (List.mem_cons_self _ _) (h ▸ hy))
      refine ⟨hc, ?_, part, subtree_post_congr f ch part hsub hpy, hpp, ?_, hdis⟩
      · rw [hpy ch htop]; exact hcp
      · intro h
        obtain ⟨l, hl⟩ := hex _ h
        exact hL _ l hl rfl)
  unfold _cogl_pipeline_node_foreach_child
  simp only [hn3, hn3c, hfold, Option.some_bind]
  have hlen4 : c.pipelines.length < c4.pipelines.length := by
    obtain ⟨-, -, -, -, -, f6⟩ := reparent_children_fold hpL n.children c3b c4 n.links _ hnd hpc
      hLc hp3 hnp3 hnd (fun ch hc => ⟨hc, by
        obtain ⟨l, hl⟩ := hchl ch hc
        have hcpar : ch ≠ par := by
          obtain ⟨-, part, hsub, -, hout, -⟩ := hch ch hc
          exact fun h => hout par (List.mem_cons_self _ _)
            (h ▸ (subtree_post_member f ch part hsub).1)
        rw [hlinks3 ch (hL ch l hl) hcpar]
        exact (hch ch hc).1⟩) hfold
    rw [f6, same_skeleton_length s13, k6]
    exact Nat.lt_succ_self _
  obtain ⟨m, hm⟩ := pipeline_some_of_lt hlen4
  obtain ⟨c5, hun, -⟩ := object_unref_total hm
  rw [hun]
  exact ⟨_, rfl⟩
theorem pipeline_triple_eq {a b : CoglContext} {q : Nat}
    (hv : pipeline_view b q = pipeline_view a q)
    (hs : (b.pipeline q).map CoglPipeline.layer_state =
      (a.pipeline q).map CoglPipeline.layer_state) :
    (b.pipeline q).map (fun n => (n.differences, n.parent, n.n_layers)) =
      (a.pipeline q).map (fun n => (n.differences, n.parent, n.n_layers)) := by
  unfold pipeline_view at hv
  cases ha : a.pipeline q with
  | none =>
    rw [ha] at hs
    cases hb : b.pipeline q with
    | none => rfl
    | some v => rw [hb] at hs; simp at hs
  | some u =>
    rw [ha] at hs hv
    cases hb : b.pipeline q with
    | none => rw [hb] at hs; simp at hs
    | some v =>
      rw [hb] at hs hv
      simp only [Option.map_some', Option.some.injEq, CoglPipeline.layer_state,
        Prod.mk.injEq, NodeView.mk.injEq] at hs hv ⊢
      exact ⟨hv.1, hv.2, hs.2.2⟩

/-- The function `_cogl_pipeline_pre_change_notify` returns for a change of a single
sparse group on a pipeline below a root, strong children included: the subtree of `p`
is a tree, the chain from `p` to a root that is not weak and asserts every sparse
group stays outside of it, no pipeline of the chain has layers, and the fuel covers
the subtree and the chain. -/
theorem pre_change_notify_strong_children_returns {ctx : CoglContext} {p par G f k root : Nat}
    {n : CoglPipeline} {ids rest : List Nat} (oc : Option CoglColor) (flc : Bool)
    (hG : G ∈ sparse_state_groups) (hp : ctx.pipeline p = some n)
    (hj : G = COGL_PIPELINE_STATE_COLOR → n.journal_ref_count = 0)
    (htree : subtree_post ctx (f + 1) p = some ids) (hnd : ids.Nodup)
    (hcons : links_consistent ctx ids)
    (hrl : rooted_layerless ctx p (p :: par :: rest) root)
    (hnw : pipeline_not_weak ctx root)
    (hlay : n.differences &&& COGL_PIPELINE_STATE_LAYERS ≠ 0 → n.layer_differences = [])
    (hout : ∀ m ∈ par :: rest, m ∉ ids)
    (hfuel1 : 2 * f + 1 ≤ k + 1) (hfuel2 : rest.length + 4 ≤ k + 1) :
    ∃ c, _cogl_pipeline_pre_change_notify (k + 2) ctx p G oc flc = some c := by
  have hrl0 := hrl
  obtain ⟨hpath, hlast, hroot, hlayers⟩ := hrl
  obtain ⟨c1, c2, c3, h1, h2, h3, s12, k123, hview⟩ :=
    pre_change_notify_head_returns oc flc hp hj htree hnd hcons hpath
      (by simpa using hout) hfuel1
  obtain ⟨lp, below, hlp, hids, hbelow, -, d2, d3, -, d5, d6, d7⟩ :=
    destroy_phase s12 htree hnd hcons h3
  simp only [Nat.add_sub_cancel] at d2 d3 d6 d7
  have hlpn : lp = n.links := by
    rw [links_of_pipeline hp] at hlp
    exact (Option.some.inj hlp).symm
  obtain ⟨n3, hp3, hl3⟩ := links_eq_some d2
  have hch3 : n3.children = lp.children.filter
      (fun c => decide (c ∉ weak_children ctx k lp.children)) :=
    congrArg PipelineLinks.children hl3
  have hfuelp : (p :: par :: rest).length ≤ k + 1 := by
    simp only [List.length_cons]; omega
  have hpb : p ∉ below := by
    intro h
    rw [hids] at hnd
    exact (List.nodup_append.mp hnd).2.2 h (List.mem_singleton_self p)
  have hnb : below.Nodup := by
    rw [hids] at hnd
    exact (List.nodup_append.mp hnd).1
  have hbi : ∀ y ∈ below, y ∈ ids := fun y hy => by
    rw [hids]; exact List.mem_append_left _ hy
  have hpi : p ∈ ids := by rw [hids]; simp
  obtain ⟨c5, n5, hp5, hch5, hview5, hstep⟩ : ∃ c5 n5, c5.pipeline p = some n5 ∧
      n5.children = [] ∧
      (∀ m ∈ p :: par :: rest, pipeline_view c5 m = pipeline_view ctx m) ∧
      (if n3.children ≠ [] then
        (pre_change_notify_copy_on_write (_cogl_pipeline_pre_change_notify (k + 1)) (k + 1)
          c3 p).map (fun r => r.1) else some c3) = some c5 := by
    by_cases hS : n3.children = []
    · exact ⟨c3, n3, hp3, hS, hview, by simp [hS]⟩
    obtain ⟨F, rfl⟩ : ∃ F, k = F + 1 := ⟨k - 1, by omega⟩
    have hnpar : n.parent = some par := by
      have := (node_path_tail hpath).1
      simp only [pipeline_view, hp, Option.map_some', Option.some.injEq] at this
      exact this
    have hpar3 : n3.parent = some par := by
      have : n3.links.parent = lp.parent := by rw [hl3]
      rw [hlpn] at this
      exact this.trans hnpar
    have hlt : ∀ m ∈ p :: par :: rest, m < ctx.pipelines.length := by
      intro m hm
      have hmv := node_path_valid _ _ hpath m hm
      simp only [pipeline_view, Option.isSome_map'] at hmv
      obtain ⟨mn, hmn⟩ := Option.isSome_iff_exists.mp hmv
      exact pipeline_lt_length hmn
    have hrl3 : rooted_layerless c3 p (p :: par :: rest) root :=
      rooted_layerless_congr hrl0 (fun m hm => pipeline_triple_eq (hview m hm)
        (k123.2.2.1 m (hlt m hm) (Nat.ne_of_lt (hlt m hm))))
    have hrootin : root ∈ par :: rest := by
      rw [List.getLast?_cons_cons] at hlast
      exact List.mem_of_getLast?_eq_some hlast
    have hws : ∀ z, z ∉ ids → z ∉ weak_subtrees ctx (F + 1) f lp.children :=
      fun z hz h => hz (hbi z (d6 z h))
    have hnw3 : pipeline_not_weak c3 root := by
      have hri := hout root hrootin
      have h := d3 root (hws root hri) (fun h => hri (h ▸ hpi))
      unfold pipeline_not_weak at hnw ⊢
      simp only [CoglContext.links] at h
      have h2 := congrArg (Option.map PipelineLinks.is_weak) h
      simp only [Option.map_map] at h2
      exact h2.trans hnw
    have hst := k123.2.2.1 p (pipeline_lt_length hp) (Nat.ne_of_lt (pipeline_lt_length hp))
    rw [hp3, hp] at hst
    simp only [Option.map_some', Option.some.injEq, CoglPipeline.layer_state,
      Prod.mk.injEq] at hst
    have hlay3 : n3.differences &&& COGL_PIPELINE_STATE_LAYERS ≠ 0 → n3.layer_differences = [] := by
      rw [hst.1, hst.2.1]; exact hlay
    have hcnd : lp.children.Nodup := subtree_tops_nodup lp.children below hbelow hnb
    have hnd3 : n3.children.Nodup := by
      rw [hch3]; exact hcnd.filter _
    have hmem3 : ∀ ch ∈ n3.children, ch ∈ lp.children ∧
        ch ∉ weak_children ctx (F + 1) lp.children := by
      intro ch hc
      rw [hch3, List.mem_filter] at hc
      exact ⟨hc.1, by simpa using hc.2⟩
    have hpc3 : p ∉ n3.children := fun h =>
      hpb (subtree_top_mem hbelow (hmem3 p h).1)
    have hparts : ∀ ch ∈ n3.children, ∃ part, subtree_post ctx f ch = some part ∧
        (∀ y ∈ part, y ∈ below) ∧ (∀ y ∈ part, c3.links y = ctx.links y) := by
      intro ch hc
      obtain ⟨hcl, hcw⟩ := hmem3 ch hc
      obtain ⟨part, hpart, hsub⟩ := subtree_post_list_mem lp.children below hbelow ch hcl
      refine ⟨part, hpart, hsub, fun y hy => ?_⟩
      exact d3 y (strong_part_not_destroyed hbelow hnb hcl hcw hpart y hy)
        (fun h => hpb (h ▸ hsub y hy))
    have hch3all : ∀ ch ∈ n3.children,
        (c3.links ch).map (fun l => l.parent) = some (some p) ∧
        ∃ part, subtree_post c3 f ch = some part ∧ p ∉ part ∧
          (∀ m ∈ par :: rest, m ∉ part) ∧ ∀ c2 ∈ n3.children, c2 ≠ ch → c2 ∉ part := by
      intro ch hc
      obtain ⟨hcl, hcw⟩ := hmem3 ch hc
      obtain ⟨part, hpart, hsub, hsame⟩ := hparts ch hc
      have htop := (subtree_post_member f ch part hpart).1
      refine ⟨?_, part, subtree_post_congr f ch part hpart hsame, fun h => hpb (hsub p h),
        fun m hm h => hout m hm (hbi m (hsub m h)), ?_⟩
      · rw [hsame ch htop]
        exact hcons p hpi lp hlp ch hcl
      · intro c2 hc2 hne h
        obtain ⟨hcl2, -⟩ := hmem3 c2 hc2
        obtain ⟨part2, hpart2, -, -⟩ := hparts c2 hc2
        exact subtree_parts_disjoint lp.children below hbelow hnb
          (fun x px hx => (subtree_post_member f x px hx).1) c2 hcl2 part2 hpart2 ch hcl
          (Ne.symm hne) part hpart c2 (subtree_post_member f c2 part2 hpart2).1 h
    obtain ⟨r, hcow⟩ := @copy_on_write_total c3 p par root F f n3 rest hp3 hpar3 hrl3 hnw3
      hlay3 hnd3 hpc3 hch3all (by omega) (by omega)
    obtain ⟨c5, na⟩ := r
    have hnodup := node_path_nodup _ _ hpath
    have hppar : p ≠ par := by
      intro h
      rw [List.nodup_cons] at hnodup
      exact hnodup.1 (h ▸ List.mem_cons_self _ _)
    have hchi : ∀ ch ∈ n3.children, ch ∈ ids :=
      fun ch hc => hbi ch (subtree_top_mem hbelow (hmem3 ch hc).1)
    obtain ⟨l1, l2, -, l4, -, l6, -, -⟩ := @copy_on_write_links
      (_cogl_pipeline_pre_change_notify (F + 2)) (F + 2) p par na c3 c5 n3.links
      (fun dest c0 ch oc0 flc0 hl => pre_change_notify_leaf (F + 2) c0 dest ch oc0 flc0 hl)
      (links_of_pipeline hp3) hpar3 hppar hnd3 hpc3
      (fun h => hout par (List.mem_cons_self _ _) (hchi par h))
      (fun ch hc => (hch3all ch hc).1) hcow
    have kc := copy_on_write_kept c3.pipelines.length (F + 2) p c3
      (fun dest c0 ch oc0 flc0 hl => pre_change_notify_leaf_both (F + 2) c0 dest ch oc0 flc0 hl)
      _ hcow
    obtain ⟨n5, hp5, hl5⟩ := links_eq_some l2
    refine ⟨c5, n5, hp5, congrArg PipelineLinks.children hl5, ?_, by simp [hS, hcow]⟩
    intro m hm
    rw [← hview m hm]
    have hm3 : m < c3.pipelines.length := by rw [d5]; exact hlt m hm
    refine pipeline_view_eq ?_ (kc.2.2.1 m hm3 (Nat.ne_of_lt hm3))
    by_cases hmp : m = p
    · rw [hmp, l2, links_of_pipeline hp3]
      rfl
    by_cases hmpar : m = par
    · rw [hmpar, l4]
      simp only [Option.map_map]
      rfl
    have hmr : m ∈ par :: rest := by
      rcases List.mem_cons.mp hm with h | h
      · exact absurd h hmp
      · exact h
    rw [l6 m (fun h => hout m hmr (hchi m h)) hmp (by rw [l1]; exact Nat.ne_of_lt hm3) hmpar]
  obtain ⟨a, ha, -⟩ := authority_on_path hG hpath hlast hroot hfuelp hview5
  obtain ⟨c4, h4⟩ := takeover_group_total hG hp5 hch5 ⟨a, ha⟩
  refine ⟨c4, ?_⟩
  rw [_cogl_pipeline_pre_change_notify]
  unfold pre_change_notify_with
  simp only [Option.bind_eq_bind, h1, Option.some_bind, h2, h3, hp3, hstep, h4]
/-- C4: the copy-on-write of `_cogl_pipeline_pre_change_notify`. Let the subtree
`ids` of `p` be a tree (no pipeline twice, every child pointing back to its parent,
the parent of `p` outside of it). After every call that returns, `p` has no
children; for every child `c` of `p` that `_cogl_pipeline_is_weak` rejects (a child
that is not destroyed), `p` has a parent `par`, the slot `ctx.pipelines.length` was
empty before and holds a pipeline with parent `par` afterwards (the snapshot, which
is not `p`), and `c` has the snapshot as its parent with a strong edge
(`has_parent_reference`); when `_cogl_pipeline_is_weak` accepts every child of `p`,
so that none is left after their destruction, no pipeline is created. And the call
returns, strong children included, for a change of a single sparse group (of the
color only without journal reference) when `p` has a chain `p, par, ...` to a root
that is not weak and asserts every sparse group, the chain above `p` lies outside of
the subtree, no pipeline of the chain that asserts `LAYERS` has layers, `p` lists no
layer of its own, and the fuel covers the subtree and the chain. -/
theorem pre_change_notify_moves_children_to_snapshot (f p : Nat) (ctx : CoglContext)
    (ids : List Nat) (lp : PipelineLinks)
    (htree : subtree_post ctx f p = some ids) (hnd : ids.Nodup)
    (hcons : links_consistent ctx ids)
    (hp : ctx.links p = some lp) (hout : ∀ par, lp.parent = some par → par ∉ ids) :
    (∀ fuel change oc flc ctx2,
      _cogl_pipeline_pre_change_notify fuel ctx p change oc flc = some ctx2 →
      (ctx2.links p).map (fun l => l.children) = some [] ∧
      (∀ c ∈ lp.children, ∀ g, _cogl_pipeline_is_weak ctx g c = some false →
        ∃ par, lp.parent = some par ∧
          ctx.links ctx.pipelines.length = none ∧
          (ctx2.links ctx.pipelines.length).map (fun l => l.parent) = some (some par) ∧
          ctx.pipelines.length ≠ p ∧
          ctx2.links c = (ctx.links c).map
            (fun l => { l with parent := some ctx.pipelines.length,
                               has_parent_reference := true })) ∧
      ((∀ c ∈ lp.children, ∃ g, _cogl_pipeline_is_weak ctx g c = some true) →
        ctx2.pipelines.length = ctx.pipelines.length)) ∧
    (∀ k G oc flc par rest root, G ∈ sparse_state_groups →
      (G = COGL_PIPELINE_STATE_COLOR →
        (ctx.pipeline p).map (fun n => n.journal_ref_count) = some 0) →
      rooted_layerless ctx p (p :: par :: rest) root →
      pipeline_not_weak ctx root →
      (∀ n, ctx.pipeline p = some n → n.differences &&& COGL_PIPELINE_STATE_LAYERS ≠ 0 →
        n.layer_differences = []) →
      (∀ m ∈ par :: rest, m ∉ ids) →
      2 * f ≤ k + 2 → rest.length + 4 ≤ k + 1 →
      ∃ ctx2, _cogl_pipeline_pre_change_notify (k + 2) ctx p G oc flc = some ctx2) := by
  refine ⟨fun fuel change oc flc ctx2 hret =>
    pre_change_notify_children_spec fuel f p ctx ctx2 change oc flc ids lp hret htree hnd
      hcons hp hout, ?_⟩
  intro k G oc flc par rest root hG hj hrl hnw hlay houtp hf hk
  obtain ⟨n, hn, -⟩ := links_eq_some hp
  cases f with
  | zero => exact absurd htree (by simp [subtree_post])
  | succ g =>
    refine pre_change_notify_strong_children_returns oc flc hG hn ?_ htree hnd hcons hrl hnw
      (hlay n hn) houtp (by omega) hk
    intro hc
    have := hj hc
    rw [hn] at this
    exact Option.some.inj this

theorem pre_change_notify_moves_children_to_snapshot_witness :
    _cogl_pipeline_is_weak scenario_weak_copy 2 2 = some false ∧
    scenario_weak_copy.pipelines.length = 4 ∧
    ∃ ctx2, _cogl_pipeline_pre_change_notify 8 scenario_weak_copy 1 COGL_PIPELINE_STATE_COLOR
        none false = some ctx2 ∧
      (ctx2.links 1).map (fun l => l.children) = some [] ∧
      (ctx2.links 4).map (fun l => l.parent) = some (some 0) ∧
      (ctx2.links 2).map (fun l => (l.parent, l.has_parent_reference)) =
        some (some 4, true) := by
  have h := pre_change_notify_moves_children_to_snapshot 3 1 scenario_weak_copy [3, 2, 1]
    scenario_weak_copy_links
    (by decide!) (by decide!) (links_consistent_of_bool (by decide!)) (by decide!)
    (fun par hpar => by
      have h0 : scenario_weak_copy_links.parent = some 0 := by decide!
      rw [h0] at hpar
      rw [← Option.some.inj hpar]
      decide)
  obtain ⟨ctx2, hc⟩ := h.2 6 COGL_PIPELINE_STATE_COLOR none false 0 [] 0 (by decide)
    (fun _ => by decide!)
    ⟨by decide!, by decide!, by decide!, by decide!⟩ (by decide!)
    (fun n hn hl => by
      have hd : (scenario_weak_copy.pipeline 1).map (fun n => n.differences) = some 0 := by
        decide!
      rw [hn] at hd
      simp only [Option.map_some', Option.some.injEq] at hd
      rw [hd] at hl
      exact absurd rfl hl)
    (by decide) (by decide) (by decide)
  obtain ⟨q1, q2, -⟩ := h.1 8 COGL_PIPELINE_STATE_COLOR none false ctx2 hc
  have hlen : scenario_weak_copy.pipelines.length = 4 := by decide!
  obtain ⟨par, hpar, -, r2, -, r4⟩ := q2 2 (by decide!) 2 (by decide!)
  have h0 : scenario_weak_copy_links.parent = some 0 := by decide!
  rw [h0] at hpar
  rw [hlen] at r2 r4
  refine ⟨by decide!, hlen, ctx2, hc, q1, ?_, ?_⟩
  · rw [r2, ← Option.some.inj hpar]
  · rw [r4]
    decide!

/-! ## Equal pipelines hash alike, layers included -/

theorem layer_heap_eq {a b : CoglContext} (h : a.layers = b.layers) :
    a.layer = b.layer := by
  funext l
  simp only [CoglContext.layer, h]

theorem layer_view_eq {a b : CoglContext} (h : a.layers = b.layers) :
    layer_view a = layer_view b := by
  funext l
  simp only [layer_view, layer_heap_eq h]

/-- Two lists with one last entry end in a common part, before which their last
entries differ. -/
theorem common_suffix_rev : ∀ (P Q : List Nat) (c : Nat) (ct : List Nat),
    ∃ xs ys c2 ct2, P.reverse ++ c :: ct = xs ++ c2 :: ct2 ∧
      Q.reverse ++ c :: ct = ys ++ c2 :: ct2 ∧
      ∀ x y, xs.getLast? = some x → ys.getLast? = some y → x ≠ y := by
  intro P
  induction P with
  | nil =>
    intro Q c ct
    exact ⟨[], Q.reverse, c, ct, rfl, rfl, fun x y hx _ => absurd hx (by simp)⟩
  | cons p P2 ih =>
    intro Q c ct
    cases Q with
    | nil => exact ⟨(p :: P2).reverse, [], c, ct, rfl, rfl, fun x y _ hy => absurd hy (by simp)⟩
    | cons q Q2 =>
      by_cases hpq : p = q
      · subst hpq
        obtain ⟨xs, ys, c2, ct2, h1, h2, h3⟩ := ih Q2 p (c :: ct)
        refine ⟨xs, ys, c2, ct2, ?_, ?_, h3⟩
        · rw [← h1]; simp
        · rw [← h2]; simp
      · refine ⟨(p :: P2).reverse, (q :: Q2).reverse, c, ct, rfl, rfl, ?_⟩
        intro x y hx hy
        simp only [List.reverse_cons, List.getLast?_append, List.getLast?_singleton,
          Option.or, Option.some.injEq] at hx hy
        rw [← hx, ← hy]
        exact hpq

theorem common_suffix (A B : List Nat) (r : Nat) (hA : A.getLast? = some r)
    (hB : B.getLast? = some r) :
    ∃ xs ys c ct, A = xs ++ c :: ct ∧ B = ys ++ c :: ct ∧
      ∀ x y, xs.getLast? = some x → ys.getLast? = some y → x ≠ y := by
  obtain ⟨P, hP⟩ : ∃ P : List Nat, A = P.reverse ++ [r] := by
    refine ⟨A.dropLast.reverse, ?_⟩
    rw [List.reverse_reverse]
    have := List.dropLast_append_getLast? r hA
    exact this.symm
  obtain ⟨Q, hQ⟩ : ∃ Q : List Nat, B = Q.reverse ++ [r] := by
    refine ⟨B.dropLast.reverse, ?_⟩
    rw [List.reverse_reverse]
    have := List.dropLast_append_getLast? r hB
    exact this.symm
  obtain ⟨xs, ys, c, ct, h1, h2, h3⟩ := common_suffix_rev P Q r []
  exact ⟨xs, ys, c, ct, by rw [hP, h1], by rw [hQ, h2], h3⟩
theorem layer_sparse_bit_and (i : Nat) (hi : i < 9) :
    (1 <<< i) ≠ 0 ∧ (1 <<< i) &&& COGL_PIPELINE_LAYER_STATE_ALL_SPARSE = 1 <<< i := by
  interval_cases i <;> decide

theorem layer_sparse_testBit (j : Nat) :
    COGL_PIPELINE_LAYER_STATE_ALL_SPARSE.testBit j = true ↔ j < 9 := by
  constructor
  · intro h
    by_contra hj
    have hlt : COGL_PIPELINE_LAYER_STATE_ALL_SPARSE < 2 ^ j :=
      Nat.lt_of_lt_of_le (by decide : COGL_PIPELINE_LAYER_STATE_ALL_SPARSE < 2 ^ 9)
        (Nat.pow_le_pow_right (by decide) (by omega))
    rw [Nat.testBit_eq_false_of_lt hlt] at h
    exact absurd h (by simp)
  · intro hj
    interval_cases j <;> decide

/-- The array of all the layer authorities that `_cogl_pipeline_hash_layer_cb` resolves,
for a layer with a chain to a root that asserts every sparse layer group. -/
theorem layer_resolve_all_returns {ctx : CoglContext} {fuel l lroot : Nat}
    (hlroot : node_asserts_all (layer_view ctx) COGL_PIPELINE_LAYER_STATE_ALL_SPARSE lroot)
    (hr : layer_rooted ctx fuel l lroot) :
    ∃ AL, _cogl_pipeline_layer_resolve_authorities ctx fuel l
        COGL_PIPELINE_LAYER_STATE_ALL_SPARSE
        (List.replicate COGL_PIPELINE_LAYER_STATE_COUNT none) = some AL ∧
      ∀ j, j < 9 → ∃ a r, AL[j]? = some (some a) ∧
        node_get_authority (layer_view ctx) fuel l (1 <<< j) = some a ∧
        ctx.layer a = some r := by
  obtain ⟨path, hpath, hlast, hfuel⟩ := hr
  obtain ⟨AL, hAL, -, hspec⟩ := node_resolve_authorities_returns (layer_view ctx) path l fuel
    COGL_PIPELINE_LAYER_STATE_ALL_SPARSE (List.replicate COGL_PIPELINE_LAYER_STATE_COUNT none)
    hpath hfuel (by
      intro j hj
      have hj9 := (layer_sparse_testBit j).1 hj
      refine ⟨by simpa [COGL_PIPELINE_LAYER_STATE_COUNT] using hj9, lroot,
        List.mem_of_getLast?_eq_some hlast, ?_⟩
      exact node_asserts_of_all hlroot (layer_sparse_bit_and j hj9).1
        (layer_sparse_bit_and j hj9).2)
  refine ⟨AL, hAL, ?_⟩
  intro j hj
  obtain ⟨a, ha, hg⟩ := (hspec j).1 ((layer_sparse_testBit j).2 hj)
  have hg2 := hg
  rw [← layer_get_authority_eq] at hg2
  obtain ⟨r, hr⟩ := layer_get_authority_exists _ _ _ hg2
  exact ⟨a, r, ha, hg, hr⟩

/-- The two loops of `_cogl_pipeline_hash_layer_cb` over two arrays of layer
authorities whose entries hash alike under every group of the mask return one
state. -/
theorem hash_layer_loop_lockstep {fns : CoglPipelineStateFuncs} {cA cB : CoglContext}
    {mask : Nat} {AL0 AL1 : List (Option Nat)}
    (hstep : ∀ j, j < 9 → mask &&& (1 <<< j) ≠ 0 →
      ∃ x y, layer_authority_record cA AL0 j = some x ∧
        layer_authority_record cB AL1 j = some y ∧
        ∀ s, fns.layer_hash j cA.textures x (AL0.map (fun pointer => pointer.bind cA.layer)) s =
          fns.layer_hash j cB.textures y (AL1.map (fun pointer => pointer.bind cB.layer)) s) :
    ∀ (remaining i : Nat) (state : CoglPipelineHashState), i + remaining = 9 →
      ∃ s2, hash_layer_loop fns cA AL0 mask remaining i state = some s2 ∧
        hash_layer_loop fns cB AL1 mask remaining i state = some s2 := by
  intro remaining
  induction remaining with
  | zero =>
    intro i state _
    exact ⟨state, rfl, rfl⟩
  | succ k ih =>
    intro i state hik
    have hi : i < 9 := by omega
    rw [hash_layer_loop, hash_layer_loop]
    by_cases hb : mask &&& (1 <<< i) ≠ 0
    · obtain ⟨x, y, hx, hy, hsame⟩ := hstep i hi hb
      simp only [if_pos hb, hx, hy, hsame]
      split
      · exact ⟨_, rfl, rfl⟩
      · exact ih (i + 1) _ (by omega)
    · simp only [if_neg hb]
      split
      · exact ⟨_, rfl, rfl⟩
      · exact ih (i + 1) _ (by omega)

theorem layer_state_comparitor_some (fns : CoglPipelineStateFuncs) (textures : List CoglTexture)
    (flags j : Nat) (h1 : 1 ≤ j) (h9 : j < 9) :
    ∃ cmp, layer_state_comparitor fns textures flags j = some cmp := by
  interval_cases j <;> exact ⟨_, rfl⟩

/-- The parts of a comparison of two distinct layers that returned true. -/
theorem layer_equal_true_groups {fns : CoglPipelineStateFuncs} {ctx : CoglContext}
    {fuel l0 l1 lm flags : Nat} (hne : l0 ≠ l1)
    (h : _cogl_pipeline_layer_equal fns ctx fuel l0 l1 lm flags = some true) :
    ∃ d B0 B1, _cogl_pipeline_layer_compare_differences ctx fuel l0 l1 = some d ∧
      _cogl_pipeline_layer_resolve_authorities ctx fuel l0 (d &&& lm)
        (List.replicate COGL_PIPELINE_LAYER_STATE_SPARSE_COUNT none) = some B0 ∧
      _cogl_pipeline_layer_resolve_authorities ctx fuel l1 (d &&& lm)
        (List.replicate COGL_PIPELINE_LAYER_STATE_SPARSE_COUNT none) = some B1 ∧
      ∀ j, 1 ≤ j → j < 9 → ∃ cmp, layer_state_comparitor fns ctx.textures flags j = some cmp ∧
        layer_state_equal ctx B0 B1 (d &&& lm) (1 <<< j) j cmp = some true := by
  unfold _cogl_pipeline_layer_equal at h
  rw [if_neg hne] at h
  simp only [Option.bind_eq_bind, Option.pure_def] at h
  obtain ⟨d, hd, h⟩ := Option.bind_eq_some.mp h
  obtain ⟨B0, hB0, h⟩ := Option.bind_eq_some.mp h
  obtain ⟨B1, hB1, h⟩ := Option.bind_eq_some.mp h
  obtain ⟨t1, h1, h⟩ := Option.bind_eq_some.mp h
  cases t1 with
  | false => simp at h
  | true =>
    simp only [Bool.not_true, Bool.false_eq_true, if_false] at h
    obtain ⟨t2, h2, h⟩ := Option.bind_eq_some.mp h
    cases t2 with
    | false => simp at h
    | true =>
      simp only [Bool.not_true, Bool.false_eq_true, if_false] at h
      obtain ⟨t5, h5, h⟩ := Option.bind_eq_some.mp h
      cases t5 with
      | false => simp at h
      | true =>
        simp only [Bool.not_true, Bool.false_eq_true, if_false] at h
        obtain ⟨t6, h6, h⟩ := Option.bind_eq_some.mp h
        cases t6 with
        | false => simp at h
        | true =>
          simp only [Bool.not_true, Bool.false_eq_true, if_false] at h
          obtain ⟨t3, h3, h⟩ := Option.bind_eq_some.mp h
          cases t3 with
          | false => simp at h
          | true =>
            simp only [Bool.not_true, Bool.false_eq_true, if_false] at h
            obtain ⟨t4, h4, h⟩ := Option.bind_eq_some.mp h
            cases t4 with
            | false => simp at h
            | true =>
              simp only [Bool.not_true, Bool.false_eq_true, if_false] at h
              obtain ⟨t7, h7, h⟩ := Option.bind_eq_some.mp h
              cases t7 with
              | false => simp at h
              | true =>
                simp only [Bool.not_true, Bool.false_eq_true, if_false] at h
                refine ⟨d, B0, B1, hd, hB0, hB1, ?_⟩
                intro j hj1 hj9
                interval_cases j
                · exact ⟨_, rfl, h1⟩
                · exact ⟨_, rfl, h2⟩
                · exact ⟨_, rfl, h3⟩
                · exact ⟨_, rfl, h4⟩
                · exact ⟨_, rfl, h5⟩
                · exact ⟨_, rfl, h6⟩
                · exact ⟨_, rfl, h7⟩
                · exact ⟨_, rfl, h⟩
theorem layer_unit_record {ctx : CoglContext} {fuel f0 l u a : Nat} {r : CoglPipelineLayer}
    (hf0 : f0 ≤ fuel) (hu : _cogl_pipeline_layer_get_unit_index ctx f0 l = some u)
    (ha : node_get_authority (layer_view ctx) fuel l (1 <<< 0) = some a)
    (hr : ctx.layer a = some r) : r.unit_index = u := by
  unfold _cogl_pipeline_layer_get_unit_index at hu
  cases hg : _cogl_pipeline_layer_get_authority ctx f0 l COGL_PIPELINE_LAYER_STATE_UNIT with
  | none => rw [hg] at hu; exact absurd hu (by simp)
  | some b =>
    rw [hg] at hu
    have hb := layer_get_authority_mono ctx _ f0 l b hg fuel hf0
    rw [layer_get_authority_eq] at hb
    have hab : b = a := by
      have : node_get_authority (layer_view ctx) fuel l COGL_PIPELINE_LAYER_STATE_UNIT =
          node_get_authority (layer_view ctx) fuel l (1 <<< 0) := rfl
      rw [this, ha] at hb
      exact (Option.some.inj hb).symm
    subst hab
    simp only [hr, Option.map_some', Option.some.injEq] at hu
    exact hu

/-- The arrays of all the authorities of two layers that `_cogl_pipeline_layer_equal`
accepts under `lm`, and that have one unit index, are alike under `lm`. -/
theorem layer_equal_true_alike {fns : CoglPipelineStateFuncs} {ctx : CoglContext}
    {fuel f0 l0 l1 lroot lm flags u : Nat} {AL0 AL1 : List (Option Nat)}
    (hr0 : layer_rooted ctx fuel l0 lroot) (hr1 : layer_rooted ctx fuel l1 lroot)
    (hf0 : f0 ≤ fuel)
    (hu0 : _cogl_pipeline_layer_get_unit_index ctx f0 l0 = some u)
    (hu1 : _cogl_pipeline_layer_get_unit_index ctx f0 l1 = some u)
    (heq : _cogl_pipeline_layer_equal fns ctx fuel l0 l1 lm flags = some true)
    (hA0 : ∀ j, j < 9 → ∃ a r, AL0[j]? = some (some a) ∧
      node_get_authority (layer_view ctx) fuel l0 (1 <<< j) = some a ∧ ctx.layer a = some r)
    (hA1 : ∀ j, j < 9 → ∃ a r, AL1[j]? = some (some a) ∧
      node_get_authority (layer_view ctx) fuel l1 (1 <<< j) = some a ∧ ctx.layer a = some r) :
    layer_authorities_alike fns ctx.textures lm flags
      (AL0.map (fun pointer => pointer.bind ctx.layer))
      (AL1.map (fun pointer => pointer.bind ctx.layer)) := by
  intro j hj hm
  have hj9 : j < 9 := hj
  obtain ⟨a0, r0, e0, g0, x0⟩ := hA0 j hj9
  obtain ⟨a1, r1, e1, g1, x1⟩ := hA1 j hj9
  refine ⟨r0, r1, ?_, ?_, ?_⟩
  · rw [List.getElem?_map, e0]
    simp [x0]
  · rw [List.getElem?_map, e1]
    simp [x1]
  by_cases hj0 : j = 0
  · subst hj0
    exact Or.inr (Or.inl ⟨rfl, by
      rw [layer_unit_record hf0 hu0 g0 x0, layer_unit_record hf0 hu1 g1 x1]⟩)
  by_cases hl : l0 = l1
  · subst hl
    rw [g0] at g1
    have := Option.some.inj g1
    subst this
    rw [x0] at x1
    exact Or.inl (Option.some.inj x1)
  obtain ⟨lp0, hp0, hlast0, hlen0⟩ := hr0
  obtain ⟨lp1, hp1, hlast1, hlen1⟩ := hr1
  obtain ⟨xs, ys, c, ct, hs0, hs1, hmax⟩ := common_suffix lp0 lp1 lroot hlast0 hlast1
  subst hs0
  subst hs1
  have hp0v : node_path (layer_view ctx) l0 (xs ++ c :: ct) := hp0
  have hp1v : node_path (layer_view ctx) l1 (ys ++ c :: ct) := hp1
  have hspec := node_compare_differences_spec (layer_view ctx) l0 l1 fuel c xs ys ct hp0v hp1v
    hmax hlen0 hlen1
  obtain ⟨d, B0, B1, hd, hB0, hB1, hgroups⟩ := layer_equal_true_groups hl heq
  unfold _cogl_pipeline_layer_compare_differences at hd
  rw [hspec] at hd
  have hdd := Option.some.inj hd
  subst hdd
  by_cases hbit : (union_of_differences (layer_view ctx) (xs ++ ys)).testBit j = true
  · have hpd : (union_of_differences (layer_view ctx) (xs ++ ys) &&& lm).testBit j = true := by
      rw [Nat.testBit_and, hbit, (and_bit_ne_zero lm j).1 hm]
      rfl
    unfold _cogl_pipeline_layer_resolve_authorities at hB0 hB1
    obtain ⟨b0, f0', k0⟩ := ((node_resolve_authorities_spec _ _ _ _ _ _ hB0).2 j).1 hpd
    obtain ⟨b1, f1', k1⟩ := ((node_resolve_authorities_spec _ _ _ _ _ _ hB1).2 j).1 hpd
    rw [g0] at k0
    rw [g1] at k1
    have hb0 := Option.some.inj k0
    have hb1 := Option.some.inj k1
    subst hb0
    subst hb1
    obtain ⟨cmp, hcmp, hle⟩ := hgroups j (by omega) hj9
    refine Or.inr (Or.inr ⟨cmp, hcmp, ?_⟩)
    unfold layer_state_equal at hle
    rw [if_pos ((and_bit_ne_zero _ j).2 hpd)] at hle
    simp only [layer_authority_record, f0', f1', x0, x1, Option.some.injEq] at hle
    exact hle
  · have hbit2 : (union_of_differences (layer_view ctx) (xs ++ ys)).testBit j = false := by
      simpa using hbit
    have hno := not_asserts_of_union_bit hbit2
    have h0 := authority_above_common hp0v (fun m hm => hno m (List.mem_append_left _ hm)) hlen0
    have h1 := authority_above_common hp1v (fun m hm => hno m (List.mem_append_right _ hm)) hlen1
    rw [g0] at h0
    rw [g1, ← h0] at h1
    have := Option.some.inj h1
    subst this
    rw [x0] at x1
    exact Or.inl (Option.some.inj x1)
theorem hash_layer_loop_keeps {fns : CoglPipelineStateFuncs} {c : CoglContext} {mask : Nat}
    {AL : List (Option Nat)}
    (hlkeep : ∀ i tex x R s, (fns.layer_hash i tex x R s).layer_differences =
      s.layer_differences) :
    ∀ (remaining i : Nat) (state s2 : CoglPipelineHashState),
      hash_layer_loop fns c AL mask remaining i state = some s2 →
      s2.layer_differences = state.layer_differences := by
  intro remaining
  induction remaining with
  | zero =>
    intro i state s2 h
    simp only [hash_layer_loop, Option.some.injEq] at h
    rw [← h]
  | succ k ih =>
    intro i state s2 h
    rw [hash_layer_loop] at h
    by_cases hb : mask &&& (1 <<< i) ≠ 0
    · simp only [if_pos hb] at h
      cases hr : layer_authority_record c AL i with
      | none => rw [hr] at h; exact absurd h (by simp)
      | some x =>
        rw [hr] at h
        simp only at h
        split at h
        · rw [← Option.some.inj h, hlkeep]
        · rw [ih _ _ _ h, hlkeep]
    · simp only [if_neg hb] at h
      split at h
      · rw [← Option.some.inj h]
      · exact ih _ _ _ h

/-- The callback `_cogl_pipeline_hash_layer_cb` returns one state on two layers of one
unit index that `_cogl_pipeline_layer_equal` accepts under the mask of the state. -/
theorem hash_layer_cb_agree {fns : CoglPipelineStateFuncs} {ctx cA cB : CoglContext}
    {fuel f0 l0 l1 lroot lm flags u : Nat}
    (hlroot : node_asserts_all (layer_view ctx) COGL_PIPELINE_LAYER_STATE_ALL_SPARSE lroot)
    (hr0 : layer_rooted ctx fuel l0 lroot) (hr1 : layer_rooted ctx fuel l1 lroot)
    (hf0 : f0 ≤ fuel)
    (hu0 : _cogl_pipeline_layer_get_unit_index ctx f0 l0 = some u)
    (hu1 : _cogl_pipeline_layer_get_unit_index ctx f0 l1 = some u)
    (heq : _cogl_pipeline_layer_equal fns ctx fuel l0 l1 lm flags = some true)
    (hlA : cA.layers = ctx.layers) (htA : cA.textures = ctx.textures)
    (hlB : cB.layers = ctx.layers) (htB : cB.textures = ctx.textures)
    (hlcompat : ∀ i, i < 9 → lm &&& (1 <<< i) ≠ 0 → ∀ R0 R1 x y s,
      R0[i]? = some (some x) → R1[i]? = some (some y) →
      layer_authorities_alike fns ctx.textures lm flags R0 R1 →
      fns.layer_hash i ctx.textures x R0 s = fns.layer_hash i ctx.textures y R1 s)
    (hlkeep : ∀ i tex x R s, (fns.layer_hash i tex x R s).layer_differences =
      s.layer_differences)
    (s : CoglPipelineHashState) (hs : s.layer_differences = lm) :
    ∃ s2, _cogl_pipeline_hash_layer_cb fns fuel cA s l0 = some (cA, s2, true) ∧
      _cogl_pipeline_hash_layer_cb fns fuel cB s l1 = some (cB, s2, true) ∧
      s2.layer_differences = lm := by
  obtain ⟨AL0, hAL0, hA0⟩ := layer_resolve_all_returns hlroot hr0
  obtain ⟨AL1, hAL1, hA1⟩ := layer_resolve_all_returns hlroot hr1
  have halike := layer_equal_true_alike hr0 hr1 hf0 hu0 hu1 heq hA0 hA1
  have hstep : ∀ j, j < 9 → lm &&& (1 <<< j) ≠ 0 →
      ∃ x y, layer_authority_record cA AL0 j = some x ∧
        layer_authority_record cB AL1 j = some y ∧
        ∀ s, fns.layer_hash j cA.textures x (AL0.map (fun pointer => pointer.bind cA.layer)) s =
          fns.layer_hash j cB.textures y (AL1.map (fun pointer => pointer.bind cB.layer))
            s := by
    intro j hj hm
    obtain ⟨a0, r0, e0, -, x0⟩ := hA0 j hj
    obtain ⟨a1, r1, e1, -, x1⟩ := hA1 j hj
    refine ⟨r0, r1, ?_, ?_, ?_⟩
    · simp only [layer_authority_record, e0, layer_heap_eq hlA, x0]
    · simp only [layer_authority_record, e1, layer_heap_eq hlB, x1]
    · intro s
      rw [layer_heap_eq hlA, layer_heap_eq hlB, htA, htB]
      refine hlcompat j hj hm _ _ r0 r1 s ?_ ?_ halike
      · rw [List.getElem?_map, e0]
        simp [x0]
      · rw [List.getElem?_map, e1]
        simp [x1]
  obtain ⟨s2, h0, h1⟩ := hash_layer_loop_lockstep hstep 9 0 s rfl
  have hk := hash_layer_loop_keeps hlkeep 9 0 s s2 h0
  refine ⟨s2, ?_, ?_, by rw [hk, hs]⟩
  · unfold _cogl_pipeline_hash_layer_cb _cogl_pipeline_layer_resolve_authorities
    rw [layer_view_eq hlA]
    unfold _cogl_pipeline_layer_resolve_authorities at hAL0
    rw [hAL0]
    simp only [hs]
    have : hash_layer_loop fns cA AL0 lm COGL_PIPELINE_LAYER_STATE_COUNT 0 s = some s2 := h0
    rw [this]
  · unfold _cogl_pipeline_hash_layer_cb _cogl_pipeline_layer_resolve_authorities
    rw [layer_view_eq hlB]
    unfold _cogl_pipeline_layer_resolve_authorities at hAL1
    rw [hAL1]
    simp only [hs]
    have : hash_layer_loop fns cB AL1 lm COGL_PIPELINE_LAYER_STATE_COUNT 0 s = some s2 := h1
    rw [this]
theorem layer_get_unit_index_congr {a b : CoglContext} (h : a.layers = b.layers) (f l : Nat) :
    _cogl_pipeline_layer_get_unit_index a f l = _cogl_pipeline_layer_get_unit_index b f l := by
  unfold _cogl_pipeline_layer_get_unit_index
  rw [layer_get_authority_eq, layer_get_authority_eq, layer_view_eq h, layer_heap_eq h]

theorem update_layers_cache_scan_congr {a b : CoglContext} (h : a.layers = b.layers)
    (fuel n : Nat) :
    ∀ (ls : List Nat) (cache : List (Option Nat)) (found : Nat),
      update_layers_cache_scan a fuel n ls cache found =
        update_layers_cache_scan b fuel n ls cache found := by
  intro ls
  induction ls with
  | nil => intro cache found; rfl
  | cons l rest ih =>
    intro cache found
    rw [update_layers_cache_scan, update_layers_cache_scan, layer_get_unit_index_congr h]
    cases _cogl_pipeline_layer_get_unit_index b fuel l with
    | none => rfl
    | some u =>
      simp only
      split
      · split
        · rfl
        · exact ih _ _
      · exact ih _ _

theorem uncached_fields {x y : CoglPipeline} (h : x.uncached = y.uncached) :
    x.parent = y.parent ∧ x.differences = y.differences ∧
      x.layer_differences = y.layer_differences ∧ x.n_layers = y.n_layers := by
  have h1 := congrArg CoglPipeline.parent h
  have h2 := congrArg CoglPipeline.differences h
  have h3 := congrArg CoglPipeline.layer_differences h
  have h4 := congrArg CoglPipeline.n_layers h
  exact ⟨h1, h2, h3, h4⟩

theorem update_layers_cache_walk_congr {a b : CoglContext} (h : same_but_caches a b) (n : Nat) :
    ∀ (fuel cur : Nat) (cache : List (Option Nat)) (found : Nat),
      update_layers_cache_walk b n fuel cur cache found =
        update_layers_cache_walk a n fuel cur cache found := by
  have hl : b.layers = a.layers := same_but_caches_layers h
  intro fuel
  induction fuel with
  | zero => intro cur cache found; rfl
  | succ k ih =>
    intro cur cache found
    rw [update_layers_cache_walk, update_layers_cache_walk]
    cases ha : a.pipeline cur with
    | none =>
      have := h.1 cur
      rw [ha] at this
      cases hb : b.pipeline cur with
      | none => rfl
      | some v => rw [hb] at this; exact absurd this (by simp)
    | some x =>
      obtain ⟨y, hy, hun⟩ := same_but_caches_pipeline h ha
      obtain ⟨e1, e2, e3, -⟩ := uncached_fields hun
      rw [hy]
      simp only [e1, e2, e3, update_layers_cache_scan_congr hl]
      cases x.parent with
      | none => rfl
      | some par =>
        simp only
        split
        · exact ih _ _ _
        · cases update_layers_cache_scan a k n x.layer_differences cache found with
          | none => rfl
          | some r =>
            obtain ⟨c1, f1, fl⟩ := r
            cases fl with
            | true => rfl
            | false => exact ih _ _ _

theorem update_layers_cache_frame_ne {ctx c1 : CoglContext} {fuel a : Nat}
    (h : _cogl_pipeline_update_layers_cache fuel ctx a = some c1) (q : Nat) (hq : q ≠ a) :
    c1.pipeline q = ctx.pipeline q := by
  unfold _cogl_pipeline_update_layers_cache at h
  cases hp : ctx.pipeline a with
  | none => rw [hp] at h; exact absurd h (by simp)
  | some node =>
    rw [hp] at h
    simp only at h
    split at h
    · rw [← Option.some.inj h]
    · split at h
      · exact absurd h (by simp)
      · rw [← Option.some.inj h]
        exact pipeline_set_pipeline_ne ctx (Ne.symm hq) _

/-- The refresh of the layers cache of `a` gives one cache in two contexts that agree
up to layers caches and on the record of `a`. -/
theorem update_layers_cache_congr {ctx cX c2 : CoglContext} {fuel a : Nat}
    (hs : same_but_caches ctx cX) (ha : cX.pipeline a = ctx.pipeline a)
    (h : _cogl_pipeline_update_layers_cache fuel cX a = some c2) :
    ∃ cB, _cogl_pipeline_update_layers_cache fuel ctx a = some cB ∧
      cB.pipeline a = c2.pipeline a := by
  unfold _cogl_pipeline_update_layers_cache at h ⊢
  rw [ha] at h
  cases hp : ctx.pipeline a with
  | none => rw [hp] at h; exact absurd h (by simp)
  | some node =>
    rw [hp] at h
    simp only at h ⊢
    split at h
    · rename_i hc
      rw [if_pos hc]
      refine ⟨ctx, rfl, ?_⟩
      rw [← Option.some.inj h, ha]
    · rename_i hc
      rw [if_neg hc]
      rw [update_layers_cache_walk_congr hs] at h
      split at h
      · exact absurd h (by simp)
      · rename_i cache hw
        refine ⟨_, rfl, ?_⟩
        rw [← Option.some.inj h]
        have hX : cX.pipeline a = some node := by rw [ha, hp]
        rw [pipeline_set_pipeline_self hp, pipeline_set_pipeline_self hX]

/-- The refresh of the layers cache of a pipeline whose layers are in order returns
a valid cache whose slot `u` holds a layer of unit index `u` with a chain to the
root layer. -/
theorem update_layers_cache_ready {ctx : CoglContext} {fuel f0 a lroot : Nat}
    {node : CoglPipeline} (hord : layers_in_order ctx fuel f0 a lroot)
    (ha : ctx.pipeline a = some node) (hN : 0 < node.n_layers) :
    ∃ c1 n1, _cogl_pipeline_update_layers_cache fuel ctx a = some c1 ∧
      c1.pipeline a = some n1 ∧ n1.layers_cache_dirty = false ∧
      n1.n_layers = node.n_layers ∧
      ∀ u, u < node.n_layers → ∃ L, n1.layers_cache[u]? = some (some L) ∧
        _cogl_pipeline_layer_get_unit_index ctx f0 L = some u ∧
        layer_rooted ctx fuel L lroot := by
  obtain ⟨node2, path, ha2, hpath, hfuel, hd, hc⟩ := hord
  rw [ha] at ha2
  have hn := Option.some.inj ha2
  subst hn
  cases hdirty : node.layers_cache_dirty with
  | false =>
    refine ⟨ctx, node, ?_, ha, hdirty, rfl, hc hdirty⟩
    unfold _cogl_pipeline_update_layers_cache
    simp [ha, hdirty]
  | true =>
    obtain ⟨hL, hcover⟩ := hd hdirty
    obtain ⟨cache, hupd, hlen, hslots⟩ := update_layers_cache_fills ha hdirty hN hpath hfuel
      (fun L hLm => (hL L hLm).1)
    refine ⟨_, _, hupd, pipeline_set_pipeline_self ha _, rfl, rfl, ?_⟩
    intro u hu
    obtain ⟨L0, hL0, hu0⟩ := hcover u hu
    cases hfind : (layers_on_path ctx path).find? (fun L => decide (unit_of ctx f0 L = u)) with
    | none => exact absurd (decide_eq_true hu0) (List.find?_eq_none.mp hfind L0 hL0)
    | some L =>
      have hLu : unit_of ctx f0 L = u := by
        have := List.find?_some hfind
        simpa using this
      have hLmem : L ∈ layers_on_path ctx path := List.mem_of_find?_eq_some hfind
      refine ⟨L, ?_, ?_, (hL L hLmem).2⟩
      · show cache[u]? = some (some L)
        rw [hslots u hu, hfind]
      · have hsome := (hL L hLmem).1
        unfold unit_of at hLu
        cases hx : _cogl_pipeline_layer_get_unit_index ctx f0 L with
        | none => rw [hx] at hsome; exact absurd hsome (by simp)
        | some v =>
          rw [hx] at hLu
          simp only [Option.getD_some] at hLu
          rw [hLu]

theorem layers_equal_loop_true {fns : CoglPipelineStateFuncs} {c : CoglContext}
    {fuel lm flags : Nat} :
    ∀ (n : Nat) (C0 C1 : List (Option Nat)),
      layers_equal_loop fns c fuel lm flags C0 C1 n = some true →
      ∀ u, u < n → ∃ l0 l1, C0[u]? = some (some l0) ∧ C1[u]? = some (some l1) ∧
        _cogl_pipeline_layer_equal fns c fuel l0 l1 lm flags = some true := by
  intro n
  induction n with
  | zero => intro C0 C1 _ u hu; exact absurd hu (Nat.not_lt_zero _)
  | succ k ih =>
    intro C0 C1 h u hu
    match C0, C1, h with
    | some l0 :: rest0, some l1 :: rest1, h =>
      rw [layers_equal_loop] at h
      cases he : _cogl_pipeline_layer_equal fns c fuel l0 l1 lm flags with
      | none => rw [he] at h; exact absurd h (by simp)
      | some b =>
        rw [he] at h
        cases b with
        | false => exact absurd h (by simp)
        | true =>
          simp only at h
          cases u with
          | zero => exact ⟨l0, l1, by simp, by simp, he⟩
          | succ v =>
            obtain ⟨m0, m1, e0, e1, hm⟩ := ih rest0 rest1 h v (by omega)
            exact ⟨m0, m1, by simpa using e0, by simpa using e1, hm⟩
    | [], _, h => simp [layers_equal_loop] at h
    | none :: _, _, h => simp [layers_equal_loop] at h
    | some _ :: _, [], h => simp [layers_equal_loop] at h
    | some _ :: _, none :: _, h => simp [layers_equal_loop] at h
theorem layer_equal_congr {fns : CoglPipelineStateFuncs} {a b : CoglContext}
    (hl : a.layers = b.layers) (ht : a.textures = b.textures) (fuel l0 l1 lm flags : Nat) :
    _cogl_pipeline_layer_equal fns a fuel l0 l1 lm flags =
      _cogl_pipeline_layer_equal fns b fuel l0 l1 lm flags := by
  unfold _cogl_pipeline_layer_equal _cogl_pipeline_layer_compare_differences
    _cogl_pipeline_layer_resolve_authorities layer_state_equal layer_authority_record
  simp only [layer_view_eq hl, layer_heap_eq hl, ht]

/-- The two walks of `_cogl_pipeline_foreach_layer_internal` with the hash callback
over two valid caches whose layers hash alike slot by slot return one state. -/
theorem foreach_layer_hash_lockstep {fns : CoglPipelineStateFuncs} {cA cB : CoglContext}
    {fuel a0 a1 lm : Nat} {nA nB : CoglPipeline}
    (hA : cA.pipeline a0 = some nA) (hB : cB.pipeline a1 = some nB)
    (hdA : nA.layers_cache_dirty = false) (hdB : nB.layers_cache_dirty = false) (n : Nat)
    (hslots : ∀ u, u < n → ∃ l0 l1, nA.layers_cache[u]? = some (some l0) ∧
      nB.layers_cache[u]? = some (some l1) ∧
      ∀ s : CoglPipelineHashState, s.layer_differences = lm →
        ∃ s2, _cogl_pipeline_hash_layer_cb fns fuel cA s l0 = some (cA, s2, true) ∧
          _cogl_pipeline_hash_layer_cb fns fuel cB s l1 = some (cB, s2, true) ∧
          s2.layer_differences = lm) :
    ∀ (remaining i : Nat) (s : CoglPipelineHashState), i + remaining = n →
      s.layer_differences = lm →
      ∃ s2, foreach_layer_internal_loop a0 (_cogl_pipeline_hash_layer_cb fns fuel) remaining i
          cA s = some (cA, s2) ∧
        foreach_layer_internal_loop a1 (_cogl_pipeline_hash_layer_cb fns fuel) remaining i
          cB s = some (cB, s2) ∧ s2.layer_differences = lm := by
  intro remaining
  induction remaining with
  | zero =>
    intro i s _ hs
    exact ⟨s, rfl, rfl, hs⟩
  | succ k ih =>
    intro i s hik hs
    obtain ⟨l0, l1, e0, e1, hcb⟩ := hslots i (by omega)
    obtain ⟨s1, h0, h1, hs1⟩ := hcb s hs
    obtain ⟨s2, g0, g1, hs2⟩ := ih (i + 1) s1 (by omega) hs1
    refine ⟨s2, ?_, ?_, hs2⟩
    · rw [foreach_layer_internal_loop]
      simp only [hA, hdA, Bool.false_eq_true, if_false, e0, h0, g0]
    · rw [foreach_layer_internal_loop]
      simp only [hB, hdB, Bool.false_eq_true, if_false, e1, h1, g1]

theorem layers_equal_true_parts {fns : CoglPipelineStateFuncs} {ctx out : CoglContext}
    {fuel a0 a1 lm flags : Nat}
    (h : _cogl_pipeline_layers_equal fns ctx fuel a0 a1 lm flags = some (out, true)) :
    ∃ x0 x1, ctx.pipeline a0 = some x0 ∧ ctx.pipeline a1 = some x1 ∧
      x0.n_layers = x1.n_layers ∧
      ∃ c1 c2 b0 b1, _cogl_pipeline_update_layers_cache fuel ctx a0 = some c1 ∧
        _cogl_pipeline_update_layers_cache fuel c1 a1 = some c2 ∧
        c2.pipeline a0 = some b0 ∧ c2.pipeline a1 = some b1 ∧
        layers_equal_loop fns c2 fuel lm flags b0.layers_cache b1.layers_cache b0.n_layers =
          some true := by
  unfold _cogl_pipeline_layers_equal at h
  simp only [Option.bind_eq_bind, Option.pure_def] at h
  obtain ⟨x0, hx0, h⟩ := Option.bind_eq_some.mp h
  obtain ⟨x1, hx1, h⟩ := Option.bind_eq_some.mp h
  by_cases hn : x0.n_layers ≠ x1.n_layers
  · rw [if_pos hn] at h
    simp at h
  · rw [if_neg hn] at h
    obtain ⟨c1, hc1, h⟩ := Option.bind_eq_some.mp h
    obtain ⟨c2, hc2, h⟩ := Option.bind_eq_some.mp h
    obtain ⟨b0, hb0, h⟩ := Option.bind_eq_some.mp h
    obtain ⟨b1, hb1, h⟩ := Option.bind_eq_some.mp h
    obtain ⟨r, hr, h⟩ := Option.bind_eq_some.mp h
    simp only [Option.some.injEq, Prod.mk.injEq] at h
    rw [h.2] at hr
    exact ⟨x0, x1, hx0, hx1, by simpa using hn, c1, c2, b0, b1, hc1, hc2, hb0, hb1, hr⟩
theorem hash_layers_state_unfold {fns : CoglPipelineStateFuncs} {ctx c1 : CoglContext}
    {fuel a : Nat} {x : CoglPipeline} (s : CoglPipelineHashState)
    (hx : ctx.pipeline a = some x)
    (hauth : _cogl_pipeline_get_authority ctx fuel a COGL_PIPELINE_STATE_LAYERS = some a)
    (hN : x.n_layers ≠ 0)
    (hupd : _cogl_pipeline_update_layers_cache fuel ctx a = some c1) :
    _cogl_pipeline_hash_layers_state fns fuel ctx a s =
      foreach_layer_internal_loop a (_cogl_pipeline_hash_layer_cb fns fuel) x.n_layers 0 c1
        { s with hash := fns.one_at_a_time_hash s.hash x.n_layers 4 } := by
  unfold _cogl_pipeline_hash_layers_state _cogl_pipeline_foreach_layer_internal
  simp only [hx, hauth, if_neg hN, hupd]

theorem hash_layers_state_empty {fns : CoglPipelineStateFuncs} {ctx : CoglContext}
    {fuel a : Nat} {x : CoglPipeline} (s : CoglPipelineHashState)
    (hx : ctx.pipeline a = some x)
    (hauth : _cogl_pipeline_get_authority ctx fuel a COGL_PIPELINE_STATE_LAYERS = some a)
    (hN : x.n_layers = 0) :
    _cogl_pipeline_hash_layers_state fns fuel ctx a s =
      some (ctx, { s with hash := fns.one_at_a_time_hash s.hash x.n_layers 4 }) := by
  unfold _cogl_pipeline_hash_layers_state _cogl_pipeline_foreach_layer_internal
  simp only [hx, hauth, if_pos hN]

/-- The function `_cogl_pipeline_hash_layers_state` returns one state on two `LAYERS`
authorities that are one pipeline or that `_cogl_pipeline_layers_equal` accepts, when
their layers are in order under a root layer that asserts every sparse layer group
and the layer hash functions agree on arrays of authorities that are alike. -/
theorem hash_layers_state_agree {fns : CoglPipelineStateFuncs} {ctx : CoglContext}
    {fuel f0 a0 a1 lroot lm flags : Nat}
    (hlroot : node_asserts_all (layer_view ctx) COGL_PIPELINE_LAYER_STATE_ALL_SPARSE lroot)
    (hf0 : f0 ≤ fuel)
    (hauth0 : _cogl_pipeline_get_authority ctx fuel a0 COGL_PIPELINE_STATE_LAYERS = some a0)
    (hauth1 : _cogl_pipeline_get_authority ctx fuel a1 COGL_PIPELINE_STATE_LAYERS = some a1)
    (hord0 : layers_in_order ctx fuel f0 a0 lroot)
    (hord1 : layers_in_order ctx fuel f0 a1 lroot)
    (hcmp : a0 = a1 ∨
      ∃ out, _cogl_pipeline_layers_equal fns ctx fuel a0 a1 lm flags = some (out, true))
    (hlcompat : ∀ i, i < 9 → lm &&& (1 <<< i) ≠ 0 → ∀ R0 R1 x y s,
      R0[i]? = some (some x) → R1[i]? = some (some y) →
      layer_authorities_alike fns ctx.textures lm flags R0 R1 →
      fns.layer_hash i ctx.textures x R0 s = fns.layer_hash i ctx.textures y R1 s)
    (hlkeep : ∀ i tex x R s, (fns.layer_hash i tex x R s).layer_differences =
      s.layer_differences)
    (s : CoglPipelineHashState) (hs : s.layer_differences = lm) :
    ∃ cA cB s2, _cogl_pipeline_hash_layers_state fns fuel ctx a0 s = some (cA, s2) ∧
      _cogl_pipeline_hash_layers_state fns fuel ctx a1 s = some (cB, s2) ∧
      same_but_caches ctx cA ∧ same_but_caches ctx cB ∧ s2.layer_differences = lm := by
  obtain ⟨x0, hx0⟩ : ∃ x0, ctx.pipeline a0 = some x0 := by
    obtain ⟨n, _, hn, _⟩ := hord0
    exact ⟨n, hn⟩
  obtain ⟨x1, hx1⟩ : ∃ x1, ctx.pipeline a1 = some x1 := by
    obtain ⟨n, _, hn, _⟩ := hord1
    exact ⟨n, hn⟩
  rcases hcmp with hsame | ⟨out, hle⟩
  · subst hsame
    rw [hx0] at hx1
    have := Option.some.inj hx1
    subst this
    by_cases hN : x0.n_layers = 0
    · rw [hash_layers_state_empty s hx0 hauth0 hN]
      exact ⟨ctx, ctx, _, rfl, rfl, same_but_caches_refl ctx, same_but_caches_refl ctx, hs⟩
    · obtain ⟨c1, n1, hupd, hn1, hd1, hnl, hslots⟩ :=
        update_layers_cache_ready hord0 hx0 (Nat.pos_of_ne_zero hN)
      have hfr := update_layers_cache_frame hupd
      rw [hash_layers_state_unfold s hx0 hauth0 hN hupd]
      obtain ⟨s2, h0, _, hs2⟩ := @foreach_layer_hash_lockstep fns c1 c1 fuel a0 a0 lm n1 n1
        hn1 hn1 hd1 hd1 x0.n_layers (by
          intro u hu
          obtain ⟨L, hL, hLu, hLr⟩ := hslots u hu
          refine ⟨L, L, hL, hL, fun t ht => ?_⟩
          exact hash_layer_cb_agree hlroot hLr hLr hf0 hLu hLu
            (by unfold _cogl_pipeline_layer_equal; rw [if_pos rfl]) hfr.1 hfr.2.1 hfr.1 hfr.2.1
            hlcompat hlkeep t ht) x0.n_layers 0
          { s with hash := fns.one_at_a_time_hash s.hash x0.n_layers 4 } (by omega) hs
      have hsc := update_layers_cache_caches hupd
      exact ⟨c1, c1, s2, h0, h0, hsc, hsc, hs2⟩
  · obtain ⟨y0, y1, hy0, hy1, hnn, c1, c2, b0, b1, hc1, hc2, hb0, hb1, hloop⟩ :=
      layers_equal_true_parts hle
    rw [hx0] at hy0
    rw [hx1] at hy1
    have e0 := Option.some.inj hy0
    have e1 := Option.some.inj hy1
    subst e0
    subst e1
    by_cases hN : x0.n_layers = 0
    · have hN1 : x1.n_layers = 0 := by rw [← hnn]; exact hN
      rw [hash_layers_state_empty s hx0 hauth0 hN, hash_layers_state_empty s hx1 hauth1 hN1,
        hnn]
      exact ⟨ctx, ctx, _, rfl, rfl, same_but_caches_refl ctx, same_but_caches_refl ctx, hs⟩
    · have hN1 : x1.n_layers ≠ 0 := by rw [← hnn]; exact hN
      by_cases ha : a0 = a1
      · -- one pipeline: the first case
        subst ha
        obtain ⟨c1', n1, hupd, hn1, hd1, hnl, hslots⟩ :=
          update_layers_cache_ready hord0 hx0 (Nat.pos_of_ne_zero hN)
        have hfr := update_layers_cache_frame hupd
        rw [hash_layers_state_unfold s hx0 hauth0 hN hupd]
        obtain ⟨s2, h0, _, hs2⟩ := @foreach_layer_hash_lockstep fns c1' c1' fuel a0 a0 lm n1 n1
          hn1 hn1 hd1 hd1 x0.n_layers (by
            intro u hu
            obtain ⟨L, hL, hLu, hLr⟩ := hslots u hu
            refine ⟨L, L, hL, hL, fun t ht => ?_⟩
            exact hash_layer_cb_agree hlroot hLr hLr hf0 hLu hLu
              (by unfold _cogl_pipeline_layer_equal; rw [if_pos rfl]) hfr.1 hfr.2.1 hfr.1
              hfr.2.1 hlcompat hlkeep t ht) x0.n_layers 0
          { s with hash := fns.one_at_a_time_hash s.hash x0.n_layers 4 } (by omega) hs
        have hsc := update_layers_cache_caches hupd
        exact ⟨c1', c1', s2, h0, h0, hsc, hsc, hs2⟩
      obtain ⟨c1', n1, hupd0, hn1, hd1, hnl1, hslots0⟩ :=
        update_layers_cache_ready hord0 hx0 (Nat.pos_of_ne_zero hN)
      rw [hc1] at hupd0
      have := Option.some.inj hupd0
      subst this
      have hsc1 := update_layers_cache_caches hc1
      have hfr1 := update_layers_cache_frame hc1
      have hfr2 := update_layers_cache_frame hc2
      obtain ⟨cB, hupdB, hBrec⟩ := update_layers_cache_congr hsc1
        (update_layers_cache_frame_ne hc1 a1 (Ne.symm ha)) hc2
      obtain ⟨cB', m1, hupd1, hm1, hdm1, hnlm, hslots1⟩ :=
        update_layers_cache_ready hord1 hx1 (Nat.pos_of_ne_zero hN1)
      rw [hupdB] at hupd1
      have := Option.some.inj hupd1
      subst this
      have hscB := update_layers_cache_caches hupdB
      have hfrB := update_layers_cache_frame hupdB
      -- the records that the comparison read
      have hb0n : b0 = n1 := by
        rw [update_layers_cache_frame_ne hc2 a0 ha, hn1] at hb0
        exact (Option.some.inj hb0).symm
      have hb1m : b1 = m1 := by
        rw [← hBrec, hm1] at hb1
        exact (Option.some.inj hb1).symm
      subst hb0n
      subst hb1m
      rw [hash_layers_state_unfold s hx0 hauth0 hN hc1,
        hash_layers_state_unfold s hx1 hauth1 hN1 hupdB, ← hnn]
      have hslots := layers_equal_loop_true _ _ _ hloop
      obtain ⟨s2, h0, h1, hs2⟩ := @foreach_layer_hash_lockstep fns c1 cB fuel a0 a1 lm b0 b1
        hn1 hm1 hd1 hdm1 x0.n_layers (by
          intro u hu
          obtain ⟨L0, hL0, hLu0, hLr0⟩ := hslots0 u hu
          obtain ⟨L1, hL1, hLu1, hLr1⟩ := hslots1 u (by rw [← hnn]; exact hu)
          obtain ⟨l0, l1, k0, k1, hl⟩ := hslots u (by rw [hnl1]; exact hu)
          rw [hL0] at k0
          rw [hL1] at k1
          simp only [Option.some.injEq] at k0 k1
          subst k0
          subst k1
          refine ⟨L0, L1, hL0, hL1, fun t ht => ?_⟩
          rw [layer_equal_congr (hfr2.1.trans hfr1.1) (hfr2.2.1.trans hfr1.2.1)] at hl
          exact hash_layer_cb_agree hlroot hLr0 hLr1 hf0 hLu0 hLu1 hl hfr1.1 hfr1.2.1 hfrB.1
            hfrB.2.1 hlcompat hlkeep t ht) x0.n_layers 0
          { s with hash := fns.one_at_a_time_hash s.hash x0.n_layers 4 } (by omega) hs
      exact ⟨c1, cB, s2, h0, h1, hsc1, hscB, hs2⟩
/-- The two loops of `_cogl_pipeline_hash` over two arrays of authorities whose
entries hash alike under every group of the mask, the layers included, return one
`final_hash`. -/
theorem hash_loop_lockstep_layers {fns : CoglPipelineStateFuncs} {ctx : CoglContext}
    {fuel mask lm : Nat} {A0 A1 : List (Option Nat)}
    (hcache : ∀ i hf, state_hash_functions fns i = some hf → ∀ a s, hf a s = hf a.uncached s)
    (hkeep : ∀ i hf, state_hash_functions fns i = some hf →
      ∀ a s, (hf a s).layer_differences = s.layer_differences)
    (hstep : ∀ i, i < 13 → i ≠ COGL_PIPELINE_STATE_LAYERS_INDEX → mask &&& (1 <<< i) ≠ 0 →
      ∃ a0 a1 r0 r1 hf, A0[i]? = some (some a0) ∧ A1[i]? = some (some a1) ∧
        ctx.pipeline a0 = some r0 ∧ ctx.pipeline a1 = some r1 ∧
        state_hash_functions fns i = some hf ∧ ∀ s, hf r0 s = hf r1 s)
    (hlayers : mask &&& (1 <<< COGL_PIPELINE_STATE_LAYERS_INDEX) ≠ 0 →
      ∃ a0 a1, A0[COGL_PIPELINE_STATE_LAYERS_INDEX]? = some (some a0) ∧
        A1[COGL_PIPELINE_STATE_LAYERS_INDEX]? = some (some a1) ∧
        ∀ s : CoglPipelineHashState, s.layer_differences = lm →
          ∃ cA cB s2, _cogl_pipeline_hash_layers_state fns fuel ctx a0 s = some (cA, s2) ∧
            _cogl_pipeline_hash_layers_state fns fuel ctx a1 s = some (cB, s2) ∧
            same_but_caches ctx cA ∧ same_but_caches ctx cB ∧ s2.layer_differences = lm) :
    ∀ (remaining i : Nat) (cA cB : CoglContext) (state : CoglPipelineHashState) (final : Nat),
      i + remaining = 13 → same_but_caches ctx cA → same_but_caches ctx cB →
      (i ≤ COGL_PIPELINE_STATE_LAYERS_INDEX → cA = ctx ∧ cB = ctx) →
      state.layer_differences = lm →
      ∃ oA oB f, hash_loop fns fuel A0 mask remaining i cA state final = some (oA, f) ∧
        hash_loop fns fuel A1 mask remaining i cB state final = some (oB, f) := by
  intro remaining
  induction remaining with
  | zero =>
    intro i cA cB state final _ _ _ _ _
    exact ⟨cA, cB, final, rfl, rfl⟩
  | succ k ih =>
    intro i cA cB state final hik hsA hsB hctx hst
    have hi : i < 13 := by omega
    rw [hash_loop, hash_loop]
    by_cases hb : mask &&& (1 <<< i) ≠ 0
    · by_cases hi2 : i = COGL_PIPELINE_STATE_LAYERS_INDEX
      · subst hi2
        obtain ⟨hcA, hcB⟩ := hctx (Nat.le_refl _)
        subst hcA
        subst hcB
        obtain ⟨a0, a1, e0, e1, hag⟩ := hlayers hb
        obtain ⟨oA, oB, s2, h0, h1, sA, sB, hs2⟩ := hag state hst
        simp only [if_pos hb, e0, e1, state_hash_call, if_true, h0, h1]
        split
        · exact ⟨_, _, _, rfl, rfl⟩
        · exact ih _ oA oB s2 _ (by omega) sA sB
            (fun h => absurd h (by simp [COGL_PIPELINE_STATE_LAYERS_INDEX])) hs2
      · obtain ⟨a0, a1, r0, r1, hf, e0, e1, x0, x1, hhf, hsame⟩ := hstep i hi hi2 hb
        obtain ⟨q0, y0, u0⟩ := same_but_caches_pipeline hsA x0
        obtain ⟨q1, y1, u1⟩ := same_but_caches_pipeline hsB x1
        have hq0 : hf q0 state = hf r0 state := by
          rw [hcache i hf hhf q0, u0, ← hcache i hf hhf r0]
        have hq1 : hf q1 state = hf r0 state := by
          rw [hcache i hf hhf q1, u1, ← hcache i hf hhf r1, hsame]
        simp only [if_pos hb, e0, e1, state_hash_call, if_neg hi2, hhf, y0, y1, hq0, hq1]
        split
        · exact ⟨_, _, _, rfl, rfl⟩
        · exact ih _ cA cB _ _ (by omega) hsA hsB (fun h => hctx (by omega))
            (by rw [hkeep i hf hhf, hst])
    · simp only [if_neg hb]
      split
      · exact ⟨_, _, _, rfl, rfl⟩
      · exact ih _ cA cB _ _ (by omega) hsA hsB (fun h => hctx (by omega)) hst
theorem sparse_testBit (j : Nat) :
    COGL_PIPELINE_STATE_ALL_SPARSE.testBit j = true ↔ j < 13 := by
  constructor
  · intro h
    by_contra hj
    have hlt : COGL_PIPELINE_STATE_ALL_SPARSE < 2 ^ j :=
      Nat.lt_of_lt_of_le (by decide : COGL_PIPELINE_STATE_ALL_SPARSE < 2 ^ 13)
        (Nat.pow_le_pow_right (by decide) (by omega))
    rw [Nat.testBit_eq_false_of_lt hlt] at h
    exact absurd h (by simp)
  · intro hj
    interval_cases j <;> decide

theorem pipeline_get_authority_self {ctx : CoglContext} {f p a g : Nat}
    (h : _cogl_pipeline_get_authority ctx f p g = some a) :
    _cogl_pipeline_get_authority ctx f a g = some a := by
  obtain ⟨an, han, hd⟩ := pipeline_get_authority_asserts _ _ _ h
  cases f with
  | zero => exact absurd h (by simp [_cogl_pipeline_get_authority])
  | succ k =>
    rw [_cogl_pipeline_get_authority]
    simp only [han, if_pos hd]

theorem pipeline_hash_unfold {fns : CoglPipelineStateFuncs} {ctx o : CoglContext}
    {fuel p mask lm flags f : Nat} {node : CoglPipeline} {A : List (Option Nat)}
    (hn : ctx.pipeline p = some node)
    (hA : _cogl_pipeline_resolve_authorities ctx fuel p (mask &&& COGL_PIPELINE_STATE_ALL_SPARSE)
      (List.replicate COGL_PIPELINE_STATE_SPARSE_COUNT none) = some A)
    (hloop : hash_loop fns fuel A mask COGL_PIPELINE_STATE_SPARSE_COUNT 0 ctx
      (if mask &&& COGL_PIPELINE_STATE_REAL_BLEND_ENABLE ≠ 0 then
        { hash := fns.one_at_a_time_hash 0 (if node.real_blend_enable then 1 else 0) 4,
          layer_differences := lm, flags := flags }
       else { hash := 0, layer_differences := lm, flags := flags }) 0 = some (o, f)) :
    _cogl_pipeline_hash fns fuel ctx p mask lm flags =
      some (o, _cogl_util_one_at_a_time_mix f) := by
  unfold _cogl_pipeline_hash
  simp only [hn, hA]
  rw [hloop]

/-- C7 (amended): equal pipelines hash alike over the groups that are compared, the
layers included. Let `p0` and `p1` be distinct pipelines under one root that asserts
every sparse group. Let the comparators accept a record against itself; let the hash
function of every state group give one value on two records that the comparator of
the group accepts, not read the layers cache and leave the layer mask of the hash
state alone. Let `mask` leave out `BLEND_ENABLE`, and `BLEND` as well when
`p0->real_blend_enable` is false. When `LAYERS` is in `mask`, let the layers of the
two `LAYERS` authorities be in order under a root layer `lroot` that asserts every
sparse layer group, and let the layer hash functions of the groups of `layer_mask`
give one value on two arrays of layer authorities that are alike under `layer_mask`,
and leave the layer mask of the hash state alone. If `_cogl_pipeline_equal (p0, p1,
mask, layer_mask, flags)` returns true, then `_cogl_pipeline_hash` returns for `p0`
and for `p1` under the same masks and flags, and the two values are the same. -/
theorem equal_true_gives_equal_hash (fns : CoglPipelineStateFuncs)
    (ctx out : CoglContext) (fuel f0 p0 p1 c root lroot : Nat) (xs ys ct : List Nat)
    (mask layer_mask flags : Nat) (n0 : CoglPipeline) (hne : p0 ≠ p1)
    (hp0 : pipeline_path ctx p0 (xs ++ c :: ct)) (hp1 : pipeline_path ctx p1 (ys ++ c :: ct))
    (hmax : ∀ x y, xs.getLast? = some x → ys.getLast? = some y → x ≠ y)
    (hf0 : (xs ++ c :: ct).length ≤ fuel) (hf1 : (ys ++ c :: ct).length ≤ fuel)
    (hlast : (c :: ct).getLast? = some root)
    (hroot : node_asserts_all (pipeline_view ctx) COGL_PIPELINE_STATE_ALL_SPARSE root)
    (hrefl : ∀ i cmp r, state_comparitor fns i = some cmp → cmp r r = true)
    (hcompat : ∀ i cmp hf, state_comparitor fns i = some cmp →
      state_hash_functions fns i = some hf → ∀ a b s, cmp a b = true → hf a s = hf b s)
    (hcache : ∀ i hf, state_hash_functions fns i = some hf → ∀ a s, hf a s = hf a.uncached s)
    (hkeep : ∀ i hf, state_hash_functions fns i = some hf →
      ∀ a s, (hf a s).layer_differences = s.layer_differences)
    (hlroot : node_asserts_all (layer_view ctx) COGL_PIPELINE_LAYER_STATE_ALL_SPARSE lroot)
    (hlayers : mask &&& COGL_PIPELINE_STATE_LAYERS ≠ 0 → ∀ a,
      (_cogl_pipeline_get_authority ctx fuel p0 COGL_PIPELINE_STATE_LAYERS = some a ∨
        _cogl_pipeline_get_authority ctx fuel p1 COGL_PIPELINE_STATE_LAYERS = some a) →
      layers_in_order ctx fuel f0 a lroot)
    (hlcompat : ∀ i, i < COGL_PIPELINE_LAYER_STATE_COUNT → layer_mask &&& (1 <<< i) ≠ 0 →
      ∀ R0 R1 x y s, R0[i]? = some (some x) → R1[i]? = some (some y) →
      layer_authorities_alike fns ctx.textures layer_mask flags R0 R1 →
      fns.layer_hash i ctx.textures x R0 s = fns.layer_hash i ctx.textures y R1 s)
    (hlkeep : ∀ i tex x R s, (fns.layer_hash i tex x R s).layer_differences =
      s.layer_differences)
    (hn0 : ctx.pipeline p0 = some n0)
    (hmE : mask &&& COGL_PIPELINE_STATE_BLEND_ENABLE = 0)
    (hmB : n0.real_blend_enable = false → mask &&& COGL_PIPELINE_STATE_BLEND = 0)
    (heq : _cogl_pipeline_equal fns ctx fuel p0 p1 mask layer_mask flags = some (out, true)) :
    ∃ o0 o1 h, _cogl_pipeline_hash fns fuel ctx p0 mask layer_mask flags = some (o0, h) ∧
      _cogl_pipeline_hash fns fuel ctx p1 mask layer_mask flags = some (o1, h) := by
  obtain ⟨n1, hn1⟩ : ∃ n1, ctx.pipeline p1 = some n1 := by
    obtain ⟨r, hr⟩ := node_path_head hp1
    exact pipeline_of_mem_path hp1 (by rw [hr]; exact List.mem_cons_self _ _)
  have hd := node_compare_differences_spec (pipeline_view ctx) p0 p1 fuel c xs ys ct hp0 hp1 hmax
    hf0 hf1
  obtain ⟨hrbe, B0, B1, hB0, hB1, hgroups⟩ := equal_true_parts hne hn0 hn1 hd heq
  have hholds : ∀ i, i < 13 → i ≠ COGL_PIPELINE_STATE_LAYERS_INDEX → mask &&& (1 <<< i) ≠ 0 →
      comparator_holds fns ctx fuel p0 p1 i = true := by
    intro i hi hil hm
    refine equal_true_group hp0 hp1 hf0 hf1 hlast hroot hrefl hB0 hB1 hgroups i hi hm ?_ hil ?_
    · intro h
      rw [h] at hm
      exact hm hmE
    · intro h
      by_contra hb
      rw [h] at hm
      exact hm (hmB (by simpa using hb))
  have hrootin0 : root ∈ xs ++ c :: ct :=
    List.mem_append_right _ (List.mem_of_getLast?_eq_some hlast)
  have hrootin1 : root ∈ ys ++ c :: ct :=
    List.mem_append_right _ (List.mem_of_getLast?_eq_some hlast)
  have hbits : ∀ (path : List Nat), root ∈ path → ∀ j,
      (mask &&& COGL_PIPELINE_STATE_ALL_SPARSE).testBit j = true →
      j < (List.replicate COGL_PIPELINE_STATE_SPARSE_COUNT (none : Option Nat)).length ∧
        ∃ m ∈ path, node_asserts (pipeline_view ctx) (1 <<< j) m := by
    intro path hin j hj
    rw [Nat.testBit_and] at hj
    have hj13 : j < 13 := (sparse_testBit j).1 (by
      cases hx : COGL_PIPELINE_STATE_ALL_SPARSE.testBit j with
      | true => rfl
      | false => rw [hx] at hj; simp at hj)
    exact ⟨by simpa [COGL_PIPELINE_STATE_SPARSE_COUNT] using hj13, root, hin,
      node_asserts_of_all hroot (sparse_bit_and j hj13).1 (sparse_bit_and j hj13).2⟩
  obtain ⟨A0, hA0, -, hs0⟩ := node_resolve_authorities_returns (pipeline_view ctx) _ p0 fuel
    (mask &&& COGL_PIPELINE_STATE_ALL_SPARSE)
    (List.replicate COGL_PIPELINE_STATE_SPARSE_COUNT none) hp0 hf0 (hbits _ hrootin0)
  obtain ⟨A1, hA1, -, hs1⟩ := node_resolve_authorities_returns (pipeline_view ctx) _ p1 fuel
    (mask &&& COGL_PIPELINE_STATE_ALL_SPARSE)
    (List.replicate COGL_PIPELINE_STATE_SPARSE_COUNT none) hp1 hf1 (hbits _ hrootin1)
  have hbit : ∀ i, i < 13 → mask &&& (1 <<< i) ≠ 0 →
      (mask &&& COGL_PIPELINE_STATE_ALL_SPARSE).testBit i = true := by
    intro i hi hm
    rw [Nat.testBit_and, (and_bit_ne_zero mask i).1 hm, (sparse_testBit i).2 hi]
    rfl
  have hstep : ∀ i, i < 13 → i ≠ COGL_PIPELINE_STATE_LAYERS_INDEX → mask &&& (1 <<< i) ≠ 0 →
      ∃ a0 a1 r0 r1 hf, A0[i]? = some (some a0) ∧ A1[i]? = some (some a1) ∧
        ctx.pipeline a0 = some r0 ∧ ctx.pipeline a1 = some r1 ∧
        state_hash_functions fns i = some hf ∧ ∀ s, hf r0 s = hf r1 s := by
    intro i hi hil hm
    obtain ⟨a0, a1, r0, r1, cmp, e0, e1, x0, x1, ec, hc⟩ :=
      authority_record_of_holds (hholds i hi hil hm)
    obtain ⟨hf, hhf⟩ := state_hash_functions_some fns i hi hil
    obtain ⟨b0, hb0, hg0⟩ := (hs0 i).1 (hbit i hi hm)
    obtain ⟨b1, hb1, hg1⟩ := (hs1 i).1 (hbit i hi hm)
    rw [← pipeline_get_authority_eq, e0] at hg0
    rw [← pipeline_get_authority_eq, e1] at hg1
    rw [← Option.some.inj hg0] at hb0
    rw [← Option.some.inj hg1] at hb1
    exact ⟨a0, a1, r0, r1, hf, hb0, hb1, x0, x1, hhf, fun s => hcompat i cmp hf ec hhf _ _ s hc⟩
  have hlay : mask &&& (1 <<< COGL_PIPELINE_STATE_LAYERS_INDEX) ≠ 0 →
      ∃ a0 a1, A0[COGL_PIPELINE_STATE_LAYERS_INDEX]? = some (some a0) ∧
        A1[COGL_PIPELINE_STATE_LAYERS_INDEX]? = some (some a1) ∧
        ∀ s : CoglPipelineHashState, s.layer_differences = layer_mask →
          ∃ cA cB s2, _cogl_pipeline_hash_layers_state fns fuel ctx a0 s = some (cA, s2) ∧
            _cogl_pipeline_hash_layers_state fns fuel ctx a1 s = some (cB, s2) ∧
            same_but_caches ctx cA ∧ same_but_caches ctx cB ∧
            s2.layer_differences = layer_mask := by
    intro hm
    have hmL : mask &&& COGL_PIPELINE_STATE_LAYERS ≠ 0 := hm
    have hlc := equal_true_layers hp0 hp1 hf0 hf1 hlast hroot hB0 hB1 hgroups hmL
    unfold layers_comparator_holds at hlc
    cases g0 : _cogl_pipeline_get_authority ctx fuel p0 COGL_PIPELINE_STATE_LAYERS with
    | none => rw [g0] at hlc; simp at hlc
    | some a0 =>
      cases g1 : _cogl_pipeline_get_authority ctx fuel p1 COGL_PIPELINE_STATE_LAYERS with
      | none => rw [g0, g1] at hlc; simp at hlc
      | some a1 =>
        rw [g0, g1] at hlc
        simp only at hlc
        have hcmp : a0 = a1 ∨ ∃ out2,
            _cogl_pipeline_layers_equal fns ctx fuel a0 a1 layer_mask flags =
              some (out2, true) := by
          by_cases ha : a0 = a1
          · exact Or.inl ha
          · rw [if_neg ha] at hlc
            cases hle : _cogl_pipeline_layers_equal fns ctx fuel a0 a1 layer_mask flags with
            | none => rw [hle] at hlc; simp at hlc
            | some r =>
              obtain ⟨o2, b⟩ := r
              rw [hle] at hlc
              simp only at hlc
              rw [hlc]
              exact Or.inr ⟨o2, rfl⟩
        obtain ⟨b0, hb0, hg0⟩ := (hs0 2).1 (hbit 2 (by decide) hm)
        obtain ⟨b1, hb1, hg1⟩ := (hs1 2).1 (hbit 2 (by decide) hm)
        have g0' : _cogl_pipeline_get_authority ctx fuel p0 (1 <<< 2) = some a0 := g0
        have g1' : _cogl_pipeline_get_authority ctx fuel p1 (1 <<< 2) = some a1 := g1
        rw [← pipeline_get_authority_eq, g0'] at hg0
        rw [← pipeline_get_authority_eq, g1'] at hg1
        rw [← Option.some.inj hg0] at hb0
        rw [← Option.some.inj hg1] at hb1
        have hord0 := hlayers hmL a0 (Or.inl g0)
        have hord1 := hlayers hmL a1 (Or.inr g1)
        have hfl : f0 ≤ fuel := by
          obtain ⟨_, path, _, _, hle, _⟩ := hord0
          omega
        refine ⟨a0, a1, hb0, hb1, fun s hs => ?_⟩
        exact hash_layers_state_agree hlroot hfl (pipeline_get_authority_self g0)
          (pipeline_get_authority_self g1) hord0 hord1 hcmp hlcompat hlkeep s hs
  have hstate : (if mask &&& COGL_PIPELINE_STATE_REAL_BLEND_ENABLE ≠ 0 then
        ({ hash := fns.one_at_a_time_hash 0 (if n1.real_blend_enable = true then 1 else 0) 4,
           layer_differences := layer_mask, flags := flags } : CoglPipelineHashState)
      else { hash := 0, layer_differences := layer_mask, flags := flags }) =
      (if mask &&& COGL_PIPELINE_STATE_REAL_BLEND_ENABLE ≠ 0 then
        ({ hash := fns.one_at_a_time_hash 0 (if n0.real_blend_enable = true then 1 else 0) 4,
           layer_differences := layer_mask, flags := flags } : CoglPipelineHashState)
      else { hash := 0, layer_differences := layer_mask, flags := flags }) := by
    by_cases hm : mask &&& COGL_PIPELINE_STATE_REAL_BLEND_ENABLE ≠ 0
    · rw [if_pos hm, if_pos hm, hrbe hm]
    · rw [if_neg hm, if_neg hm]
  obtain ⟨oA, oB, f, hl0, hl1⟩ := hash_loop_lockstep_layers hcache hkeep hstep hlay 13 0 ctx ctx
    (if mask &&& COGL_PIPELINE_STATE_REAL_BLEND_ENABLE ≠ 0 then
        ({ hash := fns.one_at_a_time_hash 0 (if n0.real_blend_enable = true then 1 else 0) 4,
           layer_differences := layer_mask, flags := flags } : CoglPipelineHashState)
      else { hash := 0, layer_differences := layer_mask, flags := flags }) 0 rfl
    (same_but_caches_refl ctx) (same_but_caches_refl ctx) (fun _ => ⟨rfl, rfl⟩) (by
      split <;> rfl)
  refine ⟨oA, oB, _cogl_util_one_at_a_time_mix f, pipeline_hash_unfold hn0 hA0 hl0, ?_⟩
  refine pipeline_hash_unfold hn1 hA1 ?_
  rw [hstate]
  exact hl1
theorem state_hash_functions_none (fns : CoglPipelineStateFuncs) (i : Nat) (hi : 13 ≤ i) :
    state_hash_functions fns i = none := by
  unfold state_hash_functions
  simp only [COGL_PIPELINE_STATE_COLOR_INDEX, COGL_PIPELINE_STATE_BLEND_ENABLE_INDEX,
    COGL_PIPELINE_STATE_LIGHTING_INDEX, COGL_PIPELINE_STATE_ALPHA_FUNC_INDEX,
    COGL_PIPELINE_STATE_ALPHA_FUNC_REFERENCE_INDEX, COGL_PIPELINE_STATE_BLEND_INDEX,
    COGL_PIPELINE_STATE_USER_SHADER_INDEX, COGL_PIPELINE_STATE_DEPTH_INDEX,
    COGL_PIPELINE_STATE_FOG_INDEX, COGL_PIPELINE_STATE_CULL_FACE_INDEX,
    COGL_PIPELINE_STATE_POINT_SIZE_INDEX, COGL_PIPELINE_STATE_LOGIC_OPS_INDEX]
  iterate 12 rw [if_neg (show ¬ i = _ by omega)]

theorem reference_funcs_uncached (i : Nat)
    (hf : CoglPipeline → CoglPipelineHashState → CoglPipelineHashState)
    (hh : state_hash_functions reference_funcs i = some hf) (a : CoglPipeline)
    (s : CoglPipelineHashState) : hf a s = hf a.uncached s := by
  by_cases hi : i < 13
  · interval_cases i <;> cases hh <;> rfl
  · rw [state_hash_functions_none reference_funcs i (by omega)] at hh
    cases hh

theorem reference_funcs_keep (i : Nat)
    (hf : CoglPipeline → CoglPipelineHashState → CoglPipelineHashState)
    (hh : state_hash_functions reference_funcs i = some hf) (a : CoglPipeline)
    (s : CoglPipelineHashState) : (hf a s).layer_differences = s.layer_differences := by
  by_cases hi : i < 13
  · interval_cases i <;> cases hh <;> rfl
  · rw [state_hash_functions_none reference_funcs i (by omega)] at hh
    cases hh

theorem reference_layer_hash_keep (i : Nat) (tex : List CoglTexture) (x : CoglPipelineLayer)
    (R : List (Option CoglPipelineLayer)) (s : CoglPipelineHashState) :
    (reference_funcs.layer_hash i tex x R s).layer_differences = s.layer_differences := by
  show (reference_layer_hash i tex x R s).layer_differences = s.layer_differences
  unfold reference_layer_hash
  split_ifs <;> rfl

theorem reference_layer_hash_compatible (tex : List CoglTexture) (lm flags i : Nat)
    (hi : i < COGL_PIPELINE_LAYER_STATE_COUNT) (hm : lm &&& (1 <<< i) ≠ 0)
    (R0 R1 : List (Option CoglPipelineLayer)) (x y : CoglPipelineLayer)
    (s : CoglPipelineHashState) (h0 : R0[i]? = some (some x)) (h1 : R1[i]? = some (some y))
    (h : layer_authorities_alike reference_funcs tex lm flags R0 R1) :
    reference_funcs.layer_hash i tex x R0 s = reference_funcs.layer_hash i tex y R1 s := by
  obtain ⟨x2, y2, e0, e1, hor⟩ := h i hi hm
  rw [h0] at e0
  rw [h1] at e1
  simp only [Option.some.injEq] at e0 e1
  subst e0
  subst e1
  show reference_layer_hash i tex x R0 s = reference_layer_hash i tex y R1 s
  rcases hor with hxy | ⟨hi0, hu⟩ | ⟨cmp, hcmp, hc⟩
  · rw [hxy]
    rfl
  · subst hi0
    simp only [reference_layer_hash, if_true, hu]
  · have hi9 : i < 9 := hi
    interval_cases i
    · cases hcmp
    all_goals
      (cases hcmp
       simp only [reference_funcs, decide_eq_true_eq] at hc
       simp [reference_layer_hash, COGL_PIPELINE_LAYER_STATE_UNIT_INDEX,
         COGL_PIPELINE_LAYER_STATE_TEXTURE_TARGET_INDEX,
         COGL_PIPELINE_LAYER_STATE_TEXTURE_DATA_INDEX, COGL_PIPELINE_LAYER_STATE_FILTERS_INDEX,
         COGL_PIPELINE_LAYER_STATE_WRAP_MODES_INDEX, COGL_PIPELINE_LAYER_STATE_COMBINE_INDEX,
         COGL_PIPELINE_LAYER_STATE_COMBINE_CONSTANT_INDEX,
         COGL_PIPELINE_LAYER_STATE_USER_MATRIX_INDEX, hc])

theorem scenario_layer_pair_in_order (a L : Nat) (ha : a = 1 ∧ L = 3 ∨ a = 2 ∧ L = 4)
    (hpath : pipeline_path scenario_layer_pair a [a, 0])
    (hlist : layers_on_path scenario_layer_pair [a, 0] = [L])
    (hunit : _cogl_pipeline_layer_get_unit_index scenario_layer_pair 4 L = some 0)
    (hlp : layer_path scenario_layer_pair L [L, 0])
    (hrec : (scenario_layer_pair.pipeline a).map
      (fun n => (n.layers_cache_dirty, n.n_layers)) = some (true, 1)) :
    layers_in_order scenario_layer_pair 8 4 a 0 := by
  cases hn : scenario_layer_pair.pipeline a with
  | none => rw [hn] at hrec; exact absurd hrec (by simp)
  | some node =>
    rw [hn] at hrec
    simp only [Option.map_some', Option.some.injEq, Prod.mk.injEq] at hrec
    refine ⟨node, [a, 0], hn, hpath, by simp, fun _ => ⟨?_, ?_⟩, fun h => ?_⟩
    · intro M hM
      rw [hlist] at hM
      simp only [List.mem_singleton] at hM
      subst hM
      exact ⟨by rw [hunit]; rfl, [M, 0], hlp, by simp, by simp⟩
    · intro u hu
      rw [hrec.2] at hu
      refine ⟨L, by rw [hlist]; simp, ?_⟩
      unfold unit_of
      rw [hunit]
      simp only [Option.getD_some]
      omega
    · rw [hrec.1] at h
      exact absurd h (by simp)

theorem equal_true_gives_equal_hash_witness :
    (1 ≠ 2 ∧ pipeline_path scenario_layer_pair 1 ([1] ++ 0 :: []) ∧
      pipeline_path scenario_layer_pair 2 ([2] ++ 0 :: []) ∧
      node_asserts_all (pipeline_view scenario_layer_pair) COGL_PIPELINE_STATE_ALL_SPARSE 0 ∧
      (8125 ||| 8192) &&& COGL_PIPELINE_STATE_LAYERS ≠ 0 ∧
      (_cogl_pipeline_equal reference_funcs scenario_layer_pair 8 1 2 (8125 ||| 8192) 511
        0).map Prod.snd = some true ∧
      (_cogl_pipeline_hash reference_funcs 8 scenario_layer_pair 1 (8125 ||| 8192) 511
        0).map Prod.snd = some 3332945829) ∧
    ∃ o0 o1 h,
      _cogl_pipeline_hash reference_funcs 8 scenario_layer_pair 1 (8125 ||| 8192) 511 0 =
        some (o0, h) ∧
      _cogl_pipeline_hash reference_funcs 8 scenario_layer_pair 2 (8125 ||| 8192) 511 0 =
        some (o1, h) :=
  have hp0 : pipeline_path scenario_layer_pair 1 ([1] ++ 0 :: []) := by decide!
  have hp1 : pipeline_path scenario_layer_pair 2 ([2] ++ 0 :: []) := by decide!
  have hroot : node_asserts_all (pipeline_view scenario_layer_pair)
      COGL_PIPELINE_STATE_ALL_SPARSE 0 := by decide!
  have heq : (_cogl_pipeline_equal reference_funcs scenario_layer_pair 8 1 2 (8125 ||| 8192)
      511 0).map Prod.snd = some true := by decide!
  have hh0 : (_cogl_pipeline_hash reference_funcs 8 scenario_layer_pair 1 (8125 ||| 8192) 511
      0).map Prod.snd = some 3332945829 := by decide!
  have g0 : _cogl_pipeline_get_authority scenario_layer_pair 8 1 COGL_PIPELINE_STATE_LAYERS =
      some 1 := by decide!
  have g1 : _cogl_pipeline_get_authority scenario_layer_pair 8 2 COGL_PIPELINE_STATE_LAYERS =
      some 2 := by decide!
  ⟨⟨by decide, hp0, hp1, hroot, by decide, heq, hh0⟩,
    equal_true_gives_equal_hash reference_funcs scenario_layer_pair
      (((_cogl_pipeline_equal reference_funcs scenario_layer_pair 8 1 2 (8125 ||| 8192) 511
        0).map Prod.fst).getD scenario_layer_pair)
      8 4 1 2 0 0 0 [1] [2] [] (8125 ||| 8192) 511 0
      (scenario_layer_pair.pipelines.getD 1 zeroed_pipeline) (by decide) hp0 hp1
      (by intro x y hx hy; simp at hx hy; omega) (by decide) (by decide) (by decide) hroot
      reference_funcs_reflexive reference_funcs_compatible reference_funcs_uncached
      reference_funcs_keep (by decide!)
      (fun _ a ha => by
        rcases ha with h | h
        · rw [g0] at h
          rw [← Option.some.inj h]
          exact scenario_layer_pair_in_order 1 3 (Or.inl ⟨rfl, rfl⟩) (by decide!) (by decide!)
            (by decide!) (by decide!) (by decide!)
        · rw [g1] at h
          rw [← Option.some.inj h]
          exact scenario_layer_pair_in_order 2 4 (Or.inr ⟨rfl, rfl⟩) (by decide!) (by decide!)
            (by decide!) (by decide!) (by decide!))
      (reference_layer_hash_compatible scenario_layer_pair.textures 511 0)
      reference_layer_hash_keep (by decide!) (by decide)
      (by intro _; decide) (option_pair_of_snd heq)⟩

end Cogl
